import Mathlib

/-!
# Mach-O writer (runtime/vm/mach_o.cc): shallow embedding

Conventions of the embedding.

* `intptr_t` sizes, offsets and counts are `Nat`; the write-once ("linear") fields
  `file_offset_`, `memory_address_`, `header_offset_`, `num_local_symbols_`,
  `num_external_symbols_` are `Int` with the sentinel `kLinearInitValue = -1`.
* A C string is a `String` holding one `Char` per byte; a nullable `const char*` is an
  `Option String`.
* An `ASSERT` that guards an argument or a state, and `UNREACHABLE()`, make the enclosing
  function return `none` (the `DEBUG`-only checks included). The `ASSERT`s of the layout
  traversal on its cursors and the assertions of the write-once setters it calls are not
  part of the step functions; the trailing `ASSERT_EQUAL` post-conditions of the traversal
  are stated and proved as theorems.
* Objects reachable through several pointers are stored once per owner and the writers
  keep the copies in step (see `MachOHeader`).
-/

namespace MachO

/-! ## Constants and helpers declared outside `mach_o.cc` -/

/-- Modelled from the spec: `Utils::RoundUp` (platform/utils.h is not among the sources)
rounds `x` up to the next multiple of a power-of-two `alignment`. -/
def RoundUp (x alignment : Nat) : Nat := (x + alignment - 1) / alignment * alignment

/-- Modelled from the spec: `Utils::IsPowerOfTwo` (platform/utils.h is not among the
sources): `x` is one of the powers of two that a 64-bit `intptr_t` can hold. -/
def IsPowerOfTwo (x : Nat) : Bool := (List.range 64).any fun k => x == 2 ^ k

/-- Modelled from the spec: `Utils::IsUint(N, value)` (platform/utils.h is not among the
sources): `value` fits in `N` unsigned bits. -/
def IsUint (N value : Nat) : Bool := decide (value < 2 ^ N)

/-- `ASSERT(condition)` as a step of a computation: no result when the condition is
false. -/
@[noinline]
def ASSERT (condition : Bool) : Option Unit := if condition then some () else none

/-- Platform and target constants that `mach_o.cc` consumes from headers which are not
among the sources (platform/mach_o.h, vm/mach_o.h, vm/dwarf.h, ...). They are parameters
of the embedding. -/
structure Target where
  /-- `compiler::target::kWordSize` in bytes. -/
  kWordSize : Nat
  /-- `MachOWriter::kPageSize`. -/
  kPageSize : Nat
  /-- `sizeof(mach_o::mach_header)` or `sizeof(mach_o::mach_header_64)`. -/
  sizeofHeaderType : Nat
  /-- `sizeof(mach_o::segment_command)` or its 64-bit variant. -/
  sizeofSegmentCommandType : Nat
  /-- `sizeof(mach_o::section)` or its 64-bit variant. -/
  sizeofSectionType : Nat
  /-- `sizeof(mach_o::nlist)`. -/
  sizeofNlist : Nat
  /-- `sizeof(mach_o::symtab_command)`. -/
  sizeofSymtabCommand : Nat
  /-- `sizeof(mach_o::dysymtab_command)`. -/
  sizeofDysymtabCommand : Nat
  /-- `sizeof(mach_o::uuid_command)`. -/
  sizeofUuidCommand : Nat
  /-- `sizeof(mach_o::build_version_command)`. -/
  sizeofBuildVersionCommand : Nat
  /-- `sizeof(mach_o::dylib_command)`. -/
  sizeofDylibCommand : Nat
  /-- `sizeof(mach_o::linkedit_data_command)`. -/
  sizeofLinkeditDataCommand : Nat
  /-- `sizeof(mach_o::cs_superblob)`. -/
  sizeofCsSuperblob : Nat
  /-- `sizeof(mach_o::cs_blob_index)`. -/
  sizeofCsBlobIndex : Nat
  /-- `sizeof(mach_o::cs_code_directory)`. -/
  sizeofCsCodeDirectory : Nat
  /-- `defined(DART_TARGET_OS_MACOS)`. -/
  targetOsMacOS : Bool
  /-- `defined(DART_TARGET_OS_MACOS_IOS)`. -/
  targetOsMacOSIOS : Bool
  /-- `defined(TARGET_ARCH_IA32)`. -/
  targetArchIA32 : Bool
  /-- `defined(TARGET_ARCH_IS_32_BIT)`. -/
  targetArchIs32Bit : Bool
  /-- `defined(UNWINDING_RECORDS_WINDOWS_PRECOMPILER)`. -/
  unwindingRecordsWindows : Bool
  /-- `UnwindingRecordsPlatform::SizeInBytes()`. -/
  unwindingRecordsSize : Nat
  /-- `BSS::kVmEntryCount`. -/
  kVmEntryCount : Nat
  /-- `BSS::kIsolateGroupEntryCount`. -/
  kIsolateGroupEntryCount : Nat
  /-- `SharedObjectWriter::kVmBssLabel`. -/
  kVmBssLabel : Int
  /-- `SharedObjectWriter::kIsolateBssLabel`. -/
  kIsolateBssLabel : Int
  /-- `SharedObjectWriter::kBuildIdLabel`. -/
  kBuildIdLabel : Int
  /-- `kVmSnapshotInstructionsAsmSymbol`. -/
  kVmSnapshotInstructionsAsmSymbol : String
  /-- `kIsolateSnapshotInstructionsAsmSymbol`. -/
  kIsolateSnapshotInstructionsAsmSymbol : String
  /-- `kVmSnapshotDataAsmSymbol`. -/
  kVmSnapshotDataAsmSymbol : String
  /-- `kIsolateSnapshotDataAsmSymbol`. -/
  kIsolateSnapshotDataAsmSymbol : String
  /-- `kVmSnapshotBssAsmSymbol`. -/
  kVmSnapshotBssAsmSymbol : String
  /-- `kIsolateSnapshotBssAsmSymbol`. -/
  kIsolateSnapshotBssAsmSymbol : String
  /-- Number of bytes `Dwarf::WriteCallFrameInformationRecords` emits for the given
  frame description entries `(label, size)`. -/
  callFrameInformationSize : List (Int × Nat) → Nat
  /-- `Utils::StringHash(bytes, size)`. -/
  stringHash : List Nat → Nat → Nat
  /-- `SHA256(data, len, digest)` of openssl: the digest of a chunk of bytes. -/
  SHA256 : List Nat → List Nat

/-- The sentinel of a write-once field that has not been set. -/
def kLinearInitValue : Int := -1

/-- `MachOWriteStream::kChunkSize`. -/
def kChunkSize : Nat := 1 <<< 12

/-- `MachOWriteStream::kHashSize` (`SHA256_DIGEST_LENGTH`). -/
def kHashSize : Nat := 32

/-- `MachOCodeSignature::kHeaderAlignment`. -/
def kHeaderAlignment : Nat := 8

/-- `MachOCodeSignature::kHashAlignment`. -/
def kHashAlignment : Nat := 16

/-! Names and symbol-type bits of platform/mach_o.h (the Mach-O format's values). -/

def SEG_TEXT : String := "__TEXT"
def SEG_DATA : String := "__DATA"
def SEG_DWARF : String := "__DWARF"
def SEG_LINKEDIT : String := "__LINKEDIT"
def SECT_TEXT : String := "__text"
def SECT_CONST : String := "__const"
def SECT_BSS : String := "__bss"
def SECT_EH_FRAME : String := "__eh_frame"
def SECT_UNWIND_INFO : String := "__unwind_info"
def SECT_DEBUG_ABBREV : String := "__debug_abbrev"
def SECT_DEBUG_INFO : String := "__debug_info"
def SECT_DEBUG_LINE : String := "__debug_line"

def NO_SECT : Nat := 0
def N_STAB : Nat := 0xe0
def N_PEXT : Nat := 0x10
def N_TYPE : Nat := 0x0e
def N_EXT : Nat := 0x01
def N_SECT : Nat := 0x0e
def N_GSYM : Nat := 0x20
def N_FUN : Nat := 0x24
def N_STSYM : Nat := 0x26
def N_BNSYM : Nat := 0x2e
def N_ENSYM : Nat := 0x4e
def N_OSO : Nat := 0x66
def N_ALT_ENTRY : Nat := 0x0200

def S_REGULAR : Nat := 0x0
def S_ZEROFILL : Nat := 0x1
def S_GB_ZEROFILL : Nat := 0xc
def S_NO_ATTRIBUTES : Nat := 0
def S_ATTR_PURE_INSTRUCTIONS : Nat := 0x80000000
def S_ATTR_SOME_INSTRUCTIONS : Nat := 0x00000400
def S_ATTR_DEBUG : Nat := 0x02000000

def VM_PROT_READ : Nat := 0x1
def VM_PROT_WRITE : Nat := 0x2
def VM_PROT_EXECUTE : Nat := 0x4

/-! ## Data model -/

/-- `SharedObjectWriter::SymbolData::Type`. -/
inductive SymbolDataType
  | Function
  | Section
  | Object
  deriving DecidableEq, Repr

/-- `SharedObjectWriter::SymbolData`: a symbol descriptor attached to a portion. -/
structure SymbolData where
  name : String
  type : SymbolDataType
  offset : Nat
  size : Nat
  label : Int
  deriving DecidableEq, Repr

/-- `MachOSection::Portion`. `bytes` and `relocations` are nullable pointers whose length
is carried separately by `size`. -/
structure Portion where
  offset : Nat
  symbol_name : Option String
  label : Int
  bytes : Option (List Nat)
  size : Nat
  relocations : Option (List Nat)
  symbols : Option (List SymbolData)
  deriving DecidableEq, Repr

/-- The fields `MachOSection` adds to `MachOContents`. -/
structure MachOSection where
  name_ : String
  flags_ : Nat
  alignment_ : Nat
  portions_ : List Portion
  deriving DecidableEq, Repr

/-- `MachOSymbolTable::Symbol`. -/
structure Symbol where
  name_index : Nat
  type : Nat
  section_index : Nat
  description : Nat
  value : Nat
  deriving DecidableEq, Repr

/-- `MachOSymbolTable::StringTable`: the text buffer and the index of every interned
string (`CStringIntMap`, kept as an association list in insertion order). -/
structure StringTable where
  text_ : List Char
  text_indices_ : List (String × Nat)
  deriving DecidableEq, Repr

/-- `MachOSymbolTable`. `by_label_index_` is the `IntMap` from labels to 1-based symbol
indices, kept as an association list in insertion order. -/
structure MachOSymbolTable where
  strings_ : StringTable
  symbols_ : List Symbol
  by_label_index_ : List (Int × Nat)
  max_label_ : Int
  num_local_symbols_ : Int
  num_external_symbols_ : Int
  file_offset_ : Int
  deriving DecidableEq, Repr

/-- Which `MachOSymbolTable` object a pointer designates: the header's member
`full_symtab_`, or the `i`-th table allocated in the zone. -/
inductive TableRef
  | full
  | zone (i : Nat)
  deriving DecidableEq, Repr

/-- The concrete non-segment subclasses of `MachOCommand`. -/
inductive CommandKind
  | uuid (hashes : List Nat)
  | buildVersion
  | idDylib (name : String) (current_version compatibility_version : Nat)
  | loadDylib (name : String) (timestamp current_version compatibility_version : Nat)
  | symbolTable (table : TableRef)
  | dynamicSymbolTable (table : TableRef)
  | codeSignature (identifier : String)
  deriving DecidableEq, Repr

/-- What a segment can contain: the header, a section, or a command with contents in
`__LINKEDIT`. -/
inductive ContentsKind
  | header
  | section (s : MachOSection)
  | symbolTable (table : TableRef)
  | dynamicSymbolTable (table : TableRef)
  | codeSignature (identifier : String)
  deriving DecidableEq, Repr

/-- A child of a segment: the `MachOContents` base fields and the subclass. -/
structure MachOContents where
  kind : ContentsKind
  file_offset_ : Int
  memory_address_ : Int
  deriving DecidableEq, Repr

/-- `MachOSegment` (its `MachOCommand` and `MachOContents` base fields included). -/
structure MachOSegment where
  name_ : String
  next_contents_index_ : Nat
  initial_vm_protection_ : Nat
  max_vm_protection_ : Nat
  contents_ : List MachOContents
  file_offset_ : Int
  memory_address_ : Int
  header_offset_ : Int
  deriving DecidableEq, Repr

/-- An element of `MachOHeader::commands_`. A command with contents that
`FinalizeCommands` places in `__LINKEDIT` is one object reachable from `commands_` and
from the segment; the segment's child carries the copy that layout writes. -/
inductive MachOCommand
  | segment (s : MachOSegment)
  | other (kind : CommandKind) (file_offset_ memory_address_ header_offset_ : Int)
  deriving DecidableEq, Repr

/-- `SharedObjectWriter::Type`. -/
inductive SnapshotType
  | Snapshot
  | DebugInfo
  deriving DecidableEq, Repr

/-- What the writer reads from `Dwarf`: the number of bytes of the abbreviation table,
of the debug information and of the line number program. -/
structure Dwarf where
  abbreviationsSize : Nat
  debugInfoSize : Nat
  lineNumberProgramSize : Nat
  deriving DecidableEq, Repr

/-- `MachOHeader`. `text_segment_` is the position in `commands_` of the segment the
pointer designates; `zone_symtabs_` are the symbol tables allocated with `new (zone())`. -/
structure MachOHeader where
  type_ : SnapshotType
  is_stripped_ : Bool
  identifier_ : String
  path_ : Option String
  dwarf_ : Option Dwarf
  commands_ : List MachOCommand
  full_symtab_ : MachOSymbolTable
  zone_symtabs_ : List MachOSymbolTable
  text_segment_ : Option Nat
  file_offset_ : Int
  memory_address_ : Int
  deriving DecidableEq, Repr

/-! ## Content queries (`MachOContents` and its subclasses) -/

/-- `MachOSection::SelfMemorySize`: the end of the last portion. `portions_.Last()` of
an empty array is outside the contract of `GrowableArray`; the embedding yields 0. -/
def MachOSection.SelfMemorySize (s : MachOSection) : Nat :=
  match s.portions_.getLast? with
  | some last => last.offset + last.size
  | none => 0

/-- `MachOSymbolTable::num_symbols`. -/
def MachOSymbolTable.num_symbols (t : MachOSymbolTable) : Nat := t.symbols_.length

/-- `MachOSymbolTable::StringTable::FileSize`. -/
def StringTable.FileSize (s : StringTable) : Nat := s.text_.length

/-- `MachOSymbolTable::SymbolsSize`. -/
def MachOSymbolTable.SymbolsSize (T : Target) (t : MachOSymbolTable) : Nat :=
  t.num_symbols * T.sizeofNlist

/-- `MachOSymbolTable::SelfMemorySize`. -/
def MachOSymbolTable.SelfMemorySize (T : Target) (t : MachOSymbolTable) : Nat :=
  t.SymbolsSize T + t.strings_.FileSize

/-- The table a pointer designates; a dangling zone index yields `none`. -/
def MachOHeader.table? (h : MachOHeader) : TableRef → Option MachOSymbolTable
  | .full => some h.full_symtab_
  | .zone i => h.zone_symtabs_.get? i

/-- `MachOSegment::NumSections`. -/
def MachOSegment.NumSections (s : MachOSegment) : Nat :=
  (s.contents_.filter fun c => match c.kind with
    | .section _ => true
    | _ => false).length

/-- `MachOSegment::cmdsize`: the segment command followed by one section header per
section; the result is a `uint32_t`. -/
def MachOSegment.cmdsize (T : Target) (s : MachOSegment) : Nat :=
  (T.sizeofSegmentCommandType + s.NumSections * T.sizeofSectionType) % 2 ^ 32

/-- The `cmdsize` override of each non-segment command; the result is a `uint32_t`. -/
def CommandKind.cmdsize (T : Target) : CommandKind → Nat
  | .uuid _ => T.sizeofUuidCommand % 2 ^ 32
  | .buildVersion => T.sizeofBuildVersionCommand % 2 ^ 32
  | .idDylib name _ _ => RoundUp (T.sizeofDylibCommand + name.length + 1) T.kWordSize % 2 ^ 32
  | .loadDylib name _ _ _ =>
      RoundUp (T.sizeofDylibCommand + name.length + 1) T.kWordSize % 2 ^ 32
  | .symbolTable _ => T.sizeofSymtabCommand % 2 ^ 32
  | .dynamicSymbolTable _ => T.sizeofDysymtabCommand % 2 ^ 32
  | .codeSignature _ => T.sizeofLinkeditDataCommand % 2 ^ 32

/-- `MachOCommand::cmdsize` (virtual). -/
def MachOCommand.cmdsize (T : Target) : MachOCommand → Nat
  | .segment s => s.cmdsize T
  | .other kind _ _ _ => kind.cmdsize T

/-- `MachOHeader::SizeWithoutLoadCommands`. -/
def MachOHeader.SizeWithoutLoadCommands (T : Target) (_h : MachOHeader) : Nat :=
  T.sizeofHeaderType

/-- `MachOHeader::SelfMemorySize`: the header record and every load command. -/
def MachOHeader.SelfMemorySize (T : Target) (h : MachOHeader) : Nat :=
  h.commands_.foldl (fun size command => size + command.cmdsize T) (h.SizeWithoutLoadCommands T)

/-- `MachOCodeSignature::DirectoryOffset`. -/
def MachOCodeSignature.DirectoryOffset (T : Target) : Nat :=
  RoundUp (T.sizeofCsSuperblob + T.sizeofCsBlobIndex) kHeaderAlignment

/-- `MachOCodeSignature::IdentOffset`. -/
def MachOCodeSignature.IdentOffset (T : Target) : Nat :=
  RoundUp (MachOCodeSignature.DirectoryOffset T + T.sizeofCsCodeDirectory) kHeaderAlignment -
    MachOCodeSignature.DirectoryOffset T

/-- `MachOCodeSignature::HashOffset`. -/
def MachOCodeSignature.HashOffset (T : Target) (identifier_ : String) : Nat :=
  RoundUp (MachOCodeSignature.DirectoryOffset T + MachOCodeSignature.IdentOffset T +
      identifier_.length + 1) kHashAlignment - MachOCodeSignature.DirectoryOffset T

/-- `MachOCodeSignature::ExpectedNumHashes`, from the signature's `file_offset()`
(C++ division truncates towards zero). -/
def MachOCodeSignature.ExpectedNumHashes (file_offset : Int) : Nat :=
  (Int.tdiv (file_offset + kChunkSize - 1) kChunkSize).toNat

/-- `MachOCodeSignature::DirectoryLength`. -/
def MachOCodeSignature.DirectoryLength (T : Target) (identifier_ : String)
    (file_offset : Int) : Nat :=
  MachOCodeSignature.HashOffset T identifier_ +
    MachOCodeSignature.ExpectedNumHashes file_offset * kHashSize

namespace MachOContents

/-- `HasContents` (virtual): `file_offset_ != 0`, overridden by the header. -/
def HasContents (c : MachOContents) : Bool :=
  match c.kind with
  | .header => true
  | _ => c.file_offset_ != 0

/-- `IsAllocated` (virtual): `memory_address_ != 0`, overridden by the header. -/
def IsAllocated (c : MachOContents) : Bool :=
  match c.kind with
  | .header => true
  | _ => c.memory_address_ != 0

/-- `Alignment` (virtual). -/
def Alignment (T : Target) (c : MachOContents) : Nat :=
  match c.kind with
  | .header => T.kWordSize
  | .section s => s.alignment_
  | .symbolTable _ => T.kWordSize
  | .dynamicSymbolTable _ => T.kWordSize
  | .codeSignature _ => kHashAlignment

/-- `SelfMemorySize` (virtual). The header and the symbol table are reached through the
header `h` that owns them. -/
def SelfMemorySize (T : Target) (h : MachOHeader) (c : MachOContents) : Nat :=
  match c.kind with
  | .header => h.SelfMemorySize T
  | .section s => s.SelfMemorySize
  | .symbolTable table =>
      match h.table? table with
      | some t => t.SelfMemorySize T
      | none => 0
  | .dynamicSymbolTable _ => 0
  | .codeSignature identifier =>
      MachOCodeSignature.DirectoryOffset T +
        MachOCodeSignature.DirectoryLength T identifier c.file_offset_

/-- `MachOContents::SelfFileSize`. -/
def SelfFileSize (T : Target) (h : MachOHeader) (c : MachOContents) : Nat :=
  if !c.HasContents then 0 else c.SelfMemorySize T h

/-- `MachOContents::MemorySize` for the children of a segment, none of which nests
further contents. -/
def MemorySize (T : Target) (h : MachOHeader) (c : MachOContents) : Nat :=
  c.SelfMemorySize T h

/-- `MachOContents::FileSize`. -/
def FileSize (T : Target) (h : MachOHeader) (c : MachOContents) : Nat :=
  if !c.HasContents then 0 else c.MemorySize T h

end MachOContents

namespace MachOSegment

/-- `MachOSegment::Alignment`. -/
def Alignment (T : Target) (_s : MachOSegment) : Nat := T.kPageSize

/-- `MachOSegment::HasContents`. -/
def HasContents (s : MachOSegment) : Bool := decide (s.next_contents_index_ > 0)

/-- `MachOSegment::HasZerofillSections`. -/
def HasZerofillSections (s : MachOSegment) : Bool :=
  s.next_contents_index_ != s.contents_.length

/-- `MachOSegment::HasName`. -/
def HasName (s : MachOSegment) (name : String) : Bool := s.name_ == name

/-- `MachOSegment::PadFileSizeToAlignment`. -/
def PadFileSizeToAlignment (s : MachOSegment) : Bool := !s.HasName SEG_LINKEDIT

/-- `MachOSegment::SelfMemorySize`. -/
def SelfMemorySize (_s : MachOSegment) : Nat := 0

/-- `MachOContents::SelfFileSize`, inherited by the segment. -/
def SelfFileSize (s : MachOSegment) : Nat :=
  if !s.HasContents then 0 else s.SelfMemorySize

/-- The loop of `MachOSegment::FileSize` over the children. -/
def FileSizeLoop (T : Target) (h : MachOHeader) (file_size : Nat) : List MachOContents → Nat
  | [] => file_size
  | c :: cs =>
      if !c.HasContents then FileSizeLoop T h file_size cs
      else FileSizeLoop T h (RoundUp file_size (c.Alignment T) + c.FileSize T h) cs

/-- `MachOSegment::FileSize`. -/
def FileSize (T : Target) (h : MachOHeader) (s : MachOSegment) : Nat :=
  let file_size := FileSizeLoop T h s.SelfFileSize s.contents_
  if s.PadFileSizeToAlignment then RoundUp file_size (s.Alignment T) else file_size

/-- The loop of `MachOSegment::UnpaddedMemorySize` over the children. -/
def UnpaddedMemorySizeLoop (T : Target) (h : MachOHeader) (memory_size : Nat) :
    List MachOContents → Nat
  | [] => memory_size
  | c :: cs =>
      UnpaddedMemorySizeLoop T h (RoundUp memory_size (c.Alignment T) + c.MemorySize T h) cs

/-- `MachOSegment::UnpaddedMemorySize`. -/
def UnpaddedMemorySize (T : Target) (h : MachOHeader) (s : MachOSegment) : Nat :=
  UnpaddedMemorySizeLoop T h s.SelfMemorySize s.contents_

/-- `MachOSegment::MemorySize`. -/
def MemorySize (T : Target) (h : MachOHeader) (s : MachOSegment) : Nat :=
  RoundUp (s.UnpaddedMemorySize T h) (s.Alignment T)

/-- `MachOSegment::header() != nullptr`: the first child is the header. -/
def IsInitial (s : MachOSegment) : Bool :=
  match s.contents_ with
  | [] => false
  | c :: _ => c.kind == ContentsKind.header

end MachOSegment

/-! ## Layout traversal (`ContentOffsetsVisitor`) -/

/-- `ContentOffsetsVisitor`: the address map and the two running cursors. -/
structure ContentOffsetsVisitor where
  address_map : List Nat
  file_offset : Nat
  memory_address : Nat
  deriving DecidableEq, Repr

namespace ContentOffsetsVisitor

/-- The constructor of `ContentOffsetsVisitor`: the map starts with `NO_SECT -> 0`. -/
def init : ContentOffsetsVisitor :=
  { address_map := [0], file_offset := 0, memory_address := 0 }

/-- The first block of `ContentOffsetsVisitor::Default`: the file offset of a child with
contents (`SelfFileSize` is read after the offset is set). -/
def DefaultFile (T : Target) (h : MachOHeader) (v : ContentOffsetsVisitor)
    (contents : MachOContents) : ContentOffsetsVisitor × MachOContents :=
  if contents.HasContents then
    let file_offset := RoundUp v.file_offset (contents.Alignment T)
    let c1 : MachOContents := { contents with file_offset_ := (file_offset : Int) }
    ({ v with file_offset := file_offset + c1.SelfFileSize T h }, c1)
  else (v, contents)

/-- The second block of `ContentOffsetsVisitor::Default`: the memory address of an
allocated child. -/
def DefaultMemory (T : Target) (h : MachOHeader) (v : ContentOffsetsVisitor)
    (contents : MachOContents) : ContentOffsetsVisitor × MachOContents :=
  if contents.IsAllocated then
    let memory_address := RoundUp v.memory_address (contents.Alignment T)
    let c2 : MachOContents := { contents with memory_address_ := (memory_address : Int) }
    ({ v with memory_address := memory_address + c2.SelfMemorySize T h }, c2)
  else (v, contents)

/-- `ContentOffsetsVisitor::Default` on a child of a segment (`VisitChildren` of such a
child visits nothing). Returns the visitor and the updated child. -/
def Default (T : Target) (h : MachOHeader) (v : ContentOffsetsVisitor) (contents : MachOContents) :
    ContentOffsetsVisitor × MachOContents :=
  let r1 := DefaultFile T h v contents
  DefaultMemory T h r1.1 r1.2

/-- `ContentOffsetsVisitor::VisitMachOSection`: the default behaviour, then the section's
memory address is appended to the address map. -/
def VisitMachOSection (T : Target) (h : MachOHeader) (v : ContentOffsetsVisitor)
    (section_ : MachOContents) : ContentOffsetsVisitor × MachOContents :=
  let r := Default T h v section_
  ({ r.1 with address_map := r.1.address_map ++ [r.2.memory_address_.toNat] }, r.2)

/-- `Accept` of a child of a segment: sections have their own visit method, every other
child uses `Default`. -/
def Accept (T : Target) (h : MachOHeader) (v : ContentOffsetsVisitor) (c : MachOContents) :
    ContentOffsetsVisitor × MachOContents :=
  match c.kind with
  | .section _ => VisitMachOSection T h v c
  | _ => Default T h v c

/-- `MachOSegment::VisitChildren` with this visitor. -/
def VisitChildren (T : Target) (h : MachOHeader) (v : ContentOffsetsVisitor) :
    List MachOContents → ContentOffsetsVisitor × List MachOContents
  | [] => (v, [])
  | c :: cs =>
      let r := Accept T h v c
      let rs := VisitChildren T h r.1 cs
      (rs.1, r.2 :: rs.2)

/-- `ContentOffsetsVisitor::VisitMachOSegment` up to its trailing `ASSERT_EQUAL`s. -/
def VisitMachOSegment (T : Target) (h : MachOHeader) (v : ContentOffsetsVisitor)
    (segment : MachOSegment) : ContentOffsetsVisitor × MachOSegment :=
  let file_offset := RoundUp v.file_offset (segment.Alignment T)
  let s1 := { segment with file_offset_ := (file_offset : Int) }
  let file_offset := file_offset + s1.SelfFileSize
  let memory_address := RoundUp v.memory_address (s1.Alignment T)
  let s2 := { s1 with memory_address_ := (memory_address : Int) }
  let memory_address := memory_address + s2.SelfMemorySize
  let r := VisitChildren T h
    { v with file_offset := file_offset, memory_address := memory_address } s2.contents_
  let s3 := { s2 with contents_ := r.2 }
  let file_offset :=
    if s3.PadFileSizeToAlignment then RoundUp r.1.file_offset (s3.Alignment T)
    else r.1.file_offset
  let memory_address := RoundUp r.1.memory_address (s3.Alignment T)
  ({ r.1 with file_offset := file_offset, memory_address := memory_address }, s3)

end ContentOffsetsVisitor

/-! ## The symbol table (`MachOSymbolTable`) -/

namespace StringTable

/-- `CStringIntMap::Lookup` on `text_indices_`. -/
def Lookup (s : StringTable) (str : String) : Option Nat :=
  (s.text_indices_.find? fun kv => kv.1 == str).map fun kv => kv.2

/-- `StringTable::Add`: the offset of an interned string, interning it at the end of the
text when it is new. -/
def Add (s : StringTable) (str : String) : StringTable × Nat :=
  match s.Lookup str with
  | some value => (s, value)
  | none =>
      let offset := s.text_.length
      ({ text_ := s.text_ ++ str.toList ++ [Char.ofNat 0],
         text_indices_ := s.text_indices_ ++ [(str, offset)] }, offset)

/-- The constructor of `StringTable`: the single space at index 0, and the empty string
mapped to the NUL that terminates it. -/
def init : StringTable :=
  let r := Add { text_ := [], text_indices_ := [] } " "
  { r.1 with text_indices_ := r.1.text_indices_ ++ [("", r.2 + 1)] }

end StringTable

namespace MachOSymbolTable

/-- The constructor of `MachOSymbolTable`. -/
def init : MachOSymbolTable :=
  { strings_ := StringTable.init, symbols_ := [], by_label_index_ := [], max_label_ := 0,
    num_local_symbols_ := kLinearInitValue, num_external_symbols_ := kLinearInitValue,
    file_offset_ := kLinearInitValue }

/-- Modelled from the spec: `IntMap::Lookup` on `by_label_index_` (vm/hash_map.h is not
among the sources): the stored 1-based index of a label, 0 when the label is absent. Of
several entries for one label the first inserted is returned. -/
def LookupLabel (t : MachOSymbolTable) (label : Int) : Nat :=
  match t.by_label_index_.find? fun kv => kv.1 == label with
  | some kv => kv.2
  | none => 0

/-- The constructor of `Symbol` with its range assertions. -/
def makeSymbol (T : Target) (n_idx n_type n_sect n_desc n_value : Nat) : Option Symbol :=
  if IsUint 32 n_idx && IsUint 8 n_type && IsUint 8 n_sect && IsUint 16 n_desc &&
      IsUint (T.kWordSize * 8) n_value then
    some { name_index := n_idx, type := n_type, section_index := n_sect,
           description := n_desc, value := n_value }
  else none

/-- The label rule that `AddSymbol` asserts: a symbolic-debugging symbol has no positive
label, any other symbol has one exactly when it is a section symbol. -/
def labelRule (type : Nat) (label : Int) : Bool :=
  if type &&& N_STAB != 0 then decide (label ≤ 0)
  else (type &&& N_TYPE == N_SECT) == decide (label > 0)

/-- `MachOSymbolTable::AddSymbol`; `none` when one of its assertions fails. Callers that
omit `label` pass its default, -1. -/
def AddSymbol (T : Target) (t : MachOSymbolTable) (name : String)
    (type section_index description value : Nat) (label : Int) :
    Option MachOSymbolTable :=
  if !labelRule type label then none
  else if t.file_offset_ != kLinearInitValue then none
  else
    let r := t.strings_.Add name
    let name_index := r.2
    if !(name == "" || name_index != 0) then none
    else
      let new_index := t.num_symbols
      match makeSymbol T name_index type section_index description value with
      | none => none
      | some symbol =>
          let t1 := { t with strings_ := r.1, symbols_ := t.symbols_ ++ [symbol] }
          if label > 0 then
            some { t1 with max_label_ := if t1.max_label_ > label then t1.max_label_ else label,
                           by_label_index_ := t1.by_label_index_ ++ [(label, new_index + 1)] }
          else some t1

/-- `MachOSymbolTable::FindLabel`: `none` when the assertion `label > 0` fails,
`some none` for the null pointer. -/
def FindLabel (t : MachOSymbolTable) (label : Int) : Option (Option Symbol) :=
  if label > 0 then
    let symbols_index : Int := (t.LookupLabel label : Int) - 1
    if symbols_index < 0 then some none
    else some (t.symbols_.get? symbols_index.toNat)
  else none

/-- The first pass of `Initialize` over one portion: a section symbol for every symbol
descriptor of the portion. -/
def addStaticSymbols (T : Target) (desc section_index : Nat) (t : MachOSymbolTable)
    (portion : Portion) : Option MachOSymbolTable :=
  match portion.symbols with
  | none => some t
  | some symbols =>
      symbols.foldlM (fun t symbol_data =>
        AddSymbol T t symbol_data.name N_SECT section_index desc
          (portion.offset + symbol_data.offset) symbol_data.label) t

/-- The lambda `add_symbolic_debugging_symbols` of `Initialize`. -/
def add_symbolic_debugging_symbols (T : Target) (t : MachOSymbolTable) (name : String)
    (type : SymbolDataType) (section_index offset size : Nat) (is_global : Bool) :
    Option MachOSymbolTable :=
  match type with
  | .Function => do
      let t ← AddSymbol T t "" N_BNSYM section_index 0 offset (-1)
      let t ← AddSymbol T t name N_FUN section_index 0 offset (-1)
      let t ← AddSymbol T t "" N_FUN NO_SECT 0 size (-1)
      AddSymbol T t "" N_ENSYM section_index 0 (offset + size) (-1)
  | .Section | .Object =>
      if is_global then AddSymbol T t name N_GSYM NO_SECT 0 0 (-1)
      else AddSymbol T t name N_STSYM section_index 0 offset (-1)

/-- The `size` that the second pass of `Initialize` computes for a named portion:
`portion.symbols->At(0).offset` in a text section with a symbol array (`At(0)` of an
empty array fails), `portion.size` otherwise. -/
def namedSymbolSize (is_text_section : Bool) (portion : Portion) : Option Nat :=
  match is_text_section, portion.symbols with
  | true, some symbols => (symbols.get? 0).map fun symbol_data => symbol_data.offset
  | _, _ => some portion.size

/-- The second pass of `Initialize` over one portion, first half: the symbolic-debugging
symbols of the portion's own name. -/
def addNamedDebuggingSymbols (T : Target) (is_text_section : Bool) (section_index : Nat)
    (t : MachOSymbolTable) (portion : Portion) : Option MachOSymbolTable :=
  match portion.symbol_name with
  | some symbol_name =>
      let type := if is_text_section then SymbolDataType.Function else SymbolDataType.Section
      match namedSymbolSize is_text_section portion with
      | none => none
      | some size =>
          add_symbolic_debugging_symbols T t symbol_name type section_index portion.offset
            size true
  | none => some t

/-- The second pass of `Initialize` over one portion, second half: the
symbolic-debugging symbols of the portion's symbol descriptors. -/
def addDescriptorDebuggingSymbols (T : Target) (section_index : Nat) (t : MachOSymbolTable)
    (portion : Portion) : Option MachOSymbolTable :=
  match portion.symbols with
  | some symbols =>
      symbols.foldlM (fun t symbol_data =>
        add_symbolic_debugging_symbols T t symbol_data.name symbol_data.type section_index
          (portion.offset + symbol_data.offset) symbol_data.size false) t
  | none => some t

/-- The second pass of `Initialize` over one portion. -/
def addDebuggingSymbols (T : Target) (is_text_section : Bool) (section_index : Nat)
    (t : MachOSymbolTable) (portion : Portion) : Option MachOSymbolTable :=
  (addNamedDebuggingSymbols T is_text_section section_index t portion).bind fun t =>
    addDescriptorDebuggingSymbols T section_index t portion

/-- The final pass of `Initialize` over one portion: an external section symbol for a
named portion. -/
def addExternalSymbol (T : Target) (desc section_index : Nat) (t : MachOSymbolTable)
    (portion : Portion) : Option MachOSymbolTable :=
  match portion.symbol_name with
  | some symbol_name =>
      AddSymbol T t symbol_name (N_SECT ||| N_EXT) section_index desc portion.offset
        portion.label
  | none => some t

/-- A loop `for (i = 0; i < n; ++i)` over the sections, from the section at 0-based
position `i`; `body` receives the 1-based `section_index = i + 1`. -/
def forSections (body : Nat → MachOSymbolTable → MachOSection → Option MachOSymbolTable) :
    Nat → MachOSymbolTable → List MachOSection → Option MachOSymbolTable
  | _, t, [] => some t
  | i, t, section_ :: rest => do
      let t ← body (i + 1) t section_
      forSections body (i + 1) t rest

/-- `set_num_local_symbols`. -/
def set_num_local_symbols (t : MachOSymbolTable) (value : Int) : Option MachOSymbolTable :=
  if value != kLinearInitValue && t.num_local_symbols_ == kLinearInitValue then
    some { t with num_local_symbols_ := value }
  else none

/-- `set_num_external_symbols`. -/
def set_num_external_symbols (t : MachOSymbolTable) (value : Int) :
    Option MachOSymbolTable :=
  if value != kLinearInitValue && t.num_external_symbols_ == kLinearInitValue then
    some { t with num_external_symbols_ := value }
  else none

/-- `MachOSymbolTable::Initialize`. -/
def Initialize (T : Target) (t : MachOSymbolTable) (path : Option String)
    (sections : List MachOSection) (is_stripped : Bool) : Option MachOSymbolTable := do
  if t.num_local_symbols_ != kLinearInitValue then none
  let desc := if is_stripped then 0 else N_ALT_ENTRY
  let t ←
    if !is_stripped then do
      let t ← forSections (fun section_index t section_ =>
        section_.portions_.foldlM (addStaticSymbols T desc section_index) t) 0 t sections
      let t ←
        match path with
        | some path => AddSymbol T t path N_OSO 0 1 0 (-1)
        | none => some t
      forSections (fun section_index t section_ =>
        section_.portions_.foldlM
          (addDebuggingSymbols T (section_.name_ == SECT_TEXT) section_index) t) 0 t sections
    else some t
  let t ← t.set_num_local_symbols t.num_symbols
  let t ← forSections (fun section_index t section_ =>
    section_.portions_.foldlM (addExternalSymbol T desc section_index) t) 0 t sections
  t.set_num_external_symbols (t.num_symbols - t.num_local_symbols_)

/-- `MachOSymbolTable::UpdateSectionIndices`; `none` when an assertion on the map or on a
symbol's old index fails. The new index is stored in a `uint8_t`. -/
def UpdateSectionIndices (t : MachOSymbolTable) (index_map : List Nat) :
    Option MachOSymbolTable :=
  let map_size := index_map.length
  let map_ok := (List.range map_size).all fun i =>
    let new_index := index_map.getD i 0
    IsUint 8 new_index && decide (new_index < map_size) &&
      (if i = NO_SECT then new_index == NO_SECT else new_index != NO_SECT)
  if !map_ok then none
  else if !(t.symbols_.all fun symbol => decide (symbol.section_index < map_size)) then none
  else
    some { t with symbols_ := t.symbols_.map fun symbol =>
      { symbol with section_index := index_map.getD symbol.section_index 0 % 2 ^ 8 } }

/-- `MachOSymbolTable::Finalize`; `none` when an assertion on the map or on a symbol's
section index fails. The sum is stored in a target `uword`. -/
def Finalize (T : Target) (t : MachOSymbolTable) (address_map : List Nat) :
    Option MachOSymbolTable :=
  let map_size := address_map.length
  let map_ok := (List.range map_size).all fun i =>
    if i = NO_SECT then address_map.getD NO_SECT 0 == 0 else decide (address_map.getD i 0 > 0)
  if !map_ok then none
  else if !(t.symbols_.all fun symbol => decide (symbol.section_index < map_size)) then none
  else
    some { t with symbols_ := t.symbols_.map fun symbol =>
      { symbol with value :=
          (symbol.value + address_map.getD symbol.section_index 0) % 2 ^ (T.kWordSize * 8) } }

end MachOSymbolTable

/-! ## The symbols of a table, as the specification lists them

The definitions of this section follow the words of the specification, not the loops of
`MachOSymbolTable::Initialize`; the theorems compare the two. -/

/-- The arguments of one `AddSymbol` call. -/
structure SymbolCall where
  name : String
  type : Nat
  section_index : Nat
  description : Nat
  value : Nat
  label : Int
  deriving DecidableEq, Repr

/-- `AddSymbol` applied to the arguments `c`. -/
def MachOSymbolTable.addCall (T : Target) (t : MachOSymbolTable) (c : SymbolCall) :
    Option MachOSymbolTable :=
  MachOSymbolTable.AddSymbol T t c.name c.type c.section_index c.description c.value c.label

/-- `AddSymbol` applied to each of `calls` in order. -/
def MachOSymbolTable.addCalls (T : Target) (t : MachOSymbolTable) (calls : List SymbolCall) :
    Option MachOSymbolTable :=
  calls.foldlM (MachOSymbolTable.addCall T) t

namespace Spec

/-- The concatenation of `f p` over the portions of a section, in order. -/
def overPortions (f : Portion → List SymbolCall) : List Portion → List SymbolCall
  | [] => []
  | p :: ps => f p ++ overPortions f ps

/-- The concatenation of `f section_index section` over the sections in order, the first
of which has the 1-based index `i + 1`. -/
def overSections (f : Nat → MachOSection → List SymbolCall) :
    Nat → List MachOSection → List SymbolCall
  | _, [] => []
  | i, s :: rest => f (i + 1) s ++ overSections f (i + 1) rest

/-- As `overPortions`, for a possibly undefined `f p`. -/
def overPortions? (f : Portion → Option (List SymbolCall)) :
    List Portion → Option (List SymbolCall)
  | [] => some []
  | p :: ps =>
      match f p, overPortions? f ps with
      | some calls, some rest => some (calls ++ rest)
      | _, _ => none

/-- As `overSections`, for a possibly undefined `f section_index section`. -/
def overSections? (f : Nat → MachOSection → Option (List SymbolCall)) :
    Nat → List MachOSection → Option (List SymbolCall)
  | _, [] => some []
  | i, s :: rest =>
      match f (i + 1) s, overSections? f (i + 1) rest with
      | some calls, some more => some (calls ++ more)
      | _, _ => none

/-- The section symbol of every symbol descriptor of a portion: type "in section", value
the descriptor's section-relative offset, the descriptor's label. -/
def staticCallsOfPortion (desc section_index : Nat) (p : Portion) : List SymbolCall :=
  match p.symbols with
  | none => []
  | some symbols => symbols.map fun symbol_data =>
      { name := symbol_data.name, type := N_SECT, section_index := section_index,
        description := desc, value := p.offset + symbol_data.offset,
        label := symbol_data.label }

/-- The section symbols of the symbol descriptors of all sections. -/
def staticCalls (desc : Nat) (sections : List MachOSection) : List SymbolCall :=
  overSections (fun section_index s =>
    overPortions (staticCallsOfPortion desc section_index) s.portions_) 0 sections

/-- The symbolic-debugging entries that match one symbol: for a function the begin entry,
the named function entry, the unnamed function entry without section that holds the size,
and the end entry; for a section or an object a single global entry without section and
value, or a single static entry with its section and offset. None carries a label. -/
def debuggingCallsOf (name : String) (type : SymbolDataType)
    (section_index offset size : Nat) (is_global : Bool) : List SymbolCall :=
  match type with
  | .Function =>
      [{ name := "", type := N_BNSYM, section_index := section_index, description := 0,
         value := offset, label := -1 },
       { name := name, type := N_FUN, section_index := section_index, description := 0,
         value := offset, label := -1 },
       { name := "", type := N_FUN, section_index := NO_SECT, description := 0,
         value := size, label := -1 },
       { name := "", type := N_ENSYM, section_index := section_index, description := 0,
         value := offset + size, label := -1 }]
  | .Section | .Object =>
      if is_global then
        [{ name := name, type := N_GSYM, section_index := NO_SECT, description := 0,
           value := 0, label := -1 }]
      else
        [{ name := name, type := N_STSYM, section_index := section_index, description := 0,
           value := offset, label := -1 }]

/-- The size of the symbol of a named portion: in a text section that has symbol
descriptors, the distance to the first of them (undefined when the list is empty);
otherwise the size of the portion. -/
def namedPortionSize (is_text_section : Bool) (p : Portion) : Option Nat :=
  match is_text_section, p.symbols with
  | true, some symbols => (symbols.get? 0).map fun symbol_data => symbol_data.offset
  | _, _ => some p.size

/-- The symbolic-debugging entries of the symbol descriptors of a portion at
`portion_offset`, in order (none of them global). -/
def debuggingCallsOfDescriptors (section_index portion_offset : Nat) :
    List SymbolData → List SymbolCall
  | [] => []
  | symbol_data :: rest =>
      debuggingCallsOf symbol_data.name symbol_data.type section_index
        (portion_offset + symbol_data.offset) symbol_data.size false ++
        debuggingCallsOfDescriptors section_index portion_offset rest

/-- The symbolic-debugging entries of a portion: those of the portion's own symbol when
it is named (a global function in a text section, a global section symbol elsewhere),
then those of each of its symbol descriptors. -/
def debuggingCallsOfPortion (is_text_section : Bool) (section_index : Nat) (p : Portion) :
    Option (List SymbolCall) :=
  let named : Option (List SymbolCall) :=
    match p.symbol_name with
    | some symbol_name =>
        (namedPortionSize is_text_section p).map fun size =>
          debuggingCallsOf symbol_name
            (if is_text_section then SymbolDataType.Function else SymbolDataType.Section)
            section_index p.offset size true
    | none => some []
  let described : List SymbolCall :=
    match p.symbols with
    | some symbols => debuggingCallsOfDescriptors section_index p.offset symbols
    | none => []
  named.map fun calls => calls ++ described

/-- The symbolic-debugging entries of all sections. -/
def debuggingCalls (sections : List MachOSection) : Option (List SymbolCall) :=
  overSections? (fun section_index s =>
    overPortions? (debuggingCallsOfPortion (s.name_ == SECT_TEXT) section_index)
      s.portions_) 0 sections

/-- The external section symbol of a named portion: type "in section" and external, value
the portion's section-relative offset, the portion's label. -/
def externalCallsOfPortion (desc section_index : Nat) (p : Portion) : List SymbolCall :=
  match p.symbol_name with
  | some symbol_name =>
      [{ name := symbol_name, type := N_SECT ||| N_EXT, section_index := section_index,
         description := desc, value := p.offset, label := p.label }]
  | none => []

/-- The external symbols of all sections, in section order then portion order. -/
def externalCalls (desc : Nat) (sections : List MachOSection) : List SymbolCall :=
  overSections (fun section_index s =>
    overPortions (externalCallsOfPortion desc section_index) s.portions_) 0 sections

/-- The source-file reference of an unstripped table that has a path. -/
def pathCalls (path : Option String) : List SymbolCall :=
  match path with
  | some path =>
      [{ name := path, type := N_OSO, section_index := 0, description := 1, value := 0,
         label := -1 }]
  | none => []

/-- The local symbols of a table: none when stripped; otherwise the section symbols of
the symbol descriptors, the source-file reference, and the symbolic-debugging entries. -/
def localCalls (path : Option String) (sections : List MachOSection) (is_stripped : Bool) :
    Option (List SymbolCall) :=
  if is_stripped then some []
  else (debuggingCalls sections).map fun debugging =>
    staticCalls N_ALT_ENTRY sections ++ pathCalls path ++ debugging

end Spec

/-- The fields of a symbol other than its name: type, section index, description and
value. -/
def Symbol.shape (s : Symbol) : Nat × Nat × Nat × Nat :=
  (s.type, s.section_index, s.description, s.value)

/-- The type, section index, description and value that a call passes. -/
def SymbolCall.shape (c : SymbolCall) : Nat × Nat × Nat × Nat :=
  (c.type, c.section_index, c.description, c.value)

/-- The symbol that a call adds to a table whose string table ends up as `strings`: the
call's type, section index, description and value, and the index of its name. -/
def SymbolCall.toSymbol (strings : StringTable) (c : SymbolCall) : Symbol :=
  { name_index := (strings.Lookup c.name).getD 0, type := c.type,
    section_index := c.section_index, description := c.description, value := c.value }

/-- The entries that a sequence of calls adds to the label map of a table that holds `n`
symbols: each call with a positive label maps it to the 1-based index of its symbol. -/
def Spec.labelEntries : Nat → List SymbolCall → List (Int × Nat)
  | _, [] => []
  | n, c :: cs =>
      (if c.label > 0 then [(c.label, n + 1)] else []) ++ Spec.labelEntries (n + 1) cs

/-! ## Load commands as sequences of 32-bit fields -/

def LC_SYMTAB : Nat := 0x2
def LC_DYSYMTAB : Nat := 0xb

/-- `MachOWriteStream::WriteOffsetCount`: the two 32-bit fields, `none` when a value does
not fit. -/
def WriteOffsetCount (offset count : Nat) : Option (List Nat) :=
  if IsUint 32 offset && IsUint 32 count then some [offset, count] else none

/-- The getter of a write-once field: `none` while the field is unset. -/
def linearGet (field : Int) : Option Nat :=
  if field != kLinearInitValue then some field.toNat else none

/-- `MachODynamicSymbolTable::kUnusedOffsetCountPairs`. -/
def kUnusedOffsetCountPairs : Nat := 6

/-- The loop `for (i = 0; i < n; ++i) stream->WriteOffsetCount(0, 0)`. -/
def writeUnusedOffsetCountPairs : Nat → Option (List Nat)
  | 0 => some []
  | n + 1 => do
      let pair ← WriteOffsetCount 0 0
      let rest ← writeUnusedOffsetCountPairs n
      pure (pair ++ rest)

/-- `MachODynamicSymbolTable::WriteLoadCommand` for the table `table_`: the 32-bit fields
written, in order (`cmd`, `cmdsize`, then the offset/count pairs). -/
def MachODynamicSymbolTable.WriteLoadCommand (T : Target) (table_ : MachOSymbolTable) :
    Option (List Nat) := do
  let num_local_symbols ← linearGet table_.num_local_symbols_
  let num_external_symbols ← linearGet table_.num_external_symbols_
  let index := 0
  let locals ← WriteOffsetCount index num_local_symbols
  let index := index + num_local_symbols
  let externals ← WriteOffsetCount index num_external_symbols
  let index := index + num_external_symbols
  let undefined ← WriteOffsetCount index 0
  let unused ← writeUnusedOffsetCountPairs kUnusedOffsetCountPairs
  pure ([LC_DYSYMTAB, (CommandKind.dynamicSymbolTable TableRef.full).cmdsize T] ++ locals ++
    externals ++ undefined ++ unused)

/-! ## The hashing write stream (`HashingMachOWriteStream`) -/

/-- `HashingMachOWriteStream`. `buffer_` holds the bytes between `buffer_` and `current_`
of the `BaseWriteStream`, `wrapped_stream_` the bytes handed to the wrapped stream so far
and `hashes_` the digests written to the hash buffer, one entry per digest. -/
structure HashingMachOWriteStream where
  buffer_ : List Nat
  capacity_ : Nat
  wrapped_stream_ : List Nat
  hashes_ : List (List Nat)
  hashing_ : Bool
  flushed_size_ : Nat
  num_hashes_ : Nat
  deriving DecidableEq, Repr

namespace HashingMachOWriteStream

/-- The constructor: an empty buffer in front of the wrapped stream, hashing active. -/
def init (wrapped : List Nat) : HashingMachOWriteStream :=
  { buffer_ := [], capacity_ := 0, wrapped_stream_ := wrapped, hashes_ := [],
    hashing_ := true, flushed_size_ := 0, num_hashes_ := 0 }

/-- `BaseWriteStream::Position`: the number of buffered bytes. -/
def BasePosition (s : HashingMachOWriteStream) : Nat := s.buffer_.length

/-- `HashingMachOWriteStream::Position`. -/
def Position (s : HashingMachOWriteStream) : Nat := s.flushed_size_ + s.BasePosition

/-- `BaseWriteStream::Remaining`. -/
def Remaining (s : HashingMachOWriteStream) : Nat := s.capacity_ - s.BasePosition

/-- The `for` loop of `HashingMachOWriteStream::Hash`, started at `offset`. Every
iteration advances `offset` by `kChunkSize`, so `fuel = count` iterations always reach
`offset >= count`. -/
def HashLoop (T : Target) (count : Nat) :
    Nat → Nat → HashingMachOWriteStream → HashingMachOWriteStream
  | 0, _, s => s
  | fuel + 1, offset, s =>
      if offset < count then
        let len := min (count - offset) kChunkSize
        HashLoop T count fuel (offset + kChunkSize)
          { s with hashes_ := s.hashes_ ++ [T.SHA256 ((s.buffer_.drop offset).take len)],
                   num_hashes_ := s.num_hashes_ + 1 }
      else s

/-- `HashingMachOWriteStream::Hash`: hashes the first `count` buffered bytes in chunks and
returns `count`. -/
def Hash (T : Target) (s : HashingMachOWriteStream) (count : Nat) :
    HashingMachOWriteStream × Nat :=
  if count > 0 then (HashLoop T count count 0 s, count) else (s, count)

/-- `HashingMachOWriteStream::FlushBytes`. -/
def FlushBytes (s : HashingMachOWriteStream) (count : Nat) : HashingMachOWriteStream :=
  if count = 0 then s
  else
    { s with wrapped_stream_ := s.wrapped_stream_ ++ s.buffer_.take count,
             flushed_size_ := s.flushed_size_ + count,
             buffer_ := s.buffer_.drop count }

/-- `HashingMachOWriteStream::Flush`. -/
def Flush (T : Target) (s : HashingMachOWriteStream) (chunks_only : Bool) :
    HashingMachOWriteStream :=
  let size_to_flush := s.BasePosition
  if s.hashing_ then
    let size_to_hash := size_to_flush
    let size_to_hash := if chunks_only then size_to_hash - size_to_hash % kChunkSize
      else size_to_hash
    let r := Hash T s size_to_hash
    FlushBytes r.1 r.2
  else FlushBytes s size_to_flush

/-- `HashingMachOWriteStream::Realloc` (the allocation succeeds). -/
def Realloc (T : Target) (s : HashingMachOWriteStream) (new_size : Nat) :
    HashingMachOWriteStream :=
  let s1 := Flush T s true
  if new_size ≤ s1.Remaining then s1 else { s1 with capacity_ := new_size }

/-- Modelled from the spec: `BaseWriteStream::WriteBytes` (vm/datastream.h is not among
the sources) buffers the bytes, first calling the virtual `Realloc` when the buffer lacks
room; `new_size` is the size the stream asks for. -/
def WriteBytes (T : Target) (s : HashingMachOWriteStream) (bytes : List Nat)
    (new_size : Nat) : HashingMachOWriteStream :=
  if bytes.length = 0 then s
  else
    let s1 := if bytes.length ≤ s.Remaining then s else Realloc T s new_size
    { s1 with buffer_ := s1.buffer_ ++ bytes }

/-- `HashingMachOWriteStream::FinalizeHashedContent`. -/
def FinalizeHashedContent (T : Target) (s : HashingMachOWriteStream) :
    HashingMachOWriteStream :=
  { Flush T s false with hashing_ := false }

/-- `HashingMachOWriteStream::num_hashes`: only available once hashing is finalized. -/
def num_hashes (s : HashingMachOWriteStream) : Option Nat :=
  if s.hashing_ then none else some s.num_hashes_

/-- The invariant while hashing is active: only whole chunks have been flushed, one digest
each. -/
def ChunkInvariant (s : HashingMachOWriteStream) : Prop :=
  s.hashing_ = true ∧ s.num_hashes_ * 4096 = s.flushed_size_

end HashingMachOWriteStream

/-- One operation on the stream before the hashed content is finalized: a write (with
the size a reallocation would ask for) or a reallocation on its own. -/
inductive StreamOp
  | write (bytes : List Nat) (new_size : Nat)
  | realloc (new_size : Nat)
  deriving DecidableEq, Repr

/-- The number of bytes an operation writes. -/
def StreamOp.written : StreamOp → Nat
  | .write bytes _ => bytes.length
  | .realloc _ => 0

/-- The stream after one operation. -/
def HashingMachOWriteStream.step (T : Target) (s : HashingMachOWriteStream) :
    StreamOp → HashingMachOWriteStream
  | .write bytes new_size => s.WriteBytes T bytes new_size
  | .realloc new_size => s.Realloc T new_size

/-- The stream after a sequence of operations. -/
def HashingMachOWriteStream.run (T : Target) (s : HashingMachOWriteStream)
    (ops : List StreamOp) : HashingMachOWriteStream :=
  ops.foldl (HashingMachOWriteStream.step T) s

/-- The total number of bytes a sequence of operations writes. -/
def StreamOp.total (ops : List StreamOp) : Nat := (ops.map StreamOp.written).sum

/-! ## Sections, segments and commands under construction -/

def LC_SEGMENT : Nat := 0x1
def LC_SEGMENT_64 : Nat := 0x19
def LC_UUID : Nat := 0x1b
def LC_BUILD_VERSION : Nat := 0x32
def LC_ID_DYLIB : Nat := 0xd
def LC_LOAD_DYLIB : Nat := 0xc
def LC_CODE_SIGNATURE : Nat := 0x1d
def SECTION_TYPE : Nat := 0x000000ff
def SECTION_ATTRIBUTES : Nat := 0xffffff00

/-- Modelled from the spec: `Utils::IsInt(N, value)` (platform/utils.h is not among the
sources) for a non-negative value: it fits in `N` signed bits. -/
def IsInt (N value : Nat) : Bool := decide (value < 2 ^ (N - 1))

/-- The `kCommandCode` of each non-segment command. -/
def CommandKind.cmd : CommandKind → Nat
  | .uuid _ => LC_UUID
  | .buildVersion => LC_BUILD_VERSION
  | .idDylib _ _ _ => LC_ID_DYLIB
  | .loadDylib _ _ _ _ => LC_LOAD_DYLIB
  | .symbolTable _ => LC_SYMTAB
  | .dynamicSymbolTable _ => LC_DYSYMTAB
  | .codeSignature _ => LC_CODE_SIGNATURE

/-- The contents node of a command that has contents outside the header; the commands
that only generate a load command have none. -/
def CommandKind.asContents? : CommandKind → Option ContentsKind
  | .symbolTable table => some (.symbolTable table)
  | .dynamicSymbolTable table => some (.dynamicSymbolTable table)
  | .codeSignature identifier => some (.codeSignature identifier)
  | _ => none

namespace MachOCommand

/-- `MachOCommand::cmd`. -/
def cmd (T : Target) : MachOCommand → Nat
  | .segment _ => if T.targetArchIs32Bit then LC_SEGMENT else LC_SEGMENT_64
  | .other kind _ _ _ => kind.cmd

/-- `HasContents` (virtual) of a command. -/
def HasContents : MachOCommand → Bool
  | .segment s => s.HasContents
  | .other _ file_offset_ _ _ => file_offset_ != 0

/-- `IsAllocated` (virtual) of a command. -/
def IsAllocated : MachOCommand → Bool
  | .segment _ => true
  | .other _ _ memory_address_ _ => memory_address_ != 0

/-- `file_offset_is_set` of a command. -/
def file_offset_is_set : MachOCommand → Bool
  | .segment s => s.file_offset_ != kLinearInitValue
  | .other _ file_offset_ _ _ => file_offset_ != kLinearInitValue

/-- `AsMachOSegment`. -/
def AsMachOSegment : MachOCommand → Option MachOSegment
  | .segment s => some s
  | .other _ _ _ _ => none

/-- The constructor `MachOCommand(cmd, needs_offset, in_segment)` of a non-segment
command: an unneeded file offset or memory address is preset to 0. -/
def create (kind : CommandKind) (needs_offset in_segment : Bool) : MachOCommand :=
  .other kind (if needs_offset then kLinearInitValue else 0)
    (if in_segment then kLinearInitValue else 0) kLinearInitValue

end MachOCommand

namespace MachOContents

/-- `IsMachOSection`. -/
def IsMachOSection (c : MachOContents) : Bool :=
  match c.kind with
  | .section _ => true
  | _ => false

/-- `IsMachOHeader`. -/
def IsMachOHeader (c : MachOContents) : Bool :=
  match c.kind with
  | .header => true
  | _ => false

/-- `IsMachOCommand`. -/
def IsMachOCommand (c : MachOContents) : Bool :=
  match c.kind with
  | .symbolTable _ => true
  | .dynamicSymbolTable _ => true
  | .codeSignature _ => true
  | _ => false

/-- `AsMachOSection`. -/
def AsMachOSection (c : MachOContents) : Option MachOSection :=
  match c.kind with
  | .section s => some s
  | _ => none

end MachOContents

namespace MachOSection

/-- The constructor of `MachOSection`, as the contents node it is; `none` when one of
its assertions fails. A section without contents has its file offset preset to 0. -/
def create (name : String) (type attributes : Nat) (has_contents : Bool) (alignment : Nat) :
    Option MachOContents :=
  if !decide (name.length ≤ 16) then none
  else if !IsPowerOfTwo alignment then none
  else if type &&& SECTION_TYPE != type then none
  else if attributes &&& SECTION_ATTRIBUTES != attributes then none
  else if type == S_ZEROFILL && type == S_GB_ZEROFILL && has_contents then none
  else
    some { kind := .section { name_ := name, flags_ := type ||| attributes,
                              alignment_ := alignment, portions_ := [] },
           file_offset_ := if has_contents then kLinearInitValue else 0,
           memory_address_ := kLinearInitValue }

/-- `MachOSection::HasName`. -/
def HasName (s : MachOSection) (name : String) : Bool := s.name_ == name

/-- `Portion::ContainsSymbols`. -/
def portionContainsSymbols (p : Portion) : Bool :=
  p.symbol_name.isSome ||
    (match p.symbols with
     | some symbols => !symbols.isEmpty
     | none => false)

/-- `MachOSection::ContainsSymbols`. -/
def ContainsSymbols (s : MachOSection) : Bool := s.portions_.any portionContainsSymbols

/-- `MachOSection::FindPortion`: `strcmp` against each portion's name in turn; a portion
without a name before the match is a null dereference (`none`). -/
def FindPortion (symbol_name : String) : List Portion → Option (Option Portion)
  | [] => some none
  | p :: ps =>
      match p.symbol_name with
      | none => none
      | some name => if name == symbol_name then some (some p) else FindPortion symbol_name ps

end MachOSection

/-- `MachOSection::AddPortion` on the contents node of a section; `none` when one of its
assertions fails. -/
def MachOContents.AddPortion (c : MachOContents) (bytes : Option (List Nat)) (size : Nat)
    (relocations : Option (List Nat)) (symbols : Option (List SymbolData))
    (symbol_name : Option String) (label : Int) : Option MachOContents :=
  match c.kind with
  | .section s =>
      if !(symbol_name.isNone || decide (label > 0)) then none
      else if !(!c.HasContents || bytes.isSome) then none
      else if !(bytes.isSome || relocations.isNone) then none
      else if !(match s.portions_ with
                | [] => true
                | first :: _ => first.bytes.isSome == bytes.isSome) then none
      else
        let offset :=
          match s.portions_.getLast? with
          | some last => last.offset + last.size
          | none => 0
        let offset := RoundUp offset s.alignment_
        some { c with kind := .section { s with portions_ := s.portions_ ++
          [{ offset := offset, symbol_name := symbol_name, label := label, bytes := bytes,
             size := size, relocations := relocations, symbols := symbols }] } }
  | _ => none

namespace MachOSegment

/-- The constructor of `MachOSegment`; `none` when one of its assertions fails. -/
def create (name : String) (initial_vm_protection max_vm_protection : Nat) :
    Option MachOSegment :=
  if IsInt 32 initial_vm_protection && IsInt 32 max_vm_protection &&
      decide (name.length ≤ 16) then
    some { name_ := name, next_contents_index_ := 0,
           initial_vm_protection_ := initial_vm_protection,
           max_vm_protection_ := max_vm_protection, contents_ := [],
           file_offset_ := kLinearInitValue, memory_address_ := kLinearInitValue,
           header_offset_ := kLinearInitValue }
  else none

/-- `MachOSegment::IsExecutable`. -/
def IsExecutable (s : MachOSegment) : Bool := s.initial_vm_protection_ &&& VM_PROT_EXECUTE != 0

/-- `MachOSegment::ContainsSymbols`. -/
def ContainsSymbols (s : MachOSegment) : Bool :=
  s.contents_.any fun c =>
    match c.kind with
    | .section sec => sec.ContainsSymbols
    | _ => false

/-- The position in `contents_` of the section that `MachOSegment::FindSection` returns. -/
def FindSectionIndex (s : MachOSegment) (name : String) : Option Nat :=
  s.contents_.findIdx? fun c =>
    match c.kind with
    | .section sec => sec.HasName name
    | _ => false

/-- `MachOSegment::FindSection`. -/
def FindSection (s : MachOSegment) (name : String) : Option MachOSection :=
  match s.FindSectionIndex name with
  | some j => (s.contents_.get? j).bind MachOContents.AsMachOSection
  | none => none

/-- The sections among the children, in order. -/
def sections (s : MachOSegment) : List MachOSection :=
  s.contents_.filterMap MachOContents.AsMachOSection

/-- `MachOSegment::AddContents`; `none` when one of its assertions fails.
`is_first_command` tells whether `commands()[0]` of the header is this segment, which the
header case asserts. -/
def AddContents (s : MachOSegment) (c : MachOContents) (is_first_command : Bool) :
    Option MachOSegment :=
  if !c.IsAllocated then none
  else if c.IsMachOHeader then
    if !is_first_command then none
    else some { s with contents_ := c :: s.contents_,
                       next_contents_index_ := s.next_contents_index_ + 1 }
  else if c.HasContents then
    if c.IsMachOCommand != s.HasName SEG_LINKEDIT then none
    else some { s with contents_ := s.contents_.take s.next_contents_index_ ++ [c] ++
                         s.contents_.drop s.next_contents_index_,
                       next_contents_index_ := s.next_contents_index_ + 1 }
  else if !c.IsMachOSection then none
  else some { s with contents_ := s.contents_ ++ [c] }

end MachOSegment

/-! ## The load command of a segment (`MachOSegment::WriteLoadCommand`) -/

/-- One call on the stream while a load command is written, with the value it receives
converted to the parameter's type. -/
inductive StreamWrite
  | Write32 (value : Nat)
  | WriteWord (value : Nat)
  | WriteFixedLengthCString (str : String) (n : Nat)
  deriving DecidableEq, Repr

/-- `stream->Write32(value)`: the argument is converted to `uint32_t`. -/
def Write32 (value : Nat) : StreamWrite := StreamWrite.Write32 (value % 2 ^ 32)

/-- `stream->WriteWord(value)`: the argument is converted to the target's `uword`. -/
def WriteWord (T : Target) (value : Nat) : StreamWrite :=
  StreamWrite.WriteWord (value % 2 ^ (T.kWordSize * 8))

/-- `sizeof(SectionType::sectname)` and `sizeof(SegmentCommandType::segname)`. -/
def kNameSize : Nat := 16

/-- Modelled from the spec: `Utils::ShiftForPowerOfTwo` (platform/utils.h is not among the
sources): the exponent `k` of a power of two `2 ^ k` that a 64-bit `intptr_t` can hold. -/
def ShiftForPowerOfTwo (x : Nat) : Nat := ((List.range 64).find? fun k => x == 2 ^ k).getD 0

/-- `MachOSection::WriteHeaderInfo` on the contents node of a section, up to its trailing
`ASSERT_EQUAL` on the stream position: the calls on the stream, in order. `none` for a
child that is no section or whose memory address or file offset is unset. -/
def MachOContents.WriteHeaderInfo (T : Target) (h : MachOHeader) (c : MachOContents)
    (segname : String) : Option (List StreamWrite) :=
  match c.kind with
  | .section s => do
      let memory_address ← linearGet c.memory_address_
      let file_offset ← linearGet c.file_offset_
      let reserved3 := if T.targetArchIs32Bit then [] else [Write32 0]
      pure ([StreamWrite.WriteFixedLengthCString s.name_ kNameSize,
             StreamWrite.WriteFixedLengthCString segname kNameSize,
             WriteWord T memory_address, WriteWord T (c.MemorySize T h), Write32 file_offset,
             Write32 (ShiftForPowerOfTwo (c.Alignment T)), Write32 0, Write32 0,
             Write32 s.flags_, Write32 0, Write32 0] ++ reserved3)
  | _ => none

/-- The loop of `MachOSegment::WriteLoadCommand` over the children: the header
information of every section. -/
def MachOSegment.writeSectionHeaders (T : Target) (h : MachOHeader) (segname : String) :
    List MachOContents → Option (List StreamWrite)
  | [] => some []
  | c :: cs =>
      if !c.IsMachOSection then writeSectionHeaders T h segname cs
      else do
        let info ← c.WriteHeaderInfo T h segname
        let rest ← writeSectionHeaders T h segname cs
        pure (info ++ rest)

/-- The size that `MachOSegment::WriteLoadCommand` reports as the file size of the
segment: 0 for an initial segment whose only child with contents is the header. -/
def MachOSegment.reportedFileSize (T : Target) (h : MachOHeader) (s : MachOSegment) : Nat :=
  if s.IsInitial && s.next_contents_index_ == 1 then 0 else s.FileSize T h

/-- `MachOSegment::WriteLoadCommand`: the calls on the stream, in order; `none` when the
memory address or the file offset of the segment or of one of its sections is unset. -/
def MachOSegment.WriteLoadCommand (T : Target) (h : MachOHeader) (s : MachOSegment) :
    Option (List StreamWrite) := do
  let memory_address ← linearGet s.memory_address_
  let file_offset ← linearGet s.file_offset_
  let sections ← MachOSegment.writeSectionHeaders T h s.name_ s.contents_
  pure ([Write32 ((MachOCommand.segment s).cmd T), Write32 (s.cmdsize T),
         StreamWrite.WriteFixedLengthCString s.name_ kNameSize,
         WriteWord T memory_address, WriteWord T (s.MemorySize T h), WriteWord T file_offset,
         WriteWord T (s.reportedFileSize T h),
         Write32 s.max_vm_protection_, Write32 s.initial_vm_protection_,
         Write32 s.NumSections, Write32 0] ++ sections)

/-! ## The header under construction (`MachOHeader`) -/

namespace MachOHeader

/-- The constructor of `MachOHeader`; `none` when one of its assertions fails. A null
`identifier` is replaced by the empty string. -/
def create (T : Target) (type : SnapshotType) (is_stripped : Bool)
    (identifier path : Option String) (dwarf : Option Dwarf) : Option MachOHeader :=
  if T.targetOsMacOS && identifier.isNone then none
  else if !(dwarf.isSome || is_stripped) then none
  else if !(!is_stripped || type == SnapshotType.Snapshot) then none
  else
    some { type_ := type, is_stripped_ := is_stripped, identifier_ := identifier.getD "",
           path_ := path, dwarf_ := dwarf, commands_ := [],
           full_symtab_ := MachOSymbolTable.init, zone_symtabs_ := [],
           text_segment_ := none, file_offset_ := kLinearInitValue,
           memory_address_ := kLinearInitValue }

/-- `MachOHeader::HasCommand`. -/
def HasCommand (T : Target) (h : MachOHeader) (cmd : Nat) : Bool :=
  h.commands_.any fun command => command.cmd T == cmd

/-- The position in `commands_` of the segment that `MachOHeader::FindSegment` returns. -/
def FindSegmentIndex (h : MachOHeader) (name : String) : Option Nat :=
  h.commands_.findIdx? fun command =>
    match command with
    | .segment s => s.HasName name
    | .other _ _ _ _ => false

/-- The segment at a position of `commands_`. -/
def segmentAt? (h : MachOHeader) (i : Nat) : Option MachOSegment :=
  (h.commands_.get? i).bind MachOCommand.AsMachOSegment

/-- `MachOHeader::FindSegment`. -/
def FindSegment (h : MachOHeader) (name : String) : Option MachOSegment :=
  (h.FindSegmentIndex name).bind h.segmentAt?

/-- `MachOHeader::FindSection(segname, sectname)`. -/
def FindSection (h : MachOHeader) (segname sectname : String) : Option MachOSection :=
  (h.FindSegment segname).bind fun s => s.FindSection sectname

/-- `MachOHeader::NumSections`. -/
def NumSections (h : MachOHeader) : Nat :=
  h.commands_.foldl (fun num_sections command =>
    match command with
    | .segment s => num_sections + s.NumSections
    | .other _ _ _ _ => num_sections) 0

/-- The header as the contents node that `FinalizeCommands` adds to the text segment. -/
def asContents (h : MachOHeader) : MachOContents :=
  { kind := .header, file_offset_ := h.file_offset_, memory_address_ := h.memory_address_ }

/-- `MachOHeader::EnsureTextSegment`: the header and the position of the text segment in
`commands_`; `none` when an assertion fails. -/
def EnsureTextSegment (h : MachOHeader) : Option (MachOHeader × Nat) :=
  match h.text_segment_ with
  | some i => some (h, i)
  | none =>
      if (h.FindSegment SEG_TEXT).isSome then none
      else
        match MachOSegment.create SEG_TEXT (VM_PROT_READ ||| VM_PROT_EXECUTE)
            (VM_PROT_READ ||| VM_PROT_EXECUTE) with
        | none => none
        | some text_segment =>
            some ({ h with commands_ := h.commands_ ++ [.segment text_segment],
                           text_segment_ := some h.commands_.length }, h.commands_.length)

/-- The header with the segment at position `i` of `commands_` replaced. -/
def setSegment (h : MachOHeader) (i : Nat) (s : MachOSegment) : MachOHeader :=
  { h with commands_ := h.commands_.set i (.segment s) }

/-- `IncludedSymbolTable`: `none` for the null pointer (before the symbol tables are
initialized, or when a stripped header has no symbol table command). -/
def IncludedSymbolTable (T : Target) (h : MachOHeader) : Option TableRef :=
  if h.full_symtab_.symbols_.isEmpty then none
  else if !h.is_stripped_ then some TableRef.full
  else
    match h.commands_.find? fun command => command.cmd T == LC_SYMTAB with
    | some (.other (.symbolTable table) _ _ _) => some table
    | _ => none

/-- The header with the table that `table` designates replaced; a dangling zone index
yields `none`. -/
def setTable (h : MachOHeader) (table : TableRef) (t : MachOSymbolTable) : Option MachOHeader :=
  match table with
  | .full => some { h with full_symtab_ := t }
  | .zone i =>
      if i < h.zone_symtabs_.length then
        some { h with zone_symtabs_ := h.zone_symtabs_.set i t }
      else none

end MachOHeader

/-! ## Adding text and read-only data (`MachOWriter`) -/

/-- `MachOWriter`: the snapshot type and the header. -/
structure MachOWriter where
  type_ : SnapshotType
  header_ : MachOHeader
  deriving DecidableEq, Repr

namespace MachOWriter

/-- The constructor of `MachOWriter`. `is_stripped` is the value of
`IsStripped(dwarf)`, which is declared outside these sources. -/
def create (T : Target) (type : SnapshotType) (is_stripped : Bool) (id path : Option String)
    (dwarf : Option Dwarf) : Option MachOWriter :=
  (MachOHeader.create T type is_stripped id path dwarf).map fun header =>
    { type_ := type, header_ := header }

/-- The common body of `AddText` and `AddROData`: the portion is appended to the section
`sectname` of the text segment, which is created with `attributes` when it is missing. -/
def addToTextSegment (T : Target) (w : MachOWriter) (sectname : String) (attributes : Nat)
    (name : Option String) (label : Int) (bytes : Option (List Nat)) (size : Nat)
    (relocations : Option (List Nat)) (symbols : Option (List SymbolData)) :
    Option MachOWriter := do
  let (header, i) ← w.header_.EnsureTextSegment
  let text_segment ← header.segmentAt? i
  let text_segment ←
    match text_segment.FindSectionIndex sectname with
    | some _ => some text_segment
    | none => do
        let has_contents := w.type_ == SnapshotType.Snapshot
        let section_ ← MachOSection.create sectname S_REGULAR attributes has_contents T.kPageSize
        text_segment.AddContents section_ false
  let j ← text_segment.FindSectionIndex sectname
  let section_ ← text_segment.contents_.get? j
  let section_ ← section_.AddPortion bytes size relocations symbols name label
  let text_segment := { text_segment with contents_ := text_segment.contents_.set j section_ }
  pure { w with header_ := header.setSegment i text_segment }

/-- `MachOWriter::AddText`. -/
def AddText (T : Target) (w : MachOWriter) (name : Option String) (label : Int)
    (bytes : Option (List Nat)) (size : Nat) (relocations : Option (List Nat))
    (symbols : Option (List SymbolData)) : Option MachOWriter :=
  addToTextSegment T w SECT_TEXT (S_ATTR_PURE_INSTRUCTIONS ||| S_ATTR_SOME_INSTRUCTIONS)
    name label bytes size relocations symbols

/-- `MachOWriter::AddROData`: constant data goes in the text segment. -/
def AddROData (T : Target) (w : MachOWriter) (name : Option String) (label : Int)
    (bytes : Option (List Nat)) (size : Nat) (relocations : Option (List Nat))
    (symbols : Option (List SymbolData)) : Option MachOWriter :=
  addToTextSegment T w SECT_CONST S_NO_ATTRIBUTES name label bytes size relocations symbols

end MachOWriter

/-- One call a collaborator makes before `Finalize`. -/
inductive AddCall
  | text (name : Option String) (label : Int) (bytes : Option (List Nat)) (size : Nat)
      (relocations : Option (List Nat)) (symbols : Option (List SymbolData))
  | rodata (name : Option String) (label : Int) (bytes : Option (List Nat)) (size : Nat)
      (relocations : Option (List Nat)) (symbols : Option (List SymbolData))
  deriving DecidableEq, Repr

/-- The writer after one call. -/
def MachOWriter.add (T : Target) (w : MachOWriter) : AddCall → Option MachOWriter
  | .text name label bytes size relocations symbols =>
      w.AddText T name label bytes size relocations symbols
  | .rodata name label bytes size relocations symbols =>
      w.AddROData T name label bytes size relocations symbols

/-- The writer after a sequence of calls. -/
def MachOWriter.addAll (T : Target) (w : MachOWriter) (calls : List AddCall) :
    Option MachOWriter :=
  calls.foldlM (MachOWriter.add T) w

/-! ## The phases of `MachOHeader::Finalize` -/

namespace MachOHeader

/-- `HashPortion`; the hash is held in a `uint32_t`. -/
def HashPortion (T : Target) (portion : Portion) : Nat :=
  match portion.bytes with
  | none => 0
  | some bytes =>
      let hash := T.stringHash bytes portion.size % 2 ^ 32
      if hash = 0 then 1 else hash

/-- `x == nullptr ? 0 : HashPortion(*x)`. -/
def hashOf (T : Target) (portion : Option Portion) : Nat :=
  match portion with
  | none => 0
  | some portion => HashPortion T portion

/-- The four portion hashes that `GenerateUuid` feeds to the UUID command: the VM and the
isolate instructions of the text section, the VM and the isolate data of the constant-data
section of the text segment. `none` when a lookup dereferences a null name or when both
instruction portions are missing. -/
def uuidHashes (T : Target) (text_segment : MachOSegment) (text_section : MachOSection) :
    Option (List Nat) := do
  let vm_instructions ←
    MachOSection.FindPortion T.kVmSnapshotInstructionsAsmSymbol text_section.portions_
  let isolate_instructions ←
    MachOSection.FindPortion T.kIsolateSnapshotInstructionsAsmSymbol text_section.portions_
  ASSERT (vm_instructions.isSome || isolate_instructions.isSome)
  let data_section := text_segment.FindSection SECT_CONST
  let vm_data ←
    match data_section with
    | none => some none
    | some data_section =>
        MachOSection.FindPortion T.kVmSnapshotDataAsmSymbol data_section.portions_
  let isolate_data ←
    match data_section with
    | none => some none
    | some data_section =>
        MachOSection.FindPortion T.kIsolateSnapshotDataAsmSymbol data_section.portions_
  pure [hashOf T vm_instructions, hashOf T isolate_instructions, hashOf T vm_data,
    hashOf T isolate_data]

/-- `MachOHeader::GenerateUuid`. -/
def GenerateUuid (T : Target) (h : MachOHeader) : Option MachOHeader :=
  if h.HasCommand T LC_UUID then none
  else
    match h.FindSegment SEG_TEXT with
    | none => some h
    | some text_segment =>
        match text_segment.FindSection SECT_TEXT with
        | none => some h
        | some text_section =>
            (uuidHashes T text_segment text_section).map fun hashes =>
              { h with commands_ := h.commands_ ++
                  [MachOCommand.create (.uuid hashes) false false] }

/-- The body of the loop of `CreateBSS` for one text portion: the BSS portion is added to
the BSS section; `none` for a portion that is neither the VM's nor the isolate's text. -/
def addBssPortion (T : Target) (bss_section : MachOContents) (portion : Portion) :
    Option MachOContents :=
  match portion.symbol_name with
  | none => none
  | some portion_name =>
      let entry? : Option (Nat × String × Int) :=
        if portion_name == T.kVmSnapshotInstructionsAsmSymbol then
          some (T.kVmEntryCount * T.kWordSize, T.kVmSnapshotBssAsmSymbol, T.kVmBssLabel)
        else if portion_name == T.kIsolateSnapshotInstructionsAsmSymbol then
          some (T.kIsolateGroupEntryCount * T.kWordSize, T.kIsolateSnapshotBssAsmSymbol,
            T.kIsolateBssLabel)
        else none
      match entry? with
      | none => none
      | some (size, symbol_name, label) =>
          bss_section.AddPortion none size none
            (some [{ name := symbol_name, type := SymbolDataType.Section, offset := 0,
                     size := size, label := label }]) none 0

/-- `MachOHeader::CreateBSS`. The BSS section is the last child of the new data segment;
its portions are added to it in place. -/
def CreateBSS (T : Target) (h : MachOHeader) : Option MachOHeader := do
  let text_section ← h.FindSection SEG_TEXT SECT_TEXT
  ASSERT (h.FindSegment SEG_DATA).isNone
  let data_segment ← MachOSegment.create SEG_DATA (VM_PROT_READ ||| VM_PROT_WRITE)
    (VM_PROT_READ ||| VM_PROT_WRITE)
  let bss_section ← MachOSection.create SECT_BSS S_ZEROFILL S_NO_ATTRIBUTES false T.kWordSize
  let data_segment ← data_segment.AddContents bss_section false
  let bss_section ← text_section.portions_.foldlM (addBssPortion T) bss_section
  let contents := data_segment.contents_.set (data_segment.contents_.length - 1) bss_section
  let data_segment := { data_segment with contents_ := contents }
  pure { h with commands_ := h.commands_ ++ [.segment data_segment] }

/-- The `__eh_frame` part of `GenerateUnwindingInformation` (targets other than macOS). -/
def addEhFrame (T : Target) (h : MachOHeader) : Option MachOHeader := do
  let i ← h.text_segment_
  let text_segment ← h.segmentAt? i
  match text_segment.FindSection SECT_TEXT with
  | none => pure h
  | some text_section => do
      let use_zerofill := h.type_ == SnapshotType.DebugInfo
      let section_type := if use_zerofill then S_ZEROFILL else S_REGULAR
      ASSERT (use_zerofill || !text_segment.HasZerofillSections)
      ASSERT (text_segment.FindSection SECT_EH_FRAME).isNone
      ASSERT (text_section.portions_.all fun portion => portion.label != 0)
      let fdes := text_section.portions_.map fun portion => (portion.label, portion.size)
      let bytes_written := T.callFrameInformationSize fdes
      let eh_frame ← MachOSection.create SECT_EH_FRAME section_type S_NO_ATTRIBUTES
        (!use_zerofill) T.kWordSize
      let eh_frame ← eh_frame.AddPortion (if use_zerofill then none else some []) bytes_written
        (if use_zerofill then none else some []) none none 0
      let text_segment ← text_segment.AddContents eh_frame false
      pure (h.setSegment i text_segment)

/-- The body of the loop of `GenerateUnwindingInformation` that appends Windows unwinding
records to an executable segment. The trailing `ASSERT_EQUAL` of the loop body on the
unpadded memory size is a post-condition of the step and not part of it. -/
def addUnwindingRecords (T : Target) (use_zerofill : Bool) (command : MachOCommand) :
    Option MachOCommand :=
  match command with
  | .segment segment =>
      if segment.IsExecutable then do
        ASSERT (use_zerofill || !segment.HasZerofillSections)
        ASSERT (segment.FindSection SECT_UNWIND_INFO).isNone
        let section_type := if use_zerofill then S_ZEROFILL else S_REGULAR
        let unwinding_records ← MachOSection.create SECT_UNWIND_INFO section_type
          S_NO_ATTRIBUTES (!use_zerofill) T.kWordSize
        let unwinding_records ← unwinding_records.AddPortion
          (if use_zerofill then none else some []) T.unwindingRecordsSize none none none 0
        let segment ← segment.AddContents unwinding_records false
        pure (.segment segment)
      else pure command
  | .other _ _ _ _ => pure command

/-- The loop of `GenerateUnwindingInformation` over the commands, compiled in when
`UNWINDING_RECORDS_WINDOWS_PRECOMPILER` is defined. -/
def addAllUnwindingRecords (T : Target) (h : MachOHeader) : Option MachOHeader :=
  if T.unwindingRecordsWindows then
    (h.commands_.mapM (addUnwindingRecords T (h.type_ == SnapshotType.DebugInfo))).map
      fun commands => { h with commands_ := commands }
  else some h

/-- `MachOHeader::GenerateUnwindingInformation`. -/
def GenerateUnwindingInformation (T : Target) (h : MachOHeader) : Option MachOHeader :=
  if T.targetArchIA32 then some h
  else (if T.targetOsMacOS then some h else addEhFrame T h).bind (addAllUnwindingRecords T)

/-- The lambda `add_debug` of `FinalizeDwarfSections`: a debug section with one portion
of `bytes_written` bytes is added to the DWARF segment. -/
def add_debug (dwarf_segment : MachOSegment) (name : String) (bytes_written : Nat) :
    Option MachOSegment := do
  ASSERT (dwarf_segment.FindSection name).isNone
  let section_ ← MachOSection.create name S_REGULAR S_ATTR_DEBUG true 1
  let section_ ← section_.AddPortion (some []) bytes_written (some []) none none 0
  dwarf_segment.AddContents section_ false

/-- `MachOHeader::FinalizeDwarfSections`. -/
def FinalizeDwarfSections (h : MachOHeader) : Option MachOHeader :=
  match h.dwarf_ with
  | none => some h
  | some dwarf => do
      let text_segment ← h.FindSegment SEG_TEXT
      ASSERT (text_segment.FindSection SECT_TEXT).isSome
      ASSERT (h.FindSegment SEG_DWARF).isNone
      let dwarf_segment ← MachOSegment.create SEG_DWARF (VM_PROT_READ ||| VM_PROT_WRITE)
        (VM_PROT_READ ||| VM_PROT_WRITE ||| VM_PROT_EXECUTE)
      let dwarf_segment ← add_debug dwarf_segment SECT_DEBUG_ABBREV dwarf.abbreviationsSize
      let dwarf_segment ← add_debug dwarf_segment SECT_DEBUG_INFO dwarf.debugInfoSize
      let dwarf_segment ← add_debug dwarf_segment SECT_DEBUG_LINE dwarf.lineNumberProgramSize
      pure { h with commands_ := h.commands_ ++ [.segment dwarf_segment] }

/-- The sections that `InitializeSymbolTables` grabs: those of every segment, in order. -/
def allSections (commands : List MachOCommand) : List MachOSection :=
  match commands with
  | [] => []
  | .segment s :: rest => s.sections ++ allSections rest
  | .other _ _ _ _ :: rest => allSections rest

/-- The block of `InitializeSymbolTables` for a stripped header: a separate table is
created and initialized. The block binds it to a local `table` that shadows the outer
variable, so nothing outside the block refers to it. -/
def initializeStrippedTable (T : Target) (h : MachOHeader) (sections : List MachOSection) :
    Option MachOHeader :=
  if h.is_stripped_ then
    (MachOSymbolTable.init.Initialize T h.path_ sections h.is_stripped_).map fun stripped =>
      { h with zone_symtabs_ := h.zone_symtabs_ ++ [stripped] }
  else some h

/-- `MachOHeader::InitializeSymbolTables`. In a stripped header the separate table is
created and initialized under a local name that shadows `table`, so the pointer that is
added to `commands_` and handed to the dynamic symbol table stays `&full_symtab_`. -/
def InitializeSymbolTables (T : Target) (h : MachOHeader) : Option MachOHeader := do
  ASSERT (h.full_symtab_.num_symbols == 0)
  ASSERT (!h.HasCommand T LC_SYMTAB)
  ASSERT (h.commands_.all fun command => !command.HasContents || !command.file_offset_is_set)
  let sections := allSections h.commands_
  let full_symtab ← h.full_symtab_.Initialize T h.path_ sections false
  let h := { h with full_symtab_ := full_symtab }
  let table := TableRef.full
  let h ← initializeStrippedTable T h sections
  let h := { h with commands_ := h.commands_ ++ [MachOCommand.create (.symbolTable table) true true] }
  pure (if h.type_ == SnapshotType.Snapshot then
      { h with commands_ := h.commands_ ++
          [MachOCommand.create (.dynamicSymbolTable table) true true] }
    else h)

/-- `MACHO_XYZ_VERSION_ENCODING`. -/
def versionEncoding (x y z : Nat) : Nat := ((x <<< 16) ||| (y <<< 8) ||| z) % 2 ^ 32

/-- `MachOHeader::GenerateMiscellaneousCommands`. -/
def GenerateMiscellaneousCommands (T : Target) (h : MachOHeader) : Option MachOHeader := do
  ASSERT (!h.HasCommand T LC_BUILD_VERSION)
  ASSERT (!h.HasCommand T LC_ID_DYLIB)
  ASSERT (!h.HasCommand T LC_LOAD_DYLIB)
  let h := { h with commands_ := h.commands_ ++ [MachOCommand.create .buildVersion false false] }
  if h.type_ == SnapshotType.Snapshot then
    let kNoVersion := versionEncoding 0 0 0
    let id_dylib := MachOCommand.create (.idDylib h.identifier_ kNoVersion kNoVersion) false false
    let h := { h with commands_ := h.commands_ ++ [id_dylib] }
    if T.targetOsMacOS || T.targetOsMacOSIOS then
      let load_dylib := MachOCommand.create (.loadDylib "/usr/lib/libSystem.B.dylib" 0
        (versionEncoding 1351 0 0) (versionEncoding 1 0 0)) false false
      pure { h with commands_ := h.commands_ ++ [load_dylib] }
    else pure h
  else pure h

end MachOHeader

/-! ## Reordering the commands (`MachOHeader::FinalizeCommands`) -/

/-- The bins that the single pass of `FinalizeCommands` sorts the commands into. A
segment is kept with its position in the old `commands_`, which stands for its identity;
`section_info` maps such a position to the section count and the old initial section
index of the segment. -/
structure CommandBins where
  header_only_commands : List MachOCommand
  symbol_segments : List (Nat × MachOSegment)
  other_segments : List (Nat × MachOSegment)
  linkedit_commands : List MachOCommand
  section_info : List (Nat × Nat × Nat)
  num_sections : Nat
  deriving DecidableEq, Repr

namespace MachOHeader

/-- The body of the pass of `FinalizeCommands` for the command at position `i`, where
`text_index` is the position that `text_segment_` designates. -/
def binCommand (text_index : Nat) (bins : CommandBins) (i : Nat) (command : MachOCommand) :
    Option CommandBins :=
  if command.HasContents && command.file_offset_is_set then none
  else
    match command with
    | .segment s =>
        let count := s.NumSections
        let bins :=
          if count != 0 then
            { bins with section_info := bins.section_info ++ [(i, count, bins.num_sections + 1)],
                        num_sections := bins.num_sections + count }
          else bins
        if s.HasName SEG_TEXT then
          if text_index != i then none else some bins
        else if s.ContainsSymbols then
          some { bins with symbol_segments := bins.symbol_segments ++ [(i, s)] }
        else some { bins with other_segments := bins.other_segments ++ [(i, s)] }
    | .other _ _ _ _ =>
        if !command.HasContents then
          some { bins with header_only_commands := bins.header_only_commands ++ [command] }
        else some { bins with linkedit_commands := bins.linkedit_commands ++ [command] }

/-- The pass of `FinalizeCommands` over the commands from position `i` on. -/
def binCommands (text_index : Nat) : CommandBins → Nat → List MachOCommand → Option CommandBins
  | bins, _, [] => some bins
  | bins, i, command :: rest => do
      let bins ← binCommand text_index bins i command
      binCommands text_index bins (i + 1) rest

/-- The contents node of a command that goes into `__LINKEDIT`; `none` for a segment
or a command without contents outside the header. -/
def linkeditContents (command : MachOCommand) : Option MachOContents :=
  match command with
  | .segment _ => none
  | .other kind file_offset_ memory_address_ _ =>
      kind.asContents?.map fun k =>
        { kind := k, file_offset_ := file_offset_, memory_address_ := memory_address_ }

/-- The inner loop of `FinalizeCommands` that numbers the `count` sections of a segment:
`index_map[old_start + i] = current_section_index++`. -/
def mapSections (old_start : Nat) : Nat → Nat → List Nat → Nat → List Nat × Nat
  | 0, _, index_map, current_section_index => (index_map, current_section_index)
  | count + 1, i, index_map, current_section_index =>
      mapSections old_start count (i + 1) (index_map.set (old_start + i) current_section_index)
        (current_section_index + 1)

/-- The loop of `FinalizeCommands` over the segments in their final order that fills the
index map. -/
def mapSegments (section_info : List (Nat × Nat × Nat)) :
    List (Nat × MachOSegment) → List Nat → Nat → List Nat
  | [], index_map, _ => index_map
  | (i, _) :: rest, index_map, current_section_index =>
      match section_info.find? fun kv => kv.1 == i with
      | some (_, count, old_start) =>
          let r := mapSections old_start count 0 index_map current_section_index
          mapSegments section_info rest r.1 r.2
      | none => mapSegments section_info rest index_map current_section_index

/-- `UpdateSectionIndices` of the table that `table` designates. -/
def updateTable (h : MachOHeader) (table : TableRef) (index_map : List Nat) :
    Option MachOHeader := do
  let t ← h.table? table
  let t ← t.UpdateSectionIndices index_map
  h.setTable table t

/-- The code signature that `FinalizeCommands` creates for a snapshot. -/
def codeSignature (h : MachOHeader) : MachOCommand :=
  MachOCommand.create (.codeSignature h.identifier_) true true

/-- The block of `FinalizeCommands` for a snapshot: the code signature becomes the last
child of the link-edit segment. -/
def addCodeSignature (h : MachOHeader) (linkedit_segment : MachOSegment) :
    Option MachOSegment :=
  if h.type_ == SnapshotType.Snapshot then
    (linkeditContents h.codeSignature).bind fun contents =>
      linkedit_segment.AddContents contents false
  else some linkedit_segment

/-- The end of `FinalizeCommands`: the section indices of the full table, and of the
included table when it is another one, are updated. -/
def updateSectionIndices (T : Target) (h : MachOHeader) (index_map : List Nat) :
    Option MachOHeader :=
  (h.updateTable TableRef.full index_map).bind fun h =>
    match h.IncludedSymbolTable T with
    | none => none
    | some table =>
        if table != TableRef.full then
          if !h.is_stripped_ then none else h.updateTable table index_map
        else some h

/-- The part of `FinalizeCommands` that creates the link-edit segment: the commands with
contents outside the header become its children, in order, and a snapshot gets its code
signature as the last one. -/
def createLinkeditSegment (h : MachOHeader) (linkedit_commands : List MachOCommand) :
    Option MachOSegment := do
  let linkedit_segment ← MachOSegment.create SEG_LINKEDIT VM_PROT_READ VM_PROT_READ
  let linkedit_segment ← linkedit_commands.foldlM (fun segment c => do
    let contents ← linkeditContents c
    segment.AddContents contents false) linkedit_segment
  h.addCodeSignature linkedit_segment

/-- The part of `FinalizeCommands` after the bins are filled and the new segment exists:
the commands are put in their final order and the section indices are mapped. -/
def reorderCommands (T : Target) (h : MachOHeader) (bins : CommandBins) (text_index : Nat)
    (text_segment linkedit_segment : MachOSegment) : Option MachOHeader := do
  let is_snapshot := h.type_ == SnapshotType.Snapshot
  let linkedit_commands :=
    if is_snapshot then bins.linkedit_commands ++ [h.codeSignature] else bins.linkedit_commands
  let num_commands := h.commands_.length + 1
  let num_commands := if is_snapshot then num_commands + 1 else num_commands
  let segments := [(text_index, text_segment)] ++ bins.symbol_segments ++ bins.other_segments ++
    [(h.commands_.length, linkedit_segment)]
  let index_map := mapSegments bins.section_info segments
    (List.replicate (bins.num_sections + 1) NO_SECT) 1
  let reordered_commands := bins.header_only_commands ++
    segments.map (fun s => MachOCommand.segment s.2) ++ linkedit_commands
  ASSERT (reordered_commands.length == num_commands)
  let h := { h with commands_ := reordered_commands,
                    text_segment_ := some bins.header_only_commands.length }
  ASSERT (index_map.getD NO_SECT 0 == NO_SECT)
  ASSERT ((List.range bins.num_sections).all fun i => i == 0 || index_map.getD i 0 != NO_SECT)
  updateSectionIndices T h index_map

/-- `MachOHeader::FinalizeCommands`. -/
def FinalizeCommands (T : Target) (h : MachOHeader) : Option MachOHeader := do
  ASSERT (h.FindSegment SEG_LINKEDIT).isNone
  ASSERT (!h.HasCommand T LC_CODE_SIGNATURE)
  ASSERT (h.commands_.length != 0)
  let text_index ← h.text_segment_
  let text_segment ← h.segmentAt? text_index
  let bins ← binCommands text_index
    { header_only_commands := [], symbol_segments := [], other_segments := [],
      linkedit_commands := [], section_info := [], num_sections := 0 } 0 h.commands_
  ASSERT (!bins.linkedit_commands.isEmpty)
  let linkedit_segment ← h.createLinkeditSegment bins.linkedit_commands
  let text_segment ← text_segment.AddContents h.asContents (text_index == 0)
  reorderCommands T h bins text_index text_segment linkedit_segment

end MachOHeader

/-! ## The segments before `FinalizeCommands` -/

/-- A child of a segment that is a section whose alignment is a power of two, which the
constructor of `MachOSection` asserts. -/
def MachOContents.IsAlignedSection (c : MachOContents) : Bool :=
  match c.kind with
  | .section s => IsPowerOfTwo s.alignment_
  | _ => false

/-- Whether the children of all segments are sections with a power-of-two alignment: the
state of a header that `AddContents` has only been given sections, as is the case until
`FinalizeCommands` adds the header and the commands with contents. -/
def MachOHeader.HasOnlySections (h : MachOHeader) : Bool :=
  h.commands_.all fun command =>
    match command with
    | .segment s => s.contents_.all MachOContents.IsAlignedSection
    | .other _ _ _ _ => true

/-! ## The final command order, in the words of the specification -/

namespace Spec

/-- The header-only commands: the commands other than segments with no file content. -/
def headerOnlyCommands (commands : List MachOCommand) : List MachOCommand :=
  commands.filter fun c =>
    match c with
    | .segment _ => false
    | .other _ _ _ _ => !c.HasContents

/-- The content-bearing commands other than segments. -/
def linkeditCommands (commands : List MachOCommand) : List MachOCommand :=
  commands.filter fun c =>
    match c with
    | .segment _ => false
    | .other _ _ _ _ => c.HasContents

/-- The segments named `__TEXT`. -/
def textSegments (commands : List MachOCommand) : List MachOCommand :=
  commands.filter fun c =>
    match c with
    | .segment s => s.HasName SEG_TEXT
    | .other _ _ _ _ => false

/-- A segment other than the text segment that contains symbols. -/
def isSymbolSegment (s : MachOSegment) : Bool := !s.HasName SEG_TEXT && s.ContainsSymbols

/-- A segment other than the text segment that contains no symbols. -/
def isOtherSegment (s : MachOSegment) : Bool := !s.HasName SEG_TEXT && !s.ContainsSymbols

/-- The segments other than the text segment that contain symbols. -/
def symbolSegments (commands : List MachOCommand) : List MachOCommand :=
  commands.filter fun c =>
    match c with
    | .segment s => isSymbolSegment s
    | .other _ _ _ _ => false

/-- The remaining segments. -/
def otherSegments (commands : List MachOCommand) : List MachOCommand :=
  commands.filter fun c =>
    match c with
    | .segment s => isOtherSegment s
    | .other _ _ _ _ => false

/-- The code signature of a snapshot, as a list of commands; empty for debugging
information. -/
def signatureCommands (h : MachOHeader) : List MachOCommand :=
  if h.type_ == SnapshotType.Snapshot then [h.codeSignature] else []

/-- The text segment after the header became its first child. -/
def withHeader (h : MachOHeader) (text_segment : MachOSegment) : MachOSegment :=
  { text_segment with contents_ := h.asContents :: text_segment.contents_,
                      next_contents_index_ := text_segment.next_contents_index_ + 1 }

/-- The segments of a command list with their positions, the first command being at
position `i`. -/
def segmentsFrom : Nat → List MachOCommand → List (Nat × MachOSegment)
  | _, [] => []
  | i, .segment s :: rest => (i, s) :: segmentsFrom (i + 1) rest
  | i, .other _ _ _ _ :: rest => segmentsFrom (i + 1) rest

/-- The section count and first old section index of every segment with sections, for
segments listed in command order after `num_sections` sections. -/
def sectionInfoFrom : Nat → List (Nat × MachOSegment) → List (Nat × Nat × Nat)
  | _, [] => []
  | num_sections, (i, s) :: rest =>
      if s.NumSections != 0 then
        (i, s.NumSections, num_sections + 1) :: sectionInfoFrom (num_sections + s.NumSections) rest
      else sectionInfoFrom num_sections rest

/-- The sections of the listed segments, in order, as contents nodes. -/
def sectionsOf : List (Nat × MachOSegment) → List MachOContents
  | [] => []
  | ps :: rest => ps.2.contents_.filter MachOContents.IsMachOSection ++ sectionsOf rest

/-- The number of sections of the segments that a list has before the segment of
position `p`. -/
def countBefore : List (Nat × MachOSegment) → Nat → Nat
  | [], _ => 0
  | (q, s) :: rest, p => if q = p then 0 else s.NumSections + countBefore rest p

/-- The segments of a header in the order that `FinalizeCommands` gives them, each with
its position in the old command list; the new link-edit segment is the last one. -/
def finalSegments (h : MachOHeader) (text_segment linkedit_segment : MachOSegment) :
    List (Nat × MachOSegment) :=
  [(0, withHeader h text_segment)] ++
    (segmentsFrom 0 h.commands_).filter (fun ps => isSymbolSegment ps.2) ++
    (segmentsFrom 0 h.commands_).filter (fun ps => isOtherSegment ps.2) ++
    [(h.commands_.length, linkedit_segment)]

end Spec

/-! ## Computing the offsets (`MachOHeader::ComputeOffsets`) -/

namespace MachOHeader

/-- `set_header_offset`; `none` when the value is the sentinel or the field is set. -/
def set_header_offset (command : MachOCommand) (value : Int) : Option MachOCommand :=
  match command with
  | .segment s =>
      if value != kLinearInitValue && s.header_offset_ == kLinearInitValue then
        some (.segment { s with header_offset_ := value })
      else none
  | .other kind file_offset_ memory_address_ header_offset_ =>
      if value != kLinearInitValue && header_offset_ == kLinearInitValue then
        some (.other kind file_offset_ memory_address_ value)
      else none

/-- The first loop of `ComputeOffsets`: every command gets its offset in the header. -/
def setHeaderOffsets (T : Target) : Nat → List MachOCommand → Option (List MachOCommand)
  | _, [] => some []
  | header_offset, c :: rest => do
      ASSERT (header_offset % T.kWordSize == 0)
      let c1 ← set_header_offset c header_offset
      let rest ← setHeaderOffsets T (header_offset + c.cmdsize T) rest
      pure (c1 :: rest)

/-- `MachOHeader::VisitSegments` with the layout visitor; `h` is the header through which
the children reach the header size and the symbol tables. -/
def VisitSegments (T : Target) (h : MachOHeader) (v : ContentOffsetsVisitor) :
    List MachOCommand → ContentOffsetsVisitor × List MachOCommand
  | [] => (v, [])
  | .segment s :: rest =>
      let r := ContentOffsetsVisitor.VisitMachOSegment T h v s
      let rs := VisitSegments T h r.1 rest
      (rs.1, .segment r.2 :: rs.2)
  | c :: rest =>
      let rs := VisitSegments T h v rest
      (rs.1, c :: rs.2)

/-- The children of all segments, in order. -/
def allContents : List MachOCommand → List MachOContents
  | [] => []
  | .segment s :: rest => s.contents_ ++ allContents rest
  | .other _ _ _ _ :: rest => allContents rest

/-- A command placed in `__LINKEDIT` is the object that layout has positioned as a child
of the segment: its entry in `commands_` takes the fields of that child. -/
def syncCommand (children : List MachOContents) (command : MachOCommand) : MachOCommand :=
  match command with
  | .segment s => .segment s
  | .other kind file_offset_ memory_address_ header_offset_ =>
      match kind.asContents? with
      | none => command
      | some k =>
          match children.find? fun c => c.kind == k with
          | some c => .other kind c.file_offset_ c.memory_address_ header_offset_
          | none => .other kind file_offset_ memory_address_ header_offset_

/-- The header and the symbol tables are likewise the objects positioned as children. -/
def syncHeader (h : MachOHeader) : MachOHeader :=
  let children := allContents h.commands_
  let h := { h with commands_ := h.commands_.map (syncCommand children) }
  let h :=
    match children.find? fun c => c.kind == ContentsKind.header with
    | some c => { h with file_offset_ := c.file_offset_, memory_address_ := c.memory_address_ }
    | none => h
  let sync := fun (table : TableRef) (t : MachOSymbolTable) =>
    match children.find? fun c => c.kind == ContentsKind.symbolTable table with
    | some c => { t with file_offset_ := c.file_offset_ }
    | none => t
  { h with full_symtab_ := sync TableRef.full h.full_symtab_,
           zone_symtabs_ := h.zone_symtabs_.enum.map fun it => sync (TableRef.zone it.1) it.2 }

/-- `MachOSymbolTable::Finalize` of the table that `table` designates. -/
def finalizeTable (T : Target) (h : MachOHeader) (table : TableRef) (address_map : List Nat) :
    Option MachOHeader := do
  let t ← h.table? table
  let t ← t.Finalize T address_map
  h.setTable table t

/-- The layout part of `ComputeOffsets`: the header offsets of the commands, then the
traversal of the segments. Returns the header and the address map. -/
def layout (T : Target) (h : MachOHeader) : Option (MachOHeader × List Nat) := do
  let commands ← setHeaderOffsets T (h.SizeWithoutLoadCommands T) h.commands_
  let h := { h with commands_ := commands }
  let r := VisitSegments T h ContentOffsetsVisitor.init h.commands_
  pure (syncHeader { h with commands_ := r.2 }, r.1.address_map)

/-- `MachOHeader::ComputeOffsets`. -/
def ComputeOffsets (T : Target) (h : MachOHeader) : Option MachOHeader := do
  let (h, address_map) ← layout T h
  let h ← h.finalizeTable T TableRef.full address_map
  match h.IncludedSymbolTable T with
  | none => none
  | some table =>
      if table != TableRef.full then
        if !h.is_stripped_ then none else h.finalizeTable T table address_map
      else pure h

/-- The phases of `MachOHeader::Finalize` that precede `ComputeOffsets`, in their fixed
order. -/
def beforeComputeOffsets (T : Target) (h : MachOHeader) : Option MachOHeader := do
  let h ← GenerateUuid T h
  let h ← CreateBSS T h
  let h ← GenerateUnwindingInformation T h
  let h ← FinalizeDwarfSections h
  let h ← InitializeSymbolTables T h
  let h ← GenerateMiscellaneousCommands T h
  FinalizeCommands T h

/-- `MachOHeader::Finalize`: the phases in their fixed order, `ComputeOffsets` last. -/
def Finalize (T : Target) (h : MachOHeader) : Option MachOHeader := do
  let h ← beforeComputeOffsets T h
  ComputeOffsets T h

/-- The sections of all segments, in order, as the contents nodes that layout positions. -/
def sectionContents (h : MachOHeader) : List MachOContents :=
  (allContents h.commands_).filter MachOContents.IsMachOSection

/-- The section with the 1-based index `section_index`; `none` for `NO_SECT`. -/
def sectionAt? (h : MachOHeader) (section_index : Nat) : Option MachOContents :=
  if section_index = NO_SECT then none else h.sectionContents.get? (section_index - 1)

/-- `MachOHeader::relocation_symbol_table`. -/
def relocation_symbol_table (h : MachOHeader) : MachOSymbolTable := h.full_symtab_

end MachOHeader

/-- The header part of `MachOWriter::Finalize` (the write traversal that follows does not
change the header). -/
def MachOWriter.Finalize (T : Target) (w : MachOWriter) : Option MachOWriter :=
  (w.header_.Finalize T).map fun header => { w with header_ := header }

/-! ## A concrete target -/

/-- A 64-bit target with the Mach-O format's record sizes and 16 KiB pages, on which the
definitions can be evaluated. The values that the format does not fix (labels, symbol
names, entry counts, external size and hash functions) are sample values. -/
def Target.example64 : Target where
  kWordSize := 8
  kPageSize := 16384
  sizeofHeaderType := 32
  sizeofSegmentCommandType := 72
  sizeofSectionType := 80
  sizeofNlist := 16
  sizeofSymtabCommand := 24
  sizeofDysymtabCommand := 80
  sizeofUuidCommand := 24
  sizeofBuildVersionCommand := 24
  sizeofDylibCommand := 24
  sizeofLinkeditDataCommand := 16
  sizeofCsSuperblob := 12
  sizeofCsBlobIndex := 8
  sizeofCsCodeDirectory := 88
  targetOsMacOS := false
  targetOsMacOSIOS := false
  targetArchIA32 := false
  targetArchIs32Bit := false
  unwindingRecordsWindows := false
  unwindingRecordsSize := 0
  kVmEntryCount := 1
  kIsolateGroupEntryCount := 2
  kVmBssLabel := 5
  kIsolateBssLabel := 6
  kBuildIdLabel := 7
  kVmSnapshotInstructionsAsmSymbol := "_kDartVmSnapshotInstructions"
  kIsolateSnapshotInstructionsAsmSymbol := "_kDartIsolateSnapshotInstructions"
  kVmSnapshotDataAsmSymbol := "_kDartVmSnapshotData"
  kIsolateSnapshotDataAsmSymbol := "_kDartIsolateSnapshotData"
  kVmSnapshotBssAsmSymbol := "_kDartVmSnapshotBss"
  kIsolateSnapshotBssAsmSymbol := "_kDartIsolateSnapshotBss"
  callFrameInformationSize := fun fdes => 24 + 32 * fdes.length
  stringHash := fun bytes size => (bytes.take size).foldl (fun a b => (31 * a + b) % 2 ^ 32) 7
  SHA256 := fun chunk => List.replicate 31 0 ++ [chunk.foldl (fun a b => (a + b) % 256) 0]

/-! ## Sample inputs -/

/-- An empty symbol table with unset counts (the state before the constructor interns
the reserved strings), used where only sizes matter. -/
def MachOSymbolTable.sampleEmpty : MachOSymbolTable :=
  { strings_ := { text_ := [], text_indices_ := [] }, symbols_ := [], by_label_index_ := [],
    max_label_ := 0, num_local_symbols_ := -1, num_external_symbols_ := -1, file_offset_ := -1 }

/-- A text section with contents: one 64-byte portion and one 100-byte portion. -/
def MachOContents.sampleText : MachOContents :=
  { kind := .section
      { name_ := SECT_TEXT, flags_ := 0x80000400, alignment_ := 16384,
        portions_ :=
          [{ offset := 0, symbol_name := some "_kDartVmSnapshotInstructions", label := 1,
             bytes := some [], size := 64, relocations := none, symbols := none },
           { offset := 16384, symbol_name := some "_kDartIsolateSnapshotInstructions",
             label := 2, bytes := some [], size := 100, relocations := none,
             symbols := none }] },
    file_offset_ := -1, memory_address_ := -1 }

/-- A zero-fill section of three words with word alignment. -/
def MachOContents.sampleZerofill : MachOContents :=
  { kind := .section
      { name_ := SECT_BSS, flags_ := 1, alignment_ := 8,
        portions_ :=
          [{ offset := 0, symbol_name := none, label := 0, bytes := none, size := 24,
             relocations := none, symbols := none }] },
    file_offset_ := 0, memory_address_ := -1 }

/-- An initial text segment: the header, a text section and a zero-fill section. -/
def MachOSegment.sampleText : MachOSegment :=
  { name_ := SEG_TEXT, next_contents_index_ := 2, initial_vm_protection_ := 5,
    max_vm_protection_ := 5,
    contents_ := [{ kind := .header, file_offset_ := -1, memory_address_ := -1 },
      MachOContents.sampleText, MachOContents.sampleZerofill],
    file_offset_ := -1, memory_address_ := -1, header_offset_ := -1 }

/-- A header whose only command is the sample text segment. -/
def MachOHeader.sample : MachOHeader :=
  { type_ := .Snapshot, is_stripped_ := true, identifier_ := "app", path_ := none,
    dwarf_ := none, commands_ := [.segment MachOSegment.sampleText],
    full_symtab_ := MachOSymbolTable.sampleEmpty, zone_symtabs_ := [],
    text_segment_ := some 0, file_offset_ := -1, memory_address_ := -1 }

/-- A named text portion that carries a function and an object descriptor. -/
def Portion.sampleVmInstructions : Portion :=
  { offset := 0, symbol_name := some "_kDartVmSnapshotInstructions", label := 1,
    bytes := some [], size := 64, relocations := none,
    symbols := some
      [{ name := "f", type := .Function, offset := 16, size := 8, label := 10 },
       { name := "o", type := .Object, offset := 32, size := 8, label := 11 }] }

/-- A named constant-data portion. -/
def Portion.sampleVmData : Portion :=
  { offset := 0, symbol_name := some "_kDartVmSnapshotData", label := 2, bytes := some [],
    size := 32, relocations := none, symbols := none }

/-- A labelled portion that has no symbol name. -/
def Portion.sampleUnnamed : Portion :=
  { offset := 16384, symbol_name := none, label := 3, bytes := some [], size := 32,
    relocations := none, symbols := none }

/-- A text section with the named text portion. -/
def MachOSection.sampleTextSection : MachOSection :=
  { name_ := SECT_TEXT, flags_ := 0x80000400, alignment_ := 16384,
    portions_ := [Portion.sampleVmInstructions] }

/-- A constant-data section with the named and the unnamed portion. -/
def MachOSection.sampleConstSection : MachOSection :=
  { name_ := SECT_CONST, flags_ := 0, alignment_ := 16384,
    portions_ := [Portion.sampleVmData, Portion.sampleUnnamed] }

/-- The two sample sections, in order. -/
def MachOSection.sampleSections : List MachOSection :=
  [MachOSection.sampleTextSection, MachOSection.sampleConstSection]

/-- The unstripped table of the sample sections. -/
def MachOSymbolTable.sampleUnstripped : MachOSymbolTable :=
  (MachOSymbolTable.Initialize Target.example64 MachOSymbolTable.init (some "/tmp/app.o")
    MachOSection.sampleSections false).getD MachOSymbolTable.init

/-- The stripped table of the sample sections. -/
def MachOSymbolTable.sampleStripped : MachOSymbolTable :=
  (MachOSymbolTable.Initialize Target.example64 MachOSymbolTable.init (some "/tmp/app.o")
    MachOSection.sampleSections true).getD MachOSymbolTable.init

/-- The calls of the example scenario: a text portion with label 1 and 64 bytes, then a
constant-data portion with label 2 and 32 bytes. -/
def AddCall.sampleCalls : List AddCall :=
  [.text (some "_kDartVmSnapshotInstructions") 1 (some []) 64 none none,
   .rodata (some "_kDartVmSnapshotData") 2 (some []) 32 none none]

/-- A stripped snapshot writer with the identifier `id` after the sample calls. -/
def MachOWriter.sampleSnapshot (id : String) : Option MachOWriter :=
  (MachOWriter.create Target.example64 SnapshotType.Snapshot true (some id) none none).bind
    fun w => w.addAll Target.example64 AddCall.sampleCalls

/-- A debug-info writer with the identifier `id` after the sample calls. -/
def MachOWriter.sampleDebugInfo (id : String) : Option MachOWriter :=
  (MachOWriter.create Target.example64 SnapshotType.DebugInfo false (some id)
      (some "/tmp/app.o") (some ⟨10, 20, 30⟩)).bind
    fun w => w.addAll Target.example64 AddCall.sampleCalls

/-- The header of the stripped sample snapshot after the phases of `Finalize` that precede
`InitializeSymbolTables`. -/
def MachOHeader.sampleStripped : Option MachOHeader := do
  let w ← MachOWriter.sampleSnapshot "app"
  let h ← w.header_.GenerateUuid Target.example64
  let h ← h.CreateBSS Target.example64
  let h ← h.GenerateUnwindingInformation Target.example64
  h.FinalizeDwarfSections

/-- The header of the stripped sample snapshot when `Finalize` is called. -/
def MachOHeader.sampleSnapshotHeader : MachOHeader :=
  ((MachOWriter.sampleSnapshot "app").map fun w => w.header_).getD MachOHeader.sample

/-- The header of the stripped sample snapshot when `Finalize` calls `FinalizeCommands`. -/
def MachOHeader.sampleBeforeFinalizeCommands : MachOHeader :=
  (do
    let h ← MachOHeader.sampleSnapshotHeader.GenerateUuid Target.example64
    let h ← h.CreateBSS Target.example64
    let h ← h.GenerateUnwindingInformation Target.example64
    let h ← h.FinalizeDwarfSections
    let h ← h.InitializeSymbolTables Target.example64
    h.GenerateMiscellaneousCommands Target.example64).getD MachOHeader.sample

/-- The header of the stripped sample snapshot before `ComputeOffsets`. -/
def MachOHeader.sampleBeforeOffsets : MachOHeader :=
  (MachOHeader.sampleSnapshotHeader.beforeComputeOffsets Target.example64).getD
    MachOHeader.sample

/-- The header of the stripped sample snapshot after `Finalize`. -/
def MachOHeader.sampleFinalized : MachOHeader :=
  (MachOHeader.sampleSnapshotHeader.Finalize Target.example64).getD MachOHeader.sample

/-- An identifier of 15700 characters: with it the load commands of a snapshot no longer fit
in the first 16 KiB page. -/
def MachOWriter.sampleLongIdentifier : String := String.mk (List.replicate 15700 'a')

/-- The value that the relocation symbol table of a writer has for `label` once the writer
is finalized. -/
def MachOWriter.finalizedLabelValue (T : Target) (w : Option MachOWriter) (label : Int) :
    Option (Option Nat) :=
  ((w.bind fun w => w.Finalize T).bind fun w =>
    w.header_.relocation_symbol_table.FindLabel label).map fun s => s.map Symbol.value

/-- The unstripped sample table after `Finalize` with the sections at 16384 and 32768. -/
def MachOSymbolTable.sampleRebased : MachOSymbolTable :=
  (MachOSymbolTable.sampleUnstripped.Finalize Target.example64 [0, 16384, 32768]).getD
    MachOSymbolTable.init

/-- The unstripped sample table after `UpdateSectionIndices` with the two sections
swapped. -/
def MachOSymbolTable.sampleReindexed : MachOSymbolTable :=
  (MachOSymbolTable.sampleUnstripped.UpdateSectionIndices [0, 2, 1]).getD MachOSymbolTable.init

/-- A data segment whose only child is the sample zero-fill section. -/
def MachOSegment.sampleData : MachOSegment :=
  { name_ := SEG_DATA, next_contents_index_ := 0, initial_vm_protection_ := 3,
    max_vm_protection_ := 3, contents_ := [MachOContents.sampleZerofill],
    file_offset_ := -1, memory_address_ := -1, header_offset_ := -1 }

/-- The header of the sample debug-info writer when `Finalize` is called. -/
def MachOHeader.sampleDebugInfoHeader : MachOHeader :=
  ((MachOWriter.sampleDebugInfo "app").map fun w => w.header_).getD MachOHeader.sample

/-- The header of the sample debug-info output after `Finalize`. -/
def MachOHeader.sampleDebugInfoFinalized : MachOHeader :=
  ((MachOWriter.sampleDebugInfo "app").bind fun w =>
    w.header_.Finalize Target.example64).getD MachOHeader.sample

/-- The text segment of the finalized sample debug-info output: the header and sections
without contents. -/
def MachOSegment.sampleDebugInfoText : MachOSegment :=
  (MachOHeader.sampleDebugInfoFinalized.text_segment_.bind
    MachOHeader.sampleDebugInfoFinalized.segmentAt?).getD MachOSegment.sampleText

/-- The load command of the text segment of the finalized sample debug-info output. -/
def MachOSegment.sampleDebugInfoTextWrites : List StreamWrite :=
  (MachOSegment.sampleDebugInfoText.WriteLoadCommand Target.example64
    MachOHeader.sampleDebugInfoFinalized).getD []

/-! ## Reading the string table -/

/-- The NUL character that terminates a C string. -/
def kNul : Char := Char.ofNat 0

/-- Whether a string can be passed as a `const char*`: it contains no NUL. -/
def IsCString (str : String) : Bool := str.toList.all fun c => c != kNul

/-- `StringTable::At`: the C string that starts at `index` of the text, `none` for the
null pointer. -/
def StringTable.At (s : StringTable) (index : Nat) : Option (List Char) :=
  if index ≥ s.text_.length then none
  else some ((s.text_.drop index).takeWhile fun c => c != kNul)

/-- The table after a sequence of `StringTable::Add` calls. -/
def StringTable.addAll (s : StringTable) (strs : List String) : StringTable :=
  strs.foldl (fun s str => (s.Add str).1) s

/-- Every interned string stands in the text at its offset, followed by NUL. -/
def StringTable.EntriesInText (s : StringTable) : Prop :=
  ∀ kv ∈ s.text_indices_,
    (s.text_.drop kv.2).take (kv.1.length + 1) = kv.1.toList ++ [kNul]

/-! ## The words of the build id, in the words of the specification -/

namespace Spec

/-- The portion of a section that carries the given name (the first one, if several
do), none when the section itself is missing. -/
def namedPortion (section_ : Option MachOSection) (name : String) : Option Portion :=
  section_.bind fun s => s.portions_.find? fun p => p.symbol_name == some name

/-- What the specification says of the 32-bit word `w` that the build id holds for a
portion: it is 0 when the portion is absent or has no bytes, and otherwise it is the
content hash of the portion, with 1 in place of a hash of 0. -/
def IsBuildIdWord (T : Target) (portion : Option Portion) (w : Nat) : Prop :=
  w < 2 ^ 32 ∧
  (portion = none → w = 0) ∧
  (∀ p, portion = some p → p.bytes = none → w = 0) ∧
  (∀ p bytes, portion = some p → p.bytes = some bytes →
    w ≠ 0 ∧
    (T.stringHash bytes p.size % 2 ^ 32 ≠ 0 → w = T.stringHash bytes p.size % 2 ^ 32) ∧
    (T.stringHash bytes p.size % 2 ^ 32 = 0 → w = 1))

end Spec

/-! ## Write-once fields (`DEFINE_LINEAR_FIELD_METHODS`) -/

namespace LinearField

/-- The getter `name()` of the macro: `none` when `ASSERT(name_ != kLinearInitValue)`
fails. -/
def get (field : Int) : Option Int := do
  ASSERT (field != kLinearInitValue)
  pure field

/-- The query `name_is_set()` of the macro. -/
def is_set (field : Int) : Bool := field != kLinearInitValue

/-- The setter `set_name(value)` of the macro: the new content of the field, `none` when
one of the two assertions fails. -/
def set (field value : Int) : Option Int := do
  ASSERT (value != kLinearInitValue)
  ASSERT (field == kLinearInitValue)
  pure value

end LinearField

namespace MachOContents

/-- The constructor `MachOContents(needs_offset, in_segment)`: an unneeded file offset or
memory address is preset to 0. -/
def create (kind : ContentsKind) (needs_offset in_segment : Bool) : MachOContents :=
  { kind := kind,
    file_offset_ := if needs_offset then kLinearInitValue else 0,
    memory_address_ := if in_segment then kLinearInitValue else 0 }

/-- `file_offset()`. -/
def file_offset (c : MachOContents) : Option Int := LinearField.get c.file_offset_

/-- `set_file_offset(value)`. -/
def set_file_offset (c : MachOContents) (value : Int) : Option MachOContents :=
  (LinearField.set c.file_offset_ value).map fun v => { c with file_offset_ := v }

/-- `memory_address()`. -/
def memory_address (c : MachOContents) : Option Int := LinearField.get c.memory_address_

/-- `set_memory_address(value)`. -/
def set_memory_address (c : MachOContents) (value : Int) : Option MachOContents :=
  (LinearField.set c.memory_address_ value).map fun v => { c with memory_address_ := v }

end MachOContents

namespace MachOCommand

/-- The field `header_offset_` of a command. -/
def header_offset_ : MachOCommand → Int
  | .segment s => s.header_offset_
  | .other _ _ _ header_offset_ => header_offset_

/-- `header_offset()`. -/
def header_offset (command : MachOCommand) : Option Int :=
  LinearField.get command.header_offset_

end MachOCommand

namespace MachOSymbolTable

/-- `num_local_symbols()`. -/
def num_local_symbols (t : MachOSymbolTable) : Option Int :=
  LinearField.get t.num_local_symbols_

/-- `num_external_symbols()`. -/
def num_external_symbols (t : MachOSymbolTable) : Option Int :=
  LinearField.get t.num_external_symbols_

end MachOSymbolTable

namespace Spec

/-- What the specification says of a write-once field of the objects `α`, given the
stored field, its getter and its setter: the getter fails while the field is unset; the
setter fails when the field is already set or the value is the sentinel; otherwise it
succeeds, stores the value, the getter then returns the value and every further set
fails. -/
def WriteOnce (α : Type) (field : α → Int) (get : α → Option Int)
    (set : α → Int → Option α) : Prop :=
  (∀ a, field a = kLinearInitValue → get a = none) ∧
  (∀ a value, field a ≠ kLinearInitValue ∨ value = kLinearInitValue → set a value = none) ∧
  (∀ a value, field a = kLinearInitValue → value ≠ kLinearInitValue →
    ∃ a1, set a value = some a1 ∧ field a1 = value ∧ get a1 = some value ∧
      ∀ value2, set a1 value2 = none)

end Spec

/-! ## Looking up the value of a label (`MachOWriteStream::HasValueForLabel`) -/

/-- `MachOHeader::FindCommand(cmd)` in a debug build: the command with the given code,
`some none` for the null pointer, `none` when a second command with the code fails
`ASSERT(result == nullptr)`. -/
def MachOHeader.FindCommand (T : Target) (h : MachOHeader) (cmd : Nat) :
    Option (Option MachOCommand) :=
  h.commands_.foldlM (fun result command =>
    if command.cmd T == cmd then do
      ASSERT result.isNone
      pure (some command)
    else pure result) none

/-- `MachOWriteStream::HasValueForLabel(label, value)` on a stream whose writer has the
header `header`: the returned flag and the content of `*value` afterwards, `none` when an
assertion fails. The parameter `value` is the content of `*value` before the call;
`intptr_t` is unbounded here, as everywhere in this development. -/
def MachOWriteStream.HasValueForLabel (T : Target) (header : MachOHeader) (label : Int)
    (value : Int) : Option (Bool × Int) :=
  if label == T.kBuildIdLabel then do
    let uuid ← header.FindCommand T LC_UUID
    match uuid with
    | none => pure (false, value)
    | some uuid => do
        let file_offset ← LinearField.get header.file_offset_
        let header_offset ← uuid.header_offset
        pure (true, file_offset + header_offset)
  else do
    let symbol ← header.relocation_symbol_table.FindLabel label
    match symbol with
    | none => pure (false, value)
    | some symbol => pure (true, (symbol.value : Int))

/-! ## Section symbols and their labels -/

/-- A symbolic-debugging symbol: some `N_STAB` bit is set in its type. -/
def Symbol.IsDebugging (s : Symbol) : Bool := s.type &&& N_STAB != 0

/-- A section symbol: no `N_STAB` bit is set, and the `N_TYPE` bits are `N_SECT`. -/
def Symbol.IsSectionSymbol (s : Symbol) : Bool :=
  s.type &&& N_STAB == 0 && s.type &&& N_TYPE == N_SECT

/-- The labels under which `by_label_index_` holds the symbol at `index` of `symbols_`
(the stored indices are 1-based). -/
def MachOSymbolTable.labelsOf (t : MachOSymbolTable) (index : Nat) : List Int :=
  (t.by_label_index_.filter fun kv => kv.2 == index + 1).map Prod.fst

/-! ## A snapshot with more than 4 GiB of instructions -/

/-- The calls of a snapshot whose instructions take 4 GiB: a text portion with label 1 and
4294967296 bytes, then a constant-data portion with label 2 and 32 bytes. -/
def AddCall.sampleLargeCalls : List AddCall :=
  [.text (some "_kDartVmSnapshotInstructions") 1 (some []) 4294967296 none none,
   .rodata (some "_kDartVmSnapshotData") 2 (some []) 32 none none]

/-- The header of the stripped snapshot "app" after the large calls and `Finalize`. -/
def MachOHeader.sampleLargeFinalized : MachOHeader :=
  (((MachOWriter.create Target.example64 SnapshotType.Snapshot true (some "app") none
      none).bind fun w => w.addAll Target.example64 AddCall.sampleLargeCalls).bind fun w =>
    w.header_.Finalize Target.example64).getD MachOHeader.sample

/-- The text segment of the finalized large snapshot. -/
def MachOSegment.sampleLargeText : MachOSegment :=
  (MachOHeader.sampleLargeFinalized.text_segment_.bind
    MachOHeader.sampleLargeFinalized.segmentAt?).getD MachOSegment.sampleText

/-! ## The names of the segments -/

/-- The name of a command that is a segment. -/
def MachOCommand.segname (c : MachOCommand) : Option String :=
  c.AsMachOSegment.map fun s => s.name_

/-- The names of the segments among the commands of a header, in order (with `none` for
every other command). -/
def MachOHeader.segnames (h : MachOHeader) : List (Option String) :=
  h.commands_.map MachOCommand.segname

/-! ## The consistency check of a snapshot and its debugging information -/

namespace MachOWriter

/-- The body of the loop of `AssertConsistency` for the label `i`; `none` when an
assertion fails or `FATAL` is reached. -/
def checkLabel (snapshot_symtab debug_info_symtab : MachOSymbolTable) (i : Int) :
    Option Unit := do
  match ← snapshot_symtab.FindLabel i with
  | some snapshot_symbol => do
      let debug_info_symbol ← debug_info_symtab.FindLabel i
      match debug_info_symbol with
      | none => none
      | some debug_info_symbol =>
          if snapshot_symbol.value != debug_info_symbol.value then none else pure ()
  | none => do
      let debug_info_symbol ← debug_info_symtab.FindLabel i
      ASSERT debug_info_symbol.isNone

/-- The labels that the loop `for (i = 1; i < max_label; ++i)` visits. -/
def checkedLabels (max_label : Int) : List Int :=
  (List.range' 1 (max_label.toNat - 1)).map Int.ofNat

/-- `MachOWriter::AssertConsistency` in a debug build (in a release build the body is
compiled out); `none` when an assertion fails or `FATAL` is reached. -/
def AssertConsistency (snapshot debug_info : MachOWriter) : Option Unit := do
  let snapshot_symtab := snapshot.header_.relocation_symbol_table
  let debug_info_symtab := debug_info.header_.relocation_symbol_table
  let max_label := snapshot_symtab.max_label_
  ASSERT (max_label == debug_info_symtab.max_label_)
  (checkedLabels max_label).forM (checkLabel snapshot_symtab debug_info_symtab)

/-- The calls of a writer whose text portion carries the function "f" with the label 20
at `offset`: the text portion has the label 1 and 64 bytes, the constant-data portion the
label 2 and 32 bytes. -/
def sampleCallsWithFunction (offset : Nat) : List AddCall :=
  [.text (some "_kDartVmSnapshotInstructions") 1 (some []) 64 none
     (some [{ name := "f", type := .Function, offset := offset, size := 8, label := 20 }]),
   .rodata (some "_kDartVmSnapshotData") 2 (some []) 32 none none]

/-- The finalized snapshot writer "app" whose function "f" is at offset 8. -/
def sampleSnapshotWithFunction : Option MachOWriter :=
  ((MachOWriter.create Target.example64 SnapshotType.Snapshot true (some "app") none none).bind
    fun w => w.addAll Target.example64 (sampleCallsWithFunction 8)).bind fun w =>
      w.Finalize Target.example64

/-- The finalized debug-info writer "app" whose function "f" is at offset 16. -/
def sampleDebugInfoWithFunction : Option MachOWriter :=
  ((MachOWriter.create Target.example64 SnapshotType.DebugInfo false (some "app")
      (some "/tmp/app.o") (some ⟨10, 20, 30⟩)).bind
    fun w => w.addAll Target.example64 (sampleCallsWithFunction 16)).bind fun w =>
      w.Finalize Target.example64

end MachOWriter

/-! ## The text segment of a writer, in the words of the specification -/

/-- Whether a child of a segment is a section with the given name. -/
def MachOContents.IsSectionNamed (name : String) (c : MachOContents) : Bool :=
  match c.kind with
  | .section sec => sec.HasName name
  | _ => false

/-- The portions of a child of a segment that is a section. -/
def MachOContents.portions (c : MachOContents) : List Portion :=
  match c.kind with
  | .section sec => sec.portions_
  | _ => []

/-- The sections of a segment that have the given name, in order. -/
def MachOSegment.sectionsNamed (s : MachOSegment) (name : String) : List MachOContents :=
  s.contents_.filter (MachOContents.IsSectionNamed name)

/-- The portions of the sections of a segment that have the given name, in order. -/
def MachOSegment.portionsOf (s : MachOSegment) (name : String) : List Portion :=
  ((s.sectionsNamed name).map MachOContents.portions).flatten

/-- What a call of `AddText` or `AddROData` passes on to `AddPortion`: the name, the
label, the bytes, the size, the relocations and the symbols. -/
structure PortionArgs where
  name : Option String
  label : Int
  bytes : Option (List Nat)
  size : Nat
  relocations : Option (List Nat)
  symbols : Option (List SymbolData)
  deriving DecidableEq, Repr

/-- The arguments from which a portion was made. -/
def Portion.args (p : Portion) : PortionArgs :=
  { name := p.symbol_name, label := p.label, bytes := p.bytes, size := p.size,
    relocations := p.relocations, symbols := p.symbols }

/-- The arguments of the `AddText` calls among `calls`, in order. -/
def AddCall.textArgs : List AddCall → List PortionArgs
  | [] => []
  | .text name label bytes size relocations symbols :: rest =>
      { name := name, label := label, bytes := bytes, size := size,
        relocations := relocations, symbols := symbols } :: textArgs rest
  | .rodata _ _ _ _ _ _ :: rest => textArgs rest

/-- The arguments of the `AddROData` calls among `calls`, in order. -/
def AddCall.rodataArgs : List AddCall → List PortionArgs
  | [] => []
  | .text _ _ _ _ _ _ :: rest => rodataArgs rest
  | .rodata name label bytes size relocations symbols :: rest =>
      { name := name, label := label, bytes := bytes, size := size,
        relocations := relocations, symbols := symbols } :: rodataArgs rest

namespace Spec

/-- What the specification says of the children of the text segment after `AddText`
calls with the arguments `text` and `AddROData` calls with the arguments `rodata`: every
child is a section named `__text` or `__const`, at most one of each, and the portions of
each were made from the arguments of its calls, in order. -/
def TextSegmentHolds (contents : List MachOContents) (text rodata : List PortionArgs) : Prop :=
  (∀ c ∈ contents, c.IsSectionNamed SECT_TEXT = true ∨ c.IsSectionNamed SECT_CONST = true) ∧
  (contents.filter (MachOContents.IsSectionNamed SECT_TEXT)).length ≤ 1 ∧
  (contents.filter (MachOContents.IsSectionNamed SECT_CONST)).length ≤ 1 ∧
  (((contents.filter (MachOContents.IsSectionNamed SECT_TEXT)).map
      MachOContents.portions).flatten.map Portion.args = text) ∧
  (((contents.filter (MachOContents.IsSectionNamed SECT_CONST)).map
      MachOContents.portions).flatten.map Portion.args = rodata)

/-- What the specification says of a writer after the calls `calls`: before the first
call the header has no command; from the first call on its only command is the text
segment, whose children are as `TextSegmentHolds` says. -/
def WriterHolds (w : MachOWriter) (calls : List AddCall) : Prop :=
  (calls = [] ∧ w.header_.commands_ = [] ∧ w.header_.text_segment_ = none) ∨
  (calls ≠ [] ∧ ∃ text_segment : MachOSegment,
    w.header_.commands_ = [.segment text_segment] ∧ w.header_.text_segment_ = some 0 ∧
    text_segment.name_ = SEG_TEXT ∧
    TextSegmentHolds text_segment.contents_ (AddCall.textArgs calls)
      (AddCall.rodataArgs calls))

end Spec

/-! ## The sizes of the load commands -/

/-- The field `sizeofcmds` that `MachOHeader::WriteSelf` computes: the sum of every
`cmdsize`, accumulated in a `uint32_t`. -/
def MachOHeader.sizeofcmds (T : Target) (h : MachOHeader) : Nat :=
  h.commands_.foldl (fun sizeofcmds command => (sizeofcmds + command.cmdsize T) % 2 ^ 32) 0

/-! ## Sequences of `AddPortion` calls -/

/-- A sequence of `AddPortion` calls on the contents node of a section, in order; `none`
once a call fails an assertion. -/
def MachOContents.addPortions (c : MachOContents) (calls : List PortionArgs) :
    Option MachOContents :=
  calls.foldlM
    (fun c a => c.AddPortion a.bytes a.size a.relocations a.symbols a.name a.label) c

/-- The end of the last portion of a list, `e` for the empty list. -/
def Portion.endFrom (e : Nat) (portions : List Portion) : Nat :=
  match portions.getLast? with
  | some last => last.offset + last.size
  | none => e

/-- Whether each portion of a list starts where the one before it ends, rounded up to
`alignment`, and the first of them at `e` rounded up. -/
def Portion.chainedFrom (alignment : Nat) : Nat → List Portion → Bool
  | _, [] => true
  | e, p :: ps =>
      p.offset == RoundUp e alignment && Portion.chainedFrom alignment (p.offset + p.size) ps

/-- The contents node of the new section "__text" with alignment 16. -/
def MachOContents.sampleEmptySection : MachOContents :=
  { kind := .section { name_ := "__text", flags_ := 0, alignment_ := 16, portions_ := [] },
    file_offset_ := kLinearInitValue, memory_address_ := kLinearInitValue }

/-- The contents node of the section "__text" after the three calls of
`PortionArgs.sampleCalls`. -/
def MachOContents.sampleThreePortions : MachOContents :=
  { kind := .section { name_ := "__text", flags_ := 0, alignment_ := 16, portions_ :=
      [{ offset := 0, symbol_name := none, label := 0, bytes := some [1, 2, 3, 4, 5],
         size := 5, relocations := none, symbols := none },
       { offset := 16, symbol_name := some "a", label := 3, bytes := some [],
         size := 32, relocations := none, symbols := none },
       { offset := 48, symbol_name := none, label := 0, bytes := some [],
         size := 7, relocations := none, symbols := none }] },
    file_offset_ := kLinearInitValue, memory_address_ := kLinearInitValue }

/-- Three `AddPortion` calls of 5, 32 and 7 bytes. -/
def PortionArgs.sampleCalls : List PortionArgs :=
  [{ name := none, label := 0, bytes := some [1, 2, 3, 4, 5], size := 5,
     relocations := none, symbols := none },
   { name := some "a", label := 3, bytes := some [], size := 32,
     relocations := none, symbols := none },
   { name := none, label := 0, bytes := some [], size := 7,
     relocations := none, symbols := none }]

/-! ## Fixed-length strings, byte by byte -/

/-- The loop `for (intptr_t i = count; i > 0; --i) WriteByte(0)` of
`WriteFixedLengthCString`: the bytes it writes. -/
def MachOWriteStream.writeNulBytes : Nat → List Nat
  | 0 => []
  | i + 1 => 0 :: MachOWriteStream.writeNulBytes i

/-- `MachOWriteStream::WriteFixedLengthCString`: the bytes that it writes, for the string
whose bytes before the terminating NUL are `str`, so that `strlen(str)` is the length of
`str`. `WriteBytes(str, count)` writes the first `count` bytes of the string; a loop
counter that is not positive ends the loop at once. -/
def MachOWriteStream.WriteFixedLengthCString (str : List Nat) (n : Int) : List Nat :=
  let len : Int := str.length
  let count : Int := if n - len ≤ 0 then n else len
  str.take count.toNat ++ MachOWriteStream.writeNulBytes (n - len).toNat

/-! ## Sequences of `AddContents` calls -/

/-- A sequence of `AddContents` calls on a segment, in order, each with the child that is
added and whether `commands()[0]` of the header is this segment at that time; `none` once
a call fails an assertion. -/
def MachOSegment.addAllContents (s : MachOSegment) (calls : List (MachOContents × Bool)) :
    Option MachOSegment :=
  calls.foldlM (fun s call => s.AddContents call.1 call.2) s

/-- Whether a child is not the header and has file contents. -/
def MachOContents.IsContentChild (c : MachOContents) : Bool :=
  !c.IsMachOHeader && c.HasContents

/-- Whether a child has no file contents. -/
def MachOContents.IsZerofillChild (c : MachOContents) : Bool := !c.HasContents

/-- A section sample with the given name and file offset, allocated. -/
def MachOContents.sampleChild (name : String) (file_offset : Int) : MachOContents :=
  { kind := .section { name_ := name, flags_ := 0, alignment_ := 8, portions_ := [] },
    file_offset_ := file_offset, memory_address_ := kLinearInitValue }

/-- Four `AddContents` calls: a zero-fill section, a section with contents, the header
and a second section with contents. -/
def MachOSegment.sampleAddCalls : List (MachOContents × Bool) :=
  [(MachOContents.sampleChild "__bss" 0, true),
   (MachOContents.sampleChild "__text" kLinearInitValue, true),
   ({ kind := .header, file_offset_ := kLinearInitValue,
      memory_address_ := kLinearInitValue }, true),
   (MachOContents.sampleChild "__const" kLinearInitValue, true)]

/-- The new segment "__TEXT". -/
def MachOSegment.sampleNew : MachOSegment :=
  { name_ := "__TEXT", next_contents_index_ := 0, initial_vm_protection_ := 5,
    max_vm_protection_ := 5, contents_ := [], file_offset_ := kLinearInitValue,
    memory_address_ := kLinearInitValue, header_offset_ := kLinearInitValue }

/-- The segment "__TEXT" after the calls of `MachOSegment.sampleAddCalls`. -/
def MachOSegment.sampleAdded : MachOSegment :=
  { MachOSegment.sampleNew with
    next_contents_index_ := 3
    contents_ :=
      [{ kind := .header, file_offset_ := kLinearInitValue,
         memory_address_ := kLinearInitValue },
       MachOContents.sampleChild "__text" kLinearInitValue,
       MachOContents.sampleChild "__const" kLinearInitValue,
       MachOContents.sampleChild "__bss" 0] }

/-! ## The hashing write stream over its whole life -/

/-- The bytes an operation writes. -/
def StreamOp.bytes : StreamOp → List Nat
  | .write bytes _ => bytes
  | .realloc _ => []

/-- All bytes a sequence of operations writes, in order. -/
def StreamOp.allBytes (ops : List StreamOp) : List Nat := (ops.map StreamOp.bytes).flatten

/-- The digests of the chunks of `bytes`, in the words of the specification: one digest
per started chunk of `kChunkSize` bytes, the last chunk being shorter when the length is
not a multiple of the chunk size. -/
def Spec.chunkDigests (T : Target) (bytes : List Nat) : List (List Nat) :=
  (List.range ((bytes.length + 4095) / 4096)).map fun i =>
    T.SHA256 ((bytes.drop (i * 4096)).take 4096)

/-- One call that reaches a `HashingMachOWriteStream` at any time of its life: a write
(with the size a reallocation would ask for), a reallocation, a flush, or
`FinalizeHashedContent`. -/
inductive StreamCall
  | write (bytes : List Nat) (new_size : Nat)
  | realloc (new_size : Nat)
  | flush (chunks_only : Bool)
  | finalize
  deriving DecidableEq, Repr

/-- The bytes a call writes. -/
def StreamCall.bytes : StreamCall → List Nat
  | .write bytes _ => bytes
  | _ => []

/-- All bytes a sequence of calls writes, in order. -/
def StreamCall.allBytes (calls : List StreamCall) : List Nat :=
  (calls.map StreamCall.bytes).flatten

/-- The `WriteByte` and `WriteBytes` calls among a sequence of calls: the bytes of each. -/
def StreamCall.writes : List StreamCall → List (List Nat)
  | [] => []
  | .write bytes _ :: rest => bytes :: StreamCall.writes rest
  | _ :: rest => StreamCall.writes rest

namespace HashingMachOWriteStream

/-- The stream after one call. -/
def call (T : Target) (s : HashingMachOWriteStream) : StreamCall → HashingMachOWriteStream
  | .write bytes new_size => s.WriteBytes T bytes new_size
  | .realloc new_size => s.Realloc T new_size
  | .flush chunks_only => s.Flush T chunks_only
  | .finalize => s.FinalizeHashedContent T

/-- The stream after a sequence of calls. -/
def calls (T : Target) (s : HashingMachOWriteStream) (cs : List StreamCall) :
    HashingMachOWriteStream :=
  cs.foldl (call T) s

/-- The assertion that ends `FinalizeHashedContent`: the hash buffer holds `kHashSize`
bytes for each of the `num_hashes_` digests. -/
def hashesConsistent (s : HashingMachOWriteStream) : Bool :=
  s.num_hashes_ * kHashSize == s.hashes_.length * kHashSize

/-- The destructor of `HashingMachOWriteStream`: hashing must have been finalized, all
buffered bytes are flushed, and the buffer must then be empty; `none` when an assertion
fails. -/
def destroy (T : Target) (s : HashingMachOWriteStream) : Option HashingMachOWriteStream := do
  ASSERT (!s.hashing_)
  let s := s.Flush T false
  ASSERT (s.BasePosition == 0)
  pure s

/-- The stream has handed to the wrapped stream, after its initial bytes `wrapped`, a
prefix of the bytes `written`, and buffers the rest; `flushed_size_` counts the bytes
handed on, and the hash buffer holds `num_hashes_` digests. -/
def Delivers (wrapped written : List Nat) (s : HashingMachOWriteStream) : Prop :=
  s.wrapped_stream_ ++ s.buffer_ = wrapped ++ written ∧
    s.wrapped_stream_.length = wrapped.length + s.flushed_size_ ∧
    s.hashes_.length = s.num_hashes_

end HashingMachOWriteStream

/-- `NonHashingMachOWriteStream`: the bytes handed to the wrapped stream so far. -/
structure NonHashingMachOWriteStream where
  wrapped_stream_ : List Nat
  deriving DecidableEq, Repr

namespace NonHashingMachOWriteStream

/-- The constructor, in front of the wrapped stream. -/
def init (wrapped : List Nat) : NonHashingMachOWriteStream := { wrapped_stream_ := wrapped }

/-- Modelled from the spec: `NonHashingMachOWriteStream::WriteBytes` delegates to
`SharedObjectWriter::DelegatingWriteStream::WriteBytes` (vm/shared_object_writer.h is not
among the sources), which hands the bytes to the wrapped stream without caching. -/
def WriteBytes (s : NonHashingMachOWriteStream) (bytes : List Nat) :
    NonHashingMachOWriteStream :=
  { wrapped_stream_ := s.wrapped_stream_ ++ bytes }

/-- `NonHashingMachOWriteStream::FinalizeHashedContent` is `UNREACHABLE`. -/
def FinalizeHashedContent (_s : NonHashingMachOWriteStream) :
    Option NonHashingMachOWriteStream := none

/-- The stream after a sequence of writes. -/
def writeAll (s : NonHashingMachOWriteStream) (writes : List (List Nat)) :
    NonHashingMachOWriteStream :=
  writes.foldl WriteBytes s

end NonHashingMachOWriteStream

/-- A sequence of calls: 5000 bytes, a reallocation, `FinalizeHashedContent`, and three
more bytes. -/
def StreamCall.sample : List StreamCall :=
  [.write (List.replicate 5000 7) 8192, .realloc 16384, .finalize, .write [1, 2, 3] 16]

/-! ## The write stream, as the position it has reached -/

/-- What the write traversal observes of a `MachOWriteStream`: the position it has
reached, whether it is the hashing stream (`HasHashes`), whether the hashing stream still
hashes, and the number of digests once hashing is finalized. For the hashing stream the
number of digests left by `FinalizeHashedContent` is the number of started chunks of the
bytes written so far, as `HashingMachOWriteStream.FinalizeHashedContent` leaves it; the
wrapped stream starts at position 0. -/
structure MachOWriteStream where
  position_ : Nat
  has_hashes_ : Bool
  hashing_ : Bool
  num_hashes_ : Nat
  deriving DecidableEq, Repr

namespace MachOWriteStream

/-- The stream that `MachOWriter::Finalize` creates: the hashing stream when `has_hashes`
holds, the non-hashing stream otherwise. -/
def create (has_hashes : Bool) : MachOWriteStream :=
  { position_ := 0, has_hashes_ := has_hashes, hashing_ := has_hashes, num_hashes_ := 0 }

/-- `Position`. -/
def Position (s : MachOWriteStream) : Nat := s.position_

/-- Modelled from the spec: `WriteBytes(bytes, len)` of either stream class (vm/datastream.h
and vm/shared_object_writer.h are not among the sources) advances the position by `len`.
`WriteBytesWithRelocations(bytes, len, ...)` likewise writes `len` bytes. -/
def WriteBytes (s : MachOWriteStream) (len : Nat) : MachOWriteStream :=
  { s with position_ := s.position_ + len }

/-- `WriteByte`. -/
def WriteByte (s : MachOWriteStream) : MachOWriteStream := s.WriteBytes 1

/-- `Write16`: `sizeof(uint16_t)` bytes. -/
def Write16 (s : MachOWriteStream) : MachOWriteStream := s.WriteBytes 2

/-- `Write32`: `sizeof(uint32_t)` bytes. -/
def Write32 (s : MachOWriteStream) : MachOWriteStream := s.WriteBytes 4

/-- `Write64`: `sizeof(uint64_t)` bytes. -/
def Write64 (s : MachOWriteStream) : MachOWriteStream := s.WriteBytes 8

/-- `WriteWord`: `sizeof(compiler::target::uword)` bytes. -/
def WriteWord (T : Target) (s : MachOWriteStream) : MachOWriteStream :=
  s.WriteBytes T.kWordSize

/-- `WriteBE32`. -/
def WriteBE32 (s : MachOWriteStream) : MachOWriteStream := s.Write32

/-- `WriteBE64`. -/
def WriteBE64 (s : MachOWriteStream) : MachOWriteStream := s.Write64

/-- `WriteOffsetCount` on the stream; `none` when a value does not fit in 32 bits. -/
def WriteOffsetCountAt (s : MachOWriteStream) (offset count : Nat) :
    Option MachOWriteStream := do
  ASSERT (IsUint 32 offset)
  let s := s.Write32
  ASSERT (IsUint 32 count)
  pure s.Write32

/-- `WriteNullTerminatedCString`: `strlen(str) + 1` bytes. -/
def WriteNullTerminatedCString (s : MachOWriteStream) (str : String) : MachOWriteStream :=
  s.WriteBytes (str.length + 1)

/-- `WriteFixedLengthCString(str, n)` on the stream: the position advances by the number
of bytes that the function writes. -/
def WriteFixedLengthCStringAt (s : MachOWriteStream) (str : String) (n : Nat) :
    MachOWriteStream :=
  s.WriteBytes
    (MachOWriteStream.WriteFixedLengthCString (str.toList.map Char.toNat) (n : Int)).length

/-- `Align(alignment)`. `HashingMachOWriteStream::Align` first asserts that the alignment is
a power of two that does not exceed the page size. Modelled from the spec: the `Align` of
the base classes (vm/datastream.h and vm/shared_object_writer.h are not among the sources)
pads the stream up to the next position that is a multiple of `alignment`. -/
def Align (T : Target) (s : MachOWriteStream) (alignment : Nat) : Option MachOWriteStream := do
  if s.has_hashes_ then
    ASSERT (IsPowerOfTwo alignment)
    ASSERT (decide (alignment ≤ T.kPageSize))
  pure { s with position_ := RoundUp s.position_ alignment }

/-- `FinalizeHashedContent`: `UNREACHABLE` on the non-hashing stream. On the hashing stream
the buffered bytes are hashed and flushed, which while hashing leaves one digest per
started chunk of the bytes written so far, and hashing ends. -/
def FinalizeHashedContent (s : MachOWriteStream) : Option MachOWriteStream :=
  if !s.has_hashes_ then none
  else if s.hashing_ then
    some { s with hashing_ := false,
                  num_hashes_ := (s.position_ + kChunkSize - 1) / kChunkSize }
  else some s

/-- `num_hashes`: `UNREACHABLE` on the non-hashing stream, and only available once hashing
is finalized. -/
def num_hashes (s : MachOWriteStream) : Option Nat :=
  if !s.has_hashes_ then none
  else if s.hashing_ then none
  else some s.num_hashes_

/-- `WriteHashes`: `UNREACHABLE` on the non-hashing stream, and only available once
hashing is finalized; writes `kHashSize` bytes per digest. -/
def WriteHashes (s : MachOWriteStream) : Option MachOWriteStream :=
  if !s.has_hashes_ then none
  else if s.hashing_ then none
  else some (s.WriteBytes (s.num_hashes_ * kHashSize))

end MachOWriteStream

/-- The number of bytes that a call on the stream writes. -/
def StreamWrite.size (T : Target) : StreamWrite → Nat
  | .Write32 _ => 4
  | .WriteWord _ => T.kWordSize
  | .WriteFixedLengthCString str n =>
      (MachOWriteStream.WriteFixedLengthCString (str.toList.map Char.toNat) (n : Int)).length

/-- The stream after a sequence of calls. -/
def MachOWriteStream.writeCalls (T : Target) (s : MachOWriteStream)
    (calls : List StreamWrite) : MachOWriteStream :=
  calls.foldl (fun s call => s.WriteBytes (call.size T)) s

/-! ## Load commands on the stream -/

/-- `MachOSection::WriteHeaderInfo` on the stream, with its trailing `ASSERT_EQUAL`: the
position has advanced by `HeaderInfoSize()`, a `uint32_t`. -/
def MachOContents.WriteHeaderInfoAt (T : Target) (h : MachOHeader) (c : MachOContents)
    (segname : String) (stream : MachOWriteStream) : Option MachOWriteStream := do
  let start := stream.Position
  let calls ← c.WriteHeaderInfo T h segname
  let stream := stream.writeCalls T calls
  ASSERT (stream.Position == start + T.sizeofSectionType % 2 ^ 32)
  pure stream

/-- The loop of `MachOSegment::WriteLoadCommand` over the children, on the stream. -/
def MachOSegment.writeSectionHeadersAt (T : Target) (h : MachOHeader) (segname : String) :
    MachOWriteStream → List MachOContents → Option MachOWriteStream
  | stream, [] => some stream
  | stream, c :: cs =>
      if !c.IsMachOSection then writeSectionHeadersAt T h segname stream cs
      else do
        let stream ← c.WriteHeaderInfoAt T h segname stream
        writeSectionHeadersAt T h segname stream cs

/-- `MachOSegment::cmdsize` asserts that the size fits in 32 bits. -/
def MachOSegment.cmdsizeFits (T : Target) (s : MachOSegment) : Bool :=
  IsUint 32 (T.sizeofSegmentCommandType + s.NumSections * T.sizeofSectionType)

/-- `MachOSegment::WriteLoadCommand` on the stream; `none` when an assertion fails. -/
def MachOSegment.WriteLoadCommandAt (T : Target) (h : MachOHeader) (s : MachOSegment)
    (stream : MachOWriteStream) : Option MachOWriteStream := do
  ASSERT (s.cmdsizeFits T)
  let stream := stream.Write32.Write32
  let stream := stream.WriteFixedLengthCStringAt s.name_ kNameSize
  let _ ← linearGet s.memory_address_
  let stream := stream.WriteWord T
  let stream := stream.WriteWord T
  let _ ← linearGet s.file_offset_
  let stream := stream.WriteWord T
  let stream := stream.WriteWord T
  let stream := stream.Write32.Write32.Write32.Write32
  MachOSegment.writeSectionHeadersAt T h s.name_ stream s.contents_

/-- `sizeof(mach_o::uuid_command::uuid)`. -/
def kUuidSize : Nat := 16

/-- `WriteLoadCommand` (virtual) of a command, on the stream; `none` when an assertion
fails or `UNIMPLEMENTED` is reached, which `MachOBuildVersion::minos` does on iOS. -/
def MachOCommand.WriteLoadCommand (T : Target) (h : MachOHeader) (command : MachOCommand)
    (stream : MachOWriteStream) : Option MachOWriteStream :=
  match command with
  | .segment s => s.WriteLoadCommandAt T h stream
  | .other kind file_offset_ memory_address_ _ =>
      let base := stream.Write32.Write32
      match kind with
      | .uuid _ => some (base.WriteBytes kUuidSize)
      | .buildVersion =>
          if T.targetOsMacOSIOS then none
          else some base.Write32.Write32.Write32.Write32
      | .idDylib name _ _ =>
          (base.Write32.Write32.Write32.Write32.WriteNullTerminatedCString name).Align T
            T.kWordSize
      | .loadDylib name _ _ _ =>
          (base.Write32.Write32.Write32.Write32.WriteNullTerminatedCString name).Align T
            T.kWordSize
      | .symbolTable table => do
          let t ← h.table? table
          let file_offset ← linearGet file_offset_
          let stream ← base.WriteOffsetCountAt file_offset t.num_symbols
          stream.WriteOffsetCountAt (file_offset + t.SymbolsSize T) t.strings_.FileSize
      | .dynamicSymbolTable table => do
          let t ← h.table? table
          let fields ← MachODynamicSymbolTable.WriteLoadCommand T t
          pure (stream.WriteBytes (4 * fields.length))
      | .codeSignature identifier => do
          let file_offset ← linearGet file_offset_
          let c : MachOContents := ⟨.codeSignature identifier, file_offset_, memory_address_⟩
          if c.HasContents then ASSERT c.IsAllocated
          base.WriteOffsetCountAt file_offset (c.FileSize T h)

/-! ## `WriteSelf` on the stream -/

/-- `Portion::Write`: the bytes must be present; `size` bytes are written, with or without
relocations. -/
def Portion.Write (stream : MachOWriteStream) (portion : Portion) :
    Option MachOWriteStream := do
  ASSERT portion.bytes.isSome
  pure (stream.WriteBytes portion.size)

/-- One iteration of the loop of `MachOSection::WriteSelf`. -/
def MachOContents.writePortion (T : Target) (c : MachOContents) (stream : MachOWriteStream)
    (portion : Portion) : Option MachOWriteStream := do
  let stream ← stream.Align T (c.Alignment T)
  let file_offset ← linearGet c.file_offset_
  ASSERT (stream.Position == file_offset + portion.offset)
  let _ ← linearGet c.memory_address_
  portion.Write stream

/-- `MachOSymbolTable::Symbol::Write`. -/
def Symbol.Write (T : Target) (stream : MachOWriteStream) (_symbol : Symbol) :
    Option MachOWriteStream := do
  let start := stream.Position
  let stream := (stream.Write32.WriteByte.WriteByte.Write16).WriteWord T
  ASSERT (((stream.Position : Int) - start) == T.sizeofNlist)
  pure stream

/-- `MachOSymbolTable::WriteSelf`: every symbol, then the string table. -/
def MachOSymbolTable.WriteSelf (T : Target) (t : MachOSymbolTable)
    (stream : MachOWriteStream) : Option MachOWriteStream := do
  let stream ← t.symbols_.foldlM (Symbol.Write T) stream
  pure (stream.WriteBytes t.strings_.FileSize)

/-- `MachOHeader::text_segment`: asserts that the text segment exists. -/
def MachOHeader.text_segment (h : MachOHeader) : Option MachOSegment :=
  h.text_segment_.bind h.segmentAt?

/-- The first part of `MachOCodeSignature::WriteSelf`: hashing is finalized, then the
superblob header and the blob index of the code directory are written. -/
def MachOCodeSignature.writeSuperblob (T : Target) (c : MachOContents)
    (stream : MachOWriteStream) : Option MachOWriteStream := do
  let stream ← stream.FinalizeHashedContent
  let num_hashes ← stream.num_hashes
  let _ ← linearGet c.file_offset_
  ASSERT (num_hashes == MachOCodeSignature.ExpectedNumHashes c.file_offset_)
  let start := stream.Position
  let stream := stream.WriteBE32
  if c.HasContents then ASSERT c.IsAllocated
  let stream := stream.WriteBE32.WriteBE32.WriteBE32.WriteBE32
  let stream ← stream.Align T kHeaderAlignment
  ASSERT (((stream.Position : Int) - start) == MachOCodeSignature.DirectoryOffset T)
  pure stream

/-- The second part of `MachOCodeSignature::WriteSelf`: the header of the code directory,
which starts at `directory_start`. -/
def MachOCodeSignature.writeDirectory (T : Target) (h : MachOHeader) (c : MachOContents)
    (directory_start : Nat) (stream : MachOWriteStream) : Option MachOWriteStream := do
  let stream := stream.WriteBE32.WriteBE32.WriteBE32.WriteBE32.WriteBE32.WriteBE32.WriteBE32
  let _ ← stream.num_hashes
  let stream := stream.WriteBE32
  let _ ← linearGet c.file_offset_
  let stream := stream.WriteBE32
  let stream := stream.WriteByte.WriteByte.WriteByte.WriteByte
  let stream := stream.WriteBE32.WriteBE32.WriteBE32.WriteBE32
  let stream := stream.WriteBE64
  let text_segment ← h.text_segment
  let _ ← linearGet text_segment.file_offset_
  let stream := stream.WriteBE64.WriteBE64.WriteBE64
  let stream ← stream.Align T kHeaderAlignment
  ASSERT (((stream.Position : Int) - directory_start) == MachOCodeSignature.IdentOffset T)
  pure stream

/-- The last part of `MachOCodeSignature::WriteSelf`: the identifier and the digests. -/
def MachOCodeSignature.writeIdentifierAndHashes (T : Target) (c : MachOContents)
    (identifier : String) (directory_start : Nat) (stream : MachOWriteStream) :
    Option MachOWriteStream := do
  let stream := stream.WriteFixedLengthCStringAt identifier (identifier.length + 1)
  let stream ← stream.Align T kHashAlignment
  ASSERT (((stream.Position : Int) - directory_start) ==
    MachOCodeSignature.HashOffset T identifier)
  let stream ← stream.WriteHashes
  ASSERT (((stream.Position : Int) - directory_start) ==
    MachOCodeSignature.DirectoryLength T identifier c.file_offset_)
  pure stream

/-- `MachOCodeSignature::WriteSelf` for the signature node `c` with the identifier
`identifier`; `none` when an assertion fails. -/
def MachOCodeSignature.WriteSelf (T : Target) (h : MachOHeader) (c : MachOContents)
    (identifier : String) (stream : MachOWriteStream) : Option MachOWriteStream := do
  let stream ← MachOCodeSignature.writeSuperblob T c stream
  let directory_start := stream.Position
  let stream ← MachOCodeSignature.writeDirectory T h c directory_start stream
  MachOCodeSignature.writeIdentifierAndHashes T c identifier directory_start stream

/-- The body of the loop of `MachOHeader::WriteSelf` over the commands; `start` is the
position at which the header starts. -/
def MachOHeader.writeCommand (T : Target) (h : MachOHeader) (start : Nat)
    (stream : MachOWriteStream) (command : MachOCommand) : Option MachOWriteStream := do
  let load_start := stream.Position
  let header_offset ← command.header_offset
  ASSERT ((load_start : Int) == start + header_offset)
  let stream ← command.WriteLoadCommand T h stream
  ASSERT (((stream.Position : Int) - load_start) == command.cmdsize T)
  pure stream

/-- `MachOHeader::WriteSelf`: the header record, then the load command of every
command. -/
def MachOHeader.WriteSelf (T : Target) (h : MachOHeader) (stream : MachOWriteStream) :
    Option MachOWriteStream := do
  let start := stream.Position
  ASSERT (start == 0)
  let stream := stream.Write32.Write32.Write32.Write32.Write32.Write32.Write32
  let stream := if T.targetArchIs32Bit then stream else stream.Write32
  ASSERT (((stream.Position : Int) - start) == T.sizeofHeaderType)
  h.commands_.foldlM (h.writeCommand T start) stream

/-- `WriteSelf` (virtual) of a child of a segment. The children without an override use
`MachOContents::WriteSelf`, which asserts that `SelfFileSize()` is 0. -/
def MachOContents.WriteSelf (T : Target) (h : MachOHeader) (c : MachOContents)
    (stream : MachOWriteStream) : Option MachOWriteStream :=
  match c.kind with
  | .header => h.WriteSelf T stream
  | .section s =>
      if !c.HasContents then some stream
      else s.portions_.foldlM (c.writePortion T) stream
  | .symbolTable table => (h.table? table).bind fun t => t.WriteSelf T stream
  | .dynamicSymbolTable _ => do
      ASSERT (c.SelfFileSize T h == 0)
      pure stream
  | .codeSignature identifier => MachOCodeSignature.WriteSelf T h c identifier stream

/-! ## The write traversal (`WriteVisitor`) -/

namespace WriteVisitor

/-- `WriteVisitor::Default` on a child of a segment (`VisitChildren` of such a child
visits nothing); `none` when an assertion fails. `FileSize()` asserts that a child with
contents is allocated. -/
def Default (T : Target) (h : MachOHeader) (stream : MachOWriteStream)
    (contents : MachOContents) : Option MachOWriteStream :=
  if !contents.HasContents then some stream
  else do
    let stream ← stream.Align T (contents.Alignment T)
    let start := stream.Position
    let file_offset ← linearGet contents.file_offset_
    ASSERT (start == file_offset)
    let stream ← contents.WriteSelf T h stream
    ASSERT (((stream.Position : Int) - start) == contents.SelfFileSize T h)
    ASSERT contents.IsAllocated
    ASSERT (((stream.Position : Int) - start) == contents.FileSize T h)
    pure stream

/-- `MachOSegment::VisitChildren` with this visitor. -/
def VisitChildren (T : Target) (h : MachOHeader) (stream : MachOWriteStream)
    (contents : List MachOContents) : Option MachOWriteStream :=
  contents.foldlM (Default T h) stream

/-- `WriteVisitor::Default` on a segment, whose `WriteSelf` is that of `MachOContents`. -/
def VisitMachOSegment (T : Target) (h : MachOHeader) (stream : MachOWriteStream)
    (segment : MachOSegment) : Option MachOWriteStream :=
  if !segment.HasContents then some stream
  else do
    let stream ← stream.Align T (segment.Alignment T)
    let start := stream.Position
    let file_offset ← linearGet segment.file_offset_
    ASSERT (start == file_offset)
    ASSERT (segment.SelfFileSize == 0)
    ASSERT (((stream.Position : Int) - start) == segment.SelfFileSize)
    let stream ← VisitChildren T h stream segment.contents_
    let stream ←
      if segment.PadFileSizeToAlignment then stream.Align T (segment.Alignment T)
      else some stream
    ASSERT (((stream.Position : Int) - start) == segment.FileSize T h)
    pure stream

/-- `MachOHeader::VisitSegments` with this visitor. -/
def VisitSegments (T : Target) (h : MachOHeader) :
    MachOWriteStream → List MachOCommand → Option MachOWriteStream
  | stream, [] => some stream
  | stream, .segment s :: rest => do
      let stream ← VisitMachOSegment T h stream s
      VisitSegments T h stream rest
  | stream, .other _ _ _ _ :: rest => VisitSegments T h stream rest

end WriteVisitor

/-- The write traversal of `MachOWriter::Finalize` on the finalized header: the hashing
stream is used when the header has a code signature, and its destructor asserts that
hashing was finalized. Returns the stream at the end. -/
def MachOHeader.Write (T : Target) (h : MachOHeader) : Option MachOWriteStream := do
  let stream := MachOWriteStream.create (h.HasCommand T LC_CODE_SIGNATURE)
  let stream ← WriteVisitor.VisitSegments T h stream h.commands_
  if stream.has_hashes_ then ASSERT (!stream.hashing_)
  pure stream

/-! ## What the write traversal relies on -/

/-- Modelled from the spec: the sizes of the records of platform/mach_o.h (which is not
among the sources) as the Mach-O format defines them, in terms of the word size: the header
with or without its reserved field, the segment command with four word-sized fields, the
section header with two word-sized fields and with or without `reserved3`, the symbol
entry with one word-sized field, and the fixed-size commands and code-signing records. -/
def Target.HasMachOSizes (T : Target) : Bool :=
  T.sizeofHeaderType == (if T.targetArchIs32Bit then 28 else 32) &&
  T.sizeofSegmentCommandType == 40 + 4 * T.kWordSize &&
  T.sizeofSectionType == (if T.targetArchIs32Bit then 60 else 64) + 2 * T.kWordSize &&
  T.sizeofNlist == 8 + T.kWordSize &&
  T.sizeofSymtabCommand == 24 && T.sizeofDysymtabCommand == 80 &&
  T.sizeofUuidCommand == 24 && T.sizeofBuildVersionCommand == 24 &&
  T.sizeofDylibCommand == 24 && T.sizeofLinkeditDataCommand == 16 &&
  T.sizeofCsSuperblob == 12 && T.sizeofCsBlobIndex == 8 && T.sizeofCsCodeDirectory == 88

/-- The word size is 4 bytes on a 32-bit target and 8 bytes otherwise, and the page size
is a power of two that holds the alignment of the code signature. -/
def Target.HasPages (T : Target) : Bool :=
  T.kWordSize == (if T.targetArchIs32Bit then 4 else 8) && IsPowerOfTwo T.kPageSize &&
    decide (kHashAlignment ≤ T.kPageSize)

/-- Whether a child of a segment is as the writer builds it: allocated, which
`AddContents` asserts, with a power-of-two alignment within a page; a section has its
portions at the offsets that `AddPortion` computes and, when it has contents, the bytes of
every portion, which `AddPortion` asserts; a symbol table is an existing table. -/
def MachOContents.IsWritable (T : Target) (h : MachOHeader) (c : MachOContents) : Bool :=
  c.IsAllocated && IsPowerOfTwo (c.Alignment T) && decide (c.Alignment T ≤ T.kPageSize) &&
    match c.kind with
    | .section s =>
        Portion.chainedFrom s.alignment_ 0 s.portions_ &&
          (!c.HasContents || s.portions_.all fun p => p.bytes.isSome)
    | .symbolTable table => (h.table? table).isSome
    | _ => true

/-- Whether a child is a code signature with contents. -/
def MachOContents.IsSignature (c : MachOContents) : Bool :=
  match c.kind with
  | .codeSignature _ => c.HasContents
  | _ => false

/-- Whether a command is no segment. -/
def MachOCommand.IsNoSegment (command : MachOCommand) : Bool := command.AsMachOSegment.isNone

/-- Whether a segment without contents of its own (`next_contents_index_ == 0`) holds only
children without contents, as `AddContents` keeps it. -/
def MachOSegment.CountsContents (s : MachOSegment) : Bool :=
  s.next_contents_index_ != 0 || s.contents_.all fun c => !c.HasContents

/-- Whether a command with contents outside the header has its node among the children
of the segments. -/
def MachOCommand.HasNode (children : List MachOContents) : MachOCommand → Bool
  | .segment _ => true
  | .other kind _ _ _ =>
      match kind.asContents? with
      | some k => children.any fun c => c.kind == k
      | none => true

/-- The state in which `FinalizeCommands` leaves a header for `ComputeOffsets`, as far as
the write traversal relies on it: the first segment is the initial one, with the header as
its first child; every other child is no header and is as the writer builds it; a segment
that counts no contents has none; at most one code signature has contents, and there is
one exactly when the header has the code-signature command; the text segment is known;
and every command with contents has its node in a segment. -/
def MachOHeader.IsReadyForLayout (T : Target) (h : MachOHeader) : Bool :=
  (match h.commands_.dropWhile MachOCommand.IsNoSegment with
   | .segment s :: _ => s.IsInitial
   | _ => false) &&
  ((MachOHeader.allContents h.commands_).drop 1).all
    (fun c => c.kind != ContentsKind.header && c.IsWritable T h) &&
  h.commands_.all (fun command =>
    match command with
    | .segment s => s.CountsContents
    | .other _ _ _ _ => true) &&
  decide ((MachOHeader.allContents h.commands_).countP MachOContents.IsSignature ≤ 1) &&
  (h.HasCommand T LC_CODE_SIGNATURE ==
    (MachOHeader.allContents h.commands_).any MachOContents.IsSignature) &&
  h.text_segment.isSome &&
  h.commands_.all (MachOCommand.HasNode (MachOHeader.allContents h.commands_))

/-- Whether the values that the load command of a command writes with `WriteOffsetCount`,
and its `cmdsize`, fit in 32 bits, and the symbol counts of a dynamic symbol table are
set. -/
def MachOCommand.FitsIn32Bits (T : Target) (h : MachOHeader) : MachOCommand → Bool
  | .segment s => s.cmdsizeFits T
  | .other kind file_offset_ memory_address_ _ =>
      match kind with
      | .idDylib name _ _ =>
          IsUint 32 (RoundUp (T.sizeofDylibCommand + name.length + 1) T.kWordSize)
      | .loadDylib name _ _ _ =>
          IsUint 32 (RoundUp (T.sizeofDylibCommand + name.length + 1) T.kWordSize)
      | .symbolTable table =>
          match h.table? table with
          | some t =>
              IsUint 32 file_offset_.toNat && IsUint 32 t.num_symbols &&
                IsUint 32 (file_offset_.toNat + t.SymbolsSize T) &&
                IsUint 32 t.strings_.FileSize
          | none => false
      | .dynamicSymbolTable table =>
          match h.table? table with
          | some t =>
              match linearGet t.num_local_symbols_, linearGet t.num_external_symbols_ with
              | some num_local_symbols, some num_external_symbols =>
                  IsUint 32 num_local_symbols && IsUint 32 num_external_symbols &&
                    IsUint 32 (num_local_symbols + num_external_symbols)
              | _, _ => false
          | none => false
      | .codeSignature identifier =>
          IsUint 32 file_offset_.toNat &&
            IsUint 32 ((⟨.codeSignature identifier, file_offset_, memory_address_⟩ :
              MachOContents).FileSize T h)
      | _ => true

/-- Whether the offsets that the load command of a command reads are set: those of a
segment and of its children, and the file offset of a command with contents outside the
header, which is allocated when it has contents. -/
def MachOCommand.HasOffsets : MachOCommand → Bool
  | .segment s =>
      s.memory_address_ != kLinearInitValue && s.file_offset_ != kLinearInitValue &&
        s.contents_.all fun c =>
          c.file_offset_ != kLinearInitValue && c.memory_address_ != kLinearInitValue
  | .other kind file_offset_ memory_address_ _ =>
      !kind.asContents?.isSome ||
        (file_offset_ != kLinearInitValue && (file_offset_ == 0 || memory_address_ != 0))

/-- Whether every load command of the header fits in 32 bits. -/
def MachOHeader.FitsIn32Bits (T : Target) (h : MachOHeader) : Bool :=
  h.commands_.all (MachOCommand.FitsIn32Bits T h)

/-! ## Theorems -/

/-! ### Arithmetic of `RoundUp` -/

theorem IsPowerOfTwo_eq {x : Nat} (hx : IsPowerOfTwo x = true) : ∃ k, x = 2 ^ k := by
  simp only [IsPowerOfTwo, List.any_eq_true, beq_iff_eq] at hx
  obtain ⟨k, _, hk⟩ := hx
  exact ⟨k, hk⟩

theorem IsPowerOfTwo_pos {x : Nat} (hx : IsPowerOfTwo x = true) : 0 < x := by
  obtain ⟨k, rfl⟩ := IsPowerOfTwo_eq hx
  exact Nat.pos_pow_of_pos _ (by decide)

theorem IsPowerOfTwo_dvd {a p : Nat} (ha : IsPowerOfTwo a = true) (hp : IsPowerOfTwo p = true)
    (hle : a ≤ p) : a ∣ p := by
  obtain ⟨k, rfl⟩ := IsPowerOfTwo_eq ha
  obtain ⟨m, rfl⟩ := IsPowerOfTwo_eq hp
  exact Nat.pow_dvd_pow 2 ((Nat.pow_le_pow_iff_right (by decide)).1 hle)

theorem RoundUp_dvd (x a : Nat) : a ∣ RoundUp x a := Nat.dvd_mul_left a _

theorem le_RoundUp (x a : Nat) (ha : 0 < a) : x ≤ RoundUp x a := by
  unfold RoundUp
  have h1 := Nat.div_add_mod (x + a - 1) a
  have h2 := Nat.mod_lt (x + a - 1) ha
  have h3 : a * ((x + a - 1) / a) = (x + a - 1) / a * a := Nat.mul_comm _ _
  omega

theorem RoundUp_add_of_dvd {s a : Nat} (r : Nat) (ha : 0 < a) (hs : a ∣ s) :
    RoundUp (s + r) a = s + RoundUp r a := by
  obtain ⟨q, rfl⟩ := hs
  unfold RoundUp
  have h : a * q + r + a - 1 = (r + a - 1) + a * q := by omega
  rw [h, Nat.add_mul_div_left _ _ ha, Nat.add_mul, Nat.mul_comm q a, Nat.add_comm]

theorem RoundUp_of_dvd {s a : Nat} (ha : 0 < a) (hs : a ∣ s) : RoundUp s a = s := by
  have h := RoundUp_add_of_dvd 0 ha hs
  have h0 : RoundUp 0 a = 0 := by
    unfold RoundUp
    rw [Nat.div_eq_of_lt (by omega), Nat.zero_mul]
  rw [Nat.add_zero, h0, Nat.add_zero] at h
  exact h

/-! ### The layout traversal of one segment -/

namespace ContentOffsetsVisitor

theorem DefaultFile_kind (T : Target) (h : MachOHeader) (v : ContentOffsetsVisitor)
    (c : MachOContents) : (DefaultFile T h v c).2.kind = c.kind := by
  unfold DefaultFile
  split_ifs <;> rfl

theorem DefaultMemory_kind (T : Target) (h : MachOHeader) (v : ContentOffsetsVisitor)
    (c : MachOContents) : (DefaultMemory T h v c).2.kind = c.kind := by
  unfold DefaultMemory
  split_ifs <;> rfl

theorem DefaultMemory_file (T : Target) (h : MachOHeader) (v : ContentOffsetsVisitor)
    (c : MachOContents) :
    (DefaultMemory T h v c).1.file_offset = v.file_offset ∧
      (DefaultMemory T h v c).2.file_offset_ = c.file_offset_ := by
  unfold DefaultMemory
  split_ifs <;> exact ⟨rfl, rfl⟩

theorem Default_kind (T : Target) (h : MachOHeader) (v : ContentOffsetsVisitor)
    (c : MachOContents) : (Default T h v c).2.kind = c.kind := by
  simp [Default, DefaultMemory_kind, DefaultFile_kind]

theorem Accept_kind (T : Target) (h : MachOHeader) (v : ContentOffsetsVisitor)
    (c : MachOContents) : (Accept T h v c).2.kind = c.kind := by
  unfold Accept VisitMachOSection
  split <;> simp [Default_kind]

theorem Accept_Alignment (T : Target) (h : MachOHeader) (v : ContentOffsetsVisitor)
    (c : MachOContents) : (Accept T h v c).2.Alignment T = c.Alignment T := by
  simp [MachOContents.Alignment, Accept_kind]

/-- Whether a child has contents, and its file size, are functions of its kind and file
offset only. -/
theorem HasContents_congr {c c' : MachOContents} (hk : c'.kind = c.kind)
    (hf : c'.file_offset_ = c.file_offset_) : c'.HasContents = c.HasContents := by
  rcases c with ⟨k, f, m⟩
  rcases c' with ⟨k', f', m'⟩
  simp only at hk hf
  subst hk hf
  rfl

theorem FileSize_congr (T : Target) (h : MachOHeader) {c c' : MachOContents}
    (hk : c'.kind = c.kind) (hf : c'.file_offset_ = c.file_offset_) :
    c'.FileSize T h = c.FileSize T h := by
  rcases c with ⟨k, f, m⟩
  rcases c' with ⟨k', f', m'⟩
  simp only at hk hf
  subst hk hf
  rfl

/-- The file cursor after the first block of `Default`. -/
theorem DefaultFile_file (T : Target) (h : MachOHeader) (v : ContentOffsetsVisitor)
    (c : MachOContents) (ha : 0 < c.Alignment T) :
    (DefaultFile T h v c).1.file_offset =
      if (DefaultFile T h v c).2.HasContents then
        RoundUp v.file_offset (c.Alignment T) + (DefaultFile T h v c).2.FileSize T h
      else v.file_offset := by
  have hle := le_RoundUp v.file_offset (c.Alignment T) ha
  unfold DefaultFile
  by_cases hc : c.HasContents = true
  · rw [if_pos hc]
    simp only
    split_ifs with h1
    · simp [MachOContents.SelfFileSize, MachOContents.FileSize, MachOContents.MemorySize, h1]
    · have h0 : RoundUp v.file_offset (c.Alignment T) = 0 := by
        rcases c with ⟨kind, fo, ma⟩
        cases kind <;> simp_all [MachOContents.HasContents]
      simp only [MachOContents.SelfFileSize, h1]
      simp
      omega
  · rw [if_neg hc]
    simp only
    rw [if_neg hc]

/-- The file cursor after `Default`: a child that has contents once laid out advanced the
cursor by its aligned `FileSize`, any other child left it alone. -/
theorem Default_file (T : Target) (h : MachOHeader) (v : ContentOffsetsVisitor)
    (c : MachOContents) (ha : 0 < c.Alignment T) :
    (Default T h v c).1.file_offset =
      if (Default T h v c).2.HasContents then
        RoundUp v.file_offset (c.Alignment T) + (Default T h v c).2.FileSize T h
      else v.file_offset := by
  have h1 := DefaultFile_file T h v c ha
  have h2 := DefaultMemory_file T h (DefaultFile T h v c).1 (DefaultFile T h v c).2
  have h3 := DefaultMemory_kind T h (DefaultFile T h v c).1 (DefaultFile T h v c).2
  simp only [Default]
  rw [h2.1, HasContents_congr h3 h2.2, FileSize_congr T h h3 h2.2]
  exact h1

theorem Accept_file (T : Target) (h : MachOHeader) (v : ContentOffsetsVisitor)
    (c : MachOContents) (ha : 0 < c.Alignment T) :
    (Accept T h v c).1.file_offset =
      if (Accept T h v c).2.HasContents then
        RoundUp v.file_offset (c.Alignment T) + (Accept T h v c).2.FileSize T h
      else v.file_offset := by
  unfold Accept VisitMachOSection
  split <;> simpa using Default_file T h v c ha

/-- The file cursor after the children of a segment that starts at the page-aligned
offset `s0`: the segment-relative loop of `MachOSegment::FileSize` over the laid-out
children, shifted by `s0`. -/
theorem VisitChildren_file (T : Target) (h : MachOHeader) (s0 : Nat)
    (hs0 : T.kPageSize ∣ s0) :
    ∀ (cs : List MachOContents) (v : ContentOffsetsVisitor) (rel : Nat),
      (∀ c ∈ cs, 0 < c.Alignment T ∧ c.Alignment T ∣ T.kPageSize) →
      v.file_offset = s0 + rel →
      (VisitChildren T h v cs).1.file_offset =
        s0 + MachOSegment.FileSizeLoop T h rel (VisitChildren T h v cs).2 := by
  intro cs
  induction cs with
  | nil => intro v rel _ hv; simpa [VisitChildren, MachOSegment.FileSizeLoop] using hv
  | cons c cs ih =>
    intro v rel hal hv
    have hc := hal c (List.mem_cons_self _ _)
    have hcs : ∀ c' ∈ cs, 0 < c'.Alignment T ∧ c'.Alignment T ∣ T.kPageSize :=
      fun c' hc' => hal c' (List.mem_cons_of_mem _ hc')
    have hstep := Accept_file T h v c hc.1
    have hal' := Accept_Alignment T h v c
    simp only [VisitChildren, MachOSegment.FileSizeLoop]
    by_cases h1 : (Accept T h v c).2.HasContents = true
    · rw [if_pos h1] at hstep
      simp only [h1, Bool.not_true, Bool.false_eq_true, if_false]
      apply ih _ _ hcs
      rw [hstep, hv, hal', RoundUp_add_of_dvd rel hc.1 (Dvd.dvd.trans hc.2 hs0)]
      omega
    · rw [if_neg h1] at hstep
      simp only [Bool.not_eq_true] at h1
      simp only [h1, Bool.not_false, if_true]
      apply ih _ _ hcs
      rw [hstep, hv]

theorem DefaultFile_memory (T : Target) (h : MachOHeader) (v : ContentOffsetsVisitor)
    (c : MachOContents) :
    (DefaultFile T h v c).1.memory_address = v.memory_address ∧
      (DefaultFile T h v c).2.memory_address_ = c.memory_address_ := by
  unfold DefaultFile
  split_ifs <;> exact ⟨rfl, rfl⟩

theorem IsAllocated_congr {c c' : MachOContents} (hk : c'.kind = c.kind)
    (hm : c'.memory_address_ = c.memory_address_) : c'.IsAllocated = c.IsAllocated := by
  rcases c with ⟨k, f, m⟩
  rcases c' with ⟨k', f', m'⟩
  simp only at hk hm
  subst hk hm
  rfl

/-- The memory cursor after `Default` on an allocated child: rounded up to the child's
alignment and advanced by its `MemorySize`. -/
theorem Default_memory (T : Target) (h : MachOHeader) (v : ContentOffsetsVisitor)
    (c : MachOContents) (hc : c.IsAllocated = true) :
    (Default T h v c).1.memory_address =
      RoundUp v.memory_address (c.Alignment T) + (Default T h v c).2.MemorySize T h := by
  have h1 := DefaultFile_memory T h v c
  have h2 := DefaultFile_kind T h v c
  have h3 : (DefaultFile T h v c).2.IsAllocated = true := by
    rw [IsAllocated_congr h2 h1.2]; exact hc
  have h4 : (DefaultFile T h v c).2.Alignment T = c.Alignment T := by
    simp [MachOContents.Alignment, h2]
  simp only [Default, DefaultMemory, h3, if_true, h1.1, h4, MachOContents.MemorySize]

theorem Accept_memory (T : Target) (h : MachOHeader) (v : ContentOffsetsVisitor)
    (c : MachOContents) (hc : c.IsAllocated = true) :
    (Accept T h v c).1.memory_address =
      RoundUp v.memory_address (c.Alignment T) + (Accept T h v c).2.MemorySize T h := by
  unfold Accept VisitMachOSection
  split <;> simpa using Default_memory T h v c hc

/-- The memory cursor after the children of a segment that starts at the page-aligned
address `s0`: the segment-relative loop of `MachOSegment::UnpaddedMemorySize` over the
laid-out children, shifted by `s0`. -/
theorem VisitChildren_memory (T : Target) (h : MachOHeader) (s0 : Nat)
    (hs0 : T.kPageSize ∣ s0) :
    ∀ (cs : List MachOContents) (v : ContentOffsetsVisitor) (rel : Nat),
      (∀ c ∈ cs, 0 < c.Alignment T ∧ c.Alignment T ∣ T.kPageSize) →
      (∀ c ∈ cs, c.IsAllocated = true) →
      v.memory_address = s0 + rel →
      (VisitChildren T h v cs).1.memory_address =
        s0 + MachOSegment.UnpaddedMemorySizeLoop T h rel (VisitChildren T h v cs).2 := by
  intro cs
  induction cs with
  | nil => intro v rel _ _ hv; simpa [VisitChildren, MachOSegment.UnpaddedMemorySizeLoop] using hv
  | cons c cs ih =>
    intro v rel hal hall hv
    have hc := hal c (List.mem_cons_self _ _)
    have hstep := Accept_memory T h v c (hall c (List.mem_cons_self _ _))
    have hal' := Accept_Alignment T h v c
    simp only [VisitChildren, MachOSegment.UnpaddedMemorySizeLoop]
    apply ih _ _ (fun c' hc' => hal c' (List.mem_cons_of_mem _ hc'))
      (fun c' hc' => hall c' (List.mem_cons_of_mem _ hc'))
    rw [hstep, hv, hal', RoundUp_add_of_dvd rel hc.1 (Dvd.dvd.trans hc.2 hs0)]
    omega

end ContentOffsetsVisitor

/-! ### C1, C2: tiling of a segment -/

theorem VisitMachOSegment_name (T : Target) (h : MachOHeader) (v : ContentOffsetsVisitor)
    (segment : MachOSegment) :
    (ContentOffsetsVisitor.VisitMachOSegment T h v segment).2.name_ = segment.name_ := rfl

/-- C1: for a segment whose children all have power-of-two alignments no larger than the
page size, the file cursor that `ContentOffsetsVisitor::VisitMachOSegment` reaches after
the children and the end padding equals the segment's `file_offset` plus its
`FileSize()`: the absolute walk of the traversal agrees with the segment-relative walk of
`MachOSegment::FileSize`. -/
theorem C1_segment_file_tiling (T : Target) (h : MachOHeader) (v : ContentOffsetsVisitor)
    (segment : MachOSegment) (hpage : IsPowerOfTwo T.kPageSize = true)
    (halign : ∀ c ∈ segment.contents_,
      IsPowerOfTwo (c.Alignment T) = true ∧ c.Alignment T ≤ T.kPageSize) :
    ((ContentOffsetsVisitor.VisitMachOSegment T h v segment).1.file_offset : Int) =
      (ContentOffsetsVisitor.VisitMachOSegment T h v segment).2.file_offset_ +
        ((ContentOffsetsVisitor.VisitMachOSegment T h v segment).2.FileSize T h : Nat) := by
  have hP := IsPowerOfTwo_pos hpage
  have hal : ∀ c ∈ segment.contents_, 0 < c.Alignment T ∧ c.Alignment T ∣ T.kPageSize :=
    fun c hc => ⟨IsPowerOfTwo_pos (halign c hc).1,
      IsPowerOfTwo_dvd (halign c hc).1 hpage (halign c hc).2⟩
  have hs0 : T.kPageSize ∣ RoundUp v.file_offset T.kPageSize := RoundUp_dvd _ _
  have hself : ∀ s : MachOSegment, s.SelfFileSize = 0 := by
    intro s
    simp [MachOSegment.SelfFileSize, MachOSegment.SelfMemorySize]
  have key := ContentOffsetsVisitor.VisitChildren_file T h (RoundUp v.file_offset T.kPageSize)
    hs0 segment.contents_
    { v with file_offset := RoundUp v.file_offset T.kPageSize + 0,
             memory_address := RoundUp v.memory_address T.kPageSize + 0 } 0 hal rfl
  simp only [ContentOffsetsVisitor.VisitMachOSegment, MachOSegment.FileSize,
    MachOSegment.Alignment, MachOSegment.PadFileSizeToAlignment, MachOSegment.HasName,
    hself, MachOSegment.SelfMemorySize]
  split_ifs with hpad
  · rw [key, RoundUp_add_of_dvd _ hP hs0]
    push_cast
    rfl
  · rw [key]
    push_cast
    rfl

theorem C1_segment_file_tiling_witness :
    (IsPowerOfTwo Target.example64.kPageSize = true ∧
      ∀ c ∈ MachOSegment.sampleText.contents_,
        IsPowerOfTwo (c.Alignment Target.example64) = true ∧
          c.Alignment Target.example64 ≤ Target.example64.kPageSize) ∧
    ((ContentOffsetsVisitor.VisitMachOSegment Target.example64 MachOHeader.sample
        ContentOffsetsVisitor.init MachOSegment.sampleText).1.file_offset : Int) =
      (ContentOffsetsVisitor.VisitMachOSegment Target.example64 MachOHeader.sample
        ContentOffsetsVisitor.init MachOSegment.sampleText).2.file_offset_ +
        ((ContentOffsetsVisitor.VisitMachOSegment Target.example64 MachOHeader.sample
          ContentOffsetsVisitor.init MachOSegment.sampleText).2.FileSize
            Target.example64 MachOHeader.sample : Nat) :=
  ⟨by decide, C1_segment_file_tiling Target.example64 MachOHeader.sample
    ContentOffsetsVisitor.init MachOSegment.sampleText (by decide) (by decide)⟩

/-- C2: for a segment whose children are allocated (the invariant `AddContents` asserts)
and have power-of-two alignments no larger than the page size, the memory cursor that
`ContentOffsetsVisitor::VisitMachOSegment` reaches equals the segment's `memory_address`
plus its `MemorySize()`, where `MemorySize()` is `UnpaddedMemorySize()` rounded up to the
page size and `UnpaddedMemorySize()` walks every child, zero-fill sections included. -/
theorem C2_segment_memory_tiling (T : Target) (h : MachOHeader) (v : ContentOffsetsVisitor)
    (segment : MachOSegment) (hpage : IsPowerOfTwo T.kPageSize = true)
    (halign : ∀ c ∈ segment.contents_,
      IsPowerOfTwo (c.Alignment T) = true ∧ c.Alignment T ≤ T.kPageSize)
    (halloc : ∀ c ∈ segment.contents_, c.IsAllocated = true) :
    ((ContentOffsetsVisitor.VisitMachOSegment T h v segment).1.memory_address : Int) =
        (ContentOffsetsVisitor.VisitMachOSegment T h v segment).2.memory_address_ +
          ((ContentOffsetsVisitor.VisitMachOSegment T h v segment).2.MemorySize T h : Nat) ∧
      (ContentOffsetsVisitor.VisitMachOSegment T h v segment).2.MemorySize T h =
        RoundUp (MachOSegment.UnpaddedMemorySizeLoop T h 0
          (ContentOffsetsVisitor.VisitMachOSegment T h v segment).2.contents_) T.kPageSize := by
  have hP := IsPowerOfTwo_pos hpage
  have hal : ∀ c ∈ segment.contents_, 0 < c.Alignment T ∧ c.Alignment T ∣ T.kPageSize :=
    fun c hc => ⟨IsPowerOfTwo_pos (halign c hc).1,
      IsPowerOfTwo_dvd (halign c hc).1 hpage (halign c hc).2⟩
  have hs0 : T.kPageSize ∣ RoundUp v.memory_address T.kPageSize := RoundUp_dvd _ _
  have hself : ∀ s : MachOSegment, s.SelfFileSize = 0 := by
    intro s
    simp [MachOSegment.SelfFileSize, MachOSegment.SelfMemorySize]
  have key := ContentOffsetsVisitor.VisitChildren_memory T h
    (RoundUp v.memory_address T.kPageSize) hs0 segment.contents_
    { v with file_offset := RoundUp v.file_offset T.kPageSize + 0,
             memory_address := RoundUp v.memory_address T.kPageSize + 0 } 0 hal halloc rfl
  refine ⟨?_, rfl⟩
  simp only [ContentOffsetsVisitor.VisitMachOSegment, MachOSegment.MemorySize,
    MachOSegment.UnpaddedMemorySize, MachOSegment.Alignment, hself,
    MachOSegment.SelfMemorySize]
  rw [key, RoundUp_add_of_dvd _ hP hs0]
  push_cast
  rfl

theorem C2_segment_memory_tiling_witness :
    (IsPowerOfTwo Target.example64.kPageSize = true ∧
      (∀ c ∈ MachOSegment.sampleText.contents_,
        IsPowerOfTwo (c.Alignment Target.example64) = true ∧
          c.Alignment Target.example64 ≤ Target.example64.kPageSize) ∧
      ∀ c ∈ MachOSegment.sampleText.contents_, c.IsAllocated = true) ∧
    (((ContentOffsetsVisitor.VisitMachOSegment Target.example64 MachOHeader.sample
        ContentOffsetsVisitor.init MachOSegment.sampleText).1.memory_address : Int) =
      (ContentOffsetsVisitor.VisitMachOSegment Target.example64 MachOHeader.sample
        ContentOffsetsVisitor.init MachOSegment.sampleText).2.memory_address_ +
        ((ContentOffsetsVisitor.VisitMachOSegment Target.example64 MachOHeader.sample
          ContentOffsetsVisitor.init MachOSegment.sampleText).2.MemorySize
            Target.example64 MachOHeader.sample : Nat) ∧
      (ContentOffsetsVisitor.VisitMachOSegment Target.example64 MachOHeader.sample
          ContentOffsetsVisitor.init MachOSegment.sampleText).2.MemorySize
            Target.example64 MachOHeader.sample =
        RoundUp (MachOSegment.UnpaddedMemorySizeLoop Target.example64 MachOHeader.sample 0
          (ContentOffsetsVisitor.VisitMachOSegment Target.example64 MachOHeader.sample
            ContentOffsetsVisitor.init MachOSegment.sampleText).2.contents_)
          Target.example64.kPageSize) :=
  ⟨by decide, C2_segment_memory_tiling Target.example64 MachOHeader.sample
    ContentOffsetsVisitor.init MachOSegment.sampleText (by decide) (by decide) (by decide)⟩

/-! ### C3: the number of chunk hashes -/

namespace HashingMachOWriteStream

theorem kChunkSize_eq : kChunkSize = 4096 := by decide

/-- The hashing loop adds one digest per started chunk and touches nothing else. -/
theorem HashLoop_spec (T : Target) (count : Nat) :
    ∀ (fuel offset : Nat) (s : HashingMachOWriteStream),
      (count - offset + 4095) / 4096 ≤ fuel →
      (HashLoop T count fuel offset s).num_hashes_ =
          s.num_hashes_ + (count - offset + 4095) / 4096 ∧
        (HashLoop T count fuel offset s).buffer_ = s.buffer_ ∧
        (HashLoop T count fuel offset s).flushed_size_ = s.flushed_size_ ∧
        (HashLoop T count fuel offset s).hashing_ = s.hashing_ ∧
        (HashLoop T count fuel offset s).wrapped_stream_ = s.wrapped_stream_ ∧
        (HashLoop T count fuel offset s).capacity_ = s.capacity_ := by
  intro fuel
  induction fuel with
  | zero =>
    intro offset s hf
    refine ⟨?_, rfl, rfl, rfl, rfl, rfl⟩
    show s.num_hashes_ = _
    omega
  | succ fuel ih =>
    intro offset s hf
    simp only [HashLoop]
    split_ifs with hlt
    · have h := ih (offset + kChunkSize)
        { s with hashes_ := s.hashes_ ++
            [T.SHA256 ((s.buffer_.drop offset).take (min (count - offset) kChunkSize))],
                 num_hashes_ := s.num_hashes_ + 1 }
        (by rw [kChunkSize_eq]; omega)
      rw [kChunkSize_eq] at h ⊢
      refine ⟨?_, h.2.1, h.2.2.1, h.2.2.2.1, h.2.2.2.2.1, h.2.2.2.2.2⟩
      rw [h.1]
      simp only
      omega
    · refine ⟨?_, rfl, rfl, rfl, rfl, rfl⟩
      omega

theorem Hash_spec (T : Target) (s : HashingMachOWriteStream) (count : Nat) :
    (Hash T s count).2 = count ∧
      (Hash T s count).1.num_hashes_ = s.num_hashes_ + (count + 4095) / 4096 ∧
      (Hash T s count).1.buffer_ = s.buffer_ ∧
      (Hash T s count).1.flushed_size_ = s.flushed_size_ ∧
      (Hash T s count).1.hashing_ = s.hashing_ := by
  unfold Hash
  split_ifs with hc
  · have h := HashLoop_spec T count count 0 s (by omega)
    exact ⟨rfl, by simpa using h.1, h.2.1, h.2.2.1, h.2.2.2.1⟩
  · refine ⟨rfl, ?_, rfl, rfl, rfl⟩
    simp only
    omega

theorem FlushBytes_spec (s : HashingMachOWriteStream) (count : Nat)
    (hc : count ≤ s.buffer_.length) :
    (FlushBytes s count).flushed_size_ = s.flushed_size_ + count ∧
      (FlushBytes s count).buffer_.length = s.buffer_.length - count ∧
      (FlushBytes s count).num_hashes_ = s.num_hashes_ ∧
      (FlushBytes s count).hashing_ = s.hashing_ := by
  unfold FlushBytes
  split_ifs with h0
  · subst h0
    simp
  · simp

theorem Flush_chunks_spec (T : Target) (s : HashingMachOWriteStream) (hs : ChunkInvariant s) :
    ChunkInvariant (Flush T s true) ∧ (Flush T s true).Position = s.Position := by
  obtain ⟨hh, hn⟩ := hs
  have hH := Hash_spec T s (s.buffer_.length - s.buffer_.length % 4096)
  have hF := FlushBytes_spec
    (Hash T s (s.buffer_.length - s.buffer_.length % 4096)).1
    (Hash T s (s.buffer_.length - s.buffer_.length % 4096)).2
    (by rw [hH.1, hH.2.2.1]; omega)
  simp only [Flush, hh, if_true, BasePosition, kChunkSize_eq, ChunkInvariant, Position]
  rw [hF.1, hF.2.1, hF.2.2.1, hF.2.2.2, hH.1, hH.2.1, hH.2.2.1, hH.2.2.2.1, hH.2.2.2.2]
  refine ⟨⟨hh, ?_⟩, ?_⟩ <;> omega

theorem Realloc_spec (T : Target) (s : HashingMachOWriteStream) (new_size : Nat)
    (hs : ChunkInvariant s) :
    ChunkInvariant (Realloc T s new_size) ∧ (Realloc T s new_size).Position = s.Position := by
  have h := Flush_chunks_spec T s hs
  unfold Realloc
  simp only
  split_ifs
  · exact h
  · exact h

theorem WriteBytes_spec (T : Target) (s : HashingMachOWriteStream) (bytes : List Nat)
    (new_size : Nat) (hs : ChunkInvariant s) :
    ChunkInvariant (WriteBytes T s bytes new_size) ∧
      (WriteBytes T s bytes new_size).Position = s.Position + bytes.length := by
  have h := Realloc_spec T s new_size hs
  unfold WriteBytes
  split_ifs with h0 h1
  · exact ⟨hs, by omega⟩
  · refine ⟨hs, ?_⟩
    simp [Position, BasePosition]
    omega
  · refine ⟨h.1, ?_⟩
    have := h.2
    simp only [Position, BasePosition, List.length_append] at this ⊢
    omega

theorem run_spec (T : Target) (ops : List StreamOp) :
    ∀ s : HashingMachOWriteStream, ChunkInvariant s →
      ChunkInvariant (run T s ops) ∧ (run T s ops).Position = s.Position + StreamOp.total ops := by
  induction ops with
  | nil => intro s hs; exact ⟨hs, by simp [run, StreamOp.total]⟩
  | cons op ops ih =>
    intro s hs
    have hstep : ChunkInvariant (step T s op) ∧
        (step T s op).Position = s.Position + op.written := by
      cases op with
      | write bytes new_size => exact WriteBytes_spec T s bytes new_size hs
      | realloc new_size => exact Realloc_spec T s new_size hs
    have h := ih (step T s op) hstep.1
    simp only [run, List.foldl_cons, StreamOp.total, List.map_cons, List.sum_cons] at h ⊢
    refine ⟨h.1, ?_⟩
    rw [h.2, hstep.2]
    omega

theorem ExpectedNumHashes_natCast (n : Nat) :
    MachOCodeSignature.ExpectedNumHashes (n : Int) = (n + 4095) / 4096 := by
  have h1 : ((n : Int) + ((kChunkSize : Nat) : Int) - 1) = (((n + 4095 : Nat)) : Int) := by
    rw [kChunkSize_eq]
    push_cast
    omega
  have h2 : ((kChunkSize : Nat) : Int) = ((4096 : Nat) : Int) := by rw [kChunkSize_eq]
  unfold MachOCodeSignature.ExpectedNumHashes
  rw [h1, h2, ← Int.ofNat_tdiv]
  exact Int.toNat_ofNat _

theorem FinalizeHashedContent_spec (T : Target) (s : HashingMachOWriteStream)
    (hs : ChunkInvariant s) :
    (FinalizeHashedContent T s).num_hashes = some ((s.Position + 4095) / 4096) := by
  obtain ⟨hh, hn⟩ := hs
  have hH := Hash_spec T s s.buffer_.length
  have hF := FlushBytes_spec (Hash T s s.buffer_.length).1 (Hash T s s.buffer_.length).2
    (by rw [hH.1, hH.2.2.1])
  simp only [FinalizeHashedContent, num_hashes, Flush, hh, if_true, BasePosition, Position,
    Bool.false_eq_true, if_false]
  rw [hF.2.2.1, hH.2.1]
  congr 1
  omega

end HashingMachOWriteStream

/-- C3: after any sequence of writes and buffer reallocations totalling `N` bytes,
`FinalizeHashedContent` leaves `num_hashes() = ceil(N / 4096)`; and as the stream position
is then `N`, this is `MachOCodeSignature::ExpectedNumHashes()` of a code signature whose
file offset is the stream position. -/
theorem C3_num_hashes (T : Target) (wrapped : List Nat) (ops : List StreamOp) :
    (((HashingMachOWriteStream.init wrapped).run T ops).FinalizeHashedContent T).num_hashes =
        some ((StreamOp.total ops + 4095) / 4096) ∧
      ((HashingMachOWriteStream.init wrapped).run T ops).Position = StreamOp.total ops ∧
      (((HashingMachOWriteStream.init wrapped).run T ops).FinalizeHashedContent T).num_hashes =
        some (MachOCodeSignature.ExpectedNumHashes
          (((HashingMachOWriteStream.init wrapped).run T ops).Position : Nat)) := by
  have hinit : HashingMachOWriteStream.ChunkInvariant (HashingMachOWriteStream.init wrapped) :=
    ⟨rfl, Nat.zero_mul _⟩
  have hrun := HashingMachOWriteStream.run_spec T ops _ hinit
  have hfin := HashingMachOWriteStream.FinalizeHashedContent_spec T _ hrun.1
  have hpos : ((HashingMachOWriteStream.init wrapped).run T ops).Position =
      StreamOp.total ops := by
    rw [hrun.2]
    simp [HashingMachOWriteStream.init, HashingMachOWriteStream.Position,
      HashingMachOWriteStream.BasePosition]
  refine ⟨by rw [hfin, hpos], hpos, ?_⟩
  rw [hfin, HashingMachOWriteStream.ExpectedNumHashes_natCast]

/-! ### `Initialize` adds the symbols that the specification lists -/

namespace MachOSymbolTable

theorem addCalls_nil (T : Target) (t : MachOSymbolTable) : addCalls T t [] = some t := rfl

theorem addCalls_cons (T : Target) (t : MachOSymbolTable) (c : SymbolCall)
    (cs : List SymbolCall) :
    addCalls T t (c :: cs) = (addCall T t c).bind fun t1 => addCalls T t1 cs := by
  simp [addCalls, List.foldlM_cons]

theorem addCalls_append (T : Target) (t : MachOSymbolTable) (a b : List SymbolCall) :
    addCalls T t (a ++ b) = (addCalls T t a).bind fun t1 => addCalls T t1 b := by
  simp [addCalls, List.foldlM_append]

theorem bind_const_none {α β : Type} (x : Option α) : (x.bind fun _ => (none : Option β)) = none := by
  cases x <;> rfl

theorem foldlM_overPortions (T : Target) (f : Portion → List SymbolCall)
    (body : MachOSymbolTable → Portion → Option MachOSymbolTable)
    (hb : ∀ t p, body t p = addCalls T t (f p)) :
    ∀ (ps : List Portion) (t : MachOSymbolTable),
      ps.foldlM body t = addCalls T t (Spec.overPortions f ps) := by
  intro ps
  induction ps with
  | nil => intro t; rfl
  | cons p ps ih =>
    intro t
    rw [List.foldlM_cons, Spec.overPortions, addCalls_append, hb]
    cases addCalls T t (f p) with
    | none => rfl
    | some t1 => exact ih t1

theorem foldlM_overPortions? (T : Target) (f : Portion → Option (List SymbolCall))
    (body : MachOSymbolTable → Portion → Option MachOSymbolTable)
    (hb : ∀ t p, body t p = (f p).bind (addCalls T t)) :
    ∀ (ps : List Portion) (t : MachOSymbolTable),
      ps.foldlM body t = (Spec.overPortions? f ps).bind (addCalls T t) := by
  intro ps
  induction ps with
  | nil => intro t; rfl
  | cons p ps ih =>
    intro t
    rw [List.foldlM_cons, Spec.overPortions?, hb]
    cases hf : f p with
    | none => rfl
    | some calls =>
      cases hr : Spec.overPortions? f ps with
      | none =>
        simp only [Option.bind]
        cases hc : addCalls T t calls with
        | none => rfl
        | some t1 => simp only [bind, Option.bind]; rw [ih t1, hr]; rfl
      | some rest =>
        simp only [Option.bind]
        rw [addCalls_append]
        cases hc : addCalls T t calls with
        | none => rfl
        | some t1 => simp only [bind, Option.bind]; rw [ih t1, hr]; rfl

theorem forSections_overSections (T : Target) (f : Nat → MachOSection → List SymbolCall)
    (body : Nat → MachOSymbolTable → MachOSection → Option MachOSymbolTable)
    (hb : ∀ i t s, body i t s = addCalls T t (f i s)) :
    ∀ (ss : List MachOSection) (i : Nat) (t : MachOSymbolTable),
      forSections body i t ss = addCalls T t (Spec.overSections f i ss) := by
  intro ss
  induction ss with
  | nil => intro i t; rfl
  | cons s ss ih =>
    intro i t
    rw [forSections, Spec.overSections, addCalls_append, hb]
    cases addCalls T t (f (i + 1) s) with
    | none => rfl
    | some t1 => exact ih (i + 1) t1

theorem forSections_overSections? (T : Target)
    (f : Nat → MachOSection → Option (List SymbolCall))
    (body : Nat → MachOSymbolTable → MachOSection → Option MachOSymbolTable)
    (hb : ∀ i t s, body i t s = (f i s).bind (addCalls T t)) :
    ∀ (ss : List MachOSection) (i : Nat) (t : MachOSymbolTable),
      forSections body i t ss = (Spec.overSections? f i ss).bind (addCalls T t) := by
  intro ss
  induction ss with
  | nil => intro i t; rfl
  | cons s ss ih =>
    intro i t
    rw [forSections, Spec.overSections?, hb]
    cases hf : f (i + 1) s with
    | none => rfl
    | some calls =>
      cases hr : Spec.overSections? f (i + 1) ss with
      | none =>
        simp only [Option.bind]
        cases hc : addCalls T t calls with
        | none => rfl
        | some t1 => simp only [bind, Option.bind]; rw [ih (i + 1) t1, hr]; rfl
      | some rest =>
        simp only [Option.bind]
        rw [addCalls_append]
        cases hc : addCalls T t calls with
        | none => rfl
        | some t1 => simp only [bind, Option.bind]; rw [ih (i + 1) t1, hr]; rfl

theorem addStaticSymbols_eq (T : Target) (desc section_index : Nat) (t : MachOSymbolTable)
    (p : Portion) :
    addStaticSymbols T desc section_index t p =
      addCalls T t (Spec.staticCallsOfPortion desc section_index p) := by
  unfold addStaticSymbols Spec.staticCallsOfPortion
  cases p.symbols with
  | none => rfl
  | some symbols =>
    simp only [addCalls, List.foldlM_map]
    rfl

theorem add_symbolic_debugging_symbols_eq (T : Target) (t : MachOSymbolTable) (name : String)
    (type : SymbolDataType) (section_index offset size : Nat) (is_global : Bool) :
    add_symbolic_debugging_symbols T t name type section_index offset size is_global =
      addCalls T t (Spec.debuggingCallsOf name type section_index offset size is_global) := by
  cases type <;> cases is_global <;>
    simp [add_symbolic_debugging_symbols, Spec.debuggingCallsOf, addCalls, addCall,
      List.foldlM_cons, List.foldlM_nil]

theorem foldlM_debuggingCallsOfDescriptors (T : Target) (section_index portion_offset : Nat) :
    ∀ (symbols : List SymbolData) (t : MachOSymbolTable),
      symbols.foldlM (fun t symbol_data =>
        add_symbolic_debugging_symbols T t symbol_data.name symbol_data.type section_index
          (portion_offset + symbol_data.offset) symbol_data.size false) t =
      addCalls T t (Spec.debuggingCallsOfDescriptors section_index portion_offset symbols) := by
  intro symbols
  induction symbols with
  | nil => intro t; rfl
  | cons sd rest ih =>
    intro t
    rw [List.foldlM_cons, Spec.debuggingCallsOfDescriptors, addCalls_append,
      add_symbolic_debugging_symbols_eq]
    cases addCalls T t (Spec.debuggingCallsOf sd.name sd.type section_index
        (portion_offset + sd.offset) sd.size false) with
    | none => rfl
    | some t1 => exact ih t1

theorem namedSymbolSize_eq (is_text_section : Bool) (p : Portion) :
    namedSymbolSize is_text_section p = Spec.namedPortionSize is_text_section p := by
  unfold namedSymbolSize Spec.namedPortionSize
  cases is_text_section <;> cases p.symbols <;> rfl

theorem addDescriptorDebuggingSymbols_eq (T : Target) (section_index : Nat)
    (t : MachOSymbolTable) (p : Portion) :
    addDescriptorDebuggingSymbols T section_index t p =
      addCalls T t (match p.symbols with
        | some symbols => Spec.debuggingCallsOfDescriptors section_index p.offset symbols
        | none => []) := by
  unfold addDescriptorDebuggingSymbols
  cases p.symbols with
  | none => rfl
  | some symbols => exact foldlM_debuggingCallsOfDescriptors T section_index p.offset symbols t

theorem addDebuggingSymbols_eq (T : Target) (is_text_section : Bool) (section_index : Nat)
    (t : MachOSymbolTable) (p : Portion) :
    addDebuggingSymbols T is_text_section section_index t p =
      (Spec.debuggingCallsOfPortion is_text_section section_index p).bind (addCalls T t) := by
  unfold addDebuggingSymbols addNamedDebuggingSymbols Spec.debuggingCallsOfPortion
  simp only [addDescriptorDebuggingSymbols_eq, namedSymbolSize_eq]
  cases p.symbol_name with
  | none => simp
  | some symbol_name =>
    cases Spec.namedPortionSize is_text_section p with
    | none => simp
    | some sz => simp [add_symbolic_debugging_symbols_eq, addCalls_append]

theorem addExternalSymbol_eq (T : Target) (desc section_index : Nat) (t : MachOSymbolTable)
    (p : Portion) :
    addExternalSymbol T desc section_index t p =
      addCalls T t (Spec.externalCallsOfPortion desc section_index p) := by
  unfold addExternalSymbol Spec.externalCallsOfPortion
  cases p.symbol_name with
  | none => rfl
  | some symbol_name => simp [addCalls, addCall, List.foldlM_cons, List.foldlM_nil]

theorem pass1_eq (T : Target) (desc : Nat) (t : MachOSymbolTable)
    (sections : List MachOSection) :
    forSections (fun section_index t section_ =>
        section_.portions_.foldlM (addStaticSymbols T desc section_index) t) 0 t sections =
      addCalls T t (Spec.staticCalls desc sections) :=
  forSections_overSections T _ _
    (fun i t s => foldlM_overPortions T _ _ (fun t p => addStaticSymbols_eq T desc i t p)
      s.portions_ t) sections 0 t

theorem pass2_eq (T : Target) (t : MachOSymbolTable) (sections : List MachOSection) :
    forSections (fun section_index t section_ =>
        section_.portions_.foldlM
          (addDebuggingSymbols T (section_.name_ == SECT_TEXT) section_index) t) 0 t sections =
      (Spec.debuggingCalls sections).bind (addCalls T t) :=
  forSections_overSections? T _ _
    (fun i t s => foldlM_overPortions? T _ _
      (fun t p => addDebuggingSymbols_eq T (s.name_ == SECT_TEXT) i t p) s.portions_ t)
    sections 0 t

theorem pass3_eq (T : Target) (desc : Nat) (t : MachOSymbolTable)
    (sections : List MachOSection) :
    forSections (fun section_index t section_ =>
        section_.portions_.foldlM (addExternalSymbol T desc section_index) t) 0 t sections =
      addCalls T t (Spec.externalCalls desc sections) :=
  forSections_overSections T _ _
    (fun i t s => foldlM_overPortions T _ _ (fun t p => addExternalSymbol_eq T desc i t p)
      s.portions_ t) sections 0 t

/-- `Initialize` is the sequence of `AddSymbol` calls that the specification lists: the
local symbols, the recording of their number, the external symbols, the recording of
theirs. -/
theorem Initialize_eq (T : Target) (t : MachOSymbolTable) (path : Option String)
    (sections : List MachOSection) (is_stripped : Bool) :
    Initialize T t path sections is_stripped =
      if t.num_local_symbols_ != kLinearInitValue then none
      else (Spec.localCalls path sections is_stripped).bind fun locals =>
        (addCalls T t locals).bind fun t1 =>
        (t1.set_num_local_symbols t1.num_symbols).bind fun t2 =>
        (addCalls T t2
          (Spec.externalCalls (if is_stripped then 0 else N_ALT_ENTRY) sections)).bind fun t3 =>
        t3.set_num_external_symbols (t3.num_symbols - t3.num_local_symbols_) := by
  unfold Initialize
  simp only [pass1_eq, pass2_eq, pass3_eq]
  by_cases hfresh : (t.num_local_symbols_ != kLinearInitValue) = true
  · simp [hfresh]
  · simp only [hfresh]
    cases is_stripped with
    | true => simp [Spec.localCalls, addCalls_nil]
    | false =>
      cases hd : Spec.debuggingCalls sections with
      | none =>
        cases path <;>
          simp [Spec.localCalls, hd, bind_const_none]
      | some debugging =>
        cases path <;>
          simp [Spec.localCalls, hd, Spec.pathCalls, addCalls_append, addCalls_cons,
            addCalls_nil, addCall, Option.bind_assoc]

/-! #### What a successful `AddSymbol` does -/

theorem AddSymbol_some {T : Target} {t t1 : MachOSymbolTable} {name : String}
    {type section_index description value : Nat} {label : Int}
    (h : AddSymbol T t name type section_index description value label = some t1) :
    labelRule type label = true ∧
      t1.symbols_ = t.symbols_ ++
        [{ name_index := (t.strings_.Add name).2, type := type, section_index := section_index,
           description := description, value := value }] ∧
      t1.strings_ = (t.strings_.Add name).1 ∧
      t1.by_label_index_ = t.by_label_index_ ++
        (if label > 0 then [(label, t.symbols_.length + 1)] else []) ∧
      t1.num_local_symbols_ = t.num_local_symbols_ ∧
      t1.num_external_symbols_ = t.num_external_symbols_ ∧
      t1.file_offset_ = t.file_offset_ ∧
      section_index < 2 ^ 8 ∧ value < 2 ^ (T.kWordSize * 8) := by
  unfold AddSymbol at h
  by_cases h1 : labelRule type label = true
  swap
  · simp [h1] at h
  by_cases h2 : (t.file_offset_ != kLinearInitValue) = true
  · simp [h1, h2] at h
  by_cases h3 : (!(name == "" || (t.strings_.Add name).2 != 0)) = true
  · simp only [h1, h2, h3] at h
    simp at h
  simp only [h1, h2, h3, Bool.not_true, Bool.false_eq_true, if_false] at h
  cases hm : makeSymbol T (t.strings_.Add name).2 type section_index description value with
  | none => simp [hm] at h
  | some symbol =>
    simp only [hm] at h
    unfold makeSymbol at hm
    split_ifs at hm with h4
    simp only [Option.some.injEq] at hm
    subst hm
    simp only [Bool.and_eq_true, IsUint, decide_eq_true_eq] at h4
    by_cases h5 : label > 0
    · simp only [h5, if_true, Option.some.injEq] at h
      subst h
      have h6 := h4.1.1.2
      have h7 : 0 < label := h5
      simp [h1, num_symbols, h4.2, h7]
      omega
    · simp only [h5, if_false, Option.some.injEq] at h
      subst h
      have h6 := h4.1.1.2
      simp [h1, h4.2]
      omega

/-- What a successful sequence of `AddSymbol` calls does to a table. -/
theorem addCalls_some (T : Target) :
    ∀ (calls : List SymbolCall) (t t1 : MachOSymbolTable), addCalls T t calls = some t1 →
      t1.symbols_.map Symbol.shape = t.symbols_.map Symbol.shape ++ calls.map SymbolCall.shape ∧
      t1.by_label_index_ = t.by_label_index_ ++ Spec.labelEntries t.symbols_.length calls ∧
      t1.num_local_symbols_ = t.num_local_symbols_ ∧
      t1.num_external_symbols_ = t.num_external_symbols_ ∧
      t1.file_offset_ = t.file_offset_ ∧
      (∀ c ∈ calls, labelRule c.type c.label = true ∧ c.section_index < 2 ^ 8 ∧
        c.value < 2 ^ (T.kWordSize * 8)) := by
  intro calls
  induction calls with
  | nil =>
    intro t t1 h
    simp only [addCalls_nil, Option.some.injEq] at h
    subst h
    simp [Spec.labelEntries]
  | cons c cs ih =>
    intro t t1 h
    rw [addCalls_cons] at h
    cases hc : addCall T t c with
    | none => simp [hc] at h
    | some t2 =>
      rw [hc] at h
      have h2 := ih t2 t1 h
      have h1 := AddSymbol_some hc
      refine ⟨?_, ?_, ?_, ?_, ?_, ?_⟩
      · rw [h2.1, h1.2.1]
        simp [Symbol.shape, SymbolCall.shape]
      · rw [h2.2.1, h1.2.2.2.1, h1.2.1]
        simp [Spec.labelEntries]
      · rw [h2.2.2.1, h1.2.2.2.2.1]
      · rw [h2.2.2.2.1, h1.2.2.2.2.2.1]
      · rw [h2.2.2.2.2.1, h1.2.2.2.2.2.2.1]
      · intro c' hc'
        rcases List.mem_cons.1 hc' with rfl | hm
        · exact ⟨h1.1, h1.2.2.2.2.2.2.2⟩
        · exact h2.2.2.2.2.2 c' hm

theorem addCalls_length (T : Target) {calls : List SymbolCall} {t t1 : MachOSymbolTable}
    (h : addCalls T t calls = some t1) :
    t1.symbols_.length = t.symbols_.length + calls.length := by
  have := congrArg List.length (addCalls_some T calls t t1 h).1
  simpa using this

end MachOSymbolTable

/-! ### Membership in the lists of the specification -/

namespace Spec

theorem mem_overPortions {f : Portion → List SymbolCall} {c : SymbolCall} :
    ∀ {ps : List Portion}, c ∈ overPortions f ps ↔ ∃ p ∈ ps, c ∈ f p := by
  intro ps
  induction ps with
  | nil => simp [overPortions]
  | cons p ps ih => simp [overPortions, ih]

theorem mem_overSections {f : Nat → MachOSection → List SymbolCall} {c : SymbolCall} :
    ∀ {ss : List MachOSection} {i : Nat},
      c ∈ overSections f i ss ↔ ∃ k s, ss.get? k = some s ∧ c ∈ f (i + k + 1) s := by
  intro ss
  induction ss with
  | nil => intro i; simp [overSections]
  | cons s ss ih =>
    intro i
    simp only [overSections, List.mem_append, ih]
    constructor
    · rintro (h | ⟨k, s', hk, hc⟩)
      · exact ⟨0, s, rfl, by simpa using h⟩
      · exact ⟨k + 1, s', by simpa using hk, by
          have : i + (k + 1) + 1 = i + 1 + k + 1 := by omega
          rw [this]; exact hc⟩
    · rintro ⟨k, s', hk, hc⟩
      cases k with
      | zero =>
        simp only [List.get?_cons_zero, Option.some.injEq] at hk
        subst hk
        exact Or.inl (by simpa using hc)
      | succ k =>
        refine Or.inr ⟨k, s', by simpa using hk, ?_⟩
        have : i + (k + 1) + 1 = i + 1 + k + 1 := by omega
        rw [this] at hc; exact hc

theorem mem_overPortions? {f : Portion → Option (List SymbolCall)} {c : SymbolCall} :
    ∀ {ps : List Portion} {calls : List SymbolCall}, overPortions? f ps = some calls →
      (c ∈ calls ↔ ∃ p ∈ ps, ∃ l, f p = some l ∧ c ∈ l) := by
  intro ps
  induction ps with
  | nil =>
    intro calls h
    simp only [overPortions?, Option.some.injEq] at h
    subst h
    simp
  | cons p ps ih =>
    intro calls h
    simp only [overPortions?] at h
    cases hf : f p with
    | none => simp [hf] at h
    | some l =>
      cases hr : overPortions? f ps with
      | none => simp [hf, hr] at h
      | some rest =>
        simp only [hf, hr, Option.some.injEq] at h
        subst h
        simp [ih hr, hf]

theorem mem_overSections? {f : Nat → MachOSection → Option (List SymbolCall)}
    {c : SymbolCall} :
    ∀ {ss : List MachOSection} {i : Nat} {calls : List SymbolCall},
      overSections? f i ss = some calls →
      (c ∈ calls ↔ ∃ k s l, ss.get? k = some s ∧ f (i + k + 1) s = some l ∧ c ∈ l) := by
  intro ss
  induction ss with
  | nil =>
    intro i calls h
    simp only [overSections?, Option.some.injEq] at h
    subst h
    simp
  | cons s ss ih =>
    intro i calls h
    simp only [overSections?] at h
    cases hf : f (i + 1) s with
    | none => simp [hf] at h
    | some l =>
      cases hr : overSections? f (i + 1) ss with
      | none => simp [hf, hr] at h
      | some rest =>
        simp only [hf, hr, Option.some.injEq] at h
        subst h
        simp only [List.mem_append, ih hr]
        constructor
        · rintro (h | ⟨k, s', l', hk, hl, hc⟩)
          · exact ⟨0, s, l, rfl, by simpa using hf, h⟩
          · exact ⟨k + 1, s', l', by simpa using hk, by
              have : i + (k + 1) + 1 = i + 1 + k + 1 := by omega
              rw [this]; exact hl, hc⟩
        · rintro ⟨k, s', l', hk, hl, hc⟩
          cases k with
          | zero =>
            simp only [List.get?_cons_zero, Option.some.injEq] at hk
            subst hk
            simp only [Nat.add_zero] at hl
            rw [hf] at hl
            simp only [Option.some.injEq] at hl
            subst hl
            exact Or.inl hc
          | succ k =>
            refine Or.inr ⟨k, s', l', by simpa using hk, ?_, hc⟩
            have : i + (k + 1) + 1 = i + 1 + k + 1 := by omega
            rw [this] at hl; exact hl

/-- No symbolic-debugging entry is external. -/
theorem debuggingCallsOf_type {name : String} {type : SymbolDataType}
    {section_index offset size : Nat} {is_global : Bool} {c : SymbolCall}
    (h : c ∈ debuggingCallsOf name type section_index offset size is_global) :
    c.type &&& N_EXT = 0 ∧ c.type &&& N_STAB ≠ 0 ∧ c.label = -1 := by
  have key : ∀ (l : List SymbolCall), c ∈ l →
      (∀ c' ∈ l, c'.type &&& N_EXT = 0 ∧ c'.type &&& N_STAB ≠ 0 ∧ c'.label = -1) →
      c.type &&& N_EXT = 0 ∧ c.type &&& N_STAB ≠ 0 ∧ c.label = -1 := fun l hc hl => hl c hc
  apply key _ h
  cases type <;> cases is_global <;>
    simp only [debuggingCallsOf, List.mem_cons, List.mem_singleton, List.not_mem_nil,
      or_false, if_true, if_false, Bool.false_eq_true, forall_eq_or_imp, forall_eq] <;>
    decide

theorem debuggingCallsOfDescriptors_type {section_index portion_offset : Nat} {c : SymbolCall} :
    ∀ {symbols : List SymbolData},
      c ∈ debuggingCallsOfDescriptors section_index portion_offset symbols →
      c.type &&& N_EXT = 0 ∧ c.type &&& N_STAB ≠ 0 ∧ c.label = -1 := by
  intro symbols
  induction symbols with
  | nil => intro h; simp [debuggingCallsOfDescriptors] at h
  | cons sd rest ih =>
    intro h
    simp only [debuggingCallsOfDescriptors, List.mem_append] at h
    rcases h with h | h
    · exact debuggingCallsOf_type h
    · exact ih h

theorem debuggingCallsOfPortion_type {is_text_section : Bool} {section_index : Nat}
    {p : Portion} {l : List SymbolCall} {c : SymbolCall}
    (hl : debuggingCallsOfPortion is_text_section section_index p = some l) (h : c ∈ l) :
    c.type &&& N_EXT = 0 ∧ c.type &&& N_STAB ≠ 0 ∧ c.label = -1 := by
  unfold debuggingCallsOfPortion at hl
  simp only [Option.map_eq_some'] at hl
  obtain ⟨named, hnamed, rfl⟩ := hl
  rcases List.mem_append.1 h with h | h
  · cases hn : p.symbol_name with
    | none =>
      simp only [hn, Option.some.injEq] at hnamed
      subst hnamed
      simp at h
    | some symbol_name =>
      simp only [hn, Option.map_eq_some'] at hnamed
      obtain ⟨size, _, rfl⟩ := hnamed
      exact debuggingCallsOf_type h
  · cases hs : p.symbols with
    | none => simp [hs] at h
    | some symbols =>
      simp only [hs] at h
      exact debuggingCallsOfDescriptors_type h

theorem debuggingCalls_type {sections : List MachOSection} {l : List SymbolCall}
    {c : SymbolCall} (hl : debuggingCalls sections = some l) (h : c ∈ l) :
    c.type &&& N_EXT = 0 ∧ c.type &&& N_STAB ≠ 0 ∧ c.label = -1 := by
  obtain ⟨k, s, l1, _, hl1, hc⟩ := (mem_overSections? hl).1 h
  obtain ⟨p, _, l2, hl2, hc2⟩ := (mem_overPortions? hl1).1 hc
  exact debuggingCallsOfPortion_type hl2 hc2

theorem staticCalls_type {desc : Nat} {sections : List MachOSection} {c : SymbolCall}
    (h : c ∈ staticCalls desc sections) : c.type = N_SECT := by
  obtain ⟨k, s, _, hc⟩ := mem_overSections.1 h
  obtain ⟨p, _, hc2⟩ := mem_overPortions.1 hc
  unfold staticCallsOfPortion at hc2
  cases hs : p.symbols with
  | none => simp [hs] at hc2
  | some symbols =>
    simp only [hs, List.mem_map] at hc2
    obtain ⟨sd, _, rfl⟩ := hc2
    rfl

/-- A local symbol is never external. -/
theorem localCalls_type {path : Option String} {sections : List MachOSection}
    {is_stripped : Bool} {l : List SymbolCall} {c : SymbolCall}
    (hl : localCalls path sections is_stripped = some l) (h : c ∈ l) :
    c.type &&& N_EXT = 0 := by
  unfold localCalls at hl
  cases is_stripped with
  | true =>
    simp only [if_true, Option.some.injEq] at hl
    subst hl
    simp at h
  | false =>
    simp only [Bool.false_eq_true, if_false, Option.map_eq_some'] at hl
    obtain ⟨debugging, hd, rfl⟩ := hl
    simp only [List.mem_append] at h
    rcases h with (h | h) | h
    · rw [staticCalls_type h]; decide
    · cases path with
      | none => simp [pathCalls] at h
      | some path =>
        simp only [pathCalls, List.mem_singleton] at h
        subst h
        dsimp only
        decide
    · exact (debuggingCalls_type hd h).1

/-- The external symbols are the named portions: one call per named portion, carrying
the portion's offset and label and the 1-based position of its section. -/
theorem mem_externalCalls {desc : Nat} {sections : List MachOSection} {c : SymbolCall} :
    c ∈ externalCalls desc sections ↔
      ∃ k s p name, sections.get? k = some s ∧ p ∈ s.portions_ ∧
        p.symbol_name = some name ∧
        c = { name := name, type := N_SECT ||| N_EXT, section_index := k + 1,
              description := desc, value := p.offset, label := p.label } := by
  unfold externalCalls
  rw [mem_overSections]
  constructor
  · rintro ⟨k, s, hk, hc⟩
    obtain ⟨p, hp, hc2⟩ := mem_overPortions.1 hc
    unfold externalCallsOfPortion at hc2
    cases hn : p.symbol_name with
    | none => simp [hn] at hc2
    | some name =>
      simp only [hn, List.mem_singleton] at hc2
      exact ⟨k, s, p, name, hk, hp, hn, by simpa using hc2⟩
  · rintro ⟨k, s, p, name, hk, hp, hn, rfl⟩
    refine ⟨k, s, hk, mem_overPortions.2 ⟨p, hp, ?_⟩⟩
    simp [externalCallsOfPortion, hn]

end Spec

/-! ### C6, C8, C9, C10: the tables that `Initialize` builds -/

namespace MachOSymbolTable

theorem set_num_local_symbols_some {t t1 : MachOSymbolTable} {value : Int}
    (h : t.set_num_local_symbols value = some t1) :
    t1 = { t with num_local_symbols_ := value } ∧ t.num_local_symbols_ = kLinearInitValue := by
  unfold set_num_local_symbols at h
  split_ifs at h with hc
  simp only [Bool.and_eq_true, bne_iff_ne, ne_eq, beq_iff_eq] at hc
  simp only [Option.some.injEq] at h
  exact ⟨h.symm, hc.2⟩

theorem set_num_external_symbols_some {t t1 : MachOSymbolTable} {value : Int}
    (h : t.set_num_external_symbols value = some t1) :
    t1 = { t with num_external_symbols_ := value } ∧
      t.num_external_symbols_ = kLinearInitValue := by
  unfold set_num_external_symbols at h
  split_ifs at h with hc
  simp only [Bool.and_eq_true, bne_iff_ne, ne_eq, beq_iff_eq] at hc
  simp only [Option.some.injEq] at h
  exact ⟨h.symm, hc.2⟩

/-- The stages of a successful `Initialize`. -/
theorem Initialize_some {T : Target} {t t' : MachOSymbolTable} {path : Option String}
    {sections : List MachOSection} {is_stripped : Bool}
    (h : Initialize T t path sections is_stripped = some t') :
    ∃ locals t1 t3, Spec.localCalls path sections is_stripped = some locals ∧
      addCalls T t locals = some t1 ∧
      addCalls T { t1 with num_local_symbols_ := (t1.num_symbols : Int) }
        (Spec.externalCalls (if is_stripped then 0 else N_ALT_ENTRY) sections) = some t3 ∧
      t' = { t3 with num_external_symbols_ := (t3.num_symbols : Int) - t3.num_local_symbols_ } := by
  rw [Initialize_eq] at h
  by_cases hfresh : (t.num_local_symbols_ != kLinearInitValue) = true
  · rw [if_pos hfresh] at h
    exact absurd h (by simp)
  rw [if_neg hfresh] at h
  simp only [Option.bind_eq_some] at h
  obtain ⟨locals, hl, t1, h1, t2, h2, t3, h3, h4⟩ := h
  have e2 := (set_num_local_symbols_some h2).1
  subst e2
  exact ⟨locals, t1, t3, hl, h1, h3, (set_num_external_symbols_some h4).1⟩



theorem WriteLoadCommand_eq (T : Target) (t : MachOSymbolTable) (nl ne : Nat)
    (hl : t.num_local_symbols_ = (nl : Int)) (he : t.num_external_symbols_ = (ne : Int))
    (hb : nl + ne < 2 ^ 32) :
    MachODynamicSymbolTable.WriteLoadCommand T t =
      some ([LC_DYSYMTAB, T.sizeofDysymtabCommand % 2 ^ 32, 0, nl, nl, ne, nl + ne, 0] ++
        List.replicate 12 0) := by
  have h1 : linearGet (nl : Int) = some nl := by
    unfold linearGet kLinearInitValue
    rw [if_pos (by simp), Int.toNat_ofNat]
  have h2 : linearGet (ne : Int) = some ne := by
    unfold linearGet kLinearInitValue
    rw [if_pos (by simp), Int.toNat_ofNat]
  have h3 : ∀ a b, a < 2 ^ 32 → b < 2 ^ 32 → WriteOffsetCount a b = some [a, b] := by
    intro a b ha hb
    have ha' : a < 4294967296 := ha
    have hb' : b < 4294967296 := hb
    simp [WriteOffsetCount, IsUint, ha', hb']
  unfold MachODynamicSymbolTable.WriteLoadCommand
  rw [hl, he, h1, h2]
  simp only [Option.bind_eq_bind, Option.some_bind, Nat.zero_add]
  rw [h3 0 nl (by omega) (by omega), h3 nl ne (by omega) (by omega),
    h3 (nl + ne) 0 (by omega) (by omega)]
  simp [kUnusedOffsetCountPairs, writeUnusedOffsetCountPairs, CommandKind.cmdsize,
    List.replicate, h3 0 0 (by omega) (by omega)]

theorem labelEntries_append :
    ∀ (a b : List SymbolCall) (n : Nat),
      Spec.labelEntries n (a ++ b) = Spec.labelEntries n a ++ Spec.labelEntries (n + a.length) b := by
  intro a
  induction a with
  | nil => intro b n; simp [Spec.labelEntries]
  | cons c cs ih =>
    intro b n
    have hn : n + 1 + cs.length = n + (cs.length + 1) := by omega
    show _ ++ Spec.labelEntries (n + 1) (cs ++ b) = _
    rw [ih, hn]
    simp only [Spec.labelEntries, List.append_assoc, List.length_cons]

/-- The symbols of a table built from a fresh one: the local calls, then the external
calls. -/
theorem Initialize_init {T : Target} {t : MachOSymbolTable} {path : Option String}
    {sections : List MachOSection} {is_stripped : Bool}
    (h : Initialize T MachOSymbolTable.init path sections is_stripped = some t) :
    ∃ locals, Spec.localCalls path sections is_stripped = some locals ∧
      t.symbols_.map Symbol.shape = locals.map SymbolCall.shape ++
        (Spec.externalCalls (if is_stripped then 0 else N_ALT_ENTRY) sections).map
          SymbolCall.shape ∧
      t.by_label_index_ = Spec.labelEntries 0 (locals ++
        Spec.externalCalls (if is_stripped then 0 else N_ALT_ENTRY) sections) ∧
      t.num_local_symbols_ = (locals.length : Int) ∧
      t.num_external_symbols_ =
        ((Spec.externalCalls (if is_stripped then 0 else N_ALT_ENTRY) sections).length : Int) ∧
      (∀ c ∈ locals ++ Spec.externalCalls (if is_stripped then 0 else N_ALT_ENTRY) sections,
        labelRule c.type c.label = true ∧ c.section_index < 2 ^ 8 ∧
          c.value < 2 ^ (T.kWordSize * 8)) := by
  obtain ⟨locals, t1, t3, hl, h1, h3, rfl⟩ := Initialize_some h
  have a1 := addCalls_some T _ _ _ h1
  have a3 := addCalls_some T _ _ _ h3
  have l1 := addCalls_length T h1
  have l3 := addCalls_length T h3
  simp only [init, List.map_nil, List.nil_append, List.length_nil, Nat.zero_add] at a1 l1
  simp only at a3 l3
  refine ⟨locals, hl, ?_, ?_, ?_, ?_, ?_⟩
  · rw [a3.1, a1.1]
  · rw [a3.2.1, a1.2.1, l1]
    rw [labelEntries_append, Nat.zero_add]
  · simp only [a3.2.2.1, num_symbols, l1]
  · simp only [a3.2.2.1, num_symbols, l3, l1]
    push_cast
    omega
  · intro c hc
    rcases List.mem_append.1 hc with hc | hc
    · exact a1.2.2.2.2.2 c hc
    · exact a3.2.2.2.2.2 c hc


/-- Where a symbol of a table built from two lists of calls comes from. -/
theorem shape_split {l : List Symbol} {a b : List SymbolCall}
    (h : l.map Symbol.shape = a.map SymbolCall.shape ++ b.map SymbolCall.shape)
    {i : Nat} {s : Symbol} (hi : l.get? i = some s) :
    (i < a.length → ∃ c ∈ a, c.shape = s.shape) ∧
      (a.length ≤ i → ∃ c ∈ b, c.shape = s.shape) := by
  obtain ⟨l1, l2, rfl, h1, h2⟩ := List.map_eq_append_iff.1 h
  have hlen : l1.length = a.length := by simpa using congrArg List.length h1
  constructor
  · intro hlt
    rw [List.get?_eq_getElem?, List.getElem?_append_left (by omega)] at hi
    have hm : s.shape ∈ l1.map Symbol.shape := List.mem_map_of_mem _ (List.getElem?_mem hi)
    rw [h1] at hm
    exact List.mem_map.1 hm
  · intro hge
    rw [List.get?_eq_getElem?, List.getElem?_append_right (by omega)] at hi
    have hm : s.shape ∈ l2.map Symbol.shape := List.mem_map_of_mem _ (List.getElem?_mem hi)
    rw [h2] at hm
    exact List.mem_map.1 hm

end MachOSymbolTable

namespace StringTable

theorem Lookup_Add (s : StringTable) (name : String) :
    (s.Add name).1.Lookup name = some (s.Add name).2 := by
  unfold Add
  cases h : s.Lookup name with
  | some v => simpa using h
  | none =>
    simp only [Lookup, Option.map_eq_none'] at h
    simp [Lookup, List.find?_append, h]

theorem Lookup_Add_of_some (s : StringTable) (name : String) {n : String} {i : Nat}
    (h : s.Lookup n = some i) : (s.Add name).1.Lookup n = some i := by
  unfold Add
  cases hl : s.Lookup name with
  | some v => simpa using h
  | none =>
    simp only [Lookup, Option.map_eq_some'] at h
    obtain ⟨kv, hkv, rfl⟩ := h
    simp [Lookup, List.find?_append, hkv]

end StringTable

namespace MachOSymbolTable

/-- What a successful sequence of `AddSymbol` calls appends: the symbol of each call, its
name resolved in the resulting string table, which keeps every index it has handed out. -/
theorem addCalls_symbols (T : Target) :
    ∀ (calls : List SymbolCall) (t t1 : MachOSymbolTable), addCalls T t calls = some t1 →
      (∀ n i, t.strings_.Lookup n = some i → t1.strings_.Lookup n = some i) ∧
      t1.symbols_ = t.symbols_ ++ calls.map (SymbolCall.toSymbol t1.strings_) ∧
      (∀ c ∈ calls, (t1.strings_.Lookup c.name).isSome = true) := by
  intro calls
  induction calls with
  | nil =>
    intro t t1 h
    simp only [addCalls_nil, Option.some.injEq] at h
    subst h
    simp
  | cons c cs ih =>
    intro t t1 h
    rw [addCalls_cons] at h
    cases hc : addCall T t c with
    | none => simp [hc] at h
    | some t2 =>
      rw [hc] at h
      obtain ⟨hext, hsym, hnames⟩ := ih t2 t1 h
      have h1 := AddSymbol_some hc
      have hname : t1.strings_.Lookup c.name = some (t.strings_.Add c.name).2 := by
        apply hext
        rw [h1.2.2.1]
        exact StringTable.Lookup_Add _ _
      refine ⟨?_, ?_, ?_⟩
      · intro n i hn
        apply hext
        rw [h1.2.2.1]
        exact StringTable.Lookup_Add_of_some _ _ hn
      · rw [hsym, h1.2.1]
        simp [SymbolCall.toSymbol, hname]
      · intro c' hc'
        rcases List.mem_cons.1 hc' with rfl | hm
        · simp [hname]
        · exact hnames c' hm

/-- The symbols of a table built from a fresh one, with their names. -/
theorem Initialize_init_symbols {T : Target} {t : MachOSymbolTable} {path : Option String}
    {sections : List MachOSection} {is_stripped : Bool}
    (h : Initialize T MachOSymbolTable.init path sections is_stripped = some t) :
    ∃ locals, Spec.localCalls path sections is_stripped = some locals ∧
      t.symbols_ = (locals ++
        Spec.externalCalls (if is_stripped then 0 else N_ALT_ENTRY) sections).map
          (SymbolCall.toSymbol t.strings_) ∧
      (∀ c ∈ locals ++ Spec.externalCalls (if is_stripped then 0 else N_ALT_ENTRY) sections,
        (t.strings_.Lookup c.name).isSome = true) := by
  obtain ⟨locals, t1, t3, hl, h1, h3, rfl⟩ := Initialize_some h
  have a1 := addCalls_symbols T _ _ _ h1
  have a3 := addCalls_symbols T _ _ _ h3
  simp only [init, List.nil_append] at a1
  simp only at a3
  refine ⟨locals, hl, ?_, ?_⟩
  · simp only
    rw [a3.2.1, a1.2.1, List.map_append]
    congr 1
    apply List.map_congr_left
    intro c hc
    have hsome := a1.2.2 c hc
    obtain ⟨i, hi⟩ := Option.isSome_iff_exists.1 hsome
    simp [SymbolCall.toSymbol, hi, a3.1 _ _ hi]
  · intro c hc
    rcases List.mem_append.1 hc with hc | hc
    · obtain ⟨i, hi⟩ := Option.isSome_iff_exists.1 (a1.2.2 c hc)
      simp [a3.1 _ _ hi]
    · exact a3.2.2 c hc

end MachOSymbolTable

namespace MachOSymbolTable

theorem mem_labelEntries {l : Int} {idx : Nat} :
    ∀ {calls : List SymbolCall} {n : Nat},
      (l, idx) ∈ Spec.labelEntries n calls ↔
        ∃ i c, calls.get? i = some c ∧ 0 < c.label ∧ l = c.label ∧ idx = n + i + 1 := by
  intro calls
  induction calls with
  | nil => intro n; simp [Spec.labelEntries]
  | cons c cs ih =>
    intro n
    simp only [Spec.labelEntries, List.mem_append, ih]
    constructor
    · rintro (h | ⟨i, c', hi, hpos, hl, hidx⟩)
      · by_cases hc : c.label > 0
        · simp only [hc, if_true, List.mem_singleton, Prod.mk.injEq] at h
          exact ⟨0, c, rfl, hc, h.1, by omega⟩
        · simp [hc] at h
      · exact ⟨i + 1, c', by simpa using hi, hpos, hl, by omega⟩
    · rintro ⟨i, c', hi, hpos, hl, hidx⟩
      cases i with
      | zero =>
        simp only [List.get?_cons_zero, Option.some.injEq] at hi
        subst hi
        left
        have hpos' : c.label > 0 := hpos
        simp [hpos', hl, hidx]
      | succ i =>
        right
        exact ⟨i, c', by simpa using hi, hpos, hl, by omega⟩

/-- With only positive labels, the label map lists every call with its 1-based index. -/
theorem labelEntries_of_pos :
    ∀ (calls : List SymbolCall) (n : Nat), (∀ c ∈ calls, 0 < c.label) →
      Spec.labelEntries n calls =
        (calls.enumFrom n).map fun ic => (ic.2.label, ic.1 + 1) := by
  intro calls
  induction calls with
  | nil => intro n _; rfl
  | cons c cs ih =>
    intro n h
    have hc : c.label > 0 := h c (List.mem_cons_self _ _)
    simp only [Spec.labelEntries, hc, if_true, List.enumFrom_cons, List.map_cons,
      List.singleton_append, ih (n + 1) (fun c' hc' => h c' (List.mem_cons_of_mem _ hc'))]

theorem labelRule_external {label : Int} (h : labelRule (N_SECT ||| N_EXT) label = true) :
    0 < label := by
  have h1 : ((N_SECT ||| N_EXT) &&& N_STAB != 0) = false := by decide
  have h2 : ((N_SECT ||| N_EXT) &&& N_TYPE == N_SECT) = true := by decide
  simp only [labelRule, h1, h2, Bool.false_eq_true, if_false, beq_iff_eq] at h
  have := h.symm
  simpa using this

/-- `FindLabel` on a label map whose entries all point at symbols: the label resolves to
a symbol as soon as the map has an entry for it, and to the symbol of its only entry. -/
theorem FindLabel_of_mem {t : MachOSymbolTable} {label : Int} {idx : Nat}
    (hpos : 0 < label)
    (hvalid : ∀ kv ∈ t.by_label_index_, 1 ≤ kv.2 ∧ kv.2 ≤ t.symbols_.length)
    (hmem : (label, idx) ∈ t.by_label_index_) :
    (∃ sym, t.FindLabel label = some (some sym)) ∧
      ((t.by_label_index_.filter fun kv => kv.1 == label).length = 1 →
        t.FindLabel label = some (t.symbols_.get? (idx - 1))) := by
  have hfind : ∃ kv, t.by_label_index_.find? (fun kv => kv.1 == label) = some kv := by
    cases hf : t.by_label_index_.find? (fun kv => kv.1 == label) with
    | some kv => exact ⟨kv, rfl⟩
    | none =>
      rw [List.find?_eq_none] at hf
      exact absurd (by simp) (hf _ hmem)
  obtain ⟨kv, hkv⟩ := hfind
  have hkvmem : kv ∈ t.by_label_index_ := List.mem_of_find?_eq_some hkv
  have hkvp : (kv.1 == label) = true :=
    @List.find?_some _ (fun kv : Int × Nat => kv.1 == label) kv t.by_label_index_ hkv
  have hv := hvalid kv hkvmem
  have hlook : t.LookupLabel label = kv.2 := by simp [LookupLabel, hkv]
  have hget : t.FindLabel label = some (t.symbols_.get? (kv.2 - 1)) := by
    have hpos' : label > 0 := hpos
    have h1 : ¬ ((kv.2 : Int) - 1 < 0) := by omega
    have h2 : ((kv.2 : Int) - 1).toNat = kv.2 - 1 := by omega
    simp only [FindLabel, hpos', if_true, hlook, h1, if_false, h2]
  constructor
  · have hlt : kv.2 - 1 < t.symbols_.length := by omega
    refine ⟨t.symbols_.get ⟨kv.2 - 1, hlt⟩, ?_⟩
    rw [hget, List.get?_eq_get hlt]
  · intro huniq
    obtain ⟨x, hx⟩ := List.length_eq_one.1 huniq
    have m1 : kv ∈ t.by_label_index_.filter fun kv => kv.1 == label :=
      List.mem_filter.2 ⟨hkvmem, hkvp⟩
    have m2 : (label, idx) ∈ t.by_label_index_.filter fun kv => kv.1 == label :=
      List.mem_filter.2 ⟨hmem, by simp⟩
    rw [hx, List.mem_singleton] at m1 m2
    have : kv.2 = idx := by rw [m1, ← m2]
    rw [hget, this]

end MachOSymbolTable

namespace MachOSymbolTable

theorem Initialize_init_strings {T : Target} {t : MachOSymbolTable} {path : Option String}
    {sections : List MachOSection} {is_stripped : Bool}
    (h : Initialize T MachOSymbolTable.init path sections is_stripped = some t) :
    t.strings_.Lookup "" = some 1 ∧ t.strings_.Lookup " " = some 0 := by
  obtain ⟨locals, t1, t3, hl, h1, h3, rfl⟩ := Initialize_some h
  have a1 := (addCalls_symbols T _ _ _ h1).1
  have a3 := (addCalls_symbols T _ _ _ h3).1
  exact ⟨a3 _ _ (a1 _ _ (by decide)), a3 _ _ (a1 _ _ (by decide))⟩

end MachOSymbolTable

section SymbolTableClaims

open MachOSymbolTable

/-- C6: in every table that `Initialize` builds from a fresh table, the local and the
external count add up to the number of symbols, every symbol before the split lacks the
`N_EXT` bit and every symbol from the split on has it; and the load command of the dynamic
symbol table records the locals as the range from 0, the externals as the range that
follows, and no undefined symbols. -/
theorem C6_local_external_split (T : Target) (path : Option String)
    (sections : List MachOSection) (is_stripped : Bool) (t : MachOSymbolTable)
    (h : Initialize T MachOSymbolTable.init path sections is_stripped = some t) :
    t.num_local_symbols_ + t.num_external_symbols_ = (t.num_symbols : Int) ∧
      0 ≤ t.num_local_symbols_ ∧ 0 ≤ t.num_external_symbols_ ∧
      (∀ i s, t.symbols_.get? i = some s →
        ((i : Int) < t.num_local_symbols_ → s.type &&& N_EXT = 0) ∧
        (t.num_local_symbols_ ≤ (i : Int) → s.type &&& N_EXT = N_EXT)) ∧
      (t.num_symbols < 2 ^ 32 →
        MachODynamicSymbolTable.WriteLoadCommand T t =
          some ([LC_DYSYMTAB, T.sizeofDysymtabCommand % 2 ^ 32,
              0, t.num_local_symbols_.toNat,
              t.num_local_symbols_.toNat, t.num_external_symbols_.toNat,
              t.num_local_symbols_.toNat + t.num_external_symbols_.toNat, 0] ++
            List.replicate 12 0)) := by
  obtain ⟨locals, hl, hs, _, hnl, hne, _⟩ := Initialize_init h
  have hlen : t.symbols_.length = locals.length +
      (Spec.externalCalls (if is_stripped then 0 else N_ALT_ENTRY) sections).length := by
    have := congrArg List.length hs
    simpa using this
  refine ⟨?_, ?_, ?_, ?_, ?_⟩
  · rw [hnl, hne, num_symbols, hlen]
    push_cast
    rfl
  · rw [hnl]; exact Int.ofNat_nonneg _
  · rw [hne]; exact Int.ofNat_nonneg _
  · intro i s hi
    have hsplit := shape_split hs hi
    rw [hnl]
    constructor
    · intro hlt
      obtain ⟨c, hmem, hc⟩ := hsplit.1 (by exact_mod_cast hlt)
      have ht : c.type = s.type := congrArg Prod.fst hc
      rw [← ht]
      exact Spec.localCalls_type hl hmem
    · intro hge
      obtain ⟨c, hmem, hc⟩ := hsplit.2 (by exact_mod_cast hge)
      have ht : c.type = s.type := congrArg Prod.fst hc
      obtain ⟨_, _, _, _, _, _, _, rfl⟩ := Spec.mem_externalCalls.1 hmem
      rw [← ht]
      dsimp only
      decide
  · intro hb
    apply WriteLoadCommand_eq T t _ _ (by rw [hnl]; simp) (by rw [hne]; simp)
    rw [hnl, hne]
    simp only [Int.toNat_ofNat]
    rw [num_symbols, hlen] at hb
    exact hb

theorem C6_local_external_split_witness :
    Initialize Target.example64 MachOSymbolTable.init (some "/tmp/app.o")
        MachOSection.sampleSections false = some MachOSymbolTable.sampleUnstripped ∧
      MachOSymbolTable.sampleUnstripped.num_local_symbols_ +
          MachOSymbolTable.sampleUnstripped.num_external_symbols_ =
        (MachOSymbolTable.sampleUnstripped.num_symbols : Int) ∧
      MachOSymbolTable.sampleUnstripped.num_local_symbols_ = 13 ∧
      MachOSymbolTable.sampleUnstripped.num_external_symbols_ = 2 :=
  ⟨by decide,
    (C6_local_external_split Target.example64 (some "/tmp/app.o") MachOSection.sampleSections
      false MachOSymbolTable.sampleUnstripped (by decide)).1, by decide, by decide⟩

/-- C8: a stripped table built by `Initialize` has no local symbols; its symbols are, in
section order then portion order, one external section symbol per named portion (type
`N_SECT | N_EXT`, description 0, value the portion's section-relative offset, section
index the 1-based position of the section) and the label map gives each of them the
portion's label; there is no source-file, static or symbolic-debugging symbol. -/
theorem C8_stripped_table (T : Target) (path : Option String) (sections : List MachOSection)
    (t : MachOSymbolTable)
    (h : Initialize T MachOSymbolTable.init path sections true = some t) :
    t.num_local_symbols_ = 0 ∧
      t.symbols_ = (Spec.externalCalls 0 sections).map (SymbolCall.toSymbol t.strings_) ∧
      t.by_label_index_ =
        ((Spec.externalCalls 0 sections).enumFrom 0).map (fun ic => (ic.2.label, ic.1 + 1)) ∧
      (∀ c ∈ Spec.externalCalls 0 sections,
        0 < c.label ∧ (t.strings_.Lookup c.name).isSome = true) ∧
      (∀ c, c ∈ Spec.externalCalls 0 sections ↔
        ∃ k s p name, sections.get? k = some s ∧ p ∈ s.portions_ ∧
          p.symbol_name = some name ∧
          c = { name := name, type := N_SECT ||| N_EXT, section_index := k + 1,
                description := 0, value := p.offset, label := p.label }) := by
  obtain ⟨locals, hl, _, hlab, hnl, _, hrule⟩ := Initialize_init h
  obtain ⟨locals', hl', hsym, hnames⟩ := Initialize_init_symbols h
  have e : locals = [] := by simpa [Spec.localCalls] using hl.symm
  have e' : locals' = [] := by simpa [Spec.localCalls] using hl'.symm
  subst e e'
  simp only [if_true, List.nil_append, List.length_nil] at hlab hnl hrule hsym hnames
  have hpos : ∀ c ∈ Spec.externalCalls 0 sections, 0 < c.label := by
    intro c hc
    have hr := (hrule c hc).1
    obtain ⟨_, _, _, _, _, _, _, rfl⟩ := Spec.mem_externalCalls.1 hc
    exact labelRule_external hr
  refine ⟨by simpa using hnl, hsym, ?_, fun c hc => ⟨hpos c hc, hnames c hc⟩,
    fun c => Spec.mem_externalCalls⟩
  rw [hlab, labelEntries_of_pos _ _ hpos]

theorem C8_stripped_table_witness :
    Initialize Target.example64 MachOSymbolTable.init (some "/tmp/app.o")
        MachOSection.sampleSections true = some MachOSymbolTable.sampleStripped ∧
      MachOSymbolTable.sampleStripped.num_local_symbols_ = 0 ∧
      MachOSymbolTable.sampleStripped.symbols_ =
        [{ name_index := 2, type := 15, section_index := 1, description := 0, value := 0 },
         { name_index := 31, type := 15, section_index := 2, description := 0, value := 0 }] ∧
      MachOSymbolTable.sampleStripped.by_label_index_ = [(1, 1), (2, 2)] :=
  ⟨by decide,
    (C8_stripped_table Target.example64 (some "/tmp/app.o") MachOSection.sampleSections
      MachOSymbolTable.sampleStripped (by decide)).1, by decide, by decide⟩

/-- C9 fails for a labelled portion without a symbol name: the last portion of the sample
constant-data section has the positive label 3 and no name, and neither the stripped nor
the unstripped table of the sample sections resolves label 3. -/
theorem C9_labelled_portion_without_symbol :
    (MachOSection.sampleConstSection ∈ MachOSection.sampleSections ∧
      Portion.sampleUnnamed ∈ MachOSection.sampleConstSection.portions_ ∧
      Portion.sampleUnnamed.label = 3 ∧ Portion.sampleUnnamed.symbol_name = none) ∧
    (Initialize Target.example64 MachOSymbolTable.init (some "/tmp/app.o")
      MachOSection.sampleSections true).map (fun t => t.FindLabel 3) = some (some none) ∧
    (Initialize Target.example64 MachOSymbolTable.init (some "/tmp/app.o")
      MachOSection.sampleSections false).map (fun t => t.FindLabel 3) = some (some none) := by
  decide

/-- C9, amended: for every portion that has a symbol name, the table that `Initialize`
builds (stripped or not) holds an external section symbol whose pre-finalization value is
the portion's section-relative offset and whose section index is the 1-based position of
the section; the portion's label is positive and mapped to that symbol, so `FindLabel`
of the label is non-null, and it is that symbol when the label map has no other entry
for the label. -/
theorem C9_named_portion_symbol (T : Target) (path : Option String)
    (sections : List MachOSection) (is_stripped : Bool) (t : MachOSymbolTable) (k : Nat)
    (s : MachOSection) (p : Portion) (name : String)
    (h : Initialize T MachOSymbolTable.init path sections is_stripped = some t)
    (hk : sections.get? k = some s) (hp : p ∈ s.portions_)
    (hn : p.symbol_name = some name) :
    0 < p.label ∧
      (∃ i sym, t.symbols_.get? i = some sym ∧ (p.label, i + 1) ∈ t.by_label_index_ ∧
        sym.type = N_SECT ||| N_EXT ∧ sym.section_index = k + 1 ∧ sym.value = p.offset ∧
        t.strings_.Lookup name = some sym.name_index) ∧
      (∃ sym, t.FindLabel p.label = some (some sym)) ∧
      ((t.by_label_index_.filter fun kv => kv.1 == p.label).length = 1 →
        ∃ sym, t.FindLabel p.label = some (some sym) ∧ sym.type = N_SECT ||| N_EXT ∧
          sym.section_index = k + 1 ∧ sym.value = p.offset) := by
  obtain ⟨locals, hl, _, hlab, _, _, hrule⟩ := Initialize_init h
  obtain ⟨locals', hl', hsym, hnames⟩ := Initialize_init_symbols h
  have e : locals' = locals := by rw [hl] at hl'; exact (Option.some.inj hl').symm
  subst e
  generalize hdesc : (if is_stripped then 0 else N_ALT_ENTRY) = desc at *
  have hc : (⟨name, N_SECT ||| N_EXT, k + 1, desc, p.offset, p.label⟩ : SymbolCall) ∈
      Spec.externalCalls desc sections :=
    Spec.mem_externalCalls.2 ⟨k, s, p, name, hk, hp, hn, rfl⟩
  obtain ⟨j, hj⟩ := List.mem_iff_get?.1 hc
  have hlen : t.symbols_.length = (locals' ++ Spec.externalCalls desc sections).length := by
    rw [hsym, List.length_map]
  have hall : (locals' ++ Spec.externalCalls desc sections).get? (locals'.length + j) =
      some ⟨name, N_SECT ||| N_EXT, k + 1, desc, p.offset, p.label⟩ := by
    rw [List.get?_eq_getElem?, List.getElem?_append_right (by omega)]
    rw [List.get?_eq_getElem?] at hj
    simpa using hj
  have hpos : 0 < p.label :=
    labelRule_external (hrule _ (List.mem_append_right _ hc)).1
  have hentry : (p.label, locals'.length + j + 1) ∈ t.by_label_index_ := by
    rw [hlab]
    exact mem_labelEntries.2 ⟨locals'.length + j, _, hall, hpos, rfl, by omega⟩
  have hvalid : ∀ kv ∈ t.by_label_index_, 1 ≤ kv.2 ∧ kv.2 ≤ t.symbols_.length := by
    intro kv hkv
    rw [hlab] at hkv
    obtain ⟨i, c, hi, _, _, hidx⟩ := mem_labelEntries.1 (show (kv.1, kv.2) ∈ _ from hkv)
    have hlt : i < (locals' ++ Spec.externalCalls desc sections).length := by
      rw [List.get?_eq_getElem?] at hi
      exact (List.getElem?_eq_some_iff.1 hi).1
    omega
  have hget : t.symbols_.get? (locals'.length + j) =
      some (SymbolCall.toSymbol t.strings_
        ⟨name, N_SECT ||| N_EXT, k + 1, desc, p.offset, p.label⟩) := by
    rw [hsym, List.get?_eq_getElem?, List.getElem?_map]
    rw [List.get?_eq_getElem?] at hall
    rw [hall]
    rfl
  have hname := hnames _ (List.mem_append_right _ hc)
  obtain ⟨ni, hni⟩ := Option.isSome_iff_exists.1 hname
  have hfind := FindLabel_of_mem hpos hvalid hentry
  refine ⟨hpos, ⟨locals'.length + j, _, hget, hentry, rfl, rfl, rfl, ?_⟩, hfind.1, ?_⟩
  · simp only at hni
    simp [SymbolCall.toSymbol, hni]
  · intro huniq
    refine ⟨SymbolCall.toSymbol t.strings_
      ⟨name, N_SECT ||| N_EXT, k + 1, desc, p.offset, p.label⟩, ?_, rfl, rfl, rfl⟩
    rw [hfind.2 huniq]
    simp only [Nat.add_sub_cancel]
    rw [hget]

theorem C9_named_portion_symbol_witness :
    (Initialize Target.example64 MachOSymbolTable.init (some "/tmp/app.o")
        MachOSection.sampleSections false = some MachOSymbolTable.sampleUnstripped ∧
      MachOSection.sampleSections.get? 1 = some MachOSection.sampleConstSection ∧
      Portion.sampleVmData ∈ MachOSection.sampleConstSection.portions_ ∧
      Portion.sampleVmData.symbol_name = some "_kDartVmSnapshotData") ∧
    0 < Portion.sampleVmData.label ∧
    MachOSymbolTable.sampleUnstripped.FindLabel Portion.sampleVmData.label =
      some (some { name_index := 46, type := 15, section_index := 2, description := 512,
                   value := 0 }) :=
  ⟨by decide,
    (C9_named_portion_symbol Target.example64 (some "/tmp/app.o") MachOSection.sampleSections
      false MachOSymbolTable.sampleUnstripped 1 MachOSection.sampleConstSection
      Portion.sampleVmData "_kDartVmSnapshotData" (by decide) (by decide) (by decide)
      (by decide)).1, by decide⟩

/-- C10: in an unstripped table the local part is, in order, the section symbols of the
symbol descriptors, the source-file reference, and the symbolic-debugging entries that
`Spec.debuggingCalls` lists symbol by symbol: for a function `N_BNSYM` (section, offset),
`N_FUN` (name, section, offset), an unnamed `N_FUN` without section whose value is the
size, and `N_ENSYM` (section, offset + size); for a section or an object one entry,
`N_GSYM` without section and with value 0 when global (a named portion), `N_STSYM` with
section and offset otherwise. The external symbols follow. -/
theorem C10_unstripped_debugging_entries (T : Target) (path : Option String)
    (sections : List MachOSection) (t : MachOSymbolTable)
    (h : Initialize T MachOSymbolTable.init path sections false = some t) :
    ∃ debugging, Spec.debuggingCalls sections = some debugging ∧
      t.symbols_ = (Spec.staticCalls N_ALT_ENTRY sections ++ Spec.pathCalls path ++ debugging ++
        Spec.externalCalls N_ALT_ENTRY sections).map (SymbolCall.toSymbol t.strings_) ∧
      t.num_local_symbols_ =
        ((Spec.staticCalls N_ALT_ENTRY sections ++ Spec.pathCalls path ++
          debugging).length : Int) ∧
      (∀ c ∈ debugging, (t.strings_.Lookup c.name).isSome = true ∧ c.type &&& N_STAB ≠ 0 ∧
        c.type &&& N_EXT = 0) ∧
      t.strings_.Lookup "" = some 1 := by
  obtain ⟨locals, hl, _, _, hnl, _, _⟩ := Initialize_init h
  obtain ⟨locals', hl', hsym, hnames⟩ := Initialize_init_symbols h
  have e : locals' = locals := by rw [hl] at hl'; exact (Option.some.inj hl').symm
  subst e
  simp only [Spec.localCalls, Bool.false_eq_true, if_false, Option.map_eq_some'] at hl
  obtain ⟨debugging, hd, rfl⟩ := hl
  refine ⟨debugging, hd, hsym, hnl, ?_, (Initialize_init_strings h).1⟩
  intro c hc
  have ht := Spec.debuggingCalls_type hd hc
  exact ⟨hnames c (List.mem_append_left _ (List.mem_append_right _ hc)), ht.2.1, ht.1⟩

theorem C10_unstripped_debugging_entries_witness :
    Initialize Target.example64 MachOSymbolTable.init (some "/tmp/app.o")
        MachOSection.sampleSections false = some MachOSymbolTable.sampleUnstripped ∧
      (∃ debugging, Spec.debuggingCalls MachOSection.sampleSections = some debugging ∧
        MachOSymbolTable.sampleUnstripped.symbols_ =
          (Spec.staticCalls N_ALT_ENTRY MachOSection.sampleSections ++
            Spec.pathCalls (some "/tmp/app.o") ++ debugging ++
            Spec.externalCalls N_ALT_ENTRY MachOSection.sampleSections).map
              (SymbolCall.toSymbol MachOSymbolTable.sampleUnstripped.strings_)) ∧
      MachOSymbolTable.sampleUnstripped.symbols_.map Symbol.shape =
        [(N_SECT, 1, N_ALT_ENTRY, 16), (N_SECT, 1, N_ALT_ENTRY, 32), (N_OSO, 0, 1, 0),
         (N_BNSYM, 1, 0, 0), (N_FUN, 1, 0, 0), (N_FUN, 0, 0, 16), (N_ENSYM, 1, 0, 16),
         (N_BNSYM, 1, 0, 16), (N_FUN, 1, 0, 16), (N_FUN, 0, 0, 8), (N_ENSYM, 1, 0, 24),
         (N_STSYM, 1, 0, 32), (N_GSYM, 0, 0, 0),
         (N_SECT ||| N_EXT, 1, N_ALT_ENTRY, 0), (N_SECT ||| N_EXT, 2, N_ALT_ENTRY, 0)] :=
  ⟨by decide,
    (C10_unstripped_debugging_entries Target.example64 (some "/tmp/app.o")
      MachOSection.sampleSections MachOSymbolTable.sampleUnstripped (by decide)).elim
      fun debugging hd => ⟨debugging, hd.1, hd.2.1⟩,
    by decide⟩

end SymbolTableClaims

/-! ## The symbol table command of a stripped header -/

/-- C7 fails on the code: in the stripped sample snapshot `InitializeSymbolTables` appends a
symbol table command and a dynamic symbol table command that both designate the full
table, which `IncludedSymbolTable` then returns; that table was initialized unstripped (7
local symbols, symbolic-debugging entries included), while the separately initialized
stripped table (no local symbols, the two external section symbols) is designated by no
command. -/
theorem C7_stripped_header_writes_full_table :
    MachOHeader.sampleStripped.map (fun h => h.is_stripped_) = some true ∧
    (MachOHeader.sampleStripped.bind fun h =>
      (h.InitializeSymbolTables Target.example64).map fun h1 =>
        h1.commands_.drop h.commands_.length) =
      some [MachOCommand.other (.symbolTable TableRef.full) (-1) (-1) (-1),
            MachOCommand.other (.dynamicSymbolTable TableRef.full) (-1) (-1) (-1)] ∧
    (MachOHeader.sampleStripped.bind fun h =>
      (h.InitializeSymbolTables Target.example64).bind fun h1 =>
        h1.IncludedSymbolTable Target.example64) = some TableRef.full ∧
    (MachOHeader.sampleStripped.bind fun h =>
      (h.InitializeSymbolTables Target.example64).map fun h1 =>
        (h1.full_symtab_.num_local_symbols_, h1.full_symtab_.symbols_.map Symbol.type)) =
      some (7, [N_SECT, N_BNSYM, N_FUN, N_FUN, N_ENSYM, N_GSYM, N_STSYM,
                N_SECT ||| N_EXT, N_SECT ||| N_EXT]) ∧
    (MachOHeader.sampleStripped.bind fun h =>
      (h.InitializeSymbolTables Target.example64).map fun h1 =>
        h1.zone_symtabs_.map fun t => (t.num_local_symbols_, t.symbols_.map Symbol.type)) =
      some [(0, [N_SECT ||| N_EXT, N_SECT ||| N_EXT])] := by
  decide

/-! ## The address map and the symbol values after `ComputeOffsets` -/

namespace ContentOffsetsVisitor

theorem DefaultFile_address_map (T : Target) (h : MachOHeader) (v : ContentOffsetsVisitor)
    (c : MachOContents) : (DefaultFile T h v c).1.address_map = v.address_map := by
  unfold DefaultFile
  split_ifs <;> rfl

theorem DefaultMemory_address_map (T : Target) (h : MachOHeader) (v : ContentOffsetsVisitor)
    (c : MachOContents) : (DefaultMemory T h v c).1.address_map = v.address_map := by
  unfold DefaultMemory
  split_ifs <;> rfl

theorem Default_address_map (T : Target) (h : MachOHeader) (v : ContentOffsetsVisitor)
    (c : MachOContents) : (Default T h v c).1.address_map = v.address_map := by
  unfold Default
  rw [DefaultMemory_address_map, DefaultFile_address_map]

/-- The address map after a child: a section appends the address it now has. -/
theorem Accept_address_map (T : Target) (h : MachOHeader) (v : ContentOffsetsVisitor)
    (c : MachOContents) :
    (Accept T h v c).1.address_map = v.address_map ++
      (if (Accept T h v c).2.IsMachOSection then [(Accept T h v c).2.memory_address_.toNat]
       else []) := by
  have hk := Accept_kind T h v c
  unfold MachOContents.IsMachOSection
  rw [hk]
  unfold Accept at *
  cases hc : c.kind <;>
    simp only [hc, VisitMachOSection, Default_address_map, if_true, List.append_nil,
      Bool.false_eq_true, if_false]

/-- The address map after the children of a segment: the addresses of its sections, in
order, are appended. -/
theorem VisitChildren_address_map (T : Target) (h : MachOHeader) :
    ∀ (cs : List MachOContents) (v : ContentOffsetsVisitor),
      (VisitChildren T h v cs).1.address_map = v.address_map ++
        (((VisitChildren T h v cs).2.filter MachOContents.IsMachOSection).map fun c =>
          c.memory_address_.toNat) := by
  intro cs
  induction cs with
  | nil => intro v; simp [VisitChildren]
  | cons c cs ih =>
    intro v
    simp only [VisitChildren]
    rw [ih, Accept_address_map, List.filter_cons]
    split_ifs <;> simp

theorem VisitMachOSegment_address_map (T : Target) (h : MachOHeader)
    (v : ContentOffsetsVisitor) (s : MachOSegment) :
    (VisitMachOSegment T h v s).1.address_map = v.address_map ++
      (((VisitMachOSegment T h v s).2.contents_.filter MachOContents.IsMachOSection).map
        fun c => c.memory_address_.toNat) := by
  simp only [VisitMachOSegment]
  rw [VisitChildren_address_map]

end ContentOffsetsVisitor

namespace MachOHeader

theorem VisitSegments_address_map (T : Target) (h : MachOHeader) :
    ∀ (commands : List MachOCommand) (v : ContentOffsetsVisitor),
      (VisitSegments T h v commands).1.address_map = v.address_map ++
        (((allContents (VisitSegments T h v commands).2).filter
          MachOContents.IsMachOSection).map fun c => c.memory_address_.toNat) := by
  intro commands
  induction commands with
  | nil => intro v; simp [VisitSegments, allContents]
  | cons c cs ih =>
    intro v
    cases c with
    | segment s =>
      simp only [VisitSegments, allContents]
      rw [ih, ContentOffsetsVisitor.VisitMachOSegment_address_map]
      simp
    | other kind fo ma ho =>
      simp only [VisitSegments, allContents]
      rw [ih]

theorem allContents_syncCommand (children : List MachOContents) :
    ∀ commands : List MachOCommand,
      allContents (commands.map (syncCommand children)) = allContents commands := by
  intro commands
  induction commands with
  | nil => rfl
  | cons c cs ih =>
    cases c with
    | segment s => simp only [List.map_cons, syncCommand, allContents, ih]
    | other kind fo ma ho =>
      simp only [List.map_cons, syncCommand]
      cases kind.asContents? with
      | none => simp only [allContents, ih]
      | some k =>
        simp only
        cases children.find? fun c => c.kind == k <;> simp only [allContents, ih]

end MachOHeader

namespace MachOHeader

theorem syncHeader_commands (h : MachOHeader) :
    allContents (syncHeader h).commands_ = allContents h.commands_ := by
  simp only [syncHeader]
  split <;> exact allContents_syncCommand _ _

theorem syncHeader_symbols (h : MachOHeader) :
    (syncHeader h).full_symtab_.symbols_ = h.full_symtab_.symbols_ ∧
      (syncHeader h).full_symtab_.by_label_index_ = h.full_symtab_.by_label_index_ := by
  simp only [syncHeader]
  split <;> split <;> exact ⟨rfl, rfl⟩

/-- The address map that layout returns: 0 for `NO_SECT`, then the memory address of every
section of the laid-out header, in order. -/
theorem layout_address_map {T : Target} {h h1 : MachOHeader} {address_map : List Nat}
    (hl : layout T h = some (h1, address_map)) :
    address_map = 0 :: h1.sectionContents.map (fun c => c.memory_address_.toNat) ∧
      h1.full_symtab_.symbols_ = h.full_symtab_.symbols_ ∧
      h1.full_symtab_.by_label_index_ = h.full_symtab_.by_label_index_ := by
  simp only [layout, Option.bind_eq_bind, Option.pure_def, Option.bind_eq_some] at hl
  obtain ⟨commands, _, hl⟩ := hl
  simp only [Option.some.injEq, Prod.mk.injEq] at hl
  obtain ⟨rfl, rfl⟩ := hl
  refine ⟨?_, ?_, ?_⟩
  · rw [sectionContents, syncHeader_commands, VisitSegments_address_map]
    rfl
  · exact (syncHeader_symbols _).1
  · exact (syncHeader_symbols _).2

theorem finalizeTable_some {T : Target} {h h1 : MachOHeader} {table : TableRef}
    {address_map : List Nat} (hf : finalizeTable T h table address_map = some h1) :
    h1.commands_ = h.commands_ ∧
      (table ≠ TableRef.full → h1.full_symtab_ = h.full_symtab_) ∧
      (table = TableRef.full →
        h.full_symtab_.Finalize T address_map = some h1.full_symtab_) := by
  simp only [finalizeTable, Option.bind_eq_bind, Option.bind_eq_some] at hf
  obtain ⟨t, ht, t1, ht1, hset⟩ := hf
  cases table with
  | full =>
    simp only [setTable, Option.some.injEq] at hset
    subst hset
    simp only [table?, Option.some.injEq] at ht
    subst ht
    exact ⟨rfl, fun hne => absurd rfl hne, fun _ => ht1⟩
  | zone i =>
    simp only [setTable] at hset
    split_ifs at hset
    simp only [Option.some.injEq] at hset
    subst hset
    exact ⟨rfl, fun _ => rfl, fun he => by cases he⟩

/-- What a successful `ComputeOffsets` leaves: the full table is the finalized table of
the laid-out header, for the address map of its sections. -/
theorem ComputeOffsets_some {T : Target} {h h3 : MachOHeader}
    (hc : ComputeOffsets T h = some h3) :
    ∃ t : MachOSymbolTable, (h.full_symtab_.symbols_ = t.symbols_ ∧
        h.full_symtab_.by_label_index_ = t.by_label_index_) ∧
      t.Finalize T (0 :: h3.sectionContents.map fun c => c.memory_address_.toNat) =
        some h3.full_symtab_ := by
  simp only [ComputeOffsets, Option.bind_eq_bind, Option.bind_eq_some] at hc
  obtain ⟨⟨h1, address_map⟩, hl, h2, hf, hc⟩ := hc
  obtain ⟨ham, hsym, hlab⟩ := layout_address_map hl
  obtain ⟨hcmd, _, hfull⟩ := finalizeTable_some hf
  have hfull := hfull rfl
  simp only at hc
  have key : h3.commands_ = h1.commands_ ∧ h3.full_symtab_ = h2.full_symtab_ := by
    split at hc
    · cases hc
    · split_ifs at hc with hne hst
      · obtain ⟨hcmd3, hfull3, _⟩ := finalizeTable_some hc
        exact ⟨hcmd3.trans hcmd, hfull3 (by simpa using hne)⟩
      · simp only [Option.pure_def, Option.some.injEq] at hc
        subst hc
        exact ⟨hcmd, rfl⟩
  refine ⟨h1.full_symtab_, ⟨hsym.symm, hlab.symm⟩, ?_⟩
  rw [key.2, ← hfull, ham]
  simp only [sectionContents, key.1]

end MachOHeader

namespace MachOSymbolTable

/-- A successful `Finalize` shifts every symbol by the address of its section, and the
map it accepts has a positive address for every section. -/
theorem Finalize_some {T : Target} {t t1 : MachOSymbolTable} {address_map : List Nat}
    (hf : t.Finalize T address_map = some t1) :
    t1.by_label_index_ = t.by_label_index_ ∧
      t1.symbols_ = t.symbols_.map (fun symbol =>
        { symbol with value :=
            (symbol.value + address_map.getD symbol.section_index 0) %
              2 ^ (T.kWordSize * 8) }) ∧
      (∀ symbol ∈ t.symbols_, symbol.section_index < address_map.length) ∧
      (∀ i, i < address_map.length → i ≠ NO_SECT → 0 < address_map.getD i 0) := by
  simp only [Finalize] at hf
  split_ifs at hf with h1 h2
  simp only [Option.some.injEq] at hf
  subst hf
  refine ⟨rfl, rfl, ?_, ?_⟩
  · intro symbol hs
    have h2 : ∀ x ∈ t.symbols_, x.section_index < address_map.length := by simpa using h2
    exact h2 symbol hs
  · intro i hi hne
    have h1 : ((List.range address_map.length).all fun i =>
        if i = NO_SECT then address_map.getD NO_SECT 0 == 0
        else decide (address_map.getD i 0 > 0)) = true := by simpa using h1
    have := List.all_eq_true.1 h1 i (List.mem_range.2 hi)
    simpa [hne] using this

/-- `FindLabel` after the symbols have been rewritten in place. -/
theorem FindLabel_map {t t1 : MachOSymbolTable} (f : Symbol → Symbol)
    (hl : t1.by_label_index_ = t.by_label_index_) (hs : t1.symbols_ = t.symbols_.map f)
    (label : Int) : t1.FindLabel label = (t.FindLabel label).map (Option.map f) := by
  simp only [FindLabel, LookupLabel, hl, hs]
  split_ifs <;> simp

theorem FindLabel_congr {t t1 : MachOSymbolTable}
    (hl : t1.by_label_index_ = t.by_label_index_) (hs : t1.symbols_ = t.symbols_)
    (label : Int) : t1.FindLabel label = t.FindLabel label := by
  simp only [FindLabel, LookupLabel, hl, hs]

theorem FindLabel_mem {t : MachOSymbolTable} {label : Int} {s : Symbol}
    (h : t.FindLabel label = some (some s)) : s ∈ t.symbols_ := by
  simp only [FindLabel] at h
  split_ifs at h
  · cases h
  · simp only [Option.some.injEq] at h
    exact List.mem_iff_get?.2 ⟨_, h⟩

end MachOSymbolTable

/-! ## The full symbol table through the phases of `Finalize` -/

namespace MachOHeader

theorem GenerateUuid_full_symtab {T : Target} {h h1 : MachOHeader}
    (hg : GenerateUuid T h = some h1) :
    h1.full_symtab_ = h.full_symtab_ ∧ h1.path_ = h.path_ := by
  unfold GenerateUuid at hg
  split_ifs at hg
  split at hg
  · cases hg; exact ⟨rfl, rfl⟩
  · split at hg
    · cases hg; exact ⟨rfl, rfl⟩
    · simp only [Option.map_eq_some'] at hg
      obtain ⟨hashes, _, rfl⟩ := hg
      exact ⟨rfl, rfl⟩

theorem CreateBSS_full_symtab {T : Target} {h h1 : MachOHeader}
    (hg : CreateBSS T h = some h1) :
    h1.full_symtab_ = h.full_symtab_ ∧ h1.path_ = h.path_ := by
  unfold CreateBSS at hg
  simp only [Option.bind_eq_bind, Option.pure_def, Option.bind_eq_some, Option.some.injEq] at hg
  obtain ⟨_, _, _, _, _, _, _, _, _, _, _, _, rfl⟩ := hg
  exact ⟨rfl, rfl⟩

theorem addEhFrame_full_symtab {T : Target} {h h1 : MachOHeader}
    (hg : addEhFrame T h = some h1) :
    h1.full_symtab_ = h.full_symtab_ ∧ h1.path_ = h.path_ := by
  unfold addEhFrame at hg
  simp only [Option.bind_eq_bind, Option.pure_def, Option.bind_eq_some] at hg
  obtain ⟨i, _, text_segment, _, hg⟩ := hg
  split at hg
  · cases hg; exact ⟨rfl, rfl⟩
  · simp only [Option.bind_eq_some, Option.some.injEq] at hg
    obtain ⟨_, _, _, _, _, _, _, _, _, _, _, _, rfl⟩ := hg
    exact ⟨rfl, rfl⟩

theorem addAllUnwindingRecords_full_symtab {T : Target} {h h1 : MachOHeader}
    (hg : addAllUnwindingRecords T h = some h1) :
    h1.full_symtab_ = h.full_symtab_ ∧ h1.path_ = h.path_ := by
  unfold addAllUnwindingRecords at hg
  split_ifs at hg
  · simp only [Option.map_eq_some'] at hg
    obtain ⟨_, _, rfl⟩ := hg
    exact ⟨rfl, rfl⟩
  · cases hg; exact ⟨rfl, rfl⟩

theorem GenerateUnwindingInformation_full_symtab {T : Target} {h h1 : MachOHeader}
    (hg : GenerateUnwindingInformation T h = some h1) :
    h1.full_symtab_ = h.full_symtab_ ∧ h1.path_ = h.path_ := by
  unfold GenerateUnwindingInformation at hg
  split_ifs at hg with h0 hm
  · cases hg; exact ⟨rfl, rfl⟩
  · exact addAllUnwindingRecords_full_symtab hg
  · simp only [Option.bind_eq_some] at hg
    obtain ⟨h2, h2eq, hg⟩ := hg
    have e2 := addEhFrame_full_symtab h2eq
    have e1 := addAllUnwindingRecords_full_symtab hg
    exact ⟨e1.1.trans e2.1, e1.2.trans e2.2⟩

theorem FinalizeDwarfSections_full_symtab {h h1 : MachOHeader}
    (hg : FinalizeDwarfSections h = some h1) :
    h1.full_symtab_ = h.full_symtab_ ∧ h1.path_ = h.path_ := by
  unfold FinalizeDwarfSections at hg
  split at hg
  · cases hg; exact ⟨rfl, rfl⟩
  · simp only [Option.bind_eq_bind, Option.pure_def, Option.bind_eq_some, Option.some.injEq] at hg
    obtain ⟨_, _, _, _, _, _, _, _, _, _, _, _, _, _, rfl⟩ := hg
    exact ⟨rfl, rfl⟩

theorem InitializeSymbolTables_full_symtab {T : Target} {h h1 : MachOHeader}
    (hg : InitializeSymbolTables T h = some h1) :
    h.full_symtab_.Initialize T h.path_ (allSections h.commands_) false =
      some h1.full_symtab_ := by
  unfold InitializeSymbolTables at hg
  simp only [Option.bind_eq_bind, Option.pure_def, Option.bind_eq_some, Option.some.injEq] at hg
  obtain ⟨_, _, _, _, _, _, full, hfull, h2, h2eq, rfl⟩ := hg
  rw [hfull]
  have e2 : h2.full_symtab_ = full := by
    unfold initializeStrippedTable at h2eq
    split_ifs at h2eq
    · simp only [Option.map_eq_some'] at h2eq
      obtain ⟨_, _, rfl⟩ := h2eq
      rfl
    · cases h2eq; rfl
  split_ifs <;> simp only [e2]

theorem GenerateMiscellaneousCommands_full_symtab {T : Target} {h h1 : MachOHeader}
    (hg : GenerateMiscellaneousCommands T h = some h1) :
    h1.full_symtab_ = h.full_symtab_ := by
  unfold GenerateMiscellaneousCommands at hg
  simp only [Option.bind_eq_bind, Option.pure_def, Option.bind_eq_some] at hg
  obtain ⟨_, _, _, _, _, _, hg⟩ := hg
  split_ifs at hg <;> cases hg <;> rfl

end MachOHeader

namespace MachOHeader

theorem updateTable_some {h h1 : MachOHeader} {table : TableRef} {index_map : List Nat}
    (hu : h.updateTable table index_map = some h1) :
    (table ≠ TableRef.full → h1.full_symtab_ = h.full_symtab_) ∧
      (table = TableRef.full →
        h.full_symtab_.UpdateSectionIndices index_map = some h1.full_symtab_) := by
  simp only [updateTable, Option.bind_eq_bind, Option.bind_eq_some] at hu
  obtain ⟨t, ht, t1, ht1, hset⟩ := hu
  cases table with
  | full =>
    simp only [setTable, Option.some.injEq] at hset
    subst hset
    simp only [table?, Option.some.injEq] at ht
    subst ht
    exact ⟨fun hne => absurd rfl hne, fun _ => ht1⟩
  | zone i =>
    simp only [setTable] at hset
    split_ifs at hset
    simp only [Option.some.injEq] at hset
    subst hset
    exact ⟨fun _ => rfl, fun he => by cases he⟩

theorem updateSectionIndices_some {T : Target} {h h1 : MachOHeader} {index_map : List Nat}
    (hu : updateSectionIndices T h index_map = some h1) :
    h.full_symtab_.UpdateSectionIndices index_map = some h1.full_symtab_ := by
  simp only [updateSectionIndices, Option.bind_eq_some] at hu
  obtain ⟨h2, h2eq, hu⟩ := hu
  have e2 := (updateTable_some h2eq).2 rfl
  split at hu
  · cases hu
  · split_ifs at hu with hne hst
    · rw [(updateTable_some hu).1 (by simpa using hne)]; exact e2
    · cases hu; exact e2

theorem reorderCommands_full_symtab {T : Target} {h h1 : MachOHeader} {bins : CommandBins}
    {text_index : Nat} {text_segment linkedit_segment : MachOSegment}
    (hg : reorderCommands T h bins text_index text_segment linkedit_segment = some h1) :
    ∃ index_map, h.full_symtab_.UpdateSectionIndices index_map = some h1.full_symtab_ := by
  unfold reorderCommands at hg
  simp only [Option.bind_eq_bind, Option.pure_def, Option.bind_eq_some] at hg
  obtain ⟨_, _, _, _, _, _, hu⟩ := hg
  have := updateSectionIndices_some hu
  exact ⟨_, this⟩

/-- `FinalizeCommands` leaves the full table with its section indices mapped. -/
theorem FinalizeCommands_full_symtab {T : Target} {h h1 : MachOHeader}
    (hg : FinalizeCommands T h = some h1) :
    ∃ index_map, h.full_symtab_.UpdateSectionIndices index_map = some h1.full_symtab_ := by
  unfold FinalizeCommands at hg
  simp only [Option.bind_eq_bind, Option.pure_def, Option.bind_eq_some] at hg
  obtain ⟨_, _, _, _, _, _, _, _, _, _, _, _, _, _, _, _, _, _, hu⟩ := hg
  exact reorderCommands_full_symtab hu

end MachOHeader

namespace Spec

theorem staticCalls_section_index {desc : Nat} {sections : List MachOSection} {c : SymbolCall}
    (h : c ∈ staticCalls desc sections) : c.section_index ≠ NO_SECT := by
  obtain ⟨k, s, _, hc⟩ := mem_overSections.1 h
  obtain ⟨p, _, hc2⟩ := mem_overPortions.1 hc
  unfold staticCallsOfPortion at hc2
  cases hs : p.symbols with
  | none => simp [hs] at hc2
  | some symbols =>
    simp only [hs, List.mem_map] at hc2
    obtain ⟨sd, _, rfl⟩ := hc2
    simp [NO_SECT]

end Spec

namespace MachOSymbolTable

/-- In a table that `Initialize` builds from a fresh one, a label resolves to a symbol that
has a section. -/
theorem FindLabel_Initialize_section {T : Target} {path : Option String}
    {sections : List MachOSection} {is_stripped : Bool} {t : MachOSymbolTable} {L : Int}
    {s : Symbol}
    (h : Initialize T MachOSymbolTable.init path sections is_stripped = some t)
    (hs : t.FindLabel L = some (some s)) : s.section_index ≠ NO_SECT := by
  obtain ⟨locals, hl, hshape, hlab, _, _, _⟩ := Initialize_init h
  have hL : L > 0 := by
    by_contra hn
    simp [FindLabel, hn] at hs
  cases hf : t.by_label_index_.find? (fun kv => kv.1 == L) with
  | none => simp [FindLabel, LookupLabel, hL, hf] at hs
  | some kv =>
    simp only [FindLabel, LookupLabel, hL, if_true, hf] at hs
    split_ifs at hs with hidx
    · simp at hs
    simp only [Option.some.injEq] at hs
    have hmem : kv ∈ t.by_label_index_ := List.mem_of_find?_eq_some hf
    rw [hlab] at hmem
    obtain ⟨i, c, hi, hpos, _, hidx2⟩ := (@mem_labelEntries kv.1 kv.2 _ _).1 hmem
    have hi2 : t.symbols_.get? i = some s := by
      rw [← hs]; congr 1; simp only [hidx2]; omega
    have hshape2 : s.shape = c.shape := by
      have h1 : (t.symbols_.map Symbol.shape).get? i = some s.shape := by
        rw [List.get?_eq_getElem?, List.getElem?_map, ← List.get?_eq_getElem?, hi2]; rfl
      have h2 : ((locals ++ Spec.externalCalls (if is_stripped then 0 else N_ALT_ENTRY)
          sections).map SymbolCall.shape).get? i = some c.shape := by
        rw [List.get?_eq_getElem?, List.getElem?_map, ← List.get?_eq_getElem?, hi]; rfl
      rw [hshape, ← List.map_append, h2] at h1
      exact (Option.some.inj h1).symm
    have hsec : s.section_index = c.section_index := by
      have := congrArg (fun x => x.2.1) hshape2
      simpa [Symbol.shape, SymbolCall.shape] using this
    rw [hsec]
    have hcmem : c ∈ locals ++ Spec.externalCalls (if is_stripped then 0 else N_ALT_ENTRY)
        sections := List.mem_iff_get?.2 ⟨i, hi⟩
    rcases List.mem_append.1 hcmem with hc | hc
    · unfold Spec.localCalls at hl
      cases is_stripped with
      | true =>
        simp only [if_true, Option.some.injEq] at hl
        subst hl
        simp at hc
      | false =>
        simp only [Bool.false_eq_true, if_false, Option.map_eq_some'] at hl
        obtain ⟨debugging, hd, rfl⟩ := hl
        simp only [List.mem_append] at hc
        rcases hc with (hc | hc) | hc
        · exact Spec.staticCalls_section_index hc
        · unfold Spec.pathCalls at hc
          cases path with
          | none => simp at hc
          | some p =>
            simp only [List.mem_singleton] at hc
            subst hc
            simp at hpos
        · have := (Spec.debuggingCalls_type hd hc).2.2
          rw [this] at hpos
          simp at hpos
    · obtain ⟨k, _, _, _, _, _, _, rfl⟩ := Spec.mem_externalCalls.1 hc
      simp [NO_SECT]

/-- What a successful `UpdateSectionIndices` does, and what it has checked of the map. -/
theorem UpdateSectionIndices_some {t t1 : MachOSymbolTable} {index_map : List Nat}
    (hu : t.UpdateSectionIndices index_map = some t1) :
    t1.by_label_index_ = t.by_label_index_ ∧
      t1.symbols_ = t.symbols_.map (fun symbol =>
        { symbol with section_index := index_map.getD symbol.section_index 0 % 2 ^ 8 }) ∧
      (∀ symbol ∈ t.symbols_, symbol.section_index < index_map.length) ∧
      (∀ i, i < index_map.length → i ≠ NO_SECT →
        index_map.getD i 0 < 2 ^ 8 ∧ index_map.getD i 0 ≠ NO_SECT) := by
  simp only [UpdateSectionIndices] at hu
  split_ifs at hu with h1 h2
  simp only [Option.some.injEq] at hu
  subst hu
  refine ⟨rfl, rfl, ?_, ?_⟩
  · have h2 : ∀ x ∈ t.symbols_, x.section_index < index_map.length := by simpa using h2
    exact h2
  · intro i hi hne
    have h1 : ∀ x < index_map.length,
        IsUint 8 (index_map.getD x 0) = true ∧ index_map.getD x 0 < index_map.length ∧
          if x = NO_SECT then index_map.getD x 0 = NO_SECT
          else ¬index_map.getD x 0 = NO_SECT := by simpa using h1
    have := h1 i hi
    simp only [hne, if_false, IsUint, decide_eq_true_eq] at this
    exact ⟨this.1, this.2.2⟩

end MachOSymbolTable

namespace MachOHeader

/-- Before `ComputeOffsets`, every label of a header whose full table was fresh resolves to
a symbol that has a section. -/
theorem beforeComputeOffsets_section {T : Target} {h h2 : MachOHeader} {L : Int} {s : Symbol}
    (hinit : h.full_symtab_ = MachOSymbolTable.init)
    (hpre : h.beforeComputeOffsets T = some h2)
    (hs : h2.full_symtab_.FindLabel L = some (some s)) : s.section_index ≠ NO_SECT := by
  simp only [beforeComputeOffsets, Option.bind_eq_bind, Option.bind_eq_some] at hpre
  obtain ⟨a, ha, b, hb, c, hc, d, hd, e, he, f, hf, hg⟩ := hpre
  have e1 := GenerateUuid_full_symtab ha
  have e2 := CreateBSS_full_symtab hb
  have e3 := GenerateUnwindingInformation_full_symtab hc
  have e4 := FinalizeDwarfSections_full_symtab hd
  have e5 := InitializeSymbolTables_full_symtab he
  have e6 := GenerateMiscellaneousCommands_full_symtab hf
  obtain ⟨index_map, e7⟩ := FinalizeCommands_full_symtab hg
  have hd0 : d.full_symtab_ = MachOSymbolTable.init := by
    rw [e4.1, e3.1, e2.1, e1.1, hinit]
  rw [hd0] at e5
  rw [e6] at e7
  obtain ⟨hlab, hsym, hlt, hmap⟩ := MachOSymbolTable.UpdateSectionIndices_some e7
  rw [MachOSymbolTable.FindLabel_map _ hlab hsym] at hs
  cases hfl : e.full_symtab_.FindLabel L with
  | none => simp [hfl] at hs
  | some o =>
    cases o with
    | none => simp [hfl] at hs
    | some s0 =>
      simp only [hfl, Option.map_some', Option.some.injEq] at hs
      subst hs
      have h0 := MachOSymbolTable.FindLabel_Initialize_section e5 hfl
      have hm := hmap s0.section_index (hlt s0 (MachOSymbolTable.FindLabel_mem hfl)) h0
      show index_map.getD s0.section_index 0 % 2 ^ 8 ≠ NO_SECT
      rw [Nat.mod_eq_of_lt hm.1]
      exact hm.2

end MachOHeader

/-- C5: let `h` be a header whose symbol table is still fresh, `h2` the header after the
phases of `MachOHeader::Finalize` that precede `ComputeOffsets` and `h3` the header after
`Finalize`. If `FindLabel(L)` resolves in `h2` to a symbol `s` (`s.value` is then the
section-relative offset), then `s` has a section, and after `Finalize` the relocation
symbol table resolves `L` to the same symbol with the memory address of that section added
to the value (in a target word). That address is positive, so when the sum fits in a word
the value is the exact sum, non-zero and different from the section-relative offset. -/
theorem C5_label_value_absolute (T : Target) (h h2 h3 : MachOHeader) (L : Int) (s : Symbol)
    (hinit : h.full_symtab_ = MachOSymbolTable.init)
    (hpre : h.beforeComputeOffsets T = some h2) (hfin : h.Finalize T = some h3)
    (hs : h2.full_symtab_.FindLabel L = some (some s)) :
    ∃ (c : MachOContents) (s1 : Symbol),
      h3.sectionAt? s.section_index = some c ∧ 0 < c.memory_address_ ∧
      h3.relocation_symbol_table.FindLabel L = some (some s1) ∧
      s1 = { s with value := (s.value + c.memory_address_.toNat) % 2 ^ (T.kWordSize * 8) } ∧
      (s.value + c.memory_address_.toNat < 2 ^ (T.kWordSize * 8) →
        s1.value = s.value + c.memory_address_.toNat ∧ s1.value ≠ 0 ∧ s1.value ≠ s.value) := by
  have hsect : s.section_index ≠ NO_SECT :=
    MachOHeader.beforeComputeOffsets_section hinit hpre hs
  have hc : h2.ComputeOffsets T = some h3 := by
    simpa only [MachOHeader.Finalize, hpre, Option.bind_eq_bind, Option.some_bind] using hfin
  obtain ⟨t, ⟨hsym, hlab⟩, hf⟩ := MachOHeader.ComputeOffsets_some hc
  obtain ⟨hl1, hs1, hlt, hpos⟩ := MachOSymbolTable.Finalize_some hf
  have hst : t.FindLabel L = some (some s) := by
    rw [MachOSymbolTable.FindLabel_congr hlab.symm hsym.symm]; exact hs
  have hmem := MachOSymbolTable.FindLabel_mem hst
  have hlt := hlt s hmem
  have hpos := hpos s.section_index hlt hsect
  simp only [List.length_cons, List.length_map] at hlt
  obtain ⟨k, hk⟩ : ∃ k, s.section_index = k + 1 :=
    ⟨s.section_index - 1, by simp only [NO_SECT] at hsect; omega⟩
  have hklt : k < h3.sectionContents.length := by omega
  obtain ⟨c, hcget⟩ : ∃ c, h3.sectionContents.get? k = some c :=
    ⟨_, List.get?_eq_get hklt⟩
  have haddr : (0 :: h3.sectionContents.map fun c => c.memory_address_.toNat).getD
      s.section_index 0 = c.memory_address_.toNat := by
    rw [hk]
    simp only [List.getD_eq_getElem?_getD, List.getElem?_cons_succ, List.getElem?_map]
    rw [← List.get?_eq_getElem?, hcget]
    rfl
  rw [haddr] at hpos
  refine ⟨c, _, ?_, ?_, ?_, rfl, ?_⟩
  · rw [List.get?_eq_getElem?] at hcget
    simp [MachOHeader.sectionAt?, hk, NO_SECT, hcget]
  · omega
  · rw [MachOHeader.relocation_symbol_table, MachOSymbolTable.FindLabel_map _ hl1 hs1, hst]
    simp only [Option.map_some', haddr]
  · intro hfit
    have hv : (s.value + c.memory_address_.toNat) % 2 ^ (T.kWordSize * 8) =
        s.value + c.memory_address_.toNat := Nat.mod_eq_of_lt hfit
    refine ⟨hv, ?_, ?_⟩
    · show (s.value + c.memory_address_.toNat) % 2 ^ (T.kWordSize * 8) ≠ 0
      rw [hv]; omega
    · show (s.value + c.memory_address_.toNat) % 2 ^ (T.kWordSize * 8) ≠ s.value
      rw [hv]; omega

theorem C5_label_value_absolute_witness :
    (MachOHeader.sampleSnapshotHeader.full_symtab_ = MachOSymbolTable.init ∧
      MachOHeader.sampleSnapshotHeader.beforeComputeOffsets Target.example64 =
        some MachOHeader.sampleBeforeOffsets ∧
      MachOHeader.sampleSnapshotHeader.Finalize Target.example64 =
        some MachOHeader.sampleFinalized ∧
      MachOHeader.sampleBeforeOffsets.full_symtab_.FindLabel 2 =
        some (some ⟨51, N_SECT ||| N_EXT, 2, N_ALT_ENTRY, 0⟩)) ∧
    ∃ (c : MachOContents) (s1 : Symbol),
      MachOHeader.sampleFinalized.sectionAt? 2 = some c ∧ 0 < c.memory_address_ ∧
      MachOHeader.sampleFinalized.relocation_symbol_table.FindLabel 2 = some (some s1) ∧
      s1 = { (⟨51, N_SECT ||| N_EXT, 2, N_ALT_ENTRY, 0⟩ : Symbol) with
        value := (0 + c.memory_address_.toNat) % 2 ^ (Target.example64.kWordSize * 8) } ∧
      (0 + c.memory_address_.toNat < 2 ^ (Target.example64.kWordSize * 8) →
        s1.value = 0 + c.memory_address_.toNat ∧ s1.value ≠ 0 ∧ s1.value ≠ 0) :=
  ⟨⟨by decide, by decide, by decide, by decide⟩,
    C5_label_value_absolute Target.example64 MachOHeader.sampleSnapshotHeader
      MachOHeader.sampleBeforeOffsets MachOHeader.sampleFinalized 2
      ⟨51, N_SECT ||| N_EXT, 2, N_ALT_ENTRY, 0⟩ (by decide) (by decide) (by decide)
      (by decide)⟩

/-- C4 fails when the load commands of the two outputs end in different pages: with an
identifier of 15700 characters the header of the sample snapshot (its `LC_ID_DYLIB` command
holds the identifier) is 16464 bytes long, so its text section starts at 32768, while the
header of the debug-info output for the same calls and identifier fits in one page and its
text section starts at 16384. Labels 1 and 2 resolve to different values in the two. -/
theorem C4_long_identifier_moves_labels :
    (MachOWriter.finalizedLabelValue Target.example64
        (MachOWriter.sampleSnapshot MachOWriter.sampleLongIdentifier) 1 = some (some 32768) ∧
      MachOWriter.finalizedLabelValue Target.example64
        (MachOWriter.sampleDebugInfo MachOWriter.sampleLongIdentifier) 1 =
          some (some 16384)) ∧
    (MachOWriter.finalizedLabelValue Target.example64
        (MachOWriter.sampleSnapshot MachOWriter.sampleLongIdentifier) 2 = some (some 49152) ∧
      MachOWriter.finalizedLabelValue Target.example64
        (MachOWriter.sampleDebugInfo MachOWriter.sampleLongIdentifier) 2 =
          some (some 32768)) := by
  decide!

/-! ## `Finalize` and `UpdateSectionIndices` of a symbol table -/

/-- C11: a successful `MachOSymbolTable::Finalize(address_map)` changes nothing but the
symbols' values: the table is the old one with every symbol's value replaced by the old
value plus the map's entry for the symbol's section index (an index inside the map), in a
target word. Count and order of the symbols and their other fields are unchanged, and a
symbol without section whose value fits in a word keeps its value, since the entry for
`NO_SECT` is 0. -/
theorem C11_Finalize_rebases_values (T : Target) (t t1 : MachOSymbolTable)
    (address_map : List Nat) (h : t.Finalize T address_map = some t1) :
    t1 = { t with symbols_ := t.symbols_.map fun s =>
        { s with value :=
            (s.value + address_map.getD s.section_index 0) % 2 ^ (T.kWordSize * 8) } } ∧
      t1.symbols_.length = t.symbols_.length ∧
      ∀ i s, t.symbols_.get? i = some s →
        s.section_index < address_map.length ∧
        ∃ s1, t1.symbols_.get? i = some s1 ∧
          s1.name_index = s.name_index ∧ s1.type = s.type ∧
          s1.section_index = s.section_index ∧ s1.description = s.description ∧
          s1.value =
            (s.value + address_map.getD s.section_index 0) % 2 ^ (T.kWordSize * 8) ∧
          (s.section_index = NO_SECT → address_map.getD NO_SECT 0 = 0 ∧
            (s.value < 2 ^ (T.kWordSize * 8) → s1.value = s.value)) := by
  obtain ⟨_, hsym, hlt, _⟩ := MachOSymbolTable.Finalize_some h
  have ht1 : t1 = { t with symbols_ := t.symbols_.map fun s =>
      { s with value :=
          (s.value + address_map.getD s.section_index 0) % 2 ^ (T.kWordSize * 8) } } := by
    simp only [MachOSymbolTable.Finalize] at h
    split_ifs at h
    exact (Option.some.inj h).symm
  have hzero : 0 < address_map.length → address_map.getD NO_SECT 0 = 0 := by
    intro hpos
    simp only [MachOSymbolTable.Finalize] at h
    split_ifs at h with h1 h2
    have h1 : ∀ x < address_map.length,
        if x = NO_SECT then address_map.getD NO_SECT 0 = 0
        else 0 < address_map.getD x 0 := by simpa using h1
    simpa [NO_SECT] using h1 0 hpos
  refine ⟨ht1, by rw [hsym, List.length_map], ?_⟩
  intro i s hi
  have hmem : s ∈ t.symbols_ := List.mem_iff_get?.2 ⟨i, hi⟩
  refine ⟨hlt s hmem,
    { s with value :=
        (s.value + address_map.getD s.section_index 0) % 2 ^ (T.kWordSize * 8) },
    ?_, rfl, rfl, rfl, rfl, rfl, ?_⟩
  · rw [hsym, List.get?_eq_getElem?, List.getElem?_map, ← List.get?_eq_getElem?, hi]
    rfl
  · intro hs
    have hz := hzero (Nat.lt_of_le_of_lt (Nat.zero_le _) (hlt s hmem))
    refine ⟨hz, fun hv => ?_⟩
    show (s.value + address_map.getD s.section_index 0) % 2 ^ (T.kWordSize * 8) = s.value
    rw [hs, hz, Nat.add_zero, Nat.mod_eq_of_lt hv]

theorem C11_Finalize_rebases_values_witness :
    MachOSymbolTable.sampleUnstripped.Finalize Target.example64 [0, 16384, 32768] =
        some MachOSymbolTable.sampleRebased ∧
      MachOSymbolTable.sampleRebased.symbols_.length =
        MachOSymbolTable.sampleUnstripped.symbols_.length ∧
      MachOSymbolTable.sampleRebased.symbols_.map (fun s => (s.section_index, s.value)) =
        [(1, 16400), (1, 16416), (0, 0), (1, 16384), (1, 16384), (0, 16), (1, 16400),
         (1, 16400), (1, 16400), (0, 8), (1, 16408), (1, 16416), (0, 0), (1, 16384),
         (2, 32768)] :=
  ⟨by decide,
    (C11_Finalize_rebases_values Target.example64 MachOSymbolTable.sampleUnstripped
      MachOSymbolTable.sampleRebased [0, 16384, 32768] (by decide)).2.1,
    by decide⟩

/-- C12: a successful `MachOSymbolTable::UpdateSectionIndices(map)` changes nothing but the
symbols' section indices: the table is the old one with every symbol's section index `s`
(an index inside the map) replaced by `map[s]`, which fits the `uint8_t` field. Count and
order of the symbols, their other fields, the label map and the string table are
unchanged, and a symbol without section keeps section index 0, since the map fixes
`NO_SECT`. -/
theorem C12_UpdateSectionIndices_frame (t t1 : MachOSymbolTable) (index_map : List Nat)
    (h : t.UpdateSectionIndices index_map = some t1) :
    t1 = { t with symbols_ := t.symbols_.map fun s =>
        { s with section_index := index_map.getD s.section_index 0 } } ∧
      t1.symbols_.length = t.symbols_.length ∧
      t1.by_label_index_ = t.by_label_index_ ∧ t1.strings_ = t.strings_ ∧
      ∀ i s, t.symbols_.get? i = some s →
        s.section_index < index_map.length ∧
        ∃ s1, t1.symbols_.get? i = some s1 ∧
          s1.name_index = s.name_index ∧ s1.type = s.type ∧
          s1.description = s.description ∧ s1.value = s.value ∧
          s1.section_index = index_map.getD s.section_index 0 ∧
          (s.section_index = NO_SECT → s1.section_index = NO_SECT) := by
  obtain ⟨hlab, hsym, hlt, hmap⟩ := MachOSymbolTable.UpdateSectionIndices_some h
  have hzero : 0 < index_map.length → index_map.getD NO_SECT 0 = NO_SECT := by
    intro hpos
    simp only [MachOSymbolTable.UpdateSectionIndices] at h
    split_ifs at h with h1 h2
    have h1 : ∀ x < index_map.length,
        IsUint 8 (index_map.getD x 0) = true ∧ index_map.getD x 0 < index_map.length ∧
          if x = NO_SECT then index_map.getD x 0 = NO_SECT
          else ¬index_map.getD x 0 = NO_SECT := by simpa using h1
    simpa [NO_SECT] using (h1 0 hpos).2.2
  have hmod : ∀ s ∈ t.symbols_,
      index_map.getD s.section_index 0 % 2 ^ 8 = index_map.getD s.section_index 0 := by
    intro s hs
    by_cases h0 : s.section_index = NO_SECT
    · rw [h0, hzero (Nat.lt_of_le_of_lt (Nat.zero_le _) (hlt s hs))]
      rfl
    · exact Nat.mod_eq_of_lt (hmap _ (hlt s hs) h0).1
  have hsym2 : t1.symbols_ = t.symbols_.map fun s =>
      { s with section_index := index_map.getD s.section_index 0 } := by
    rw [hsym]
    apply List.map_congr_left
    intro s hs
    simp only [hmod s hs]
  have ht1 : t1 = { t with symbols_ := t.symbols_.map fun s =>
      { s with section_index := index_map.getD s.section_index 0 } } := by
    rw [← hsym2]
    simp only [MachOSymbolTable.UpdateSectionIndices] at h
    split_ifs at h
    rw [← Option.some.inj h]
  refine ⟨ht1, by rw [hsym2, List.length_map], hlab, by rw [ht1], ?_⟩
  intro i s hi
  have hmem : s ∈ t.symbols_ := List.mem_iff_get?.2 ⟨i, hi⟩
  refine ⟨hlt s hmem, { s with section_index := index_map.getD s.section_index 0 },
    ?_, rfl, rfl, rfl, rfl, rfl, ?_⟩
  · rw [hsym2, List.get?_eq_getElem?, List.getElem?_map, ← List.get?_eq_getElem?, hi]
    rfl
  · intro hs
    show index_map.getD s.section_index 0 = NO_SECT
    rw [hs]
    exact hzero (Nat.lt_of_le_of_lt (Nat.zero_le _) (hlt s hmem))

theorem C12_UpdateSectionIndices_frame_witness :
    MachOSymbolTable.sampleUnstripped.UpdateSectionIndices [0, 2, 1] =
        some MachOSymbolTable.sampleReindexed ∧
      MachOSymbolTable.sampleReindexed.by_label_index_ =
        MachOSymbolTable.sampleUnstripped.by_label_index_ ∧
      MachOSymbolTable.sampleReindexed.symbols_.map (fun s => (s.section_index, s.value)) =
        [(2, 16), (2, 32), (0, 0), (2, 0), (2, 0), (0, 16), (2, 16), (2, 16), (2, 16),
         (0, 8), (2, 24), (2, 32), (0, 0), (2, 0), (1, 0)] :=
  ⟨by decide,
    (C12_UpdateSectionIndices_frame MachOSymbolTable.sampleUnstripped
      MachOSymbolTable.sampleReindexed [0, 2, 1] (by decide)).2.2.1,
    by decide⟩

/-! ## Constructors, `AddContents` and `AddPortion` -/

theorem MachOSegment.create_eq (name : String) (p q : Nat)
    (hp : IsInt 32 p = true) (hq : IsInt 32 q = true) (hn : name.length ≤ 16) :
    MachOSegment.create name p q =
      some ⟨name, 0, p, q, [], kLinearInitValue, kLinearInitValue, kLinearInitValue⟩ := by
  simp [MachOSegment.create, hp, hq, hn]

theorem MachOSection.create_some {name : String} {type attributes : Nat} {has_contents : Bool}
    {alignment : Nat} {c : MachOContents}
    (h : MachOSection.create name type attributes has_contents alignment = some c) :
    c = ⟨.section ⟨name, type ||| attributes, alignment, []⟩,
          if has_contents then kLinearInitValue else 0, kLinearInitValue⟩ ∧
      IsPowerOfTwo alignment = true := by
  unfold MachOSection.create at h
  split_ifs at h with h1 h2 h3 h4 h5 h6 <;>
    simp only [Option.some.injEq] at h <;> subst h <;>
    refine ⟨by simp [*], by simpa using h2⟩

/-- `AddContents` of an allocated section without contents appends it. -/
theorem MachOSegment.AddContents_zerofill (s : MachOSegment) (sec : MachOSection)
    (ma : Int) (b : Bool) (hma : ma ≠ 0) :
    s.AddContents ⟨.section sec, 0, ma⟩ b =
      some { s with contents_ := s.contents_ ++ [⟨.section sec, 0, ma⟩] } := by
  simp [MachOSegment.AddContents, MachOContents.IsAllocated, MachOContents.IsMachOHeader,
    MachOContents.HasContents, MachOContents.IsMachOSection, hma]

/-- `AddContents` of an allocated section with contents inserts it after the children
with contents. -/
theorem MachOSegment.AddContents_regular (s : MachOSegment) (sec : MachOSection)
    (fo ma : Int) (b : Bool) (hfo : fo ≠ 0) (hma : ma ≠ 0) (hn : s.name_ ≠ SEG_LINKEDIT) :
    s.AddContents ⟨.section sec, fo, ma⟩ b =
      some { s with contents_ := s.contents_.take s.next_contents_index_ ++
                      [⟨.section sec, fo, ma⟩] ++ s.contents_.drop s.next_contents_index_,
                    next_contents_index_ := s.next_contents_index_ + 1 } := by
  simp [MachOSegment.AddContents, MachOContents.IsAllocated, MachOContents.IsMachOHeader,
    MachOContents.HasContents, MachOContents.IsMachOCommand, MachOSegment.HasName, hma, hfo, hn]

theorem RoundUp_zero (a : Nat) : RoundUp 0 a = 0 := by
  unfold RoundUp
  rcases Nat.eq_zero_or_pos a with rfl | ha
  · simp
  · have : (0 + a - 1) / a = 0 := Nat.div_eq_of_lt (by omega)
    rw [this, Nat.zero_mul]

/-- What a successful `AddPortion` does: one portion is appended at the aligned end of the
section. -/
theorem MachOContents.AddPortion_some {c c1 : MachOContents} {bytes : Option (List Nat)}
    {size : Nat} {relocations : Option (List Nat)} {symbols : Option (List SymbolData)}
    {symbol_name : Option String} {label : Int}
    (h : c.AddPortion bytes size relocations symbols symbol_name label = some c1) :
    ∃ s, c.kind = .section s ∧
      c1 = { c with kind := .section { s with portions_ := s.portions_ ++
        [⟨RoundUp s.SelfMemorySize s.alignment_, symbol_name, label, bytes, size, relocations,
          symbols⟩] } } ∧
      (symbol_name = none ∨ 0 < label) ∧ (c.file_offset_ = 0 ∨ bytes.isSome = true) := by
  unfold MachOContents.AddPortion at h
  split at h
  · rename_i s hk
    split_ifs at h with h1 h2 h3 h4
    simp only [Option.some.injEq] at h
    refine ⟨s, hk, h.symm, ?_, ?_⟩
    · cases symbol_name with
      | none => exact Or.inl rfl
      | some n => right; simpa using h1
    · simp only [MachOContents.HasContents, hk] at h2
      by_cases hf : c.file_offset_ = 0
      · exact Or.inl hf
      · right
        cases bytes with
        | none => simp [hf] at h2
        | some b => rfl
  · cases h


theorem ASSERT_eq_some {condition : Bool} {u : Unit} :
    ASSERT condition = some u ↔ condition = true := by
  unfold ASSERT
  cases condition <;> simp

/-! ## Zero-fill sections -/

theorem UnpaddedMemorySizeLoop_eq_foldl (T : Target) (h : MachOHeader) :
    ∀ (cs : List MachOContents) (m : Nat),
      MachOSegment.UnpaddedMemorySizeLoop T h m cs =
        cs.foldl (fun m c => RoundUp m (c.Alignment T) + c.MemorySize T h) m := by
  intro cs
  induction cs with
  | nil => intro m; rfl
  | cons c cs ih => intro m; simp only [MachOSegment.UnpaddedMemorySizeLoop, List.foldl_cons, ih]

theorem FileSizeLoop_zerofill (T : Target) (h : MachOHeader) :
    ∀ (cs : List MachOContents) (f : Nat), (∀ c ∈ cs, c.HasContents = false) →
      MachOSegment.FileSizeLoop T h f cs = f := by
  intro cs
  induction cs with
  | nil => intro f _; rfl
  | cons c cs ih =>
    intro f hc
    simp only [MachOSegment.FileSizeLoop, hc c (List.mem_cons_self _ _), Bool.not_false,
      if_true]
    exact ih f fun c1 h1 => hc c1 (List.mem_cons_of_mem _ h1)

/-- C19: let `c` be a section created with `has_contents = false`, with whatever portions
it has been given. Its `FileSize()` is 0; the layout traversal leaves the file cursor and
the section's file offset (0) unchanged when it visits the section, and moves the memory
cursor to the cursor rounded up to the section's alignment plus the end of the last portion
(offset plus size). A segment whose children all are sections without contents has
`FileSize()` 0, and its `MemorySize()` is the page-rounded result of adding each child's
size at the child's alignment in turn. -/
theorem C19_zerofill_section (T : Target) (h : MachOHeader) (v : ContentOffsetsVisitor)
    (name : String) (type attributes alignment : Nat) (c0 : MachOContents)
    (portions : List Portion) (s : MachOSegment)
    (hcreate : MachOSection.create name type attributes false alignment = some c0)
    (hs : ∀ c ∈ s.contents_, c.IsMachOSection = true ∧ c.HasContents = false) :
    (c0.HasContents = false ∧
      ∀ c : MachOContents,
        c = { c0 with kind := .section ⟨name, type ||| attributes, alignment, portions⟩ } →
        c.FileSize T h = 0 ∧
        (ContentOffsetsVisitor.Accept T h v c).1.file_offset = v.file_offset ∧
        (ContentOffsetsVisitor.Accept T h v c).2.file_offset_ = 0 ∧
        (ContentOffsetsVisitor.Accept T h v c).2.memory_address_ =
          (RoundUp v.memory_address alignment : Nat) ∧
        (ContentOffsetsVisitor.Accept T h v c).1.memory_address =
          RoundUp v.memory_address alignment +
            (match portions.getLast? with
             | some last => last.offset + last.size
             | none => 0)) ∧
      s.FileSize T h = 0 ∧
      s.MemorySize T h =
        RoundUp (s.contents_.foldl
          (fun m c => RoundUp m (c.Alignment T) + c.SelfMemorySize T h) 0) T.kPageSize := by
  obtain ⟨rfl, _⟩ := MachOSection.create_some hcreate
  refine ⟨⟨by simp [MachOContents.HasContents], ?_⟩, ?_, ?_⟩
  · rintro c rfl
    simp [MachOContents.FileSize, MachOContents.HasContents, ContentOffsetsVisitor.Accept,
      ContentOffsetsVisitor.VisitMachOSection, ContentOffsetsVisitor.Default,
      ContentOffsetsVisitor.DefaultFile, ContentOffsetsVisitor.DefaultMemory,
      MachOContents.IsAllocated, MachOContents.Alignment, MachOContents.SelfMemorySize,
      MachOSection.SelfMemorySize, kLinearInitValue]
  · simp only [MachOSegment.FileSize, MachOSegment.SelfFileSize, MachOSegment.SelfMemorySize,
      ite_self]
    rw [FileSizeLoop_zerofill T h _ _ fun c hc => (hs c hc).2]
    simp [RoundUp_zero]
  · simp only [MachOSegment.MemorySize, MachOSegment.UnpaddedMemorySize,
      MachOSegment.SelfMemorySize, UnpaddedMemorySizeLoop_eq_foldl, MachOSegment.Alignment,
      MachOContents.MemorySize]



theorem C19_zerofill_section_witness :
    (MachOSection.create SECT_BSS S_ZEROFILL S_NO_ATTRIBUTES false 8 =
        some ⟨.section ⟨SECT_BSS, S_ZEROFILL ||| S_NO_ATTRIBUTES, 8, []⟩, 0, -1⟩ ∧
      ∀ c ∈ MachOSegment.sampleData.contents_,
        c.IsMachOSection = true ∧ c.HasContents = false) ∧
    (MachOContents.sampleZerofill.FileSize Target.example64 MachOHeader.sample = 0 ∧
      (ContentOffsetsVisitor.Accept Target.example64 MachOHeader.sample ⟨[0], 100, 100⟩
        MachOContents.sampleZerofill).1.file_offset = 100 ∧
      (ContentOffsetsVisitor.Accept Target.example64 MachOHeader.sample ⟨[0], 100, 100⟩
        MachOContents.sampleZerofill).1.memory_address = 104 + (0 + 24)) ∧
    MachOSegment.sampleData.FileSize Target.example64 MachOHeader.sample = 0 ∧
    MachOSegment.sampleData.MemorySize Target.example64 MachOHeader.sample = 16384 :=
  have w := C19_zerofill_section Target.example64 MachOHeader.sample ⟨[0], 100, 100⟩ SECT_BSS
    S_ZEROFILL S_NO_ATTRIBUTES 8 ⟨.section ⟨SECT_BSS, S_ZEROFILL ||| S_NO_ATTRIBUTES, 8, []⟩, 0, -1⟩
    [⟨0, none, 0, none, 24, none, none⟩] MachOSegment.sampleData (by decide) (by decide)
  have wc := w.1.2 MachOContents.sampleZerofill rfl
  ⟨⟨by decide, by decide⟩, ⟨wc.1, wc.2.1, wc.2.2.2.2⟩, w.2.1, by decide⟩

/-! ## Interning a string twice -/

/-- C20: for every string table (the reachable ones included) and every string, a second
`StringTable::Add` of the string returns the offset that the first one returned and leaves
the table as the first one left it: the text, its length and the index map are
unchanged. -/
theorem C20_Add_idempotent (s : StringTable) (str : String) :
    ((s.Add str).1.Add str).2 = (s.Add str).2 ∧
      ((s.Add str).1.Add str).1 = (s.Add str).1 ∧
      ((s.Add str).1.Add str).1.text_ = (s.Add str).1.text_ ∧
      ((s.Add str).1.Add str).1.FileSize = (s.Add str).1.FileSize := by
  have h := StringTable.Lookup_Add s str
  have e : (s.Add str).1.Add str = ((s.Add str).1, (s.Add str).2) := by
    generalize s.Add str = r at h
    simp only [StringTable.Add, h]
  rw [e]
  exact ⟨rfl, rfl, rfl, rfl⟩

/-! ## The address map of `ComputeOffsets` -/

namespace MachOHeader

theorem NumSections_filter (s : MachOSegment) :
    s.NumSections = (s.contents_.filter MachOContents.IsMachOSection).length := by
  unfold MachOSegment.NumSections
  congr 1

theorem foldl_NumSections :
    ∀ (commands : List MachOCommand) (n : Nat),
      commands.foldl (fun num_sections command =>
        match command with
        | .segment s => num_sections + s.NumSections
        | .other _ _ _ _ => num_sections) n =
      n + ((allContents commands).filter MachOContents.IsMachOSection).length := by
  intro commands
  induction commands with
  | nil => intro n; simp [allContents]
  | cons c cs ih =>
    intro n
    cases c with
    | segment s =>
      rw [List.foldl_cons, ih]
      simp only [allContents, List.filter_append, List.length_append, NumSections_filter]
      omega
    | other kind fo ma ho =>
      rw [List.foldl_cons, ih]
      simp only [allContents]

theorem NumSections_eq_length (h : MachOHeader) :
    h.NumSections = h.sectionContents.length := by
  exact (foldl_NumSections h.commands_ 0).trans (Nat.zero_add _)

/-- What a successful `ComputeOffsets` has computed: the layout, whose address map lists
0 and then the memory address of every section of the resulting header, and which the
`Finalize` of the full table has accepted. -/
theorem ComputeOffsets_layout {T : Target} {h h3 : MachOHeader}
    (hc : ComputeOffsets T h = some h3) :
    ∃ h1 address_map t1, layout T h = some (h1, address_map) ∧
      address_map = 0 :: h3.sectionContents.map (fun c => c.memory_address_.toNat) ∧
      h1.full_symtab_.Finalize T address_map = some t1 := by
  simp only [ComputeOffsets, Option.bind_eq_bind, Option.bind_eq_some] at hc
  obtain ⟨⟨h1, address_map⟩, hl, h2, hf, hc⟩ := hc
  obtain ⟨ham, _, _⟩ := layout_address_map hl
  obtain ⟨hcmd, _, hfull⟩ := finalizeTable_some hf
  have hfull := hfull rfl
  simp only at hc
  have key : h3.commands_ = h1.commands_ := by
    split at hc
    · cases hc
    · split_ifs at hc with hne hst
      · exact (finalizeTable_some hc).1.trans hcmd
      · simp only [Option.pure_def, Option.some.injEq] at hc
        subst hc
        exact hcmd
  refine ⟨h1, address_map, _, hl, ?_, hfull⟩
  rw [ham]
  simp only [sectionContents, key]

end MachOHeader

/-- C16: when `ComputeOffsets` succeeds, the address map of its layout traversal has
`NumSections() + 1` entries; entry 0 is 0, and for `1 ≤ i ≤ NumSections()` entry `i` is
the memory address of the `i`-th section of the header (segments in command order, sections
in the order of the segment's contents), which is positive. -/
theorem C16_address_map (T : Target) (h h3 : MachOHeader)
    (hc : h.ComputeOffsets T = some h3) :
    ∃ h1 address_map, MachOHeader.layout T h = some (h1, address_map) ∧
      address_map.length = h3.NumSections + 1 ∧
      address_map.get? 0 = some 0 ∧
      ∀ i, 1 ≤ i → i ≤ h3.NumSections →
        ∃ c, h3.sectionAt? i = some c ∧
          address_map.get? i = some c.memory_address_.toNat ∧ 0 < c.memory_address_ := by
  obtain ⟨h1, address_map, t1, hl, ham, hf⟩ := MachOHeader.ComputeOffsets_layout hc
  obtain ⟨_, _, _, hpos⟩ := MachOSymbolTable.Finalize_some hf
  have hlen : address_map.length = h3.NumSections + 1 := by
    rw [ham, MachOHeader.NumSections_eq_length]
    simp
  refine ⟨h1, address_map, hl, hlen, by rw [ham]; rfl, ?_⟩
  intro i h1i hi
  rw [MachOHeader.NumSections_eq_length] at hi
  obtain ⟨k, rfl⟩ : ∃ k, i = k + 1 := ⟨i - 1, by omega⟩
  have hk : k < h3.sectionContents.length := by omega
  have hget : h3.sectionContents.get? k = some (h3.sectionContents.get ⟨k, hk⟩) :=
    List.get?_eq_get hk
  have hp := hpos (k + 1) (by rw [hlen, MachOHeader.NumSections_eq_length]; omega)
    (by simp [NO_SECT])
  have hentry : address_map.get? (k + 1) =
      some (h3.sectionContents.get ⟨k, hk⟩).memory_address_.toNat := by
    rw [ham]
    simp only [List.get?_cons_succ]
    rw [List.get?_eq_getElem?, List.getElem?_map, ← List.get?_eq_getElem?, hget]
    rfl
  refine ⟨_, ?_, hentry, ?_⟩
  · simp only [MachOHeader.sectionAt?, NO_SECT, Nat.add_sub_cancel]
    rw [if_neg (by omega)]
    exact hget
  · have : address_map.getD (k + 1) 0 =
        (h3.sectionContents.get ⟨k, hk⟩).memory_address_.toNat := by
      rw [List.getD_eq_getElem?_getD, ← List.get?_eq_getElem?, hentry]
      rfl
    rw [this] at hp
    omega



theorem C16_address_map_witness :
    MachOHeader.sampleBeforeOffsets.ComputeOffsets Target.example64 =
        some MachOHeader.sampleFinalized ∧
      MachOHeader.sampleFinalized.NumSections = 4 ∧
      (MachOHeader.layout Target.example64 MachOHeader.sampleBeforeOffsets).map
        (fun r => r.2) = some [0, 16384, 32768, 32800, 49152] ∧
      ∃ h1 address_map,
        MachOHeader.layout Target.example64 MachOHeader.sampleBeforeOffsets =
          some (h1, address_map) ∧
        address_map.length = MachOHeader.sampleFinalized.NumSections + 1 ∧
        address_map.get? 0 = some 0 ∧
        ∀ i, 1 ≤ i → i ≤ MachOHeader.sampleFinalized.NumSections →
          ∃ c, MachOHeader.sampleFinalized.sectionAt? i = some c ∧
            address_map.get? i = some c.memory_address_.toNat ∧ 0 < c.memory_address_ :=
  ⟨by decide, by decide, by decide,
    C16_address_map Target.example64 MachOHeader.sampleBeforeOffsets
      MachOHeader.sampleFinalized (by decide)⟩

/-! ## The file size in the load command of a segment -/

theorem foldl_cmdsize_le (T : Target) :
    ∀ (commands : List MachOCommand) (n : Nat),
      n ≤ commands.foldl (fun size command => size + command.cmdsize T) n := by
  intro commands
  induction commands with
  | nil => intro n; exact Nat.le_refl _
  | cons c cs ih =>
    intro n
    exact Nat.le_trans (Nat.le_add_right _ _) (ih _)

theorem MachOHeader.sizeofHeaderType_le (T : Target) (h : MachOHeader) :
    T.sizeofHeaderType ≤ h.SelfMemorySize T :=
  foldl_cmdsize_le T h.commands_ _

/-- C18: the seventh call of `MachOSegment::WriteLoadCommand` on the stream (after the
command code, the command size, the name, the memory address, the memory size and the file
offset) writes the file size of the segment as a word: 0 when the segment is initial and
`next_contents_index_` is 1, and `FileSize()` in every other case. In the first case, when
the children after the first `next_contents_index_` ones have no contents (the order that
`AddContents` keeps), `FileSize()` itself is the size of the header with its load commands,
rounded up to the page size unless the segment is the link-edit segment; it is positive
when the header record and the page size are. -/
theorem C18_reported_file_size (T : Target) (h : MachOHeader) (s : MachOSegment)
    (writes : List StreamWrite) (hw : s.WriteLoadCommand T h = some writes) :
    writes.get? 6 =
        some (WriteWord T
          (if s.IsInitial = true ∧ s.next_contents_index_ = 1 then 0 else s.FileSize T h)) ∧
      (s.IsInitial = true → s.next_contents_index_ = 1 →
        (∀ c ∈ s.contents_.drop s.next_contents_index_, c.HasContents = false) →
        s.FileSize T h =
            (if s.PadFileSizeToAlignment then RoundUp (h.SelfMemorySize T) T.kPageSize
             else h.SelfMemorySize T) ∧
          (0 < T.sizeofHeaderType → 0 < T.kPageSize → 0 < s.FileSize T h)) := by
  constructor
  · simp only [MachOSegment.WriteLoadCommand, Option.bind_eq_bind, Option.pure_def,
      Option.bind_eq_some, Option.some.injEq] at hw
    obtain ⟨_, _, _, _, _, _, rfl⟩ := hw
    simp only [List.cons_append, List.get?_cons_succ, List.get?_cons_zero,
      MachOSegment.reportedFileSize, Option.some.injEq]
    congr 1
    by_cases h1 : s.IsInitial = true <;> by_cases h2 : s.next_contents_index_ = 1 <;>
      simp [h1, h2]
  · intro hinit hidx hrest
    have hsize : s.FileSize T h =
        (if s.PadFileSizeToAlignment then RoundUp (h.SelfMemorySize T) T.kPageSize
         else h.SelfMemorySize T) := by
      unfold MachOSegment.IsInitial at hinit
      cases hc : s.contents_ with
      | nil => simp [hc] at hinit
      | cons c rest =>
        rw [hc] at hinit hrest
        simp only [beq_iff_eq] at hinit
        rw [hidx] at hrest
        simp only [List.drop_succ_cons, List.drop_zero] at hrest
        have hloop := FileSizeLoop_zerofill T h rest
          (RoundUp 0 (c.Alignment T) + c.FileSize T h) hrest
        simp only [MachOSegment.FileSize, MachOSegment.SelfFileSize,
          MachOSegment.SelfMemorySize, ite_self, hc, MachOSegment.FileSizeLoop,
          MachOContents.HasContents, hinit, Bool.not_true, Bool.false_eq_true, if_false,
          MachOSegment.Alignment]
        simp only [MachOContents.HasContents, hinit] at hloop
        rw [hloop, RoundUp_zero]
        simp [MachOContents.FileSize, MachOContents.HasContents, hinit,
          MachOContents.MemorySize, MachOContents.SelfMemorySize]
    refine ⟨hsize, fun hpos hpage => ?_⟩
    rw [hsize]
    have hle := MachOHeader.sizeofHeaderType_le T h
    split_ifs
    · exact Nat.lt_of_lt_of_le (Nat.lt_of_lt_of_le hpos hle) (le_RoundUp _ _ hpage)
    · exact Nat.lt_of_lt_of_le hpos hle



theorem C18_reported_file_size_witness :
    (MachOSegment.sampleDebugInfoText.WriteLoadCommand Target.example64
        MachOHeader.sampleDebugInfoFinalized = some MachOSegment.sampleDebugInfoTextWrites ∧
      MachOSegment.sampleDebugInfoText.IsInitial = true ∧
      MachOSegment.sampleDebugInfoText.next_contents_index_ = 1) ∧
    MachOSegment.sampleDebugInfoTextWrites.get? 6 = some (StreamWrite.WriteWord 0) ∧
    MachOSegment.sampleDebugInfoText.FileSize Target.example64
      MachOHeader.sampleDebugInfoFinalized = 16384 ∧
    MachOSegment.sampleDebugInfoTextWrites.get? 6 =
      some (WriteWord Target.example64
        (if MachOSegment.sampleDebugInfoText.IsInitial = true ∧
            MachOSegment.sampleDebugInfoText.next_contents_index_ = 1 then 0
         else MachOSegment.sampleDebugInfoText.FileSize Target.example64
           MachOHeader.sampleDebugInfoFinalized)) :=
  ⟨⟨by decide, by decide, by decide⟩, by decide, by decide,
    (C18_reported_file_size Target.example64 MachOHeader.sampleDebugInfoFinalized
      MachOSegment.sampleDebugInfoText MachOSegment.sampleDebugInfoTextWrites (by decide)).1⟩

theorem Spec.segmentsFrom_map_filter (p : MachOSegment → Bool) :
    ∀ (commands : List MachOCommand) (i : Nat),
      ((Spec.segmentsFrom i commands).filter fun ps => p ps.2).map
          (fun ps => MachOCommand.segment ps.2) =
        commands.filter fun c =>
          match c with
          | .segment s => p s
          | .other _ _ _ _ => false := by
  intro commands
  induction commands with
  | nil => intro i; rfl
  | cons c rest ih =>
      intro i
      cases c with
      | segment s =>
          simp only [Spec.segmentsFrom, List.filter_cons]
          by_cases hp : p s = true
          · simp [hp, ih (i + 1)]
          · simp [hp, ih (i + 1)]
      | other k a b c =>
          simp only [Spec.segmentsFrom, List.filter_cons]
          simp [ih (i + 1)]

/-- The body of the pass of `FinalizeCommands` on a segment. -/
theorem MachOHeader.binCommand_segment {ti : Nat} {bins b : CommandBins} {i : Nat}
    {s : MachOSegment}
    (hc : MachOHeader.binCommand ti bins i (.segment s) = some b) :
    ((MachOCommand.segment s).HasContents && (MachOCommand.segment s).file_offset_is_set)
        = false ∧
      (s.HasName SEG_TEXT = true → i = ti) ∧
      b = { header_only_commands := bins.header_only_commands,
            linkedit_commands := bins.linkedit_commands,
            symbol_segments := bins.symbol_segments ++
              (if Spec.isSymbolSegment s then [(i, s)] else []),
            other_segments := bins.other_segments ++
              (if Spec.isOtherSegment s then [(i, s)] else []),
            section_info := bins.section_info ++
              (if s.NumSections != 0 then [(i, s.NumSections, bins.num_sections + 1)] else []),
            num_sections := bins.num_sections + s.NumSections } := by
  by_cases hcount : s.NumSections = 0 <;> by_cases ht : s.HasName SEG_TEXT = true <;>
    by_cases hs : s.ContainsSymbols = true <;>
    simp [MachOHeader.binCommand, hcount, ht, hs] at hc <;>
    obtain ⟨hoff, hti, rfl⟩ := hc <;>
    refine ⟨?_, ?_, ?_⟩ <;>
    simp_all [Spec.isSymbolSegment, Spec.isOtherSegment]

/-- The body of the pass of `FinalizeCommands` on a command that is no segment. -/
theorem MachOHeader.binCommand_other {ti : Nat} {bins b : CommandBins} {i : Nat}
    {k : CommandKind} {x y z : Int}
    (hc : MachOHeader.binCommand ti bins i (.other k x y z) = some b) :
    ((MachOCommand.other k x y z).HasContents && (MachOCommand.other k x y z).file_offset_is_set)
        = false ∧
      b = { header_only_commands := bins.header_only_commands ++
              Spec.headerOnlyCommands [.other k x y z],
            linkedit_commands := bins.linkedit_commands ++
              Spec.linkeditCommands [.other k x y z],
            symbol_segments := bins.symbol_segments,
            other_segments := bins.other_segments,
            section_info := bins.section_info,
            num_sections := bins.num_sections } := by
  by_cases hh : (MachOCommand.other k x y z).HasContents = true <;>
    simp [MachOHeader.binCommand, hh] at hc
  · obtain ⟨hoff, rfl⟩ := hc
    simp [Spec.headerOnlyCommands, Spec.linkeditCommands, hh, hoff]
  · subst hc
    simp [Spec.headerOnlyCommands, Spec.linkeditCommands, hh]

/-- What the pass of `FinalizeCommands` over the commands leaves in the bins. -/
theorem MachOHeader.binCommands_spec (ti : Nat) :
    ∀ (commands : List MachOCommand) (bins : CommandBins) (i : Nat) (bins1 : CommandBins),
      MachOHeader.binCommands ti bins i commands = some bins1 →
        bins1.header_only_commands =
          bins.header_only_commands ++ Spec.headerOnlyCommands commands ∧
        bins1.linkedit_commands = bins.linkedit_commands ++ Spec.linkeditCommands commands ∧
        bins1.symbol_segments = bins.symbol_segments ++
          (Spec.segmentsFrom i commands).filter (fun ps => Spec.isSymbolSegment ps.2) ∧
        bins1.other_segments = bins.other_segments ++
          (Spec.segmentsFrom i commands).filter (fun ps => Spec.isOtherSegment ps.2) ∧
        bins1.section_info = bins.section_info ++
          Spec.sectionInfoFrom bins.num_sections (Spec.segmentsFrom i commands) ∧
        bins1.num_sections = bins.num_sections +
          ((Spec.segmentsFrom i commands).map fun ps => ps.2.NumSections).sum ∧
        (∀ ps ∈ Spec.segmentsFrom i commands, ps.2.HasName SEG_TEXT = true → ps.1 = ti) ∧
        (∀ c ∈ commands, (c.HasContents && c.file_offset_is_set) = false) := by
  intro commands
  induction commands with
  | nil =>
      intro bins i bins1 hb
      simp only [MachOHeader.binCommands, Option.some.injEq] at hb
      subst hb
      simp [Spec.headerOnlyCommands, Spec.linkeditCommands, Spec.segmentsFrom,
        Spec.sectionInfoFrom]
  | cons c rest ih =>
      intro bins i bins1 hb
      simp only [MachOHeader.binCommands, Option.bind_eq_bind, Option.bind_eq_some] at hb
      obtain ⟨b, hc, hrest⟩ := hb
      obtain ⟨h1, h2, h3, h4, h5, h6, h7, h8⟩ := ih b (i + 1) bins1 hrest
      cases c with
      | segment s =>
          obtain ⟨hoff, hti, rfl⟩ := MachOHeader.binCommand_segment hc
          simp only at h1 h2 h3 h4 h5 h6
          refine ⟨?_, ?_, ?_, ?_, ?_, ?_, ?_, ?_⟩
          · simpa [Spec.headerOnlyCommands] using h1
          · simpa [Spec.linkeditCommands] using h2
          · rw [h3]
            by_cases hp : Spec.isSymbolSegment s = true <;>
              simp [Spec.segmentsFrom, List.filter_cons, hp]
          · rw [h4]
            by_cases hp : Spec.isOtherSegment s = true <;>
              simp [Spec.segmentsFrom, List.filter_cons, hp]
          · rw [h5]
            by_cases hp : s.NumSections = 0 <;>
              simp [Spec.segmentsFrom, Spec.sectionInfoFrom, hp]
          · rw [h6]
            simp [Spec.segmentsFrom, Nat.add_assoc]
          · intro ps hps
            simp only [Spec.segmentsFrom, List.mem_cons] at hps
            rcases hps with rfl | hps
            · exact hti
            · exact h7 ps hps
          · intro c hc
            simp only [List.mem_cons] at hc
            rcases hc with rfl | hc
            · exact hoff
            · exact h8 c hc
      | other k x y z =>
          obtain ⟨hoff, rfl⟩ := MachOHeader.binCommand_other hc
          simp only at h1 h2 h3 h4 h5 h6
          refine ⟨?_, ?_, ?_, ?_, ?_, ?_, ?_, ?_⟩
          · rw [h1]
            by_cases hh : (MachOCommand.other k x y z).HasContents = true <;>
              simp [Spec.headerOnlyCommands, List.filter_cons, hh]
          · rw [h2]
            by_cases hh : (MachOCommand.other k x y z).HasContents = true <;>
              simp [Spec.linkeditCommands, List.filter_cons, hh]
          · simpa [Spec.segmentsFrom] using h3
          · simpa [Spec.segmentsFrom] using h4
          · simpa [Spec.segmentsFrom] using h5
          · simpa [Spec.segmentsFrom] using h6
          · simpa [Spec.segmentsFrom] using h7
          · intro c hc
            simp only [List.mem_cons] at hc
            rcases hc with rfl | hc
            · exact hoff
            · exact h8 c hc

/-- The contents node of a command is a command node. -/
theorem MachOHeader.linkeditContents_isCommand {c : MachOCommand} {contents : MachOContents}
    (h : MachOHeader.linkeditContents c = some contents) :
    contents.IsMachOCommand = true ∧ contents.IsMachOHeader = false ∧
      contents.IsMachOSection = false ∧ c.AsMachOSegment = none := by
  cases c with
  | segment s => simp [MachOHeader.linkeditContents] at h
  | other k x y z =>
      cases k <;> simp [MachOHeader.linkeditContents, CommandKind.asContents?] at h <;>
        subst h <;>
        simp [MachOContents.IsMachOCommand, MachOContents.IsMachOHeader,
          MachOContents.IsMachOSection, MachOCommand.AsMachOSegment]

/-- `AddContents` of a command node: it is appended after the children with contents. -/
theorem MachOSegment.AddContents_command {s s1 : MachOSegment} {c : MachOContents} {b : Bool}
    (hk : c.IsMachOCommand = true) (hh : c.IsMachOHeader = false)
    (hsec : c.IsMachOSection = false)
    (hn : s.next_contents_index_ = s.contents_.length)
    (ha : s.AddContents c b = some s1) :
    s1 = { s with contents_ := s.contents_ ++ [c],
                  next_contents_index_ := s.next_contents_index_ + 1 } ∧
      s.HasName SEG_LINKEDIT = true := by
  unfold MachOSegment.AddContents at ha
  simp only [hh, hk, hsec, Bool.false_eq_true, if_false, Bool.not_false, if_true] at ha
  split_ifs at ha with h1 h2 h3
  simp only [Option.some.injEq] at ha
  subst ha
  refine ⟨?_, ?_⟩
  · simp [hn]
  · simpa using h3

theorem MachOHeader.foldlM_AddContents :
    ∀ (commands : List MachOCommand) (s s1 : MachOSegment),
      s.next_contents_index_ = s.contents_.length →
      commands.foldlM (fun segment c => do
        let contents ← MachOHeader.linkeditContents c
        segment.AddContents contents false) s = some s1 →
      s1.contents_.map some = s.contents_.map some ++ commands.map MachOHeader.linkeditContents ∧
        s1.next_contents_index_ = s1.contents_.length ∧
        s1.name_ = s.name_ ∧ s1.file_offset_ = s.file_offset_ ∧
        s1.memory_address_ = s.memory_address_ ∧ s1.header_offset_ = s.header_offset_ ∧
        s1.initial_vm_protection_ = s.initial_vm_protection_ ∧
        s1.max_vm_protection_ = s.max_vm_protection_ := by
  intro commands
  induction commands with
  | nil =>
      intro s s1 hn hf
      simp only [List.foldlM, Option.pure_def, Option.some.injEq] at hf
      subst hf
      simp [hn]
  | cons c rest ih =>
      intro s s1 hn hf
      simp only [List.foldlM, Option.bind_eq_bind, Option.bind_eq_some] at hf
      obtain ⟨s2, ⟨contents, hcon, hadd⟩, hrest⟩ := hf
      obtain ⟨hk, hh, hsec, _⟩ := MachOHeader.linkeditContents_isCommand hcon
      obtain ⟨rfl, _⟩ := MachOSegment.AddContents_command hk hh hsec hn hadd
      obtain ⟨e1, e2, e3, e4, e5, e6, e7, e8⟩ := ih _ s1 (by simp [hn]) hrest
      refine ⟨?_, e2, e3, e4, e5, e6, e7, e8⟩
      rw [e1]
      simp [hcon]

/-- The link-edit segment that `FinalizeCommands` creates: an unplaced segment named
`__LINKEDIT` whose children are the contents nodes of the given commands and, for a
snapshot, of the code signature. -/
theorem MachOHeader.createLinkeditSegment_spec {h : MachOHeader}
    {commands : List MachOCommand} {s : MachOSegment}
    (hc : h.createLinkeditSegment commands = some s) :
    s.name_ = SEG_LINKEDIT ∧
      s.contents_.map some =
        (commands ++ Spec.signatureCommands h).map MachOHeader.linkeditContents ∧
      s.next_contents_index_ = s.contents_.length ∧
      s.file_offset_ = kLinearInitValue ∧ s.memory_address_ = kLinearInitValue ∧
      s.header_offset_ = kLinearInitValue := by
  unfold MachOHeader.createLinkeditSegment at hc
  simp only [Option.bind_eq_bind, Option.bind_eq_some] at hc
  obtain ⟨s0, h0, s1, h1, h2⟩ := hc
  have e0 : s0 = ⟨SEG_LINKEDIT, 0, VM_PROT_READ, VM_PROT_READ, [], kLinearInitValue,
      kLinearInitValue, kLinearInitValue⟩ := by
    have := MachOSegment.create_eq SEG_LINKEDIT VM_PROT_READ VM_PROT_READ (by decide)
      (by decide) (by decide)
    rw [this] at h0
    exact (Option.some.inj h0).symm
  subst e0
  obtain ⟨e1, e2, e3, e4, e5, e6, _, _⟩ := MachOHeader.foldlM_AddContents commands _ s1 rfl h1
  simp only [List.map_nil, List.nil_append] at e1 e3 e4 e5 e6
  unfold MachOHeader.addCodeSignature at h2
  by_cases ht : h.type_ = SnapshotType.Snapshot
  · simp only [ht, beq_self_eq_true, if_true, Option.bind_eq_some] at h2
    obtain ⟨contents, hcon, hadd⟩ := h2
    obtain ⟨hk, hh, hsec, _⟩ := MachOHeader.linkeditContents_isCommand hcon
    obtain ⟨rfl, _⟩ := MachOSegment.AddContents_command hk hh hsec e2 hadd
    refine ⟨e3, ?_, by simp [e2], e4, e5, e6⟩
    simp [Spec.signatureCommands, ht, e1, hcon]
  · have hb : (h.type_ == SnapshotType.Snapshot) = false := by simpa using ht
    simp only [hb, Bool.false_eq_true, if_false, Option.some.injEq] at h2
    subst h2
    refine ⟨e3, ?_, e2, e4, e5, e6⟩
    simp [Spec.signatureCommands, hb, e1]

theorem MachOHeader.updateTable_commands {h h1 : MachOHeader} {table : TableRef}
    {index_map : List Nat} (hu : h.updateTable table index_map = some h1) :
    h1.commands_ = h.commands_ ∧ h1.type_ = h.type_ ∧ h1.text_segment_ = h.text_segment_ ∧
      h1.file_offset_ = h.file_offset_ ∧ h1.memory_address_ = h.memory_address_ ∧
      h1.identifier_ = h.identifier_ ∧ h1.is_stripped_ = h.is_stripped_ := by
  simp only [MachOHeader.updateTable, Option.bind_eq_bind, Option.bind_eq_some] at hu
  obtain ⟨t, _, t1, _, hset⟩ := hu
  cases table with
  | full =>
      simp only [MachOHeader.setTable, Option.some.injEq] at hset
      subst hset
      simp
  | zone i =>
      simp only [MachOHeader.setTable] at hset
      split_ifs at hset
      simp only [Option.some.injEq] at hset
      subst hset
      simp

theorem MachOHeader.updateSectionIndices_commands {T : Target} {h h1 : MachOHeader}
    {index_map : List Nat} (hu : MachOHeader.updateSectionIndices T h index_map = some h1) :
    h1.commands_ = h.commands_ ∧ h1.type_ = h.type_ ∧ h1.text_segment_ = h.text_segment_ ∧
      h1.file_offset_ = h.file_offset_ ∧ h1.memory_address_ = h.memory_address_ ∧
      h1.identifier_ = h.identifier_ ∧ h1.is_stripped_ = h.is_stripped_ := by
  simp only [MachOHeader.updateSectionIndices, Option.bind_eq_some] at hu
  obtain ⟨h2, h2eq, hu⟩ := hu
  obtain ⟨a1, a2, a3, a4, a5, a6, a7⟩ := MachOHeader.updateTable_commands h2eq
  split at hu
  · cases hu
  · split_ifs at hu with hne hst
    · obtain ⟨b1, b2, b3, b4, b5, b6, b7⟩ := MachOHeader.updateTable_commands hu
      exact ⟨b1.trans a1, b2.trans a2, b3.trans a3, b4.trans a4, b5.trans a5, b6.trans a6,
        b7.trans a7⟩
    · cases hu
      exact ⟨a1, a2, a3, a4, a5, a6, a7⟩

theorem List.perm_insert1 {α : Type} {c : α} {l A R : List α} (h : List.Perm l (A ++ R)) :
    List.Perm (c :: l) (A ++ c :: R) :=
  (List.Perm.cons c h).trans List.perm_middle.symm

theorem List.perm_insert2 {α : Type} {c : α} {l A B R : List α}
    (h : List.Perm l (A ++ (B ++ R))) : List.Perm (c :: l) (A ++ (B ++ c :: R)) := by
  rw [← List.append_assoc] at h ⊢
  exact List.perm_insert1 h

theorem List.perm_insert3 {α : Type} {c : α} {l A B C R : List α}
    (h : List.Perm l (A ++ (B ++ (C ++ R)))) : List.Perm (c :: l) (A ++ (B ++ (C ++ c :: R))) := by
  rw [← List.append_assoc] at h ⊢
  exact List.perm_insert2 h

theorem List.perm_insert4 {α : Type} {c : α} {l A B C D R : List α}
    (h : List.Perm l (A ++ (B ++ (C ++ (D ++ R))))) :
    List.Perm (c :: l) (A ++ (B ++ (C ++ (D ++ c :: R)))) := by
  rw [← List.append_assoc] at h ⊢
  exact List.perm_insert3 h

/-- The commands split into the five bins of `FinalizeCommands`. -/
theorem Spec.partition_perm :
    ∀ commands : List MachOCommand,
      List.Perm commands
        (Spec.headerOnlyCommands commands ++
          (Spec.textSegments commands ++
            (Spec.symbolSegments commands ++
              (Spec.otherSegments commands ++ Spec.linkeditCommands commands)))) := by
  intro commands
  induction commands with
  | nil => exact List.Perm.refl _
  | cons c rest ih =>
      cases c with
      | segment s =>
          by_cases ht : s.HasName SEG_TEXT = true <;> by_cases hs : s.ContainsSymbols = true <;>
            simp only [Spec.headerOnlyCommands, Spec.linkeditCommands, Spec.symbolSegments,
              Spec.otherSegments, Spec.textSegments, Spec.isSymbolSegment, Spec.isOtherSegment, List.filter_cons,
              ht, hs, Bool.not_true, Bool.not_false, Bool.false_and, Bool.true_and,
              Bool.false_eq_true, if_false, if_true, List.cons_append] <;>
            first
              | exact List.perm_insert1 ih
              | exact List.perm_insert2 ih
              | exact List.perm_insert3 ih
      | other k x y z =>
          by_cases hh : (MachOCommand.other k x y z).HasContents = true <;>
            simp only [Spec.headerOnlyCommands, Spec.linkeditCommands, Spec.symbolSegments,
              Spec.otherSegments, Spec.textSegments, List.filter_cons,
              hh, Bool.not_true, Bool.not_false,
              Bool.false_eq_true, if_false, if_true, List.cons_append] <;>
            first
              | exact List.Perm.cons _ ih
              | exact List.perm_insert4 ih

theorem Spec.mem_segmentsFrom :
    ∀ (commands : List MachOCommand) (i p : Nat) (s : MachOSegment),
      (p, s) ∈ Spec.segmentsFrom i commands ↔
        i ≤ p ∧ commands.get? (p - i) = some (.segment s) := by
  intro commands
  induction commands with
  | nil => intro i p s; simp [Spec.segmentsFrom]
  | cons c rest ih =>
      intro i p s
      have hrest : (i + 1 ≤ p ∧ rest.get? (p - (i + 1)) = some (.segment s)) ↔
          (i < p ∧ (c :: rest).get? (p - i) = some (.segment s)) := by
        constructor
        · rintro ⟨h1, h2⟩
          refine ⟨h1, ?_⟩
          have : p - i = (p - (i + 1)) + 1 := by omega
          rw [this, List.get?_cons_succ]; exact h2
        · rintro ⟨h1, h2⟩
          refine ⟨h1, ?_⟩
          have : p - i = (p - (i + 1)) + 1 := by omega
          rw [this, List.get?_cons_succ] at h2; exact h2
      cases c with
      | segment s0 =>
          simp only [Spec.segmentsFrom, List.mem_cons, Prod.mk.injEq, ih, hrest]
          constructor
          · rintro (⟨rfl, rfl⟩ | ⟨h1, h2⟩)
            · simp
            · exact ⟨by omega, h2⟩
          · rintro ⟨h1, h2⟩
            rcases Nat.eq_or_lt_of_le h1 with rfl | hlt
            · left
              simp only [Nat.sub_self, List.get?_cons_zero, Option.some.injEq,
                MachOCommand.segment.injEq] at h2
              exact ⟨rfl, h2.symm⟩
            · right; exact ⟨hlt, h2⟩
      | other k x y z =>
          simp only [Spec.segmentsFrom, ih, hrest]
          constructor
          · rintro ⟨h1, h2⟩
            exact ⟨by omega, h2⟩
          · rintro ⟨h1, h2⟩
            rcases Nat.eq_or_lt_of_le h1 with rfl | hlt
            · simp at h2
            · exact ⟨hlt, h2⟩

/-- `AddContents` of the header: it becomes the first child, and the segment is the
first command. -/
theorem MachOSegment.AddContents_header {h : MachOHeader} {s s1 : MachOSegment} {b : Bool}
    (ha : s.AddContents h.asContents b = some s1) :
    s1 = Spec.withHeader h s ∧ b = true := by
  unfold MachOSegment.AddContents at ha
  simp only [MachOHeader.asContents, MachOContents.IsAllocated, MachOContents.IsMachOHeader,
    Bool.not_true, Bool.false_eq_true, if_false, if_true] at ha
  split_ifs at ha with hb
  simp only [Option.some.injEq] at ha
  subst ha
  exact ⟨rfl, by simpa using hb⟩

theorem Spec.symbolSegments_eq (commands : List MachOCommand) (i : Nat) :
    ((Spec.segmentsFrom i commands).filter fun ps => Spec.isSymbolSegment ps.2).map
        (fun ps => MachOCommand.segment ps.2) = Spec.symbolSegments commands :=
  Spec.segmentsFrom_map_filter Spec.isSymbolSegment commands i

theorem Spec.otherSegments_eq (commands : List MachOCommand) (i : Nat) :
    ((Spec.segmentsFrom i commands).filter fun ps => Spec.isOtherSegment ps.2).map
        (fun ps => MachOCommand.segment ps.2) = Spec.otherSegments commands :=
  Spec.segmentsFrom_map_filter Spec.isOtherSegment commands i

/-- The bins that `FinalizeCommands` starts from. -/
theorem MachOHeader.binCommands_init {ti : Nat} {commands : List MachOCommand}
    {bins : CommandBins}
    (hb : MachOHeader.binCommands ti
      { header_only_commands := [], symbol_segments := [], other_segments := [],
        linkedit_commands := [], section_info := [], num_sections := 0 } 0 commands =
        some bins) :
    bins.header_only_commands = Spec.headerOnlyCommands commands ∧
      bins.linkedit_commands = Spec.linkeditCommands commands ∧
      bins.symbol_segments =
        (Spec.segmentsFrom 0 commands).filter (fun ps => Spec.isSymbolSegment ps.2) ∧
      bins.other_segments =
        (Spec.segmentsFrom 0 commands).filter (fun ps => Spec.isOtherSegment ps.2) ∧
      bins.section_info = Spec.sectionInfoFrom 0 (Spec.segmentsFrom 0 commands) ∧
      bins.num_sections = ((Spec.segmentsFrom 0 commands).map fun ps => ps.2.NumSections).sum ∧
      (∀ ps ∈ Spec.segmentsFrom 0 commands, ps.2.HasName SEG_TEXT = true → ps.1 = ti) ∧
      (∀ c ∈ commands, (c.HasContents && c.file_offset_is_set) = false) := by
  have := MachOHeader.binCommands_spec ti commands _ 0 bins hb
  simpa using this

/-- The result of a successful `FinalizeCommands`. -/
theorem MachOHeader.FinalizeCommands_spec {T : Target} {h h1 : MachOHeader}
    (hg : MachOHeader.FinalizeCommands T h = some h1) :
    ∃ text linkedit bins,
      h.text_segment_ = some 0 ∧
      h.commands_.get? 0 = some (.segment text) ∧
      text.HasName SEG_TEXT = true ∧
      Spec.textSegments h.commands_ = [.segment text] ∧
      MachOHeader.binCommands 0
        { header_only_commands := [], symbol_segments := [], other_segments := [],
          linkedit_commands := [], section_info := [], num_sections := 0 } 0 h.commands_ =
          some bins ∧
      h.createLinkeditSegment (Spec.linkeditCommands h.commands_) = some linkedit ∧
      Spec.linkeditCommands h.commands_ ≠ [] ∧
      h1.commands_ = Spec.headerOnlyCommands h.commands_ ++
        (.segment (Spec.withHeader h text) :: (Spec.symbolSegments h.commands_ ++
          (Spec.otherSegments h.commands_ ++ (.segment linkedit ::
            (Spec.linkeditCommands h.commands_ ++ Spec.signatureCommands h))))) ∧
      h1.text_segment_ = some (Spec.headerOnlyCommands h.commands_).length ∧
      h.full_symtab_.UpdateSectionIndices
        (MachOHeader.mapSegments bins.section_info
          ([(0, Spec.withHeader h text)] ++ bins.symbol_segments ++ bins.other_segments ++
            [(h.commands_.length, linkedit)])
          (List.replicate (bins.num_sections + 1) NO_SECT) 1) = some h1.full_symtab_ ∧
      h1.type_ = h.type_ ∧ h1.file_offset_ = h.file_offset_ ∧
      h1.memory_address_ = h.memory_address_ ∧ h1.identifier_ = h.identifier_ ∧
      h1.is_stripped_ = h.is_stripped_ ∧
      (h.FindSegment SEG_LINKEDIT).isNone = true ∧
      h.HasCommand T LC_CODE_SIGNATURE = false := by
  unfold MachOHeader.FinalizeCommands at hg
  simp only [Option.bind_eq_bind, Option.pure_def, Option.bind_eq_some, ASSERT_eq_some] at hg
  obtain ⟨_, hnolink, _, hnosig, _, hlen, ti, hti, text, htext, bins, hbins, _, hne,
    linkedit, hlink, text1, hadd, hre⟩ := hg
  obtain ⟨rfl, hti0⟩ := MachOSegment.AddContents_header hadd
  have hti0 : ti = 0 := by simpa using hti0
  subst hti0
  obtain ⟨b1, b2, b3, b4, b5, b6, b7, b8⟩ := MachOHeader.binCommands_init hbins
  unfold MachOHeader.reorderCommands at hre
  simp only [Option.bind_eq_bind, Option.pure_def, Option.bind_eq_some, ASSERT_eq_some] at hre
  obtain ⟨_, hcount, _, _, _, _, hu⟩ := hre
  obtain ⟨u1, u2, u3, u4, u5, u6, u7⟩ := MachOHeader.updateSectionIndices_commands hu
  have hfull := MachOHeader.updateSectionIndices_some hu
  simp only at u1 u2 u3 u4 u5 u6 u7 hfull
  have hget : h.commands_.get? 0 = some (.segment text) := by
    simp only [MachOHeader.segmentAt?, Option.bind_eq_some] at htext
    obtain ⟨c, hc, hseg⟩ := htext
    cases c with
    | segment s =>
        simp only [MachOCommand.AsMachOSegment, Option.some.injEq] at hseg
        subst hseg; exact hc
    | other k x y z => simp [MachOCommand.AsMachOSegment] at hseg
  -- the length assertion: exactly one segment is named `__TEXT`
  have hperm := (Spec.partition_perm h.commands_).length_eq
  have hsym : bins.symbol_segments.length = (Spec.symbolSegments h.commands_).length := by
    rw [b3, ← Spec.symbolSegments_eq h.commands_ 0, List.length_map]
  have hoth : bins.other_segments.length = (Spec.otherSegments h.commands_).length := by
    rw [b4, ← Spec.otherSegments_eq h.commands_ 0, List.length_map]
  have hone : (Spec.textSegments h.commands_).length = 1 := by
    simp only [List.length_append] at hperm
    have hc2 := beq_iff_eq.1 hcount
    rw [b1, b2] at hc2
    by_cases ht : (h.type_ == SnapshotType.Snapshot) = true
    · rw [if_pos ht, if_pos ht] at hc2
      simp only [List.length_append, List.length_map, List.length_cons,
        List.length_nil, hsym, hoth] at hc2
      omega
    · rw [if_neg ht, if_neg ht] at hc2
      simp only [List.length_append, List.length_map, List.length_cons,
        List.length_nil, hsym, hoth] at hc2
      omega
  obtain ⟨c, hc⟩ := List.length_eq_one.1 hone
  have hmem : c ∈ Spec.textSegments h.commands_ := by rw [hc]; simp
  rw [Spec.textSegments, List.mem_filter] at hmem
  obtain ⟨hcmem, hcp⟩ := hmem
  have hct : c = .segment text ∧ text.HasName SEG_TEXT = true := by
    cases c with
    | segment s =>
        simp only at hcp
        obtain ⟨n, hn⟩ := List.mem_iff_get?.1 hcmem
        have hm : (n, s) ∈ Spec.segmentsFrom 0 h.commands_ :=
          (Spec.mem_segmentsFrom h.commands_ 0 n s).2 ⟨Nat.zero_le _, by simpa using hn⟩
        have hn0 : n = 0 := b7 (n, s) hm hcp
        subst hn0
        rw [hget] at hn
        simp only [Option.some.injEq, MachOCommand.segment.injEq] at hn
        subst hn
        exact ⟨rfl, hcp⟩
    | other k x y z => simp at hcp
  obtain ⟨rfl, htn⟩ := hct
  refine ⟨text, linkedit, bins, hti, hget, htn, hc, hbins, by rw [← b2]; exact hlink, ?_, ?_, ?_,
    hfull, u2, u4, u5, u6, u7, by simpa using hnolink, by simpa using hnosig⟩
  · rw [← b2]; intro hnil; simp [hnil] at hne
  · rw [u1, b1, b2]
    simp only [List.map_append, List.map_cons, List.map_nil, b3, b4,
      Spec.symbolSegments_eq, Spec.otherSegments_eq, Spec.signatureCommands]
    by_cases ht : (h.type_ == SnapshotType.Snapshot) = true
    · simp [ht]
    · simp [ht]
  · rw [u3, b1]

/-- C14: a successful `FinalizeCommands` replaces the command list by the header-only
commands in their original order, the text segment (with the header as its new first
child), the other segments that contain symbols in original order, the remaining segments
in original order, the newly created `__LINKEDIT` segment, which is the last segment, and
then the content-bearing commands that are no segments, followed by the code signature for
a snapshot; the children of `__LINKEDIT` are exactly the contents of those last commands,
in order. The original commands are a permutation of the bins, so each occurs exactly once
in the result, whose length is the old length plus 1, plus 1 more for a snapshot. -/
theorem C14_FinalizeCommands_order (T : Target) (h h1 : MachOHeader)
    (hfin : h.FinalizeCommands T = some h1) :
    ∃ text linkedit,
      h.text_segment_.bind h.segmentAt? = some text ∧ text.HasName SEG_TEXT = true ∧
      h.FindSegment SEG_LINKEDIT = none ∧ linkedit.HasName SEG_LINKEDIT = true ∧
      h1.commands_ =
        Spec.headerOnlyCommands h.commands_ ++ [.segment (Spec.withHeader h text)] ++
          Spec.symbolSegments h.commands_ ++ Spec.otherSegments h.commands_ ++
          [.segment linkedit] ++
          (Spec.linkeditCommands h.commands_ ++ Spec.signatureCommands h) ∧
      (∀ c ∈ Spec.linkeditCommands h.commands_ ++ Spec.signatureCommands h,
        c.AsMachOSegment = none) ∧
      linkedit.contents_.map some =
        (Spec.linkeditCommands h.commands_ ++ Spec.signatureCommands h).map
          MachOHeader.linkeditContents ∧
      List.Perm h.commands_
        (Spec.headerOnlyCommands h.commands_ ++ [.segment text] ++
          Spec.symbolSegments h.commands_ ++ Spec.otherSegments h.commands_ ++
          Spec.linkeditCommands h.commands_) ∧
      h1.commands_.length =
        h.commands_.length + 1 + (if h.type_ = SnapshotType.Snapshot then 1 else 0) := by
  obtain ⟨text, linkedit, bins, hti, hget, htn, htext, hbins, hlink, hne, hcmds, _, _, _, _, _,
    _, _, hnolink, _⟩ := MachOHeader.FinalizeCommands_spec hfin
  obtain ⟨l1, l2, _, _, _, _⟩ := MachOHeader.createLinkeditSegment_spec hlink
  have hperm := Spec.partition_perm h.commands_
  rw [htext] at hperm
  have hperm1 : List.Perm h.commands_
      (Spec.headerOnlyCommands h.commands_ ++ [.segment text] ++
        Spec.symbolSegments h.commands_ ++ Spec.otherSegments h.commands_ ++
        Spec.linkeditCommands h.commands_) := by
    simpa [List.append_assoc] using hperm
  refine ⟨text, linkedit, ?_, htn, ?_, ?_, ?_, ?_, l2, hperm1, ?_⟩
  · rw [hti, Option.some_bind, MachOHeader.segmentAt?, hget]; rfl
  · simpa using hnolink
  · simp [MachOSegment.HasName, l1]
  · rw [hcmds]; simp [List.append_assoc]
  · intro c hc
    have hsome : ∃ contents, MachOHeader.linkeditContents c = some contents := by
      have hm : MachOHeader.linkeditContents c ∈ linkedit.contents_.map some := by
        rw [l2]; exact List.mem_map_of_mem _ hc
      obtain ⟨contents, _, he⟩ := List.mem_map.1 hm
      exact ⟨contents, he.symm⟩
    obtain ⟨contents, hcon⟩ := hsome
    exact (MachOHeader.linkeditContents_isCommand hcon).2.2.2
  · rw [hcmds]
    have hl := hperm1.length_eq
    simp only [List.length_append, List.length_cons, List.length_nil] at hl ⊢
    by_cases ht : h.type_ = SnapshotType.Snapshot
    · simp only [Spec.signatureCommands, ht, beq_self_eq_true, if_true, List.length_cons,
        List.length_nil]
      omega
    · have hb : (h.type_ == SnapshotType.Snapshot) = false := by simpa using ht
      simp only [Spec.signatureCommands, hb, ht, Bool.false_eq_true, if_false, List.length_nil]
      omega

theorem C14_FinalizeCommands_order_witness :
    MachOHeader.sampleBeforeFinalizeCommands.FinalizeCommands Target.example64 =
        some MachOHeader.sampleBeforeOffsets ∧
      MachOHeader.sampleBeforeFinalizeCommands.commands_.map (fun c => c.cmd Target.example64) =
        [0x19, 0x1b, 0x19, 0x2, 0xb, 0x32, 0xd] ∧
      MachOHeader.sampleBeforeOffsets.commands_.map (fun c => c.cmd Target.example64) =
        [0x1b, 0x32, 0xd, 0x19, 0x19, 0x19, 0x2, 0xb, 0x1d] ∧
      MachOHeader.sampleBeforeOffsets.commands_.length =
        MachOHeader.sampleBeforeFinalizeCommands.commands_.length + 1 +
          (if MachOHeader.sampleBeforeFinalizeCommands.type_ = SnapshotType.Snapshot then 1
           else 0) :=
  ⟨by decide, by decide, by decide,
    (C14_FinalizeCommands_order Target.example64 MachOHeader.sampleBeforeFinalizeCommands
      MachOHeader.sampleBeforeOffsets (by decide)).elim fun _ hx => hx.elim fun _ hy =>
        hy.2.2.2.2.2.2.2.2⟩

theorem MachOSegment.NumSections_sections (s : MachOSegment) :
    s.NumSections = (s.contents_.filter MachOContents.IsMachOSection).length := by
  unfold MachOSegment.NumSections
  congr 1

/-- The writes of the inner loop of `FinalizeCommands`. -/
theorem MachOHeader.mapSections_spec (st : Nat) :
    ∀ (count i : Nat) (m : List Nat) (cur : Nat),
      (MachOHeader.mapSections st count i m cur).2 = cur + count ∧
      (MachOHeader.mapSections st count i m cur).1.length = m.length ∧
      ∀ x, (MachOHeader.mapSections st count i m cur).1.getD x 0 =
        if st + i ≤ x ∧ x < st + i + count ∧ x < m.length then cur + (x - (st + i))
        else m.getD x 0 := by
  intro count
  induction count with
  | zero =>
      intro i m cur
      refine ⟨rfl, rfl, ?_⟩
      intro x
      have : ¬ (st + i ≤ x ∧ x < st + i + 0 ∧ x < m.length) := by omega
      simp only [MachOHeader.mapSections, this, if_false]
  | succ count ih =>
      intro i m cur
      obtain ⟨e1, e2, e3⟩ := ih (i + 1) (m.set (st + i) cur) (cur + 1)
      refine ⟨?_, ?_, ?_⟩
      · simp only [MachOHeader.mapSections, e1]; omega
      · simp only [MachOHeader.mapSections, e2, List.length_set]
      · intro x
        simp only [MachOHeader.mapSections, e3, List.length_set]
        simp only [List.getD_eq_getElem?_getD, List.getElem?_set]
        by_cases hx : st + i = x
        · subst hx
          by_cases hl : st + i < m.length
          · have h1 : ¬ (st + (i + 1) ≤ st + i ∧ st + i < st + (i + 1) + count ∧
                st + i < m.length) := by omega
            have h2 : st + i ≤ st + i ∧ st + i < st + i + (count + 1) ∧ st + i < m.length := by
              omega
            simp [h1, h2, hl]
          · have h1 : ¬ (st + (i + 1) ≤ st + i ∧ st + i < st + (i + 1) + count ∧
                st + i < m.length) := by omega
            have h2 : ¬ (st + i ≤ st + i ∧ st + i < st + i + (count + 1) ∧
                st + i < m.length) := by omega
            have h3 : m[st + i]? = none := List.getElem?_eq_none (by omega)
            simp [h1, h2, hl, h3]
        · by_cases hc : st + (i + 1) ≤ x ∧ x < st + (i + 1) + count ∧ x < m.length
          · have h2 : st + i ≤ x ∧ x < st + i + (count + 1) ∧ x < m.length := by omega
            rw [if_pos hc, if_pos h2]; omega
          · have h2 : ¬ (st + i ≤ x ∧ x < st + i + (count + 1) ∧ x < m.length) := by omega
            rw [if_neg hc, if_neg h2, if_neg hx]

namespace Spec

theorem sectionInfoFrom_keys :
    ∀ (segments : List (Nat × MachOSegment)) (n : Nat) (kv : Nat × Nat × Nat),
      kv ∈ sectionInfoFrom n segments → kv.1 ∈ segments.map Prod.fst := by
  intro segments
  induction segments with
  | nil => intro n kv h; simp [sectionInfoFrom] at h
  | cons ps rest ih =>
      intro n kv h
      rcases ps with ⟨q, s⟩
      simp only [sectionInfoFrom] at h
      split_ifs at h with hc
      · simp only [List.mem_cons] at h
        rcases h with rfl | h
        · simp
        · simp only [List.map_cons, List.mem_cons]; right; exact ih _ _ h
      · simp only [List.map_cons, List.mem_cons]; right; exact ih _ _ h

theorem sectionInfoFrom_find_none (segments : List (Nat × MachOSegment)) (n p : Nat)
    (hp : p ∉ segments.map Prod.fst) :
    (sectionInfoFrom n segments).find? (fun kv => kv.1 == p) = none := by
  rw [List.find?_eq_none]
  intro kv hkv hk
  have := sectionInfoFrom_keys segments n kv hkv
  have hk : kv.1 = p := by simpa using hk
  rw [hk] at this
  exact hp this

/-- The entry of `section_info` for a segment: its section count and the number of the
sections before it, plus 1; none if it has no sections. -/
theorem sectionInfoFrom_find :
    ∀ (segments : List (Nat × MachOSegment)) (n p : Nat) (s : MachOSegment),
      (segments.map Prod.fst).Nodup → (p, s) ∈ segments →
      (sectionInfoFrom n segments).find? (fun kv => kv.1 == p) =
        if s.NumSections = 0 then none
        else some (p, s.NumSections, n + countBefore segments p + 1) := by
  intro segments
  induction segments with
  | nil => intro n p s _ h; simp at h
  | cons ps rest ih =>
      intro n p s hnd hmem
      rcases ps with ⟨q, t⟩
      simp only [List.map_cons, List.nodup_cons] at hnd
      obtain ⟨hq, hnd⟩ := hnd
      simp only [List.mem_cons, Prod.mk.injEq] at hmem
      by_cases hqp : q = p
      · subst hqp
        have hst : s = t := by
          rcases hmem with ⟨_, h⟩ | h
          · exact h
          · exact absurd (List.mem_map_of_mem Prod.fst h) hq
        subst hst
        by_cases hc : s.NumSections = 0
        · simp only [sectionInfoFrom, hc, bne_self_eq_false, Bool.false_eq_true, if_false,
            if_true]
          exact sectionInfoFrom_find_none rest n q hq
        · have hne : (s.NumSections != 0) = true := by simpa using hc
          simp [sectionInfoFrom, hne, hc, countBefore, List.find?_cons]
      · have hmem1 : (p, s) ∈ rest := by
          rcases hmem with ⟨h, _⟩ | h
          · exact absurd h.symm hqp
          · exact h
        have hbeq : (q == p) = false := by simpa using hqp
        by_cases hc : t.NumSections = 0
        · simp only [sectionInfoFrom, hc, bne_self_eq_false, Bool.false_eq_true, if_false]
          rw [ih n p s hnd hmem1]
          simp [countBefore, hqp, hc]
        · have hne : (t.NumSections != 0) = true := by simpa using hc
          simp only [sectionInfoFrom, hne, if_true, List.find?_cons, hbeq]
          rw [ih (n + t.NumSections) p s hnd hmem1]
          simp [countBefore, hqp, Nat.add_assoc]

/-- The sections of a listed segment are where `countBefore` says. -/
theorem sectionsOf_get :
    ∀ (segments : List (Nat × MachOSegment)) (p : Nat) (s : MachOSegment),
      (segments.map Prod.fst).Nodup → (p, s) ∈ segments →
      ∀ j, j < s.NumSections →
        (sectionsOf segments).get? (countBefore segments p + j) =
          (s.contents_.filter MachOContents.IsMachOSection).get? j := by
  intro segments
  induction segments with
  | nil => intro p s _ h; simp at h
  | cons ps rest ih =>
      intro p s hnd hmem j hj
      rcases ps with ⟨q, t⟩
      simp only [List.map_cons, List.nodup_cons] at hnd
      obtain ⟨hq, hnd⟩ := hnd
      simp only [List.mem_cons, Prod.mk.injEq] at hmem
      by_cases hqp : q = p
      · subst hqp
        have hst : s = t := by
          rcases hmem with ⟨_, h⟩ | h
          · exact h
          · exact absurd (List.mem_map_of_mem Prod.fst h) hq
        subst hst
        rw [MachOSegment.NumSections_sections] at hj
        simp only [sectionsOf, countBefore, if_true, Nat.zero_add, List.get?_eq_getElem?]
        rw [List.getElem?_append_left hj]
      · have hmem1 : (p, s) ∈ rest := by
          rcases hmem with ⟨h, _⟩ | h
          · exact absurd h.symm hqp
          · exact h
        have := ih p s hnd hmem1 j hj
        simp only [sectionsOf, countBefore, hqp, if_false, List.get?_eq_getElem?] at this ⊢
        rw [List.getElem?_append_right (by rw [MachOSegment.NumSections_sections]; omega)]
        rw [← this]
        congr 1
        rw [MachOSegment.NumSections_sections]; omega

theorem sectionsOf_length :
    ∀ (segments : List (Nat × MachOSegment)),
      (sectionsOf segments).length = (segments.map fun ps => ps.2.NumSections).sum := by
  intro segments
  induction segments with
  | nil => rfl
  | cons ps rest ih =>
      simp [sectionsOf, ih, MachOSegment.NumSections_sections]

/-- The block of a listed segment lies within the sections. -/
theorem countBefore_le :
    ∀ (segments : List (Nat × MachOSegment)) (p : Nat) (s : MachOSegment),
      (segments.map Prod.fst).Nodup → (p, s) ∈ segments →
      countBefore segments p + s.NumSections ≤ (sectionsOf segments).length := by
  intro segments
  induction segments with
  | nil => intro p s _ h; simp at h
  | cons ps rest ih =>
      intro p s hnd hmem
      rcases ps with ⟨q, t⟩
      simp only [List.map_cons, List.nodup_cons] at hnd
      obtain ⟨hq, hnd⟩ := hnd
      simp only [List.mem_cons, Prod.mk.injEq] at hmem
      by_cases hqp : q = p
      · subst hqp
        have hst : s = t := by
          rcases hmem with ⟨_, h⟩ | h
          · exact h
          · exact absurd (List.mem_map_of_mem Prod.fst h) hq
        subst hst
        simp [sectionsOf, countBefore, MachOSegment.NumSections_sections]
      · have hmem1 : (p, s) ∈ rest := by
          rcases hmem with ⟨h, _⟩ | h
          · exact absurd h.symm hqp
          · exact h
        have := ih p s hnd hmem1
        simp only [sectionsOf, countBefore, hqp, if_false, List.length_append,
          MachOSegment.NumSections_sections] at this ⊢
        omega

/-- The blocks of two listed segments are disjoint. -/
theorem countBefore_disjoint :
    ∀ (segments : List (Nat × MachOSegment)) (p q : Nat) (s t : MachOSegment),
      (segments.map Prod.fst).Nodup → (p, s) ∈ segments → (q, t) ∈ segments → p ≠ q →
      countBefore segments p + s.NumSections ≤ countBefore segments q ∨
        countBefore segments q + t.NumSections ≤ countBefore segments p := by
  intro segments
  induction segments with
  | nil => intro p q s t _ h; simp at h
  | cons ps rest ih =>
      intro p q s t hnd hp hq hpq
      rcases ps with ⟨r, u⟩
      simp only [List.map_cons, List.nodup_cons] at hnd
      obtain ⟨hr, hnd⟩ := hnd
      simp only [List.mem_cons, Prod.mk.injEq] at hp hq
      by_cases hrp : r = p
      · subst hrp
        have hsu : s = u := by
          rcases hp with ⟨_, h⟩ | h
          · exact h
          · exact absurd (List.mem_map_of_mem Prod.fst h) hr
        subst hsu
        left
        simp [countBefore, hpq]
      · by_cases hrq : r = q
        · subst hrq
          have htu : t = u := by
            rcases hq with ⟨_, h⟩ | h
            · exact h
            · exact absurd (List.mem_map_of_mem Prod.fst h) hr
          subst htu
          right
          simp [countBefore, hrp]
        · have hp1 : (p, s) ∈ rest := by
            rcases hp with ⟨h, _⟩ | h
            · exact absurd h.symm hrp
            · exact h
          have hq1 : (q, t) ∈ rest := by
            rcases hq with ⟨h, _⟩ | h
            · exact absurd h.symm hrq
            · exact h
          have := ih p q s t hnd hp1 hq1 hpq
          simp only [countBefore, hrp, hrq, if_false]
          omega

/-- Every section lies in the block of a listed segment. -/
theorem countBefore_cover :
    ∀ (segments : List (Nat × MachOSegment)) (x : Nat),
      (segments.map Prod.fst).Nodup → x < (sectionsOf segments).length →
      ∃ p s j, (p, s) ∈ segments ∧ j < s.NumSections ∧ x = countBefore segments p + j := by
  intro segments
  induction segments with
  | nil => intro x _ h; simp [sectionsOf] at h
  | cons ps rest ih =>
      intro x hnd hx
      rcases ps with ⟨r, u⟩
      simp only [List.map_cons, List.nodup_cons] at hnd
      obtain ⟨hr, hnd⟩ := hnd
      simp only [sectionsOf, List.length_append, ← MachOSegment.NumSections_sections] at hx
      by_cases hlt : x < u.NumSections
      · exact ⟨r, u, x, by simp, hlt, by simp [countBefore]⟩
      · obtain ⟨p, s, j, hm, hj, he⟩ := ih (x - u.NumSections) hnd (by omega)
        refine ⟨p, s, j, List.mem_cons_of_mem _ hm, hj, ?_⟩
        have hrp : r ≠ p := by
          intro h; subst h
          exact hr (List.mem_map_of_mem Prod.fst hm)
        simp only [countBefore, hrp, if_false]
        omega

end Spec

/-- The loop of `FinalizeCommands` over the segments in final order `K`, for the
`section_info` of the segments in old order `L`: the block of every segment of `K` is
numbered from the number of sections before it in `K`, and nothing else is written. -/
theorem MachOHeader.mapSegments_spec (L : List (Nat × MachOSegment))
    (hL : (L.map Prod.fst).Nodup) :
    ∀ (K : List (Nat × MachOSegment)) (m : List Nat) (cur : Nat),
      (K.map Prod.fst).Nodup →
      (∀ ps ∈ K, (∃ s, (ps.1, s) ∈ L ∧ ps.2.NumSections = s.NumSections) ∨
        (ps.1 ∉ L.map Prod.fst ∧ ps.2.NumSections = 0)) →
      (Spec.sectionsOf L).length + 1 ≤ m.length →
      (MachOHeader.mapSegments (Spec.sectionInfoFrom 0 L) K m cur).length = m.length ∧
      (∀ x, (∀ ps ∈ K, ¬ (Spec.countBefore L ps.1 + 1 ≤ x ∧
            x < Spec.countBefore L ps.1 + 1 + ps.2.NumSections)) →
          (MachOHeader.mapSegments (Spec.sectionInfoFrom 0 L) K m cur).getD x 0 = m.getD x 0) ∧
      (∀ ps ∈ K, ∀ j, j < ps.2.NumSections →
          (MachOHeader.mapSegments (Spec.sectionInfoFrom 0 L) K m cur).getD
              (Spec.countBefore L ps.1 + 1 + j) 0 =
            cur + Spec.countBefore K ps.1 + j) := by
  intro K
  induction K with
  | nil =>
      intro m cur _ _ _
      refine ⟨rfl, fun _ _ => rfl, ?_⟩
      intro ps hps; simp at hps
  | cons hd rest ih =>
      intro m cur hnd hK hlen
      rcases hd with ⟨p, s1⟩
      simp only [List.map_cons, List.nodup_cons] at hnd
      obtain ⟨hp, hnd⟩ := hnd
      have hKrest : ∀ ps ∈ rest, (∃ s, (ps.1, s) ∈ L ∧ ps.2.NumSections = s.NumSections) ∨
          (ps.1 ∉ L.map Prod.fst ∧ ps.2.NumSections = 0) :=
        fun ps hps => hK ps (List.mem_cons_of_mem _ hps)
      -- the step for the head, in one form for all cases
      have hstep : MachOHeader.mapSegments (Spec.sectionInfoFrom 0 L) ((p, s1) :: rest) m cur =
          MachOHeader.mapSegments (Spec.sectionInfoFrom 0 L) rest
            (MachOHeader.mapSections (Spec.countBefore L p + 1) s1.NumSections 0 m cur).1
            (MachOHeader.mapSections (Spec.countBefore L p + 1) s1.NumSections 0 m cur).2 := by
        rcases hK (p, s1) (List.mem_cons_self _ _) with ⟨s, hs, hn⟩ | ⟨hnot, hz⟩
        · simp only at hs hn
          have hf := Spec.sectionInfoFrom_find L 0 p s hL hs
          by_cases hc : s.NumSections = 0
          · rw [if_pos hc] at hf
            simp only [MachOHeader.mapSegments, hf, hn, hc, MachOHeader.mapSections]
          · rw [if_neg hc] at hf
            simp only [MachOHeader.mapSegments, hf, hn, Nat.zero_add]
        · simp only at hnot hz
          have hf := Spec.sectionInfoFrom_find_none L 0 p hnot
          simp only [MachOHeader.mapSegments, hf, hz, MachOHeader.mapSections]
      obtain ⟨r2, rlen, rget⟩ :=
        MachOHeader.mapSections_spec (Spec.countBefore L p + 1) s1.NumSections 0 m cur
      simp only [Nat.add_zero] at rget
      obtain ⟨i1, i2, i3⟩ := ih
        (MachOHeader.mapSections (Spec.countBefore L p + 1) s1.NumSections 0 m cur).1
        (MachOHeader.mapSections (Spec.countBefore L p + 1) s1.NumSections 0 m cur).2
        hnd hKrest (by rw [rlen]; exact hlen)
      rw [hstep]
      refine ⟨i1.trans rlen, ?_, ?_⟩
      · intro x hx
        rw [i2 x (fun ps hps => hx ps (List.mem_cons_of_mem _ hps)), rget x]
        have := hx (p, s1) (List.mem_cons_self _ _)
        simp only at this
        rw [if_neg (by omega)]
      · intro ps hps j hj
        simp only [List.mem_cons] at hps
        rcases hps with rfl | hps
        · -- the head: its block is not written again
          have hj : j < s1.NumSections := hj
          simp only
          have hnotin : ∀ qs ∈ rest, ¬ (Spec.countBefore L qs.1 + 1 ≤ Spec.countBefore L p + 1 + j ∧
              Spec.countBefore L p + 1 + j < Spec.countBefore L qs.1 + 1 + qs.2.NumSections) := by
            intro qs hqs hin
            have hqp : p ≠ qs.1 := by
              intro he
              exact hp (he ▸ List.mem_map_of_mem Prod.fst hqs)
            rcases hK (p, s1) (List.mem_cons_self _ _) with ⟨s, hs, hn⟩ | ⟨_, hz⟩
            · rcases hKrest qs hqs with ⟨t, ht, hnt⟩ | ⟨_, hz⟩
              · simp only at hs hn
                have := Spec.countBefore_disjoint L p qs.1 s t hL hs ht hqp
                omega
              · omega
            · simp only at hz; omega
          rw [i2 _ hnotin, rget]
          have hin : Spec.countBefore L p + 1 ≤ Spec.countBefore L p + 1 + j ∧
              Spec.countBefore L p + 1 + j < Spec.countBefore L p + 1 + s1.NumSections ∧
              Spec.countBefore L p + 1 + j < m.length := by
            refine ⟨by omega, by omega, ?_⟩
            rcases hK (p, s1) (List.mem_cons_self _ _) with ⟨s, hs, hn⟩ | ⟨_, hz⟩
            · simp only at hs hn
              have := Spec.countBefore_le L p s hL hs
              omega
            · simp only at hz; omega
          rw [if_pos hin]
          simp [Spec.countBefore]
        · have hne : p ≠ ps.1 := by
            intro he
            exact hp (he ▸ List.mem_map_of_mem Prod.fst hps)
          rw [i3 ps hps j hj, r2]
          simp only [Spec.countBefore, hne, if_false]
          omega

namespace Spec

theorem segmentsFrom_key_bounds {commands : List MachOCommand} {i p : Nat} {s : MachOSegment}
    (h : (p, s) ∈ segmentsFrom i commands) : i ≤ p ∧ p < i + commands.length := by
  obtain ⟨h1, h2⟩ := (mem_segmentsFrom commands i p s).1 h
  refine ⟨h1, ?_⟩
  have : p - i < commands.length := by
    by_contra hc
    rw [List.get?_eq_none.2 (by omega)] at h2
    cases h2
  omega

theorem segmentsFrom_nodup :
    ∀ (commands : List MachOCommand) (i : Nat),
      ((segmentsFrom i commands).map Prod.fst).Nodup := by
  intro commands
  induction commands with
  | nil => intro i; simp [segmentsFrom]
  | cons c rest ih =>
      intro i
      cases c with
      | segment s =>
          simp only [segmentsFrom, List.map_cons, List.nodup_cons]
          refine ⟨?_, ih (i + 1)⟩
          intro hmem
          obtain ⟨ps, hps, he⟩ := List.mem_map.1 hmem
          rcases ps with ⟨p, t⟩
          have := (segmentsFrom_key_bounds hps).1
          simp only at he
          omega
      | other k x y z => simpa [segmentsFrom] using ih (i + 1)

theorem key_unique {segments : List (Nat × MachOSegment)} {p : Nat} {s t : MachOSegment}
    (hnd : (segments.map Prod.fst).Nodup) (hs : (p, s) ∈ segments) (ht : (p, t) ∈ segments) :
    s = t := by
  induction segments with
  | nil => simp at hs
  | cons ps rest ih =>
      rcases ps with ⟨q, u⟩
      simp only [List.map_cons, List.nodup_cons] at hnd
      obtain ⟨hq, hnd⟩ := hnd
      simp only [List.mem_cons, Prod.mk.injEq] at hs ht
      rcases hs with ⟨rfl, rfl⟩ | hs
      · rcases ht with ⟨_, rfl⟩ | ht
        · rfl
        · exact absurd (List.mem_map_of_mem Prod.fst ht) hq
      · rcases ht with ⟨rfl, rfl⟩ | ht
        · exact absurd (List.mem_map_of_mem Prod.fst hs) hq
        · exact ih hnd hs ht

theorem sectionContents_eq :
    ∀ (commands : List MachOCommand) (i : Nat),
      (MachOHeader.allContents commands).filter MachOContents.IsMachOSection =
        sectionsOf (segmentsFrom i commands) := by
  intro commands
  induction commands with
  | nil => intro i; rfl
  | cons c rest ih =>
      intro i
      cases c with
      | segment s =>
          simp only [MachOHeader.allContents, segmentsFrom, sectionsOf, List.filter_append,
            ih (i + 1)]
      | other k x y z =>
          simp only [MachOHeader.allContents, segmentsFrom, ih (i + 1)]

theorem sectionsOf_append :
    ∀ (a b : List (Nat × MachOSegment)), sectionsOf (a ++ b) = sectionsOf a ++ sectionsOf b := by
  intro a
  induction a with
  | nil => intro b; rfl
  | cons ps rest ih => intro b; simp [sectionsOf, ih]

theorem allContents_append :
    ∀ (a b : List MachOCommand),
      MachOHeader.allContents (a ++ b) =
        MachOHeader.allContents a ++ MachOHeader.allContents b := by
  intro a
  induction a with
  | nil => intro b; rfl
  | cons c rest ih =>
      intro b
      cases c <;> simp [MachOHeader.allContents, ih]

theorem allContents_nonsegments :
    ∀ (a : List MachOCommand), (∀ c ∈ a, c.AsMachOSegment = none) →
      MachOHeader.allContents a = [] := by
  intro a
  induction a with
  | nil => intro _; rfl
  | cons c rest ih =>
      intro h
      cases c with
      | segment s =>
          have := h (.segment s) (List.mem_cons_self _ _)
          simp [MachOCommand.AsMachOSegment] at this
      | other k x y z =>
          simp only [MachOHeader.allContents]
          exact ih fun c hc => h c (List.mem_cons_of_mem _ hc)

theorem allContents_segments :
    ∀ (segments : List (Nat × MachOSegment)),
      (MachOHeader.allContents
          (segments.map fun ps => MachOCommand.segment ps.2)).filter
          MachOContents.IsMachOSection = sectionsOf segments := by
  intro segments
  induction segments with
  | nil => rfl
  | cons ps rest ih =>
      simp only [List.map_cons, MachOHeader.allContents, List.filter_append, ih, sectionsOf]

/-- The segments split into those named `__TEXT`, those with symbols and the others. -/
theorem segments_perm :
    ∀ segments : List (Nat × MachOSegment),
      List.Perm segments
        (segments.filter (fun ps => ps.2.HasName SEG_TEXT) ++
          (segments.filter (fun ps => isSymbolSegment ps.2) ++
            segments.filter (fun ps => isOtherSegment ps.2))) := by
  intro segments
  induction segments with
  | nil => exact List.Perm.refl _
  | cons ps rest ih =>
      rcases ps with ⟨p, s⟩
      by_cases ht : s.HasName SEG_TEXT = true <;> by_cases hs : s.ContainsSymbols = true <;>
        simp only [isSymbolSegment, isOtherSegment, List.filter_cons,
          ht, hs, Bool.not_true, Bool.not_false, Bool.false_and, Bool.true_and,
          Bool.false_eq_true, if_false, if_true, List.cons_append] <;>
        first
          | exact List.Perm.cons _ ih
          | exact List.perm_insert1 ih
          | exact List.perm_insert2 ih

theorem headerOnlyCommands_nonsegments (commands : List MachOCommand) :
    ∀ c ∈ headerOnlyCommands commands, c.AsMachOSegment = none := by
  intro c hc
  simp only [headerOnlyCommands, List.mem_filter] at hc
  cases c with
  | segment s => simp at hc
  | other k x y z => rfl

theorem linkeditCommands_nonsegments (commands : List MachOCommand) :
    ∀ c ∈ linkeditCommands commands, c.AsMachOSegment = none := by
  intro c hc
  simp only [linkeditCommands, List.mem_filter] at hc
  cases c with
  | segment s => simp at hc
  | other k x y z => rfl

theorem signatureCommands_nonsegments (h : MachOHeader) :
    ∀ c ∈ signatureCommands h, c.AsMachOSegment = none := by
  intro c hc
  simp only [signatureCommands] at hc
  split_ifs at hc
  · simp only [List.mem_singleton] at hc
    subst hc; rfl
  · simp at hc

theorem withHeader_sections (h : MachOHeader) (s : MachOSegment) :
    (withHeader h s).contents_.filter MachOContents.IsMachOSection =
      s.contents_.filter MachOContents.IsMachOSection := by
  simp [withHeader, MachOHeader.asContents, List.filter_cons, MachOContents.IsMachOSection]

theorem withHeader_NumSections (h : MachOHeader) (s : MachOSegment) :
    (withHeader h s).NumSections = s.NumSections := by
  rw [MachOSegment.NumSections_sections, MachOSegment.NumSections_sections, withHeader_sections]

end Spec

/-- The link-edit segment has no sections. -/
theorem MachOHeader.createLinkeditSegment_sections {h : MachOHeader}
    {commands : List MachOCommand} {s : MachOSegment}
    (hc : h.createLinkeditSegment commands = some s) :
    s.contents_.filter MachOContents.IsMachOSection = [] := by
  obtain ⟨_, h2, _⟩ := MachOHeader.createLinkeditSegment_spec hc
  rw [List.filter_eq_nil_iff]
  intro c hmem
  have hm : some c ∈ s.contents_.map some := List.mem_map_of_mem _ hmem
  rw [h2] at hm
  obtain ⟨cmd, _, he⟩ := List.mem_map.1 hm
  have := (MachOHeader.linkeditContents_isCommand he).2.2.1
  simp [this]

namespace Spec

theorem sectionsOf_perm_length {a b : List (Nat × MachOSegment)} (h : List.Perm a b) :
    (sectionsOf a).length = (sectionsOf b).length := by
  induction h with
  | nil => rfl
  | cons x _ ih => simp [sectionsOf, ih]
  | swap x y l => simp [sectionsOf]; omega
  | trans _ _ ih1 ih2 => exact ih1.trans ih2

/-- The segments named `__TEXT` of a header that `FinalizeCommands` accepts. -/
theorem filter_text {commands : List MachOCommand} {text : MachOSegment}
    (htext : textSegments commands = [.segment text])
    (hpos : ∀ ps ∈ segmentsFrom 0 commands, ps.2.HasName SEG_TEXT = true → ps.1 = 0) :
    (segmentsFrom 0 commands).filter (fun ps => ps.2.HasName SEG_TEXT) = [(0, text)] := by
  have e : ((segmentsFrom 0 commands).filter (fun ps => ps.2.HasName SEG_TEXT)).map
      (fun ps => MachOCommand.segment ps.2) = textSegments commands :=
    segmentsFrom_map_filter (fun s => s.HasName SEG_TEXT) commands 0
  rw [htext] at e
  cases hf : (segmentsFrom 0 commands).filter (fun ps => ps.2.HasName SEG_TEXT) with
  | nil => rw [hf] at e; simp at e
  | cons a rest =>
      rw [hf] at e
      simp only [List.map_cons, List.cons.injEq, MachOCommand.segment.injEq, List.map_eq_nil_iff]
        at e
      obtain ⟨ha, hrest⟩ := e
      subst hrest
      have hmem : a ∈ (segmentsFrom 0 commands).filter (fun ps => ps.2.HasName SEG_TEXT) := by
        rw [hf]; simp
      rw [List.mem_filter] at hmem
      have h0 := hpos a hmem.1 (by simpa using hmem.2)
      rcases a with ⟨k, s⟩
      simp only at ha h0
      subst ha; subst h0
      rfl

end Spec

/-- The index map of a successful `FinalizeCommands`, block by block: with the segments in
old order `L` and in final order `K`, the sections of the segment of old position `p` are
numbered from the number of sections before it in `K`, plus 1. -/
theorem MachOHeader.FinalizeCommands_index_map {T : Target} {h h1 : MachOHeader}
    (hg : MachOHeader.FinalizeCommands T h = some h1) :
    ∃ text linkedit bins,
      MachOHeader.binCommands 0
        { header_only_commands := [], symbol_segments := [], other_segments := [],
          linkedit_commands := [], section_info := [], num_sections := 0 } 0 h.commands_ =
          some bins ∧
      [(0, Spec.withHeader h text)] ++ bins.symbol_segments ++ bins.other_segments ++
          [(h.commands_.length, linkedit)] = Spec.finalSegments h text linkedit ∧
      bins.num_sections = h.NumSections ∧
      h.full_symtab_.UpdateSectionIndices
        (MachOHeader.mapSegments bins.section_info (Spec.finalSegments h text linkedit)
          (List.replicate (bins.num_sections + 1) NO_SECT) 1) = some h1.full_symtab_ ∧
      ((Spec.finalSegments h text linkedit).map Prod.fst).Nodup ∧
      h.sectionContents = Spec.sectionsOf (Spec.segmentsFrom 0 h.commands_) ∧
      h1.sectionContents = Spec.sectionsOf (Spec.finalSegments h text linkedit) ∧
      h1.sectionContents.length = h.sectionContents.length ∧
      (∀ ps ∈ Spec.segmentsFrom 0 h.commands_, ∃ s1,
        (ps.1, s1) ∈ Spec.finalSegments h text linkedit ∧
        s1.contents_.filter MachOContents.IsMachOSection =
          ps.2.contents_.filter MachOContents.IsMachOSection) ∧
      (MachOHeader.mapSegments bins.section_info (Spec.finalSegments h text linkedit)
          (List.replicate (bins.num_sections + 1) NO_SECT) 1).length = h.NumSections + 1 ∧
      (MachOHeader.mapSegments bins.section_info (Spec.finalSegments h text linkedit)
          (List.replicate (bins.num_sections + 1) NO_SECT) 1).getD 0 0 = 0 ∧
      (∀ ps ∈ Spec.segmentsFrom 0 h.commands_, ∀ j, j < ps.2.NumSections →
        (MachOHeader.mapSegments bins.section_info (Spec.finalSegments h text linkedit)
          (List.replicate (bins.num_sections + 1) NO_SECT) 1).getD
            (Spec.countBefore (Spec.segmentsFrom 0 h.commands_) ps.1 + 1 + j) 0 =
          Spec.countBefore (Spec.finalSegments h text linkedit) ps.1 + 1 + j) := by
  obtain ⟨text, linkedit, bins, hti, hget, htn, htext, hbins, hlink, hne, hcmds, _, hfull, _, _,
    _, _, _, _, _⟩ := MachOHeader.FinalizeCommands_spec hg
  obtain ⟨b1, b2, b3, b4, b5, b6, b7, b8⟩ := MachOHeader.binCommands_init hbins
  have hL := Spec.segmentsFrom_nodup h.commands_ 0
  have hfT := Spec.filter_text htext b7
  have hKeq : [(0, Spec.withHeader h text)] ++ bins.symbol_segments ++ bins.other_segments ++
      [(h.commands_.length, linkedit)] = Spec.finalSegments h text linkedit := by
    rw [b3, b4]; rfl
  have hperm := Spec.segments_perm (Spec.segmentsFrom 0 h.commands_)
  rw [hfT] at hperm
  have hmemText : (0, text) ∈ Spec.segmentsFrom 0 h.commands_ :=
    hperm.mem_iff.2 (by simp)
  have hlinkSec := MachOHeader.createLinkeditSegment_sections hlink
  -- the keys of the final order
  have hKkeys : (Spec.finalSegments h text linkedit).map Prod.fst =
      List.map Prod.fst ([(0, text)] ++
        (List.filter (fun ps : Nat × MachOSegment => Spec.isSymbolSegment ps.2)
            (Spec.segmentsFrom 0 h.commands_) ++
          List.filter (fun ps : Nat × MachOSegment => Spec.isOtherSegment ps.2)
            (Spec.segmentsFrom 0 h.commands_))) ++ [h.commands_.length] := by
    simp [Spec.finalSegments]
  have hKnd : ((Spec.finalSegments h text linkedit).map Prod.fst).Nodup := by
    rw [hKkeys]
    refine List.Nodup.append ((hperm.map Prod.fst).nodup_iff.1 hL) (List.nodup_singleton _) ?_
    rw [List.disjoint_singleton]
    intro hmem
    have hmem1 := (hperm.map Prod.fst).mem_iff.2 hmem
    obtain ⟨ps, hps, he⟩ := List.mem_map.1 hmem1
    rcases ps with ⟨p, s⟩
    have := (Spec.segmentsFrom_key_bounds hps).2
    simp only at he
    omega
  have hcover : ∀ ps ∈ Spec.segmentsFrom 0 h.commands_, ∃ s1,
      (ps.1, s1) ∈ Spec.finalSegments h text linkedit ∧
      s1.contents_.filter MachOContents.IsMachOSection =
        ps.2.contents_.filter MachOContents.IsMachOSection := by
    intro ps hps
    have hm := hperm.mem_iff.1 hps
    simp only [List.singleton_append, List.mem_cons, List.mem_append] at hm
    rcases hm with rfl | hm | hm
    · exact ⟨Spec.withHeader h text, by simp [Spec.finalSegments],
        Spec.withHeader_sections h text⟩
    · exact ⟨ps.2, by simp [Spec.finalSegments, hm], rfl⟩
    · exact ⟨ps.2, by simp [Spec.finalSegments, hm], rfl⟩
  have hHK : ∀ ps ∈ Spec.finalSegments h text linkedit,
      (∃ s, (ps.1, s) ∈ Spec.segmentsFrom 0 h.commands_ ∧ ps.2.NumSections = s.NumSections) ∨
      (ps.1 ∉ (Spec.segmentsFrom 0 h.commands_).map Prod.fst ∧ ps.2.NumSections = 0) := by
    intro ps hps
    simp only [Spec.finalSegments, List.singleton_append, List.cons_append, List.mem_cons,
      List.mem_append, List.mem_singleton, List.mem_filter, List.not_mem_nil, or_false] at hps
    rcases hps with rfl | ((hf | ⟨hm, _⟩) | ⟨hm, _⟩) | rfl
    · left; exact ⟨text, hmemText, Spec.withHeader_NumSections h text⟩
    · exact hf.elim
    · left; exact ⟨ps.2, hm, rfl⟩
    · left; exact ⟨ps.2, hm, rfl⟩
    · right
      refine ⟨?_, ?_⟩
      · intro hmem
        obtain ⟨qs, hqs, he⟩ := List.mem_map.1 hmem
        rcases qs with ⟨q, s⟩
        have := (Spec.segmentsFrom_key_bounds hqs).2
        simp only at he
        omega
      · rw [MachOSegment.NumSections_sections, hlinkSec]; rfl
  have hO : h.sectionContents = Spec.sectionsOf (Spec.segmentsFrom 0 h.commands_) :=
    Spec.sectionContents_eq h.commands_ 0
  have hF : h1.sectionContents = Spec.sectionsOf (Spec.finalSegments h text linkedit) := by
    have hshape : h1.commands_ = Spec.headerOnlyCommands h.commands_ ++
        ((Spec.finalSegments h text linkedit).map (fun ps => MachOCommand.segment ps.2) ++
          (Spec.linkeditCommands h.commands_ ++ Spec.signatureCommands h)) := by
      rw [hcmds]
      simp [Spec.finalSegments, Spec.symbolSegments_eq, Spec.otherSegments_eq]
    unfold MachOHeader.sectionContents
    rw [hshape, Spec.allContents_append, Spec.allContents_append,
      Spec.allContents_nonsegments _ (Spec.headerOnlyCommands_nonsegments _),
      Spec.allContents_nonsegments (Spec.linkeditCommands h.commands_ ++ Spec.signatureCommands h)
        (by
          intro c hc
          rcases List.mem_append.1 hc with hc | hc
          · exact Spec.linkeditCommands_nonsegments _ c hc
          · exact Spec.signatureCommands_nonsegments _ c hc),
      List.nil_append, List.append_nil]
    exact Spec.allContents_segments _
  have hlenKL : (Spec.sectionsOf (Spec.finalSegments h text linkedit)).length =
      (Spec.sectionsOf (Spec.segmentsFrom 0 h.commands_)).length := by
    rw [Spec.sectionsOf_perm_length hperm]
    simp [Spec.finalSegments, Spec.sectionsOf_append, Spec.sectionsOf, hlinkSec,
      Spec.withHeader_sections]
  have hn : bins.num_sections = (Spec.sectionsOf (Spec.segmentsFrom 0 h.commands_)).length := by
    rw [b6, Spec.sectionsOf_length]
  have hN : h.NumSections = (Spec.sectionsOf (Spec.segmentsFrom 0 h.commands_)).length := by
    rw [MachOHeader.NumSections_eq_length, hO]
  obtain ⟨m1, m2, m3⟩ := MachOHeader.mapSegments_spec (Spec.segmentsFrom 0 h.commands_) hL
    (Spec.finalSegments h text linkedit) (List.replicate (bins.num_sections + 1) NO_SECT) 1
    hKnd hHK (by rw [List.length_replicate, hn])
  rw [← b5] at m1 m2 m3
  rw [hKeq] at hfull
  refine ⟨text, linkedit, bins, hbins, hKeq, hn.trans hN.symm, hfull, hKnd, hO, hF, ?_, hcover,
    ?_, ?_, ?_⟩
  · rw [hF, hO, hlenKL]
  · rw [m1, List.length_replicate, hn, hN]
  · rw [m2 0 (by intro ps _; omega)]
    simp [NO_SECT]
  · intro ps hps j hj
    obtain ⟨s1, hs1, hsec⟩ := hcover ps hps
    have hnum : s1.NumSections = ps.2.NumSections := by
      rw [MachOSegment.NumSections_sections, MachOSegment.NumSections_sections, hsec]
    have := m3 (ps.1, s1) hs1 j (by simp only; omega)
    simp only at this
    rw [this]; omega

/-- C13: the old-to-new section index map that a successful `FinalizeCommands` builds is a
permutation of 0, ..., `num_sections` that fixes 0 (`NO_SECT`); the sections of each
segment are numbered contiguously, in their original relative order, starting from 1 plus
the number of sections of the segments before it in the final segment order; so the old
index of a section and its image designate the same section, before and after the
reordering, and after `UpdateSectionIndices` the section index of every symbol of the
full table designates, in the final numbering (the order of the sections of the final
command list, in which `ComputeOffsets` fills the address map), the section it designated
before. -/
theorem C13_section_index_map (T : Target) (h h1 : MachOHeader)
    (hfin : h.FinalizeCommands T = some h1) :
    ∃ text linkedit bins index_map,
      MachOHeader.binCommands 0
        { header_only_commands := [], symbol_segments := [], other_segments := [],
          linkedit_commands := [], section_info := [], num_sections := 0 } 0 h.commands_ =
          some bins ∧
      index_map = MachOHeader.mapSegments bins.section_info
        ([(0, Spec.withHeader h text)] ++ bins.symbol_segments ++ bins.other_segments ++
          [(h.commands_.length, linkedit)])
        (List.replicate (bins.num_sections + 1) NO_SECT) 1 ∧
      h.full_symtab_.UpdateSectionIndices index_map = some h1.full_symtab_ ∧
      h1.NumSections = h.NumSections ∧
      List.Perm index_map (List.range (h.NumSections + 1)) ∧
      index_map.get? NO_SECT = some NO_SECT ∧
      (∀ ps ∈ Spec.segmentsFrom 0 h.commands_, ∀ j, j < ps.2.NumSections →
        index_map.get? (Spec.countBefore (Spec.segmentsFrom 0 h.commands_) ps.1 + 1 + j) =
          some (Spec.countBefore (Spec.finalSegments h text linkedit) ps.1 + 1 + j)) ∧
      (∀ i, 1 ≤ i → i ≤ h.NumSections →
        ∃ c, h.sectionAt? i = some c ∧ h1.sectionAt? (index_map.getD i 0) = some c) ∧
      (∀ k s, h.full_symtab_.symbols_.get? k = some s →
        ∃ s1, h1.full_symtab_.symbols_.get? k = some s1 ∧
          s1.section_index = index_map.getD s.section_index 0 ∧
          h1.sectionAt? s1.section_index = h.sectionAt? s.section_index) := by
  obtain ⟨text, linkedit, bins, hbins, hKeq, hn, hfull, hKnd, hO, hF, hlen, hcover, mlen, m0,
    mblock⟩ := MachOHeader.FinalizeCommands_index_map hfin
  have hL := Spec.segmentsFrom_nodup h.commands_ 0
  have hN := MachOHeader.NumSections_eq_length h
  have hN1 := MachOHeader.NumSections_eq_length h1
  -- the value of the map at every index of a section
  have hval : ∀ i, 1 ≤ i → i ≤ h.NumSections → ∃ p s s1 j,
      (p, s) ∈ Spec.segmentsFrom 0 h.commands_ ∧
      (p, s1) ∈ Spec.finalSegments h text linkedit ∧
      s1.contents_.filter MachOContents.IsMachOSection =
        s.contents_.filter MachOContents.IsMachOSection ∧
      j < s.NumSections ∧
      i = Spec.countBefore (Spec.segmentsFrom 0 h.commands_) p + 1 + j ∧
      (MachOHeader.mapSegments bins.section_info (Spec.finalSegments h text linkedit)
          (List.replicate (bins.num_sections + 1) NO_SECT) 1).getD i 0 =
        Spec.countBefore (Spec.finalSegments h text linkedit) p + 1 + j := by
    intro i hi1 hi2
    obtain ⟨p, s, j, hps, hj, he⟩ := Spec.countBefore_cover (Spec.segmentsFrom 0 h.commands_)
      (i - 1) hL (by rw [← hO, ← hN]; omega)
    obtain ⟨s1, hs1, hsec⟩ := hcover (p, s) hps
    have hi : i = Spec.countBefore (Spec.segmentsFrom 0 h.commands_) p + 1 + j := by omega
    refine ⟨p, s, s1, j, hps, hs1, hsec, hj, hi, ?_⟩
    rw [hi]
    exact mblock (p, s) hps j hj
  have hget : ∀ i, i < h.NumSections + 1 →
      (MachOHeader.mapSegments bins.section_info (Spec.finalSegments h text linkedit)
          (List.replicate (bins.num_sections + 1) NO_SECT) 1)[i]? =
        some ((MachOHeader.mapSegments bins.section_info (Spec.finalSegments h text linkedit)
          (List.replicate (bins.num_sections + 1) NO_SECT) 1).getD i 0) := by
    intro i hi
    rw [List.getD_eq_getElem?_getD, List.getElem?_eq_getElem (by rw [mlen]; exact hi)]
    rfl
  have hsect : ∀ i, 1 ≤ i → i ≤ h.NumSections →
      ∃ c, h.sectionAt? i = some c ∧
        h1.sectionAt? ((MachOHeader.mapSegments bins.section_info
          (Spec.finalSegments h text linkedit)
          (List.replicate (bins.num_sections + 1) NO_SECT) 1).getD i 0) = some c := by
    intro i hi1 hi2
    obtain ⟨p, s, s1, j, hps, hs1, hsec, hj, hi, hv⟩ := hval i hi1 hi2
    have hj1 : j < s1.NumSections := by
      rw [MachOSegment.NumSections_sections, hsec, ← MachOSegment.NumSections_sections]
      exact hj
    have e1 := Spec.sectionsOf_get _ p s hL hps j hj
    have e2 := Spec.sectionsOf_get _ p s1 hKnd hs1 j hj1
    rw [MachOSegment.NumSections_sections] at hj
    refine ⟨(s.contents_.filter MachOContents.IsMachOSection).get ⟨j, hj⟩, ?_, ?_⟩
    · unfold MachOHeader.sectionAt?
      rw [if_neg (by simp only [NO_SECT]; omega), hO, hi]
      have : Spec.countBefore (Spec.segmentsFrom 0 h.commands_) p + 1 + j - 1 =
          Spec.countBefore (Spec.segmentsFrom 0 h.commands_) p + j := by omega
      rw [this, e1]
      exact List.get?_eq_get hj
    · unfold MachOHeader.sectionAt?
      rw [hv, if_neg (by simp only [NO_SECT]; omega), hF]
      have : Spec.countBefore (Spec.finalSegments h text linkedit) p + 1 + j - 1 =
          Spec.countBefore (Spec.finalSegments h text linkedit) p + j := by omega
      rw [this, e2, hsec]
      exact List.get?_eq_get hj
  refine ⟨text, linkedit, bins, _, hbins, by rw [hKeq], hfull, ?_, ?_, ?_, ?_, hsect, ?_⟩
  · rw [hN, hN1, hlen]
  · -- a list without duplicates of `num_sections + 1` numbers up to `num_sections`
    apply List.Subperm.perm_of_length_le
    · apply List.subperm_of_subset
      · rw [List.nodup_iff_getElem?_ne_getElem?]
        intro i j hij hj
        rw [mlen] at hj
        rw [hget i (by omega), hget j hj]
        intro heq
        have heq := Option.some.inj heq
        obtain ⟨q, t, t1, b, hqt, ht1, htsec, hb, hjq, hvj⟩ := hval j (by omega) (by omega)
        have hb1 : b < t1.NumSections := by
          rw [MachOSegment.NumSections_sections, htsec, ← MachOSegment.NumSections_sections]
          exact hb
        rcases Nat.eq_zero_or_pos i with hi0 | hipos
        · subst hi0
          rw [m0, hvj] at heq
          omega
        · obtain ⟨p, s, s1, a, hps, hs1, hssec, ha, hip, hvi⟩ := hval i hipos (by omega)
          have ha1 : a < s1.NumSections := by
            rw [MachOSegment.NumSections_sections, hssec, ← MachOSegment.NumSections_sections]
            exact ha
          rw [hvi, hvj] at heq
          by_cases hpq : p = q
          · subst hpq
            omega
          · have := Spec.countBefore_disjoint _ p q s1 t1 hKnd hs1 ht1 hpq
            omega
      · intro x hx
        rw [List.mem_range]
        obtain ⟨i, hi⟩ := List.mem_iff_getElem?.1 hx
        have hil : i < h.NumSections + 1 := by
          rw [← mlen]
          by_contra hc
          rw [List.getElem?_eq_none (by omega)] at hi
          cases hi
        rw [hget i hil] at hi
        have hi := Option.some.inj hi
        rcases Nat.eq_zero_or_pos i with hi0 | hipos
        · subst hi0
          rw [m0] at hi
          omega
        · obtain ⟨p, s, s1, a, hps, hs1, hssec, ha, hip, hvi⟩ := hval i hipos (by omega)
          have ha1 : a < s1.NumSections := by
            rw [MachOSegment.NumSections_sections, hssec, ← MachOSegment.NumSections_sections]
            exact ha
          have hle := Spec.countBefore_le _ p s1 hKnd hs1
          rw [← hF, hlen, ← hN] at hle
          rw [hvi] at hi
          omega
    · rw [mlen, List.length_range]
  · have h00 := hget 0 (by omega)
    rw [m0] at h00
    exact (List.get?_eq_getElem? _ _).trans h00
  · intro ps hps j hj
    have hle := Spec.countBefore_le _ ps.1 ps.2 hL hps
    rw [← hO, ← hN] at hle
    rw [List.get?_eq_getElem?, hget _ (by omega), mblock ps hps j hj]
  · intro k s hk
    obtain ⟨_, hsym, hlt, hmap⟩ := MachOSymbolTable.UpdateSectionIndices_some hfull
    have hmem : s ∈ h.full_symtab_.symbols_ := List.mem_iff_get?.2 ⟨k, hk⟩
    have hsl := hlt s hmem
    rw [mlen] at hsl
    have hmod : (MachOHeader.mapSegments bins.section_info (Spec.finalSegments h text linkedit)
          (List.replicate (bins.num_sections + 1) NO_SECT) 1).getD s.section_index 0 % 2 ^ 8 =
        (MachOHeader.mapSegments bins.section_info (Spec.finalSegments h text linkedit)
          (List.replicate (bins.num_sections + 1) NO_SECT) 1).getD s.section_index 0 := by
      by_cases h0 : s.section_index = NO_SECT
      · rw [h0]
        simp only [NO_SECT] at m0 ⊢
        rw [m0]
        rfl
      · exact Nat.mod_eq_of_lt (hmap s.section_index (by rw [mlen]; exact hsl) h0).1
    refine ⟨{ s with section_index := (MachOHeader.mapSegments bins.section_info
        (Spec.finalSegments h text linkedit)
        (List.replicate (bins.num_sections + 1) NO_SECT) 1).getD s.section_index 0 }, ?_, rfl, ?_⟩
    · rw [hsym, List.get?_eq_getElem?, List.getElem?_map, ← List.get?_eq_getElem?, hk,
        Option.map_some', hmod]
    · simp only
      by_cases h0 : s.section_index = NO_SECT
      · rw [h0]
        simp only [NO_SECT] at m0 ⊢
        rw [m0]
        simp [MachOHeader.sectionAt?, NO_SECT]
      · obtain ⟨c, hc1, hc2⟩ := hsect s.section_index
          (by simp only [NO_SECT] at h0; omega) (by omega)
        rw [hc1, hc2]

theorem C13_section_index_map_witness :
    MachOHeader.sampleBeforeFinalizeCommands.FinalizeCommands Target.example64 =
        some MachOHeader.sampleBeforeOffsets ∧
      MachOHeader.sampleBeforeFinalizeCommands.NumSections = 4 ∧
      MachOHeader.sampleBeforeOffsets.NumSections =
        MachOHeader.sampleBeforeFinalizeCommands.NumSections :=
  ⟨by decide, by decide,
    (C13_section_index_map Target.example64 MachOHeader.sampleBeforeFinalizeCommands
      MachOHeader.sampleBeforeOffsets (by decide)).elim fun _ h1 => h1.elim fun _ h2 =>
        h2.elim fun _ h3 => h3.elim fun _ h4 => h4.2.2.2.1⟩

theorem MachOHeader.HasOnlySections_iff (h : MachOHeader) :
    h.HasOnlySections = true ↔
      ∀ s, MachOCommand.segment s ∈ h.commands_ →
        ∀ c ∈ s.contents_, c.IsAlignedSection = true := by
  unfold MachOHeader.HasOnlySections
  rw [List.all_eq_true]
  constructor
  · intro hall s hs c hc
    have := hall _ hs
    simp only [List.all_eq_true] at this
    exact this c hc
  · intro hall command hmem
    cases command with
    | segment s =>
        simp only [List.all_eq_true]
        exact hall s hmem
    | other k x y z => rfl

theorem MachOSection.create_aligned {name : String} {type attributes : Nat}
    {has_contents : Bool} {alignment : Nat} {c : MachOContents}
    (h : MachOSection.create name type attributes has_contents alignment = some c) :
    c.IsAlignedSection = true ∧ IsPowerOfTwo alignment = true := by
  obtain ⟨rfl, hp⟩ := MachOSection.create_some h
  exact ⟨by simpa [MachOContents.IsAlignedSection] using hp, hp⟩

theorem MachOContents.AddPortion_aligned {c c1 : MachOContents} {bytes : Option (List Nat)}
    {size : Nat} {relocations : Option (List Nat)} {symbols : Option (List SymbolData)}
    {symbol_name : Option String} {label : Int}
    (h : c.AddPortion bytes size relocations symbols symbol_name label = some c1)
    (hc : c.IsAlignedSection = true) : c1.IsAlignedSection = true := by
  unfold MachOContents.AddPortion at h
  rcases c with ⟨kind, fo, ma⟩
  cases kind with
  | «section» s =>
      simp only at h
      split_ifs at h
      simp only [Option.some.injEq] at h
      subst h
      simpa [MachOContents.IsAlignedSection] using hc
  | _ => simp at h

/-- `AddContents` of a section keeps the children sections. -/
theorem MachOSegment.AddContents_aligned {s s1 : MachOSegment} {c : MachOContents} {b : Bool}
    (h : s.AddContents c b = some s1) (hc : c.IsAlignedSection = true)
    (hs : ∀ x ∈ s.contents_, x.IsAlignedSection = true) :
    (∀ x ∈ s1.contents_, x.IsAlignedSection = true) ∧ s1.name_ = s.name_ := by
  have hnh : c.IsMachOHeader = false := by
    rcases c with ⟨kind, fo, ma⟩
    cases kind <;> simp_all [MachOContents.IsAlignedSection, MachOContents.IsMachOHeader]
  unfold MachOSegment.AddContents at h
  simp only [hnh, Bool.false_eq_true, if_false] at h
  split_ifs at h <;> simp only [Option.some.injEq] at h <;> subst h <;>
    refine ⟨?_, rfl⟩ <;> intro x hx <;> simp only [List.mem_append, List.mem_singleton] at hx
  · rcases hx with (hx | hx) | hx
    · exact hs x (List.mem_of_mem_take hx)
    · subst hx; exact hc
    · exact hs x (List.mem_of_mem_drop hx)
  · rcases hx with hx | hx
    · exact hs x hx
    · subst hx; exact hc

theorem MachOSegment.create_contents {name : String} {p q : Nat} {s : MachOSegment}
    (h : MachOSegment.create name p q = some s) : s.contents_ = [] ∧ s.name_ = name := by
  unfold MachOSegment.create at h
  split_ifs at h
  simp only [Option.some.injEq] at h
  subst h
  exact ⟨rfl, rfl⟩

namespace MachOHeader

/-- Appending commands that are no segments keeps the children of the segments. -/
theorem HasOnlySections_append {h : MachOHeader} {commands : List MachOCommand}
    (hc : ∀ c ∈ commands, c.AsMachOSegment = none) (hh : h.HasOnlySections = true) :
    ({ h with commands_ := h.commands_ ++ commands } : MachOHeader).HasOnlySections = true := by
  rw [HasOnlySections_iff] at hh ⊢
  intro s hs c hcm
  simp only [List.mem_append] at hs
  rcases hs with hs | hs
  · exact hh s hs c hcm
  · have := hc _ hs
    simp [MachOCommand.AsMachOSegment] at this

/-- Appending a segment whose children are sections. -/
theorem HasOnlySections_append_segment {h : MachOHeader} {s : MachOSegment}
    (hs : ∀ c ∈ s.contents_, c.IsAlignedSection = true) (hh : h.HasOnlySections = true) :
    ({ h with commands_ := h.commands_ ++ [.segment s] } : MachOHeader).HasOnlySections =
      true := by
  rw [HasOnlySections_iff] at hh ⊢
  intro s1 hs1 c hcm
  simp only [List.mem_append, List.mem_singleton, MachOCommand.segment.injEq] at hs1
  rcases hs1 with hs1 | rfl
  · exact hh s1 hs1 c hcm
  · exact hs c hcm

theorem create_nonsegment (kind : CommandKind) (a b : Bool) :
    (MachOCommand.create kind a b).AsMachOSegment = none := rfl

theorem GenerateUuid_sections {T : Target} {h h1 : MachOHeader}
    (hg : GenerateUuid T h = some h1) :
    h1.type_ = h.type_ ∧ h1.identifier_ = h.identifier_ ∧
      (h.HasOnlySections = true → h1.HasOnlySections = true) := by
  unfold GenerateUuid at hg
  split_ifs at hg
  split at hg
  · cases hg; exact ⟨rfl, rfl, id⟩
  · split at hg
    · cases hg; exact ⟨rfl, rfl, id⟩
    · simp only [Option.map_eq_some'] at hg
      obtain ⟨hashes, _, rfl⟩ := hg
      refine ⟨rfl, rfl, fun hh => HasOnlySections_append ?_ hh⟩
      intro c hc
      simp only [List.mem_singleton] at hc
      subst hc; rfl

theorem addBssPortion_aligned {T : Target} {c c1 : MachOContents} {portion : Portion}
    (h : addBssPortion T c portion = some c1) (hc : c.IsAlignedSection = true) :
    c1.IsAlignedSection = true := by
  unfold addBssPortion at h
  split at h
  · cases h
  · simp only at h
    split at h
    · cases h
    · exact MachOContents.AddPortion_aligned h hc

theorem foldlM_addBssPortion_aligned {T : Target} :
    ∀ (portions : List Portion) (c c1 : MachOContents),
      portions.foldlM (addBssPortion T) c = some c1 → c.IsAlignedSection = true →
      c1.IsAlignedSection = true := by
  intro portions
  induction portions with
  | nil =>
      intro c c1 h hc
      simp only [List.foldlM, Option.pure_def, Option.some.injEq] at h
      subst h; exact hc
  | cons p rest ih =>
      intro c c1 h hc
      simp only [List.foldlM, Option.bind_eq_bind, Option.bind_eq_some] at h
      obtain ⟨c2, h2, hrest⟩ := h
      exact ih c2 c1 hrest (addBssPortion_aligned h2 hc)

theorem CreateBSS_sections {T : Target} {h h1 : MachOHeader}
    (hg : CreateBSS T h = some h1) :
    h1.type_ = h.type_ ∧ h1.identifier_ = h.identifier_ ∧
      (h.HasOnlySections = true → h1.HasOnlySections = true) ∧
      IsPowerOfTwo T.kWordSize = true := by
  unfold CreateBSS at hg
  simp only [Option.bind_eq_bind, Option.pure_def, Option.bind_eq_some, Option.some.injEq] at hg
  obtain ⟨_, _, _, _, d0, hd0, bss, hbss, d1, hd1, bss1, hbss1, rfl⟩ := hg
  obtain ⟨hb, hw⟩ := MachOSection.create_aligned hbss
  have hd0c := (MachOSegment.create_contents hd0).1
  have hd1c := (MachOSegment.AddContents_aligned hd1 hb (by rw [hd0c]; simp)).1
  have hb1 := foldlM_addBssPortion_aligned _ _ _ hbss1 hb
  refine ⟨rfl, rfl, fun hh => HasOnlySections_append_segment ?_ hh, hw⟩
  intro c hc
  simp only at hc
  rcases List.mem_or_eq_of_mem_set hc with hc | rfl
  · exact hd1c c hc
  · exact hb1

theorem HasOnlySections_setSegment {h : MachOHeader} {i : Nat} {s : MachOSegment}
    (hs : ∀ c ∈ s.contents_, c.IsAlignedSection = true) (hh : h.HasOnlySections = true) :
    (h.setSegment i s).HasOnlySections = true := by
  rw [HasOnlySections_iff] at hh ⊢
  intro s1 hs1 c hcm
  simp only [setSegment] at hs1
  rcases List.mem_or_eq_of_mem_set hs1 with hs1 | hs1
  · exact hh s1 hs1 c hcm
  · simp only [MachOCommand.segment.injEq] at hs1
    subst hs1
    exact hs c hcm

theorem segmentAt?_mem {h : MachOHeader} {i : Nat} {s : MachOSegment}
    (hs : h.segmentAt? i = some s) : MachOCommand.segment s ∈ h.commands_ := by
  simp only [segmentAt?, Option.bind_eq_some] at hs
  obtain ⟨c, hc, hseg⟩ := hs
  cases c with
  | segment s0 =>
      simp only [MachOCommand.AsMachOSegment, Option.some.injEq] at hseg
      subst hseg
      exact List.mem_iff_get?.2 ⟨i, hc⟩
  | other k x y z => simp [MachOCommand.AsMachOSegment] at hseg

theorem addEhFrame_sections {T : Target} {h h1 : MachOHeader}
    (hg : addEhFrame T h = some h1) :
    h1.type_ = h.type_ ∧ h1.identifier_ = h.identifier_ ∧
      (h.HasOnlySections = true → h1.HasOnlySections = true) := by
  unfold addEhFrame at hg
  simp only [Option.bind_eq_bind, Option.pure_def, Option.bind_eq_some] at hg
  obtain ⟨i, _, text_segment, htext, hg⟩ := hg
  split at hg
  · cases hg; exact ⟨rfl, rfl, id⟩
  · simp only [Option.bind_eq_some, Option.some.injEq] at hg
    obtain ⟨_, _, _, _, _, _, eh, heh, eh1, heh1, t1, ht1, rfl⟩ := hg
    refine ⟨rfl, rfl, fun hh => ?_⟩
    have hmem := segmentAt?_mem htext
    have hold := (HasOnlySections_iff h).1 hh text_segment hmem
    have he := MachOContents.AddPortion_aligned heh1 (MachOSection.create_aligned heh).1
    exact HasOnlySections_setSegment (MachOSegment.AddContents_aligned ht1 he hold).1 hh

theorem addUnwindingRecords_sections {T : Target} {z : Bool} {c c1 : MachOCommand}
    (hg : addUnwindingRecords T z c = some c1) :
    ∀ s1, c1 = .segment s1 → ∃ s, c = .segment s ∧
      ((∀ x ∈ s.contents_, x.IsAlignedSection = true) →
        ∀ x ∈ s1.contents_, x.IsAlignedSection = true) := by
  intro s1 hc1
  subst hc1
  cases c with
  | segment s =>
      refine ⟨s, rfl, ?_⟩
      by_cases hexe : s.IsExecutable = true
      · simp only [addUnwindingRecords, hexe, if_true, Option.bind_eq_bind, Option.pure_def,
          Option.bind_eq_some, Option.some.injEq, MachOCommand.segment.injEq] at hg
        obtain ⟨_, _, _, _, u, hu, u1, hu1, s2, hs2, rfl⟩ := hg
        intro hs
        exact (MachOSegment.AddContents_aligned hs2
          (MachOContents.AddPortion_aligned hu1 (MachOSection.create_aligned hu).1) hs).1
      · simp only [addUnwindingRecords, hexe, Bool.false_eq_true, if_false, Option.pure_def,
          Option.some.injEq, MachOCommand.segment.injEq] at hg
        subst hg
        exact id
  | other k x y w =>
      simp [addUnwindingRecords] at hg

theorem mapM_mem {α β : Type} (f : α → Option β) :
    ∀ (l : List α) (l1 : List β), l.mapM f = some l1 →
      ∀ y ∈ l1, ∃ x ∈ l, f x = some y := by
  intro l
  induction l with
  | nil =>
      intro l1 h y hy
      simp only [List.mapM_nil, Option.pure_def, Option.some.injEq] at h
      subst h
      simp at hy
  | cons a rest ih =>
      intro l1 h y hy
      simp only [List.mapM_cons, Option.bind_eq_bind, Option.pure_def, Option.bind_eq_some,
        Option.some.injEq] at h
      obtain ⟨b, hb, bs, hbs, rfl⟩ := h
      simp only [List.mem_cons] at hy
      rcases hy with rfl | hy
      · exact ⟨a, List.mem_cons_self _ _, hb⟩
      · obtain ⟨x, hx, hfx⟩ := ih bs hbs y hy
        exact ⟨x, List.mem_cons_of_mem _ hx, hfx⟩

theorem addAllUnwindingRecords_sections {T : Target} {h h1 : MachOHeader}
    (hg : addAllUnwindingRecords T h = some h1) :
    h1.type_ = h.type_ ∧ h1.identifier_ = h.identifier_ ∧
      (h.HasOnlySections = true → h1.HasOnlySections = true) := by
  unfold addAllUnwindingRecords at hg
  split_ifs at hg
  · simp only [Option.map_eq_some'] at hg
    obtain ⟨commands, hm, rfl⟩ := hg
    refine ⟨rfl, rfl, fun hh => ?_⟩
    rw [HasOnlySections_iff] at hh ⊢
    intro s1 hs1 c hc
    obtain ⟨x, hx, hfx⟩ := mapM_mem _ _ _ hm _ hs1
    obtain ⟨s, rfl, hs⟩ := addUnwindingRecords_sections hfx s1 rfl
    exact hs (hh s hx) c hc
  · cases hg; exact ⟨rfl, rfl, id⟩

theorem GenerateUnwindingInformation_sections {T : Target} {h h1 : MachOHeader}
    (hg : GenerateUnwindingInformation T h = some h1) :
    h1.type_ = h.type_ ∧ h1.identifier_ = h.identifier_ ∧
      (h.HasOnlySections = true → h1.HasOnlySections = true) := by
  unfold GenerateUnwindingInformation at hg
  split_ifs at hg with h0 hm
  · cases hg; exact ⟨rfl, rfl, id⟩
  · exact addAllUnwindingRecords_sections hg
  · simp only [Option.bind_eq_some] at hg
    obtain ⟨h2, h2eq, hg⟩ := hg
    obtain ⟨a1, a2, a3⟩ := addEhFrame_sections h2eq
    obtain ⟨b1, b2, b3⟩ := addAllUnwindingRecords_sections hg
    exact ⟨b1.trans a1, b2.trans a2, fun hh => b3 (a3 hh)⟩

theorem add_debug_aligned {s s1 : MachOSegment} {name : String} {n : Nat}
    (hg : add_debug s name n = some s1)
    (hs : ∀ x ∈ s.contents_, x.IsAlignedSection = true) :
    ∀ x ∈ s1.contents_, x.IsAlignedSection = true := by
  unfold add_debug at hg
  simp only [Option.bind_eq_bind, Option.bind_eq_some] at hg
  obtain ⟨_, _, c, hc, c1, hc1, hadd⟩ := hg
  exact (MachOSegment.AddContents_aligned hadd
    (MachOContents.AddPortion_aligned hc1 (MachOSection.create_aligned hc).1) hs).1

theorem FinalizeDwarfSections_sections {h h1 : MachOHeader}
    (hg : FinalizeDwarfSections h = some h1) :
    h1.type_ = h.type_ ∧ h1.identifier_ = h.identifier_ ∧
      (h.HasOnlySections = true → h1.HasOnlySections = true) := by
  unfold FinalizeDwarfSections at hg
  split at hg
  · cases hg; exact ⟨rfl, rfl, id⟩
  · simp only [Option.bind_eq_bind, Option.pure_def, Option.bind_eq_some, Option.some.injEq] at hg
    obtain ⟨_, _, _, _, _, _, d0, hd0, d1, hd1, d2, hd2, d3, hd3, rfl⟩ := hg
    refine ⟨rfl, rfl, fun hh => HasOnlySections_append_segment ?_ hh⟩
    have h0 : ∀ x ∈ d0.contents_, x.IsAlignedSection = true := by
      rw [(MachOSegment.create_contents hd0).1]; simp
    exact add_debug_aligned hd3 (add_debug_aligned hd2 (add_debug_aligned hd1 h0))

theorem InitializeSymbolTables_sections {T : Target} {h h1 : MachOHeader}
    (hg : InitializeSymbolTables T h = some h1) :
    h1.type_ = h.type_ ∧ h1.identifier_ = h.identifier_ ∧
      (h.HasOnlySections = true → h1.HasOnlySections = true) := by
  unfold InitializeSymbolTables at hg
  simp only [Option.bind_eq_bind, Option.pure_def, Option.bind_eq_some, Option.some.injEq] at hg
  obtain ⟨_, _, _, _, _, _, full, hfull, h2, h2eq, rfl⟩ := hg
  have e2 : h2.type_ = h.type_ ∧ h2.identifier_ = h.identifier_ ∧
      h2.commands_ = h.commands_ := by
    unfold initializeStrippedTable at h2eq
    split_ifs at h2eq
    · simp only [Option.map_eq_some'] at h2eq
      obtain ⟨_, _, rfl⟩ := h2eq
      exact ⟨rfl, rfl, rfl⟩
    · cases h2eq; exact ⟨rfl, rfl, rfl⟩
  obtain ⟨t2, i2, c2⟩ := e2
  have hstep : h.HasOnlySections = true → h2.HasOnlySections = true := by
    intro hh
    rw [HasOnlySections_iff] at hh ⊢
    rw [c2]; exact hh
  split_ifs
  · refine ⟨t2, i2, fun hh => ?_⟩
    have h3 := @HasOnlySections_append _ [MachOCommand.create
      (.symbolTable TableRef.full) true true] (by
        intro c hc
        simp only [List.mem_singleton] at hc
        subst hc; rfl) (hstep hh)
    exact @HasOnlySections_append _ [MachOCommand.create
      (.dynamicSymbolTable TableRef.full) true true] (by
        intro c hc
        simp only [List.mem_singleton] at hc
        subst hc; rfl) h3
  · refine ⟨t2, i2, fun hh => ?_⟩
    exact @HasOnlySections_append _ [MachOCommand.create
      (.symbolTable TableRef.full) true true] (by
        intro c hc
        simp only [List.mem_singleton] at hc
        subst hc; rfl) (hstep hh)

theorem GenerateMiscellaneousCommands_sections {T : Target} {h h1 : MachOHeader}
    (hg : GenerateMiscellaneousCommands T h = some h1) :
    h1.type_ = h.type_ ∧ h1.identifier_ = h.identifier_ ∧
      (h.HasOnlySections = true → h1.HasOnlySections = true) := by
  unfold GenerateMiscellaneousCommands at hg
  simp only [Option.bind_eq_bind, Option.pure_def, Option.bind_eq_some] at hg
  obtain ⟨_, _, _, _, _, _, hg⟩ := hg
  have hsingle : ∀ (k : CommandKind), ∀ c ∈ [MachOCommand.create k false false],
      c.AsMachOSegment = none := by
    intro k c hc
    simp only [List.mem_singleton] at hc
    subst hc; rfl
  split_ifs at hg <;> cases hg <;> refine ⟨rfl, rfl, fun hh => ?_⟩
  · exact HasOnlySections_append (hsingle _)
      (HasOnlySections_append (hsingle _) (HasOnlySections_append (hsingle _) hh))
  · exact HasOnlySections_append (hsingle _) (HasOnlySections_append (hsingle _) hh)
  · exact HasOnlySections_append (hsingle _) hh

/-- The phases of `Finalize` before `FinalizeCommands` keep the type and the identifier of
the header, and the children of its segments sections. -/
theorem beforeComputeOffsets_sections {T : Target} {h h2 : MachOHeader}
    (hg : beforeComputeOffsets T h = some h2) :
    ∃ hx, FinalizeCommands T hx = some h2 ∧
      hx.type_ = h.type_ ∧ hx.identifier_ = h.identifier_ ∧
      (h.HasOnlySections = true → hx.HasOnlySections = true) ∧
      IsPowerOfTwo T.kWordSize = true := by
  unfold beforeComputeOffsets at hg
  simp only [Option.bind_eq_bind, Option.bind_eq_some] at hg
  obtain ⟨h1, e1, h2', e2, h3, e3, h4, e4, h5, e5, h6, e6, hfc⟩ := hg
  obtain ⟨a1, a2, a3⟩ := GenerateUuid_sections e1
  obtain ⟨b1, b2, b3, hw⟩ := CreateBSS_sections e2
  obtain ⟨c1, c2, c3⟩ := GenerateUnwindingInformation_sections e3
  obtain ⟨d1, d2, d3⟩ := FinalizeDwarfSections_sections e4
  obtain ⟨f1, f2, f3⟩ := InitializeSymbolTables_sections e5
  obtain ⟨g1, g2, g3⟩ := GenerateMiscellaneousCommands_sections e6
  refine ⟨h6, hfc, ?_, ?_, fun hh => g3 (f3 (d3 (c3 (b3 (a3 hh))))), hw⟩
  · rw [g1, f1, d1, c1, b1, a1]
  · rw [g2, f2, d2, c2, b2, a2]

end MachOHeader

namespace ContentOffsetsVisitor

/-- `VisitMachOSegment`, with the sizes of the segment itself (which are 0) simplified. -/
theorem VisitMachOSegment_eq (T : Target) (h : MachOHeader) (v : ContentOffsetsVisitor)
    (s : MachOSegment) :
    VisitMachOSegment T h v s =
      ({ (VisitChildren T h
            { v with file_offset := RoundUp v.file_offset T.kPageSize,
                     memory_address := RoundUp v.memory_address T.kPageSize }
            s.contents_).1 with
          file_offset :=
            if s.HasName SEG_LINKEDIT then
              (VisitChildren T h
                { v with file_offset := RoundUp v.file_offset T.kPageSize,
                         memory_address := RoundUp v.memory_address T.kPageSize }
                s.contents_).1.file_offset
            else RoundUp (VisitChildren T h
                { v with file_offset := RoundUp v.file_offset T.kPageSize,
                         memory_address := RoundUp v.memory_address T.kPageSize }
                s.contents_).1.file_offset T.kPageSize,
          memory_address := RoundUp (VisitChildren T h
              { v with file_offset := RoundUp v.file_offset T.kPageSize,
                       memory_address := RoundUp v.memory_address T.kPageSize }
              s.contents_).1.memory_address T.kPageSize },
       { s with file_offset_ := (RoundUp v.file_offset T.kPageSize : Nat),
                memory_address_ := (RoundUp v.memory_address T.kPageSize : Nat),
                contents_ := (VisitChildren T h
                  { v with file_offset := RoundUp v.file_offset T.kPageSize,
                           memory_address := RoundUp v.memory_address T.kPageSize }
                  s.contents_).2 }) := by
  have hself : ∀ s : MachOSegment, s.SelfFileSize = 0 := by
    intro s
    simp [MachOSegment.SelfFileSize, MachOSegment.SelfMemorySize]
  simp only [VisitMachOSegment, MachOSegment.Alignment, MachOSegment.PadFileSizeToAlignment,
    MachOSegment.HasName, hself, MachOSegment.SelfMemorySize, Nat.add_zero]
  by_cases hn : s.name_ = SEG_LINKEDIT <;> simp [hn]

theorem VisitChildren_append (T : Target) (h : MachOHeader) :
    ∀ (a b : List MachOContents) (v : ContentOffsetsVisitor),
      VisitChildren T h v (a ++ b) =
        ((VisitChildren T h (VisitChildren T h v a).1 b).1,
          (VisitChildren T h v a).2 ++ (VisitChildren T h (VisitChildren T h v a).1 b).2) := by
  intro a
  induction a with
  | nil => intro b v; simp [VisitChildren]
  | cons c cs ih => intro b v; simp [VisitChildren, ih]

theorem VisitChildren_kinds (T : Target) (h : MachOHeader) :
    ∀ (cs : List MachOContents) (v : ContentOffsetsVisitor),
      (VisitChildren T h v cs).2.map (fun c => c.kind) = cs.map (fun c => c.kind) := by
  intro cs
  induction cs with
  | nil => intro v; rfl
  | cons c cs ih => intro v; simp [VisitChildren, ih, Accept_kind]

/-- The cursors never move backwards over a child whose alignment is positive. -/
theorem Default_mono (T : Target) (h : MachOHeader) (v : ContentOffsetsVisitor)
    (c : MachOContents) (ha : 0 < c.Alignment T) :
    v.file_offset ≤ (Default T h v c).1.file_offset ∧
      v.memory_address ≤ (Default T h v c).1.memory_address := by
  have hk := DefaultFile_kind T h v c
  have ha2 : (DefaultFile T h v c).2.Alignment T = c.Alignment T := by
    simp [MachOContents.Alignment, hk]
  constructor
  · rw [Default, (DefaultMemory_file T h _ _).1]
    unfold DefaultFile
    split_ifs
    · have := le_RoundUp v.file_offset (c.Alignment T) ha
      simp only
      omega
    · exact Nat.le_refl _
  · rw [Default]
    unfold DefaultMemory
    split_ifs
    · have := le_RoundUp (DefaultFile T h v c).1.memory_address
        ((DefaultFile T h v c).2.Alignment T) (by rw [ha2]; exact ha)
      rw [(DefaultFile_memory T h v c).1] at this ⊢
      simp only
      omega
    · rw [(DefaultFile_memory T h v c).1]

theorem Accept_mono (T : Target) (h : MachOHeader) (v : ContentOffsetsVisitor)
    (c : MachOContents) (ha : 0 < c.Alignment T) :
    v.file_offset ≤ (Accept T h v c).1.file_offset ∧
      v.memory_address ≤ (Accept T h v c).1.memory_address := by
  unfold Accept VisitMachOSection
  split <;> exact Default_mono T h v c ha

theorem VisitChildren_mono (T : Target) (h : MachOHeader) :
    ∀ (cs : List MachOContents) (v : ContentOffsetsVisitor),
      (∀ c ∈ cs, 0 < c.Alignment T) →
      v.file_offset ≤ (VisitChildren T h v cs).1.file_offset ∧
        v.memory_address ≤ (VisitChildren T h v cs).1.memory_address := by
  intro cs
  induction cs with
  | nil => intro v _; exact ⟨Nat.le_refl _, Nat.le_refl _⟩
  | cons c cs ih =>
      intro v hal
      have h1 := Accept_mono T h v c (hal c (List.mem_cons_self _ _))
      have h2 := ih (Accept T h v c).1 (fun c' hc' => hal c' (List.mem_cons_of_mem _ hc'))
      simp only [VisitChildren]
      exact ⟨Nat.le_trans h1.1 h2.1, Nat.le_trans h1.2 h2.2⟩

/-- A segment starts at or after the cursors and ends at or after its start. -/
theorem VisitMachOSegment_mono (T : Target) (h : MachOHeader) (v : ContentOffsetsVisitor)
    (s : MachOSegment) (hpage : 0 < T.kPageSize) (hal : ∀ c ∈ s.contents_, 0 < c.Alignment T) :
    (v.file_offset : Int) ≤ (VisitMachOSegment T h v s).2.file_offset_ ∧
      (v.memory_address : Int) ≤ (VisitMachOSegment T h v s).2.memory_address_ ∧
      v.file_offset ≤ (VisitMachOSegment T h v s).1.file_offset ∧
      v.memory_address ≤ (VisitMachOSegment T h v s).1.memory_address := by
  rw [VisitMachOSegment_eq]
  have h1 := le_RoundUp v.file_offset T.kPageSize hpage
  have h2 := le_RoundUp v.memory_address T.kPageSize hpage
  have h3 := VisitChildren_mono T h s.contents_
    { v with file_offset := RoundUp v.file_offset T.kPageSize,
             memory_address := RoundUp v.memory_address T.kPageSize } hal
  have h4 := le_RoundUp (VisitChildren T h
    { v with file_offset := RoundUp v.file_offset T.kPageSize,
             memory_address := RoundUp v.memory_address T.kPageSize }
    s.contents_).1.file_offset T.kPageSize hpage
  have h5 := le_RoundUp (VisitChildren T h
    { v with file_offset := RoundUp v.file_offset T.kPageSize,
             memory_address := RoundUp v.memory_address T.kPageSize }
    s.contents_).1.memory_address T.kPageSize hpage
  simp only at h3 ⊢
  refine ⟨by exact_mod_cast h1, by exact_mod_cast h2, ?_, by omega⟩
  split_ifs <;> omega

end ContentOffsetsVisitor

namespace MachOHeader

theorem set_header_offset_segment {s : MachOSegment} {c1 : MachOCommand} {v : Int}
    (h : set_header_offset (.segment s) v = some c1) :
    c1 = .segment { s with header_offset_ := v } := by
  simp only [set_header_offset] at h
  split_ifs at h
  exact (Option.some.inj h).symm

theorem set_header_offset_other {k : CommandKind} {x y z : Int} {c1 : MachOCommand} {v : Int}
    (h : set_header_offset (.other k x y z) v = some c1) :
    c1 = .other k x y v := by
  simp only [set_header_offset] at h
  split_ifs at h
  exact (Option.some.inj h).symm

theorem set_header_offset_cmd (T : Target) {c c1 : MachOCommand} {v : Int}
    (h : set_header_offset c v = some c1) :
    c1.cmd T = c.cmd T ∧ c1.cmdsize T = c.cmdsize T ∧
      (c.AsMachOSegment = none → c1.AsMachOSegment = none) := by
  cases c with
  | segment s =>
      rw [set_header_offset_segment h]
      exact ⟨rfl, rfl, fun hh => by cases hh⟩
  | other k x y z =>
      rw [set_header_offset_other h]
      exact ⟨rfl, rfl, fun _ => rfl⟩

theorem setHeaderOffsets_append (T : Target) :
    ∀ (a b : List MachOCommand) (n : Nat) (c : List MachOCommand),
      setHeaderOffsets T n (a ++ b) = some c →
      ∃ a1 b1 n1, setHeaderOffsets T n a = some a1 ∧ setHeaderOffsets T n1 b = some b1 ∧
        c = a1 ++ b1 := by
  intro a
  induction a with
  | nil =>
      intro b n c h
      exact ⟨[], c, n, rfl, by simpa using h, rfl⟩
  | cons x a ih =>
      intro b n c h
      simp only [List.cons_append, setHeaderOffsets, Option.bind_eq_bind, Option.pure_def,
        Option.bind_eq_some, Option.some.injEq] at h
      obtain ⟨u, hu, x1, hx1, r, hr, rfl⟩ := h
      obtain ⟨a1, b1, n1, ha1, hb1, rfl⟩ := ih b _ r hr
      refine ⟨x1 :: a1, b1, n1, ?_, hb1, rfl⟩
      simp only [setHeaderOffsets, Option.bind_eq_bind, Option.pure_def, Option.bind_eq_some,
        Option.some.injEq]
      exact ⟨u, hu, x1, hx1, a1, ha1, rfl⟩

theorem setHeaderOffsets_cons (T : Target) {x : MachOCommand} {a : List MachOCommand}
    {n : Nat} {c : List MachOCommand} (h : setHeaderOffsets T n (x :: a) = some c) :
    ∃ x1 a1 n1, set_header_offset x n = some x1 ∧ setHeaderOffsets T n1 a = some a1 ∧
      c = x1 :: a1 := by
  simp only [setHeaderOffsets, Option.bind_eq_bind, Option.pure_def, Option.bind_eq_some,
    Option.some.injEq] at h
  obtain ⟨u, hu, x1, hx1, r, hr, rfl⟩ := h
  exact ⟨x1, r, _, hx1, hr, rfl⟩

theorem setHeaderOffsets_mem (T : Target) :
    ∀ (a : List MachOCommand) (n : Nat) (a1 : List MachOCommand),
      setHeaderOffsets T n a = some a1 →
      a1.length = a.length ∧
      ∀ c1 ∈ a1, ∃ c ∈ a, ∃ v, set_header_offset c v = some c1 := by
  intro a
  induction a with
  | nil =>
      intro n a1 h
      simp only [setHeaderOffsets, Option.some.injEq] at h
      subst h
      exact ⟨rfl, fun c1 hc1 => by simp at hc1⟩
  | cons x a ih =>
      intro n a1 h
      obtain ⟨x1, r, n1, hx1, hr, rfl⟩ := setHeaderOffsets_cons T h
      obtain ⟨hl, hm⟩ := ih n1 r hr
      refine ⟨by simp [hl], ?_⟩
      intro c1 hc1
      simp only [List.mem_cons] at hc1
      rcases hc1 with rfl | hc1
      · exact ⟨x, List.mem_cons_self _ _, _, hx1⟩
      · obtain ⟨c, hc, v, hv⟩ := hm c1 hc1
        exact ⟨c, List.mem_cons_of_mem _ hc, v, hv⟩

theorem setHeaderOffsets_nonsegments (T : Target) {a a1 : List MachOCommand} {n : Nat}
    (h : setHeaderOffsets T n a = some a1) (ha : ∀ c ∈ a, c.AsMachOSegment = none) :
    ∀ c ∈ a1, c.AsMachOSegment = none := by
  intro c1 hc1
  obtain ⟨c, hc, v, hv⟩ := (setHeaderOffsets_mem T a n a1 h).2 c1 hc1
  exact (set_header_offset_cmd T hv).2.2 (ha c hc)

theorem setHeaderOffsets_cmd (T : Target) :
    ∀ (a : List MachOCommand) (n : Nat) (a1 : List MachOCommand),
      setHeaderOffsets T n a = some a1 →
      a1.map (fun c => c.cmd T) = a.map (fun c => c.cmd T) ∧
      a1.map (fun c => c.cmdsize T) = a.map (fun c => c.cmdsize T) := by
  intro a
  induction a with
  | nil =>
      intro n a1 h
      simp only [setHeaderOffsets, Option.some.injEq] at h
      subst h
      exact ⟨rfl, rfl⟩
  | cons x a ih =>
      intro n a1 h
      obtain ⟨x1, r, n1, hx1, hr, rfl⟩ := setHeaderOffsets_cons T h
      obtain ⟨h1, h2⟩ := ih n1 r hr
      obtain ⟨e1, e2, _⟩ := set_header_offset_cmd T hx1
      simp [h1, h2, e1, e2]

theorem VisitSegments_append (T : Target) (h : MachOHeader) :
    ∀ (a b : List MachOCommand) (v : ContentOffsetsVisitor),
      VisitSegments T h v (a ++ b) =
        ((VisitSegments T h (VisitSegments T h v a).1 b).1,
          (VisitSegments T h v a).2 ++ (VisitSegments T h (VisitSegments T h v a).1 b).2) := by
  intro a
  induction a with
  | nil => intro b v; simp [VisitSegments]
  | cons c cs ih =>
      intro b v
      cases c with
      | segment s => simp [VisitSegments, ih]
      | other k x y z => simp [VisitSegments, ih]

theorem VisitSegments_nonsegments (T : Target) (h : MachOHeader) :
    ∀ (a : List MachOCommand) (v : ContentOffsetsVisitor),
      (∀ c ∈ a, c.AsMachOSegment = none) → VisitSegments T h v a = (v, a) := by
  intro a
  induction a with
  | nil => intro v _; rfl
  | cons c cs ih =>
      intro v ha
      cases c with
      | segment s =>
          have := ha (.segment s) (List.mem_cons_self _ _)
          simp [MachOCommand.AsMachOSegment] at this
      | other k x y z =>
          simp only [VisitSegments]
          rw [ih v fun c hc => ha c (List.mem_cons_of_mem _ hc)]

theorem VisitSegments_cmd (T : Target) (h : MachOHeader) :
    ∀ (a : List MachOCommand) (v : ContentOffsetsVisitor),
      (VisitSegments T h v a).2.map (fun c => c.cmd T) = a.map (fun c => c.cmd T) := by
  intro a
  induction a with
  | nil => intro v; rfl
  | cons c cs ih =>
      intro v
      cases c with
      | segment s =>
          simp only [VisitSegments, List.map_cons, ih]
          rfl
      | other k x y z => simp only [VisitSegments, List.map_cons, ih]

theorem syncCommand_cmd (T : Target) (children : List MachOContents) (c : MachOCommand) :
    (syncCommand children c).cmd T = c.cmd T ∧
      (syncCommand children c).AsMachOSegment = c.AsMachOSegment := by
  cases c with
  | segment s => exact ⟨rfl, rfl⟩
  | other k x y z =>
      simp only [syncCommand]
      cases k.asContents? with
      | none => exact ⟨rfl, rfl⟩
      | some kk =>
          simp only
          cases children.find? fun c => c.kind == kk <;> exact ⟨rfl, rfl⟩

theorem syncCommand_nonsegments (children : List MachOContents) {a : List MachOCommand}
    (ha : ∀ c ∈ a, c.AsMachOSegment = none) :
    ∀ c ∈ a.map (syncCommand children), c.AsMachOSegment = none := by
  intro c hc
  obtain ⟨c0, hc0, rfl⟩ := List.mem_map.1 hc
  rw [(syncCommand_cmd Target.example64 children c0).2]
  exact ha c0 hc0

theorem syncCommand_segment_mem (children : List MachOContents) {a : List MachOCommand}
    {s : MachOSegment} (hs : MachOCommand.segment s ∈ a.map (syncCommand children)) :
    MachOCommand.segment s ∈ a := by
  obtain ⟨c0, hc0, he⟩ := List.mem_map.1 hs
  cases c0 with
  | segment s0 =>
      simp only [syncCommand] at he
      rw [← he]; exact hc0
  | other k x y z =>
      have := (syncCommand_cmd Target.example64 children (.other k x y z)).2
      rw [he] at this
      simp [MachOCommand.AsMachOSegment] at this

end MachOHeader

theorem MachOSymbolTable.Finalize_size {T : Target} {t t1 : MachOSymbolTable}
    {address_map : List Nat} (hf : t.Finalize T address_map = some t1) :
    t1.SelfMemorySize T = t.SelfMemorySize T := by
  simp only [MachOSymbolTable.Finalize] at hf
  split_ifs at hf
  simp only [Option.some.injEq] at hf
  subst hf
  simp [MachOSymbolTable.SelfMemorySize, MachOSymbolTable.SymbolsSize,
    MachOSymbolTable.num_symbols]

namespace MachOHeader

theorem finalizeTable_frame {T : Target} {h h1 : MachOHeader} {table : TableRef}
    {address_map : List Nat} (hf : finalizeTable T h table address_map = some h1) :
    h1.commands_ = h.commands_ ∧ h1.text_segment_ = h.text_segment_ ∧ h1.type_ = h.type_ ∧
      h1.identifier_ = h.identifier_ ∧ h1.file_offset_ = h.file_offset_ ∧
      h1.memory_address_ = h.memory_address_ ∧
      ∀ tb, (h1.table? tb).map (fun t => t.SelfMemorySize T) =
        (h.table? tb).map (fun t => t.SelfMemorySize T) := by
  simp only [finalizeTable, Option.bind_eq_bind, Option.bind_eq_some] at hf
  obtain ⟨t, ht, t1, ht1, hset⟩ := hf
  have hsize := MachOSymbolTable.Finalize_size ht1
  cases table with
  | full =>
      simp only [setTable, Option.some.injEq] at hset
      subst hset
      simp only [table?, Option.some.injEq] at ht
      subst ht
      refine ⟨rfl, rfl, rfl, rfl, rfl, rfl, ?_⟩
      intro tb
      cases tb with
      | full => simp [table?, hsize]
      | zone j => rfl
  | zone i =>
      simp only [setTable] at hset
      split_ifs at hset with hi
      simp only [Option.some.injEq] at hset
      subst hset
      simp only [table?] at ht
      refine ⟨rfl, rfl, rfl, rfl, rfl, rfl, ?_⟩
      intro tb
      cases tb with
      | full => rfl
      | zone j =>
          simp only [table?, List.get?_eq_getElem?, List.getElem?_set] at ht ⊢
          by_cases hij : i = j
          · subst hij
            simp [hi, ht, hsize]
          · simp [hij]

theorem syncHeader_frame (T : Target) (h : MachOHeader) :
    (syncHeader h).commands_ = h.commands_.map (syncCommand (allContents h.commands_)) ∧
      (syncHeader h).text_segment_ = h.text_segment_ ∧ (syncHeader h).type_ = h.type_ ∧
      (syncHeader h).identifier_ = h.identifier_ ∧
      (∀ tb, ((syncHeader h).table? tb).map (fun t => t.SelfMemorySize T) =
        (h.table? tb).map (fun t => t.SelfMemorySize T)) ∧
      (∀ c, (allContents h.commands_).find? (fun c => c.kind == ContentsKind.header) = some c →
        (syncHeader h).file_offset_ = c.file_offset_ ∧
          (syncHeader h).memory_address_ = c.memory_address_) := by
  have htab : ∀ (hh : MachOHeader) (f : TableRef → MachOSymbolTable → MachOSymbolTable),
      (∀ tb t, (f tb t).SelfMemorySize T = t.SelfMemorySize T) →
      ∀ tb, (({ hh with full_symtab_ := f TableRef.full hh.full_symtab_,
                        zone_symtabs_ := hh.zone_symtabs_.enum.map
                          fun it => f (TableRef.zone it.1) it.2 } : MachOHeader).table? tb).map
          (fun t => t.SelfMemorySize T) =
        (hh.table? tb).map (fun t => t.SelfMemorySize T) := by
    intro hh f hf tb
    cases tb with
    | full => simp [table?, hf]
    | zone j =>
        simp only [table?, List.get?_eq_getElem?, List.getElem?_map, List.getElem?_enum]
        cases hh.zone_symtabs_[j]? with
        | none => rfl
        | some t => simp [hf]
  have hsync : ∀ (children : List MachOContents) (tb : TableRef) (t : MachOSymbolTable),
      (match children.find? fun (c : MachOContents) => c.kind == ContentsKind.symbolTable tb with
        | some c => { t with file_offset_ := c.file_offset_ }
        | none => t).SelfMemorySize T = t.SelfMemorySize T := by
    intro children tb t
    split <;> rfl
  simp only [syncHeader]
  split
  · rename_i c hc
    refine ⟨rfl, rfl, rfl, rfl, ?_, ?_⟩
    · exact htab _ _ (hsync _)
    · intro c' hc'
      rw [hc] at hc'
      cases hc'
      exact ⟨rfl, rfl⟩
  · rename_i hc
    refine ⟨rfl, rfl, rfl, rfl, ?_, ?_⟩
    · exact htab _ _ (hsync _)
    · intro c' hc'
      rw [hc] at hc'
      cases hc'

/-- What `ComputeOffsets` does to the commands: they get their header offsets, the
segments are laid out in order, and the commands placed in a segment take the offsets of
their contents. -/
theorem ComputeOffsets_commands {T : Target} {h2 h3 : MachOHeader}
    (hc : ComputeOffsets T h2 = some h3) :
    ∃ commands,
      setHeaderOffsets T (h2.SizeWithoutLoadCommands T) h2.commands_ = some commands ∧
      h3.commands_ =
        (VisitSegments T { h2 with commands_ := commands } ContentOffsetsVisitor.init
            commands).2.map
          (syncCommand (allContents (VisitSegments T { h2 with commands_ := commands }
            ContentOffsetsVisitor.init commands).2)) ∧
      h3.text_segment_ = h2.text_segment_ ∧ h3.type_ = h2.type_ ∧
      h3.identifier_ = h2.identifier_ ∧
      (∀ tb, (h3.table? tb).map (fun t => t.SelfMemorySize T) =
        (h2.table? tb).map (fun t => t.SelfMemorySize T)) ∧
      (∀ c, (allContents (VisitSegments T { h2 with commands_ := commands }
            ContentOffsetsVisitor.init commands).2).find?
          (fun c => c.kind == ContentsKind.header) = some c →
        h3.file_offset_ = c.file_offset_ ∧ h3.memory_address_ = c.memory_address_) := by
  simp only [ComputeOffsets, Option.bind_eq_bind, Option.bind_eq_some] at hc
  obtain ⟨⟨h1, address_map⟩, hl, h4, hf, hc⟩ := hc
  simp only [layout, Option.bind_eq_bind, Option.pure_def, Option.bind_eq_some,
    Option.some.injEq, Prod.mk.injEq] at hl
  obtain ⟨commands, hcmds, rfl, rfl⟩ := hl
  obtain ⟨s1, s2, s3, s4, s5, s6⟩ := syncHeader_frame T
    { h2 with commands_ := (VisitSegments T { h2 with commands_ := commands }
        ContentOffsetsVisitor.init commands).2 }
  obtain ⟨f1, f2, f3, f4, f5, f6, f7⟩ := finalizeTable_frame hf
  simp only at hc
  have key : h3.commands_ = h4.commands_ ∧ h3.text_segment_ = h4.text_segment_ ∧
      h3.type_ = h4.type_ ∧ h3.identifier_ = h4.identifier_ ∧
      h3.file_offset_ = h4.file_offset_ ∧ h3.memory_address_ = h4.memory_address_ ∧
      ∀ tb, (h3.table? tb).map (fun t => t.SelfMemorySize T) =
        (h4.table? tb).map (fun t => t.SelfMemorySize T) := by
    split at hc
    · cases hc
    · split_ifs at hc with hne hst
      · exact finalizeTable_frame hc
      · simp only [Option.pure_def, Option.some.injEq] at hc
        subst hc
        exact ⟨rfl, rfl, rfl, rfl, rfl, rfl, fun _ => rfl⟩
  obtain ⟨k1, k2, k3, k4, k5, k6, k7⟩ := key
  refine ⟨commands, hcmds, ?_, ?_, ?_, ?_, ?_, ?_⟩
  · rw [k1, f1, s1]
  · rw [k2, f2, s2]
  · rw [k3, f3, s3]
  · rw [k4, f4, s4]
  · intro tb
    rw [k7, f7, s5]
    rfl
  · intro c hcf
    obtain ⟨e1, e2⟩ := s6 c hcf
    exact ⟨by rw [k5, f5, e1], by rw [k6, f6, e2]⟩

/-- The sizes of the children other than the header do not depend on the offsets that
`ComputeOffsets` sets in the header. -/
theorem FileSize_tables (T : Target) {h h1 : MachOHeader}
    (ht : ∀ tb, (h1.table? tb).map (fun t => t.SelfMemorySize T) =
      (h.table? tb).map (fun t => t.SelfMemorySize T))
    (c : MachOContents) (hk : c.kind ≠ ContentsKind.header) :
    c.FileSize T h1 = c.FileSize T h := by
  rcases c with ⟨kind, fo, ma⟩
  cases kind with
  | header => exact absurd rfl hk
  | symbolTable tb =>
      have := ht tb
      simp only [MachOContents.FileSize, MachOContents.MemorySize,
        MachOContents.SelfMemorySize]
      cases h1t : h1.table? tb <;> cases h0t : h.table? tb <;> simp_all
  | _ => rfl

theorem FileSizeLoop_tables (T : Target) {h h1 : MachOHeader}
    (ht : ∀ tb, (h1.table? tb).map (fun t => t.SelfMemorySize T) =
      (h.table? tb).map (fun t => t.SelfMemorySize T)) :
    ∀ (cs : List MachOContents) (n : Nat), (∀ c ∈ cs, c.kind ≠ ContentsKind.header) →
      MachOSegment.FileSizeLoop T h1 n cs = MachOSegment.FileSizeLoop T h n cs := by
  intro cs
  induction cs with
  | nil => intro n _; rfl
  | cons c cs ih =>
      intro n hk
      simp only [MachOSegment.FileSizeLoop]
      rw [FileSize_tables T ht c (hk c (List.mem_cons_self _ _))]
      split_ifs
      · exact ih _ fun c' hc' => hk c' (List.mem_cons_of_mem _ hc')
      · exact ih _ fun c' hc' => hk c' (List.mem_cons_of_mem _ hc')

end MachOHeader

/-- The last two phases of `Finalize`, and what the phases before them keep. -/
theorem MachOHeader.Finalize_split {T : Target} {h h3 : MachOHeader}
    (hfin : h.Finalize T = some h3) :
    ∃ hx h2, MachOHeader.FinalizeCommands T hx = some h2 ∧
      MachOHeader.ComputeOffsets T h2 = some h3 ∧
      hx.type_ = h.type_ ∧ hx.identifier_ = h.identifier_ ∧
      (h.HasOnlySections = true → hx.HasOnlySections = true) ∧
      IsPowerOfTwo T.kWordSize = true := by
  unfold MachOHeader.Finalize at hfin
  simp only [Option.bind_eq_bind, Option.bind_eq_some] at hfin
  obtain ⟨h2, hpre, hco⟩ := hfin
  obtain ⟨hx, hfc, e1, e2, e3, e4⟩ := MachOHeader.beforeComputeOffsets_sections hpre
  exact ⟨hx, h2, hfc, hco, e1, e2, e3, e4⟩

namespace ContentOffsetsVisitor

/-- The file offset that a child with contents gets. -/
theorem Accept_file_offset (T : Target) (h : MachOHeader) (v : ContentOffsetsVisitor)
    (c : MachOContents) (hc : c.HasContents = true) :
    (Accept T h v c).2.file_offset_ = (RoundUp v.file_offset (c.Alignment T) : Nat) := by
  have hd : (Default T h v c).2.file_offset_ = (RoundUp v.file_offset (c.Alignment T) : Nat) := by
    rw [Default, (DefaultMemory_file T h _ _).2]
    simp [DefaultFile, hc]
  unfold Accept VisitMachOSection
  split <;> exact hd

/-- The file cursor after a child equals the child's file offset plus its file size,
when the child had contents to place. -/
theorem Accept_file_end (T : Target) (h : MachOHeader) (v : ContentOffsetsVisitor)
    (c : MachOContents) (ha : 0 < c.Alignment T) (hc : c.HasContents = true)
    (hk : c.kind ≠ ContentsKind.header) :
    ((Accept T h v c).1.file_offset : Int) =
      (Accept T h v c).2.file_offset_ + ((Accept T h v c).2.FileSize T h : Nat) := by
  have h1 := Accept_file T h v c ha
  have h2 := Accept_file_offset T h v c hc
  have hkind := Accept_kind T h v c
  by_cases hh : (Accept T h v c).2.HasContents = true
  · rw [if_pos hh] at h1
    rw [h1, h2]
    push_cast
    rfl
  · rw [if_neg hh] at h1
    have hzero : (Accept T h v c).2.file_offset_ = 0 := by
      generalize (Accept T h v c).2 = c2 at hh hkind
      rcases c2 with ⟨k2, f2, m2⟩
      rcases c with ⟨k, f, m⟩
      simp only at hkind hk
      subst hkind
      cases k2 <;> simp_all [MachOContents.HasContents]
    have hfs : (Accept T h v c).2.FileSize T h = 0 := by
      simp [MachOContents.FileSize, hh]
    have hle := le_RoundUp v.file_offset (c.Alignment T) ha
    rw [hzero] at h2
    have : RoundUp v.file_offset (c.Alignment T) = 0 := by exact_mod_cast h2.symm
    rw [h1, hzero, hfs]
    have hv : v.file_offset = 0 := by omega
    rw [hv]; rfl

end ContentOffsetsVisitor

/-- The link-edit segment of a finalized header: `FinalizeCommands` makes it the last
segment, and `ComputeOffsets` lays it out after the commands before it. -/
theorem MachOHeader.linkedit_layout {T : Target} {hx h2 h3 : MachOHeader}
    (hfc : MachOHeader.FinalizeCommands T hx = some h2)
    (hco : MachOHeader.ComputeOffsets T h2 = some h3) :
    ∃ (linkedit : MachOSegment) (commands before post : List MachOCommand)
      (v : ContentOffsetsVisitor) (n : Int),
      hx.createLinkeditSegment (Spec.linkeditCommands hx.commands_) = some linkedit ∧
      h3.commands_ = before ++
        .segment (ContentOffsetsVisitor.VisitMachOSegment T { h2 with commands_ := commands } v
          { linkedit with header_offset_ := n }).2 :: post ∧
      (∀ c ∈ post, c.AsMachOSegment = none) ∧
      (∀ tb, (h3.table? tb).map (fun t => t.SelfMemorySize T) =
        (({ h2 with commands_ := commands } : MachOHeader).table? tb).map
          (fun t => t.SelfMemorySize T)) := by
  obtain ⟨text, linkedit, bins, _, _, _, _, _, hlink, _, hcmds, _, _, _, _, _, _, _, _, _⟩ :=
    MachOHeader.FinalizeCommands_spec hfc
  obtain ⟨commands, hset, h3c, _, _, _, htab, _⟩ := MachOHeader.ComputeOffsets_commands hco
  have hshape : h2.commands_ =
      (Spec.headerOnlyCommands hx.commands_ ++ .segment (Spec.withHeader hx text) ::
        (Spec.symbolSegments hx.commands_ ++ Spec.otherSegments hx.commands_)) ++
      (.segment linkedit ::
        (Spec.linkeditCommands hx.commands_ ++ Spec.signatureCommands hx)) := by
    rw [hcmds]; simp [List.append_assoc]
  rw [hshape] at hset
  obtain ⟨p1, q1, n1, hp1, hq1, rfl⟩ := MachOHeader.setHeaderOffsets_append T _ _ _ _ hset
  obtain ⟨x1, b1, n2, hx1, hb1, rfl⟩ := MachOHeader.setHeaderOffsets_cons T hq1
  have hx1 := MachOHeader.set_header_offset_segment hx1
  subst hx1
  have hb1n : ∀ c ∈ b1, c.AsMachOSegment = none :=
    MachOHeader.setHeaderOffsets_nonsegments T hb1 (by
      intro c hc
      rcases List.mem_append.1 hc with hc | hc
      · exact Spec.linkeditCommands_nonsegments _ c hc
      · exact Spec.signatureCommands_nonsegments _ c hc)
  rw [MachOHeader.VisitSegments_append] at h3c
  simp only [MachOHeader.VisitSegments, List.map_append, List.map_cons] at h3c
  rw [MachOHeader.VisitSegments_nonsegments T _ b1 _ hb1n] at h3c
  simp only [MachOHeader.syncCommand] at h3c
  exact ⟨linkedit, _, _, _, _, _, hlink, h3c,
    MachOHeader.syncCommand_nonsegments _ hb1n, htab⟩

/-- The children of the link-edit segment of a snapshot: the code signature, not yet
placed, is the last one. -/
theorem MachOHeader.createLinkeditSegment_signature {h : MachOHeader}
    {commands : List MachOCommand} {s : MachOSegment}
    (hc : h.createLinkeditSegment commands = some s) (ht : h.type_ = SnapshotType.Snapshot) :
    ∃ children, s.contents_ = children ++
      [⟨ContentsKind.codeSignature h.identifier_, kLinearInitValue, kLinearInitValue⟩] := by
  obtain ⟨_, h2, _⟩ := MachOHeader.createLinkeditSegment_spec hc
  have hs : Spec.signatureCommands h = [h.codeSignature] := by
    simp [Spec.signatureCommands, ht]
  rw [hs, List.map_append, List.map_eq_append_iff] at h2
  obtain ⟨l1, l2, hl, _, h22⟩ := h2
  refine ⟨l1, ?_⟩
  rw [hl]
  congr 1
  cases l2 with
  | nil => simp at h22
  | cons a rest =>
      simp only [List.map_cons, List.map_nil, List.cons.injEq, List.map_eq_nil_iff] at h22
      obtain ⟨ha, rfl⟩ := h22
      have : a = ⟨ContentsKind.codeSignature h.identifier_, kLinearInitValue,
          kLinearInitValue⟩ := by
        have hh : MachOHeader.linkeditContents h.codeSignature =
            some ⟨ContentsKind.codeSignature h.identifier_, kLinearInitValue,
              kLinearInitValue⟩ := rfl
        rw [hh] at ha
        exact Option.some.inj ha
      rw [this]

/-- The children of the link-edit segment are command nodes, aligned to the word size or
to the hash alignment. -/
theorem MachOHeader.createLinkeditSegment_children {T : Target} {h : MachOHeader}
    {commands : List MachOCommand} {s : MachOSegment}
    (hc : h.createLinkeditSegment commands = some s) :
    ∀ c ∈ s.contents_, c.kind ≠ ContentsKind.header ∧
      (c.Alignment T = T.kWordSize ∨ c.Alignment T = kHashAlignment) := by
  obtain ⟨_, h2, _⟩ := MachOHeader.createLinkeditSegment_spec hc
  intro c hmem
  have hm : some c ∈ s.contents_.map some := List.mem_map_of_mem _ hmem
  rw [h2] at hm
  obtain ⟨cmd, _, he⟩ := List.mem_map.1 hm
  have hk := (MachOHeader.linkeditContents_isCommand he).1
  rcases c with ⟨kind, fo, ma⟩
  cases kind <;> simp_all [MachOContents.IsMachOCommand, MachOContents.Alignment]

/-- `ComputeOffsets` keeps the kinds of the commands. -/
theorem MachOHeader.ComputeOffsets_cmd {T : Target} {h2 h3 : MachOHeader}
    (hco : MachOHeader.ComputeOffsets T h2 = some h3) :
    h3.commands_.map (fun c => c.cmd T) = h2.commands_.map (fun c => c.cmd T) := by
  obtain ⟨commands, hset, h3c, _⟩ := MachOHeader.ComputeOffsets_commands hco
  rw [h3c, List.map_map]
  have : ((fun c => MachOCommand.cmd T c) ∘ MachOHeader.syncCommand
      (MachOHeader.allContents (MachOHeader.VisitSegments T { h2 with commands_ := commands }
        ContentOffsetsVisitor.init commands).2)) = fun c => MachOCommand.cmd T c := by
    funext c
    exact (MachOHeader.syncCommand_cmd T _ c).1
  rw [this, MachOHeader.VisitSegments_cmd, (MachOHeader.setHeaderOffsets_cmd T _ _ _ hset).1]

theorem MachOHeader.HasCommand_eq_any (T : Target) (h : MachOHeader) (cmd : Nat) :
    h.HasCommand T cmd = (h.commands_.map (fun c => c.cmd T)).any (fun x => x == cmd) := by
  unfold MachOHeader.HasCommand
  induction h.commands_ with
  | nil => rfl
  | cons c cs ih => simp only [List.any_cons, List.map_cons, ih]

/-- After `FinalizeCommands` of debugging information there is no code signature. -/
theorem MachOHeader.FinalizeCommands_no_signature {T : Target} {hx h2 : MachOHeader}
    (hfc : MachOHeader.FinalizeCommands T hx = some h2)
    (ht : hx.type_ = SnapshotType.DebugInfo) :
    h2.HasCommand T LC_CODE_SIGNATURE = false := by
  obtain ⟨text, linkedit, bins, _, _, _, _, _, _, _, hcmds, _, _, _, _, _, _, _, _, hnosig⟩ :=
    MachOHeader.FinalizeCommands_spec hfc
  have hs : Spec.signatureCommands hx = [] := by simp [Spec.signatureCommands, ht]
  have hold : ∀ c ∈ hx.commands_, (c.cmd T == LC_CODE_SIGNATURE) = false := by
    simpa [MachOHeader.HasCommand] using hnosig
  have hseg : ∀ s : MachOSegment,
      ((MachOCommand.segment s).cmd T == LC_CODE_SIGNATURE) = false := by
    intro s
    simp only [MachOCommand.cmd]
    split_ifs <;> decide
  unfold MachOHeader.HasCommand
  rw [List.any_eq_false]
  intro c hc
  rw [hcmds, hs] at hc
  simp only [List.mem_append, List.mem_cons, List.append_nil] at hc
  have hfilter : ∀ (p : MachOCommand → Bool), c ∈ hx.commands_.filter p →
      (c.cmd T == LC_CODE_SIGNATURE) = false :=
    fun p hp => hold c (List.mem_filter.1 hp).1
  rcases hc with hc | rfl | hc | hc | rfl | hc
  · simpa using hfilter _ hc
  · simpa using hseg _
  · simpa using hfilter _ hc
  · simpa using hfilter _ hc
  · simpa using hseg _
  · simpa using hfilter _ hc

/-- C15: after `Finalize` of a snapshot the `__LINKEDIT` segment is the last segment (only
commands that are no segments follow it), the code signature is its last child, and its
file size is not padded to the page size, so the code signature ends where the segment,
and with it the file, ends: `signature.file_offset + signature.FileSize()` equals
`linkedit.file_offset + linkedit.FileSize()`. After `Finalize` of debugging information
there is no code signature command. -/
theorem C15_code_signature_ends_file (T : Target) (h h3 : MachOHeader)
    (hfin : h.Finalize T = some h3) (hpage : IsPowerOfTwo T.kPageSize = true)
    (hwp : T.kWordSize ≤ T.kPageSize) (hhp : kHashAlignment ≤ T.kPageSize) :
    (h.type_ = SnapshotType.Snapshot →
      ∃ before linkedit post children signature,
        h3.commands_ = before ++ .segment linkedit :: post ∧
        (∀ c ∈ post, c.AsMachOSegment = none) ∧
        linkedit.HasName SEG_LINKEDIT = true ∧ linkedit.PadFileSizeToAlignment = false ∧
        linkedit.contents_ = children ++ [signature] ∧
        signature.kind = ContentsKind.codeSignature h.identifier_ ∧
        linkedit.FileSize T h3 = MachOSegment.FileSizeLoop T h3 0 linkedit.contents_ ∧
        signature.file_offset_ + ((signature.FileSize T h3 : Nat) : Int) =
          linkedit.file_offset_ + ((linkedit.FileSize T h3 : Nat) : Int)) ∧
    (h.type_ = SnapshotType.DebugInfo → h3.HasCommand T LC_CODE_SIGNATURE = false) := by
  obtain ⟨hx, h2, hfc, hco, htype, hid, _, hword⟩ := MachOHeader.Finalize_split hfin
  constructor
  · intro hsnap
    obtain ⟨linkedit, commands, before, post, v, n, hlink, h3c, hpost, htab⟩ :=
      MachOHeader.linkedit_layout hfc hco
    obtain ⟨l1, _, _⟩ := MachOHeader.createLinkeditSegment_spec hlink
    obtain ⟨children, hch⟩ :=
      MachOHeader.createLinkeditSegment_signature hlink (htype.trans hsnap)
    have hkids := @MachOHeader.createLinkeditSegment_children T _ _ _ hlink
    have hP := IsPowerOfTwo_pos hpage
    have hal : ∀ c ∈ linkedit.contents_, 0 < c.Alignment T ∧ c.Alignment T ∣ T.kPageSize := by
      intro c hc
      rcases (hkids c hc).2 with ha | ha
      · rw [ha]
        exact ⟨IsPowerOfTwo_pos hword, IsPowerOfTwo_dvd hword hpage hwp⟩
      · rw [ha]
        exact ⟨by decide, IsPowerOfTwo_dvd (by decide) hpage hhp⟩
    rw [ContentOffsetsVisitor.VisitMachOSegment_eq] at h3c
    simp only at h3c
    have htab1 : ∀ c : MachOContents, c.kind ≠ ContentsKind.header →
        c.FileSize T h3 = c.FileSize T { h2 with commands_ := commands } :=
      fun c hk => MachOHeader.FileSize_tables T htab c hk
    have htab2 := MachOHeader.FileSizeLoop_tables T htab
    generalize ({ h2 with commands_ := commands } : MachOHeader) = hl at h3c htab1 htab2
    have hs0 : T.kPageSize ∣ RoundUp v.file_offset T.kPageSize := RoundUp_dvd _ _
    obtain ⟨v1, hv1⟩ : ∃ v1 : ContentOffsetsVisitor, v1 =
        { v with file_offset := RoundUp v.file_offset T.kPageSize,
                 memory_address := RoundUp v.memory_address T.kPageSize } := ⟨_, rfl⟩
    rw [← hv1] at h3c
    have hv1f : v1.file_offset = RoundUp v.file_offset T.kPageSize + 0 := by rw [hv1]; rfl
    generalize RoundUp v.file_offset T.kPageSize = s0 at h3c hs0 hv1f
    -- the children: those before the signature, then the signature
    have hvis := ContentOffsetsVisitor.VisitChildren_append T hl children
      [⟨ContentsKind.codeSignature hx.identifier_, kLinearInitValue, kLinearInitValue⟩] v1
    rw [← hch] at hvis
    simp only [ContentOffsetsVisitor.VisitChildren] at hvis
    have hfile := ContentOffsetsVisitor.VisitChildren_file T hl s0 hs0 linkedit.contents_ v1 0
      hal hv1f
    have hend := ContentOffsetsVisitor.Accept_file_end T hl
      (ContentOffsetsVisitor.VisitChildren T hl v1 children).1
      ⟨ContentsKind.codeSignature hx.identifier_, kLinearInitValue, kLinearInitValue⟩
      (by simp [MachOContents.Alignment, kHashAlignment])
      (by simp [MachOContents.HasContents, kLinearInitValue]) (by simp)
    have hkinds := ContentOffsetsVisitor.VisitChildren_kinds T hl linkedit.contents_ v1
    have hnohdr : ∀ c ∈ (ContentOffsetsVisitor.VisitChildren T hl v1 linkedit.contents_).2,
        c.kind ≠ ContentsKind.header := by
      intro c hc
      have hm : c.kind ∈ (ContentOffsetsVisitor.VisitChildren T hl v1
          linkedit.contents_).2.map (fun c => c.kind) := List.mem_map_of_mem _ hc
      rw [hkinds] at hm
      obtain ⟨c0, hc0, he⟩ := List.mem_map.1 hm
      rw [← he]
      exact (hkids c0 hc0).1
    refine ⟨before, _, post, (ContentOffsetsVisitor.VisitChildren T hl v1 children).2,
      (ContentOffsetsVisitor.Accept T hl (ContentOffsetsVisitor.VisitChildren T hl v1 children).1
        ⟨ContentsKind.codeSignature hx.identifier_, kLinearInitValue, kLinearInitValue⟩).2,
      h3c, hpost, ?_, ?_, ?_, ?_, ?_, ?_⟩
    · simp [MachOSegment.HasName, l1]
    · simp [MachOSegment.PadFileSizeToAlignment, MachOSegment.HasName, l1]
    · simp only
      rw [hvis]
    · rw [ContentOffsetsVisitor.Accept_kind, hid]
    · simp [MachOSegment.FileSize, MachOSegment.PadFileSizeToAlignment, MachOSegment.HasName,
        l1, MachOSegment.SelfFileSize, MachOSegment.SelfMemorySize]
    · rw [htab1 _ (by rw [ContentOffsetsVisitor.Accept_kind]; simp)]
      simp only [MachOSegment.FileSize, MachOSegment.PadFileSizeToAlignment,
        MachOSegment.HasName, l1, MachOSegment.SelfFileSize, MachOSegment.SelfMemorySize,
        beq_self_eq_true, Bool.not_true, Bool.false_eq_true, if_false, ite_self]
      rw [htab2 _ 0 hnohdr, ← hend]
      have hcur : (ContentOffsetsVisitor.Accept T hl
          (ContentOffsetsVisitor.VisitChildren T hl v1 children).1
          ⟨ContentsKind.codeSignature hx.identifier_, kLinearInitValue,
            kLinearInitValue⟩).1.file_offset =
          s0 + MachOSegment.FileSizeLoop T hl 0
            (ContentOffsetsVisitor.VisitChildren T hl v1 linkedit.contents_).2 := by
        rw [← hfile, hvis]
      rw [hcur]
      push_cast
      rfl
  · intro hdbg
    rw [MachOHeader.HasCommand_eq_any, MachOHeader.ComputeOffsets_cmd hco,
      ← MachOHeader.HasCommand_eq_any]
    exact MachOHeader.FinalizeCommands_no_signature hfc (htype.trans hdbg)

theorem C15_code_signature_ends_file_witness :
    (MachOHeader.sampleSnapshotHeader.Finalize Target.example64 =
        some MachOHeader.sampleFinalized ∧
      MachOHeader.sampleSnapshotHeader.type_ = SnapshotType.Snapshot ∧
      MachOHeader.sampleDebugInfoHeader.type_ = SnapshotType.DebugInfo ∧
      IsPowerOfTwo Target.example64.kPageSize = true ∧
      Target.example64.kWordSize ≤ Target.example64.kPageSize ∧
      kHashAlignment ≤ Target.example64.kPageSize) ∧
    (∃ before linkedit post children signature,
      MachOHeader.sampleFinalized.commands_ = before ++ .segment linkedit :: post ∧
      (∀ c ∈ post, c.AsMachOSegment = none) ∧
      linkedit.HasName SEG_LINKEDIT = true ∧ linkedit.PadFileSizeToAlignment = false ∧
      linkedit.contents_ = children ++ [signature] ∧
      signature.kind = ContentsKind.codeSignature MachOHeader.sampleSnapshotHeader.identifier_ ∧
      linkedit.FileSize Target.example64 MachOHeader.sampleFinalized =
        MachOSegment.FileSizeLoop Target.example64 MachOHeader.sampleFinalized 0
          linkedit.contents_ ∧
      signature.file_offset_ +
          ((signature.FileSize Target.example64 MachOHeader.sampleFinalized : Nat) : Int) =
        linkedit.file_offset_ +
          ((linkedit.FileSize Target.example64 MachOHeader.sampleFinalized : Nat) : Int)) ∧
    MachOHeader.sampleDebugInfoFinalized.HasCommand Target.example64 LC_CODE_SIGNATURE = false :=
  ⟨⟨by decide!, by decide, by decide, by decide, by decide, by decide⟩,
    (C15_code_signature_ends_file Target.example64 MachOHeader.sampleSnapshotHeader
      MachOHeader.sampleFinalized (by decide!) (by decide) (by decide) (by decide)).1
      (by decide),
    (C15_code_signature_ends_file Target.example64 MachOHeader.sampleDebugInfoHeader
      MachOHeader.sampleDebugInfoFinalized (by decide!) (by decide) (by decide) (by decide)).2
      (by decide)⟩

namespace ContentOffsetsVisitor

/-- The header, visited with both cursors at 0, is placed at 0 and moves both cursors to
its size. -/
theorem Accept_header (T : Target) (h : MachOHeader) (v : ContentOffsetsVisitor)
    (fo ma : Int) (hf : v.file_offset = 0) (hm : v.memory_address = 0) :
    (Accept T h v ⟨ContentsKind.header, fo, ma⟩).2 = ⟨ContentsKind.header, 0, 0⟩ ∧
      (Accept T h v ⟨ContentsKind.header, fo, ma⟩).1.file_offset = h.SelfMemorySize T ∧
      (Accept T h v ⟨ContentsKind.header, fo, ma⟩).1.memory_address = h.SelfMemorySize T := by
  simp [Accept, Default, DefaultFile, DefaultMemory, MachOContents.HasContents,
    MachOContents.IsAllocated, MachOContents.SelfFileSize, MachOContents.SelfMemorySize,
    MachOContents.Alignment, hf, hm, RoundUp_zero]

theorem IsInitial_false {s : MachOSegment}
    (hs : ∀ c ∈ s.contents_, c.kind ≠ ContentsKind.header) : s.IsInitial = false := by
  unfold MachOSegment.IsInitial
  cases hc : s.contents_ with
  | nil => rfl
  | cons c cs =>
      have := hs c (by rw [hc]; exact List.mem_cons_self _ _)
      simpa using this

theorem VisitChildren_kind_mem (T : Target) (h : MachOHeader) (cs : List MachOContents)
    (v : ContentOffsetsVisitor) (p : ContentsKind → Prop)
    (hp : ∀ c ∈ cs, p c.kind) : ∀ c ∈ (VisitChildren T h v cs).2, p c.kind := by
  intro c hc
  have hm : c.kind ∈ (VisitChildren T h v cs).2.map (fun c => c.kind) :=
    List.mem_map_of_mem _ hc
  rw [VisitChildren_kinds] at hm
  obtain ⟨c0, hc0, he⟩ := List.mem_map.1 hm
  rw [← he]
  exact hp c0 hc0

end ContentOffsetsVisitor

namespace MachOHeader

/-- Segments that are visited with both cursors positive get positive offsets, and stay
not initial. -/
theorem VisitSegments_positive (T : Target) (h : MachOHeader) (hpage : 0 < T.kPageSize) :
    ∀ (commands : List MachOCommand) (v : ContentOffsetsVisitor),
      0 < v.file_offset → 0 < v.memory_address →
      (∀ s, MachOCommand.segment s ∈ commands →
        ∀ c ∈ s.contents_, 0 < c.Alignment T ∧ c.kind ≠ ContentsKind.header) →
      ∀ s, MachOCommand.segment s ∈ (VisitSegments T h v commands).2 →
        s.IsInitial = false ∧ 0 < s.file_offset_ ∧ 0 < s.memory_address_ := by
  intro commands
  induction commands with
  | nil => intro v _ _ _ s hs; simp [VisitSegments] at hs
  | cons c cs ih =>
      intro v hf hm hall s hs
      cases c with
      | segment s0 =>
          have h0 := hall s0 (List.mem_cons_self _ _)
          have hmono := ContentOffsetsVisitor.VisitMachOSegment_mono T h v s0 hpage
            (fun c hc => (h0 c hc).1)
          simp only [VisitSegments, List.mem_cons, MachOCommand.segment.injEq] at hs
          rcases hs with rfl | hs
          · refine ⟨?_, by omega, by omega⟩
            apply ContentOffsetsVisitor.IsInitial_false
            rw [ContentOffsetsVisitor.VisitMachOSegment_eq]
            exact ContentOffsetsVisitor.VisitChildren_kind_mem T h _ _
              (fun k => k ≠ ContentsKind.header) (fun c hc => (h0 c hc).2)
          · exact ih _ (by omega) (by omega)
              (fun s1 hs1 => hall s1 (List.mem_cons_of_mem _ hs1)) s hs
      | other k x y z =>
          simp only [VisitSegments, List.mem_cons] at hs
          rcases hs with hs | hs
          · cases hs
          · exact ih v hf hm (fun s1 hs1 => hall s1 (List.mem_cons_of_mem _ hs1)) s hs

theorem IsAlignedSection_spec {T : Target} {c : MachOContents}
    (hc : c.IsAlignedSection = true) : 0 < c.Alignment T ∧ c.kind ≠ ContentsKind.header := by
  rcases c with ⟨kind, fo, ma⟩
  cases kind with
  | «section» s =>
      refine ⟨?_, by simp⟩
      exact IsPowerOfTwo_pos (by simpa [MachOContents.IsAlignedSection] using hc)
  | _ => simp [MachOContents.IsAlignedSection] at hc

end MachOHeader

/-- The layout of the initial segment: visited first, with the header as its first child,
it and the header are placed at 0, and the cursors leave it positive. -/
theorem ContentOffsetsVisitor.VisitMachOSegment_initial (T : Target) (hl : MachOHeader)
    (s : MachOSegment) (fo ma : Int) (cs : List MachOContents)
    (hs : s.contents_ = ⟨ContentsKind.header, fo, ma⟩ :: cs)
    (hal : ∀ c ∈ cs, 0 < c.Alignment T)
    (hhdr : 0 < T.sizeofHeaderType) (hpage : 0 < T.kPageSize) :
    (ContentOffsetsVisitor.VisitMachOSegment T hl ContentOffsetsVisitor.init s).2.file_offset_
        = 0 ∧
      (ContentOffsetsVisitor.VisitMachOSegment T hl ContentOffsetsVisitor.init s).2.memory_address_
        = 0 ∧
      (ContentOffsetsVisitor.VisitMachOSegment T hl ContentOffsetsVisitor.init s).2.contents_.head?
        = some ⟨ContentsKind.header, 0, 0⟩ ∧
      (ContentOffsetsVisitor.VisitMachOSegment T hl ContentOffsetsVisitor.init s).2.name_
        = s.name_ ∧
      0 < (ContentOffsetsVisitor.VisitMachOSegment T hl ContentOffsetsVisitor.init s).1.file_offset ∧
      0 < (ContentOffsetsVisitor.VisitMachOSegment T hl
        ContentOffsetsVisitor.init s).1.memory_address := by
  rw [ContentOffsetsVisitor.VisitMachOSegment_eq]
  simp only [ContentOffsetsVisitor.init, RoundUp_zero, hs, ContentOffsetsVisitor.VisitChildren]
  obtain ⟨e1, e2, e3⟩ := ContentOffsetsVisitor.Accept_header T hl
    { address_map := [0], file_offset := 0, memory_address := 0 } fo ma rfl rfl
  have hsz := MachOHeader.sizeofHeaderType_le T hl
  have hmono := ContentOffsetsVisitor.VisitChildren_mono T hl cs
    (ContentOffsetsVisitor.Accept T hl
      { address_map := [0], file_offset := 0, memory_address := 0 }
      ⟨ContentsKind.header, fo, ma⟩).1 hal
  rw [e2, e3] at hmono
  have h4 := le_RoundUp (ContentOffsetsVisitor.VisitChildren T hl
    (ContentOffsetsVisitor.Accept T hl
      { address_map := [0], file_offset := 0, memory_address := 0 }
      ⟨ContentsKind.header, fo, ma⟩).1 cs).1.file_offset T.kPageSize hpage
  have h5 := le_RoundUp (ContentOffsetsVisitor.VisitChildren T hl
    (ContentOffsetsVisitor.Accept T hl
      { address_map := [0], file_offset := 0, memory_address := 0 }
      ⟨ContentsKind.header, fo, ma⟩).1 cs).1.memory_address T.kPageSize hpage
  refine ⟨rfl, rfl, ?_, trivial, ?_, ?_⟩
  · simp only [List.head?_cons, e1]
  · split_ifs <;> omega
  · omega

/-- The traversal of a command list whose first segment comes after commands that are no
segments. -/
theorem MachOHeader.VisitSegments_first (T : Target) (hl : MachOHeader)
    (a : List MachOCommand) (s : MachOSegment) (r : List MachOCommand)
    (v : ContentOffsetsVisitor) (ha : ∀ c ∈ a, c.AsMachOSegment = none) :
    (MachOHeader.VisitSegments T hl v (a ++ .segment s :: r)).2 =
      a ++ .segment (ContentOffsetsVisitor.VisitMachOSegment T hl v s).2 ::
        (MachOHeader.VisitSegments T hl
          (ContentOffsetsVisitor.VisitMachOSegment T hl v s).1 r).2 := by
  rw [MachOHeader.VisitSegments_append, MachOHeader.VisitSegments_nonsegments T hl a v ha]
  simp only [MachOHeader.VisitSegments]

/-- C17: after `Finalize` of a header whose segments so far hold only sections, the text
segment is the first segment of the command list (only commands that are no segments come
before it) and the one that `text_segment_` designates; it is initial, its first child is
the header, and it and the header have `file_offset == 0` and `memory_address == 0`;
every other segment is not initial and has a non-zero `file_offset` and a non-zero
`memory_address`. -/
theorem C17_text_segment_initial (T : Target) (h h3 : MachOHeader)
    (hfin : h.Finalize T = some h3) (hwf : h.HasOnlySections = true)
    (hhdr : 0 < T.sizeofHeaderType) (hpage : 0 < T.kPageSize) :
    ∃ before text rest,
      h3.commands_ = before ++ .segment text :: rest ∧
      (∀ c ∈ before, c.AsMachOSegment = none) ∧
      h3.text_segment_ = some before.length ∧
      text.HasName SEG_TEXT = true ∧ text.IsInitial = true ∧
      text.file_offset_ = 0 ∧ text.memory_address_ = 0 ∧
      text.contents_.head? = some ⟨ContentsKind.header, 0, 0⟩ ∧
      h3.file_offset_ = 0 ∧ h3.memory_address_ = 0 ∧
      ∀ s, MachOCommand.segment s ∈ rest →
        s.IsInitial = false ∧ s.file_offset_ ≠ 0 ∧ s.memory_address_ ≠ 0 := by
  obtain ⟨hx, h2, hfc, hco, _, _, hwfx, hword⟩ := MachOHeader.Finalize_split hfin
  have hwfx := (MachOHeader.HasOnlySections_iff hx).1 (hwfx hwf)
  obtain ⟨text, linkedit, bins, _, hget, htn, _, _, hlink, _, hcmds, htseg, _, _, _, _, _, _, _,
    _⟩ := MachOHeader.FinalizeCommands_spec hfc
  obtain ⟨commands, hset, h3c, htext3, _, _, _, hhdr3⟩ := MachOHeader.ComputeOffsets_commands hco
  generalize ({ h2 with commands_ := commands } : MachOHeader) = hl at h3c hhdr3
  have htextmem : MachOCommand.segment text ∈ hx.commands_ := List.mem_iff_get?.2 ⟨0, hget⟩
  have hkids := @MachOHeader.createLinkeditSegment_children T _ _ _ hlink
  -- the segments after the text segment: sections or command nodes as children
  have hrest : ∀ s, MachOCommand.segment s ∈
      Spec.symbolSegments hx.commands_ ++ (Spec.otherSegments hx.commands_ ++
        .segment linkedit :: (Spec.linkeditCommands hx.commands_ ++ Spec.signatureCommands hx)) →
      ∀ c ∈ s.contents_, 0 < c.Alignment T ∧ c.kind ≠ ContentsKind.header := by
    intro s hs c hc
    simp only [List.mem_append, List.mem_cons, MachOCommand.segment.injEq] at hs
    rcases hs with hs | hs | rfl | hs | hs
    · exact MachOHeader.IsAlignedSection_spec
        (hwfx s (List.mem_filter.1 hs).1 c hc)
    · exact MachOHeader.IsAlignedSection_spec
        (hwfx s (List.mem_filter.1 hs).1 c hc)
    · refine ⟨?_, (hkids c hc).1⟩
      rcases (hkids c hc).2 with ha | ha
      · rw [ha]; exact IsPowerOfTwo_pos hword
      · rw [ha]; decide
    · have := Spec.linkeditCommands_nonsegments _ _ hs
      simp [MachOCommand.AsMachOSegment] at this
    · have := Spec.signatureCommands_nonsegments _ _ hs
      simp [MachOCommand.AsMachOSegment] at this
  -- the header offsets
  rw [hcmds] at hset
  obtain ⟨a1, q1, n1, ha1, hq1, rfl⟩ := MachOHeader.setHeaderOffsets_append T _ _ _ _ hset
  obtain ⟨x1, r1, n2, hx1, hr1, rfl⟩ := MachOHeader.setHeaderOffsets_cons T hq1
  have hx1 := MachOHeader.set_header_offset_segment hx1
  subst hx1
  have ha1n : ∀ c ∈ a1, c.AsMachOSegment = none :=
    MachOHeader.setHeaderOffsets_nonsegments T ha1 (Spec.headerOnlyCommands_nonsegments _)
  have ha1l := (MachOHeader.setHeaderOffsets_mem T _ _ _ ha1).1
  have hr1k : ∀ s, MachOCommand.segment s ∈ r1 →
      ∀ c ∈ s.contents_, 0 < c.Alignment T ∧ c.kind ≠ ContentsKind.header := by
    intro s hs
    obtain ⟨c0, hc0, v, hv⟩ := (MachOHeader.setHeaderOffsets_mem T _ _ _ hr1).2 _ hs
    cases c0 with
    | segment s0 =>
        have := MachOHeader.set_header_offset_segment hv
        simp only [MachOCommand.segment.injEq] at this
        subst this
        exact hrest s0 hc0
    | other k x y z =>
        have := MachOHeader.set_header_offset_other hv
        cases this
  -- the traversal
  have hvs := MachOHeader.VisitSegments_first T hl a1
    { Spec.withHeader hx text with header_offset_ := (n1 : Int) } r1 ContentOffsetsVisitor.init
    ha1n
  rw [hvs] at h3c hhdr3
  have htal : ∀ c ∈ text.contents_, 0 < c.Alignment T :=
    fun c hc => (MachOHeader.IsAlignedSection_spec (hwfx text htextmem c hc)).1
  obtain ⟨t1, t2, t3, t4, t5, t6⟩ := ContentOffsetsVisitor.VisitMachOSegment_initial T hl
    { Spec.withHeader hx text with header_offset_ := (n1 : Int) } hx.file_offset_
    hx.memory_address_ text.contents_ rfl htal hhdr hpage
  have hpos := MachOHeader.VisitSegments_positive T hl hpage r1 _ t5 t6 hr1k
  generalize ContentOffsetsVisitor.VisitMachOSegment T hl ContentOffsetsVisitor.init
    { Spec.withHeader hx text with header_offset_ := (n1 : Int) } = r at h3c hhdr3 t1 t2 t3 t4 hpos
  generalize MachOHeader.VisitSegments T hl r.1 r1 = rs at h3c hhdr3 hpos
  obtain ⟨tl, htl⟩ : ∃ tl, r.2.contents_ = ⟨ContentsKind.header, 0, 0⟩ :: tl := by
    cases hc : r.2.contents_ with
    | nil => rw [hc] at t3; simp at t3
    | cons c cs =>
        rw [hc] at t3
        simp only [List.head?_cons, Option.some.injEq] at t3
        exact ⟨cs, by rw [t3]⟩
  have hfind : (MachOHeader.allContents (a1 ++ MachOCommand.segment r.2 :: rs.2)).find?
      (fun c => c.kind == ContentsKind.header) = some ⟨ContentsKind.header, 0, 0⟩ := by
    rw [Spec.allContents_append, Spec.allContents_nonsegments a1 ha1n]
    simp [MachOHeader.allContents, htl]
  obtain ⟨hf0, hm0⟩ := hhdr3 _ hfind
  simp only [List.map_append, List.map_cons, MachOHeader.syncCommand] at h3c
  refine ⟨_, r.2, _, h3c, MachOHeader.syncCommand_nonsegments _ ha1n, ?_, ?_, ?_, t1, t2, t3,
    hf0, hm0, ?_⟩
  · rw [htext3, htseg, List.length_map, ha1l]
  · rw [MachOSegment.HasName, t4]
    exact htn
  · simp [MachOSegment.IsInitial, htl]
  · intro s hs
    obtain ⟨p1, p2, p3⟩ := hpos s (MachOHeader.syncCommand_segment_mem _ hs)
    exact ⟨p1, by omega, by omega⟩

theorem C17_text_segment_initial_witness :
    (MachOHeader.sampleSnapshotHeader.Finalize Target.example64 =
        some MachOHeader.sampleFinalized ∧
      MachOHeader.sampleSnapshotHeader.HasOnlySections = true ∧
      0 < Target.example64.sizeofHeaderType ∧ 0 < Target.example64.kPageSize) ∧
    ∃ before text rest,
      MachOHeader.sampleFinalized.commands_ = before ++ .segment text :: rest ∧
      (∀ c ∈ before, c.AsMachOSegment = none) ∧
      MachOHeader.sampleFinalized.text_segment_ = some before.length ∧
      text.HasName SEG_TEXT = true ∧ text.IsInitial = true ∧
      text.file_offset_ = 0 ∧ text.memory_address_ = 0 ∧
      text.contents_.head? = some ⟨ContentsKind.header, 0, 0⟩ ∧
      MachOHeader.sampleFinalized.file_offset_ = 0 ∧
      MachOHeader.sampleFinalized.memory_address_ = 0 ∧
      ∀ s, MachOCommand.segment s ∈ rest →
        s.IsInitial = false ∧ s.file_offset_ ≠ 0 ∧ s.memory_address_ ≠ 0 :=
  ⟨⟨by decide!, by decide, by decide, by decide⟩,
    C17_text_segment_initial Target.example64 MachOHeader.sampleSnapshotHeader
      MachOHeader.sampleFinalized (by decide!) (by decide) (by decide) (by decide)⟩

namespace StringTable

theorem toList_length (str : String) : str.toList.length = str.length := rfl

theorem addAll_nil (s : StringTable) : s.addAll [] = s := rfl

theorem addAll_cons (s : StringTable) (x : String) (xs : List String) :
    s.addAll (x :: xs) = (s.Add x).1.addAll xs := rfl

theorem addAll_append (s : StringTable) (xs ys : List String) :
    s.addAll (xs ++ ys) = (s.addAll xs).addAll ys := by
  simp [addAll, List.foldl_append]

theorem Add_of_Lookup {s : StringTable} {str : String} {v : Nat}
    (h : s.Lookup str = some v) : s.Add str = (s, v) := by
  simp [Add, h]

theorem Add_of_Lookup_none {s : StringTable} {str : String} (h : s.Lookup str = none) :
    s.Add str = ({ text_ := s.text_ ++ str.toList ++ [kNul],
                   text_indices_ := s.text_indices_ ++ [(str, s.text_.length)] },
                 s.text_.length) := by
  simp [Add, h, kNul]

theorem Lookup_mem {s : StringTable} {str : String} {v : Nat} (h : s.Lookup str = some v) :
    (str, v) ∈ s.text_indices_ := by
  simp only [Lookup, Option.map_eq_some'] at h
  obtain ⟨kv, hkv, rfl⟩ := h
  have h1 := List.mem_of_find?_eq_some hkv
  have h2 := List.find?_some hkv
  simp only [beq_iff_eq] at h2
  subst h2
  exact h1

theorem Lookup_addAll_of_some (strs : List String) :
    ∀ (s : StringTable) {n : String} {i : Nat}, s.Lookup n = some i →
      (s.addAll strs).Lookup n = some i := by
  induction strs with
  | nil => intro s n i h; exact h
  | cons x xs ih =>
    intro s n i h
    rw [addAll_cons]
    exact ih _ (Lookup_Add_of_some s x h)

theorem text_Add_prefix (s : StringTable) (str : String) :
    ∃ more, (s.Add str).1.text_ = s.text_ ++ more := by
  cases h : s.Lookup str with
  | some v => rw [Add_of_Lookup h]; exact ⟨[], by simp⟩
  | none => rw [Add_of_Lookup_none h]; exact ⟨str.toList ++ [kNul], by simp⟩

theorem text_addAll_prefix (strs : List String) :
    ∀ s : StringTable, ∃ more, (s.addAll strs).text_ = s.text_ ++ more := by
  induction strs with
  | nil => intro s; exact ⟨[], by simp [addAll_nil]⟩
  | cons x xs ih =>
    intro s
    rw [addAll_cons]
    obtain ⟨m1, h1⟩ := text_Add_prefix s x
    obtain ⟨m2, h2⟩ := ih (s.Add x).1
    exact ⟨m1 ++ m2, by rw [h2, h1, List.append_assoc]⟩

/-- A prefix `k ++ [NUL]` of a list survives appending to the list. -/
theorem take_drop_append {l k : List Char} {v n : Nat} (more : List Char)
    (h : (l.drop v).take (n + 1) = k ++ [kNul]) (hn : k.length = n) :
    ((l ++ more).drop v).take (n + 1) = k ++ [kNul] := by
  have hlen : ((l.drop v).take (n + 1)).length = n + 1 := by rw [h]; simp [hn]
  have hl : n + 1 ≤ (l.drop v).length := by
    rw [List.length_take] at hlen; omega
  have hv : v ≤ l.length := by
    rw [List.length_drop] at hl; omega
  rw [List.drop_append_of_le_length hv, List.take_append_of_le_length hl, h]

theorem EntriesInText_init : init.EntriesInText := by
  intro kv hkv
  simp only [init, Add, Lookup, List.find?_nil, Option.map_none', List.nil_append,
    List.length_nil, List.mem_append, List.mem_singleton, List.mem_cons, List.mem_nil_iff,
    or_false] at hkv
  rcases hkv with rfl | rfl <;> decide

theorem EntriesInText_Add {s : StringTable} (hs : s.EntriesInText) (str : String) :
    (s.Add str).1.EntriesInText := by
  cases h : s.Lookup str with
  | some v => rw [Add_of_Lookup h]; exact hs
  | none =>
    rw [Add_of_Lookup_none h]
    intro kv hkv
    simp only [List.mem_append, List.mem_singleton] at hkv
    rcases hkv with hkv | rfl
    · have := hs kv hkv
      simp only [List.append_assoc]
      exact take_drop_append _ this rfl
    · simp only [List.append_assoc, List.drop_left]
      rw [List.take_of_length_le]
      rw [List.length_append, toList_length]
      exact Nat.le_refl _

theorem EntriesInText_addAll (strs : List String) :
    ∀ {s : StringTable}, s.EntriesInText → (s.addAll strs).EntriesInText := by
  induction strs with
  | nil => intro s hs; exact hs
  | cons x xs ih => intro s hs; rw [addAll_cons]; exact ih (EntriesInText_Add hs x)

/-- Reading a C string that is followed by NUL. -/
theorem takeWhile_of_take {l k : List Char} (h : l.take (k.length + 1) = k ++ [kNul])
    (hk : k.all (fun c => c != kNul) = true) :
    l.takeWhile (fun c => c != kNul) = k := by
  have hl : l = (k ++ [kNul]) ++ l.drop (k.length + 1) := by
    rw [← h, List.take_append_drop]
  rw [hl, List.append_assoc, List.takeWhile_append_of_pos]
  · simp
  · intro c hc
    exact List.all_eq_true.1 hk c hc

theorem At_of_entry {s : StringTable} (hs : s.EntriesInText) {str : String} {v : Nat}
    (hm : (str, v) ∈ s.text_indices_) (hc : IsCString str = true) :
    s.At v = some str.toList := by
  have h := hs _ hm
  have hlen : ((s.text_.drop v).take (str.length + 1)).length = str.length + 1 := by
    rw [h, List.length_append, toList_length]; rfl
  have hv : v < s.text_.length := by
    rw [List.length_take, List.length_drop] at hlen; omega
  unfold At
  rw [if_neg (by omega)]
  exact congrArg some (takeWhile_of_take h hc)

/-- The keys of the index map. -/
theorem keys_Add (s : StringTable) (str : String) :
    ∀ kv ∈ (s.Add str).1.text_indices_, kv ∈ s.text_indices_ ∨ kv.1 = str := by
  intro kv hkv
  cases h : s.Lookup str with
  | some v => rw [Add_of_Lookup h] at hkv; exact Or.inl hkv
  | none =>
    rw [Add_of_Lookup_none h] at hkv
    simp only [List.mem_append, List.mem_singleton] at hkv
    rcases hkv with hkv | rfl
    · exact Or.inl hkv
    · exact Or.inr rfl

theorem keys_addAll (strs : List String) :
    ∀ (s : StringTable), ∀ kv ∈ (s.addAll strs).text_indices_,
      kv ∈ s.text_indices_ ∨ kv.1 ∈ strs := by
  induction strs with
  | nil => intro s kv hkv; exact Or.inl hkv
  | cons x xs ih =>
    intro s kv hkv
    rw [addAll_cons] at hkv
    rcases ih _ kv hkv with h | h
    · rcases keys_Add s x kv h with h | h
      · exact Or.inl h
      · exact Or.inr (by simp [h])
    · exact Or.inr (by simp [h])

theorem keys_init : ∀ kv ∈ init.text_indices_, IsCString kv.1 = true := by
  intro kv hkv
  simp only [init, Add, Lookup, List.find?_nil, Option.map_none', List.nil_append,
    List.length_nil, List.mem_append, List.mem_singleton, List.mem_cons, List.mem_nil_iff,
    or_false] at hkv
  rcases hkv with rfl | rfl <;> decide

theorem Lookup_init_space : init.Lookup " " = some 0 := by decide

theorem Lookup_init_empty : init.Lookup "" = some 1 := by decide

end StringTable

/-! ## The offsets a string table hands out -/

/-- C21: in every reachable string table (the constructor followed by any sequence of
`Add` calls) the first two bytes are the space and NUL, `Add(" ")` returns 0 and `Add("")`
returns 1; the bytes of the table at the offset that `Add(s)` returned are `s` followed by
NUL, also after any further `Add` calls, so `At` reads back `s`; and a string `s2` other
than `s` that is added later never receives the offset of `s`. -/
theorem C21_string_table_offsets (strs more : List String) (s s2 : String) :
    ((StringTable.init.addAll strs).text_.take 2 = [' ', kNul] ∧
      ((StringTable.init.addAll strs).Add " ") = (StringTable.init.addAll strs, 0) ∧
      ((StringTable.init.addAll strs).Add "") = (StringTable.init.addAll strs, 1)) ∧
    (((((StringTable.init.addAll strs).Add s).1.addAll more).text_.drop
        ((StringTable.init.addAll strs).Add s).2).take (s.length + 1) = s.toList ++ [kNul]) ∧
    (IsCString s = true →
      (((StringTable.init.addAll strs).Add s).1.addAll more).At
        ((StringTable.init.addAll strs).Add s).2 = some s.toList) ∧
    (IsCString s = true → IsCString s2 = true → s ≠ s2 →
      ((((StringTable.init.addAll strs).Add s).1.addAll more).Add s2).2 ≠
        ((StringTable.init.addAll strs).Add s).2) := by
  have ht : (StringTable.init.addAll strs).EntriesInText :=
    StringTable.EntriesInText_addAll strs StringTable.EntriesInText_init
  have hsp := StringTable.Lookup_addAll_of_some strs StringTable.init
    StringTable.Lookup_init_space
  have hem := StringTable.Lookup_addAll_of_some strs StringTable.init
    StringTable.Lookup_init_empty
  refine ⟨⟨?_, StringTable.Add_of_Lookup hsp, StringTable.Add_of_Lookup hem⟩, ?_⟩
  · obtain ⟨m, hm⟩ := StringTable.text_addAll_prefix strs StringTable.init
    rw [hm]
    rfl
  clear hsp hem
  generalize StringTable.init.addAll strs = t at ht
  have h1 : (t.Add s).1.EntriesInText := StringTable.EntriesInText_Add ht s
  have hl1 : (t.Add s).1.Lookup s = some (t.Add s).2 := StringTable.Lookup_Add t s
  generalize t.Add s = r at h1 hl1
  have h2 : (r.1.addAll more).EntriesInText := StringTable.EntriesInText_addAll more h1
  have hl2 : (r.1.addAll more).Lookup s = some r.2 :=
    StringTable.Lookup_addAll_of_some more r.1 hl1
  refine ⟨h2 _ (StringTable.Lookup_mem hl2), fun hc =>
    StringTable.At_of_entry h2 (StringTable.Lookup_mem hl2) hc, ?_⟩
  intro hc hc2 hne heq
  generalize r.1.addAll more = t2 at h2 hl2 heq
  have h3 : (t2.Add s2).1.EntriesInText := StringTable.EntriesInText_Add h2 s2
  have hl3 : (t2.Add s2).1.Lookup s2 = some (t2.Add s2).2 := StringTable.Lookup_Add t2 s2
  have hl4 : (t2.Add s2).1.Lookup s = some r.2 := StringTable.Lookup_Add_of_some t2 s2 hl2
  rw [heq] at hl3
  have a1 := StringTable.At_of_entry h3 (StringTable.Lookup_mem hl3) hc2
  have a2 := StringTable.At_of_entry h3 (StringTable.Lookup_mem hl4) hc
  rw [a1] at a2
  exact hne (String.ext (Option.some.inj a2)).symm

/-- C21 at the table that holds "a": "ab" is added, then "b", then "a" again. -/
theorem C21_string_table_offsets_witness :
    (IsCString "ab" = true ∧ IsCString "a" = true ∧ "ab" ≠ "a") ∧
      ((((StringTable.init.addAll ["a"]).Add "ab").1.addAll ["b"]).Add "a").2 ≠
        ((StringTable.init.addAll ["a"]).Add "ab").2 :=
  ⟨by decide, (C21_string_table_offsets ["a"] ["b"] "ab" "a").2.2.2 (by decide) (by decide)
    (by decide)⟩

/-! ## The build id -/

theorem MachOSection.FindPortion_eq_find (name : String) :
    ∀ (ps : List Portion) (r : Option Portion), MachOSection.FindPortion name ps = some r →
      r = ps.find? fun p => p.symbol_name == some name := by
  intro ps
  induction ps with
  | nil => intro r h; simp only [MachOSection.FindPortion, Option.some.injEq] at h; simp [← h]
  | cons p ps ih =>
    intro r h
    unfold MachOSection.FindPortion at h
    cases hn : p.symbol_name with
    | none => simp [hn] at h
    | some n =>
      simp only [hn] at h
      by_cases he : n = name
      · subst he
        simp only [beq_self_eq_true, if_true, Option.some.injEq] at h
        simp [← h, List.find?_cons, hn]
      · have hb : (n == name) = false := by simpa using he
        simp only [hb, Bool.false_eq_true, if_false] at h
        rw [ih r h]
        simp [List.find?_cons, hn, he]

theorem MachOHeader.hashOf_spec (T : Target) (portion : Option Portion) :
    Spec.IsBuildIdWord T portion (MachOHeader.hashOf T portion) := by
  have hpos : (0 : Nat) < 2 ^ 32 := by decide
  refine ⟨?_, ?_, ?_, ?_⟩
  · cases portion with
    | none => exact hpos
    | some p =>
      simp only [MachOHeader.hashOf, MachOHeader.HashPortion]
      cases p.bytes with
      | none => exact hpos
      | some bytes =>
        simp only
        split
        · decide
        · exact Nat.mod_lt _ hpos
  · rintro rfl; rfl
  · rintro p rfl hb
    simp [MachOHeader.hashOf, MachOHeader.HashPortion, hb]
  · rintro p bytes rfl hb
    simp only [MachOHeader.hashOf, MachOHeader.HashPortion, hb]
    refine ⟨?_, ?_, ?_⟩
    · split
      · decide
      · assumption
    · intro h; rw [if_neg h]
    · intro h; rw [if_pos h]

/-- C22: when the header has a text segment with a `__text` section, a successful
`GenerateUuid` appends one UUID command that holds four 32-bit words, in the order VM
instructions, isolate instructions (both looked up by name in `__text`), VM data, isolate
data (both looked up by name in `__const` of the text segment); each word is 0 when its
portion is absent or has no bytes, and otherwise the content hash of the portion with 1 in
place of 0, so a present portion with bytes never yields 0. -/
theorem C22_GenerateUuid_words (T : Target) (h h1 : MachOHeader) (text_segment : MachOSegment)
    (text_section : MachOSection) (hseg : h.FindSegment SEG_TEXT = some text_segment)
    (hsec : text_segment.FindSection SECT_TEXT = some text_section)
    (hgen : h.GenerateUuid T = some h1) :
    ∃ w0 w1 w2 w3 : Nat,
      h1.commands_ = h.commands_ ++
        [MachOCommand.other (.uuid [w0, w1, w2, w3]) 0 0 kLinearInitValue] ∧
      Spec.IsBuildIdWord T
        (Spec.namedPortion (some text_section) T.kVmSnapshotInstructionsAsmSymbol) w0 ∧
      Spec.IsBuildIdWord T
        (Spec.namedPortion (some text_section) T.kIsolateSnapshotInstructionsAsmSymbol) w1 ∧
      Spec.IsBuildIdWord T
        (Spec.namedPortion (text_segment.FindSection SECT_CONST) T.kVmSnapshotDataAsmSymbol)
        w2 ∧
      Spec.IsBuildIdWord T
        (Spec.namedPortion (text_segment.FindSection SECT_CONST)
          T.kIsolateSnapshotDataAsmSymbol) w3 := by
  unfold MachOHeader.GenerateUuid at hgen
  split at hgen
  · exact absurd hgen (by simp)
  simp only [hseg, hsec, Option.map_eq_some'] at hgen
  obtain ⟨hashes, hh, rfl⟩ := hgen
  have hvi : ∀ {name : String} {r : Option Portion},
      MachOSection.FindPortion name text_section.portions_ = some r →
        Spec.namedPortion (some text_section) name = r :=
    fun hr => (MachOSection.FindPortion_eq_find _ _ _ hr).symm
  cases hd : text_segment.FindSection SECT_CONST with
  | none =>
    simp only [MachOHeader.uuidHashes, hd, Option.bind_eq_bind, Option.pure_def,
      Option.bind_eq_some, Option.some.injEq, ASSERT_eq_some] at hh
    obtain ⟨vi, h0, ii, h1, _, _, vd, h2, id, h3, rfl⟩ := hh
    subst h2 h3
    refine ⟨_, _, _, _, rfl, ?_, ?_, ?_, ?_⟩
    · rw [hvi h0]; exact MachOHeader.hashOf_spec T vi
    · rw [hvi h1]; exact MachOHeader.hashOf_spec T ii
    · exact MachOHeader.hashOf_spec T none
    · exact MachOHeader.hashOf_spec T none
  | some d =>
    simp only [MachOHeader.uuidHashes, hd, Option.bind_eq_bind, Option.pure_def,
      Option.bind_eq_some, Option.some.injEq, ASSERT_eq_some] at hh
    obtain ⟨vi, h0, ii, h1, _, _, vd, h2, id, h3, rfl⟩ := hh
    refine ⟨_, _, _, _, rfl, ?_, ?_, ?_, ?_⟩
    · rw [hvi h0]; exact MachOHeader.hashOf_spec T vi
    · rw [hvi h1]; exact MachOHeader.hashOf_spec T ii
    · rw [show Spec.namedPortion (some d) T.kVmSnapshotDataAsmSymbol = vd from
        (MachOSection.FindPortion_eq_find _ _ _ h2).symm]
      exact MachOHeader.hashOf_spec T vd
    · rw [show Spec.namedPortion (some d) T.kIsolateSnapshotDataAsmSymbol = id from
        (MachOSection.FindPortion_eq_find _ _ _ h3).symm]
      exact MachOHeader.hashOf_spec T id

/-- C22 at the sample snapshot, whose text segment holds the VM's instructions and the
VM's data: the words of the isolate are 0, those of the VM are not. -/
theorem C22_GenerateUuid_words_witness :
    ∃ (text_segment : MachOSegment) (text_section : MachOSection) (h1 : MachOHeader),
      MachOHeader.sampleSnapshotHeader.FindSegment SEG_TEXT = some text_segment ∧
      text_segment.FindSection SECT_TEXT = some text_section ∧
      MachOHeader.sampleSnapshotHeader.GenerateUuid Target.example64 = some h1 ∧
      h1.commands_.get? 1 = some (MachOCommand.other (.uuid [7, 0, 7, 0]) 0 0 (-1)) ∧
      ∃ w0 w1 w2 w3 : Nat,
        h1.commands_ = MachOHeader.sampleSnapshotHeader.commands_ ++
          [MachOCommand.other (.uuid [w0, w1, w2, w3]) 0 0 kLinearInitValue] ∧
        Spec.IsBuildIdWord Target.example64
          (Spec.namedPortion (some text_section)
            Target.example64.kVmSnapshotInstructionsAsmSymbol) w0 ∧
        Spec.IsBuildIdWord Target.example64
          (Spec.namedPortion (some text_section)
            Target.example64.kIsolateSnapshotInstructionsAsmSymbol) w1 ∧
        Spec.IsBuildIdWord Target.example64
          (Spec.namedPortion (text_segment.FindSection SECT_CONST)
            Target.example64.kVmSnapshotDataAsmSymbol) w2 ∧
        Spec.IsBuildIdWord Target.example64
          (Spec.namedPortion (text_segment.FindSection SECT_CONST)
            Target.example64.kIsolateSnapshotDataAsmSymbol) w3 :=
  ⟨(MachOHeader.sampleSnapshotHeader.FindSegment SEG_TEXT).getD MachOSegment.sampleText,
   (((MachOHeader.sampleSnapshotHeader.FindSegment SEG_TEXT).getD
      MachOSegment.sampleText).FindSection SECT_TEXT).getD MachOSection.sampleTextSection,
   (MachOHeader.sampleSnapshotHeader.GenerateUuid Target.example64).getD MachOHeader.sample,
   by decide, by decide, by decide, by decide,
   C22_GenerateUuid_words Target.example64 MachOHeader.sampleSnapshotHeader _ _ _
     (by decide) (by decide) (by decide)⟩

/-! ## The value of a label -/

theorem MachOHeader.FindCommand_fold (T : Target) (cmd : Nat) :
    ∀ (cs : List MachOCommand) (result : Option MachOCommand),
      cs.foldlM (fun result command =>
        if command.cmd T == cmd then do
          ASSERT result.isNone
          pure (some command)
        else pure result) result =
      match result, cs.filter (fun c => c.cmd T == cmd) with
      | r, [] => some r
      | none, [c] => some (some c)
      | _, _ => none := by
  intro cs
  induction cs with
  | nil => intro result; cases result <;> rfl
  | cons c cs ih =>
    intro result
    rw [List.foldlM_cons]
    simp only [ih]
    by_cases hc : (c.cmd T == cmd) = true
    · simp only [hc, if_true, List.filter_cons_of_pos]
      cases result with
      | some r => simp [ASSERT]
      | none =>
        simp only [ASSERT, Option.isNone_none, if_true, Option.bind_eq_bind, Option.some_bind,
          Option.pure_def]
        cases List.filter (fun c => c.cmd T == cmd) cs <;> rfl
    · simp only [hc, Bool.false_eq_true, if_false, Option.pure_def, Option.bind_eq_bind,
        Option.some_bind, List.filter_cons_of_neg, not_false_eq_true]

theorem MachOHeader.FindCommand_eq (T : Target) (h : MachOHeader) (cmd : Nat) :
    h.FindCommand T cmd =
      match h.commands_.filter (fun c => c.cmd T == cmd) with
      | [] => some none
      | [c] => some (some c)
      | _ => none := by
  unfold MachOHeader.FindCommand
  rw [MachOHeader.FindCommand_fold]
  cases List.filter (fun c => c.cmd T == cmd) h.commands_ with
  | nil => rfl
  | cons a l => cases l <;> rfl

theorem MachOHeader.FindCommand_absent {T : Target} {h : MachOHeader} {cmd : Nat}
    (hc : h.HasCommand T cmd = false) : h.FindCommand T cmd = some none := by
  rw [MachOHeader.FindCommand_eq]
  have : h.commands_.filter (fun c => c.cmd T == cmd) = [] := by
    rw [List.filter_eq_nil_iff]
    intro c hm hcc
    have : h.HasCommand T cmd = true := List.any_eq_true.2 ⟨c, hm, hcc⟩
    rw [hc] at this
    exact Bool.noConfusion this
  rw [this]

theorem MachOHeader.FindCommand_unique {T : Target} {h : MachOHeader} {cmd : Nat}
    {c : MachOCommand} (hc : h.commands_.filter (fun c => c.cmd T == cmd) = [c]) :
    h.FindCommand T cmd = some (some c) := by
  rw [MachOHeader.FindCommand_eq, hc]

theorem MachOSymbolTable.FindLabel_pos (t : MachOSymbolTable) {label : Int} (hl : 0 < label) :
    t.FindLabel label ≠ none := by
  unfold MachOSymbolTable.FindLabel
  rw [if_pos hl]
  simp only
  split <;> simp

theorem LinearField.get_of_set {field : Int} (h : field ≠ kLinearInitValue) :
    LinearField.get field = some field := by
  simp [LinearField.get, ASSERT, h]

/-- C23 fails for a label that is neither positive nor the build-id label: with the label
0 the call on the finalized sample snapshot fails the assertion of `FindLabel` and returns
neither true nor false, although no symbol of the table is labelled 0. -/
theorem C23_nonpositive_label_rejected :
    (0 : Int) ≠ Target.example64.kBuildIdLabel ∧
      (∀ kv ∈ MachOHeader.sampleFinalized.relocation_symbol_table.by_label_index_,
        kv.1 ≠ 0) ∧
      MachOWriteStream.HasValueForLabel Target.example64 MachOHeader.sampleFinalized 0 99 =
        none ∧
      MachOWriteStream.HasValueForLabel Target.example64 MachOHeader.sampleFinalized 0 99 ≠
        some (false, 99) := by
  refine ⟨by decide, by decide, by decide, by decide⟩

/-- C23 as the code has it: for the build-id label the call returns false and leaves the
value when the header has no UUID command, and returns true with the header's file offset
plus the UUID command's header offset when the header has exactly one UUID command and both
fields are set; for any other label that is positive it returns true with the value of the
symbol that `FindLabel` finds in the relocation symbol table, and false with the value
untouched when `FindLabel` finds none; for any other label that is not positive the
assertion of `FindLabel` fails. -/
theorem C23_HasValueForLabel (T : Target) (header : MachOHeader) (label value : Int) :
    (label = T.kBuildIdLabel →
      (header.HasCommand T LC_UUID = false →
        MachOWriteStream.HasValueForLabel T header label value = some (false, value)) ∧
      (∀ uuid, header.commands_.filter (fun c => c.cmd T == LC_UUID) = [uuid] →
        header.file_offset_ ≠ kLinearInitValue → uuid.header_offset_ ≠ kLinearInitValue →
        MachOWriteStream.HasValueForLabel T header label value =
          some (true, header.file_offset_ + uuid.header_offset_))) ∧
    (label ≠ T.kBuildIdLabel → 0 < label →
      header.relocation_symbol_table.FindLabel label ≠ none ∧
      (∀ symbol, header.relocation_symbol_table.FindLabel label = some (some symbol) →
        MachOWriteStream.HasValueForLabel T header label value =
          some (true, (symbol.value : Int))) ∧
      (header.relocation_symbol_table.FindLabel label = some none →
        MachOWriteStream.HasValueForLabel T header label value = some (false, value))) ∧
    (label ≠ T.kBuildIdLabel → label ≤ 0 →
      MachOWriteStream.HasValueForLabel T header label value = none) := by
  refine ⟨?_, ?_, ?_⟩
  · intro hl
    have hb : (label == T.kBuildIdLabel) = true := by simpa using hl
    refine ⟨?_, ?_⟩
    · intro hc
      simp [MachOWriteStream.HasValueForLabel, hb, MachOHeader.FindCommand_absent hc]
    · intro uuid hu hf ho
      simp only [MachOWriteStream.HasValueForLabel, hb, if_true,
        MachOHeader.FindCommand_unique hu, MachOCommand.header_offset,
        LinearField.get_of_set hf, LinearField.get_of_set ho, Option.bind_eq_bind,
        Option.some_bind, Option.pure_def]
  · intro hl hpos
    have hb : (label == T.kBuildIdLabel) = false := by simpa using hl
    refine ⟨MachOSymbolTable.FindLabel_pos _ hpos, ?_, ?_⟩
    · intro symbol hs
      simp [MachOWriteStream.HasValueForLabel, hb, hs]
    · intro hs
      simp [MachOWriteStream.HasValueForLabel, hb, hs]
  · intro hl hneg
    have hb : (label == T.kBuildIdLabel) = false := by simpa using hl
    have hf : header.relocation_symbol_table.FindLabel label = none := by
      unfold MachOSymbolTable.FindLabel
      rw [if_neg (by omega)]
    simp [MachOWriteStream.HasValueForLabel, hb, hf]

/-- C23 on the finalized sample snapshot: the build-id label gives the offset 32 of the
UUID command, the label 1 the value 16384 of its symbol, the label 3 has no symbol. -/
theorem C23_HasValueForLabel_witness :
    MachOWriteStream.HasValueForLabel Target.example64 MachOHeader.sampleFinalized 7 99 =
        some (true, 32) ∧
      MachOWriteStream.HasValueForLabel Target.example64 MachOHeader.sampleFinalized 1 99 =
        some (true, 16384) ∧
      MachOWriteStream.HasValueForLabel Target.example64 MachOHeader.sampleFinalized 3 99 =
        some (false, 99) :=
  ⟨((C23_HasValueForLabel Target.example64 MachOHeader.sampleFinalized 7 99).1 (by decide)).2
      (MachOCommand.other (.uuid [7, 0, 7, 0]) 0 0 32) (by decide) (by decide) (by decide),
   ((C23_HasValueForLabel Target.example64 MachOHeader.sampleFinalized 1 99).2.1 (by decide)
      (by decide)).2.1
      { name_index := 22, type := 15, section_index := 1, description := 512,
        value := 16384 } (by decide),
   ((C23_HasValueForLabel Target.example64 MachOHeader.sampleFinalized 3 99).2.1 (by decide)
      (by decide)).2.2 (by decide)⟩

/-! ## Write-once fields -/

theorem LinearField.get_unset : LinearField.get kLinearInitValue = none := rfl

theorem LinearField.set_eq_none {field value : Int}
    (h : field ≠ kLinearInitValue ∨ value = kLinearInitValue) :
    LinearField.set field value = none := by
  rcases h with h | h
  · simp [LinearField.set, ASSERT, h]
  · simp [LinearField.set, ASSERT, h]

theorem LinearField.set_unset {value : Int} (h : value ≠ kLinearInitValue) :
    LinearField.set kLinearInitValue value = some value := by
  simp [LinearField.set, ASSERT, h]

/-- The macro gives a write-once field whenever the getter and the setter of the objects
are its getter and setter on the stored field. -/
theorem Spec.WriteOnce_of_macro {α : Type} (field : α → Int) (get : α → Option Int)
    (set : α → Int → Option α) (put : α → Int → α)
    (hget : ∀ a, get a = LinearField.get (field a))
    (hset : ∀ a value, set a value = (LinearField.set (field a) value).map (put a))
    (hput : ∀ a value, field (put a value) = value) :
    Spec.WriteOnce α field get set := by
  refine ⟨?_, ?_, ?_⟩
  · intro a ha
    rw [hget, ha]
    rfl
  · intro a value h
    rw [hset, LinearField.set_eq_none h]
    rfl
  · intro a value ha hv
    refine ⟨put a value, ?_, hput a value, ?_, ?_⟩
    · rw [hset, ha, LinearField.set_unset hv]
      rfl
    · rw [hget, hput]
      exact LinearField.get_of_set hv
    · intro value2
      rw [hset, LinearField.set_eq_none (Or.inl (by rw [hput]; exact hv))]
      rfl

/-- C24: each of the five write-once fields (the file offset and the memory address of a
content node, the header offset of a command, the numbers of local and of external symbols
of a symbol table) has a getter that fails while the field is unset and a setter that
fails when the field is already set or the new value is the sentinel -1, and that
otherwise stores the value, after which the getter returns it and every further set fails;
a file offset or memory address that the constructor preset to 0 counts as set. -/
theorem C24_write_once_fields :
    Spec.WriteOnce MachOContents (fun c => c.file_offset_) MachOContents.file_offset
      MachOContents.set_file_offset ∧
    Spec.WriteOnce MachOContents (fun c => c.memory_address_) MachOContents.memory_address
      MachOContents.set_memory_address ∧
    Spec.WriteOnce MachOCommand MachOCommand.header_offset_ MachOCommand.header_offset
      MachOHeader.set_header_offset ∧
    Spec.WriteOnce MachOSymbolTable (fun t => t.num_local_symbols_)
      MachOSymbolTable.num_local_symbols MachOSymbolTable.set_num_local_symbols ∧
    Spec.WriteOnce MachOSymbolTable (fun t => t.num_external_symbols_)
      MachOSymbolTable.num_external_symbols MachOSymbolTable.set_num_external_symbols ∧
    (∀ kind in_segment value,
      (MachOContents.create kind false in_segment).set_file_offset value = none) ∧
    (∀ kind needs_offset value,
      (MachOContents.create kind needs_offset false).set_memory_address value = none) ∧
    (∀ kind needs_offset in_segment,
      ((MachOContents.create kind needs_offset in_segment).file_offset =
          if needs_offset then none else some 0) ∧
      ((MachOContents.create kind needs_offset in_segment).memory_address =
          if in_segment then none else some 0)) := by
  refine ⟨?_, ?_, ?_, ?_, ?_, ?_, ?_, ?_⟩
  · exact Spec.WriteOnce_of_macro _ _ _ (fun c v => { c with file_offset_ := v })
      (fun _ => rfl) (fun _ _ => rfl) (fun _ _ => rfl)
  · exact Spec.WriteOnce_of_macro _ _ _ (fun c v => { c with memory_address_ := v })
      (fun _ => rfl) (fun _ _ => rfl) (fun _ _ => rfl)
  · refine Spec.WriteOnce_of_macro _ _ _
      (fun c v => match c with
        | .segment s => .segment { s with header_offset_ := v }
        | .other kind file_offset_ memory_address_ _ =>
            .other kind file_offset_ memory_address_ v)
      (fun _ => rfl) ?_ ?_
    · intro a value
      cases a with
      | segment s =>
        simp only [MachOHeader.set_header_offset, MachOCommand.header_offset_,
          LinearField.set, ASSERT]
        by_cases h1 : value = kLinearInitValue <;>
          by_cases h2 : s.header_offset_ = kLinearInitValue <;> simp [h1, h2]
      | other kind fo ma ho =>
        simp only [MachOHeader.set_header_offset, MachOCommand.header_offset_,
          LinearField.set, ASSERT]
        by_cases h1 : value = kLinearInitValue <;>
          by_cases h2 : ho = kLinearInitValue <;> simp [h1, h2]
    · intro a value
      cases a <;> rfl
  · refine Spec.WriteOnce_of_macro _ _ _ (fun t v => { t with num_local_symbols_ := v })
      (fun _ => rfl) ?_ (fun _ _ => rfl)
    intro t value
    simp only [MachOSymbolTable.set_num_local_symbols, LinearField.set, ASSERT]
    by_cases h1 : value = kLinearInitValue <;>
      by_cases h2 : t.num_local_symbols_ = kLinearInitValue <;> simp [h1, h2]
  · refine Spec.WriteOnce_of_macro _ _ _ (fun t v => { t with num_external_symbols_ := v })
      (fun _ => rfl) ?_ (fun _ _ => rfl)
    intro t value
    simp only [MachOSymbolTable.set_num_external_symbols, LinearField.set, ASSERT]
    by_cases h1 : value = kLinearInitValue <;>
      by_cases h2 : t.num_external_symbols_ = kLinearInitValue <;> simp [h1, h2]
  · intro kind in_segment value
    simp [MachOContents.create, MachOContents.set_file_offset, LinearField.set, ASSERT,
      kLinearInitValue]
  · intro kind needs_offset value
    simp [MachOContents.create, MachOContents.set_memory_address, LinearField.set, ASSERT,
      kLinearInitValue]
  · intro kind needs_offset in_segment
    cases needs_offset <;> cases in_segment <;> exact ⟨rfl, rfl⟩

/-! ## The label rule of `AddSymbol` -/

namespace MachOSymbolTable

theorem AddSymbol_rule_violation {T : Target} {t : MachOSymbolTable} {name : String}
    {type section_index description value : Nat} {label : Int}
    (h : labelRule type label = false) :
    AddSymbol T t name type section_index description value label = none := by
  simp [AddSymbol, h]

theorem labelRule_debugging {type : Nat} {label : Int} (h : type &&& N_STAB ≠ 0) :
    labelRule type label = decide (label ≤ 0) := by
  simp [labelRule, h]

theorem labelRule_other {type : Nat} {label : Int} (h : type &&& N_STAB = 0) :
    labelRule type label = ((type &&& N_TYPE == N_SECT) == decide (label > 0)) := by
  simp [labelRule, h]

theorem labelRule_section {type : Nat} {label : Int} (h : labelRule type label = true) :
    (Symbol.IsSectionSymbol
      { name_index := 0, type := type, section_index := 0, description := 0, value := 0 } = true
      ↔ 0 < label) := by
  unfold Symbol.IsSectionSymbol
  by_cases hs : type &&& N_STAB = 0
  · rw [labelRule_other hs] at h
    simp only [beq_iff_eq, decide_eq_true_eq] at h
    simp only [hs, beq_self_eq_true, Bool.true_and]
    by_cases hl : 0 < label
    · simp only [hl, iff_true]
      have : decide (label > 0) = true := by simpa using hl
      rw [this] at h
      exact h
    · simp only [hl, iff_false]
      have : decide (label > 0) = false := by simpa using hl
      rw [this] at h
      simpa using h
  · rw [labelRule_debugging hs] at h
    simp only [decide_eq_true_eq] at h
    have : (type &&& N_STAB == 0) = false := by simpa using hs
    simp only [this, Bool.false_and, Bool.false_eq_true, false_iff]
    omega

/-- The invariant of a table that grows by `AddSymbol`: every entry of `by_label_index_`
has a positive label and points into `symbols_`, and a symbol has exactly one label when it
is a section symbol and none otherwise. -/
theorem labels_invariant (T : Target) :
    ∀ (calls : List SymbolCall) (t t1 : MachOSymbolTable), addCalls T t calls = some t1 →
      ((∀ kv ∈ t.by_label_index_, 0 < kv.1 ∧ kv.2 ≤ t.symbols_.length) ∧
        ∀ i sym, t.symbols_.get? i = some sym →
          (sym.IsSectionSymbol = true → ∃ label, 0 < label ∧ t.labelsOf i = [label]) ∧
          (sym.IsSectionSymbol = false → t.labelsOf i = [])) →
      ((∀ kv ∈ t1.by_label_index_, 0 < kv.1 ∧ kv.2 ≤ t1.symbols_.length) ∧
        ∀ i sym, t1.symbols_.get? i = some sym →
          (sym.IsSectionSymbol = true → ∃ label, 0 < label ∧ t1.labelsOf i = [label]) ∧
          (sym.IsSectionSymbol = false → t1.labelsOf i = [])) := by
  intro calls
  induction calls with
  | nil =>
    intro t t1 h hi
    simp only [addCalls_nil, Option.some.injEq] at h
    subst h
    exact hi
  | cons c cs ih =>
    intro t t1 h hi
    rw [addCalls_cons] at h
    cases hc : addCall T t c with
    | none => simp [hc] at h
    | some t2 =>
      rw [hc] at h
      refine ih t2 t1 h ?_
      obtain ⟨hrule, hsym, _, hlab, _⟩ := AddSymbol_some hc
      obtain ⟨hi1, hi2⟩ := hi
      have hsec := labelRule_section hrule
      refine ⟨?_, ?_⟩
      · intro kv hkv
        rw [hlab, List.mem_append] at hkv
        rw [hsym, List.length_append, List.length_singleton]
        rcases hkv with hkv | hkv
        · have := hi1 kv hkv
          exact ⟨this.1, by omega⟩
        · by_cases hl : c.label > 0
          · simp only [hl, if_true, List.mem_singleton] at hkv
            subst hkv
            exact ⟨hl, Nat.le_refl _⟩
          · simp [hl] at hkv
      · intro i sym hget
        have hold : (t.by_label_index_.filter fun kv => kv.2 == t.symbols_.length + 1) = [] := by
          rw [List.filter_eq_nil_iff]
          intro kv hkv hk
          have := (hi1 kv hkv).2
          simp only [beq_iff_eq] at hk
          omega
        rw [hsym] at hget
        by_cases hlt : i < t.symbols_.length
        · rw [List.get?_eq_getElem?, List.getElem?_append_left hlt,
            ← List.get?_eq_getElem?] at hget
          have hnew : t2.labelsOf i = t.labelsOf i := by
            unfold labelsOf
            rw [hlab, List.filter_append]
            have : ((if c.label > 0 then [(c.label, t.symbols_.length + 1)] else []).filter
                fun kv => kv.2 == i + 1) = [] := by
              rw [List.filter_eq_nil_iff]
              intro kv hkv hk
              by_cases hl : c.label > 0
              · simp only [hl, if_true, List.mem_singleton] at hkv
                subst hkv
                simp only [beq_iff_eq] at hk
                omega
              · simp [hl] at hkv
            rw [this, List.append_nil]
          rw [hnew]
          exact hi2 i sym hget
        · have hlen : (t.symbols_ ++
              [({ name_index := (t.strings_.Add c.name).2, type := c.type,
                  section_index := c.section_index, description := c.description,
                  value := c.value } : Symbol)]).length = t.symbols_.length + 1 := by simp
          have hi' : i = t.symbols_.length := by
            have := List.get?_eq_some.1 hget
            obtain ⟨hb, _⟩ := this
            omega
          subst hi'
          rw [List.get?_eq_getElem?, List.getElem?_append_right (Nat.le_refl _)] at hget
          simp only [Nat.sub_self, List.getElem?_cons_zero, Option.some.injEq] at hget
          have hsec2 : sym.IsSectionSymbol = true ↔ 0 < c.label := by
            rw [← hget]
            exact hsec
          have hnew : t2.labelsOf t.symbols_.length =
              if c.label > 0 then [c.label] else [] := by
            unfold labelsOf
            rw [hlab, List.filter_append, hold, List.nil_append]
            by_cases hl : c.label > 0 <;> simp [hl]
          rw [hnew]
          refine ⟨?_, ?_⟩
          · intro hs
            have hl := hsec2.1 hs
            exact ⟨c.label, hl, by simp [hl]⟩
          · intro hs
            have hl : ¬ 0 < c.label := fun hl => by
              rw [hsec2.2 hl] at hs
              exact Bool.noConfusion hs
            simp [hl]

end MachOSymbolTable

/-- C25: `AddSymbol` rejects a symbolic-debugging symbol (a type with an `N_STAB` bit)
that is given a positive label, and rejects any other symbol unless its type is a section
type (`type & N_TYPE == N_SECT`) exactly when its label is positive; hence in every table
that grew from the empty table by `AddSymbol` calls each section symbol is held under
exactly one, positive, label in `by_label_index_`, and a symbolic-debugging symbol, like
every symbol that is no section symbol, under none. -/
theorem C25_AddSymbol_label_rule (T : Target) (t t1 : MachOSymbolTable) (name : String)
    (type section_index description value : Nat) (label : Int) (calls : List SymbolCall) :
    (type &&& N_STAB ≠ 0 → 0 < label →
      MachOSymbolTable.AddSymbol T t name type section_index description value label = none) ∧
    (type &&& N_STAB = 0 → ¬ (type &&& N_TYPE = N_SECT ↔ 0 < label) →
      MachOSymbolTable.AddSymbol T t name type section_index description value label = none) ∧
    (MachOSymbolTable.addCalls T MachOSymbolTable.init calls = some t1 →
      ∀ i sym, t1.symbols_.get? i = some sym →
        (sym.IsSectionSymbol = true → ∃ label, 0 < label ∧ t1.labelsOf i = [label]) ∧
        (sym.IsSectionSymbol = false → t1.labelsOf i = []) ∧
        (sym.IsDebugging = true → t1.labelsOf i = [])) := by
  refine ⟨?_, ?_, ?_⟩
  · intro hs hl
    apply MachOSymbolTable.AddSymbol_rule_violation
    rw [MachOSymbolTable.labelRule_debugging hs]
    simpa using hl
  · intro hs hne
    apply MachOSymbolTable.AddSymbol_rule_violation
    rw [MachOSymbolTable.labelRule_other hs]
    by_cases hl : 0 < label
    · have h1 : ¬ (type &&& N_TYPE = N_SECT) := fun h => hne ⟨fun _ => hl, fun _ => h⟩
      simp [hl, h1]
    · have h1 : type &&& N_TYPE = N_SECT := by
        by_contra h
        exact hne ⟨fun h' => absurd h' h, fun h' => absurd h' hl⟩
      simp [hl, h1]
  · intro hadd i sym hget
    have hinv := MachOSymbolTable.labels_invariant T calls _ _ hadd
      ⟨by simp [MachOSymbolTable.init], by simp [MachOSymbolTable.init]⟩
    obtain ⟨h1, h2⟩ := hinv.2 i sym hget
    refine ⟨h1, h2, ?_⟩
    intro hd
    apply h2
    unfold Symbol.IsDebugging at hd
    unfold Symbol.IsSectionSymbol
    have : (sym.type &&& N_STAB == 0) = false := by simpa using hd
    rw [this, Bool.false_and]

/-- C25 on concrete calls: a begin-of-function symbol with the label 1 and an absolute
symbol with the label 1 are rejected; after a section symbol with the label 3 and a
begin-of-function symbol without label, the first symbol is held under the label 3 and the
second under none. -/
theorem C25_AddSymbol_label_rule_witness :
    MachOSymbolTable.AddSymbol Target.example64 MachOSymbolTable.init "f" N_BNSYM 1 0 16 1 =
        none ∧
      MachOSymbolTable.AddSymbol Target.example64 MachOSymbolTable.init "f" 2 1 0 16 1 =
        none ∧
      ∃ t1, MachOSymbolTable.addCalls Target.example64 MachOSymbolTable.init
          [⟨"f", N_SECT, 1, 0, 16, 3⟩, ⟨"", N_BNSYM, 1, 0, 16, -1⟩] = some t1 ∧
        (∃ label, 0 < label ∧ t1.labelsOf 0 = [label]) ∧ t1.labelsOf 1 = [] :=
  have w := C25_AddSymbol_label_rule Target.example64 MachOSymbolTable.init
    ((MachOSymbolTable.addCalls Target.example64 MachOSymbolTable.init
      [⟨"f", N_SECT, 1, 0, 16, 3⟩, ⟨"", N_BNSYM, 1, 0, 16, -1⟩]).getD MachOSymbolTable.init)
    "f" N_BNSYM 1 0 16 1 [⟨"f", N_SECT, 1, 0, 16, 3⟩, ⟨"", N_BNSYM, 1, 0, 16, -1⟩]
  have w2 := C25_AddSymbol_label_rule Target.example64 MachOSymbolTable.init
    MachOSymbolTable.init "f" 2 1 0 16 1 []
  ⟨w.1 (by decide) (by decide), w2.2.1 (by decide) (by decide), _, by decide,
    (w.2.2 (by decide) 0
      { name_index := 2, type := N_SECT, section_index := 1, description := 0, value := 16 }
      (by decide)).1 (by decide),
    (w.2.2 (by decide) 1
      { name_index := 1, type := N_BNSYM, section_index := 1, description := 0, value := 16 }
      (by decide)).2.2 (by decide)⟩

/-! ## Adding symbols after `Initialize` -/

namespace MachOSymbolTable

theorem Initialize_counts {T : Target} {t t1 : MachOSymbolTable} {path : Option String}
    {sections : List MachOSection} {is_stripped : Bool}
    (h : Initialize T t path sections is_stripped = some t1) :
    0 ≤ t1.num_local_symbols_ ∧ 0 ≤ t1.num_external_symbols_ ∧
      t1.file_offset_ = t.file_offset_ := by
  obtain ⟨locals, ta, tb, _, ha, hb, rfl⟩ := Initialize_some h
  have a1 := addCalls_some T _ _ _ ha
  have a3 := addCalls_some T _ _ _ hb
  have l3 := addCalls_length T hb
  simp only at a3 l3
  refine ⟨?_, ?_, ?_⟩
  · simp only [a3.2.2.1]
    exact Int.ofNat_nonneg _
  · simp only [a3.2.2.1, num_symbols, l3]
    push_cast
    omega
  · simp only [a3.2.2.2.2.1, a1.2.2.2.2.1]

theorem Initialize_set {T : Target} {t : MachOSymbolTable} {path : Option String}
    {sections : List MachOSection} {is_stripped : Bool}
    (h : t.num_local_symbols_ ≠ kLinearInitValue) :
    Initialize T t path sections is_stripped = none := by
  rw [Initialize_eq]
  have : (t.num_local_symbols_ != kLinearInitValue) = true := by simpa using h
  rw [if_pos this]

theorem AddSymbol_offset_set {T : Target} {t : MachOSymbolTable} {name : String}
    {type section_index description value : Nat} {label : Int}
    (h : t.file_offset_ ≠ kLinearInitValue) :
    AddSymbol T t name type section_index description value label = none := by
  have : (t.file_offset_ != kLinearInitValue) = true := by simpa using h
  unfold AddSymbol
  by_cases h1 : (!labelRule type label) = true
  · rw [if_pos h1]
  · rw [if_neg h1, if_pos this]

/-- `AddSymbol` does not read the two counts. -/
theorem AddSymbol_counts (T : Target) (t : MachOSymbolTable) (name : String)
    (type section_index description value : Nat) (label : Int) (nl ne : Int) :
    AddSymbol T { t with num_local_symbols_ := nl, num_external_symbols_ := ne } name type
        section_index description value label =
      (AddSymbol T t name type section_index description value label).map fun t2 =>
        { t2 with num_local_symbols_ := nl, num_external_symbols_ := ne } := by
  unfold AddSymbol
  by_cases h1 : (!labelRule type label) = true
  · simp [h1]
  by_cases h2 : (t.file_offset_ != kLinearInitValue) = true
  · simp [h1, h2]
  by_cases h3 : (!(name == "" || (t.strings_.Add name).2 != 0)) = true
  · simp only [h1, h2, h3]
    simp
  simp only [h1, h2, h3, Bool.false_eq_true, if_false]
  cases makeSymbol T (t.strings_.Add name).2 type section_index description value with
  | none => rfl
  | some symbol =>
    simp only [num_symbols]
    by_cases h5 : label > 0
    · simp only [h5, if_true, Option.map_some']
    · simp only [h5, if_false, Option.map_some']

end MachOSymbolTable

/-- C26 fails for `AddSymbol`: the unstripped sample table is what `Initialize` returns,
both counts are recorded (13 local and 2 external symbols), and `AddSymbol` still accepts a
further section symbol, after which the table holds 16 symbols while the counts still add
up to 15. -/
theorem C26_AddSymbol_accepted_after_Initialize :
    MachOSymbolTable.Initialize Target.example64 MachOSymbolTable.init (some "/tmp/app.o")
        MachOSection.sampleSections false = some MachOSymbolTable.sampleUnstripped ∧
      MachOSymbolTable.sampleUnstripped.num_local_symbols_ = 13 ∧
      MachOSymbolTable.sampleUnstripped.num_external_symbols_ = 2 ∧
      ∃ t2, MachOSymbolTable.AddSymbol Target.example64 MachOSymbolTable.sampleUnstripped
          "late" N_SECT 1 0 0 9 = some t2 ∧
        t2 ≠ MachOSymbolTable.sampleUnstripped ∧
        t2.symbols_.length = 16 ∧
        t2.num_local_symbols_ + t2.num_external_symbols_ = 15 :=
  ⟨by decide, by decide, by decide,
    (MachOSymbolTable.AddSymbol Target.example64 MachOSymbolTable.sampleUnstripped
      "late" N_SECT 1 0 0 9).getD MachOSymbolTable.init,
    by decide, by decide, by decide, by decide⟩

/-- C26 as the code has it: once `Initialize` has recorded the two counts, a second
`Initialize` of the table is rejected whatever its arguments; `AddSymbol` is rejected
whenever the file offset of the table is set, which is the only state of the table it
guards against: it accepts or rejects a call exactly as it would with both counts
unset, and an accepted call appends a symbol and leaves both counts as they were. -/
theorem C26_Initialize_once (T : Target) (t t1 : MachOSymbolTable) (path : Option String)
    (sections : List MachOSection) (is_stripped : Bool)
    (h : MachOSymbolTable.Initialize T t path sections is_stripped = some t1) :
    t1.num_local_symbols_ ≠ kLinearInitValue ∧
    t1.num_external_symbols_ ≠ kLinearInitValue ∧
    (∀ path2 sections2 is_stripped2,
      MachOSymbolTable.Initialize T t1 path2 sections2 is_stripped2 = none) ∧
    (∀ name type section_index description value label,
      t1.file_offset_ ≠ kLinearInitValue →
        MachOSymbolTable.AddSymbol T t1 name type section_index description value label =
          none) ∧
    (∀ name type section_index description value label,
      (MachOSymbolTable.AddSymbol T t1 name type section_index description value
          label).isSome =
        (MachOSymbolTable.AddSymbol T
          { t1 with num_local_symbols_ := kLinearInitValue,
                    num_external_symbols_ := kLinearInitValue }
          name type section_index description value label).isSome) ∧
    (∀ name type section_index description value label t2,
      MachOSymbolTable.AddSymbol T t1 name type section_index description value label =
          some t2 →
        t2.symbols_.length = t1.symbols_.length + 1 ∧
        t2.num_local_symbols_ = t1.num_local_symbols_ ∧
        t2.num_external_symbols_ = t1.num_external_symbols_) := by
  obtain ⟨h1, h2, _⟩ := MachOSymbolTable.Initialize_counts h
  have hl : t1.num_local_symbols_ ≠ kLinearInitValue := by
    unfold kLinearInitValue; omega
  have he : t1.num_external_symbols_ ≠ kLinearInitValue := by
    unfold kLinearInitValue; omega
  refine ⟨hl, he, ?_, ?_, ?_, ?_⟩
  · intro path2 sections2 is_stripped2
    exact MachOSymbolTable.Initialize_set hl
  · intro name type section_index description value label hf
    exact MachOSymbolTable.AddSymbol_offset_set hf
  · intro name type section_index description value label
    rw [MachOSymbolTable.AddSymbol_counts T t1 name type section_index description value label
      kLinearInitValue kLinearInitValue]
    cases MachOSymbolTable.AddSymbol T t1 name type section_index description value label <;>
      rfl
  · intro name type section_index description value label t2 h2
    have := MachOSymbolTable.AddSymbol_some h2
    refine ⟨?_, this.2.2.2.2.1, this.2.2.2.2.2.1⟩
    rw [this.2.1]
    simp

/-- C26 at the unstripped sample table. -/
theorem C26_Initialize_once_witness :
    MachOSymbolTable.Initialize Target.example64 MachOSymbolTable.sampleUnstripped
        (some "/tmp/app.o") MachOSection.sampleSections false = none :=
  (C26_Initialize_once Target.example64 MachOSymbolTable.init MachOSymbolTable.sampleUnstripped
    (some "/tmp/app.o") MachOSection.sampleSections false (by decide)).2.2.1 _ _ _

/-! ## Offsets in 32-bit fields -/

/-- `WriteOffsetCount` rejects an offset or a count that does not fit in 32 bits. -/
theorem WriteOffsetCount_rejects (offset count : Nat)
    (h : 2 ^ 32 ≤ offset ∨ 2 ^ 32 ≤ count) : WriteOffsetCount offset count = none := by
  unfold WriteOffsetCount IsUint
  rw [if_neg]
  simp only [Bool.and_eq_true, decide_eq_true_eq, not_and_or]
  omega

/-- The header information of a section is written whatever the file offset of the section
is: the 32-bit field receives the offset modulo 2 ^ 32. -/
theorem MachOContents.WriteHeaderInfo_offset (T : Target) (h : MachOHeader) (c : MachOContents)
    (s : MachOSection) (segname : String) (file_offset memory_address : Nat)
    (hk : c.kind = .section s) (hf : c.file_offset_ = (file_offset : Int))
    (hm : c.memory_address_ = (memory_address : Int)) :
    ∃ writes, c.WriteHeaderInfo T h segname = some writes ∧
      writes.get? 4 = some (StreamWrite.Write32 (file_offset % 2 ^ 32)) := by
  have h1 : linearGet (file_offset : Int) = some file_offset := by
    unfold linearGet kLinearInitValue
    rw [if_pos (by simp), Int.toNat_ofNat]
  have h2 : linearGet (memory_address : Int) = some memory_address := by
    unfold linearGet kLinearInitValue
    rw [if_pos (by simp), Int.toNat_ofNat]
  unfold MachOContents.WriteHeaderInfo
  rw [hk]
  simp only [hf, hm, h1, h2, Option.bind_eq_bind, Option.some_bind, Option.pure_def]
  exact ⟨_, rfl, rfl⟩

/-- C27 fails for the header information of a section: in the finalized snapshot with
4 GiB of instructions the constant-data section is the child 2 of the text segment and has
the file offset 4294983680, which is not below 2 ^ 32; `WriteOffsetCount` rejects this
value, but `WriteHeaderInfo` of the section and `WriteLoadCommand` of the text segment are
not rejected and write 16384, the low 32 bits, in the 32-bit offset field. -/
theorem C27_section_offset_truncated :
    (MachOSegment.sampleLargeText.contents_.get? 2).map
        (fun c => (c.IsMachOSection, c.file_offset_)) = some (true, 4294983680) ∧
      ¬ (4294983680 < 2 ^ 32) ∧
      WriteOffsetCount 4294983680 0 = none ∧
      (4294983680 % 2 ^ 32 = 16384) ∧
      ((MachOSegment.sampleLargeText.contents_.get? 2).bind fun c =>
          c.WriteHeaderInfo Target.example64 MachOHeader.sampleLargeFinalized SEG_TEXT) =
        some [StreamWrite.WriteFixedLengthCString "__const" 16,
              StreamWrite.WriteFixedLengthCString "__TEXT" 16,
              StreamWrite.WriteWord 4294983680, StreamWrite.WriteWord 32,
              StreamWrite.Write32 16384, StreamWrite.Write32 14,
              StreamWrite.Write32 0, StreamWrite.Write32 0, StreamWrite.Write32 0,
              StreamWrite.Write32 0, StreamWrite.Write32 0, StreamWrite.Write32 0] ∧
      ((MachOSegment.sampleLargeText.WriteLoadCommand Target.example64
          MachOHeader.sampleLargeFinalized).map fun writes => (writes.drop 23).take 5) =
        some [StreamWrite.WriteFixedLengthCString "__const" 16,
              StreamWrite.WriteFixedLengthCString "__TEXT" 16,
              StreamWrite.WriteWord 4294983680, StreamWrite.WriteWord 32,
              StreamWrite.Write32 16384] := by
  decide!

/-! ## Running `FinalizeCommands` twice -/

namespace MachOHeader

theorem bind_get?_succ {α β : Type} (f : α → Option β) (c : α) (cs : List α) (r : Option Nat) :
    ((r.map fun k => k + 1).bind fun i => ((c :: cs).get? i).bind f) =
      r.bind fun i => (cs.get? i).bind f := by
  cases r <;> simp

theorem FindSegment_isSome_iff (h : MachOHeader) (name : String) :
    (h.FindSegment name).isSome = true ↔ some name ∈ h.segnames := by
  unfold FindSegment FindSegmentIndex segmentAt? segnames
  induction h.commands_ with
  | nil => simp
  | cons c cs ih =>
    rw [List.findIdx?_cons, List.map_cons, List.mem_cons, List.findIdx?_succ]
    cases c with
    | segment s =>
      have e : (MachOCommand.segment s).segname = some s.name_ := rfl
      rw [e]
      by_cases hn : s.HasName name = true
      · have hn' : s.name_ = name := by simpa [MachOSegment.HasName] using hn
        simp [hn, MachOCommand.AsMachOSegment, hn']
      · have hn' : ¬ s.name_ = name := by simpa [MachOSegment.HasName] using hn
        have hn2 : ¬ name = s.name_ := fun e => hn' e.symm
        simp only [hn, Bool.false_eq_true, if_false, Option.some.injEq, hn2, false_or]
        rw [← ih, bind_get?_succ]
    | other k x y z =>
      have e : (MachOCommand.other k x y z).segname = none := rfl
      rw [e]
      simp only [Bool.false_eq_true, if_false]
      rw [← ih, bind_get?_succ]
      simp

/-- `FinalizeCommands` rejects a header that has a `__LINKEDIT` segment. -/
theorem FinalizeCommands_linkedit {T : Target} {h : MachOHeader}
    (hl : (h.FindSegment SEG_LINKEDIT).isSome = true) : FinalizeCommands T h = none := by
  have : (h.FindSegment SEG_LINKEDIT).isNone = false := by
    cases hf : h.FindSegment SEG_LINKEDIT with
    | none => rw [hf] at hl; simp at hl
    | some s => rfl
  simp [FinalizeCommands, ASSERT, this]

/-- `FinalizeCommands` rejects a header that has a code-signature command. -/
theorem FinalizeCommands_signature {T : Target} {h : MachOHeader}
    (hl : h.HasCommand T LC_CODE_SIGNATURE = true) : FinalizeCommands T h = none := by
  unfold FinalizeCommands
  by_cases h1 : (h.FindSegment SEG_LINKEDIT).isNone = true
  · simp [ASSERT, h1, hl]
  · simp [ASSERT, h1]

/-- A successful `FinalizeCommands` leaves a `__LINKEDIT` segment. -/
theorem FinalizeCommands_adds_linkedit {T : Target} {h h1 : MachOHeader}
    (hg : FinalizeCommands T h = some h1) : some SEG_LINKEDIT ∈ h1.segnames := by
  obtain ⟨text, linkedit, bins, _, _, _, _, _, hlink, _, hcmds, _⟩ := FinalizeCommands_spec hg
  have hn := (createLinkeditSegment_spec hlink).1
  unfold segnames
  rw [hcmds]
  refine List.mem_map.2 ⟨.segment linkedit, ?_, ?_⟩
  · simp
  · simp [MachOCommand.segname, MachOCommand.AsMachOSegment, hn]

end MachOHeader

namespace MachOHeader

theorem segnames_append (h : MachOHeader) (commands : List MachOCommand) :
    h.segnames <+: ({ h with commands_ := h.commands_ ++ commands } : MachOHeader).segnames := by
  unfold segnames
  simp only [List.map_append]
  exact List.prefix_append _ _

theorem MachOSegment_AddContents_name {s s1 : MachOSegment} {c : MachOContents} {b : Bool}
    (h : s.AddContents c b = some s1) : s1.name_ = s.name_ := by
  unfold MachOSegment.AddContents at h
  split_ifs at h <;> simp only [Option.some.injEq] at h <;> subst h <;> rfl

theorem segnames_setSegment {h : MachOHeader} {i : Nat} {s s1 : MachOSegment}
    (hs : h.segmentAt? i = some s) (hn : s1.name_ = s.name_) :
    (h.setSegment i s1).segnames = h.segnames := by
  unfold segnames setSegment
  simp only [segmentAt?, Option.bind_eq_some] at hs
  obtain ⟨c, hc, hseg⟩ := hs
  rw [List.map_set]
  have hc' : h.commands_[i]? = some c := by rwa [List.get?_eq_getElem?] at hc
  have : (MachOCommand.segment s1).segname = c.segname := by
    cases c with
    | segment s0 =>
      simp only [MachOCommand.AsMachOSegment, Option.some.injEq] at hseg
      subst hseg
      simp [MachOCommand.segname, MachOCommand.AsMachOSegment, hn]
    | other k x y z => simp [MachOCommand.AsMachOSegment] at hseg
  rw [this]
  apply List.ext_getElem?
  intro j
  by_cases hj : i = j
  · subst hj
    simp [List.getElem?_set, hc']
    exact (List.getElem?_eq_some.1 hc').1
  · rw [List.getElem?_set_ne hj]

theorem GenerateUuid_segnames {T : Target} {h h1 : MachOHeader}
    (hg : GenerateUuid T h = some h1) : h.segnames <+: h1.segnames := by
  unfold GenerateUuid at hg
  split_ifs at hg
  split at hg
  · cases hg; exact List.prefix_refl _
  · split at hg
    · cases hg; exact List.prefix_refl _
    · simp only [Option.map_eq_some'] at hg
      obtain ⟨hashes, _, rfl⟩ := hg
      exact segnames_append h _

theorem CreateBSS_segnames {T : Target} {h h1 : MachOHeader}
    (hg : CreateBSS T h = some h1) : h.segnames <+: h1.segnames := by
  unfold CreateBSS at hg
  simp only [Option.bind_eq_bind, Option.pure_def, Option.bind_eq_some, Option.some.injEq] at hg
  obtain ⟨_, _, _, _, _, _, _, _, _, _, _, _, rfl⟩ := hg
  exact segnames_append h _

theorem addEhFrame_segnames {T : Target} {h h1 : MachOHeader}
    (hg : addEhFrame T h = some h1) : h1.segnames = h.segnames := by
  unfold addEhFrame at hg
  simp only [Option.bind_eq_bind, Option.pure_def, Option.bind_eq_some] at hg
  obtain ⟨i, _, text_segment, htext, hg⟩ := hg
  split at hg
  · cases hg; rfl
  · simp only [Option.bind_eq_some, Option.some.injEq] at hg
    obtain ⟨_, _, _, _, _, _, eh, heh, eh1, heh1, t1, ht1, rfl⟩ := hg
    exact segnames_setSegment htext (MachOSegment_AddContents_name ht1)

theorem addUnwindingRecords_segname {T : Target} {z : Bool} {c c1 : MachOCommand}
    (hg : addUnwindingRecords T z c = some c1) : c1.segname = c.segname := by
  cases c with
  | segment s =>
      by_cases hexe : s.IsExecutable = true
      · simp only [addUnwindingRecords, hexe, if_true, Option.bind_eq_bind, Option.pure_def,
          Option.bind_eq_some, Option.some.injEq] at hg
        obtain ⟨_, _, _, _, u, hu, u1, hu1, s2, hs2, rfl⟩ := hg
        simp [MachOCommand.segname, MachOCommand.AsMachOSegment,
          MachOSegment_AddContents_name hs2]
      · simp only [addUnwindingRecords, hexe, Bool.false_eq_true, if_false, Option.pure_def,
          Option.some.injEq] at hg
        subst hg
        rfl
  | other k x y w =>
      simp only [addUnwindingRecords, Option.pure_def, Option.some.injEq] at hg
      subst hg
      rfl

theorem mapM_map_eq {α β γ : Type} (f : α → Option β) (g : α → γ) (g1 : β → γ)
    (hf : ∀ a b, f a = some b → g1 b = g a) :
    ∀ (l : List α) (l1 : List β), l.mapM f = some l1 → l1.map g1 = l.map g := by
  intro l
  induction l with
  | nil =>
      intro l1 h
      simp only [List.mapM_nil, Option.pure_def, Option.some.injEq] at h
      subst h
      rfl
  | cons a rest ih =>
      intro l1 h
      simp only [List.mapM_cons, Option.bind_eq_bind, Option.pure_def, Option.bind_eq_some,
        Option.some.injEq] at h
      obtain ⟨b, hb, bs, hbs, rfl⟩ := h
      simp only [List.map_cons, hf a b hb, ih bs hbs]

theorem addAllUnwindingRecords_segnames {T : Target} {h h1 : MachOHeader}
    (hg : addAllUnwindingRecords T h = some h1) : h1.segnames = h.segnames := by
  unfold addAllUnwindingRecords at hg
  split_ifs at hg
  · simp only [Option.map_eq_some'] at hg
    obtain ⟨commands, hm, rfl⟩ := hg
    exact mapM_map_eq _ _ _ (fun a b hab => addUnwindingRecords_segname hab) _ _ hm
  · cases hg; rfl

theorem GenerateUnwindingInformation_segnames {T : Target} {h h1 : MachOHeader}
    (hg : GenerateUnwindingInformation T h = some h1) : h1.segnames = h.segnames := by
  unfold GenerateUnwindingInformation at hg
  split_ifs at hg
  · cases hg; rfl
  · simp only [Option.some_bind] at hg
    exact addAllUnwindingRecords_segnames hg
  · simp only [Option.bind_eq_some] at hg
    obtain ⟨ha, e1, e2⟩ := hg
    rw [addAllUnwindingRecords_segnames e2, addEhFrame_segnames e1]

theorem FinalizeDwarfSections_segnames {h h1 : MachOHeader}
    (hg : FinalizeDwarfSections h = some h1) : h.segnames <+: h1.segnames := by
  unfold FinalizeDwarfSections at hg
  split at hg
  · cases hg; exact List.prefix_refl _
  · simp only [Option.bind_eq_bind, Option.pure_def, Option.bind_eq_some,
      Option.some.injEq] at hg
    obtain ⟨_, _, _, _, _, _, _, _, _, _, _, _, _, _, rfl⟩ := hg
    exact segnames_append h _

theorem InitializeSymbolTables_segnames {T : Target} {h h1 : MachOHeader}
    (hg : InitializeSymbolTables T h = some h1) : h.segnames <+: h1.segnames := by
  unfold InitializeSymbolTables at hg
  simp only [Option.bind_eq_bind, Option.pure_def, Option.bind_eq_some, Option.some.injEq] at hg
  obtain ⟨_, _, _, _, _, _, full, _, hs, hst, rfl⟩ := hg
  have hcs : hs.commands_ = h.commands_ := by
    unfold initializeStrippedTable at hst
    split_ifs at hst
    · simp only [Option.map_eq_some'] at hst
      obtain ⟨_, _, rfl⟩ := hst
      rfl
    · cases hst; rfl
  unfold segnames
  split_ifs
  · simp only [hcs, List.map_append, List.append_assoc]
    exact List.prefix_append _ _
  · simp only [hcs, List.map_append]
    exact List.prefix_append _ _

theorem GenerateMiscellaneousCommands_segnames {T : Target} {h h1 : MachOHeader}
    (hg : GenerateMiscellaneousCommands T h = some h1) : h.segnames <+: h1.segnames := by
  unfold GenerateMiscellaneousCommands at hg
  simp only [Option.bind_eq_bind, Option.pure_def, Option.bind_eq_some, ASSERT_eq_some] at hg
  obtain ⟨_, _, _, _, _, _, hg⟩ := hg
  unfold segnames
  split_ifs at hg <;> simp only [Option.some.injEq] at hg <;> subst hg <;>
    simp only [List.map_append, List.append_assoc] <;> exact List.prefix_append _ _

end MachOHeader

namespace MachOHeader

theorem set_header_offset_segname {c c1 : MachOCommand} {v : Int}
    (h : set_header_offset c v = some c1) : c1.segname = c.segname := by
  cases c with
  | segment s =>
    simp only [set_header_offset] at h
    split_ifs at h
    simp only [Option.some.injEq] at h
    subst h
    rfl
  | other k x y z =>
    simp only [set_header_offset] at h
    split_ifs at h
    simp only [Option.some.injEq] at h
    subst h
    rfl

theorem setHeaderOffsets_segnames (T : Target) :
    ∀ (a : List MachOCommand) (n : Nat) (a1 : List MachOCommand),
      setHeaderOffsets T n a = some a1 →
      a1.map MachOCommand.segname = a.map MachOCommand.segname := by
  intro a
  induction a with
  | nil =>
      intro n a1 h
      simp only [setHeaderOffsets, Option.some.injEq] at h
      subst h
      rfl
  | cons x a ih =>
      intro n a1 h
      obtain ⟨x1, r, n1, hx1, hr, rfl⟩ := setHeaderOffsets_cons T h
      simp only [List.map_cons, ih n1 r hr, set_header_offset_segname hx1]

theorem VisitSegments_segnames (T : Target) (h : MachOHeader) :
    ∀ (a : List MachOCommand) (v : ContentOffsetsVisitor),
      (VisitSegments T h v a).2.map MachOCommand.segname = a.map MachOCommand.segname := by
  intro a
  induction a with
  | nil => intro v; rfl
  | cons c cs ih =>
      intro v
      cases c with
      | segment s =>
          simp only [VisitSegments, List.map_cons, ih]
          rfl
      | other k x y z => simp only [VisitSegments, List.map_cons, ih]

theorem ComputeOffsets_segnames {T : Target} {h2 h3 : MachOHeader}
    (hco : ComputeOffsets T h2 = some h3) : h3.segnames = h2.segnames := by
  obtain ⟨commands, hset, h3c, _⟩ := ComputeOffsets_commands hco
  unfold segnames
  rw [h3c, List.map_map]
  have : (MachOCommand.segname ∘ syncCommand
      (allContents (VisitSegments T { h2 with commands_ := commands }
        ContentOffsetsVisitor.init commands).2)) = MachOCommand.segname := by
    funext c
    simp only [Function.comp, MachOCommand.segname, (syncCommand_cmd T _ c).2]
  rw [this, VisitSegments_segnames, setHeaderOffsets_segnames T _ _ _ hset]

/-- The phases of `Finalize` before `FinalizeCommands` keep every segment of the header,
under its name. -/
theorem beforeFinalizeCommands_segnames {T : Target} {h h1 h2 h3 h4 h5 h6 : MachOHeader}
    (e1 : GenerateUuid T h = some h1) (e2 : CreateBSS T h1 = some h2)
    (e3 : GenerateUnwindingInformation T h2 = some h3)
    (e4 : FinalizeDwarfSections h3 = some h4)
    (e5 : InitializeSymbolTables T h4 = some h5)
    (e6 : GenerateMiscellaneousCommands T h5 = some h6) :
    h.segnames <+: h6.segnames := by
  have p1 := GenerateUuid_segnames e1
  have p2 := CreateBSS_segnames e2
  have p3 := GenerateUnwindingInformation_segnames e3
  have p4 := FinalizeDwarfSections_segnames e4
  have p5 := InitializeSymbolTables_segnames e5
  have p6 := GenerateMiscellaneousCommands_segnames e6
  rw [← p3] at p2
  exact p1.trans (p2.trans (p4.trans (p5.trans p6)))

/-- A header with a `__LINKEDIT` segment does not get through the phases of `Finalize`
up to and including `FinalizeCommands`. -/
theorem beforeComputeOffsets_linkedit {T : Target} {h : MachOHeader}
    (hl : some SEG_LINKEDIT ∈ h.segnames) : beforeComputeOffsets T h = none := by
  cases hb : beforeComputeOffsets T h with
  | none => rfl
  | some hr =>
    exfalso
    unfold beforeComputeOffsets at hb
    simp only [Option.bind_eq_bind, Option.bind_eq_some] at hb
    obtain ⟨h1, e1, h2, e2, h3, e3, h4, e4, h5, e5, h6, e6, hfc⟩ := hb
    have hp := beforeFinalizeCommands_segnames e1 e2 e3 e4 e5 e6
    have hl6 : (h6.FindSegment SEG_LINKEDIT).isSome = true :=
      (FindSegment_isSome_iff h6 SEG_LINKEDIT).2 (hp.subset hl)
    rw [FinalizeCommands_linkedit hl6] at hfc
    cases hfc

end MachOHeader

/-- C28: `FinalizeCommands` is rejected whenever the header already has a `__LINKEDIT`
segment or a code-signature command; every successful `FinalizeCommands` leaves a
`__LINKEDIT` segment, and so does every successful `Finalize`, so that on their result both
`FinalizeCommands` and the whole `Finalize` pipeline are rejected. -/
theorem C28_FinalizeCommands_once (T : Target) (h : MachOHeader) :
    ((h.FindSegment SEG_LINKEDIT).isSome = true ∨ h.HasCommand T LC_CODE_SIGNATURE = true →
      h.FinalizeCommands T = none) ∧
    (∀ h1, h.FinalizeCommands T = some h1 →
      (h1.FindSegment SEG_LINKEDIT).isSome = true ∧ h1.FinalizeCommands T = none ∧
        h1.Finalize T = none) ∧
    (∀ h3, h.Finalize T = some h3 →
      (h3.FindSegment SEG_LINKEDIT).isSome = true ∧ h3.FinalizeCommands T = none ∧
        h3.Finalize T = none) := by
  have hfin : ∀ hh : MachOHeader, some SEG_LINKEDIT ∈ hh.segnames → hh.Finalize T = none := by
    intro hh hl
    unfold MachOHeader.Finalize
    rw [MachOHeader.beforeComputeOffsets_linkedit hl]
    rfl
  refine ⟨?_, ?_, ?_⟩
  · rintro (hl | hs)
    · exact MachOHeader.FinalizeCommands_linkedit hl
    · exact MachOHeader.FinalizeCommands_signature hs
  · intro h1 hg
    have hl := MachOHeader.FinalizeCommands_adds_linkedit hg
    have hs := (MachOHeader.FindSegment_isSome_iff h1 SEG_LINKEDIT).2 hl
    exact ⟨hs, MachOHeader.FinalizeCommands_linkedit hs, hfin h1 hl⟩
  · intro h3 hg
    obtain ⟨hx, h2, hfc, hco, _⟩ := MachOHeader.Finalize_split hg
    have hl : some SEG_LINKEDIT ∈ h3.segnames := by
      rw [MachOHeader.ComputeOffsets_segnames hco]
      exact MachOHeader.FinalizeCommands_adds_linkedit hfc
    have hs := (MachOHeader.FindSegment_isSome_iff h3 SEG_LINKEDIT).2 hl
    exact ⟨hs, MachOHeader.FinalizeCommands_linkedit hs, hfin h3 hl⟩

/-- C28 on the sample snapshot: `FinalizeCommands` succeeds once on the header that the
earlier phases produce and `Finalize` succeeds once on the header of the writer; on the
results both are rejected. -/
theorem C28_FinalizeCommands_once_witness :
    (MachOHeader.sampleBeforeFinalizeCommands.FinalizeCommands Target.example64 =
        some MachOHeader.sampleBeforeOffsets ∧
      MachOHeader.sampleBeforeOffsets.FinalizeCommands Target.example64 = none) ∧
    (MachOHeader.sampleSnapshotHeader.Finalize Target.example64 =
        some MachOHeader.sampleFinalized ∧
      MachOHeader.sampleFinalized.Finalize Target.example64 = none) ∧
    ((MachOHeader.sampleFinalized.FindSegment SEG_LINKEDIT).isSome = true ∧
      MachOHeader.sampleFinalized.FinalizeCommands Target.example64 = none) :=
  have e1 : MachOHeader.sampleBeforeFinalizeCommands.FinalizeCommands Target.example64 =
      some MachOHeader.sampleBeforeOffsets := by decide!
  have e2 : MachOHeader.sampleSnapshotHeader.Finalize Target.example64 =
      some MachOHeader.sampleFinalized := by decide!
  have e3 : (MachOHeader.sampleFinalized.FindSegment SEG_LINKEDIT).isSome = true := by decide!
  ⟨⟨e1, ((C28_FinalizeCommands_once Target.example64
      MachOHeader.sampleBeforeFinalizeCommands).2.1 _ e1).2.1⟩,
   ⟨e2, ((C28_FinalizeCommands_once Target.example64
      MachOHeader.sampleSnapshotHeader).2.2 _ e2).2.2⟩,
   ⟨e3, (C28_FinalizeCommands_once Target.example64 MachOHeader.sampleFinalized).1
      (Or.inl e3)⟩⟩

/-! ## The labels that the consistency check visits -/

/-- The loop of `AssertConsistency` visits the labels from 1 up to, but not including, the
largest label. -/
theorem MachOWriter.mem_checkedLabels (max_label L : Int) :
    L ∈ MachOWriter.checkedLabels max_label ↔ 1 ≤ L ∧ L < max_label := by
  unfold MachOWriter.checkedLabels
  simp only [List.mem_map, List.mem_range'_1]
  constructor
  · rintro ⟨i, ⟨h1, h2⟩, rfl⟩
    have : Int.ofNat i = (i : Int) := rfl
    omega
  · rintro ⟨h1, h2⟩
    exact ⟨L.toNat, ⟨by omega, by omega⟩, Int.toNat_of_nonneg (by omega)⟩

/-- C29 fails at the largest label: the finalized sample snapshot and debug-info writers
both have the largest label 20, which the snapshot resolves to 16392 and the debugging
information to 16400; the loop visits the labels 1 to 19 only, so the body of the loop
would report the label 20, but `AssertConsistency` reports nothing. -/
theorem C29_max_label_unchecked :
    (MachOWriter.sampleSnapshotWithFunction.bind fun s =>
      MachOWriter.sampleDebugInfoWithFunction.map fun d =>
        (s.header_.relocation_symbol_table.max_label_,
         d.header_.relocation_symbol_table.max_label_)) = some (20, 20) ∧
    (MachOWriter.sampleSnapshotWithFunction.bind fun s =>
      MachOWriter.sampleDebugInfoWithFunction.map fun d =>
        ((s.header_.relocation_symbol_table.FindLabel 20).map fun x => x.map Symbol.value,
         (d.header_.relocation_symbol_table.FindLabel 20).map fun x => x.map Symbol.value)) =
      some (some (some 16392), some (some 16400)) ∧
    (MachOWriter.sampleSnapshotWithFunction.bind fun s =>
      MachOWriter.sampleDebugInfoWithFunction.map fun d =>
        MachOWriter.checkLabel s.header_.relocation_symbol_table
          d.header_.relocation_symbol_table 20) = some none ∧
    (MachOWriter.sampleSnapshotWithFunction.bind fun s =>
      MachOWriter.sampleDebugInfoWithFunction.map fun d =>
        MachOWriter.AssertConsistency s d) = some (some ()) ∧
    MachOWriter.checkedLabels 20 =
      [1, 2, 3, 4, 5, 6, 7, 8, 9, 10, 11, 12, 13, 14, 15, 16, 17, 18, 19] := by
  refine ⟨by decide!, by decide!, by decide!, by decide!, by decide⟩

/-! ## The text segment after `AddText` and `AddROData` calls -/

namespace MachOContents

theorem IsSectionNamed_unique {X Y : String} {c : MachOContents}
    (hx : c.IsSectionNamed X = true) (hy : c.IsSectionNamed Y = true) : X = Y := by
  rcases c with ⟨kind, fo, ma⟩
  cases kind <;> simp_all [IsSectionNamed, MachOSection.HasName]

theorem IsSectionNamed_other {X Y : String} {c : MachOContents} (hne : X ≠ Y)
    (hx : c.IsSectionNamed X = true) : c.IsSectionNamed Y = false := by
  cases hy : c.IsSectionNamed Y with
  | false => rfl
  | true => exact absurd (IsSectionNamed_unique hx hy) hne

theorem filter_insert_same {X : String} {a b : List MachOContents} {c0 : MachOContents}
    (hno : ∀ c ∈ a ++ b, c.IsSectionNamed X = false) (hc0 : c0.IsSectionNamed X = true) :
    (a ++ [c0] ++ b).filter (IsSectionNamed X) = [c0] := by
  have ha : a.filter (IsSectionNamed X) = [] :=
    List.filter_eq_nil_iff.2 fun c hc => by simp [hno c (List.mem_append_left _ hc)]
  have hb : b.filter (IsSectionNamed X) = [] :=
    List.filter_eq_nil_iff.2 fun c hc => by simp [hno c (List.mem_append_right _ hc)]
  simp [List.filter_append, ha, hb, List.filter_cons, hc0]

theorem filter_insert_other {Y : String} {a b : List MachOContents} {c0 : MachOContents}
    (hc0 : c0.IsSectionNamed Y = false) :
    (a ++ [c0] ++ b).filter (IsSectionNamed Y) = (a ++ b).filter (IsSectionNamed Y) := by
  simp [List.filter_append, List.filter_cons, hc0]

theorem filter_split (p : MachOContents → Bool) {l : List MachOContents} {j : Nat}
    (hj : j < l.length) :
    l.filter p = (l.take j).filter p ++ (if p l[j] = true then [l[j]] else []) ++
      (l.drop (j + 1)).filter p := by
  calc l.filter p = (l.take j ++ l.drop j).filter p := by rw [List.take_append_drop]
    _ = _ := by
      rw [List.drop_eq_getElem_cons hj, List.filter_append, List.filter_cons]
      split <;> simp

theorem split_at {l : List MachOContents} {j : Nat} (hj : j < l.length) :
    l = l.take j ++ [l[j]] ++ l.drop (j + 1) := by
  rw [List.append_assoc, List.singleton_append, List.getElem_cons_drop, List.take_append_drop]

theorem set_split {l : List MachOContents} {j : Nat} (hj : j < l.length) (c1 : MachOContents) :
    l.set j c1 = l.take j ++ [c1] ++ l.drop (j + 1) := by
  rw [List.set_eq_take_append_cons_drop, if_pos hj, List.append_assoc, List.singleton_append]

theorem filter_set_same {X : String} {l : List MachOContents} {j : Nat} (hj : j < l.length)
    (hc : l[j].IsSectionNamed X = true)
    (hlen : (l.filter (IsSectionNamed X)).length ≤ 1) {c1 : MachOContents}
    (hc1 : c1.IsSectionNamed X = true) :
    l.filter (IsSectionNamed X) = [l[j]] ∧ (l.set j c1).filter (IsSectionNamed X) = [c1] := by
  have hf := filter_split (IsSectionNamed X) hj
  rw [if_pos hc] at hf
  rw [hf] at hlen
  simp only [List.length_append, List.length_singleton] at hlen
  have ha : (l.take j).filter (IsSectionNamed X) = [] := List.length_eq_zero.1 (by omega)
  have hb : (l.drop (j + 1)).filter (IsSectionNamed X) = [] := List.length_eq_zero.1 (by omega)
  refine ⟨by rw [hf, ha, hb]; rfl, ?_⟩
  rw [set_split hj]
  simp [List.filter_append, List.filter_cons, hc1, ha, hb]

theorem filter_set_other {Y : String} {l : List MachOContents} {j : Nat} (hj : j < l.length)
    (hc : l[j].IsSectionNamed Y = false) {c1 : MachOContents}
    (hc1 : c1.IsSectionNamed Y = false) :
    (l.set j c1).filter (IsSectionNamed Y) = l.filter (IsSectionNamed Y) := by
  have hf := filter_split (IsSectionNamed Y) hj
  rw [if_neg (by simp [hc])] at hf
  rw [set_split hj, hf]
  simp [List.filter_append, List.filter_cons, hc1]

end MachOContents

theorem MachOSegment.FindSectionIndex_eq (s : MachOSegment) (name : String) :
    s.FindSectionIndex name = s.contents_.findIdx? (MachOContents.IsSectionNamed name) := by
  unfold MachOSegment.FindSectionIndex
  congr

theorem MachOSection.create_named {name : String} {type attributes alignment : Nat}
    {has_contents : Bool} {c : MachOContents}
    (h : MachOSection.create name type attributes has_contents alignment = some c) :
    c.IsSectionNamed name = true ∧ c.portions = [] ∧ c.IsAllocated = true ∧
      c.IsMachOHeader = false := by
  unfold MachOSection.create at h
  split_ifs at h
  all_goals
    simp only [Option.some.injEq] at h
    subst h
    simp [MachOContents.IsSectionNamed, MachOContents.portions, MachOSection.HasName,
      MachOContents.IsAllocated, MachOContents.IsMachOHeader, kLinearInitValue]

theorem MachOContents.AddPortion_args {c c1 : MachOContents} {bytes : Option (List Nat)}
    {size : Nat} {relocations : Option (List Nat)} {symbols : Option (List SymbolData)}
    {symbol_name : Option String} {label : Int}
    (h : c.AddPortion bytes size relocations symbols symbol_name label = some c1) :
    (∀ X, c1.IsSectionNamed X = c.IsSectionNamed X) ∧
      c1.portions.map Portion.args = c.portions.map Portion.args ++
        [{ name := symbol_name, label := label, bytes := bytes, size := size,
           relocations := relocations, symbols := symbols }] := by
  rcases c with ⟨kind, fo, ma⟩
  cases kind
  case «section» s =>
    simp only [MachOContents.AddPortion] at h
    split_ifs at h
    simp only [Option.some.injEq] at h
    subst h
    refine ⟨fun X => ?_, ?_⟩
    · simp [MachOContents.IsSectionNamed, MachOSection.HasName]
    · simp [MachOContents.portions, Portion.args]
  all_goals simp [MachOContents.AddPortion] at h

theorem MachOSegment.AddContents_insert {s s1 : MachOSegment} {c : MachOContents} {b : Bool}
    (h : s.AddContents c b = some s1) :
    s1.name_ = s.name_ ∧
      ∃ l r, l ++ r = s.contents_ ∧ s1.contents_ = l ++ [c] ++ r := by
  unfold MachOSegment.AddContents at h
  split_ifs at h <;> simp only [Option.some.injEq] at h <;> subst h
  · exact ⟨rfl, [], s.contents_, rfl, rfl⟩
  · exact ⟨rfl, _, _, List.take_append_drop _ _, rfl⟩
  · exact ⟨rfl, s.contents_, [], List.append_nil _, (List.append_nil _).symm⟩

/-- One side of `Spec.TextSegmentHolds`, for the section named `X`. -/
theorem MachOContents.step_same {X : String} {l l1 : List MachOContents} {j : Nat}
    {c c1 : MachOContents} {argsX : List PortionArgs} {args : PortionArgs}
    (hX : (l.filter (IsSectionNamed X)).length ≤ 1)
    (hpX : ((l.filter (IsSectionNamed X)).map portions).flatten.map Portion.args = argsX)
    (h1 : l1 = l ∨ ((∀ c ∈ l, c.IsSectionNamed X = false) ∧ ∃ a b c0, a ++ b = l ∧
      l1 = a ++ [c0] ++ b ∧ c0.IsSectionNamed X = true ∧ c0.portions = []))
    (hj : l1.findIdx? (IsSectionNamed X) = some j) (hget : l1.get? j = some c)
    (hn : ∀ Z, c1.IsSectionNamed Z = c.IsSectionNamed Z)
    (hp : c1.portions.map Portion.args = c.portions.map Portion.args ++ [args]) :
    ((l1.set j c1).filter (IsSectionNamed X)).length ≤ 1 ∧
      (((l1.set j c1).filter (IsSectionNamed X)).map portions).flatten.map Portion.args =
        argsX ++ [args] := by
  obtain ⟨hjl, hcj, _⟩ := List.findIdx?_eq_some_iff_getElem.1 hj
  have hc : l1[j] = c := by
    rw [List.get?_eq_getElem?, List.getElem?_eq_getElem hjl] at hget
    exact Option.some.inj hget
  have hX1 : (l1.filter (IsSectionNamed X)).length ≤ 1 ∧
      ((l1.filter (IsSectionNamed X)).map portions).flatten.map Portion.args = argsX := by
    rcases h1 with rfl | ⟨hno, a, b, c0, hab, rfl, hc0, hc0p⟩
    · exact ⟨hX, hpX⟩
    · subst hab
      have hl : (a ++ b).filter (IsSectionNamed X) = [] :=
        List.filter_eq_nil_iff.2 fun c hc => by simp [hno c hc]
      rw [hl] at hpX
      rw [filter_insert_same hno hc0]
      refine ⟨Nat.le_refl _, ?_⟩
      rw [← hpX]
      simp [hc0p]
  have hc1 : c1.IsSectionNamed X = true := by rw [hn, ← hc]; exact hcj
  obtain ⟨e1, e2⟩ := filter_set_same hjl hcj hX1.1 hc1
  rw [e2]
  refine ⟨Nat.le_refl _, ?_⟩
  have := hX1.2
  rw [e1, hc] at this
  simp only [List.map_cons, List.map_nil, List.flatten_cons, List.flatten_nil,
    List.append_nil] at this ⊢
  rw [hp, this]

/-- The other side of `Spec.TextSegmentHolds`, for the section named `Y`. -/
theorem MachOContents.step_other {X Y : String} (hne : X ≠ Y) {l l1 : List MachOContents}
    {j : Nat} {c c1 : MachOContents}
    (h1 : l1 = l ∨ ((∀ c ∈ l, c.IsSectionNamed X = false) ∧ ∃ a b c0, a ++ b = l ∧
      l1 = a ++ [c0] ++ b ∧ c0.IsSectionNamed X = true ∧ c0.portions = []))
    (hj : l1.findIdx? (IsSectionNamed X) = some j) (hget : l1.get? j = some c)
    (hn : ∀ Z, c1.IsSectionNamed Z = c.IsSectionNamed Z) :
    (l1.set j c1).filter (IsSectionNamed Y) = l.filter (IsSectionNamed Y) ∧
      ((∀ c ∈ l, c.IsSectionNamed X = true ∨ c.IsSectionNamed Y = true) →
        ∀ c ∈ l1.set j c1, c.IsSectionNamed X = true ∨ c.IsSectionNamed Y = true) := by
  obtain ⟨hjl, hcj, _⟩ := List.findIdx?_eq_some_iff_getElem.1 hj
  have hc : l1[j] = c := by
    rw [List.get?_eq_getElem?, List.getElem?_eq_getElem hjl] at hget
    exact Option.some.inj hget
  have hc1 : c1.IsSectionNamed X = true := by rw [hn, ← hc]; exact hcj
  have hY1 : l1.filter (IsSectionNamed Y) = l.filter (IsSectionNamed Y) ∧
      ((∀ c ∈ l, c.IsSectionNamed X = true ∨ c.IsSectionNamed Y = true) →
        ∀ c ∈ l1, c.IsSectionNamed X = true ∨ c.IsSectionNamed Y = true) := by
    rcases h1 with rfl | ⟨hno, a, b, c0, hab, rfl, hc0, hc0p⟩
    · exact ⟨rfl, id⟩
    · subst hab
      refine ⟨filter_insert_other (IsSectionNamed_other hne hc0), ?_⟩
      intro hm c hcm
      simp only [List.mem_append, List.mem_singleton] at hcm
      rcases hcm with (hcm | rfl) | hcm
      · exact hm c (List.mem_append_left _ hcm)
      · exact Or.inl hc0
      · exact hm c (List.mem_append_right _ hcm)
  refine ⟨?_, ?_⟩
  · rw [← hY1.1]
    exact filter_set_other hjl (IsSectionNamed_other hne hcj) (IsSectionNamed_other hne hc1)
  · intro hm c' hc'
    rcases List.mem_or_eq_of_mem_set hc' with hc' | rfl
    · exact hY1.2 hm c' hc'
    · exact Or.inl hc1

namespace MachOWriter

theorem EnsureTextSegment_state {h header : MachOHeader} {i : Nat} {l : List MachOContents}
    (hstate : (h.commands_ = [] ∧ h.text_segment_ = none ∧ l = []) ∨
      (∃ seg : MachOSegment, h.commands_ = [.segment seg] ∧ h.text_segment_ = some 0 ∧
        seg.name_ = SEG_TEXT ∧ seg.contents_ = l))
    (he : h.EnsureTextSegment = some (header, i)) :
    i = 0 ∧ ∃ seg : MachOSegment, header.commands_ = [.segment seg] ∧
      header.text_segment_ = some 0 ∧ seg.name_ = SEG_TEXT ∧ seg.contents_ = l := by
  unfold MachOHeader.EnsureTextSegment at he
  rcases hstate with ⟨hc, ht, rfl⟩ | ⟨seg, hc, ht, hn, hl⟩
  · rw [ht] at he
    simp only at he
    split_ifs at he
    cases hcr : MachOSegment.create SEG_TEXT (VM_PROT_READ ||| VM_PROT_EXECUTE)
        (VM_PROT_READ ||| VM_PROT_EXECUTE) with
    | none => rw [hcr] at he; cases he
    | some seg =>
      rw [hcr] at he
      simp only [Option.some.injEq, Prod.mk.injEq] at he
      obtain ⟨rfl, rfl⟩ := he
      obtain ⟨e1, e2⟩ := MachOSegment.create_contents hcr
      exact ⟨by simp [hc], seg, by simp [hc], by simp [hc], e2, e1⟩
  · rw [ht] at he
    simp only [Option.some.injEq, Prod.mk.injEq] at he
    obtain ⟨rfl, rfl⟩ := he
    exact ⟨rfl, seg, hc, ht, hn, hl⟩

/-- One call of `AddText` or `AddROData` (`X` is the name of its section): the text segment
is the only command, the section `X` is created in it when it is missing, and the portion
is appended to that section. -/
theorem addToTextSegment_step {T : Target} {w w1 : MachOWriter} {X : String}
    {attributes : Nat} {name : Option String} {label : Int} {bytes : Option (List Nat)}
    {size : Nat} {relocations : Option (List Nat)} {symbols : Option (List SymbolData)}
    {l : List MachOContents}
    (hstate : (w.header_.commands_ = [] ∧ w.header_.text_segment_ = none ∧ l = []) ∨
      (∃ seg : MachOSegment, w.header_.commands_ = [.segment seg] ∧
        w.header_.text_segment_ = some 0 ∧ seg.name_ = SEG_TEXT ∧ seg.contents_ = l))
    (h : w.addToTextSegment T X attributes name label bytes size relocations symbols =
      some w1) :
    ∃ (seg1 : MachOSegment) (l1 : List MachOContents) (j : Nat) (c c1 : MachOContents),
      w1.header_.commands_ = [.segment seg1] ∧ w1.header_.text_segment_ = some 0 ∧
      seg1.name_ = SEG_TEXT ∧ seg1.contents_ = l1.set j c1 ∧
      (l1 = l ∨ ((∀ c ∈ l, c.IsSectionNamed X = false) ∧ ∃ a b c0, a ++ b = l ∧
        l1 = a ++ [c0] ++ b ∧ c0.IsSectionNamed X = true ∧ c0.portions = [])) ∧
      l1.findIdx? (MachOContents.IsSectionNamed X) = some j ∧ l1.get? j = some c ∧
      (∀ Z, c1.IsSectionNamed Z = c.IsSectionNamed Z) ∧
      c1.portions.map Portion.args = c.portions.map Portion.args ++
        [{ name := name, label := label, bytes := bytes, size := size,
           relocations := relocations, symbols := symbols }] := by
  unfold addToTextSegment at h
  simp only [Option.bind_eq_bind, Option.pure_def, Option.bind_eq_some, Prod.exists] at h
  obtain ⟨header, i, hens, ts, hts, h⟩ := h
  obtain ⟨rfl, seg, hc, ht, hn, hl⟩ := EnsureTextSegment_state hstate hens
  have hts' : ts = seg := by
    simp [MachOHeader.segmentAt?, hc, MachOCommand.AsMachOSegment] at hts
    exact hts.symm
  subst hts'
  have key : ∀ (ts1 : MachOSegment) (j : Nat) (c c1 : MachOContents),
      (ts1.name_ = SEG_TEXT ∧ (ts1.contents_ = l ∨
        ((∀ c ∈ l, c.IsSectionNamed X = false) ∧ ∃ a b c0, a ++ b = l ∧
          ts1.contents_ = a ++ [c0] ++ b ∧ c0.IsSectionNamed X = true ∧ c0.portions = []))) →
      ts1.FindSectionIndex X = some j → ts1.contents_.get? j = some c →
      c.AddPortion bytes size relocations symbols name label = some c1 →
      w1 = { w with header_ := (header.setSegment 0
        { ts1 with contents_ := ts1.contents_.set j c1 }) } →
      ∃ (seg1 : MachOSegment) (l1 : List MachOContents) (j : Nat) (c c1 : MachOContents),
        w1.header_.commands_ = [.segment seg1] ∧ w1.header_.text_segment_ = some 0 ∧
        seg1.name_ = SEG_TEXT ∧ seg1.contents_ = l1.set j c1 ∧
        (l1 = l ∨ ((∀ c ∈ l, c.IsSectionNamed X = false) ∧ ∃ a b c0, a ++ b = l ∧
          l1 = a ++ [c0] ++ b ∧ c0.IsSectionNamed X = true ∧ c0.portions = [])) ∧
        l1.findIdx? (MachOContents.IsSectionNamed X) = some j ∧ l1.get? j = some c ∧
        (∀ Z, c1.IsSectionNamed Z = c.IsSectionNamed Z) ∧
        c1.portions.map Portion.args = c.portions.map Portion.args ++
          [{ name := name, label := label, bytes := bytes, size := size,
             relocations := relocations, symbols := symbols }] := by
    intro ts1 j c c1 h1 hj hget hadd hw
    subst hw
    obtain ⟨hnames, hargs⟩ := MachOContents.AddPortion_args hadd
    rw [MachOSegment.FindSectionIndex_eq] at hj
    refine ⟨{ ts1 with contents_ := ts1.contents_.set j c1 }, ts1.contents_, j, c, c1,
      ?_, ?_, ?_, rfl, h1.2, hj, hget, hnames, hargs⟩
    · simp [MachOHeader.setSegment, hc]
    · simp [MachOHeader.setSegment, ht]
    · exact h1.1
  cases hf : ts.FindSectionIndex X with
  | some k =>
    rw [hf] at h
    simp only [Option.bind_eq_some, Option.some.injEq] at h
    obtain ⟨ts1, rfl, j, hj, c, hget, c1, hadd, hw⟩ := h
    exact key ts j c c1 ⟨hn, Or.inl hl⟩ hj hget hadd hw.symm
  | none =>
    rw [hf] at h
    simp only [Option.bind_eq_some, Option.some.injEq] at h
    obtain ⟨c0, hc0, ts1, hac, j, hj, c, hget, c1, hadd, hw⟩ := h
    obtain ⟨e1, e2, _⟩ := MachOSection.create_named hc0
    obtain ⟨en, a, b, hab, hcont⟩ := MachOSegment.AddContents_insert hac
    refine key ts1 j c c1
      ⟨by rw [en, hn], Or.inr ⟨?_, a, b, c0, by rw [hab, hl], hcont, e1, e2⟩⟩ hj hget hadd
      hw.symm
    rw [← hl]
    rw [MachOSegment.FindSectionIndex_eq] at hf
    exact List.findIdx?_eq_none_iff.1 hf

end MachOWriter

theorem AddCall.textArgs_append (a b : List AddCall) :
    AddCall.textArgs (a ++ b) = AddCall.textArgs a ++ AddCall.textArgs b := by
  induction a with
  | nil => rfl
  | cons c cs ih => cases c <;> simp [AddCall.textArgs, ih]

theorem AddCall.rodataArgs_append (a b : List AddCall) :
    AddCall.rodataArgs (a ++ b) = AddCall.rodataArgs a ++ AddCall.rodataArgs b := by
  induction a with
  | nil => rfl
  | cons c cs ih => cases c <;> simp [AddCall.rodataArgs, ih]

namespace MachOWriter

theorem SECT_TEXT_ne_CONST : SECT_TEXT ≠ SECT_CONST := by decide

/-- The state of the writer before a call, as `addToTextSegment_step` takes it. -/
theorem WriterHolds_state {w : MachOWriter} {done : List AddCall} (h : Spec.WriterHolds w done) :
    ∃ l, ((w.header_.commands_ = [] ∧ w.header_.text_segment_ = none ∧ l = []) ∨
        (∃ seg : MachOSegment, w.header_.commands_ = [.segment seg] ∧
          w.header_.text_segment_ = some 0 ∧ seg.name_ = SEG_TEXT ∧ seg.contents_ = l)) ∧
      Spec.TextSegmentHolds l (AddCall.textArgs done) (AddCall.rodataArgs done) := by
  rcases h with ⟨rfl, hc, ht⟩ | ⟨_, seg, hc, ht, hn, hh⟩
  · refine ⟨[], Or.inl ⟨hc, ht, rfl⟩, ?_⟩
    simp [Spec.TextSegmentHolds, AddCall.textArgs, AddCall.rodataArgs]
  · exact ⟨seg.contents_, Or.inr ⟨seg, hc, ht, hn, rfl⟩, hh⟩

theorem WriterHolds_add {T : Target} {w w1 : MachOWriter} {done : List AddCall} {call : AddCall}
    (h : Spec.WriterHolds w done) (ha : w.add T call = some w1) :
    Spec.WriterHolds w1 (done ++ [call]) := by
  obtain ⟨l, hstate, hm, hT, hC, hpT, hpC⟩ := WriterHolds_state h
  refine Or.inr ⟨by simp, ?_⟩
  cases call with
  | text name label bytes size relocations symbols =>
    obtain ⟨seg1, l1, j, c, c1, e1, e2, e3, e4, h1, hj, hget, hn, hp⟩ :=
      addToTextSegment_step hstate ha
    obtain ⟨a1, a2⟩ := MachOContents.step_same hT hpT h1 hj hget hn hp
    obtain ⟨b1, b2⟩ := MachOContents.step_other SECT_TEXT_ne_CONST h1 hj hget hn
    refine ⟨seg1, e1, e2, e3, ?_⟩
    rw [e4, AddCall.textArgs_append, AddCall.rodataArgs_append]
    refine ⟨b2 hm, a1, ?_, ?_, ?_⟩
    · rw [b1]; exact hC
    · rw [a2]; rfl
    · rw [b1, hpC]; simp [AddCall.rodataArgs]
  | rodata name label bytes size relocations symbols =>
    obtain ⟨seg1, l1, j, c, c1, e1, e2, e3, e4, h1, hj, hget, hn, hp⟩ :=
      addToTextSegment_step hstate ha
    obtain ⟨a1, a2⟩ := MachOContents.step_same hC hpC h1 hj hget hn hp
    obtain ⟨b1, b2⟩ := MachOContents.step_other (Ne.symm SECT_TEXT_ne_CONST) h1 hj hget hn
    refine ⟨seg1, e1, e2, e3, ?_⟩
    rw [e4, AddCall.textArgs_append, AddCall.rodataArgs_append]
    refine ⟨fun c hc => (b2 (fun c hc => (hm c hc).symm) c hc).symm, ?_, a1, ?_, ?_⟩
    · rw [b1]; exact hT
    · rw [b1, hpT]; simp [AddCall.textArgs]
    · rw [a2]; rfl

theorem WriterHolds_addAll {T : Target} :
    ∀ (calls done : List AddCall) (w w1 : MachOWriter), Spec.WriterHolds w done →
      w.addAll T calls = some w1 → Spec.WriterHolds w1 (done ++ calls) := by
  intro calls
  induction calls with
  | nil =>
    intro done w w1 h ha
    simp only [addAll, List.foldlM, Option.pure_def, Option.some.injEq] at ha
    subst ha
    rw [List.append_nil]
    exact h
  | cons c cs ih =>
    intro done w w1 h ha
    simp only [addAll, List.foldlM, Option.bind_eq_bind, Option.bind_eq_some] at ha
    obtain ⟨w2, h2, hrest⟩ := ha
    have := ih (done ++ [c]) w2 w1 (WriterHolds_add h h2) hrest
    rwa [List.append_assoc, List.singleton_append] at this

theorem WriterHolds_create {T : Target} {type : SnapshotType} {is_stripped : Bool}
    {id path : Option String} {dwarf : Option Dwarf} {w : MachOWriter}
    (h : MachOWriter.create T type is_stripped id path dwarf = some w) :
    Spec.WriterHolds w [] := by
  unfold MachOWriter.create at h
  simp only [Option.map_eq_some'] at h
  obtain ⟨header, hh, rfl⟩ := h
  unfold MachOHeader.create at hh
  split_ifs at hh
  simp only [Option.some.injEq] at hh
  subst hh
  exact Or.inl ⟨rfl, rfl, rfl⟩

end MachOWriter

/-- C30: after any sequence of `AddText` and `AddROData` calls on a new writer, of which
there is at least one, the only command of the header is a segment named `__TEXT` (so there
is exactly one, and no data segment); each of its children is a section named `__text` or
`__const`, there is at most one of either, and the portions of `__text` are made from the
arguments (name, label, bytes, size, relocations, symbols) of the `AddText` calls, the k-th
portion from the k-th call, those of `__const` likewise from the `AddROData` calls. -/
theorem C30_text_segment_portions (T : Target) (type : SnapshotType) (is_stripped : Bool)
    (id path : Option String) (dwarf : Option Dwarf) (calls : List AddCall)
    (w0 w : MachOWriter)
    (hcreate : MachOWriter.create T type is_stripped id path dwarf = some w0)
    (hadd : w0.addAll T calls = some w) (hcalls : calls ≠ []) :
    ∃ text_segment : MachOSegment,
      w.header_.commands_ = [.segment text_segment] ∧
      w.header_.text_segment_ = some 0 ∧
      text_segment.HasName SEG_TEXT = true ∧
      w.header_.FindSegment SEG_TEXT = some text_segment ∧
      w.header_.FindSegment SEG_DATA = none ∧
      (∀ c ∈ text_segment.contents_,
        c.IsSectionNamed SECT_TEXT = true ∨ c.IsSectionNamed SECT_CONST = true) ∧
      (text_segment.sectionsNamed SECT_TEXT).length ≤ 1 ∧
      (text_segment.sectionsNamed SECT_CONST).length ≤ 1 ∧
      (text_segment.portionsOf SECT_TEXT).map Portion.args = AddCall.textArgs calls ∧
      (text_segment.portionsOf SECT_CONST).map Portion.args = AddCall.rodataArgs calls ∧
      ((text_segment.portionsOf SECT_TEXT).length = (AddCall.textArgs calls).length ∧
        ∀ k p, (text_segment.portionsOf SECT_TEXT).get? k = some p →
          (AddCall.textArgs calls).get? k = some p.args) ∧
      ((text_segment.portionsOf SECT_CONST).length = (AddCall.rodataArgs calls).length ∧
        ∀ k p, (text_segment.portionsOf SECT_CONST).get? k = some p →
          (AddCall.rodataArgs calls).get? k = some p.args) := by
  have h := MachOWriter.WriterHolds_addAll calls [] w0 w
    (MachOWriter.WriterHolds_create hcreate) hadd
  rw [List.nil_append] at h
  rcases h with ⟨he, _⟩ | ⟨_, seg, hc, ht, hn, hm, hT, hC, hpT, hpC⟩
  · exact absurd he hcalls
  have hname : seg.HasName SEG_TEXT = true := by simp [MachOSegment.HasName, hn]
  have kth : ∀ (ps : List Portion) (args : List PortionArgs), ps.map Portion.args = args →
      ps.length = args.length ∧ ∀ k p, ps.get? k = some p → args.get? k = some p.args := by
    intro ps args hps
    subst hps
    refine ⟨by simp, ?_⟩
    intro k p hk
    rw [List.get?_eq_getElem?] at hk ⊢
    simp [hk]
  refine ⟨seg, hc, ht, hname, ?_, ?_, hm, hT, hC, hpT, hpC, kth _ _ hpT, kth _ _ hpC⟩
  · simp [MachOHeader.FindSegment, MachOHeader.FindSegmentIndex, MachOHeader.segmentAt?, hc,
      hname, MachOCommand.AsMachOSegment]
  · have hnd : seg.HasName SEG_DATA = false := by
      simp only [MachOSegment.HasName, hn]; decide
    simp [MachOHeader.FindSegment, MachOHeader.FindSegmentIndex, hc, hnd]

/-- C30 on the sample snapshot: after `AddText` with the label 1 and 64 bytes and
`AddROData` with the label 2 and 32 bytes, the text segment is the only command, and
`__text` and `__const` hold one portion each, made from those arguments. -/
theorem C30_text_segment_portions_witness :
    ∃ text_segment : MachOSegment,
      MachOHeader.sampleSnapshotHeader.commands_ = [.segment text_segment] ∧
      (text_segment.portionsOf SECT_TEXT).map Portion.args =
        [{ name := some "_kDartVmSnapshotInstructions", label := 1, bytes := some [],
           size := 64, relocations := none, symbols := none }] ∧
      (text_segment.portionsOf SECT_CONST).map Portion.args =
        [{ name := some "_kDartVmSnapshotData", label := 2, bytes := some [],
           size := 32, relocations := none, symbols := none }] :=
  let ⟨seg, h1, _, _, _, _, _, _, _, h2, h3, _⟩ :=
    C30_text_segment_portions Target.example64 SnapshotType.Snapshot true (some "app") none
      none AddCall.sampleCalls
      ((MachOWriter.create Target.example64 SnapshotType.Snapshot true (some "app") none
        none).getD ⟨SnapshotType.Snapshot, MachOHeader.sample⟩)
      ⟨SnapshotType.Snapshot, MachOHeader.sampleSnapshotHeader⟩
      (by decide) (by decide) (by decide)
  ⟨seg, h1, h2, h3⟩

/-- The guard `type == S_ZEROFILL && type == S_GB_ZEROFILL` of the constructor of
`MachOSection` holds of no type, as the two constants differ. -/
theorem MachOSection.zerofill_guard_false (type : Nat) :
    (type == S_ZEROFILL && type == S_GB_ZEROFILL) = false := by
  by_cases h : type = S_ZEROFILL
  · subst h; decide
  · simp [h]

/-- The constructor of `MachOSection` accepts the same arguments whatever the value of
`has_contents`. -/
theorem MachOSection.create_isSome_has_contents (name : String) (type attributes : Nat)
    (has_contents : Bool) (alignment : Nat) :
    (MachOSection.create name type attributes has_contents alignment).isSome =
      (MachOSection.create name type attributes false alignment).isSome := by
  unfold MachOSection.create
  rw [MachOSection.zerofill_guard_false]
  split_ifs <;> simp_all

/-- C40, as the code has it: the constructor of `MachOSection` accepts every zero-fill
type together with `has_contents = true` whenever it accepts the other arguments (here
the name "__bss" and the alignment 8), and the section it builds has file contents: its
file offset is unset instead of 0, so `HasContents` holds. The consistency check is
guarded by `type == S_ZEROFILL && type == S_GB_ZEROFILL`, which no type satisfies. -/
theorem C40_zerofill_with_contents_accepted :
    (∀ type : Nat, (type == S_ZEROFILL && type == S_GB_ZEROFILL) = false) ∧
    (∀ type : Nat, type = S_ZEROFILL ∨ type = S_GB_ZEROFILL →
      ∃ c, MachOSection.create SECT_BSS type S_NO_ATTRIBUTES true 8 = some c ∧
        c.HasContents = true ∧ c.file_offset_ = kLinearInitValue) ∧
    (MachOSection.create SECT_BSS S_ZEROFILL S_NO_ATTRIBUTES true 8).isSome = true ∧
    (MachOSection.create SECT_BSS S_GB_ZEROFILL S_NO_ATTRIBUTES true 8).isSome = true := by
  refine ⟨MachOSection.zerofill_guard_false, ?_, by decide, by decide⟩
  rintro type (rfl | rfl)
  · exact ⟨_, rfl, by decide, by decide⟩
  · exact ⟨_, rfl, by decide, by decide⟩

theorem MachOWriteStream.writeNulBytes_eq (k : Nat) :
    MachOWriteStream.writeNulBytes k = List.replicate k 0 := by
  induction k with
  | zero => rfl
  | succ k ih => simp [MachOWriteStream.writeNulBytes, ih, List.replicate_succ]

theorem MachOWriteStream.WriteFixedLengthCString_length (str : List Nat) (n : Nat) :
    (MachOWriteStream.WriteFixedLengthCString str (n : Int)).length = n := by
  unfold MachOWriteStream.WriteFixedLengthCString
  simp only [MachOWriteStream.writeNulBytes_eq, List.length_append, List.length_take,
    List.length_replicate]
  split_ifs <;> omega

/-- C37: for every string and every `n >= 0`, `WriteFixedLengthCString(str, n)` writes
exactly `n` bytes, namely the first `min(strlen(str), n)` bytes of the string followed by
`n - min(strlen(str), n)` zero bytes; when `strlen(str) >= n` these are the first `n`
bytes of the string alone, without a terminating NUL. -/
theorem C37_WriteFixedLengthCString (str : List Nat) (n : Int) (hn : 0 ≤ n) :
    ((MachOWriteStream.WriteFixedLengthCString str n).length : Int) = n ∧
    MachOWriteStream.WriteFixedLengthCString str n =
      str.take (min str.length n.toNat) ++
        List.replicate (n.toNat - min str.length n.toNat) 0 ∧
    (n ≤ str.length → MachOWriteStream.WriteFixedLengthCString str n = str.take n.toNat) := by
  obtain ⟨m, rfl⟩ := Int.eq_ofNat_of_zero_le hn
  have key : MachOWriteStream.WriteFixedLengthCString str m =
      str.take (min str.length m) ++ List.replicate (m - min str.length m) 0 := by
    unfold MachOWriteStream.WriteFixedLengthCString
    simp only [MachOWriteStream.writeNulBytes_eq]
    by_cases h : m ≤ str.length
    · have h1 : ((m : Int) - (str.length : Int)) ≤ 0 := by omega
      have h2 : ((m : Int) - (str.length : Int)).toNat = 0 := by omega
      simp [h1, h2, Nat.min_eq_right h]
    · have h1 : ¬ ((m : Int) - (str.length : Int)) ≤ 0 := by omega
      have h2 : ((m : Int) - (str.length : Int)).toNat = m - str.length := by omega
      have h3 : min str.length m = str.length := by omega
      simp [h1, h2, h3]
  refine ⟨?_, by simpa using key, ?_⟩
  · rw [key]
    simp only [List.length_append, List.length_take, List.length_replicate, min_self]
    omega
  · intro h
    have h : m ≤ str.length := by exact_mod_cast h
    rw [key]
    simp [Nat.min_eq_right h]

theorem C37_WriteFixedLengthCString_witness :
    ((MachOWriteStream.WriteFixedLengthCString [95, 95, 84] 5).length : Int) = 5 ∧
    MachOWriteStream.WriteFixedLengthCString [95, 95, 84] 5 =
      [95, 95, 84].take (min [95, 95, 84].length (5 : Int).toNat) ++
        List.replicate ((5 : Int).toNat - min [95, 95, 84].length (5 : Int).toNat) 0 ∧
    ((5 : Int) ≤ [95, 95, 84].length →
      MachOWriteStream.WriteFixedLengthCString [95, 95, 84] 5 =
        [95, 95, 84].take (5 : Int).toNat) :=
  C37_WriteFixedLengthCString [95, 95, 84] 5 (by decide)

theorem Portion.endFrom_append (e : Nat) (ps : List Portion) (p : Portion) :
    Portion.endFrom e (ps ++ [p]) = p.offset + p.size := by
  simp [Portion.endFrom]

theorem Portion.endFrom_cons (e : Nat) (p : Portion) (ps : List Portion) :
    Portion.endFrom e (p :: ps) = Portion.endFrom (p.offset + p.size) ps := by
  cases ps with
  | nil => simp [Portion.endFrom]
  | cons q qs =>
      unfold Portion.endFrom
      rw [List.getLast?_cons_cons]
      cases h : (q :: qs).getLast? with
      | none => simp at h
      | some l => rfl

theorem Portion.chainedFrom_append (a e : Nat) (ps : List Portion) (p : Portion) :
    Portion.chainedFrom a e (ps ++ [p]) =
      (Portion.chainedFrom a e ps && p.offset == RoundUp (Portion.endFrom e ps) a) := by
  induction ps generalizing e with
  | nil => simp [Portion.chainedFrom, Portion.endFrom]
  | cons q qs ih =>
      rw [List.cons_append]
      simp only [Portion.chainedFrom, ih, Portion.endFrom_cons, Bool.and_assoc]

/-- The facts about a chained list of portions, by position. -/
theorem Portion.chainedFrom_spec {a : Nat} (ha : 0 < a) :
    ∀ (ps : List Portion) (e : Nat), Portion.chainedFrom a e ps = true →
      (∀ p, ps[0]? = some p → p.offset = RoundUp e a) ∧
      (∀ j p q, ps[j]? = some p → ps[j + 1]? = some q →
        q.offset = RoundUp (p.offset + p.size) a ∧ p.offset ≤ q.offset ∧
          p.offset + p.size ≤ q.offset) ∧
      (∀ p ∈ ps, a ∣ p.offset)
  | [], _, _ => by simp
  | p :: ps, e, h => by
      simp only [Portion.chainedFrom, Bool.and_eq_true, beq_iff_eq] at h
      obtain ⟨h1, h2, h3⟩ := Portion.chainedFrom_spec ha ps _ h.2
      refine ⟨?_, ?_, ?_⟩
      · intro p0 hp0
        simp only [List.getElem?_cons_zero, Option.some.injEq] at hp0
        subst hp0
        exact h.1
      · intro j p0 q hp0 hq
        cases j with
        | zero =>
            simp only [List.getElem?_cons_zero, Option.some.injEq] at hp0
            subst hp0
            simp only [Nat.zero_add, List.getElem?_cons_succ] at hq
            have e1 := h1 q hq
            have e2 := le_RoundUp (p.offset + p.size) a ha
            exact ⟨e1, by omega, by omega⟩
        | succ j =>
            simp only [List.getElem?_cons_succ] at hp0 hq
            exact h2 j p0 q hp0 hq
      · intro p0 hp0
        rcases List.mem_cons.1 hp0 with rfl | hp0
        · rw [h.1]; exact RoundUp_dvd _ _
        · exact h3 p0 hp0

theorem MachOContents.AddPortion_chained {c c1 : MachOContents} {bytes : Option (List Nat)}
    {size : Nat} {relocations : Option (List Nat)} {symbols : Option (List SymbolData)}
    {symbol_name : Option String} {label : Int} {s : MachOSection}
    (hc : c.kind = .section s)
    (hs : Portion.chainedFrom s.alignment_ 0 s.portions_ = true)
    (h : c.AddPortion bytes size relocations symbols symbol_name label = some c1) :
    ∃ s1, c1.kind = .section s1 ∧ s1.alignment_ = s.alignment_ ∧ s1.name_ = s.name_ ∧
      s1.flags_ = s.flags_ ∧
      c1.file_offset_ = c.file_offset_ ∧ c1.memory_address_ = c.memory_address_ ∧
      Portion.chainedFrom s1.alignment_ 0 s1.portions_ = true ∧
      s1.portions_.map Portion.args = s.portions_.map Portion.args ++
        [{ name := symbol_name, label := label, bytes := bytes, size := size,
           relocations := relocations, symbols := symbols }] := by
  rcases c with ⟨kind, fo, ma⟩
  simp only at hc
  subst hc
  simp only [MachOContents.AddPortion] at h
  split_ifs at h
  simp only [Option.some.injEq] at h
  subst h
  refine ⟨_, rfl, rfl, rfl, rfl, rfl, rfl, ?_, ?_⟩
  · simp only [Portion.chainedFrom_append, hs, Bool.true_and, beq_iff_eq, Portion.endFrom]
  · simp [Portion.args]

theorem MachOContents.addPortions_chained :
    ∀ (calls : List PortionArgs) {c c1 : MachOContents} {s : MachOSection},
      c.kind = .section s → Portion.chainedFrom s.alignment_ 0 s.portions_ = true →
      c.addPortions calls = some c1 →
      ∃ s1, c1.kind = .section s1 ∧ s1.alignment_ = s.alignment_ ∧ s1.name_ = s.name_ ∧
        s1.flags_ = s.flags_ ∧
        c1.file_offset_ = c.file_offset_ ∧ c1.memory_address_ = c.memory_address_ ∧
        Portion.chainedFrom s1.alignment_ 0 s1.portions_ = true ∧
        s1.portions_.map Portion.args = s.portions_.map Portion.args ++ calls
  | [], c, c1, s, hc, hs, h => by
      simp only [MachOContents.addPortions, List.foldlM_nil, Option.pure_def,
        Option.some.injEq] at h
      subst h
      exact ⟨s, hc, rfl, rfl, rfl, rfl, rfl, hs, by simp⟩
  | a :: calls, c, c1, s, hc, hs, h => by
      simp only [MachOContents.addPortions, List.foldlM_cons, Option.bind_eq_bind,
        Option.bind_eq_some] at h
      obtain ⟨c2, h2, h3⟩ := h
      obtain ⟨s2, hk2, ha2, hn2, hf2, ho2, hm2, hch2, hargs2⟩ :=
        MachOContents.AddPortion_chained hc hs h2
      obtain ⟨s1, hk1, ha1, hn1, hf1, ho1, hm1, hch1, hargs1⟩ :=
        MachOContents.addPortions_chained calls hk2 hch2 h3
      refine ⟨s1, hk1, ha1.trans ha2, hn1.trans hn2, hf1.trans hf2, ho1.trans ho2,
        hm1.trans hm2, hch1, ?_⟩
      rw [hargs1, hargs2]
      simp

theorem MachOSection.create_section_spec {name : String} {type attributes : Nat}
    {has_contents : Bool} {alignment : Nat} {c : MachOContents}
    (h : MachOSection.create name type attributes has_contents alignment = some c) :
    IsPowerOfTwo alignment = true ∧
      c = { kind := .section { name_ := name, flags_ := type ||| attributes,
                               alignment_ := alignment, portions_ := [] },
            file_offset_ := if has_contents then kLinearInitValue else 0,
            memory_address_ := kLinearInitValue } := by
  unfold MachOSection.create at h
  split_ifs at h with h1 h2 h3 h4 h5
  all_goals
    simp only [Option.some.injEq] at h
    subst h
    refine ⟨by simpa using h2, ?_⟩
    simp [*]

/-- C36: after any sequence of `AddPortion` calls on a new section with the power-of-two
alignment `a`, the portions are those of the calls in order, the first portion has the
offset 0, each later portion has the offset `RoundUp(previous offset + previous size, a)`,
which is neither before the previous offset nor before the previous portion's end, every
offset is a multiple of `a`, and `SelfMemorySize` is the offset plus the size of the last
portion. -/
theorem C36_AddPortion_offsets (name : String) (type attributes : Nat) (has_contents : Bool)
    (a : Nat) (calls : List PortionArgs) (c0 c : MachOContents)
    (h0 : MachOSection.create name type attributes has_contents a = some c0)
    (h : c0.addPortions calls = some c) :
    IsPowerOfTwo a = true ∧
    ∃ s, c.kind = .section s ∧ s.alignment_ = a ∧
      s.portions_.map Portion.args = calls ∧
      (∀ p, s.portions_[0]? = some p → p.offset = 0) ∧
      (∀ j p q, s.portions_[j]? = some p → s.portions_[j + 1]? = some q →
        q.offset = RoundUp (p.offset + p.size) a ∧ p.offset ≤ q.offset ∧
          p.offset + p.size ≤ q.offset) ∧
      (∀ p ∈ s.portions_, a ∣ p.offset) ∧
      (∀ p, s.portions_.getLast? = some p → s.SelfMemorySize = p.offset + p.size) := by
  obtain ⟨hp, rfl⟩ := MachOSection.create_section_spec h0
  obtain ⟨s, hk, ha, _, _, _, _, hch, hargs⟩ :=
    MachOContents.addPortions_chained calls rfl (by rfl) h
  simp only at ha
  rw [ha] at hch
  obtain ⟨h1, h2, h3⟩ := Portion.chainedFrom_spec (IsPowerOfTwo_pos hp) _ _ hch
  refine ⟨hp, s, hk, ha, by simpa using hargs, ?_, h2, h3, ?_⟩
  · intro p hp0
    rw [h1 p hp0, RoundUp_zero]
  · intro p hl
    simp [MachOSection.SelfMemorySize, hl]

theorem C36_AddPortion_offsets_witness :
    IsPowerOfTwo 16 = true ∧
    ∃ s, MachOContents.sampleThreePortions.kind = .section s ∧ s.alignment_ = 16 ∧
      s.portions_.map Portion.args = PortionArgs.sampleCalls ∧
      (∀ p, s.portions_[0]? = some p → p.offset = 0) ∧
      (∀ j p q, s.portions_[j]? = some p → s.portions_[j + 1]? = some q →
        q.offset = RoundUp (p.offset + p.size) 16 ∧ p.offset ≤ q.offset ∧
          p.offset + p.size ≤ q.offset) ∧
      (∀ p ∈ s.portions_, 16 ∣ p.offset) ∧
      (∀ p, s.portions_.getLast? = some p → s.SelfMemorySize = p.offset + p.size) :=
  C36_AddPortion_offsets "__text" 0 0 true 16 PortionArgs.sampleCalls
    MachOContents.sampleEmptySection MachOContents.sampleThreePortions
    (by decide) (by decide)

theorem MachOContents.header_HasContents {c : MachOContents} (h : c.IsMachOHeader = true) :
    c.HasContents = true := by
  rcases c with ⟨kind, fo, ma⟩
  cases kind <;> simp_all [MachOContents.IsMachOHeader, MachOContents.HasContents]

/-- One `AddContents` call keeps the children partitioned. -/
theorem MachOSegment.AddContents_partition {s s1 : MachOSegment} {c : MachOContents}
    {b : Bool} {done : List MachOContents}
    (hle : s.next_contents_index_ ≤ s.contents_.length)
    (htake : s.contents_.take s.next_contents_index_ =
      (done.filter MachOContents.IsMachOHeader).reverse ++
        done.filter MachOContents.IsContentChild)
    (hdrop : s.contents_.drop s.next_contents_index_ =
      done.filter MachOContents.IsZerofillChild)
    (hsec : ∀ x ∈ s.contents_.drop s.next_contents_index_, x.IsMachOSection = true)
    (h : s.AddContents c b = some s1) :
    s1.next_contents_index_ ≤ s1.contents_.length ∧
    s1.contents_.take s1.next_contents_index_ =
      ((done ++ [c]).filter MachOContents.IsMachOHeader).reverse ++
        (done ++ [c]).filter MachOContents.IsContentChild ∧
    s1.contents_.drop s1.next_contents_index_ =
      (done ++ [c]).filter MachOContents.IsZerofillChild ∧
    (∀ x ∈ s1.contents_.drop s1.next_contents_index_, x.IsMachOSection = true) := by
  have hsplit : s.contents_ = s.contents_.take s.next_contents_index_ ++
      s.contents_.drop s.next_contents_index_ := (List.take_append_drop _ _).symm
  have hlen : (s.contents_.take s.next_contents_index_).length = s.next_contents_index_ := by
    rw [List.length_take]; omega
  unfold MachOSegment.AddContents at h
  split_ifs at h with h1 h2 h0 h3 h5 h6
  · -- the header
    simp only [Option.some.injEq] at h
    subst h
    have hc := MachOContents.header_HasContents h2
    refine ⟨by simp only [List.length_cons]; omega, ?_, ?_, ?_⟩
    · rw [List.take_succ_cons, htake]
      simp [List.filter_append, List.filter_cons, h2, MachOContents.IsContentChild]
    · rw [List.drop_succ_cons, hdrop]
      simp [List.filter_append, List.filter_cons, MachOContents.IsZerofillChild, hc]
    · rw [List.drop_succ_cons]; exact hsec
  · -- a child with contents
    simp only [Option.some.injEq] at h
    subst h
    have h2 : c.IsMachOHeader = false := by simpa using h2
    have e1 : (s.contents_.take s.next_contents_index_ ++ [c] ++
        s.contents_.drop s.next_contents_index_).take (s.next_contents_index_ + 1) =
          s.contents_.take s.next_contents_index_ ++ [c] := by
      rw [List.take_append_eq_append_take]
      simp [hlen]
    have e2 : (s.contents_.take s.next_contents_index_ ++ [c] ++
        s.contents_.drop s.next_contents_index_).drop (s.next_contents_index_ + 1) =
          s.contents_.drop s.next_contents_index_ := by
      rw [List.drop_append_eq_append_drop]
      simp [hlen]
    refine ⟨?_, ?_, ?_, ?_⟩
    · simp only [List.length_append, List.length_take, List.length_drop, List.length_singleton]
      omega
    · rw [e1, htake]
      simp [List.filter_append, List.filter_cons, h2, MachOContents.IsContentChild, h3]
    · rw [e2, hdrop]
      simp [List.filter_append, List.filter_cons, MachOContents.IsZerofillChild, h3]
    · rw [e2]; exact hsec
  · -- a section without contents
    simp only [Option.some.injEq] at h
    subst h
    have h2 : c.IsMachOHeader = false := by simpa using h2
    have h3 : c.HasContents = false := by simpa using h3
    have h5 : c.IsMachOSection = true := by simpa using h6
    have e1 : (s.contents_ ++ [c]).take s.next_contents_index_ =
        s.contents_.take s.next_contents_index_ := by
      rw [List.take_append_of_le_length hle]
    have e2 : (s.contents_ ++ [c]).drop s.next_contents_index_ =
        s.contents_.drop s.next_contents_index_ ++ [c] := by
      rw [List.drop_append_of_le_length hle]
    refine ⟨?_, ?_, ?_, ?_⟩
    · simp only [List.length_append, List.length_singleton]; omega
    · rw [e1, htake]
      simp [List.filter_append, List.filter_cons, h2, MachOContents.IsContentChild, h3]
    · rw [e2, hdrop]
      simp [List.filter_append, List.filter_cons, MachOContents.IsZerofillChild, h3]
    · intro x hx
      rw [e2] at hx
      rcases List.mem_append.1 hx with hx | hx
      · exact hsec x hx
      · simp only [List.mem_singleton] at hx
        subst hx
        exact h5

theorem MachOSegment.addAllContents_partition :
    ∀ (calls : List (MachOContents × Bool)) {s s1 : MachOSegment} {done : List MachOContents},
      s.next_contents_index_ ≤ s.contents_.length →
      s.contents_.take s.next_contents_index_ =
        (done.filter MachOContents.IsMachOHeader).reverse ++
          done.filter MachOContents.IsContentChild →
      s.contents_.drop s.next_contents_index_ = done.filter MachOContents.IsZerofillChild →
      (∀ x ∈ s.contents_.drop s.next_contents_index_, x.IsMachOSection = true) →
      s.addAllContents calls = some s1 →
      s1.next_contents_index_ ≤ s1.contents_.length ∧
      s1.contents_.take s1.next_contents_index_ =
        ((done ++ calls.map Prod.fst).filter MachOContents.IsMachOHeader).reverse ++
          (done ++ calls.map Prod.fst).filter MachOContents.IsContentChild ∧
      s1.contents_.drop s1.next_contents_index_ =
        (done ++ calls.map Prod.fst).filter MachOContents.IsZerofillChild ∧
      (∀ x ∈ s1.contents_.drop s1.next_contents_index_, x.IsMachOSection = true)
  | [], s, s1, done, hle, htake, hdrop, hsec, h => by
      simp only [MachOSegment.addAllContents, List.foldlM_nil, Option.pure_def,
        Option.some.injEq] at h
      subst h
      simpa using ⟨hle, htake, hdrop, hsec⟩
  | call :: calls, s, s1, done, hle, htake, hdrop, hsec, h => by
      simp only [MachOSegment.addAllContents, List.foldlM_cons, Option.bind_eq_bind,
        Option.bind_eq_some] at h
      obtain ⟨s2, h2, h3⟩ := h
      obtain ⟨a1, a2, a3, a4⟩ := MachOSegment.AddContents_partition hle htake hdrop hsec h2
      have := MachOSegment.addAllContents_partition calls a1 a2 a3 a4 h3
      simpa only [List.map_cons, List.append_assoc, List.singleton_append] using this

theorem MachOSegment.create_segment_spec {name : String} {ivp mvp : Nat} {s : MachOSegment}
    (h : MachOSegment.create name ivp mvp = some s) :
    s.contents_ = [] ∧ s.next_contents_index_ = 0 ∧ s.name_ = name := by
  unfold MachOSegment.create at h
  split_ifs at h
  simp only [Option.some.injEq] at h
  subst h
  exact ⟨rfl, rfl, rfl⟩

/-- C39: after any sequence of `AddContents` calls on a new segment, the children before
`next_contents_index_` are exactly the children with file contents, the header (the
latest first, were there several) before the other children with contents in insertion
order, and the children from `next_contents_index_` on are exactly the children without
file contents in insertion order, all of them sections; hence `HasContents` holds iff some
child has file contents and `HasZerofillSections` holds iff some child has none. -/
theorem C39_AddContents_partition (name : String) (ivp mvp : Nat)
    (calls : List (MachOContents × Bool)) (s0 s : MachOSegment)
    (h0 : MachOSegment.create name ivp mvp = some s0)
    (h : s0.addAllContents calls = some s) :
    s.next_contents_index_ ≤ s.contents_.length ∧
    s.contents_.take s.next_contents_index_ =
      ((calls.map Prod.fst).filter MachOContents.IsMachOHeader).reverse ++
        (calls.map Prod.fst).filter MachOContents.IsContentChild ∧
    s.contents_.drop s.next_contents_index_ =
      (calls.map Prod.fst).filter MachOContents.IsZerofillChild ∧
    (∀ x ∈ s.contents_.take s.next_contents_index_, x.HasContents = true) ∧
    (∀ x ∈ s.contents_.drop s.next_contents_index_,
      x.HasContents = false ∧ x.IsMachOSection = true) ∧
    (s.HasContents = true ↔ ∃ x ∈ s.contents_, x.HasContents = true) ∧
    (s.HasZerofillSections = true ↔ ∃ x ∈ s.contents_, x.HasContents = false) := by
  obtain ⟨e1, e2, _⟩ := MachOSegment.create_segment_spec h0
  obtain ⟨hle, htake, hdrop, hsec⟩ :=
    @MachOSegment.addAllContents_partition calls s0 s [] (by rw [e2]; exact Nat.zero_le _)
      (by rw [e1, e2]; rfl) (by rw [e1, e2]; rfl) (by rw [e1]; simp) h
  simp only [List.nil_append] at htake hdrop
  have ht : ∀ x ∈ s.contents_.take s.next_contents_index_, x.HasContents = true := by
    intro x hx
    rw [htake] at hx
    rcases List.mem_append.1 hx with hx | hx
    · exact MachOContents.header_HasContents (List.mem_filter.1 (List.mem_reverse.1 hx)).2
    · have := (List.mem_filter.1 hx).2
      simp only [MachOContents.IsContentChild, Bool.and_eq_true] at this
      exact this.2
  have hd : ∀ x ∈ s.contents_.drop s.next_contents_index_,
      x.HasContents = false ∧ x.IsMachOSection = true := by
    intro x hx
    refine ⟨?_, hsec x hx⟩
    rw [hdrop] at hx
    simpa [MachOContents.IsZerofillChild] using (List.mem_filter.1 hx).2
  have hmem : ∀ x, x ∈ s.contents_ ↔ x ∈ s.contents_.take s.next_contents_index_ ∨
      x ∈ s.contents_.drop s.next_contents_index_ := by
    intro x
    rw [← List.mem_append, List.take_append_drop]
  have hlt : (s.contents_.take s.next_contents_index_).length = s.next_contents_index_ := by
    rw [List.length_take]; omega
  have hld : (s.contents_.drop s.next_contents_index_).length =
      s.contents_.length - s.next_contents_index_ := List.length_drop _ _
  refine ⟨hle, htake, hdrop, ht, hd, ?_, ?_⟩
  · simp only [MachOSegment.HasContents, decide_eq_true_eq]
    constructor
    · intro hpos
      cases ht0 : s.contents_.take s.next_contents_index_ with
      | nil => rw [ht0] at hlt; simp at hlt; omega
      | cons x xs =>
          have hx : x ∈ s.contents_.take s.next_contents_index_ := by rw [ht0]; simp
          exact ⟨x, (hmem x).2 (Or.inl hx), ht x hx⟩
    · rintro ⟨x, hx, hc⟩
      rcases (hmem x).1 hx with hx | hx
      · have := List.length_pos_of_mem hx
        omega
      · rw [(hd x hx).1] at hc
        exact absurd hc (by decide)
  · simp only [MachOSegment.HasZerofillSections, bne_iff_ne, ne_eq]
    constructor
    · intro hne
      cases hd0 : s.contents_.drop s.next_contents_index_ with
      | nil => rw [hd0] at hld; simp at hld; omega
      | cons x xs =>
          have hx : x ∈ s.contents_.drop s.next_contents_index_ := by rw [hd0]; simp
          exact ⟨x, (hmem x).2 (Or.inr hx), (hd x hx).1⟩
    · rintro ⟨x, hx, hc⟩
      rcases (hmem x).1 hx with hx | hx
      · rw [ht x hx] at hc
        exact absurd hc (by decide)
      · have := List.length_pos_of_mem hx
        omega

theorem C39_AddContents_partition_witness :
    MachOSegment.sampleAdded.next_contents_index_ ≤ MachOSegment.sampleAdded.contents_.length ∧
    MachOSegment.sampleAdded.contents_.take MachOSegment.sampleAdded.next_contents_index_ =
      ((MachOSegment.sampleAddCalls.map Prod.fst).filter MachOContents.IsMachOHeader).reverse ++
        (MachOSegment.sampleAddCalls.map Prod.fst).filter MachOContents.IsContentChild ∧
    MachOSegment.sampleAdded.contents_.drop MachOSegment.sampleAdded.next_contents_index_ =
      (MachOSegment.sampleAddCalls.map Prod.fst).filter MachOContents.IsZerofillChild ∧
    (∀ x ∈ MachOSegment.sampleAdded.contents_.take
        MachOSegment.sampleAdded.next_contents_index_, x.HasContents = true) ∧
    (∀ x ∈ MachOSegment.sampleAdded.contents_.drop
        MachOSegment.sampleAdded.next_contents_index_,
      x.HasContents = false ∧ x.IsMachOSection = true) ∧
    (MachOSegment.sampleAdded.HasContents = true ↔
      ∃ x ∈ MachOSegment.sampleAdded.contents_, x.HasContents = true) ∧
    (MachOSegment.sampleAdded.HasZerofillSections = true ↔
      ∃ x ∈ MachOSegment.sampleAdded.contents_, x.HasContents = false) :=
  C39_AddContents_partition "__TEXT" 5 5 MachOSegment.sampleAddCalls
    MachOSegment.sampleNew MachOSegment.sampleAdded (by decide) (by decide)

theorem dvd_mod_two_pow {w n : Nat} (hw : IsPowerOfTwo w = true) (hw32 : w ≤ 2 ^ 32)
    (h : w ∣ n) : w ∣ n % 2 ^ 32 := by
  have h32 : w ∣ 2 ^ 32 := IsPowerOfTwo_dvd hw (by decide) hw32
  exact (Nat.dvd_mod_iff h32).2 h

/-- Every `cmdsize` is a multiple of the word size when the sizes of the records are. -/
theorem MachOCommand.cmdsize_dvd (T : Target) (hw : IsPowerOfTwo T.kWordSize = true)
    (hw32 : T.kWordSize ≤ 2 ^ 32)
    (hseg : T.kWordSize ∣ T.sizeofSegmentCommandType)
    (hsect : T.kWordSize ∣ T.sizeofSectionType)
    (huuid : T.kWordSize ∣ T.sizeofUuidCommand)
    (hbuild : T.kWordSize ∣ T.sizeofBuildVersionCommand)
    (hsym : T.kWordSize ∣ T.sizeofSymtabCommand)
    (hdysym : T.kWordSize ∣ T.sizeofDysymtabCommand)
    (hdata : T.kWordSize ∣ T.sizeofLinkeditDataCommand) (c : MachOCommand) :
    T.kWordSize ∣ c.cmdsize T := by
  cases c with
  | segment s =>
      exact dvd_mod_two_pow hw hw32 (Nat.dvd_add hseg (Dvd.dvd.mul_left hsect _))
  | other k x y z =>
      cases k <;> simp only [MachOCommand.cmdsize, CommandKind.cmdsize] <;>
        first
        | exact dvd_mod_two_pow hw hw32 (RoundUp_dvd _ _)
        | exact dvd_mod_two_pow hw hw32 (by assumption)

theorem MachOSegment.NumSections_of_kinds {s1 s2 : MachOSegment}
    (h : s1.contents_.map (fun c => c.kind) = s2.contents_.map (fun c => c.kind)) :
    s1.NumSections = s2.NumSections := by
  have key : ∀ l : List MachOContents,
      (l.filter MachOContents.IsMachOSection).length =
        ((l.map fun c => c.kind).filter fun k =>
          MachOContents.IsMachOSection ⟨k, 0, 0⟩).length := by
    intro l
    induction l with
    | nil => rfl
    | cons c cs ih =>
        have e : MachOContents.IsMachOSection c = MachOContents.IsMachOSection ⟨c.kind, 0, 0⟩ :=
          rfl
        simp only [List.filter_cons, List.map_cons, ← e]
        split <;> simp [ih]
  rw [MachOSegment.NumSections_sections, MachOSegment.NumSections_sections, key, key, h]

namespace MachOHeader

theorem VisitSegments_cmdsize (T : Target) (h : MachOHeader) :
    ∀ (a : List MachOCommand) (v : ContentOffsetsVisitor),
      (VisitSegments T h v a).2.map (fun c => c.cmdsize T) = a.map (fun c => c.cmdsize T) ∧
      (VisitSegments T h v a).2.map MachOCommand.header_offset_ =
        a.map MachOCommand.header_offset_ := by
  intro a
  induction a with
  | nil => intro v; exact ⟨rfl, rfl⟩
  | cons c cs ih =>
      intro v
      cases c with
      | segment s =>
          simp only [VisitSegments, List.map_cons, (ih _).1, (ih _).2]
          refine ⟨?_, ?_⟩
          · congr 1
            simp only [MachOCommand.cmdsize, MachOSegment.cmdsize]
            rw [MachOSegment.NumSections_of_kinds]
            rw [ContentOffsetsVisitor.VisitMachOSegment_eq]
            exact ContentOffsetsVisitor.VisitChildren_kinds T h _ _
          · congr 1
      | other k x y z => simp only [VisitSegments, List.map_cons, (ih _).1, (ih _).2, and_self]

theorem syncCommand_cmdsize (T : Target) (children : List MachOContents) (c : MachOCommand) :
    (syncCommand children c).cmdsize T = c.cmdsize T ∧
      (syncCommand children c).header_offset_ = c.header_offset_ := by
  cases c with
  | segment s => exact ⟨rfl, rfl⟩
  | other k x y z =>
      simp only [syncCommand]
      cases k.asContents? with
      | none => exact ⟨rfl, rfl⟩
      | some kk =>
          simp only
          cases children.find? fun c => c.kind == kk <;> exact ⟨rfl, rfl⟩

theorem set_header_offset_value {c c1 : MachOCommand} {v : Int}
    (h : set_header_offset c v = some c1) : c1.header_offset_ = v := by
  cases c with
  | segment s => rw [set_header_offset_segment h]; rfl
  | other k x y z => rw [set_header_offset_other h]; rfl

theorem setHeaderOffsets_offsets (T : Target) :
    ∀ (a : List MachOCommand) (n : Nat) (a1 : List MachOCommand),
      setHeaderOffsets T n a = some a1 →
      ∀ i c, a1[i]? = some c →
        c.header_offset_ = ((n + ((a.take i).map fun c => c.cmdsize T).sum : Nat) : Int) := by
  intro a
  induction a with
  | nil =>
      intro n a1 h i c hc
      simp only [setHeaderOffsets, Option.some.injEq] at h
      subst h
      simp at hc
  | cons x a ih =>
      intro n a1 h i c hc
      simp only [setHeaderOffsets, Option.bind_eq_bind, Option.pure_def, Option.bind_eq_some,
        Option.some.injEq] at h
      obtain ⟨u, hu, x1, hx1, r, hr, rfl⟩ := h
      cases i with
      | zero =>
          simp only [List.getElem?_cons_zero, Option.some.injEq] at hc
          subst hc
          rw [set_header_offset_value hx1]
          simp
      | succ i =>
          simp only [List.getElem?_cons_succ] at hc
          rw [ih _ r hr i c hc]
          simp only [List.take_succ_cons, List.map_cons, List.sum_cons]
          congr 1
          omega

/-- The alignment assertion of the first loop of `ComputeOffsets` never fails when every
`cmdsize` is a multiple of the word size: the loop succeeds whenever no command has a
header offset yet. -/
theorem setHeaderOffsets_isSome (T : Target)
    (hdvd : ∀ c : MachOCommand, T.kWordSize ∣ c.cmdsize T) :
    ∀ (a : List MachOCommand) (n : Nat), T.kWordSize ∣ n →
      (∀ c ∈ a, c.header_offset_ = kLinearInitValue) →
      (setHeaderOffsets T n a).isSome = true := by
  intro a
  induction a with
  | nil => intro n _ _; rfl
  | cons x a ih =>
      intro n hn hu
      have h1 : (n % T.kWordSize == 0) = true := by
        simpa using Nat.mod_eq_zero_of_dvd hn
      have h2 : ∃ x1, set_header_offset x (n : Int) = some x1 := by
        have hx := hu x (List.mem_cons_self _ _)
        have hne : ((n : Int) != kLinearInitValue) = true := by
          simp only [kLinearInitValue, bne_iff_ne, ne_eq]
          omega
        cases x with
        | segment s =>
            have hx : s.header_offset_ = kLinearInitValue := hx
            exact ⟨.segment { s with header_offset_ := (n : Int) },
              by simp [set_header_offset, hne, hx]⟩
        | other k p q z =>
            have hx : z = kLinearInitValue := hx
            exact ⟨.other k p q (n : Int), by simp [set_header_offset, hne, hx]⟩
      obtain ⟨x1, hx1⟩ := h2
      have h3 := ih (n + x.cmdsize T) (Nat.dvd_add hn (hdvd x))
        (fun c hc => hu c (List.mem_cons_of_mem _ hc))
      obtain ⟨r, hr⟩ := Option.isSome_iff_exists.1 h3
      simp [setHeaderOffsets, ASSERT, h1, hx1, hr]

theorem foldl_cmdsize_sum (T : Target) :
    ∀ (commands : List MachOCommand) (n : Nat),
      commands.foldl (fun size command => size + command.cmdsize T) n =
        n + (commands.map fun c => c.cmdsize T).sum := by
  intro commands
  induction commands with
  | nil => intro n; simp
  | cons c cs ih =>
      intro n
      simp only [List.foldl_cons, ih, List.map_cons, List.sum_cons]
      omega

theorem sum_take_dvd {w : Nat} :
    ∀ (l : List Nat) (i : Nat), (∀ x ∈ l, w ∣ x) → w ∣ (l.take i).sum := by
  intro l i hl
  apply List.dvd_sum
  intro x hx
  exact hl x (List.mem_of_mem_take hx)

end MachOHeader

theorem MachOHeader.sizeofcmds_eq (T : Target) (h : MachOHeader) :
    h.sizeofcmds T = (h.commands_.map fun c => c.cmdsize T).sum % 2 ^ 32 := by
  have key : ∀ (l : List MachOCommand) (n : Nat),
      l.foldl (fun sizeofcmds command => (sizeofcmds + command.cmdsize T) % 2 ^ 32) n % 2 ^ 32 =
        (n + (l.map fun c => c.cmdsize T).sum) % 2 ^ 32 := by
    intro l
    induction l with
    | nil => intro n; simp
    | cons c cs ih =>
        intro n
        simp only [List.foldl_cons, ih, List.map_cons, List.sum_cons]
        omega
  have h0 : ∀ (l : List MachOCommand) (n : Nat), n < 2 ^ 32 →
      l.foldl (fun sizeofcmds command => (sizeofcmds + command.cmdsize T) % 2 ^ 32) n <
        2 ^ 32 := by
    intro l
    induction l with
    | nil => intro n hn; exact hn
    | cons c cs ih =>
        intro n _
        exact ih _ (Nat.mod_lt _ (by decide))
  unfold MachOHeader.sizeofcmds
  rw [← Nat.mod_eq_of_lt (h0 h.commands_ 0 (by decide)), key, Nat.zero_add]

/-- C35: when the word size is a power of two and divides the sizes of the Mach-O records,
every load command's `cmdsize` is a multiple of the word size; the size of a dylib command
is `RoundUp(sizeof(dylib_command) + strlen(name) + 1, word size)` as a `uint32_t`, a
multiple of the word size for any name and any size of the record; the first loop of
`ComputeOffsets` passes its alignment assertion on commands without a header offset; and
after `ComputeOffsets` the header offset of the command at position `i` is the size of
the header record plus the sum of the `cmdsize` of the commands before it, a multiple of
the word size, while `SelfMemorySize` of the header is the size of the header record plus
the sum of every `cmdsize`, whose low 32 bits are the field `sizeofcmds`. -/
theorem C35_cmdsize_aligned (T : Target) (h2 h3 : MachOHeader)
    (hw : IsPowerOfTwo T.kWordSize = true) (hw32 : T.kWordSize ≤ 2 ^ 32)
    (hheader : T.kWordSize ∣ T.sizeofHeaderType)
    (hseg : T.kWordSize ∣ T.sizeofSegmentCommandType)
    (hsect : T.kWordSize ∣ T.sizeofSectionType)
    (huuid : T.kWordSize ∣ T.sizeofUuidCommand)
    (hbuild : T.kWordSize ∣ T.sizeofBuildVersionCommand)
    (hsym : T.kWordSize ∣ T.sizeofSymtabCommand)
    (hdysym : T.kWordSize ∣ T.sizeofDysymtabCommand)
    (hdata : T.kWordSize ∣ T.sizeofLinkeditDataCommand)
    (hc : MachOHeader.ComputeOffsets T h2 = some h3) :
    (∀ c : MachOCommand, T.kWordSize ∣ c.cmdsize T) ∧
    (∀ (name : String) (x y : Nat),
      CommandKind.cmdsize T (.idDylib name x y) =
          RoundUp (T.sizeofDylibCommand + name.length + 1) T.kWordSize % 2 ^ 32 ∧
        T.kWordSize ∣ CommandKind.cmdsize T (.idDylib name x y)) ∧
    (∀ (name : String) (x y z : Nat),
      CommandKind.cmdsize T (.loadDylib name x y z) =
          RoundUp (T.sizeofDylibCommand + name.length + 1) T.kWordSize % 2 ^ 32 ∧
        T.kWordSize ∣ CommandKind.cmdsize T (.loadDylib name x y z)) ∧
    (∀ (commands : List MachOCommand) (n : Nat), T.kWordSize ∣ n →
      (∀ c ∈ commands, c.header_offset_ = kLinearInitValue) →
      (MachOHeader.setHeaderOffsets T n commands).isSome = true) ∧
    (∀ i c, h3.commands_[i]? = some c →
      c.header_offset_ =
          ((T.sizeofHeaderType + ((h3.commands_.take i).map fun c => c.cmdsize T).sum : Nat) :
            Int) ∧
        (T.kWordSize : Int) ∣ c.header_offset_) ∧
    h3.SelfMemorySize T =
      T.sizeofHeaderType + (h3.commands_.map fun c => c.cmdsize T).sum ∧
    h3.sizeofcmds T = (h3.SelfMemorySize T - T.sizeofHeaderType) % 2 ^ 32 := by
  have hdvd : ∀ c : MachOCommand, T.kWordSize ∣ c.cmdsize T :=
    MachOCommand.cmdsize_dvd T hw hw32 hseg hsect huuid hbuild hsym hdysym hdata
  have hself : h3.SelfMemorySize T =
      T.sizeofHeaderType + (h3.commands_.map fun c => c.cmdsize T).sum :=
    MachOHeader.foldl_cmdsize_sum T _ _
  refine ⟨hdvd, ?_, ?_, MachOHeader.setHeaderOffsets_isSome T hdvd, ?_, hself, ?_⟩
  · intro name x y
    exact ⟨rfl, dvd_mod_two_pow hw hw32 (RoundUp_dvd _ _)⟩
  · intro name x y z
    exact ⟨rfl, dvd_mod_two_pow hw hw32 (RoundUp_dvd _ _)⟩
  · obtain ⟨commands, hset, h3c, _⟩ := MachOHeader.ComputeOffsets_commands hc
    have hsize : h3.commands_.map (fun c => c.cmdsize T) =
        h2.commands_.map (fun c => c.cmdsize T) := by
      rw [h3c, List.map_map]
      have : ((fun c => MachOCommand.cmdsize T c) ∘ MachOHeader.syncCommand
          (MachOHeader.allContents (MachOHeader.VisitSegments T { h2 with commands_ := commands }
            ContentOffsetsVisitor.init commands).2)) = fun c => MachOCommand.cmdsize T c := by
        funext c
        exact (MachOHeader.syncCommand_cmdsize T _ c).1
      rw [this, (MachOHeader.VisitSegments_cmdsize T _ _ _).1,
        (MachOHeader.setHeaderOffsets_cmd T _ _ _ hset).2]
    have hoff : h3.commands_.map MachOCommand.header_offset_ =
        commands.map MachOCommand.header_offset_ := by
      rw [h3c, List.map_map]
      have : (MachOCommand.header_offset_ ∘ MachOHeader.syncCommand
          (MachOHeader.allContents (MachOHeader.VisitSegments T { h2 with commands_ := commands }
            ContentOffsetsVisitor.init commands).2)) = MachOCommand.header_offset_ := by
        funext c
        exact (MachOHeader.syncCommand_cmdsize T _ c).2
      rw [this, (MachOHeader.VisitSegments_cmdsize T _ _ _).2]
    intro i c hic
    have h1 : (h3.commands_.map MachOCommand.header_offset_)[i]? = some c.header_offset_ := by
      rw [List.getElem?_map, hic]; rfl
    rw [hoff, List.getElem?_map] at h1
    cases hci : commands[i]? with
    | none => rw [hci] at h1; cases h1
    | some c0 =>
        rw [hci] at h1
        simp only [Option.map_some', Option.some.injEq] at h1
        have h2' := MachOHeader.setHeaderOffsets_offsets T _ _ _ hset i c0 hci
        have e : (h3.commands_.take i).map (fun c => c.cmdsize T) =
            (h2.commands_.take i).map (fun c => c.cmdsize T) := by
          rw [List.map_take, List.map_take, hsize]
        rw [← h1, h2', e]
        refine ⟨rfl, ?_⟩
        have hd : T.kWordSize ∣ ((h2.commands_.take i).map fun c => c.cmdsize T).sum := by
          apply List.dvd_sum
          intro x hx
          obtain ⟨c', _, rfl⟩ := List.mem_map.1 hx
          exact hdvd c'
        exact Int.natCast_dvd_natCast.2 (Nat.dvd_add hheader hd)
  · rw [MachOHeader.sizeofcmds_eq, hself, Nat.add_sub_cancel_left]

theorem C35_cmdsize_aligned_witness :
    (∀ c : MachOCommand, Target.example64.kWordSize ∣ c.cmdsize Target.example64) ∧
    (∀ (name : String) (x y : Nat),
      CommandKind.cmdsize Target.example64 (.idDylib name x y) =
          RoundUp (Target.example64.sizeofDylibCommand + name.length + 1)
            Target.example64.kWordSize % 2 ^ 32 ∧
        Target.example64.kWordSize ∣ CommandKind.cmdsize Target.example64 (.idDylib name x y)) ∧
    (∀ (name : String) (x y z : Nat),
      CommandKind.cmdsize Target.example64 (.loadDylib name x y z) =
          RoundUp (Target.example64.sizeofDylibCommand + name.length + 1)
            Target.example64.kWordSize % 2 ^ 32 ∧
        Target.example64.kWordSize ∣
          CommandKind.cmdsize Target.example64 (.loadDylib name x y z)) ∧
    (∀ (commands : List MachOCommand) (n : Nat), Target.example64.kWordSize ∣ n →
      (∀ c ∈ commands, c.header_offset_ = kLinearInitValue) →
      (MachOHeader.setHeaderOffsets Target.example64 n commands).isSome = true) ∧
    (∀ i c, MachOHeader.sampleFinalized.commands_[i]? = some c →
      c.header_offset_ =
          ((Target.example64.sizeofHeaderType +
            ((MachOHeader.sampleFinalized.commands_.take i).map fun c =>
              c.cmdsize Target.example64).sum : Nat) : Int) ∧
        (Target.example64.kWordSize : Int) ∣ c.header_offset_) ∧
    MachOHeader.sampleFinalized.SelfMemorySize Target.example64 =
      Target.example64.sizeofHeaderType +
        (MachOHeader.sampleFinalized.commands_.map fun c => c.cmdsize Target.example64).sum ∧
    MachOHeader.sampleFinalized.sizeofcmds Target.example64 =
      (MachOHeader.sampleFinalized.SelfMemorySize Target.example64 -
        Target.example64.sizeofHeaderType) % 2 ^ 32 :=
  C35_cmdsize_aligned Target.example64 MachOHeader.sampleBeforeOffsets
    MachOHeader.sampleFinalized (by decide) (by decide) (by decide) (by decide) (by decide)
    (by decide) (by decide) (by decide) (by decide) (by decide) (by decide!)

namespace HashingMachOWriteStream

/-- The digests of a prefix made of whole chunks, followed by those of the rest. -/
theorem chunkDigests_append (T : Target) (A B : List Nat) (hA : 4096 ∣ A.length) :
    Spec.chunkDigests T (A ++ B) = Spec.chunkDigests T A ++ Spec.chunkDigests T B := by
  obtain ⟨k, hk⟩ := hA
  have e1 : (A.length + 4095) / 4096 = k := by omega
  have e2 : ((A ++ B).length + 4095) / 4096 = k + (B.length + 4095) / 4096 := by
    rw [List.length_append]; omega
  unfold Spec.chunkDigests
  rw [e1]
  rw [e2]
  rw [List.range_add]
  rw [List.map_append, List.map_map]
  have ha : List.map (fun i => T.SHA256 (List.take 4096 (List.drop (i * 4096) (A ++ B))))
      (List.range k) =
      List.map (fun i => T.SHA256 (List.take 4096 (List.drop (i * 4096) A))) (List.range k) := by
    apply List.map_congr_left
    intro i hi
    have hi : i < k := List.mem_range.1 hi
    have h1 : i * 4096 ≤ A.length := by omega
    rw [List.drop_append_of_le_length h1, List.take_append_of_le_length]
    rw [List.length_drop]
    omega
  have hb : List.map ((fun i => T.SHA256 (List.take 4096 (List.drop (i * 4096) (A ++ B)))) ∘
        fun x => k + x) (List.range ((B.length + 4095) / 4096)) =
      List.map (fun i => T.SHA256 (List.take 4096 (List.drop (i * 4096) B)))
        (List.range ((B.length + 4095) / 4096)) := by
    apply List.map_congr_left
    intro j _
    simp only [Function.comp]
    have h2 : (k + j) * 4096 = A.length + j * 4096 := by omega
    rw [h2, List.drop_append]
  rw [ha, hb]

theorem chunkDigests_nil (T : Target) : Spec.chunkDigests T [] = [] := rfl

theorem chunkDigests_length (T : Target) (A : List Nat) :
    (Spec.chunkDigests T A).length = (A.length + 4095) / 4096 := by
  simp [Spec.chunkDigests]

/-- The digests the hashing loop adds, chunk by chunk from `offset` on. -/
theorem HashLoop_hashes (T : Target) (count : Nat) :
    ∀ (fuel offset : Nat) (s : HashingMachOWriteStream),
      (count - offset + 4095) / 4096 ≤ fuel →
      (HashLoop T count fuel offset s).hashes_ =
        s.hashes_ ++ (List.range ((count - offset + 4095) / 4096)).map fun i =>
          T.SHA256 (((s.buffer_.take count).drop (offset + i * 4096)).take 4096) := by
  intro fuel
  induction fuel with
  | zero =>
    intro offset s hf
    have : (count - offset + 4095) / 4096 = 0 := by omega
    rw [this]
    simp [HashLoop]
  | succ fuel ih =>
    intro offset s hf
    simp only [HashLoop]
    split_ifs with hlt
    · rw [ih _ _ (by rw [kChunkSize_eq]; omega)]
      simp only [kChunkSize_eq]
      have hn : (count - offset + 4095) / 4096 = (count - (offset + 4096) + 4095) / 4096 + 1 := by
        omega
      rw [hn, List.range_succ_eq_map, List.map_cons, List.map_map, List.append_assoc,
        List.singleton_append]
      congr 2
      · congr 1
        rw [Nat.zero_mul, Nat.add_zero, List.drop_take, List.take_take]
        congr 1
        omega
      · apply List.map_congr_left
        intro i _
        simp only [Function.comp]
        congr 3
        omega
    · have : (count - offset + 4095) / 4096 = 0 := by omega
      rw [this]
      simp

theorem Hash_hashes (T : Target) (s : HashingMachOWriteStream) (count : Nat)
    (hc : count ≤ s.buffer_.length) :
    (Hash T s count).1.hashes_ = s.hashes_ ++ Spec.chunkDigests T (s.buffer_.take count) ∧
      (Hash T s count).1.wrapped_stream_ = s.wrapped_stream_ ∧
      (Hash T s count).1.capacity_ = s.capacity_ := by
  unfold Hash
  split_ifs with h0
  · have h := HashLoop_hashes T count count 0 s (by omega)
    have h' := HashLoop_spec T count count 0 s (by omega)
    refine ⟨?_, h'.2.2.2.2.1, h'.2.2.2.2.2⟩
    rw [h]
    simp only [Spec.chunkDigests, List.length_take, Nat.min_eq_left hc, Nat.sub_zero,
      Nat.zero_add]
  · have : count = 0 := by omega
    subst this
    simp [Spec.chunkDigests]

end HashingMachOWriteStream

namespace HashingMachOWriteStream

theorem FlushBytes_frame (s : HashingMachOWriteStream) (count : Nat) :
    (FlushBytes s count).wrapped_stream_ = s.wrapped_stream_ ++ s.buffer_.take count ∧
      (FlushBytes s count).buffer_ = s.buffer_.drop count ∧
      (FlushBytes s count).flushed_size_ = s.flushed_size_ + count ∧
      (FlushBytes s count).hashes_ = s.hashes_ ∧
      (FlushBytes s count).num_hashes_ = s.num_hashes_ ∧
      (FlushBytes s count).hashing_ = s.hashing_ ∧
      (FlushBytes s count).capacity_ = s.capacity_ := by
  unfold FlushBytes
  split_ifs with h0
  · subst h0
    simp
  · simp

/-- What `Flush` does while hashing is active: the first `count` buffered bytes are hashed
chunk by chunk and handed on, where `count` is the whole buffer or its whole chunks. -/
theorem Flush_hashing (T : Target) (s : HashingMachOWriteStream) (chunks_only : Bool)
    (hh : s.hashing_ = true) :
    ∃ count, count ≤ s.buffer_.length ∧
      count = (if chunks_only then s.buffer_.length - s.buffer_.length % 4096
        else s.buffer_.length) ∧
      (Flush T s chunks_only).wrapped_stream_ = s.wrapped_stream_ ++ s.buffer_.take count ∧
      (Flush T s chunks_only).buffer_ = s.buffer_.drop count ∧
      (Flush T s chunks_only).flushed_size_ = s.flushed_size_ + count ∧
      (Flush T s chunks_only).hashes_ =
        s.hashes_ ++ Spec.chunkDigests T (s.buffer_.take count) ∧
      (Flush T s chunks_only).num_hashes_ = s.num_hashes_ + (count + 4095) / 4096 ∧
      (Flush T s chunks_only).hashing_ = true ∧
      (Flush T s chunks_only).capacity_ = s.capacity_ := by
  have hle : (if chunks_only then s.buffer_.length - s.buffer_.length % 4096
      else s.buffer_.length) ≤ s.buffer_.length := by
    split_ifs <;> omega
  refine ⟨_, hle, rfl, ?_⟩
  have hH := Hash_spec T s
    (if chunks_only then s.buffer_.length - s.buffer_.length % 4096 else s.buffer_.length)
  have hH2 := Hash_hashes T s _ hle
  have hF := FlushBytes_frame
    (Hash T s (if chunks_only then s.buffer_.length - s.buffer_.length % 4096
      else s.buffer_.length)).1
    (Hash T s (if chunks_only then s.buffer_.length - s.buffer_.length % 4096
      else s.buffer_.length)).2
  have e : Flush T s chunks_only = FlushBytes
      (Hash T s (if chunks_only then s.buffer_.length - s.buffer_.length % 4096
        else s.buffer_.length)).1
      (Hash T s (if chunks_only then s.buffer_.length - s.buffer_.length % 4096
        else s.buffer_.length)).2 := by
    simp only [Flush, hh, if_true, BasePosition, kChunkSize_eq]
  rw [e, hF.1, hF.2.1, hF.2.2.1, hF.2.2.2.1, hF.2.2.2.2.1, hF.2.2.2.2.2.1, hF.2.2.2.2.2.2,
    hH.1, hH.2.1, hH.2.2.1, hH.2.2.2.1, hH.2.2.2.2, hH2.1, hH2.2.1, hH2.2.2]
  exact ⟨rfl, rfl, rfl, rfl, rfl, hh, rfl⟩

/-- What `Flush` does once hashing is finalized: the whole buffer is handed on unhashed. -/
theorem Flush_not_hashing (T : Target) (s : HashingMachOWriteStream) (chunks_only : Bool)
    (hh : s.hashing_ = false) :
    (Flush T s chunks_only).wrapped_stream_ = s.wrapped_stream_ ++ s.buffer_ ∧
      (Flush T s chunks_only).buffer_ = [] ∧
      (Flush T s chunks_only).flushed_size_ = s.flushed_size_ + s.buffer_.length ∧
      (Flush T s chunks_only).hashes_ = s.hashes_ ∧
      (Flush T s chunks_only).num_hashes_ = s.num_hashes_ ∧
      (Flush T s chunks_only).hashing_ = false ∧
      (Flush T s chunks_only).capacity_ = s.capacity_ := by
  have hF := FlushBytes_frame s s.buffer_.length
  have e : Flush T s chunks_only = FlushBytes s s.buffer_.length := by
    simp [Flush, hh, BasePosition]
  rw [e, hF.1, hF.2.1, hF.2.2.1, hF.2.2.2.1, hF.2.2.2.2.1, hF.2.2.2.2.2.1, hF.2.2.2.2.2.2]
  simp [hh]

theorem Flush_delivers (T : Target) (wrapped written : List Nat)
    (s : HashingMachOWriteStream) (chunks_only : Bool) (hs : Delivers wrapped written s) :
    Delivers wrapped written (Flush T s chunks_only) := by
  obtain ⟨h1, h2, h3⟩ := hs
  cases hh : s.hashing_ with
  | true =>
      obtain ⟨count, hle, _, e1, e2, e3, e4, e5, _, _⟩ := Flush_hashing T s chunks_only hh
      refine ⟨?_, ?_, ?_⟩
      · rw [e1, e2, List.append_assoc, List.take_append_drop, h1]
      · rw [e1, e3, List.length_append, List.length_take, h2]
        omega
      · rw [e4, e5, List.length_append, chunkDigests_length, List.length_take, h3]
        congr 2
        omega
  | false =>
      obtain ⟨e1, e2, e3, e4, e5, _, _⟩ := Flush_not_hashing T s chunks_only hh
      refine ⟨?_, ?_, ?_⟩
      · rw [e1, e2, List.append_nil, h1]
      · rw [e1, e3, List.length_append, h2]
        omega
      · rw [e4, e5, h3]

theorem Realloc_frame (T : Target) (s : HashingMachOWriteStream) (new_size : Nat) :
    (Realloc T s new_size).wrapped_stream_ = (Flush T s true).wrapped_stream_ ∧
      (Realloc T s new_size).buffer_ = (Flush T s true).buffer_ ∧
      (Realloc T s new_size).flushed_size_ = (Flush T s true).flushed_size_ ∧
      (Realloc T s new_size).hashes_ = (Flush T s true).hashes_ ∧
      (Realloc T s new_size).num_hashes_ = (Flush T s true).num_hashes_ ∧
      (Realloc T s new_size).hashing_ = (Flush T s true).hashing_ := by
  unfold Realloc
  simp only
  split_ifs <;> exact ⟨rfl, rfl, rfl, rfl, rfl, rfl⟩

theorem Realloc_delivers (T : Target) (wrapped written : List Nat)
    (s : HashingMachOWriteStream) (new_size : Nat) (hs : Delivers wrapped written s) :
    Delivers wrapped written (Realloc T s new_size) := by
  obtain ⟨e1, e2, e3, e4, e5, _⟩ := Realloc_frame T s new_size
  have h := Flush_delivers T wrapped written s true hs
  unfold Delivers at h ⊢
  rw [e1, e2, e3, e4, e5]
  exact h

/-- What `WriteBytes` does: an optional reallocation, then the bytes are buffered. -/
theorem WriteBytes_frame (T : Target) (s : HashingMachOWriteStream) (bytes : List Nat)
    (new_size : Nat) :
    ∃ s1, (s1 = s ∨ s1 = Realloc T s new_size) ∧
      (WriteBytes T s bytes new_size).wrapped_stream_ = s1.wrapped_stream_ ∧
      (WriteBytes T s bytes new_size).buffer_ = s1.buffer_ ++ bytes ∧
      (WriteBytes T s bytes new_size).flushed_size_ = s1.flushed_size_ ∧
      (WriteBytes T s bytes new_size).hashes_ = s1.hashes_ ∧
      (WriteBytes T s bytes new_size).num_hashes_ = s1.num_hashes_ ∧
      (WriteBytes T s bytes new_size).hashing_ = s1.hashing_ := by
  unfold WriteBytes
  split_ifs with h0 h1
  · have : bytes = [] := List.length_eq_zero.1 h0
    subst this
    exact ⟨s, Or.inl rfl, rfl, by simp, rfl, rfl, rfl, rfl⟩
  · exact ⟨s, Or.inl rfl, rfl, rfl, rfl, rfl, rfl, rfl⟩
  · exact ⟨_, Or.inr rfl, rfl, rfl, rfl, rfl, rfl, rfl⟩

theorem WriteBytes_delivers (T : Target) (wrapped written : List Nat)
    (s : HashingMachOWriteStream) (bytes : List Nat) (new_size : Nat)
    (hs : Delivers wrapped written s) :
    Delivers wrapped (written ++ bytes) (WriteBytes T s bytes new_size) := by
  obtain ⟨s1, hs1, e1, e2, e3, e4, e5, _⟩ := WriteBytes_frame T s bytes new_size
  have h : Delivers wrapped written s1 := by
    rcases hs1 with rfl | rfl
    · exact hs
    · exact Realloc_delivers T wrapped written s new_size hs
  obtain ⟨h1, h2, h3⟩ := h
  refine ⟨?_, ?_, ?_⟩
  · rw [e1, e2, ← List.append_assoc, h1, List.append_assoc]
  · rw [e1, e3, h2]
  · rw [e4, e5, h3]

theorem FinalizeHashedContent_delivers (T : Target) (wrapped written : List Nat)
    (s : HashingMachOWriteStream) (hs : Delivers wrapped written s) :
    Delivers wrapped written (FinalizeHashedContent T s) :=
  Flush_delivers T wrapped written s false hs

theorem allBytes_cons (c : StreamCall) (cs : List StreamCall) :
    StreamCall.allBytes (c :: cs) = c.bytes ++ StreamCall.allBytes cs := by
  simp [StreamCall.allBytes]

theorem call_delivers (T : Target) (wrapped written : List Nat)
    (s : HashingMachOWriteStream) (c : StreamCall) (hs : Delivers wrapped written s) :
    Delivers wrapped (written ++ c.bytes) (call T s c) := by
  cases c with
  | write bytes new_size => exact WriteBytes_delivers T wrapped written s bytes new_size hs
  | realloc new_size =>
      simpa [StreamCall.bytes, call] using Realloc_delivers T wrapped written s new_size hs
  | flush chunks_only =>
      simpa [StreamCall.bytes, call] using Flush_delivers T wrapped written s chunks_only hs
  | finalize =>
      simpa [StreamCall.bytes, call] using FinalizeHashedContent_delivers T wrapped written s hs

theorem calls_delivers (T : Target) (wrapped : List Nat) :
    ∀ (cs : List StreamCall) (written : List Nat) (s : HashingMachOWriteStream),
      Delivers wrapped written s →
      Delivers wrapped (written ++ StreamCall.allBytes cs) (calls T s cs) := by
  intro cs
  induction cs with
  | nil => intro written s hs; simpa [StreamCall.allBytes, calls] using hs
  | cons c cs ih =>
      intro written s hs
      have h := ih _ _ (call_delivers T wrapped written s c hs)
      rw [allBytes_cons, ← List.append_assoc]
      exact h

theorem init_delivers (wrapped : List Nat) : Delivers wrapped [] (init wrapped) :=
  ⟨by simp [init], by simp [init], rfl⟩

end HashingMachOWriteStream

namespace HashingMachOWriteStream

/-- While hashing is active, flushing whole chunks keeps the digests those of the chunks
handed on. -/
theorem Flush_chunks_digests (T : Target) (wrapped written : List Nat)
    (s : HashingMachOWriteStream) (hd : Delivers wrapped written s)
    (hc : ChunkInvariant s)
    (hh : s.hashes_ = Spec.chunkDigests T (s.wrapped_stream_.drop wrapped.length)) :
    (Flush T s true).hashes_ =
      Spec.chunkDigests T ((Flush T s true).wrapped_stream_.drop wrapped.length) := by
  obtain ⟨count, hle, hcount, e1, _, _, e4, _, _, _⟩ := Flush_hashing T s true hc.1
  obtain ⟨_, h2, _⟩ := hd
  rw [e1, e4, hh, List.drop_append_of_le_length (by omega), chunkDigests_append]
  rw [List.length_drop, h2, ← hc.2]
  exact ⟨s.num_hashes_, by omega⟩

theorem step_digests (T : Target) (wrapped written : List Nat)
    (s : HashingMachOWriteStream) (op : StreamOp) (hd : Delivers wrapped written s)
    (hc : ChunkInvariant s)
    (hh : s.hashes_ = Spec.chunkDigests T (s.wrapped_stream_.drop wrapped.length)) :
    Delivers wrapped (written ++ op.bytes) (step T s op) ∧
      (step T s op).hashes_ =
        Spec.chunkDigests T ((step T s op).wrapped_stream_.drop wrapped.length) := by
  have hflush := Flush_chunks_digests T wrapped written s hd hc hh
  cases op with
  | write bytes new_size =>
      refine ⟨WriteBytes_delivers T wrapped written s bytes new_size hd, ?_⟩
      obtain ⟨s1, hs1, e1, _, _, e4, _, _⟩ := WriteBytes_frame T s bytes new_size
      simp only [step]
      rw [e1, e4]
      rcases hs1 with rfl | rfl
      · exact hh
      · obtain ⟨r1, _, _, r4, _, _⟩ := Realloc_frame T s new_size
        rw [r1, r4]
        exact hflush
  | realloc new_size =>
      have hr := Realloc_delivers T wrapped written s new_size hd
      refine ⟨by simpa [StreamOp.bytes, step] using hr, ?_⟩
      obtain ⟨r1, _, _, r4, _, _⟩ := Realloc_frame T s new_size
      simp only [step]
      rw [r1, r4]
      exact hflush

theorem run_digests (T : Target) (wrapped : List Nat) :
    ∀ (ops : List StreamOp) (written : List Nat) (s : HashingMachOWriteStream),
      Delivers wrapped written s → ChunkInvariant s →
      s.hashes_ = Spec.chunkDigests T (s.wrapped_stream_.drop wrapped.length) →
      Delivers wrapped (written ++ StreamOp.allBytes ops) (run T s ops) ∧
        ChunkInvariant (run T s ops) ∧
        (run T s ops).hashes_ =
          Spec.chunkDigests T ((run T s ops).wrapped_stream_.drop wrapped.length) := by
  intro ops
  induction ops with
  | nil =>
      intro written s hd hc hh
      exact ⟨by simpa [StreamOp.allBytes, run] using hd, hc, hh⟩
  | cons op ops ih =>
      intro written s hd hc hh
      have h1 := step_digests T wrapped written s op hd hc hh
      have h2 : ChunkInvariant (step T s op) := by
        cases op with
        | write bytes new_size => exact (WriteBytes_spec T s bytes new_size hc).1
        | realloc new_size => exact (Realloc_spec T s new_size hc).1
      have h := ih _ _ h1.1 h2 h1.2
      have e : written ++ StreamOp.allBytes (op :: ops) =
          written ++ op.bytes ++ StreamOp.allBytes ops := by
        simp [StreamOp.allBytes]
      rw [e]
      exact h

/-- The bytes handed on and the bytes buffered, from the invariant. -/
theorem Delivers_split {wrapped written : List Nat} {s : HashingMachOWriteStream}
    (hd : Delivers wrapped written s) :
    s.flushed_size_ ≤ written.length ∧
      s.wrapped_stream_ = wrapped ++ written.take s.flushed_size_ ∧
      s.buffer_ = written.drop s.flushed_size_ ∧
      s.wrapped_stream_.drop wrapped.length = written.take s.flushed_size_ ∧
      s.Position = written.length := by
  obtain ⟨h1, h2, _⟩ := hd
  have hlen := congrArg List.length h1
  simp only [List.length_append] at hlen
  have hle : s.flushed_size_ ≤ written.length := by omega
  have ht := congrArg (List.take (wrapped.length + s.flushed_size_)) h1
  rw [List.take_append_of_le_length (by omega), List.take_of_length_le (by omega),
    List.take_append] at ht
  have hdr := congrArg (List.drop (wrapped.length + s.flushed_size_)) h1
  rw [← h2, List.drop_left, h2, List.drop_append] at hdr
  refine ⟨hle, ht, hdr, ?_, ?_⟩
  · rw [ht, List.drop_left]
  · simp only [Position, BasePosition]
    omega

end HashingMachOWriteStream

/-- C32: while hashing is active, after any sequence of writes and buffer reallocations
`flushed_size_` is a multiple of 4096 and `num_hashes_ = flushed_size_ / 4096`; the wrapped
stream has received exactly the first `flushed_size_` bytes written, the digests are those
of the 4096-byte chunks of these bytes, and the remaining bytes are buffered. A
reallocation leaves less than one chunk buffered, namely the trailing partial chunk, whose
digest is not among the digests. `FinalizeHashedContent` hands on all bytes and leaves the
digests of all chunks, the trailing partial chunk hashed as one shorter chunk, and its
closing assertion holds. -/
theorem C32_whole_chunks_while_hashing (T : Target) (wrapped : List Nat)
    (ops : List StreamOp) :
    ((HashingMachOWriteStream.init wrapped).run T ops).hashing_ = true ∧
    4096 ∣ ((HashingMachOWriteStream.init wrapped).run T ops).flushed_size_ ∧
    ((HashingMachOWriteStream.init wrapped).run T ops).num_hashes_ =
      ((HashingMachOWriteStream.init wrapped).run T ops).flushed_size_ / 4096 ∧
    ((HashingMachOWriteStream.init wrapped).run T ops).flushed_size_ ≤
      (StreamOp.allBytes ops).length ∧
    ((HashingMachOWriteStream.init wrapped).run T ops).wrapped_stream_ =
      wrapped ++ (StreamOp.allBytes ops).take
        ((HashingMachOWriteStream.init wrapped).run T ops).flushed_size_ ∧
    ((HashingMachOWriteStream.init wrapped).run T ops).buffer_ =
      (StreamOp.allBytes ops).drop
        ((HashingMachOWriteStream.init wrapped).run T ops).flushed_size_ ∧
    ((HashingMachOWriteStream.init wrapped).run T ops).hashes_ =
      Spec.chunkDigests T ((StreamOp.allBytes ops).take
        ((HashingMachOWriteStream.init wrapped).run T ops).flushed_size_) ∧
    (∀ new_size,
      (((HashingMachOWriteStream.init wrapped).run T ops).Realloc T new_size).buffer_ =
          (StreamOp.allBytes ops).drop
            ((StreamOp.allBytes ops).length - (StreamOp.allBytes ops).length % 4096) ∧
        (((HashingMachOWriteStream.init wrapped).run T ops).Realloc T new_size).buffer_.length <
          4096 ∧
        (((HashingMachOWriteStream.init wrapped).run T ops).Realloc T new_size).hashes_ =
          Spec.chunkDigests T ((StreamOp.allBytes ops).take
            ((StreamOp.allBytes ops).length - (StreamOp.allBytes ops).length % 4096))) ∧
    (((HashingMachOWriteStream.init wrapped).run T ops).FinalizeHashedContent T).hashing_ =
      false ∧
    (((HashingMachOWriteStream.init wrapped).run T ops).FinalizeHashedContent T).hashes_ =
      Spec.chunkDigests T (StreamOp.allBytes ops) ∧
    (((HashingMachOWriteStream.init wrapped).run T ops).FinalizeHashedContent T).num_hashes_ =
      ((StreamOp.allBytes ops).length + 4095) / 4096 ∧
    (((HashingMachOWriteStream.init wrapped).run T ops).FinalizeHashedContent
        T).wrapped_stream_ = wrapped ++ StreamOp.allBytes ops ∧
    (((HashingMachOWriteStream.init wrapped).run T ops).FinalizeHashedContent T).buffer_ = [] ∧
    (((HashingMachOWriteStream.init wrapped).run T ops).FinalizeHashedContent
        T).hashesConsistent = true := by
  have hinit : HashingMachOWriteStream.ChunkInvariant (HashingMachOWriteStream.init wrapped) :=
    ⟨rfl, Nat.zero_mul _⟩
  obtain ⟨hd, hc, hh⟩ := HashingMachOWriteStream.run_digests T wrapped ops []
    (HashingMachOWriteStream.init wrapped) (HashingMachOWriteStream.init_delivers wrapped)
    hinit (by simp [HashingMachOWriteStream.init, HashingMachOWriteStream.chunkDigests_nil])
  rw [List.nil_append] at hd
  generalize (HashingMachOWriteStream.init wrapped).run T ops = s at hd hc hh ⊢
  generalize StreamOp.allBytes ops = written at hd ⊢
  obtain ⟨hle, hw, hb, hdrop, _⟩ := HashingMachOWriteStream.Delivers_split hd
  obtain ⟨hhash, hnum⟩ := hc
  have hbl : s.buffer_.length = written.length - s.flushed_size_ := by
    rw [hb, List.length_drop]
  rw [hdrop] at hh
  refine ⟨hhash, ⟨s.num_hashes_, by omega⟩, by omega, hle, hw, hb, hh, ?_, ?_⟩
  · intro new_size
    obtain ⟨r1, r2, _, r4, _, _⟩ := HashingMachOWriteStream.Realloc_frame T s new_size
    obtain ⟨count, _, hcount, e1, e2, _, e4, _, _, _⟩ :=
      HashingMachOWriteStream.Flush_hashing T s true hhash
    simp only [if_true] at hcount
    have hcnt : s.flushed_size_ + count = written.length - written.length % 4096 := by
      rw [hcount, hbl]
      omega
    have hb2 : (s.Realloc T new_size).buffer_ =
        written.drop (written.length - written.length % 4096) := by
      rw [r2, e2, hb, List.drop_drop, hcnt]
    refine ⟨hb2, ?_, ?_⟩
    · rw [hb2, List.length_drop]
      have := Nat.mod_lt written.length (show 0 < 4096 by decide)
      omega
    · rw [r4, e4, hh, hb, ← HashingMachOWriteStream.chunkDigests_append, ← hcnt, List.take_add]
      rw [List.length_take]
      exact ⟨s.num_hashes_, by omega⟩
  · obtain ⟨count, _, hcount, e1, e2, _, e4, e5, _, _⟩ :=
      HashingMachOWriteStream.Flush_hashing T s false hhash
    simp only [Bool.false_eq_true, if_false] at hcount
    subst hcount
    have hd2 := HashingMachOWriteStream.FinalizeHashedContent_delivers T wrapped written s hd
    have hF : (s.FinalizeHashedContent T).hashes_ = Spec.chunkDigests T written := by
      show (HashingMachOWriteStream.Flush T s false).hashes_ = _
      rw [e4, hh, List.take_length, ← HashingMachOWriteStream.chunkDigests_append, hb,
        List.take_append_drop]
      rw [List.length_take]
      exact ⟨s.num_hashes_, by omega⟩
    have hN : (s.FinalizeHashedContent T).num_hashes_ = (written.length + 4095) / 4096 := by
      show (HashingMachOWriteStream.Flush T s false).num_hashes_ = _
      rw [e5, hbl]
      omega
    refine ⟨rfl, hF, hN, ?_, ?_, ?_⟩
    · show (HashingMachOWriteStream.Flush T s false).wrapped_stream_ = _
      rw [e1, List.take_length, hw, hb, List.append_assoc, List.take_append_drop]
    · show (HashingMachOWriteStream.Flush T s false).buffer_ = _
      rw [e2, List.drop_length]
    · simp only [HashingMachOWriteStream.hashesConsistent, beq_iff_eq]
      rw [hd2.2.2]

namespace HashingMachOWriteStream

/-- Once hashing is finalized, a call changes neither the digests nor their number, and
the bytes it writes join the bytes handed on or buffered. -/
theorem call_not_hashing (T : Target) (s : HashingMachOWriteStream) (c : StreamCall)
    (hh : s.hashing_ = false) :
    (call T s c).hashing_ = false ∧ (call T s c).hashes_ = s.hashes_ ∧
      (call T s c).num_hashes_ = s.num_hashes_ ∧
      (call T s c).wrapped_stream_ ++ (call T s c).buffer_ =
        s.wrapped_stream_ ++ s.buffer_ ++ c.bytes := by
  have hflush : ∀ b, (Flush T s b).hashing_ = false ∧ (Flush T s b).hashes_ = s.hashes_ ∧
      (Flush T s b).num_hashes_ = s.num_hashes_ ∧
      (Flush T s b).wrapped_stream_ ++ (Flush T s b).buffer_ =
        s.wrapped_stream_ ++ s.buffer_ := by
    intro b
    obtain ⟨e1, e2, _, e4, e5, e6, _⟩ := Flush_not_hashing T s b hh
    exact ⟨e6, e4, e5, by rw [e1, e2, List.append_nil]⟩
  have hrealloc : ∀ n, (Realloc T s n).hashing_ = false ∧ (Realloc T s n).hashes_ = s.hashes_ ∧
      (Realloc T s n).num_hashes_ = s.num_hashes_ ∧
      (Realloc T s n).wrapped_stream_ ++ (Realloc T s n).buffer_ =
        s.wrapped_stream_ ++ s.buffer_ := by
    intro n
    obtain ⟨r1, r2, _, r4, r5, r6⟩ := Realloc_frame T s n
    rw [r1, r2, r4, r5, r6]
    exact hflush true
  cases c with
  | write bytes new_size =>
      obtain ⟨s1, hs1, e1, e2, _, e4, e5, e6⟩ := WriteBytes_frame T s bytes new_size
      simp only [call, StreamCall.bytes]
      rw [e1, e2, e4, e5, e6, ← List.append_assoc]
      rcases hs1 with rfl | rfl
      · exact ⟨hh, rfl, rfl, rfl⟩
      · obtain ⟨a, b, c, d⟩ := hrealloc new_size
        exact ⟨a, b, c, by rw [d]⟩
  | realloc new_size => simpa [call, StreamCall.bytes] using hrealloc new_size
  | flush chunks_only => simpa [call, StreamCall.bytes] using hflush chunks_only
  | finalize =>
      simp only [call, StreamCall.bytes, List.append_nil]
      exact ⟨rfl, (hflush false).2⟩

theorem calls_not_hashing (T : Target) :
    ∀ (cs : List StreamCall) (s : HashingMachOWriteStream), s.hashing_ = false →
      (calls T s cs).hashing_ = false ∧ (calls T s cs).hashes_ = s.hashes_ ∧
        (calls T s cs).num_hashes_ = s.num_hashes_ ∧
        (calls T s cs).wrapped_stream_ ++ (calls T s cs).buffer_ =
          s.wrapped_stream_ ++ s.buffer_ ++ StreamCall.allBytes cs := by
  intro cs
  induction cs with
  | nil => intro s hh; exact ⟨hh, rfl, rfl, by simp [calls, StreamCall.allBytes]⟩
  | cons c cs ih =>
      intro s hh
      obtain ⟨a1, a2, a3, a4⟩ := call_not_hashing T s c hh
      obtain ⟨b1, b2, b3, b4⟩ := ih (call T s c) a1
      refine ⟨b1, b2.trans a2, b3.trans a3, ?_⟩
      show (calls T (call T s c) cs).wrapped_stream_ ++ (calls T (call T s c) cs).buffer_ = _
      rw [b4, a4, allBytes_cons]
      simp only [List.append_assoc]

theorem FinalizeHashedContent_buffer (T : Target) (s : HashingMachOWriteStream) :
    (FinalizeHashedContent T s).hashing_ = false ∧ (FinalizeHashedContent T s).buffer_ = [] := by
  refine ⟨rfl, ?_⟩
  show (Flush T s false).buffer_ = []
  cases hh : s.hashing_ with
  | true =>
      obtain ⟨count, _, hcount, _, e2, _⟩ := Flush_hashing T s false hh
      simp only [Bool.false_eq_true, if_false] at hcount
      rw [e2, hcount, List.drop_length]
  | false => exact (Flush_not_hashing T s false hh).2.1

end HashingMachOWriteStream

/-- C33: after `FinalizeHashedContent`, whatever the stream was before, no sequence of
writes, flushes, reallocations and further `FinalizeHashedContent` calls changes
`num_hashes()` or the stored digests, hashing stays off, and the bytes written afterwards
are handed to the wrapped stream after those already there, in order: buffered first, all
of them in the wrapped stream after a flush. -/
theorem C33_no_hashing_after_finalize (T : Target) (s : HashingMachOWriteStream)
    (cs : List StreamCall) :
    ((s.FinalizeHashedContent T).calls T cs).hashing_ = false ∧
    ((s.FinalizeHashedContent T).calls T cs).hashes_ = (s.FinalizeHashedContent T).hashes_ ∧
    ((s.FinalizeHashedContent T).calls T cs).num_hashes_ =
      (s.FinalizeHashedContent T).num_hashes_ ∧
    ((s.FinalizeHashedContent T).calls T cs).num_hashes =
      (s.FinalizeHashedContent T).num_hashes ∧
    (s.FinalizeHashedContent T).num_hashes = some (s.FinalizeHashedContent T).num_hashes_ ∧
    ((s.FinalizeHashedContent T).calls T cs).wrapped_stream_ ++
        ((s.FinalizeHashedContent T).calls T cs).buffer_ =
      (s.FinalizeHashedContent T).wrapped_stream_ ++ StreamCall.allBytes cs ∧
    (∀ chunks_only,
      (((s.FinalizeHashedContent T).calls T cs).Flush T chunks_only).wrapped_stream_ =
          (s.FinalizeHashedContent T).wrapped_stream_ ++ StreamCall.allBytes cs ∧
        (((s.FinalizeHashedContent T).calls T cs).Flush T chunks_only).hashes_ =
          (s.FinalizeHashedContent T).hashes_ ∧
        (((s.FinalizeHashedContent T).calls T cs).Flush T chunks_only).num_hashes_ =
          (s.FinalizeHashedContent T).num_hashes_) := by
  obtain ⟨f1, f2⟩ := HashingMachOWriteStream.FinalizeHashedContent_buffer T s
  obtain ⟨a1, a2, a3, a4⟩ := HashingMachOWriteStream.calls_not_hashing T cs _ f1
  rw [f2, List.append_nil] at a4
  refine ⟨a1, a2, a3, ?_, ?_, a4, ?_⟩
  · simp only [HashingMachOWriteStream.num_hashes, a1, a3, f1]
  · simp only [HashingMachOWriteStream.num_hashes, f1, Bool.false_eq_true, if_false]
  · intro chunks_only
    obtain ⟨e1, _, _, e4, e5, _, _⟩ :=
      HashingMachOWriteStream.Flush_not_hashing T _ chunks_only a1
    exact ⟨by rw [e1, a4], by rw [e4, a2], by rw [e5, a3]⟩

namespace HashingMachOWriteStream

theorem calls_append (T : Target) (s : HashingMachOWriteStream) (a b : List StreamCall) :
    calls T s (a ++ b) = calls T (calls T s a) b := by
  simp [calls, List.foldl_append]

/-- Hashing is off after a sequence of calls that contains `FinalizeHashedContent`. -/
theorem calls_finalized (T : Target) (s : HashingMachOWriteStream) (cs : List StreamCall)
    (hf : StreamCall.finalize ∈ cs) : (calls T s cs).hashing_ = false := by
  obtain ⟨a, b, rfl⟩ := List.append_of_mem hf
  rw [calls_append]
  have e : calls T (calls T s a) (StreamCall.finalize :: b) =
      calls T (FinalizeHashedContent T (calls T s a)) b := rfl
  rw [e]
  exact (calls_not_hashing T b _ rfl).1

end HashingMachOWriteStream

namespace NonHashingMachOWriteStream

theorem writeAll_spec :
    ∀ (writes : List (List Nat)) (s : NonHashingMachOWriteStream),
      (writeAll s writes).wrapped_stream_ = s.wrapped_stream_ ++ writes.flatten := by
  intro writes
  induction writes with
  | nil => intro s; simp [writeAll]
  | cons w ws ih =>
      intro s
      have h := ih (WriteBytes s w)
      simp only [writeAll, List.foldl_cons] at h ⊢
      rw [h]
      simp [WriteBytes]

end NonHashingMachOWriteStream

theorem StreamCall.writes_flatten (cs : List StreamCall) :
    (StreamCall.writes cs).flatten = StreamCall.allBytes cs := by
  induction cs with
  | nil => rfl
  | cons c cs ih =>
      cases c <;>
        simp [StreamCall.writes, HashingMachOWriteStream.allBytes_cons, StreamCall.bytes, ih]

/-- C38: after any sequence of `WriteByte` and `WriteBytes` calls, interleaved with
reallocations, flushes and `FinalizeHashedContent` at any point, `Position()` of the
hashing stream is the total number of bytes written, and the bytes handed to the wrapped
stream followed by the buffered bytes are exactly the bytes written, in order. When
`FinalizeHashedContent` is among the calls, the destructor passes its assertions and
leaves in the wrapped stream exactly the bytes written, in order, which is what
`NonHashingMachOWriteStream` hands to the wrapped stream for the same `WriteByte` and
`WriteBytes` calls. -/
theorem C38_hashing_stream_transparent (T : Target) (wrapped : List Nat)
    (cs : List StreamCall) (hf : StreamCall.finalize ∈ cs) :
    ((HashingMachOWriteStream.init wrapped).calls T cs).Position =
      (StreamCall.allBytes cs).length ∧
    ((HashingMachOWriteStream.init wrapped).calls T cs).wrapped_stream_ ++
        ((HashingMachOWriteStream.init wrapped).calls T cs).buffer_ =
      wrapped ++ StreamCall.allBytes cs ∧
    ((HashingMachOWriteStream.init wrapped).calls T cs).wrapped_stream_.length =
      wrapped.length + ((HashingMachOWriteStream.init wrapped).calls T cs).flushed_size_ ∧
    ((NonHashingMachOWriteStream.init wrapped).writeAll
        (StreamCall.writes cs)).wrapped_stream_ = wrapped ++ StreamCall.allBytes cs ∧
    ∃ s, ((HashingMachOWriteStream.init wrapped).calls T cs).destroy T = some s ∧
      s.wrapped_stream_ = wrapped ++ StreamCall.allBytes cs ∧ s.buffer_ = [] ∧
      s.wrapped_stream_ =
        ((NonHashingMachOWriteStream.init wrapped).writeAll
          (StreamCall.writes cs)).wrapped_stream_ ∧
      s.Position = (StreamCall.allBytes cs).length := by
  have hd := HashingMachOWriteStream.calls_delivers T wrapped cs []
    (HashingMachOWriteStream.init wrapped) (HashingMachOWriteStream.init_delivers wrapped)
  rw [List.nil_append] at hd
  have hh := HashingMachOWriteStream.calls_finalized T (HashingMachOWriteStream.init wrapped)
    cs hf
  have hn : ((NonHashingMachOWriteStream.init wrapped).writeAll
      (StreamCall.writes cs)).wrapped_stream_ = wrapped ++ StreamCall.allBytes cs := by
    rw [NonHashingMachOWriteStream.writeAll_spec, StreamCall.writes_flatten]
    rfl
  generalize (HashingMachOWriteStream.init wrapped).calls T cs = s at hd hh ⊢
  obtain ⟨_, _, _, _, hpos⟩ := HashingMachOWriteStream.Delivers_split hd
  refine ⟨hpos, hd.1, hd.2.1, hn, ?_⟩
  obtain ⟨e1, e2, e3, _, _, _, _⟩ := HashingMachOWriteStream.Flush_not_hashing T s false hh
  have hd2 := HashingMachOWriteStream.Flush_delivers T wrapped _ s false hd
  refine ⟨s.Flush T false, ?_, ?_, e2, ?_, ?_⟩
  · simp [HashingMachOWriteStream.destroy, ASSERT, hh, HashingMachOWriteStream.BasePosition, e2]
  · rw [e1, hd.1]
  · rw [e1, hd.1, hn]
  · exact (HashingMachOWriteStream.Delivers_split hd2).2.2.2.2

theorem C38_hashing_stream_transparent_witness :
    ((HashingMachOWriteStream.init [9]).calls Target.example64 StreamCall.sample).Position =
      (StreamCall.allBytes StreamCall.sample).length ∧
    ((HashingMachOWriteStream.init [9]).calls Target.example64
          StreamCall.sample).wrapped_stream_ ++
        ((HashingMachOWriteStream.init [9]).calls Target.example64 StreamCall.sample).buffer_ =
      [9] ++ StreamCall.allBytes StreamCall.sample ∧
    ((HashingMachOWriteStream.init [9]).calls Target.example64
        StreamCall.sample).wrapped_stream_.length =
      [9].length + ((HashingMachOWriteStream.init [9]).calls Target.example64
        StreamCall.sample).flushed_size_ ∧
    ((NonHashingMachOWriteStream.init [9]).writeAll
        (StreamCall.writes StreamCall.sample)).wrapped_stream_ =
      [9] ++ StreamCall.allBytes StreamCall.sample ∧
    ∃ s, ((HashingMachOWriteStream.init [9]).calls Target.example64
        StreamCall.sample).destroy Target.example64 = some s ∧
      s.wrapped_stream_ = [9] ++ StreamCall.allBytes StreamCall.sample ∧ s.buffer_ = [] ∧
      s.wrapped_stream_ =
        ((NonHashingMachOWriteStream.init [9]).writeAll
          (StreamCall.writes StreamCall.sample)).wrapped_stream_ ∧
      s.Position = (StreamCall.allBytes StreamCall.sample).length :=
  C38_hashing_stream_transparent Target.example64 [9] StreamCall.sample (by decide)

namespace MachOWriteStream

theorem Align_eq (T : Target) (s : MachOWriteStream) (a : Nat)
    (h : s.has_hashes_ = true → IsPowerOfTwo a = true ∧ a ≤ T.kPageSize) :
    s.Align T a = some { s with position_ := RoundUp s.position_ a } := by
  unfold Align
  cases hh : s.has_hashes_ with
  | false => simp
  | true =>
      obtain ⟨h1, h2⟩ := h hh
      simp [ASSERT, h1, h2]

theorem Align_some {T : Target} {s s1 : MachOWriteStream} {a : Nat}
    (h : s.Align T a = some s1) :
    s1 = { s with position_ := RoundUp s.position_ a } := by
  unfold Align at h
  cases hh : s.has_hashes_ with
  | false => simpa [hh, eq_comm] using h
  | true =>
      simp only [hh, if_true, Option.bind_eq_bind, Option.pure_def, Option.bind_eq_some,
        ASSERT_eq_some, Option.some.injEq] at h
      obtain ⟨_, _, _, _, h⟩ := h
      exact h.symm

theorem WriteFixedLengthCStringAt_eq (s : MachOWriteStream) (str : String) (n : Nat) :
    s.WriteFixedLengthCStringAt str n = s.WriteBytes n := by
  unfold WriteFixedLengthCStringAt
  rw [MachOWriteStream.WriteFixedLengthCString_length]

theorem linearGet_natCast (n : Nat) : linearGet (n : Int) = some n := by
  unfold linearGet
  have : ((n : Int) != kLinearInitValue) = true := by
    simp only [kLinearInitValue, bne_iff_ne, ne_eq]
    omega
  simp [this]

end MachOWriteStream

namespace MachOCodeSignature

theorem DirectoryOffset_eq (T : Target) (hsb : T.sizeofCsSuperblob = 12)
    (hbi : T.sizeofCsBlobIndex = 8) : DirectoryOffset T = 24 := by
  unfold DirectoryOffset
  rw [hsb, hbi]
  decide

theorem IdentOffset_eq (T : Target) (hsb : T.sizeofCsSuperblob = 12)
    (hbi : T.sizeofCsBlobIndex = 8) (hcd : T.sizeofCsCodeDirectory = 88) :
    IdentOffset T = 88 := by
  unfold IdentOffset
  rw [DirectoryOffset_eq T hsb hbi, hcd]
  decide

theorem HashOffset_eq (T : Target) (identifier : String) (hsb : T.sizeofCsSuperblob = 12)
    (hbi : T.sizeofCsBlobIndex = 8) (hcd : T.sizeofCsCodeDirectory = 88) :
    HashOffset T identifier = RoundUp (112 + identifier.length + 1) 16 - 24 := by
  unfold HashOffset
  rw [DirectoryOffset_eq T hsb hbi, IdentOffset_eq T hsb hbi hcd]
  rfl

/-- The first part of `WriteSelf` on the hashing stream that has reached the file offset
of the signature. -/
theorem writeSuperblob_spec (T : Target) (c : MachOContents) (stream : MachOWriteStream)
    (p : Nat) (hsb : T.sizeofCsSuperblob = 12) (hbi : T.sizeofCsBlobIndex = 8)
    (hpage : 16 ≤ T.kPageSize)
    (hh : stream.has_hashes_ = true) (hg : stream.hashing_ = true)
    (hp : stream.position_ = p) (hc : c.file_offset_ = (p : Int)) (h8 : 8 ∣ p)
    (ha : c.HasContents = true → c.IsAllocated = true) :
    writeSuperblob T c stream =
      some { position_ := p + 24, has_hashes_ := true, hashing_ := false,
             num_hashes_ := (p + 4095) / 4096 } := by
  have hE : ExpectedNumHashes c.file_offset_ = (p + 4095) / 4096 := by
    rw [hc]; exact HashingMachOWriteStream.ExpectedNumHashes_natCast p
  have hD := DirectoryOffset_eq T hsb hbi
  have hA : ∀ s : MachOWriteStream, s.has_hashes_ = true →
      s.Align T kHeaderAlignment =
        some { s with position_ := RoundUp s.position_ kHeaderAlignment } :=
    fun s _ => MachOWriteStream.Align_eq T s _ (fun _ => ⟨by decide, by
      simp only [kHeaderAlignment]; omega⟩)
  have hR : RoundUp (p + 4 + 4 + 4 + 4 + 4) 8 = p + 24 := by
    have : p + 4 + 4 + 4 + 4 + 4 = p + 20 := by omega
    rw [this, RoundUp_add_of_dvd 20 (by decide) h8]
    have : RoundUp 20 8 = 24 := by decide
    omega
  have hall : (if c.HasContents = true then ASSERT c.IsAllocated else pure ()) =
      some () := by
    by_cases h1 : c.HasContents = true
    · simp [h1, ASSERT, ha h1]
    · simp [h1]
  simp only [writeSuperblob, MachOWriteStream.FinalizeHashedContent, hh, hg,
    MachOWriteStream.num_hashes, Bool.not_true, Bool.false_eq_true, if_false, if_true,
    Option.bind_eq_bind, Option.some_bind, hc, MachOWriteStream.linearGet_natCast,
    HashingMachOWriteStream.kChunkSize_eq, hp]
  have hk : (p + 4096 - 1) / 4096 = (p + 4095) / 4096 := by congr 1
  rw [hk]
  rw [← hc, hE]
  simp only [ASSERT, beq_self_eq_true, if_true, Option.some_bind, hall]
  simp only [MachOWriteStream.WriteBE32, MachOWriteStream.Write32,
    MachOWriteStream.WriteBytes, MachOWriteStream.Position]
  rw [hA _ rfl]
  simp only [Option.some_bind, kHeaderAlignment, hR, hD]
  simp
  intro h1
  simp [ha h1]

theorem writeDirectory_spec (T : Target) (h : MachOHeader) (c : MachOContents)
    (p n : Nat) (ts : MachOSegment) (hsb : T.sizeofCsSuperblob = 12)
    (hbi : T.sizeofCsBlobIndex = 8) (hcd : T.sizeofCsCodeDirectory = 88)
    (hpage : 16 ≤ T.kPageSize) (hc : c.file_offset_ = (p : Int)) (h8 : 8 ∣ p)
    (hts : h.text_segment = some ts) (hto : (linearGet ts.file_offset_).isSome = true) :
    writeDirectory T h c (p + 24)
        { position_ := p + 24, has_hashes_ := true, hashing_ := false, num_hashes_ := n } =
      some { position_ := p + 112, has_hashes_ := true, hashing_ := false,
             num_hashes_ := n } := by
  have hI := IdentOffset_eq T hsb hbi hcd
  have hA : ∀ s : MachOWriteStream,
      s.Align T 8 = some { s with position_ := RoundUp s.position_ 8 } :=
    fun s => MachOWriteStream.Align_eq T s _ (fun _ => ⟨by decide, by omega⟩)
  have hR : RoundUp (p + 24 + 4 + 4 + 4 + 4 + 4 + 4 + 4 + 4 + 4 + 1 + 1 + 1 + 1 + 4 + 4 + 4 +
      4 + 8 + 8 + 8 + 8) 8 = p + 112 := by
    have : p + 24 + 4 + 4 + 4 + 4 + 4 + 4 + 4 + 4 + 4 + 1 + 1 + 1 + 1 + 4 + 4 + 4 +
      4 + 8 + 8 + 8 + 8 = p + 112 := by omega
    rw [this, RoundUp_add_of_dvd 112 (by decide) h8]
    have : RoundUp 112 8 = 112 := by decide
    omega
  obtain ⟨fo, hfo⟩ := Option.isSome_iff_exists.1 hto
  simp only [writeDirectory, MachOWriteStream.num_hashes, Bool.not_true, Bool.false_eq_true,
    if_false, Option.bind_eq_bind, Option.some_bind, hc, MachOWriteStream.linearGet_natCast,
    hts, hfo, MachOWriteStream.WriteBE32, MachOWriteStream.WriteBE64,
    MachOWriteStream.Write32, MachOWriteStream.Write64, MachOWriteStream.WriteByte,
    MachOWriteStream.WriteBytes, MachOWriteStream.Position, kHeaderAlignment, hA, hR, hI]
  have : ((((p + 112 : Nat) : Int) - ((p + 24 : Nat) : Int)) == ((88 : Nat) : Int)) = true := by
    simp only [beq_iff_eq]
    omega
  simp [ASSERT, this]

theorem writeIdentifierAndHashes_spec (T : Target) (c : MachOContents)
    (identifier : String) (p n : Nat) (hsb : T.sizeofCsSuperblob = 12)
    (hbi : T.sizeofCsBlobIndex = 8) (hcd : T.sizeofCsCodeDirectory = 88)
    (hpage : 16 ≤ T.kPageSize) (hc : c.file_offset_ = (p : Int)) (h16 : 16 ∣ p)
    (hn : n = (p + 4095) / 4096) :
    writeIdentifierAndHashes T c identifier (p + 24)
        { position_ := p + 112, has_hashes_ := true, hashing_ := false, num_hashes_ := n } =
      some { position_ := p + 24 + DirectoryLength T identifier c.file_offset_,
             has_hashes_ := true, hashing_ := false, num_hashes_ := n } := by
  have hH := HashOffset_eq T identifier hsb hbi hcd
  have hE : ExpectedNumHashes c.file_offset_ = n := by
    rw [hc, hn]; exact HashingMachOWriteStream.ExpectedNumHashes_natCast p
  have hA : ∀ s : MachOWriteStream,
      s.Align T 16 = some { s with position_ := RoundUp s.position_ 16 } :=
    fun s => MachOWriteStream.Align_eq T s _ (fun _ => ⟨by decide, by omega⟩)
  have hR : RoundUp (p + 112 + (identifier.length + 1)) 16 =
      p + RoundUp (112 + identifier.length + 1) 16 := by
    have : p + 112 + (identifier.length + 1) = p + (112 + identifier.length + 1) := by omega
    rw [this, RoundUp_add_of_dvd _ (by decide) h16]
  have hle := le_RoundUp (112 + identifier.length + 1) 16 (by decide)
  simp only [writeIdentifierAndHashes, MachOWriteStream.WriteFixedLengthCStringAt_eq,
    MachOWriteStream.WriteBytes, MachOWriteStream.Position, kHashAlignment, hA,
    Option.bind_eq_bind,
    Option.some_bind, hR, MachOWriteStream.WriteHashes, Bool.not_true,
    Bool.false_eq_true, if_false, DirectoryLength, hH, hE, kHashSize]
  have a1 : ((((p + RoundUp (112 + identifier.length + 1) 16 : Nat) : Int) -
      ((p + 24 : Nat) : Int)) ==
      ((RoundUp (112 + identifier.length + 1) 16 - 24 : Nat) : Int)) = true := by
    simp only [beq_iff_eq]
    omega
  have a2 : ((((p + RoundUp (112 + identifier.length + 1) 16 + n * 32 : Nat) : Int) -
      ((p + 24 : Nat) : Int)) ==
      ((RoundUp (112 + identifier.length + 1) 16 - 24 + n * 32 : Nat) : Int)) = true := by
    simp only [beq_iff_eq]
    omega
  simp only [ASSERT, a1, a2, if_true, Option.some_bind, Option.pure_def, Option.some.injEq,
    MachOWriteStream.mk.injEq, and_true]
  omega

/-- `MachOCodeSignature::WriteSelf` on the hashing stream that has reached the file offset
of the signature, a multiple of 16: every assertion holds, and the stream advances by
`SelfMemorySize()`. -/
theorem WriteSelf_signature_spec (T : Target) (h h0 : MachOHeader) (c : MachOContents)
    (identifier : String) (stream : MachOWriteStream) (p : Nat) (ts : MachOSegment)
    (hsb : T.sizeofCsSuperblob = 12) (hbi : T.sizeofCsBlobIndex = 8)
    (hcd : T.sizeofCsCodeDirectory = 88) (hpage : 16 ≤ T.kPageSize)
    (hk : c.kind = .codeSignature identifier)
    (hh : stream.has_hashes_ = true) (hg : stream.hashing_ = true)
    (hp : stream.position_ = p) (hc : c.file_offset_ = (p : Int)) (h16 : 16 ∣ p)
    (ha : c.HasContents = true → c.IsAllocated = true)
    (hts : h.text_segment = some ts) (hto : (linearGet ts.file_offset_).isSome = true) :
    WriteSelf T h c identifier stream =
      some { position_ := p + c.SelfMemorySize T h0, has_hashes_ := true, hashing_ := false,
             num_hashes_ := (p + 4095) / 4096 } := by
  have h8 : 8 ∣ p := Dvd.dvd.trans (by decide) h16
  have hD := DirectoryOffset_eq T hsb hbi
  simp only [WriteSelf, writeSuperblob_spec T c stream p hsb hbi hpage hh hg hp hc h8 ha,
    Option.bind_eq_bind, Option.some_bind, MachOWriteStream.Position,
    writeDirectory_spec T h c p _ ts hsb hbi hcd hpage hc h8 hts hto,
    writeIdentifierAndHashes_spec T c identifier p _ hsb hbi hcd hpage hc h16 rfl]
  simp only [MachOContents.SelfMemorySize, hk, hD, Option.some.injEq,
    MachOWriteStream.mk.injEq, and_true]
  omega

end MachOCodeSignature

theorem MachOHeader.text_segment_of_isSome {h : MachOHeader}
    (hts : (h.text_segment.bind fun ts => linearGet ts.file_offset_).isSome = true) :
    ∃ ts, h.text_segment = some ts ∧ (linearGet ts.file_offset_).isSome = true := by
  cases ht : h.text_segment with
  | none => rw [ht] at hts; cases hts
  | some ts => rw [ht] at hts; exact ⟨ts, rfl, hts⟩

theorem MachOCodeSignature.offsets_aligned (T : Target) (identifier : String) :
    8 ∣ MachOCodeSignature.DirectoryOffset T ∧
    8 ∣ MachOCodeSignature.DirectoryOffset T + MachOCodeSignature.IdentOffset T ∧
    16 ∣ MachOCodeSignature.DirectoryOffset T + MachOCodeSignature.HashOffset T identifier ∧
    MachOCodeSignature.IdentOffset T + identifier.length + 1 ≤
      MachOCodeSignature.HashOffset T identifier := by
  have h1 := le_RoundUp (MachOCodeSignature.DirectoryOffset T + T.sizeofCsCodeDirectory) 8
    (by decide)
  have h2 := le_RoundUp (MachOCodeSignature.DirectoryOffset T +
    MachOCodeSignature.IdentOffset T + identifier.length + 1) 16 (by decide)
  have e1 : MachOCodeSignature.DirectoryOffset T + MachOCodeSignature.IdentOffset T =
      RoundUp (MachOCodeSignature.DirectoryOffset T + T.sizeofCsCodeDirectory) 8 := by
    simp only [MachOCodeSignature.IdentOffset, kHeaderAlignment]
    omega
  have e2 : MachOCodeSignature.DirectoryOffset T + MachOCodeSignature.HashOffset T identifier =
      RoundUp (MachOCodeSignature.DirectoryOffset T + MachOCodeSignature.IdentOffset T +
        identifier.length + 1) 16 := by
    simp only [MachOCodeSignature.HashOffset, kHashAlignment]
    omega
  refine ⟨RoundUp_dvd _ _, ?_, ?_, ?_⟩
  · rw [e1]; exact RoundUp_dvd _ _
  · rw [e2]; exact RoundUp_dvd _ _
  · omega

/-- C34: with the record sizes of the code-signing format (12, 8 and 88 bytes), for every
identifier and every file offset of the signature that is a multiple of 16,
`MachOCodeSignature::WriteSelf` on the hashing stream that has reached this offset passes
every assertion and emits exactly `SelfMemorySize()` bytes, which is `DirectoryOffset +
HashOffset + 32 * ExpectedNumHashes`; the code directory starts `DirectoryOffset` bytes
after the start, the identifier `IdentOffset` bytes and the digest list `HashOffset` bytes
after the start of the directory. For every target `DirectoryOffset` and `DirectoryOffset
+ IdentOffset` are multiples of 8, `DirectoryOffset + HashOffset` is a multiple of 16 and
`HashOffset >= IdentOffset + strlen(identifier) + 1`. -/
theorem C34_code_signature_size (T : Target) (h : MachOHeader) (identifier : String)
    (file_offset num : Nat) (memory_address : Int)
    (hsb : T.sizeofCsSuperblob = 12) (hbi : T.sizeofCsBlobIndex = 8)
    (hcd : T.sizeofCsCodeDirectory = 88) (hpage : 16 ≤ T.kPageSize)
    (h16 : 16 ∣ file_offset) (hma : memory_address ≠ 0)
    (hts : (h.text_segment.bind fun ts => linearGet ts.file_offset_).isSome = true) :
    (∃ s1 s2 s3 s4,
      MachOCodeSignature.writeSuperblob T ⟨.codeSignature identifier, file_offset, memory_address⟩
          { position_ := file_offset, has_hashes_ := true, hashing_ := true,
            num_hashes_ := num } = some s1 ∧
        s1.Position = file_offset + MachOCodeSignature.DirectoryOffset T ∧
      MachOCodeSignature.writeDirectory T h
          ⟨.codeSignature identifier, file_offset, memory_address⟩ s1.Position s1 = some s2 ∧
        s2.Position = s1.Position + MachOCodeSignature.IdentOffset T ∧
      (s2.WriteFixedLengthCStringAt identifier (identifier.length + 1)).Align T kHashAlignment =
          some s3 ∧
        s3.Position = s1.Position + MachOCodeSignature.HashOffset T identifier ∧
      MachOCodeSignature.WriteSelf T h ⟨.codeSignature identifier, file_offset, memory_address⟩
          identifier
          { position_ := file_offset, has_hashes_ := true, hashing_ := true,
            num_hashes_ := num } = some s4 ∧
        s4.Position = file_offset +
          (⟨.codeSignature identifier, file_offset, memory_address⟩ :
            MachOContents).SelfMemorySize T h ∧
        s4.num_hashes = some (MachOCodeSignature.ExpectedNumHashes file_offset)) ∧
    (⟨.codeSignature identifier, file_offset, memory_address⟩ : MachOContents).SelfMemorySize T h =
      MachOCodeSignature.DirectoryOffset T + MachOCodeSignature.HashOffset T identifier +
        32 * MachOCodeSignature.ExpectedNumHashes file_offset ∧
    8 ∣ MachOCodeSignature.DirectoryOffset T ∧
    8 ∣ MachOCodeSignature.DirectoryOffset T + MachOCodeSignature.IdentOffset T ∧
    16 ∣ MachOCodeSignature.DirectoryOffset T + MachOCodeSignature.HashOffset T identifier ∧
    MachOCodeSignature.IdentOffset T + identifier.length + 1 ≤
      MachOCodeSignature.HashOffset T identifier := by
  obtain ⟨ts, hts1, hts2⟩ := MachOHeader.text_segment_of_isSome hts
  have h8 : 8 ∣ file_offset := Dvd.dvd.trans (by decide) h16
  have hD := MachOCodeSignature.DirectoryOffset_eq T hsb hbi
  have hI := MachOCodeSignature.IdentOffset_eq T hsb hbi hcd
  have hH := MachOCodeSignature.HashOffset_eq T identifier hsb hbi hcd
  have hall : (⟨.codeSignature identifier, file_offset, memory_address⟩ :
      MachOContents).HasContents = true →
      (⟨.codeSignature identifier, file_offset, memory_address⟩ :
        MachOContents).IsAllocated = true := by
    intro _
    simpa [MachOContents.IsAllocated] using hma
  have w1 := MachOCodeSignature.writeSuperblob_spec T
    ⟨.codeSignature identifier, file_offset, memory_address⟩
    { position_ := file_offset, has_hashes_ := true, hashing_ := true, num_hashes_ := num }
    file_offset hsb hbi hpage rfl rfl rfl rfl h8 hall
  have w2 := MachOCodeSignature.writeDirectory_spec T h
    ⟨.codeSignature identifier, file_offset, memory_address⟩ file_offset
    ((file_offset + 4095) / 4096) ts hsb hbi hcd hpage rfl h8 hts1 hts2
  have w4 := MachOCodeSignature.WriteSelf_signature_spec T h h
    ⟨.codeSignature identifier, file_offset, memory_address⟩ identifier
    { position_ := file_offset, has_hashes_ := true, hashing_ := true, num_hashes_ := num }
    file_offset ts hsb hbi hcd hpage rfl rfl rfl rfl rfl h16 hall hts1 hts2
  have hle := le_RoundUp (112 + identifier.length + 1) 16 (by decide)
  have hR : RoundUp (file_offset + 112 + (identifier.length + 1)) 16 =
      file_offset + RoundUp (112 + identifier.length + 1) 16 := by
    have : file_offset + 112 + (identifier.length + 1) =
        file_offset + (112 + identifier.length + 1) := by omega
    rw [this, RoundUp_add_of_dvd _ (by decide) h16]
  have w3 := MachOWriteStream.Align_eq T
    ((⟨file_offset + 112, true, false, (file_offset + 4095) / 4096⟩ :
      MachOWriteStream).WriteFixedLengthCStringAt identifier (identifier.length + 1))
    kHashAlignment (fun _ => ⟨by decide, by simp only [kHashAlignment]; omega⟩)
  refine ⟨⟨_, _, _, _, w1, ?_, w2, ?_, w3, ?_, w4, rfl, ?_⟩, ?_,
    MachOCodeSignature.offsets_aligned T identifier⟩
  · simp only [MachOWriteStream.Position, hD]
  · simp only [MachOWriteStream.Position, hI]
  · simp only [MachOWriteStream.Position, MachOWriteStream.WriteFixedLengthCStringAt_eq,
      MachOWriteStream.WriteBytes, kHashAlignment, hR, hH]
    omega
  · simp only [MachOWriteStream.num_hashes, Bool.not_true, Bool.false_eq_true, if_false,
      HashingMachOWriteStream.ExpectedNumHashes_natCast]
  · simp only [MachOContents.SelfMemorySize, MachOCodeSignature.DirectoryLength, kHashSize]
    omega

theorem C34_code_signature_size_witness :
    (∃ s1 s2 s3 s4,
      MachOCodeSignature.writeSuperblob Target.example64 ⟨.codeSignature "app", 49376, 65760⟩
          { position_ := 49376, has_hashes_ := true, hashing_ := true,
            num_hashes_ := 0 } = some s1 ∧
        s1.Position = 49376 + MachOCodeSignature.DirectoryOffset Target.example64 ∧
      MachOCodeSignature.writeDirectory Target.example64 MachOHeader.sampleFinalized
          ⟨.codeSignature "app", 49376, 65760⟩ s1.Position s1 = some s2 ∧
        s2.Position = s1.Position + MachOCodeSignature.IdentOffset Target.example64 ∧
      (s2.WriteFixedLengthCStringAt "app" ("app".length + 1)).Align Target.example64
          kHashAlignment = some s3 ∧
        s3.Position = s1.Position + MachOCodeSignature.HashOffset Target.example64 "app" ∧
      MachOCodeSignature.WriteSelf Target.example64 MachOHeader.sampleFinalized
          ⟨.codeSignature "app", 49376, 65760⟩ "app"
          { position_ := 49376, has_hashes_ := true, hashing_ := true,
            num_hashes_ := 0 } = some s4 ∧
        s4.Position = 49376 +
          (⟨.codeSignature "app", 49376, 65760⟩ : MachOContents).SelfMemorySize
            Target.example64 MachOHeader.sampleFinalized ∧
        s4.num_hashes = some (MachOCodeSignature.ExpectedNumHashes 49376)) ∧
    (⟨.codeSignature "app", 49376, 65760⟩ : MachOContents).SelfMemorySize Target.example64
        MachOHeader.sampleFinalized =
      MachOCodeSignature.DirectoryOffset Target.example64 +
        MachOCodeSignature.HashOffset Target.example64 "app" +
        32 * MachOCodeSignature.ExpectedNumHashes 49376 ∧
    8 ∣ MachOCodeSignature.DirectoryOffset Target.example64 ∧
    8 ∣ MachOCodeSignature.DirectoryOffset Target.example64 +
      MachOCodeSignature.IdentOffset Target.example64 ∧
    16 ∣ MachOCodeSignature.DirectoryOffset Target.example64 +
      MachOCodeSignature.HashOffset Target.example64 "app" ∧
    MachOCodeSignature.IdentOffset Target.example64 + "app".length + 1 ≤
      MachOCodeSignature.HashOffset Target.example64 "app" :=
  C34_code_signature_size Target.example64 MachOHeader.sampleFinalized "app" 49376 0 65760
    (by decide) (by decide) (by decide) (by decide) (by decide) (by decide) (by decide)

/-! ### C31: what `WriteSelf` emits -/

theorem linearGet_isSome {x : Int} (h : x ≠ kLinearInitValue) : ∃ n, linearGet x = some n := by
  unfold linearGet
  have : (x != kLinearInitValue) = true := by simpa using h
  exact ⟨x.toNat, by simp [this]⟩

/-- The loop of `MachOSection::WriteSelf` over portions that are chained from the end `e`
of the portions before them: every assertion holds and the stream ends at the end of the
last portion. -/
theorem MachOContents.writePortions_spec (T : Target) (c : MachOContents) (a p : Nat)
    (hal : c.Alignment T = a) (hc : c.file_offset_ = (p : Int))
    (hm : c.memory_address_ ≠ kLinearInitValue)
    (hpow : IsPowerOfTwo a = true) (hpage : a ≤ T.kPageSize) (hdiv : a ∣ p) :
    ∀ (ps : List Portion) (e : Nat) (stream : MachOWriteStream),
      stream.position_ = p + e → Portion.chainedFrom a e ps = true →
      (∀ q ∈ ps, q.bytes.isSome = true) →
      ps.foldlM (c.writePortion T) stream =
        some { stream with position_ := p + Portion.endFrom e ps } := by
  have hap := IsPowerOfTwo_pos hpow
  obtain ⟨m, hm⟩ := linearGet_isSome hm
  intro ps
  induction ps with
  | nil =>
      intro e stream hs _ _
      simp only [List.foldlM_nil, Option.pure_def, Portion.endFrom, List.getLast?_nil, ← hs]
  | cons q qs ih =>
      intro e stream hs hch hb
      simp only [Portion.chainedFrom, Bool.and_eq_true, beq_iff_eq] at hch
      have hq := hb q (List.mem_cons_self _ _)
      have hstep : c.writePortion T stream q =
          some { stream with position_ := p + (q.offset + q.size) } := by
        simp only [MachOContents.writePortion, hal,
          MachOWriteStream.Align_eq T stream a (fun _ => ⟨hpow, hpage⟩), Option.bind_eq_bind,
          Option.some_bind, hc, MachOWriteStream.linearGet_natCast, hm,
          MachOWriteStream.Position, hs, RoundUp_add_of_dvd e hap hdiv, ← hch.1,
          Portion.Write, hq, MachOWriteStream.WriteBytes]
        simp [ASSERT, Nat.add_assoc]
      rw [List.foldlM_cons, hstep]
      simp only [Option.bind_eq_bind, Option.some_bind]
      rw [ih (q.offset + q.size) _ rfl hch.2 (fun q' hq' => hb q' (List.mem_cons_of_mem _ hq')),
        Portion.endFrom_cons]

theorem Portion.endFrom_zero (s : MachOSection) :
    Portion.endFrom 0 s.portions_ = s.SelfMemorySize := by
  unfold Portion.endFrom MachOSection.SelfMemorySize
  cases s.portions_.getLast? <;> rfl

theorem Symbol.Write_spec (T : Target) (hn : T.sizeofNlist = 8 + T.kWordSize)
    (stream : MachOWriteStream) (symbol : Symbol) :
    Symbol.Write T stream symbol =
      some { stream with position_ := stream.position_ + T.sizeofNlist } := by
  have : ((((stream.position_ + 4 + 1 + 1 + 2 + T.kWordSize : Nat) : Int) -
      (stream.position_ : Int)) == ((T.sizeofNlist : Nat) : Int)) = true := by
    simp only [beq_iff_eq]
    omega
  simp only [Symbol.Write, MachOWriteStream.Write32, MachOWriteStream.WriteByte,
    MachOWriteStream.Write16, MachOWriteStream.WriteWord, MachOWriteStream.WriteBytes,
    MachOWriteStream.Position, ASSERT, this, if_true, Option.bind_eq_bind, Option.some_bind,
    Option.pure_def, Option.some.injEq, MachOWriteStream.mk.injEq, and_true]
  omega

theorem MachOSymbolTable.WriteSelf_symbols_spec (T : Target) (hn : T.sizeofNlist = 8 + T.kWordSize)
    (t : MachOSymbolTable) (stream : MachOWriteStream) :
    t.WriteSelf T stream =
      some { stream with position_ := stream.position_ + t.SelfMemorySize T } := by
  have key : ∀ (symbols : List Symbol) (stream : MachOWriteStream),
      symbols.foldlM (Symbol.Write T) stream =
        some { stream with position_ := stream.position_ + symbols.length * T.sizeofNlist } := by
    intro symbols
    induction symbols with
    | nil => intro stream; simp
    | cons s ss ih =>
        intro stream
        rw [List.foldlM_cons, Symbol.Write_spec T hn]
        simp only [Option.bind_eq_bind, Option.some_bind, ih, List.length_cons,
          Option.some.injEq, MachOWriteStream.mk.injEq, and_true]
        rw [Nat.succ_mul]
        omega
  simp only [MachOSymbolTable.WriteSelf, key, Option.bind_eq_bind, Option.some_bind,
    Option.pure_def, MachOWriteStream.WriteBytes, MachOSymbolTable.SelfMemorySize,
    MachOSymbolTable.SymbolsSize, MachOSymbolTable.num_symbols, Option.some.injEq,
    MachOWriteStream.mk.injEq, and_true]
  omega

theorem MachOContents.IsWritable_spec {T : Target} {h : MachOHeader} {c : MachOContents}
    (hw : c.IsWritable T h = true) :
    c.IsAllocated = true ∧ IsPowerOfTwo (c.Alignment T) = true ∧ c.Alignment T ≤ T.kPageSize := by
  simp only [MachOContents.IsWritable, Bool.and_eq_true, decide_eq_true_eq] at hw
  exact ⟨hw.1.1.1, hw.1.1.2, hw.1.2⟩

/-- `WriteSelf` of a child other than the header, on the stream that has reached the file
offset of the child: every assertion holds and the stream advances by
`SelfMemorySize()`; only a code signature changes the hashing state. -/
theorem MachOContents.WriteSelf_child_spec (T : Target) (h : MachOHeader) (c : MachOContents)
    (stream : MachOWriteStream) (p : Nat)
    (hsizes : T.HasMachOSizes = true) (hpages : T.HasPages = true)
    (hk : c.kind ≠ ContentsKind.header) (hw : c.IsWritable T h = true)
    (hcont : c.HasContents = true)
    (hc : c.file_offset_ = (p : Int)) (hm : c.memory_address_ ≠ kLinearInitValue)
    (hdiv : c.Alignment T ∣ p) (hp : stream.position_ = p)
    (hsig : c.IsSignature = true → stream.has_hashes_ = true ∧ stream.hashing_ = true)
    (hts : (h.text_segment.bind fun ts => linearGet ts.file_offset_).isSome = true) :
    ∃ s2, c.WriteSelf T h stream = some s2 ∧ s2.position_ = p + c.SelfMemorySize T h ∧
      s2.has_hashes_ = stream.has_hashes_ ∧
      s2.hashing_ = (stream.hashing_ && !c.IsSignature) := by
  obtain ⟨hall, hpow, hpg⟩ := MachOContents.IsWritable_spec hw
  simp only [Target.HasMachOSizes, Bool.and_eq_true, beq_iff_eq] at hsizes
  obtain ⟨⟨⟨⟨⟨⟨⟨⟨⟨⟨⟨⟨_, _⟩, _⟩, hn⟩, _⟩, _⟩, _⟩, _⟩, _⟩, _⟩, hsb⟩, hbi⟩, hcd⟩ := hsizes
  simp only [Target.HasPages, Bool.and_eq_true, decide_eq_true_eq, kHashAlignment] at hpages
  obtain ⟨_, h16⟩ := hpages
  rcases c with ⟨kind, fo, ma⟩
  cases kind with
  | header => exact absurd rfl hk
  | «section» s =>
      simp only [MachOContents.IsWritable, hcont, Bool.not_true, Bool.false_or,
        Bool.and_eq_true, List.all_eq_true] at hw
      have h1 := MachOContents.writePortions_spec T ⟨.section s, fo, ma⟩ s.alignment_ p rfl hc hm
        hpow hpg hdiv s.portions_ 0 stream (by simpa using hp) hw.2.1 hw.2.2
      refine ⟨{ stream with position_ := p + s.SelfMemorySize }, ?_, rfl, rfl, ?_⟩
      · simp only [MachOContents.WriteSelf, hcont, Bool.not_true, Bool.false_eq_true, if_false]
        rw [h1, Portion.endFrom_zero]
      · simp [MachOContents.IsSignature]
  | symbolTable table =>
      simp only [MachOContents.IsWritable, Bool.and_eq_true] at hw
      obtain ⟨t, ht⟩ := Option.isSome_iff_exists.1 hw.2
      refine ⟨{ stream with position_ := stream.position_ + t.SelfMemorySize T }, ?_, ?_, rfl,
        ?_⟩
      · simp only [MachOContents.WriteSelf, ht, Option.some_bind]
        exact MachOSymbolTable.WriteSelf_symbols_spec T hn t stream
      · simp only [MachOContents.SelfMemorySize, ht, hp]
      · simp [MachOContents.IsSignature]
  | dynamicSymbolTable table =>
      refine ⟨stream, ?_, by simp [MachOContents.SelfMemorySize, hp], rfl, by
        simp [MachOContents.IsSignature]⟩
      simp [MachOContents.WriteSelf, MachOContents.SelfFileSize, MachOContents.SelfMemorySize,
        ASSERT]
  | codeSignature identifier =>
      have hs : (⟨.codeSignature identifier, fo, ma⟩ : MachOContents).IsSignature = true := by
        simpa [MachOContents.IsSignature] using hcont
      obtain ⟨hh, hg⟩ := hsig hs
      obtain ⟨ts, hts1, hts2⟩ := MachOHeader.text_segment_of_isSome hts
      have hspec := MachOCodeSignature.WriteSelf_signature_spec T h h
        ⟨.codeSignature identifier, fo, ma⟩ identifier stream p ts hsb hbi hcd h16 rfl hh hg hp
        hc hdiv (fun _ => hall) hts1 hts2
      refine ⟨_, hspec, rfl, hh.symm, ?_⟩
      simp [hs]

/-! ### C31: what a load command emits -/

theorem Target.HasPages_spec {T : Target} (hpages : T.HasPages = true) :
    (T.kWordSize = 4 ∧ T.targetArchIs32Bit = true ∨
      T.kWordSize = 8 ∧ T.targetArchIs32Bit = false) ∧
    IsPowerOfTwo T.kWordSize = true ∧ IsPowerOfTwo T.kPageSize = true ∧
    16 ≤ T.kPageSize ∧ T.kWordSize ≤ T.kPageSize := by
  simp only [Target.HasPages, Bool.and_eq_true, beq_iff_eq, decide_eq_true_eq,
    kHashAlignment] at hpages
  obtain ⟨⟨hw, hp⟩, h16⟩ := hpages
  cases hb : T.targetArchIs32Bit with
  | true =>
      rw [hb] at hw
      simp only [if_true] at hw
      exact ⟨Or.inl ⟨hw, rfl⟩, by rw [hw]; decide, hp, h16, by omega⟩
  | false =>
      rw [hb] at hw
      simp only [Bool.false_eq_true, if_false] at hw
      exact ⟨Or.inr ⟨hw, rfl⟩, by rw [hw]; decide, hp, h16, by omega⟩

theorem MachOWriteStream.writeCalls_eq (T : Target) :
    ∀ (calls : List StreamWrite) (stream : MachOWriteStream),
      stream.writeCalls T calls =
        { stream with position_ := stream.position_ + (calls.map (StreamWrite.size T)).sum } := by
  intro calls
  induction calls with
  | nil => intro stream; simp [MachOWriteStream.writeCalls]
  | cons c cs ih =>
      intro stream
      have h := ih (stream.WriteBytes (c.size T))
      simp only [MachOWriteStream.writeCalls, List.foldl_cons] at h ⊢
      rw [h]
      simp only [MachOWriteStream.WriteBytes, List.map_cons, List.sum_cons,
        MachOWriteStream.mk.injEq, and_true]
      omega

theorem StreamWrite.size_string (T : Target) (str : String) (n : Nat) :
    (StreamWrite.WriteFixedLengthCString str n).size T = n := by
  simp only [StreamWrite.size, MachOWriteStream.WriteFixedLengthCString_length]

/-- The header information of a section advances the stream by the size of the section
record. -/
theorem MachOContents.WriteHeaderInfoAt_spec (T : Target) (h : MachOHeader)
    (c : MachOContents) (segname : String) (stream : MachOWriteStream)
    (hsizes : T.HasMachOSizes = true) (hpages : T.HasPages = true)
    (hs : c.IsMachOSection = true)
    (hf : c.file_offset_ ≠ kLinearInitValue) (hm : c.memory_address_ ≠ kLinearInitValue) :
    c.WriteHeaderInfoAt T h segname stream =
      some { stream with position_ := stream.position_ + T.sizeofSectionType } := by
  simp only [Target.HasMachOSizes, Bool.and_eq_true, beq_iff_eq] at hsizes
  obtain ⟨⟨⟨⟨⟨⟨⟨⟨⟨⟨⟨⟨_, _⟩, hsect⟩, _⟩, _⟩, _⟩, _⟩, _⟩, _⟩, _⟩, _⟩, _⟩, _⟩ := hsizes
  obtain ⟨hword, _, _, _, _⟩ := Target.HasPages_spec hpages
  obtain ⟨m, hm⟩ := linearGet_isSome hm
  obtain ⟨f, hf⟩ := linearGet_isSome hf
  rcases c with ⟨kind, fo, ma⟩
  cases kind with
  | «section» s =>
      simp only at hm hf
      have hsum : ((if T.targetArchIs32Bit = true then
            [StreamWrite.WriteFixedLengthCString s.name_ kNameSize,
              StreamWrite.WriteFixedLengthCString segname kNameSize, WriteWord T m,
              WriteWord T (MachOContents.MemorySize T h ⟨.section s, fo, ma⟩), Write32 f,
              Write32 (ShiftForPowerOfTwo (MachOContents.Alignment T ⟨.section s, fo, ma⟩)),
              Write32 0, Write32 0, Write32 s.flags_, Write32 0, Write32 0]
          else
            [StreamWrite.WriteFixedLengthCString s.name_ kNameSize,
              StreamWrite.WriteFixedLengthCString segname kNameSize, WriteWord T m,
              WriteWord T (MachOContents.MemorySize T h ⟨.section s, fo, ma⟩), Write32 f,
              Write32 (ShiftForPowerOfTwo (MachOContents.Alignment T ⟨.section s, fo, ma⟩)),
              Write32 0, Write32 0, Write32 s.flags_, Write32 0, Write32 0,
              Write32 0]).map (StreamWrite.size T)).sum = T.sizeofSectionType := by
        rcases hword with ⟨hw, hb⟩ | ⟨hw, hb⟩ <;>
          simp only [hb, if_true, Bool.false_eq_true, if_false, List.map_cons, List.map_nil,
            StreamWrite.size_string, List.sum_cons, List.sum_nil] <;>
          simp [hb, hsect, hw, StreamWrite.size, Write32, WriteWord, kNameSize]
      have hcalls : MachOContents.WriteHeaderInfo T h ⟨.section s, fo, ma⟩ segname =
          some (if T.targetArchIs32Bit = true then
            [StreamWrite.WriteFixedLengthCString s.name_ kNameSize,
              StreamWrite.WriteFixedLengthCString segname kNameSize, WriteWord T m,
              WriteWord T (MachOContents.MemorySize T h ⟨.section s, fo, ma⟩), Write32 f,
              Write32 (ShiftForPowerOfTwo (MachOContents.Alignment T ⟨.section s, fo, ma⟩)),
              Write32 0, Write32 0, Write32 s.flags_, Write32 0, Write32 0]
          else
            [StreamWrite.WriteFixedLengthCString s.name_ kNameSize,
              StreamWrite.WriteFixedLengthCString segname kNameSize, WriteWord T m,
              WriteWord T (MachOContents.MemorySize T h ⟨.section s, fo, ma⟩), Write32 f,
              Write32 (ShiftForPowerOfTwo (MachOContents.Alignment T ⟨.section s, fo, ma⟩)),
              Write32 0, Write32 0, Write32 s.flags_, Write32 0, Write32 0, Write32 0]) := by
        simp only [MachOContents.WriteHeaderInfo, hm, hf, Option.bind_eq_bind,
          Option.some_bind, Option.pure_def]
        cases T.targetArchIs32Bit <;> simp
      have hlt : T.sizeofSectionType % 2 ^ 32 = T.sizeofSectionType := by
        apply Nat.mod_eq_of_lt
        rcases hword with ⟨hw, hb⟩ | ⟨hw, hb⟩ <;> simp [hsect, hw, hb]
      simp only [MachOContents.WriteHeaderInfoAt, hcalls, Option.bind_eq_bind,
        Option.some_bind, MachOWriteStream.writeCalls_eq, hsum, MachOWriteStream.Position,
        hlt, ASSERT, beq_self_eq_true, if_true, Option.pure_def]
  | _ => simp [MachOContents.IsMachOSection] at hs

theorem MachOSegment.writeSectionHeadersAt_spec (T : Target) (h : MachOHeader)
    (segname : String) (hsizes : T.HasMachOSizes = true) (hpages : T.HasPages = true) :
    ∀ (cs : List MachOContents) (stream : MachOWriteStream),
      (∀ c ∈ cs, c.file_offset_ ≠ kLinearInitValue ∧ c.memory_address_ ≠ kLinearInitValue) →
      MachOSegment.writeSectionHeadersAt T h segname stream cs =
        some { stream with position_ := stream.position_ +
          (cs.filter MachOContents.IsMachOSection).length * T.sizeofSectionType } := by
  intro cs
  induction cs with
  | nil => intro stream _; simp [MachOSegment.writeSectionHeadersAt]
  | cons c cs ih =>
      intro stream hall
      have hc := hall c (List.mem_cons_self _ _)
      have hcs := fun c' hc' => hall c' (List.mem_cons_of_mem _ hc')
      by_cases hs : c.IsMachOSection = true
      · simp only [MachOSegment.writeSectionHeadersAt, hs, Bool.not_true, Bool.false_eq_true,
          if_false, MachOContents.WriteHeaderInfoAt_spec T h c segname stream hsizes hpages hs
            hc.1 hc.2, Option.bind_eq_bind, Option.some_bind, ih _ hcs, List.filter_cons,
          if_true, List.length_cons, Option.some.injEq, MachOWriteStream.mk.injEq, and_true]
        rw [Nat.succ_mul]
        omega
      · simp only [Bool.not_eq_true] at hs
        simp only [MachOSegment.writeSectionHeadersAt, hs, Bool.not_false, if_true,
          ih _ hcs, List.filter_cons, Bool.false_eq_true, if_false]

theorem Target.HasMachOSizes_spec {T : Target} (hsizes : T.HasMachOSizes = true) :
    T.sizeofHeaderType = (if T.targetArchIs32Bit then 28 else 32) ∧
    T.sizeofSegmentCommandType = 40 + 4 * T.kWordSize ∧
    T.sizeofSectionType = (if T.targetArchIs32Bit then 60 else 64) + 2 * T.kWordSize ∧
    T.sizeofNlist = 8 + T.kWordSize ∧
    T.sizeofSymtabCommand = 24 ∧ T.sizeofDysymtabCommand = 80 ∧
    T.sizeofUuidCommand = 24 ∧ T.sizeofBuildVersionCommand = 24 ∧
    T.sizeofDylibCommand = 24 ∧ T.sizeofLinkeditDataCommand = 16 ∧
    T.sizeofCsSuperblob = 12 ∧ T.sizeofCsBlobIndex = 8 ∧ T.sizeofCsCodeDirectory = 88 := by
  simp only [Target.HasMachOSizes, Bool.and_eq_true, beq_iff_eq] at hsizes
  obtain ⟨⟨⟨⟨⟨⟨⟨⟨⟨⟨⟨⟨a, b⟩, c⟩, d⟩, e⟩, f⟩, g⟩, i⟩, j⟩, k⟩, l⟩, m⟩, n⟩ := hsizes
  exact ⟨a, b, c, d, e, f, g, i, j, k, l, m, n⟩

/-- The load command of a segment whose offsets and whose children's offsets are set
advances the stream by `cmdsize()`. -/
theorem MachOSegment.WriteLoadCommandAt_spec (T : Target) (h : MachOHeader)
    (s : MachOSegment) (stream : MachOWriteStream)
    (hsizes : T.HasMachOSizes = true) (hpages : T.HasPages = true)
    (hfit : s.cmdsizeFits T = true)
    (hoff : (MachOCommand.segment s).HasOffsets = true) :
    s.WriteLoadCommandAt T h stream =
      some { stream with position_ := stream.position_ + s.cmdsize T } := by
  obtain ⟨_, hseg, _⟩ := Target.HasMachOSizes_spec hsizes
  simp only [MachOCommand.HasOffsets, Bool.and_eq_true, bne_iff_ne, ne_eq,
    List.all_eq_true] at hoff
  obtain ⟨⟨hm, hf⟩, hch⟩ := hoff
  obtain ⟨m, hm⟩ := linearGet_isSome hm
  obtain ⟨f, hf⟩ := linearGet_isSome hf
  have hsec := MachOSegment.writeSectionHeadersAt_spec T h s.name_ hsizes hpages s.contents_
  have hsize : s.cmdsize T =
      T.sizeofSegmentCommandType + s.NumSections * T.sizeofSectionType := by
    unfold MachOSegment.cmdsize
    apply Nat.mod_eq_of_lt
    simpa [MachOSegment.cmdsizeFits, IsUint] using hfit
  simp only [MachOSegment.WriteLoadCommandAt, hfit, ASSERT, if_true, Option.bind_eq_bind,
    Option.some_bind, hm, hf, MachOWriteStream.WriteFixedLengthCStringAt_eq]
  rw [hsec _ (fun c hc => hch c hc)]
  simp only [MachOWriteStream.Write32, MachOWriteStream.WriteWord,
    MachOWriteStream.WriteBytes, kNameSize, hsize, hseg,
    MachOSegment.NumSections_sections, Option.some.injEq, MachOWriteStream.mk.injEq,
    and_true]
  omega

theorem WriteOffsetCountAt_spec (stream : MachOWriteStream) (offset count : Nat)
    (h1 : IsUint 32 offset = true) (h2 : IsUint 32 count = true) :
    stream.WriteOffsetCountAt offset count =
      some { stream with position_ := stream.position_ + 8 } := by
  simp only [MachOWriteStream.WriteOffsetCountAt, h1, h2, ASSERT, if_true,
    Option.bind_eq_bind, Option.some_bind, Option.pure_def, MachOWriteStream.Write32,
    MachOWriteStream.WriteBytes, Option.some.injEq, MachOWriteStream.mk.injEq, and_true]

theorem MachODynamicSymbolTable.WriteLoadCommand_length (T : Target) (t : MachOSymbolTable)
    (l e : Nat) (hl : linearGet t.num_local_symbols_ = some l)
    (he : linearGet t.num_external_symbols_ = some e)
    (h1 : IsUint 32 l = true) (h2 : IsUint 32 e = true) (h3 : IsUint 32 (l + e) = true) :
    ∃ fields, MachODynamicSymbolTable.WriteLoadCommand T t = some fields ∧
      fields.length = 20 := by
  have h0 : IsUint 32 0 = true := by decide
  simp only [MachODynamicSymbolTable.WriteLoadCommand, hl, he, Option.bind_eq_bind,
    Option.some_bind, WriteOffsetCount, h0, h1, h2, h3, Nat.zero_add, Bool.and_self, if_true,
    kUnusedOffsetCountPairs, writeUnusedOffsetCountPairs, Option.pure_def]
  exact ⟨_, rfl, rfl⟩

/-- The load command of a command advances the stream, which starts at a multiple of the
word size, by `cmdsize()`, when the values it writes are set and fit in 32 bits. -/
theorem MachOCommand.WriteLoadCommand_spec (T : Target) (h : MachOHeader)
    (command : MachOCommand) (stream : MachOWriteStream)
    (hsizes : T.HasMachOSizes = true) (hpages : T.HasPages = true)
    (hios : T.targetOsMacOSIOS = false)
    (hfit : command.FitsIn32Bits T h = true) (hoff : command.HasOffsets = true)
    (hq : T.kWordSize ∣ stream.position_) :
    command.WriteLoadCommand T h stream =
      some { stream with position_ := stream.position_ + command.cmdsize T } := by
  obtain ⟨_, _, _, _, hsym, hdysym, huuid, hbuild, hdylib, hdata, _⟩ :=
    Target.HasMachOSizes_spec hsizes
  obtain ⟨_, hwpow, _, _, hwp⟩ := Target.HasPages_spec hpages
  have hwpos := IsPowerOfTwo_pos hwpow
  cases command with
  | segment s =>
      exact MachOSegment.WriteLoadCommandAt_spec T h s stream hsizes hpages hfit hoff
  | other kind fo ma ho =>
      have hdy : ∀ name : String,
          IsUint 32 (RoundUp (T.sizeofDylibCommand + name.length + 1) T.kWordSize) = true →
          (stream.Write32.Write32.Write32.Write32.Write32.Write32.WriteNullTerminatedCString
              name).Align T T.kWordSize =
            some { stream with position_ := (stream.position_ +
              RoundUp (T.sizeofDylibCommand + name.length + 1) T.kWordSize % 2 ^ 32) } := by
        intro name hn
        rw [MachOWriteStream.Align_eq T _ _ (fun _ => ⟨hwpow, hwp⟩)]
        have e : stream.position_ + 4 + 4 + 4 + 4 + 4 + 4 + (name.length + 1) =
            stream.position_ + (T.sizeofDylibCommand + name.length + 1) := by omega
        have hlt : RoundUp (T.sizeofDylibCommand + name.length + 1) T.kWordSize % 2 ^ 32 =
            RoundUp (T.sizeofDylibCommand + name.length + 1) T.kWordSize :=
          Nat.mod_eq_of_lt (by simpa [IsUint] using hn)
        simp only [MachOWriteStream.Write32, MachOWriteStream.WriteNullTerminatedCString,
          MachOWriteStream.WriteBytes, e, RoundUp_add_of_dvd _ hwpos hq, hlt]
      cases kind with
      | uuid bytes =>
          simp [MachOCommand.WriteLoadCommand, MachOCommand.cmdsize, CommandKind.cmdsize,
            huuid, MachOWriteStream.Write32, MachOWriteStream.WriteBytes, kUuidSize,
            Nat.add_assoc]
      | buildVersion =>
          simp [MachOCommand.WriteLoadCommand, MachOCommand.cmdsize, CommandKind.cmdsize,
            hbuild, hios, MachOWriteStream.Write32, MachOWriteStream.WriteBytes, Nat.add_assoc]
      | idDylib name x y =>
          simp only [MachOCommand.WriteLoadCommand, MachOCommand.cmdsize, CommandKind.cmdsize]
          exact hdy name hfit
      | loadDylib name x y z =>
          simp only [MachOCommand.WriteLoadCommand, MachOCommand.cmdsize, CommandKind.cmdsize]
          exact hdy name hfit
      | symbolTable table =>
          simp only [MachOCommand.HasOffsets, CommandKind.asContents?, Option.isSome_some,
            Bool.not_true, Bool.false_or, Bool.and_eq_true, bne_iff_ne, ne_eq] at hoff
          obtain ⟨f, hf⟩ := linearGet_isSome hoff.1
          have hf2 : f = fo.toNat := by
            unfold linearGet at hf
            split_ifs at hf
            exact (Option.some.inj hf).symm
          simp only [MachOCommand.FitsIn32Bits] at hfit
          cases ht : h.table? table with
          | none => rw [ht] at hfit; cases hfit
          | some t =>
              rw [ht] at hfit
              simp only [Bool.and_eq_true] at hfit
              obtain ⟨⟨⟨f1, f2⟩, f3⟩, f4⟩ := hfit
              rw [← hf2] at f1 f3
              simp only [MachOCommand.WriteLoadCommand, ht, hf, Option.bind_eq_bind,
                Option.some_bind, WriteOffsetCountAt_spec _ _ _ f1 f2,
                WriteOffsetCountAt_spec _ _ _ f3 f4, MachOCommand.cmdsize,
                CommandKind.cmdsize, hsym, MachOWriteStream.Write32,
                MachOWriteStream.WriteBytes, Option.some.injEq, MachOWriteStream.mk.injEq,
                and_true]
              omega
      | dynamicSymbolTable table =>
          simp only [MachOCommand.FitsIn32Bits] at hfit
          cases ht : h.table? table with
          | none => rw [ht] at hfit; cases hfit
          | some t =>
              rw [ht] at hfit
              cases hl : linearGet t.num_local_symbols_ with
              | none => simp [hl] at hfit
              | some l =>
                  cases he : linearGet t.num_external_symbols_ with
                  | none => simp [hl, he] at hfit
                  | some e =>
                      simp only [hl, he, Bool.and_eq_true] at hfit
                      obtain ⟨fields, hfields, hlen⟩ :=
                        MachODynamicSymbolTable.WriteLoadCommand_length T t l e hl he
                          hfit.1.1 hfit.1.2 hfit.2
                      simp only [MachOCommand.WriteLoadCommand, ht, hfields,
                        Option.bind_eq_bind, Option.some_bind, Option.pure_def, hlen,
                        MachOCommand.cmdsize, CommandKind.cmdsize, hdysym,
                        MachOWriteStream.WriteBytes]
                      rfl
      | codeSignature identifier =>
          simp only [MachOCommand.HasOffsets, CommandKind.asContents?, Option.isSome_some,
            Bool.not_true, Bool.false_or, Bool.and_eq_true, bne_iff_ne, ne_eq,
            Bool.or_eq_true, beq_iff_eq] at hoff
          obtain ⟨f, hf⟩ := linearGet_isSome hoff.1
          have hf2 : f = fo.toNat := by
            unfold linearGet at hf
            split_ifs at hf
            exact (Option.some.inj hf).symm
          simp only [MachOCommand.FitsIn32Bits, Bool.and_eq_true] at hfit
          obtain ⟨f1, f2⟩ := hfit
          rw [← hf2] at f1
          have h3 : (⟨.codeSignature identifier, fo, ma⟩ : MachOContents).HasContents = true →
              (⟨.codeSignature identifier, fo, ma⟩ : MachOContents).IsAllocated = true := by
            intro h1
            have h2 : fo ≠ 0 := by simpa [MachOContents.HasContents] using h1
            have h3 : ma ≠ 0 := by
              rcases hoff.2 with h0 | h0
              · exact absurd h0 h2
              · exact h0
            simp [MachOContents.IsAllocated, h3]
          simp only [MachOCommand.WriteLoadCommand, hf, Option.bind_eq_bind,
            Option.some_bind, WriteOffsetCountAt_spec _ _ _ f1 f2,
            MachOCommand.cmdsize, CommandKind.cmdsize, hdata, MachOWriteStream.Write32,
            MachOWriteStream.WriteBytes]
          by_cases h1 : (⟨.codeSignature identifier, fo, ma⟩ : MachOContents).HasContents = true
          · simp only [h1, h3 h1, ASSERT, if_true, Option.some_bind, Option.some.injEq,
              MachOWriteStream.mk.injEq, and_true]
            rfl
          · simp only [h1, Bool.false_eq_true, if_false, Option.pure_def, Option.some_bind,
              Option.some.injEq, MachOWriteStream.mk.injEq, and_true]
            rfl

/-- The sizes of the records make every `cmdsize` and the header record multiples of the
word size. -/
theorem Target.word_dvd_sizes {T : Target} (hsizes : T.HasMachOSizes = true)
    (hpages : T.HasPages = true) :
    T.kWordSize ∣ T.sizeofHeaderType ∧ ∀ c : MachOCommand, T.kWordSize ∣ c.cmdsize T := by
  obtain ⟨hh, hseg, hsect, _, hsym, hdysym, huuid, hbuild, _, hdata, _⟩ :=
    Target.HasMachOSizes_spec hsizes
  obtain ⟨hw, hwpow, _, _, _⟩ := Target.HasPages_spec hpages
  have hw32 : T.kWordSize ≤ 2 ^ 32 := by
    rcases hw with ⟨e, _⟩ | ⟨e, _⟩ <;> rw [e] <;> decide
  have d1 : T.kWordSize ∣ T.sizeofHeaderType := by
    rcases hw with ⟨e, b⟩ | ⟨e, b⟩ <;> rw [hh, e, b] <;> decide
  have d2 : T.kWordSize ∣ T.sizeofSegmentCommandType := by
    rw [hseg]; exact Dvd.dvd.add (by rcases hw with ⟨e, _⟩ | ⟨e, _⟩ <;> rw [e] <;> decide)
      (Dvd.intro_left _ rfl)
  have d3 : T.kWordSize ∣ T.sizeofSectionType := by
    rw [hsect]
    exact Dvd.dvd.add (by rcases hw with ⟨e, b⟩ | ⟨e, b⟩ <;> rw [e, b] <;> decide)
      (Dvd.intro_left _ rfl)
  have d4 : ∀ n, (n = 24 ∨ n = 80 ∨ n = 16) → T.kWordSize ∣ n := by
    intro n hn
    rcases hw with ⟨e, _⟩ | ⟨e, _⟩ <;> rcases hn with rfl | rfl | rfl <;> rw [e] <;> decide
  exact ⟨d1, MachOCommand.cmdsize_dvd T hwpow hw32 d2 d3 (d4 _ (Or.inl huuid))
    (d4 _ (Or.inl hbuild)) (d4 _ (Or.inl hsym)) (d4 _ (Or.inr (Or.inl hdysym)))
    (d4 _ (Or.inr (Or.inr hdata)))⟩

/-- The loop of `MachOHeader::WriteSelf` over commands whose header offsets continue the
position of the stream: every assertion holds and the stream advances by the sum of the
`cmdsize`s. -/
theorem MachOHeader.writeCommands_spec (T : Target) (h : MachOHeader)
    (hsizes : T.HasMachOSizes = true) (hpages : T.HasPages = true)
    (hios : T.targetOsMacOSIOS = false) :
    ∀ (l : List MachOCommand) (stream : MachOWriteStream),
      (∀ c ∈ l, c.FitsIn32Bits T h = true ∧ c.HasOffsets = true) →
      T.kWordSize ∣ stream.position_ →
      (∀ i c, l[i]? = some c → c.header_offset_ =
        ((stream.position_ + ((l.take i).map fun c => c.cmdsize T).sum : Nat) : Int)) →
      l.foldlM (h.writeCommand T 0) stream =
        some { stream with position_ := stream.position_ +
          (l.map fun c => c.cmdsize T).sum } := by
  intro l
  induction l with
  | nil => intro stream _ _ _; simp
  | cons c cs ih =>
      intro stream hall hq hchain
      have hc := hall c (List.mem_cons_self _ _)
      have h0 := hchain 0 c (by simp)
      simp only [List.take_zero, List.map_nil, List.sum_nil, Nat.add_zero] at h0
      have hget : c.header_offset = some (stream.position_ : Int) := by
        unfold MachOCommand.header_offset LinearField.get
        rw [h0]
        have : (((stream.position_ : Nat) : Int) != kLinearInitValue) = true := by
          simp only [kLinearInitValue, bne_iff_ne, ne_eq]; omega
        simp [ASSERT, this]
      have hstep : h.writeCommand T 0 stream c =
          some { stream with position_ := stream.position_ + c.cmdsize T } := by
        simp only [MachOHeader.writeCommand, hget, Option.bind_eq_bind, Option.some_bind,
          MachOCommand.WriteLoadCommand_spec T h c stream hsizes hpages hios hc.1 hc.2 hq,
          MachOWriteStream.Position, Option.pure_def]
        simp [ASSERT]
      rw [List.foldlM_cons, hstep, Option.bind_eq_bind, Option.some_bind,
        ih _ (fun c hc => hall c (List.mem_cons_of_mem _ hc))
          (Nat.dvd_add hq ((Target.word_dvd_sizes hsizes hpages).2 c))]
      · simp only [List.map_cons, List.sum_cons, Nat.add_assoc]
      · intro i c1 hi
        have := hchain (i + 1) c1 (by simpa using hi)
        rw [this]
        simp only [List.take_succ_cons, List.map_cons, List.sum_cons, Nat.add_assoc]

/-- `MachOHeader::WriteSelf` at the start of the file: every assertion holds and the
stream advances by `SelfMemorySize()`. -/
theorem MachOHeader.WriteSelf_header_spec (T : Target) (h : MachOHeader) (stream : MachOWriteStream)
    (hsizes : T.HasMachOSizes = true) (hpages : T.HasPages = true)
    (hios : T.targetOsMacOSIOS = false)
    (hp : stream.position_ = 0)
    (hall : ∀ c ∈ h.commands_, c.FitsIn32Bits T h = true ∧ c.HasOffsets = true)
    (hchain : ∀ i c, h.commands_[i]? = some c → c.header_offset_ =
      ((T.sizeofHeaderType + ((h.commands_.take i).map fun c => c.cmdsize T).sum : Nat) :
        Int)) :
    h.WriteSelf T stream = some { stream with position_ := h.SelfMemorySize T } := by
  obtain ⟨hh, _⟩ := Target.HasMachOSizes_spec hsizes
  have hself : h.SelfMemorySize T =
      T.sizeofHeaderType + (h.commands_.map fun c => c.cmdsize T).sum :=
    MachOHeader.foldl_cmdsize_sum T _ _
  have hrec : (if T.targetArchIs32Bit then
        stream.Write32.Write32.Write32.Write32.Write32.Write32.Write32
      else stream.Write32.Write32.Write32.Write32.Write32.Write32.Write32.Write32) =
      { stream with position_ := T.sizeofHeaderType } := by
    rw [hh]
    cases T.targetArchIs32Bit <;>
      simp [MachOWriteStream.Write32, MachOWriteStream.WriteBytes, hp]
  simp only [MachOHeader.WriteSelf, MachOWriteStream.Position, hp, Option.bind_eq_bind, hrec]
  have := MachOHeader.writeCommands_spec T h hsizes hpages hios h.commands_
    { stream with position_ := T.sizeofHeaderType } hall
    (Target.word_dvd_sizes hsizes hpages).1 hchain
  simp only [ASSERT, beq_self_eq_true, if_true, Option.some_bind, Nat.cast_zero, sub_zero,
    this, hself]

namespace ContentOffsetsVisitor

/-- The child that the layout visitor leaves: the file offset of a child with contents
and the memory address of an allocated child are the aligned cursors. -/
theorem Accept_snd_eq (T : Target) (h : MachOHeader) (v : ContentOffsetsVisitor)
    (c : MachOContents) :
    (Accept T h v c).2 =
      { kind := c.kind,
        file_offset_ :=
          if c.HasContents then ((RoundUp v.file_offset (c.Alignment T) : Nat) : Int)
          else c.file_offset_,
        memory_address_ :=
          if c.IsAllocated then ((RoundUp v.memory_address (c.Alignment T) : Nat) : Int)
          else c.memory_address_ } := by
  rcases c with ⟨kind, fo, ma⟩
  have key : (Default T h v ⟨kind, fo, ma⟩).2 =
      { kind := kind,
        file_offset_ :=
          if (⟨kind, fo, ma⟩ : MachOContents).HasContents then
            ((RoundUp v.file_offset ((⟨kind, fo, ma⟩ : MachOContents).Alignment T) : Nat) : Int)
          else fo,
        memory_address_ :=
          if (⟨kind, fo, ma⟩ : MachOContents).IsAllocated then
            ((RoundUp v.memory_address ((⟨kind, fo, ma⟩ : MachOContents).Alignment T) : Nat) :
              Int)
          else ma } := by
    unfold Default DefaultMemory DefaultFile
    by_cases h1 : (⟨kind, fo, ma⟩ : MachOContents).HasContents = true <;>
      by_cases h2 : (⟨kind, fo, ma⟩ : MachOContents).IsAllocated = true <;>
      simp [h1, h2, MachOContents.IsAllocated, MachOContents.Alignment] <;>
      simp [MachOContents.IsAllocated] at h2 <;> simp [h2]
  unfold Accept VisitMachOSection
  split <;> exact key

/-- What the layout visitor leaves of a child other than the header when the cursors are
positive: the kind, whether it has contents and whether it is allocated are kept, and the
offsets are set. -/
theorem Accept_placed (T : Target) (h : MachOHeader) (v : ContentOffsetsVisitor)
    (c : MachOContents) (hk : c.kind ≠ ContentsKind.header) (ha : 0 < c.Alignment T)
    (hvf : 0 < v.file_offset) (hvm : 0 < v.memory_address) :
    (Accept T h v c).2.kind = c.kind ∧
    (Accept T h v c).2.HasContents = c.HasContents ∧
    (Accept T h v c).2.IsAllocated = c.IsAllocated ∧
    (Accept T h v c).2.file_offset_ ≠ kLinearInitValue ∧
    (Accept T h v c).2.memory_address_ ≠ kLinearInitValue ∧
    (c.HasContents = true →
      (Accept T h v c).2.file_offset_ = ((RoundUp v.file_offset (c.Alignment T) : Nat) : Int)) := by
  have h1 := le_RoundUp v.file_offset _ ha
  have h2 := le_RoundUp v.memory_address _ ha
  rw [Accept_snd_eq]
  rcases c with ⟨kind, fo, ma⟩
  have e1 : ∀ k : ContentsKind, k ≠ ContentsKind.header →
      ∀ x y : Int, (⟨k, x, y⟩ : MachOContents).HasContents = (x != 0) ∧
        (⟨k, x, y⟩ : MachOContents).IsAllocated = (y != 0) := by
    intro k hk x y
    cases k <;> first | exact absurd rfl hk | exact ⟨rfl, rfl⟩
  have hk' : kind ≠ ContentsKind.header := hk
  simp only [(e1 kind hk' _ _).1, (e1 kind hk' _ _).2, kLinearInitValue]
  generalize RoundUp v.file_offset _ = f at h1 ⊢
  generalize RoundUp v.memory_address _ = m at h2 ⊢
  have hf0 : (f : Int) ≠ 0 := by omega
  have hm0 : (m : Int) ≠ 0 := by omega
  have hf1 : (f : Int) ≠ -1 := by omega
  have hm1 : (m : Int) ≠ -1 := by omega
  have bf : ((f : Int) != 0) = true := by simpa using hf0
  have bm : ((m : Int) != 0) = true := by simpa using hm0
  cases e : (fo != 0) <;> cases e2 : (ma != 0) <;>
    simp only [bne_eq_false_iff_eq, bne_iff_ne, ne_eq] at e e2 <;>
    simp [e, e2, hf0, hm0, hf1, hm1, bf, bm]

end ContentOffsetsVisitor

namespace WriteVisitor

/-- The write traversal on the child that layout leaves, for a child other than the
header, when the stream has reached the file cursor of layout: every assertion holds and
the stream reaches the file cursor that layout leaves; only a code signature with contents
ends hashing. -/
theorem Default_coupling (T : Target) (hl h3 : MachOHeader) (v : ContentOffsetsVisitor)
    (c : MachOContents) (stream : MachOWriteStream)
    (hsizes : T.HasMachOSizes = true) (hpages : T.HasPages = true)
    (htab : ∀ tb, (h3.table? tb).map (fun t => t.SelfMemorySize T) =
      (hl.table? tb).map (fun t => t.SelfMemorySize T))
    (hts : (h3.text_segment.bind fun ts => linearGet ts.file_offset_).isSome = true)
    (hk : c.kind ≠ ContentsKind.header) (hw : c.IsWritable T hl = true)
    (hvf : 0 < v.file_offset) (hvm : 0 < v.memory_address)
    (hp : stream.position_ = v.file_offset)
    (hsig : c.IsSignature = true → stream.has_hashes_ = true ∧ stream.hashing_ = true) :
    ∃ s2, Default T h3 stream (ContentOffsetsVisitor.Accept T hl v c).2 = some s2 ∧
      s2.position_ = (ContentOffsetsVisitor.Accept T hl v c).1.file_offset ∧
      s2.has_hashes_ = stream.has_hashes_ ∧
      s2.hashing_ = (stream.hashing_ && !c.IsSignature) := by
  obtain ⟨hal, hpow, hle⟩ := MachOContents.IsWritable_spec hw
  have ha := IsPowerOfTwo_pos hpow
  obtain ⟨k1, k2, k3, k4, k5, k6⟩ := ContentOffsetsVisitor.Accept_placed T hl v c hk ha hvf hvm
  have hfile := ContentOffsetsVisitor.Accept_file T hl v c ha
  have hA := ContentOffsetsVisitor.Accept_Alignment T hl v c
  generalize hc' : (ContentOffsetsVisitor.Accept T hl v c).2 = c' at *
  generalize (ContentOffsetsVisitor.Accept T hl v c).1 = v' at *
  have hk' : c'.kind ≠ ContentsKind.header := by rw [k1]; exact hk
  have hsig' : c'.IsSignature = c.IsSignature := by
    unfold MachOContents.IsSignature
    rw [k1, k2]
  cases hcont : c.HasContents with
  | false =>
      rw [hcont] at k2
      have hns : c.IsSignature = false := by
        unfold MachOContents.IsSignature
        rw [hcont]
        cases c.kind <;> rfl
      refine ⟨stream, ?_, ?_, rfl, ?_⟩
      · simp [Default, k2]
      · rw [hfile, k2]; simpa using hp
      · simp [hns]
  | true =>
      rw [hcont] at k2
      have k6 := k6 hcont
      have hw' : c'.IsWritable T h3 = true := by
        have e1 : c'.IsAllocated = true := by rw [k3]; exact hal
        unfold MachOContents.IsWritable at hw ⊢
        rw [e1, hA, k1, k2]
        rw [hal, hcont] at hw
        cases hkind : c.kind with
        | symbolTable table =>
            rw [hkind] at hw
            simp only [Bool.and_eq_true] at hw ⊢
            refine ⟨hw.1, ?_⟩
            have := htab table
            cases h1 : hl.table? table with
            | none => rw [h1] at hw; exact absurd hw.2 (by simp)
            | some t =>
                rw [h1] at this
                cases h2 : h3.table? table with
                | none => rw [h2] at this; cases this
                | some t2 => rfl
        | _ => rw [hkind] at hw; exact hw
      have hdiv : c'.Alignment T ∣ RoundUp v.file_offset (c.Alignment T) := by
        rw [hA]; exact RoundUp_dvd _ _
      have hali : (stream.Align T (c'.Alignment T)) =
          some { stream with position_ := RoundUp v.file_offset (c.Alignment T) } := by
        rw [MachOWriteStream.Align_eq T stream _ (fun _ => by rw [hA]; exact ⟨hpow, hle⟩),
          hA, hp]
      obtain ⟨s2, hs2, hpos, hhh, hhash⟩ := MachOContents.WriteSelf_child_spec T h3 c'
        { stream with position_ := RoundUp v.file_offset (c.Alignment T) }
        (RoundUp v.file_offset (c.Alignment T)) hsizes hpages hk' hw' k2 k6 k5 hdiv rfl
        (by rw [hsig']; exact hsig) hts
      have hsz : c'.FileSize T hl = c'.SelfMemorySize T h3 := by
        rw [← MachOHeader.FileSize_tables T htab c' hk']
        simp [MachOContents.FileSize, MachOContents.MemorySize, k2]
      have e1 : c'.IsAllocated = true := by rw [k3]; exact hal
      refine ⟨s2, ?_, ?_, hhh, ?_⟩
      · simp only [Default, k2, Bool.not_true, Bool.false_eq_true, if_false, hali,
          Option.bind_eq_bind, Option.some_bind, k6, MachOWriteStream.linearGet_natCast,
          MachOWriteStream.Position, hs2, hpos, MachOContents.SelfFileSize,
          MachOContents.FileSize, MachOContents.MemorySize, e1, Option.pure_def]
        simp [ASSERT]
      · rw [hpos, hfile, k2, if_pos rfl, hsz]
      · rw [hhash, hsig']

end WriteVisitor

theorem MachOSegment.FileSizeLoop_congr (T : Target) {h h1 : MachOHeader} :
    ∀ (cs : List MachOContents) (n : Nat),
      (∀ c ∈ cs, c.FileSize T h1 = c.FileSize T h) →
      MachOSegment.FileSizeLoop T h1 n cs = MachOSegment.FileSizeLoop T h n cs := by
  intro cs
  induction cs with
  | nil => intro n _; rfl
  | cons c cs ih =>
      intro n hall
      simp only [MachOSegment.FileSizeLoop, hall c (List.mem_cons_self _ _)]
      split_ifs
      · exact ih _ (fun c hc => hall c (List.mem_cons_of_mem _ hc))
      · exact ih _ (fun c hc => hall c (List.mem_cons_of_mem _ hc))

theorem MachOContents.IsSignature_of_no_contents {c : MachOContents}
    (h : c.HasContents = false) : c.IsSignature = false := by
  unfold MachOContents.IsSignature
  rw [h]
  cases c.kind <;> rfl

namespace WriteVisitor

/-- The write traversal on the children that layout leaves, none of which is the header,
when the stream has reached the file cursor of layout. -/
theorem VisitChildren_coupling (T : Target) (hl h3 : MachOHeader)
    (hsizes : T.HasMachOSizes = true) (hpages : T.HasPages = true)
    (htab : ∀ tb, (h3.table? tb).map (fun t => t.SelfMemorySize T) =
      (hl.table? tb).map (fun t => t.SelfMemorySize T))
    (hts : (h3.text_segment.bind fun ts => linearGet ts.file_offset_).isSome = true) :
    ∀ (cs : List MachOContents) (v : ContentOffsetsVisitor) (stream : MachOWriteStream),
      (∀ c ∈ cs, c.kind ≠ ContentsKind.header ∧ c.IsWritable T hl = true) →
      0 < v.file_offset → 0 < v.memory_address →
      stream.position_ = v.file_offset →
      cs.countP MachOContents.IsSignature ≤ 1 →
      (cs.any MachOContents.IsSignature = true →
        stream.has_hashes_ = true ∧ stream.hashing_ = true) →
      ∃ s2, VisitChildren T h3 stream (ContentOffsetsVisitor.VisitChildren T hl v cs).2 =
          some s2 ∧
        s2.position_ = (ContentOffsetsVisitor.VisitChildren T hl v cs).1.file_offset ∧
        s2.has_hashes_ = stream.has_hashes_ ∧
        s2.hashing_ = (stream.hashing_ && !cs.any MachOContents.IsSignature) := by
  intro cs
  induction cs with
  | nil =>
      intro v stream _ _ _ hp _ _
      exact ⟨stream, rfl, hp, rfl, by simp⟩
  | cons c cs ih =>
      intro v stream hall hvf hvm hp hcount hsig
      obtain ⟨hk, hw⟩ := hall c (List.mem_cons_self _ _)
      have ha := IsPowerOfTwo_pos (MachOContents.IsWritable_spec hw).2.1
      obtain ⟨m1, m2⟩ := ContentOffsetsVisitor.Accept_mono T hl v c ha
      obtain ⟨s1, e1, p1, hh1, hs1⟩ := Default_coupling T hl h3 v c stream hsizes hpages htab
        hts hk hw hvf hvm hp (fun hc => hsig (by simp [hc]))
      have hcount2 : cs.countP MachOContents.IsSignature ≤ 1 := by
        rw [List.countP_cons] at hcount
        omega
      have hsig2 : cs.any MachOContents.IsSignature = true →
          s1.has_hashes_ = true ∧ s1.hashing_ = true := by
        intro hany
        have hpos : 0 < cs.countP MachOContents.IsSignature := by
          rw [List.countP_pos_iff]
          simpa using hany
        have hc : c.IsSignature = false := by
          rw [List.countP_cons] at hcount
          cases hcs : c.IsSignature with
          | false => rfl
          | true => rw [hcs] at hcount; simp only [if_true] at hcount; omega
        have := hsig (by simp [hany])
        rw [hh1, hs1, hc]
        simpa using this
      obtain ⟨s2, e2, p2, hh2, hs2⟩ := ih (ContentOffsetsVisitor.Accept T hl v c).1 s1
        (fun c hc => hall c (List.mem_cons_of_mem _ hc)) (by omega) (by omega) p1 hcount2 hsig2
      refine ⟨s2, ?_, p2, by rw [hh2, hh1], ?_⟩
      · simp only [VisitChildren, ContentOffsetsVisitor.VisitChildren, List.foldlM_cons,
          e1, Option.bind_eq_bind, Option.some_bind]
        exact e2
      · rw [hs2, hs1, List.any_cons, Bool.not_or, Bool.and_assoc]

/-- The write traversal on children without contents leaves the stream as it is. -/
theorem VisitChildren_empty (T : Target) (h3 : MachOHeader) (stream : MachOWriteStream) :
    ∀ (cs : List MachOContents), (∀ c ∈ cs, c.HasContents = false) →
      VisitChildren T h3 stream cs = some stream := by
  intro cs
  induction cs with
  | nil => intro _; rfl
  | cons c cs ih =>
      intro hall
      have hc := hall c (List.mem_cons_self _ _)
      have := ih (fun c hc => hall c (List.mem_cons_of_mem _ hc))
      simp only [VisitChildren] at this ⊢
      simp only [List.foldlM_cons, Default, hc, Bool.not_false, if_true, Option.bind_eq_bind,
        Option.some_bind, this]

/-- The write traversal on the segment that layout leaves, for a segment with contents,
given the result of the traversal of its children: the stream is aligned to the page at
the file offset of the segment, and after the children and the padding it has advanced by
`FileSize()`. -/
theorem VisitMachOSegment_coupling (T : Target) (hl h3 : MachOHeader)
    (hpages : T.HasPages = true)
    (s : MachOSegment) (v : ContentOffsetsVisitor) (stream : MachOWriteStream) (X : Bool)
    (hinv : RoundUp stream.position_ T.kPageSize = RoundUp v.file_offset T.kPageSize)
    (hcont : s.HasContents = true)
    (hal : ∀ c ∈ s.contents_, 0 < c.Alignment T ∧ c.Alignment T ∣ T.kPageSize)
    (hsize : ∀ c ∈ (ContentOffsetsVisitor.VisitChildren T hl
        { v with file_offset := RoundUp v.file_offset T.kPageSize,
                 memory_address := RoundUp v.memory_address T.kPageSize } s.contents_).2,
      c.FileSize T h3 = c.FileSize T hl)
    (hchildren : ∃ s2, VisitChildren T h3
        { stream with position_ := RoundUp v.file_offset T.kPageSize }
        (ContentOffsetsVisitor.VisitChildren T hl
          { v with file_offset := RoundUp v.file_offset T.kPageSize,
                   memory_address := RoundUp v.memory_address T.kPageSize } s.contents_).2 =
          some s2 ∧
      s2.position_ = (ContentOffsetsVisitor.VisitChildren T hl
          { v with file_offset := RoundUp v.file_offset T.kPageSize,
                   memory_address := RoundUp v.memory_address T.kPageSize }
          s.contents_).1.file_offset ∧
      s2.has_hashes_ = stream.has_hashes_ ∧ s2.hashing_ = X) :
    ∃ s3, VisitMachOSegment T h3 stream (ContentOffsetsVisitor.VisitMachOSegment T hl v s).2 =
        some s3 ∧
      s3.position_ = (ContentOffsetsVisitor.VisitMachOSegment T hl v s).1.file_offset ∧
      s3.has_hashes_ = stream.has_hashes_ ∧ s3.hashing_ = X := by
  obtain ⟨_, _, hppow, _, _⟩ := Target.HasPages_spec hpages
  have hppos := IsPowerOfTwo_pos hppow
  obtain ⟨s2, e2, p2, hh2, hs2⟩ := hchildren
  have hfile := ContentOffsetsVisitor.VisitChildren_file T hl (RoundUp v.file_offset T.kPageSize)
    (RoundUp_dvd _ _) s.contents_
    { v with file_offset := RoundUp v.file_offset T.kPageSize,
             memory_address := RoundUp v.memory_address T.kPageSize } 0 hal rfl
  have hloop := MachOSegment.FileSizeLoop_congr T _ 0 hsize
  rw [← hloop] at hfile
  rw [ContentOffsetsVisitor.VisitMachOSegment_eq]
  generalize hcs : (ContentOffsetsVisitor.VisitChildren T hl
    { v with file_offset := RoundUp v.file_offset T.kPageSize,
             memory_address := RoundUp v.memory_address T.kPageSize } s.contents_) = r at *
  have hpad : ∀ x : MachOWriteStream, x.has_hashes_ = stream.has_hashes_ →
      x.Align T T.kPageSize = some { x with position_ := RoundUp x.position_ T.kPageSize } :=
    fun x _ => MachOWriteStream.Align_eq T x _ (fun _ => ⟨hppow, le_refl _⟩)
  have hcont' : ∀ (a b : Int) (cs : List MachOContents),
      ({ s with file_offset_ := a, memory_address_ := b, contents_ := cs } :
        MachOSegment).HasContents = true := fun _ _ _ => hcont
  have hself : ∀ (a b : Int) (cs : List MachOContents),
      ({ s with file_offset_ := a, memory_address_ := b, contents_ := cs } :
        MachOSegment).SelfFileSize = 0 := by
    intro a b cs
    simp [MachOSegment.SelfFileSize, MachOSegment.SelfMemorySize]
  by_cases hn : s.HasName SEG_LINKEDIT = true
  · refine ⟨s2, ?_, ?_, hh2, hs2⟩
    · simp only [VisitMachOSegment, hcont', Bool.not_true, Bool.false_eq_true, if_false,
        MachOSegment.Alignment, hpad stream rfl, hinv, Option.bind_eq_bind, Option.some_bind,
        MachOWriteStream.linearGet_natCast, MachOWriteStream.Position, hself,
        MachOSegment.PadFileSizeToAlignment, MachOSegment.HasName, e2,
        MachOSegment.FileSize] at hn ⊢
      simp [ASSERT, hn, p2, hfile]
    · simp only [hn, if_true]
      exact p2
  · simp only [Bool.not_eq_true] at hn
    refine ⟨{ s2 with position_ := RoundUp s2.position_ T.kPageSize }, ?_, ?_, hh2, hs2⟩
    · simp only [VisitMachOSegment, hcont', Bool.not_true, Bool.false_eq_true, if_false,
        MachOSegment.Alignment, hpad stream rfl, hinv, Option.bind_eq_bind, Option.some_bind,
        MachOWriteStream.linearGet_natCast, MachOWriteStream.Position, hself,
        MachOSegment.PadFileSizeToAlignment, MachOSegment.HasName, e2,
        MachOSegment.FileSize] at hn ⊢
      simp [ASSERT, hn, p2, hfile, hpad s2 hh2, RoundUp_add_of_dvd _ hppos (RoundUp_dvd _ _)]
    · simp only [hn, Bool.false_eq_true, if_false, p2]

end WriteVisitor

namespace ContentOffsetsVisitor

/-- Children without contents leave the file cursor of layout where it is, and have no
contents afterwards. -/
theorem VisitChildren_file_empty (T : Target) (h : MachOHeader) :
    ∀ (cs : List MachOContents) (v : ContentOffsetsVisitor),
      (∀ c ∈ cs, c.HasContents = false ∧ 0 < c.Alignment T) →
      (VisitChildren T h v cs).1.file_offset = v.file_offset ∧
        ∀ c ∈ (VisitChildren T h v cs).2, c.HasContents = false := by
  intro cs
  induction cs with
  | nil => intro v _; exact ⟨rfl, fun c hc => by cases hc⟩
  | cons c cs ih =>
      intro v hall
      obtain ⟨hc, ha⟩ := hall c (List.mem_cons_self _ _)
      have hfile := Accept_file T h v c ha
      have hc' : (Accept T h v c).2.HasContents = false := by
        rw [← hc]
        apply HasContents_congr (Accept_kind T h v c)
        rw [Accept_snd_eq, hc]
        rfl
      rw [hc'] at hfile
      obtain ⟨i1, i2⟩ := ih (Accept T h v c).1 (fun c hc => hall c (List.mem_cons_of_mem _ hc))
      simp only [VisitChildren]
      refine ⟨by rw [i1, hfile]; rfl, ?_⟩
      intro x hx
      rcases List.mem_cons.1 hx with rfl | hx
      · exact hc'
      · exact i2 x hx

end ContentOffsetsVisitor

namespace WriteVisitor

theorem VisitSegments_skip_nonsegments (T : Target) (h : MachOHeader) (stream : MachOWriteStream) :
    ∀ (a b : List MachOCommand), (∀ c ∈ a, c.AsMachOSegment = none) →
      VisitSegments T h stream (a ++ b) = VisitSegments T h stream b := by
  intro a
  induction a with
  | nil => intro b _; rfl
  | cons c cs ih =>
      intro b hall
      have hc := hall c (List.mem_cons_self _ _)
      cases c with
      | segment s => cases hc
      | other k x y z =>
          simp only [List.cons_append, VisitSegments]
          exact ih b (fun c hc => hall c (List.mem_cons_of_mem _ hc))

/-- The write traversal does not depend on the commands that are not segments, and
`syncCommand` changes only those. -/
theorem VisitSegments_syncCommand (T : Target) (h : MachOHeader)
    (children : List MachOContents) :
    ∀ (a : List MachOCommand) (stream : MachOWriteStream),
      VisitSegments T h stream (a.map (MachOHeader.syncCommand children)) =
        VisitSegments T h stream a := by
  intro a
  induction a with
  | nil => intro _; rfl
  | cons c cs ih =>
      intro stream
      cases c with
      | segment s =>
          simp only [List.map_cons, MachOHeader.syncCommand, VisitSegments, ih]
      | other k x y z =>
          have : ∃ x1 y1, MachOHeader.syncCommand children (.other k x y z) =
              .other k x1 y1 z := by
            simp only [MachOHeader.syncCommand]
            cases k.asContents? with
            | none => exact ⟨_, _, rfl⟩
            | some kk =>
                simp only
                cases children.find? fun c => c.kind == kk with
                | none => exact ⟨_, _, rfl⟩
                | some c => exact ⟨_, _, rfl⟩
          obtain ⟨x1, y1, e⟩ := this
          simp only [List.map_cons, e, VisitSegments, ih]

/-- The write traversal on the segments that layout leaves, none of which holds the
header, when the stream and the file cursor of layout agree up to the padding of a page. -/
theorem VisitSegments_coupling (T : Target) (hl h3 : MachOHeader)
    (hsizes : T.HasMachOSizes = true) (hpages : T.HasPages = true)
    (htab : ∀ tb, (h3.table? tb).map (fun t => t.SelfMemorySize T) =
      (hl.table? tb).map (fun t => t.SelfMemorySize T))
    (hts : (h3.text_segment.bind fun ts => linearGet ts.file_offset_).isSome = true) :
    ∀ (a : List MachOCommand) (v : ContentOffsetsVisitor) (stream : MachOWriteStream),
      (∀ s, MachOCommand.segment s ∈ a → s.CountsContents = true ∧
        ∀ c ∈ s.contents_, c.kind ≠ ContentsKind.header ∧ c.IsWritable T hl = true) →
      0 < v.file_offset → 0 < v.memory_address →
      RoundUp stream.position_ T.kPageSize = RoundUp v.file_offset T.kPageSize →
      (MachOHeader.allContents a).countP MachOContents.IsSignature ≤ 1 →
      ((MachOHeader.allContents a).any MachOContents.IsSignature = true →
        stream.has_hashes_ = true ∧ stream.hashing_ = true) →
      ∃ s2, VisitSegments T h3 stream (MachOHeader.VisitSegments T hl v a).2 = some s2 ∧
        RoundUp s2.position_ T.kPageSize =
          RoundUp (MachOHeader.VisitSegments T hl v a).1.file_offset T.kPageSize ∧
        s2.has_hashes_ = stream.has_hashes_ ∧
        s2.hashing_ =
          (stream.hashing_ && !(MachOHeader.allContents a).any MachOContents.IsSignature) := by
  obtain ⟨_, _, hppow, _, _⟩ := Target.HasPages_spec hpages
  have hppos := IsPowerOfTwo_pos hppow
  intro a
  induction a with
  | nil =>
      intro v stream _ _ _ hinv _ _
      exact ⟨stream, rfl, hinv, rfl, by simp [MachOHeader.allContents]⟩
  | cons c cs ih =>
      intro v stream hall hvf hvm hinv hcount hsig
      cases c with
      | other k x y z =>
          simp only [MachOHeader.VisitSegments, VisitSegments]
          exact ih v stream (fun s hs => hall s (List.mem_cons_of_mem _ hs)) hvf hvm hinv
            hcount hsig
      | segment s =>
          obtain ⟨hcc, hch⟩ := hall s (List.mem_cons_self _ _)
          have hal : ∀ c ∈ s.contents_, 0 < c.Alignment T ∧ c.Alignment T ∣ T.kPageSize := by
            intro c hc
            obtain ⟨_, q1, q2⟩ := MachOContents.IsWritable_spec (hch c hc).2
            exact ⟨IsPowerOfTwo_pos q1, IsPowerOfTwo_dvd q1 hppow q2⟩
          obtain ⟨_, _, m3, m4⟩ := ContentOffsetsVisitor.VisitMachOSegment_mono T hl v s hppos
            (fun c hc => (hal c hc).1)
          simp only [MachOHeader.allContents, List.countP_append, List.any_append] at hcount hsig
          have key : ∃ s1, VisitMachOSegment T h3 stream
                (ContentOffsetsVisitor.VisitMachOSegment T hl v s).2 = some s1 ∧
              RoundUp s1.position_ T.kPageSize =
                RoundUp (ContentOffsetsVisitor.VisitMachOSegment T hl v s).1.file_offset
                  T.kPageSize ∧
              s1.has_hashes_ = stream.has_hashes_ ∧
              s1.hashing_ =
                (stream.hashing_ && !s.contents_.any MachOContents.IsSignature) := by
            by_cases hcont : s.HasContents = true
            · have h1 := le_RoundUp v.file_offset T.kPageSize hppos
              have h2 := le_RoundUp v.memory_address T.kPageSize hppos
              have hchildren := VisitChildren_coupling T hl h3 hsizes hpages htab hts
                s.contents_
                { v with file_offset := RoundUp v.file_offset T.kPageSize,
                         memory_address := RoundUp v.memory_address T.kPageSize }
                { stream with position_ := RoundUp v.file_offset T.kPageSize }
                hch (by simp only; omega) (by simp only; omega) rfl (by omega)
                (fun hany => hsig (by simp [hany]))
              have hsize : ∀ c ∈ (ContentOffsetsVisitor.VisitChildren T hl
                  { v with file_offset := RoundUp v.file_offset T.kPageSize,
                           memory_address := RoundUp v.memory_address T.kPageSize }
                  s.contents_).2, c.FileSize T h3 = c.FileSize T hl := by
                intro c hc
                exact MachOHeader.FileSize_tables T htab c
                  (ContentOffsetsVisitor.VisitChildren_kind_mem T hl s.contents_ _
                    (fun k => k ≠ ContentsKind.header) (fun c hc => (hch c hc).1) c hc)
              obtain ⟨s1, e1, p1, q1, r1⟩ := VisitMachOSegment_coupling T hl h3 hpages s v
                stream _ hinv hcont hal hsize hchildren
              exact ⟨s1, e1, by rw [p1], q1, r1⟩
            · simp only [Bool.not_eq_true] at hcont
              have hnc : ∀ c ∈ s.contents_, c.HasContents = false := by
                have : s.next_contents_index_ = 0 := by
                  simpa [MachOSegment.HasContents] using hcont
                simpa [MachOSegment.CountsContents, this] using hcc
              obtain ⟨f1, f2⟩ := ContentOffsetsVisitor.VisitChildren_file_empty T hl s.contents_
                { v with file_offset := RoundUp v.file_offset T.kPageSize,
                         memory_address := RoundUp v.memory_address T.kPageSize }
                (fun c hc => ⟨hnc c hc, (hal c hc).1⟩)
              have hns : s.contents_.any MachOContents.IsSignature = false := by
                rw [List.any_eq_false]
                intro c hc
                simp [MachOContents.IsSignature_of_no_contents (hnc c hc)]
              refine ⟨stream, ?_, ?_, rfl, by simp [hns]⟩
              · rw [ContentOffsetsVisitor.VisitMachOSegment_eq]
                have : ∀ (a b : Int) (cs : List MachOContents),
                    ({ s with file_offset_ := a, memory_address_ := b, contents_ := cs } :
                      MachOSegment).HasContents = false := fun _ _ _ => hcont
                simp [VisitMachOSegment, this]
              · rw [ContentOffsetsVisitor.VisitMachOSegment_eq]
                simp only [f1]
                rw [hinv]
                split_ifs
                · rw [RoundUp_of_dvd hppos (RoundUp_dvd _ _)]
                · rw [RoundUp_of_dvd hppos (RoundUp_dvd _ _),
                    RoundUp_of_dvd hppos (RoundUp_dvd _ _)]
          obtain ⟨s1, e1, p1, q1, r1⟩ := key
          have hsig2 : (MachOHeader.allContents cs).any MachOContents.IsSignature = true →
              s1.has_hashes_ = true ∧ s1.hashing_ = true := by
            intro hany
            have hpos : 0 < (MachOHeader.allContents cs).countP MachOContents.IsSignature := by
              rw [List.countP_pos_iff]
              simpa using hany
            have h0 : s.contents_.any MachOContents.IsSignature = false := by
              have : s.contents_.countP MachOContents.IsSignature = 0 := by omega
              rw [List.countP_eq_zero] at this
              rw [List.any_eq_false]
              intro c hc
              simpa using this c hc
            have := hsig (by simp [hany])
            rw [q1, r1, h0]
            simpa using this
          obtain ⟨s2, e2, p2, q2, r2⟩ := ih
            (ContentOffsetsVisitor.VisitMachOSegment T hl v s).1 s1
            (fun s hs => hall s (List.mem_cons_of_mem _ hs)) (by omega) (by omega) p1
            (by omega) hsig2
          refine ⟨s2, ?_, p2, by rw [q2, q1], ?_⟩
          · simp only [MachOHeader.VisitSegments, VisitSegments, e1, Option.bind_eq_bind,
              Option.some_bind]
            exact e2
          · rw [r2, r1, MachOHeader.allContents, List.any_append, Bool.not_or,
              Bool.and_assoc]

end WriteVisitor

namespace WriteVisitor

/-- The write traversal on the header at the start of the file, given that
`MachOHeader::WriteSelf` writes `SelfMemorySize()` bytes there. -/
theorem Default_header (T : Target) (h3 : MachOHeader) (stream : MachOWriteStream)
    (hpages : T.HasPages = true) (hp : stream.position_ = 0)
    (hheader : h3.WriteSelf T stream =
      some { stream with position_ := h3.SelfMemorySize T }) :
    Default T h3 stream ⟨ContentsKind.header, 0, 0⟩ =
      some { stream with position_ := h3.SelfMemorySize T } := by
  obtain ⟨_, hwpow, _, _, hwp⟩ := Target.HasPages_spec hpages
  have hal : stream.Align T T.kWordSize = some stream := by
    rw [MachOWriteStream.Align_eq T stream _ (fun _ => ⟨hwpow, hwp⟩), hp, RoundUp_zero, ← hp]
  have hlin : linearGet (0 : Int) = some 0 := MachOWriteStream.linearGet_natCast 0
  simp only [Default, MachOContents.HasContents, MachOContents.Alignment, Bool.not_true,
    Bool.false_eq_true, if_false, hal, Option.bind_eq_bind, Option.some_bind, hlin,
    MachOWriteStream.Position, hp, MachOContents.WriteSelf, hheader,
    MachOContents.SelfFileSize, MachOContents.SelfMemorySize, MachOContents.IsAllocated,
    MachOContents.FileSize, MachOContents.MemorySize, Option.pure_def]
  simp [ASSERT]

/-- The write traversal of the commands that layout leaves, when the first segment holds
the header as its first child and no other child is the header: every assertion holds,
and hashing has ended when the stream is the hashing one. -/
theorem Write_coupling (T : Target) (hl h3 : MachOHeader)
    (hsizes : T.HasMachOSizes = true) (hpages : T.HasPages = true)
    (htab : ∀ tb, (h3.table? tb).map (fun t => t.SelfMemorySize T) =
      (hl.table? tb).map (fun t => t.SelfMemorySize T))
    (hts : (h3.text_segment.bind fun ts => linearGet ts.file_offset_).isSome = true)
    (hself : h3.SelfMemorySize T = hl.SelfMemorySize T)
    (a0 : List MachOCommand) (s0 : MachOSegment) (fo ma : Int) (cs0 : List MachOContents)
    (rest : List MachOCommand)
    (ha0 : ∀ c ∈ a0, c.AsMachOSegment = none)
    (hs0 : s0.contents_ = ⟨ContentsKind.header, fo, ma⟩ :: cs0)
    (hcc0 : s0.CountsContents = true)
    (hall0 : ∀ c ∈ cs0, c.kind ≠ ContentsKind.header ∧ c.IsWritable T hl = true)
    (hall : ∀ s, MachOCommand.segment s ∈ rest → s.CountsContents = true ∧
      ∀ c ∈ s.contents_, c.kind ≠ ContentsKind.header ∧ c.IsWritable T hl = true)
    (hcount : (cs0 ++ MachOHeader.allContents rest).countP MachOContents.IsSignature ≤ 1)
    (H : Bool) (hH : H = (cs0 ++ MachOHeader.allContents rest).any MachOContents.IsSignature)
    (hheader : ∀ stream : MachOWriteStream, stream.position_ = 0 →
      h3.WriteSelf T stream = some { stream with position_ := h3.SelfMemorySize T }) :
    ∃ s, VisitSegments T h3 (MachOWriteStream.create H)
        (MachOHeader.VisitSegments T hl ContentOffsetsVisitor.init
          (a0 ++ MachOCommand.segment s0 :: rest)).2 = some s ∧
      s.has_hashes_ = H ∧ s.hashing_ = false := by
  obtain ⟨hh, _⟩ := Target.HasMachOSizes_spec hsizes
  obtain ⟨_, hwpow, hppow, _, hwp⟩ := Target.HasPages_spec hpages
  have hppos := IsPowerOfTwo_pos hppow
  have hwpos := IsPowerOfTwo_pos hwpow
  have hselfpos : 0 < hl.SelfMemorySize T := by
    have : hl.SelfMemorySize T =
        T.sizeofHeaderType + (hl.commands_.map fun c => c.cmdsize T).sum :=
      MachOHeader.foldl_cmdsize_sum T _ _
    rw [this, hh]
    split_ifs <;> omega
  rw [MachOHeader.VisitSegments_first T hl a0 s0 rest _ ha0,
    VisitSegments_skip_nonsegments T h3 _ a0 _ ha0]
  simp only [List.countP_append, List.any_append] at hcount hH
  -- the children of the initial segment
  have hv1 : ({ ContentOffsetsVisitor.init with
      file_offset := RoundUp ContentOffsetsVisitor.init.file_offset T.kPageSize,
      memory_address := RoundUp ContentOffsetsVisitor.init.memory_address T.kPageSize } :
      ContentOffsetsVisitor) = ContentOffsetsVisitor.init := by
    simp [ContentOffsetsVisitor.init, RoundUp_zero]
  obtain ⟨b1, b2, b3⟩ := ContentOffsetsVisitor.Accept_header T hl ContentOffsetsVisitor.init
    fo ma rfl rfl
  have hal : ∀ c ∈ s0.contents_, 0 < c.Alignment T ∧ c.Alignment T ∣ T.kPageSize := by
    intro c hc
    rw [hs0] at hc
    rcases List.mem_cons.1 hc with rfl | hc
    · exact ⟨hwpos, IsPowerOfTwo_dvd hwpow hppow hwp⟩
    · obtain ⟨_, q1, q2⟩ := MachOContents.IsWritable_spec (hall0 c hc).2
      exact ⟨IsPowerOfTwo_pos q1, IsPowerOfTwo_dvd q1 hppow q2⟩
  have hstream0 : ({ MachOWriteStream.create H with
      position_ := RoundUp ContentOffsetsVisitor.init.file_offset T.kPageSize } :
      MachOWriteStream) = MachOWriteStream.create H := by
    simp [MachOWriteStream.create, ContentOffsetsVisitor.init, RoundUp_zero]
  have hsigH : cs0.any MachOContents.IsSignature = true →
      H = true ∧ H = true := by
    intro hany
    rw [hH, hany]
    exact ⟨rfl, rfl⟩
  obtain ⟨s1, e1, p1, q1, r1⟩ := VisitChildren_coupling T hl h3 hsizes hpages htab hts cs0
    (ContentOffsetsVisitor.Accept T hl ContentOffsetsVisitor.init
      ⟨ContentsKind.header, fo, ma⟩).1
    { MachOWriteStream.create H with position_ := h3.SelfMemorySize T }
    hall0 (by rw [b2]; exact hselfpos) (by rw [b3]; exact hselfpos)
    (by rw [b2]; exact hself) (by omega) hsigH
  have hchildren : ∃ s2, VisitChildren T h3
        { MachOWriteStream.create H with
          position_ := RoundUp ContentOffsetsVisitor.init.file_offset T.kPageSize }
        (ContentOffsetsVisitor.VisitChildren T hl
          { ContentOffsetsVisitor.init with
            file_offset := RoundUp ContentOffsetsVisitor.init.file_offset T.kPageSize,
            memory_address := RoundUp ContentOffsetsVisitor.init.memory_address T.kPageSize }
          s0.contents_).2 = some s2 ∧
      s2.position_ = (ContentOffsetsVisitor.VisitChildren T hl
          { ContentOffsetsVisitor.init with
            file_offset := RoundUp ContentOffsetsVisitor.init.file_offset T.kPageSize,
            memory_address := RoundUp ContentOffsetsVisitor.init.memory_address T.kPageSize }
          s0.contents_).1.file_offset ∧
      s2.has_hashes_ = (MachOWriteStream.create H).has_hashes_ ∧
      s2.hashing_ = (H && !cs0.any MachOContents.IsSignature) := by
    rw [hv1, hstream0, hs0]
    refine ⟨s1, ?_, p1, q1, r1⟩
    simp only [ContentOffsetsVisitor.VisitChildren, VisitChildren, List.foldlM_cons, b1,
      Default_header T h3 (MachOWriteStream.create H) hpages rfl (hheader _ rfl),
      Option.bind_eq_bind, Option.some_bind]
    exact e1
  have hsize : ∀ c ∈ (ContentOffsetsVisitor.VisitChildren T hl
      { ContentOffsetsVisitor.init with
        file_offset := RoundUp ContentOffsetsVisitor.init.file_offset T.kPageSize,
        memory_address := RoundUp ContentOffsetsVisitor.init.memory_address T.kPageSize }
      s0.contents_).2, c.FileSize T h3 = c.FileSize T hl := by
    intro c hc
    rw [hv1, hs0] at hc
    simp only [ContentOffsetsVisitor.VisitChildren, b1] at hc
    rcases List.mem_cons.1 hc with rfl | hc
    · simp [MachOContents.FileSize, MachOContents.MemorySize, MachOContents.SelfMemorySize,
        hself]
    · exact MachOHeader.FileSize_tables T htab c
        (ContentOffsetsVisitor.VisitChildren_kind_mem T hl cs0 _
          (fun k => k ≠ ContentsKind.header) (fun c hc => (hall0 c hc).1) c hc)
  have hcont0 : s0.HasContents = true := by
    simp only [MachOSegment.CountsContents, hs0, List.all_cons, MachOContents.HasContents,
      Bool.not_true, Bool.false_and, Bool.or_false, bne_iff_ne, ne_eq] at hcc0
    simp only [MachOSegment.HasContents, decide_eq_true_eq]
    omega
  obtain ⟨s2, e2, p2, q2, r2⟩ := VisitMachOSegment_coupling T hl h3 hpages s0
    ContentOffsetsVisitor.init (MachOWriteStream.create H) _ rfl hcont0 hal hsize hchildren
  obtain ⟨_, _, m3, m4⟩ := ContentOffsetsVisitor.VisitMachOSegment_mono T hl
    ContentOffsetsVisitor.init s0 hppos (fun c hc => (hal c hc).1)
  -- the cursors after the initial segment are positive
  have hal0 : ∀ c ∈ cs0, 0 < c.Alignment T := by
    intro c hc
    exact IsPowerOfTwo_pos (MachOContents.IsWritable_spec (hall0 c hc).2).2.1
  have hpos : 0 < (ContentOffsetsVisitor.VisitMachOSegment T hl ContentOffsetsVisitor.init
        s0).1.file_offset ∧
      0 < (ContentOffsetsVisitor.VisitMachOSegment T hl ContentOffsetsVisitor.init
        s0).1.memory_address := by
    rw [ContentOffsetsVisitor.VisitMachOSegment_eq, hv1, hs0]
    simp only [ContentOffsetsVisitor.VisitChildren]
    obtain ⟨n1, n2⟩ := ContentOffsetsVisitor.VisitChildren_mono T hl cs0
      (ContentOffsetsVisitor.Accept T hl ContentOffsetsVisitor.init
        ⟨ContentsKind.header, fo, ma⟩).1 hal0
    rw [b2] at n1
    rw [b3] at n2
    constructor
    · split_ifs
      · omega
      · have := le_RoundUp (ContentOffsetsVisitor.VisitChildren T hl
          (ContentOffsetsVisitor.Accept T hl ContentOffsetsVisitor.init
            ⟨ContentsKind.header, fo, ma⟩).1 cs0).1.file_offset T.kPageSize hppos
        omega
    · have := le_RoundUp (ContentOffsetsVisitor.VisitChildren T hl
        (ContentOffsetsVisitor.Accept T hl ContentOffsetsVisitor.init
          ⟨ContentsKind.header, fo, ma⟩).1 cs0).1.memory_address T.kPageSize hppos
      omega
  have hsig2 : (MachOHeader.allContents rest).any MachOContents.IsSignature = true →
      s2.has_hashes_ = true ∧ s2.hashing_ = true := by
    intro hany
    have hp0 : 0 < (MachOHeader.allContents rest).countP MachOContents.IsSignature := by
      rw [List.countP_pos_iff]
      simpa using hany
    have h0 : cs0.any MachOContents.IsSignature = false := by
      have : cs0.countP MachOContents.IsSignature = 0 := by omega
      rw [List.countP_eq_zero] at this
      rw [List.any_eq_false]
      intro c hc
      simpa using this c hc
    rw [q2, r2, h0, hH, hany]
    simp [MachOWriteStream.create]
  obtain ⟨s3, e3, _, q3, r3⟩ := VisitSegments_coupling T hl h3 hsizes hpages htab hts rest
    (ContentOffsetsVisitor.VisitMachOSegment T hl ContentOffsetsVisitor.init s0).1 s2
    hall hpos.1 hpos.2 (by rw [p2]) (by omega) hsig2
  refine ⟨s3, ?_, by rw [q3, q2]; rfl, ?_⟩
  · simp only [VisitSegments, e2, Option.bind_eq_bind, Option.some_bind]
    exact e3
  · rw [r3, r2, hH]
    cases cs0.any MachOContents.IsSignature <;>
      cases (MachOHeader.allContents rest).any MachOContents.IsSignature <;> rfl

end WriteVisitor

namespace ContentOffsetsVisitor

/-- Layout leaves every child with its offsets set. -/
theorem Accept_set (T : Target) (h : MachOHeader) (v : ContentOffsetsVisitor)
    (c : MachOContents) (hf : c.HasContents = false → c.file_offset_ ≠ kLinearInitValue)
    (hm : c.IsAllocated = false → c.memory_address_ ≠ kLinearInitValue) :
    (Accept T h v c).2.file_offset_ ≠ kLinearInitValue ∧
      (Accept T h v c).2.memory_address_ ≠ kLinearInitValue := by
  rw [Accept_snd_eq]
  simp only [kLinearInitValue] at hf hm ⊢
  constructor
  · cases e : c.HasContents with
    | true => simp only [if_true]; omega
    | false => simpa using hf e
  · cases e : c.IsAllocated with
    | true => simp only [if_true]; omega
    | false => simpa using hm e

theorem VisitChildren_set (T : Target) (h : MachOHeader) :
    ∀ (cs : List MachOContents) (v : ContentOffsetsVisitor),
      (∀ c ∈ cs, (c.HasContents = false → c.file_offset_ ≠ kLinearInitValue) ∧
        (c.IsAllocated = false → c.memory_address_ ≠ kLinearInitValue)) →
      ∀ c ∈ (VisitChildren T h v cs).2,
        c.file_offset_ ≠ kLinearInitValue ∧ c.memory_address_ ≠ kLinearInitValue := by
  intro cs
  induction cs with
  | nil => intro v _ c hc; cases hc
  | cons x cs ih =>
      intro v hall c hc
      simp only [VisitChildren] at hc
      rcases List.mem_cons.1 hc with rfl | hc
      · exact Accept_set T h v x (hall x (List.mem_cons_self _ _)).1
          (hall x (List.mem_cons_self _ _)).2
      · exact ih _ (fun c hc => hall c (List.mem_cons_of_mem _ hc)) c hc

/-- A child without contents or not allocated that is not the header has the offset 0. -/
theorem unset_of_not_header {c : MachOContents} (hk : c.kind ≠ ContentsKind.header) :
    (c.HasContents = false → c.file_offset_ ≠ kLinearInitValue) ∧
      (c.IsAllocated = false → c.memory_address_ ≠ kLinearInitValue) := by
  rcases c with ⟨kind, fo, ma⟩
  cases kind <;> first
    | exact absurd rfl hk
    | (simp only [MachOContents.HasContents, MachOContents.IsAllocated, bne_eq_false_iff_eq,
        kLinearInitValue]
       constructor <;> intro e <;> rw [e] <;> decide)

theorem unset_of_header {c : MachOContents} (hk : c.kind = ContentsKind.header) :
    (c.HasContents = false → c.file_offset_ ≠ kLinearInitValue) ∧
      (c.IsAllocated = false → c.memory_address_ ≠ kLinearInitValue) := by
  rcases c with ⟨kind, fo, ma⟩
  simp only at hk
  subst hk
  constructor <;> intro e <;> cases e

theorem unset (c : MachOContents) :
    (c.HasContents = false → c.file_offset_ ≠ kLinearInitValue) ∧
      (c.IsAllocated = false → c.memory_address_ ≠ kLinearInitValue) := by
  by_cases hk : c.kind = ContentsKind.header
  · exact unset_of_header hk
  · exact unset_of_not_header hk

/-- Layout with positive cursors leaves allocated children other than the header
allocated. -/
theorem VisitChildren_allocated (T : Target) (h : MachOHeader) :
    ∀ (cs : List MachOContents) (v : ContentOffsetsVisitor),
      (∀ c ∈ cs, c.kind ≠ ContentsKind.header ∧ c.IsAllocated = true ∧ 0 < c.Alignment T) →
      0 < v.file_offset → 0 < v.memory_address →
      ∀ c ∈ (VisitChildren T h v cs).2, c.kind ≠ ContentsKind.header ∧ c.IsAllocated = true := by
  intro cs
  induction cs with
  | nil => intro v _ _ _ c hc; cases hc
  | cons x cs ih =>
      intro v hall hvf hvm c hc
      obtain ⟨hk, ha, hp⟩ := hall x (List.mem_cons_self _ _)
      simp only [VisitChildren] at hc
      rcases List.mem_cons.1 hc with rfl | hc
      · obtain ⟨k1, _, k3, _⟩ := Accept_placed T h v x hk hp hvf hvm
        exact ⟨by rw [k1]; exact hk, by rw [k3]; exact ha⟩
      · obtain ⟨m1, m2⟩ := Accept_mono T h v x hp
        exact ih _ (fun c hc => hall c (List.mem_cons_of_mem _ hc)) (by omega) (by omega) c hc

end ContentOffsetsVisitor

namespace MachOHeader

/-- Layout leaves every segment with its offsets and those of its children set. -/
theorem VisitSegments_set (T : Target) (h : MachOHeader) :
    ∀ (a : List MachOCommand) (v : ContentOffsetsVisitor) (s : MachOSegment),
      MachOCommand.segment s ∈ (VisitSegments T h v a).2 →
      (MachOCommand.segment s).HasOffsets = true := by
  intro a
  induction a with
  | nil => intro v s hs; cases hs
  | cons c cs ih =>
      intro v s hs
      cases c with
      | other k x y z =>
          simp only [VisitSegments] at hs
          rcases List.mem_cons.1 hs with e | hs
          · cases e
          · exact ih v s hs
      | segment s0 =>
          simp only [VisitSegments] at hs
          rcases List.mem_cons.1 hs with e | hs
          · injection e with e
            subst e
            rw [ContentOffsetsVisitor.VisitMachOSegment_eq]
            simp only [MachOCommand.HasOffsets, Bool.and_eq_true, bne_iff_ne, ne_eq,
              List.all_eq_true, kLinearInitValue]
            refine ⟨⟨by omega, by omega⟩, ?_⟩
            intro c hc
            exact ContentOffsetsVisitor.VisitChildren_set T h s0.contents_ _
              (fun c _ => ContentOffsetsVisitor.unset c) c hc
          · exact ih _ s hs

/-- Layout keeps the commands that are no segments. -/
theorem VisitSegments_others (T : Target) (h : MachOHeader) :
    ∀ (a : List MachOCommand) (v : ContentOffsetsVisitor) (c : MachOCommand),
      c ∈ (VisitSegments T h v a).2 → c.AsMachOSegment = none → c ∈ a := by
  intro a
  induction a with
  | nil => intro v c hc; cases hc
  | cons x cs ih =>
      intro v c hc hn
      cases x with
      | other k x y z =>
          simp only [VisitSegments] at hc
          rcases List.mem_cons.1 hc with e | hc
          · rw [e]; exact List.mem_cons_self _ _
          · exact List.mem_cons_of_mem _ (ih v c hc hn)
      | segment s0 =>
          simp only [VisitSegments] at hc
          rcases List.mem_cons.1 hc with e | hc
          · rw [e] at hn; cases hn
          · exact List.mem_cons_of_mem _ (ih _ c hc hn)

/-- Layout keeps the kinds of the children. -/
theorem VisitSegments_kinds (T : Target) (h : MachOHeader) :
    ∀ (a : List MachOCommand) (v : ContentOffsetsVisitor),
      (allContents (VisitSegments T h v a).2).map (fun c => c.kind) =
        (allContents a).map (fun c => c.kind) := by
  intro a
  induction a with
  | nil => intro v; rfl
  | cons x cs ih =>
      intro v
      cases x with
      | other k x y z =>
          simp only [VisitSegments, allContents]
          exact ih v
      | segment s0 =>
          simp only [VisitSegments, allContents, List.map_append, ih]
          rw [ContentOffsetsVisitor.VisitMachOSegment_eq]
          simp only [ContentOffsetsVisitor.VisitChildren_kinds]

/-- Layout keeps which commands are segments. -/
theorem VisitSegments_isSegment (T : Target) (h : MachOHeader) :
    ∀ (a : List MachOCommand) (v : ContentOffsetsVisitor),
      (VisitSegments T h v a).2.map (fun c => c.AsMachOSegment.isSome) =
        a.map (fun c => c.AsMachOSegment.isSome) := by
  intro a
  induction a with
  | nil => intro v; rfl
  | cons x cs ih =>
      intro v
      cases x with
      | other k x y z =>
          simp only [VisitSegments, List.map_cons, ih]
      | segment s0 =>
          simp only [VisitSegments, List.map_cons]
          rw [ih]
          rfl

/-- Layout with positive cursors leaves the allocated children of segments without the
header allocated. -/
theorem VisitSegments_allocated (T : Target) (h : MachOHeader) (hpage : 0 < T.kPageSize) :
    ∀ (a : List MachOCommand) (v : ContentOffsetsVisitor),
      (∀ c ∈ allContents a,
        c.kind ≠ ContentsKind.header ∧ c.IsAllocated = true ∧ 0 < c.Alignment T) →
      0 < v.file_offset → 0 < v.memory_address →
      ∀ c ∈ allContents (VisitSegments T h v a).2,
        c.kind ≠ ContentsKind.header ∧ c.IsAllocated = true := by
  intro a
  induction a with
  | nil => intro v _ _ _ c hc; cases hc
  | cons x cs ih =>
      intro v hall hvf hvm c hc
      cases x with
      | other k x y z =>
          simp only [VisitSegments, allContents] at hc hall
          exact ih v hall hvf hvm c hc
      | segment s0 =>
          simp only [VisitSegments, allContents, List.mem_append] at hc hall
          obtain ⟨_, _, m3, m4⟩ := ContentOffsetsVisitor.VisitMachOSegment_mono T h v s0 hpage
            (fun c hc => (hall c (Or.inl hc)).2.2)
          rcases hc with hc | hc
          · rw [ContentOffsetsVisitor.VisitMachOSegment_eq] at hc
            have h1 := le_RoundUp v.file_offset T.kPageSize hpage
            have h2 := le_RoundUp v.memory_address T.kPageSize hpage
            exact ContentOffsetsVisitor.VisitChildren_allocated T h s0.contents_ _
              (fun c hc => hall c (Or.inl hc)) (by simp only; omega) (by simp only; omega) c hc
          · exact ih _ (fun c hc => hall c (Or.inr hc)) (by omega) (by omega) c hc

theorem set_header_offset_shape {c c1 : MachOCommand} {v : Int}
    (h : set_header_offset c v = some c1) :
    c1.AsMachOSegment.isSome = c.AsMachOSegment.isSome ∧
      allContents [c1] = allContents [c] ∧
      (∀ s1, c1 = .segment s1 → ∃ s, c = .segment s ∧ s1 = { s with header_offset_ := v }) ∧
      (∀ k x y z, c1 = .other k x y z → ∃ z0, c = .other k x y z0) := by
  cases c with
  | segment s =>
      rw [set_header_offset_segment h]
      refine ⟨rfl, rfl, ?_, ?_⟩
      · intro s1 e; injection e with e; exact ⟨s, rfl, e.symm⟩
      · intro k x y z e; cases e
  | other k x y z =>
      rw [set_header_offset_other h]
      refine ⟨rfl, rfl, ?_, ?_⟩
      · intro s1 e; cases e
      · intro k1 x1 y1 z1 e; injection e with e1 e2 e3 e4; subst e1 e2 e3; exact ⟨z, rfl⟩

/-- The first loop of `ComputeOffsets` changes only the header offsets. -/
theorem setHeaderOffsets_shape (T : Target) :
    ∀ (a : List MachOCommand) (n : Nat) (a1 : List MachOCommand),
      setHeaderOffsets T n a = some a1 →
      a1.map (fun c => c.AsMachOSegment.isSome) = a.map (fun c => c.AsMachOSegment.isSome) ∧
        allContents a1 = allContents a := by
  intro a
  induction a with
  | nil =>
      intro n a1 h
      simp only [setHeaderOffsets, Option.some.injEq] at h
      subst h
      exact ⟨rfl, rfl⟩
  | cons c cs ih =>
      intro n a1 h
      obtain ⟨x1, r1, n1, hx, hr, rfl⟩ := setHeaderOffsets_cons T h
      obtain ⟨i1, i2⟩ := ih n1 r1 hr
      obtain ⟨q1, q2, _, _⟩ := set_header_offset_shape hx
      refine ⟨by simp only [List.map_cons, q1, i1], ?_⟩
      have e1 : allContents (x1 :: r1) = allContents [x1] ++ allContents r1 :=
        Spec.allContents_append [x1] r1
      have e2 : allContents (c :: cs) = allContents [c] ++ allContents cs :=
        Spec.allContents_append [c] cs
      rw [e1, e2, q2, i2]

end MachOHeader

namespace MachOHeader

/-- After `ComputeOffsets` the commands keep their `cmdsize` and command code, which are
segments is kept, and the header offset of the command at position `i` is the size of the
header record plus the `cmdsize` of the commands before it. -/
theorem ComputeOffsets_header_offsets {T : Target} {h2 h3 : MachOHeader}
    (hc : ComputeOffsets T h2 = some h3) :
    h3.commands_.map (fun c => c.cmdsize T) = h2.commands_.map (fun c => c.cmdsize T) ∧
    h3.commands_.map (fun c => c.cmd T) = h2.commands_.map (fun c => c.cmd T) ∧
    h3.commands_.map (fun c => c.AsMachOSegment.isSome) =
      h2.commands_.map (fun c => c.AsMachOSegment.isSome) ∧
    (∀ i c, h3.commands_[i]? = some c →
      c.header_offset_ =
        ((T.sizeofHeaderType + ((h3.commands_.take i).map fun c => c.cmdsize T).sum : Nat) :
          Int)) := by
  obtain ⟨commands, hset, h3c, _⟩ := ComputeOffsets_commands hc
  have hsize : h3.commands_.map (fun c => c.cmdsize T) =
      h2.commands_.map (fun c => c.cmdsize T) := by
    rw [h3c, List.map_map]
    have : ((fun c => MachOCommand.cmdsize T c) ∘ syncCommand
        (allContents (VisitSegments T { h2 with commands_ := commands }
          ContentOffsetsVisitor.init commands).2)) = fun c => MachOCommand.cmdsize T c := by
      funext c
      exact (syncCommand_cmdsize T _ c).1
    rw [this, (VisitSegments_cmdsize T _ _ _).1, (setHeaderOffsets_cmd T _ _ _ hset).2]
  have hcmd : h3.commands_.map (fun c => c.cmd T) = h2.commands_.map (fun c => c.cmd T) := by
    rw [h3c, List.map_map]
    have : ((fun c => MachOCommand.cmd T c) ∘ syncCommand
        (allContents (VisitSegments T { h2 with commands_ := commands }
          ContentOffsetsVisitor.init commands).2)) = fun c => MachOCommand.cmd T c := by
      funext c
      exact (syncCommand_cmd T _ c).1
    rw [this, VisitSegments_cmd, (setHeaderOffsets_cmd T _ _ _ hset).1]
  have hseg : h3.commands_.map (fun c => c.AsMachOSegment.isSome) =
      h2.commands_.map (fun c => c.AsMachOSegment.isSome) := by
    rw [h3c, List.map_map]
    have : ((fun c => (MachOCommand.AsMachOSegment c).isSome) ∘ syncCommand
        (allContents (VisitSegments T { h2 with commands_ := commands }
          ContentOffsetsVisitor.init commands).2)) =
        fun c => (MachOCommand.AsMachOSegment c).isSome := by
      funext c
      simp only [Function.comp, (syncCommand_cmd T _ c).2]
    rw [this, VisitSegments_isSegment, (setHeaderOffsets_shape T _ _ _ hset).1]
  have hoff : h3.commands_.map MachOCommand.header_offset_ =
      commands.map MachOCommand.header_offset_ := by
    rw [h3c, List.map_map]
    have : (MachOCommand.header_offset_ ∘ syncCommand
        (allContents (VisitSegments T { h2 with commands_ := commands }
          ContentOffsetsVisitor.init commands).2)) = MachOCommand.header_offset_ := by
      funext c
      exact (syncCommand_cmdsize T _ c).2
    rw [this, (VisitSegments_cmdsize T _ _ _).2]
  refine ⟨hsize, hcmd, hseg, ?_⟩
  intro i c hic
  have h1 : (h3.commands_.map MachOCommand.header_offset_)[i]? = some c.header_offset_ := by
    rw [List.getElem?_map, hic]; rfl
  rw [hoff, List.getElem?_map] at h1
  cases hci : commands[i]? with
  | none => rw [hci] at h1; cases h1
  | some c0 =>
      rw [hci] at h1
      simp only [Option.map_some', Option.some.injEq] at h1
      have h2' := setHeaderOffsets_offsets T _ _ _ hset i c0 hci
      have e : (h3.commands_.take i).map (fun c => c.cmdsize T) =
          (h2.commands_.take i).map (fun c => c.cmdsize T) := by
        rw [List.map_take, List.map_take, hsize]
      rw [← h1, h2', e]
      rfl

end MachOHeader

namespace MachOHeader

/-- What `IsReadyForLayout` says of the commands of a header. -/
theorem IsReadyForLayout_spec {T : Target} {h : MachOHeader}
    (hready : h.IsReadyForLayout T = true) :
    ∃ (b0 : List MachOCommand) (t0 : MachOSegment) (brest : List MachOCommand)
      (fo ma : Int) (cs0 : List MachOContents),
      h.commands_ = b0 ++ MachOCommand.segment t0 :: brest ∧
      (∀ c ∈ b0, c.AsMachOSegment = none) ∧
      t0.contents_ = ⟨ContentsKind.header, fo, ma⟩ :: cs0 ∧
      (∀ c ∈ cs0 ++ allContents brest,
        c.kind ≠ ContentsKind.header ∧ c.IsWritable T h = true) ∧
      t0.CountsContents = true ∧
      (∀ s, MachOCommand.segment s ∈ brest → s.CountsContents = true) ∧
      (cs0 ++ allContents brest).countP MachOContents.IsSignature ≤ 1 ∧
      h.HasCommand T LC_CODE_SIGNATURE =
        (cs0 ++ allContents brest).any MachOContents.IsSignature ∧
      h.text_segment.isSome = true ∧
      (∀ c ∈ h.commands_,
        c.HasNode ((⟨ContentsKind.header, fo, ma⟩ : MachOContents) ::
          (cs0 ++ allContents brest)) = true) := by
  simp only [IsReadyForLayout, Bool.and_eq_true, decide_eq_true_eq, beq_iff_eq,
    List.all_eq_true] at hready
  obtain ⟨⟨⟨⟨⟨⟨r1, r2⟩, r3⟩, r4⟩, r5⟩, r6⟩, r7⟩ := hready
  have hsplit := List.takeWhile_append_dropWhile MachOCommand.IsNoSegment h.commands_
  cases hd : h.commands_.dropWhile MachOCommand.IsNoSegment with
  | nil => rw [hd] at r1; cases r1
  | cons x brest =>
      rw [hd] at r1 hsplit
      cases x with
      | other k a b c => cases r1
      | segment t0 =>
          simp only [MachOSegment.IsInitial] at r1
          cases hc : t0.contents_ with
          | nil => rw [hc] at r1; cases r1
          | cons c0 cs0 =>
              rw [hc] at r1
              simp only [beq_iff_eq] at r1
              rcases c0 with ⟨kind, fo, ma⟩
              simp only at r1
              subst r1
              have hb0 : ∀ c ∈ h.commands_.takeWhile MachOCommand.IsNoSegment,
                  c.AsMachOSegment = none := by
                intro c hc
                have := List.mem_takeWhile_imp hc
                simpa [MachOCommand.IsNoSegment] using this
              have hall : allContents h.commands_ =
                  (⟨ContentsKind.header, fo, ma⟩ : MachOContents) ::
                    (cs0 ++ allContents brest) := by
                rw [← hsplit, Spec.allContents_append, Spec.allContents_nonsegments _ hb0,
                  allContents, hc]
                rfl
              rw [hall] at r2 r4 r5 r7
              simp only [List.drop_succ_cons, List.drop_zero, bne_iff_ne, ne_eq] at r2
              refine ⟨_, t0, brest, fo, ma, cs0, hsplit.symm, hb0, hc, r2, ?_, ?_, ?_, ?_,
                r6, r7⟩
              · exact r3 (.segment t0) (by rw [← hsplit]; simp)
              · intro s hs
                exact r3 (.segment s) (by rw [← hsplit]; simp [hs])
              · rw [List.countP_cons] at r4
                omega
              · rw [r5, List.any_cons]
                simp [MachOContents.IsSignature]

end MachOHeader

namespace MachOHeader

theorem mem_allContents :
    ∀ (l : List MachOCommand) (c : MachOContents),
      c ∈ allContents l ↔ ∃ s, MachOCommand.segment s ∈ l ∧ c ∈ s.contents_ := by
  intro l
  induction l with
  | nil => intro c; simp [allContents]
  | cons x xs ih =>
      intro c
      cases x with
      | other k a b d =>
          simp only [allContents, ih, List.mem_cons]
          constructor
          · rintro ⟨s, h1, h2⟩; exact ⟨s, Or.inr h1, h2⟩
          · rintro ⟨s, h1 | h1, h2⟩
            · cases h1
            · exact ⟨s, h1, h2⟩
      | segment s0 =>
          simp only [allContents, List.mem_append, ih, List.mem_cons, MachOCommand.segment.injEq]
          constructor
          · rintro (h1 | ⟨s, h1, h2⟩)
            · exact ⟨s0, Or.inl rfl, h1⟩
            · exact ⟨s, Or.inr h1, h2⟩
          · rintro ⟨s, h1 | h1, h2⟩
            · left; rw [← h1]; exact h2
            · right; exact ⟨s, h1, h2⟩

theorem SelfMemorySize_pos {T : Target} (hsizes : T.HasMachOSizes = true) (h : MachOHeader) :
    0 < h.SelfMemorySize T := by
  obtain ⟨hh, _⟩ := Target.HasMachOSizes_spec hsizes
  have : h.SelfMemorySize T =
      T.sizeofHeaderType + (h.commands_.map fun c => c.cmdsize T).sum :=
    foldl_cmdsize_sum T _ _
  rw [this, hh]
  split_ifs <;> omega

/-- Layout of commands whose first segment starts with the header leaves every other
allocated child allocated. -/
theorem VisitSegments_initial_allocated (T : Target) (hl : MachOHeader)
    (hsizes : T.HasMachOSizes = true) (hpages : T.HasPages = true)
    (a0 : List MachOCommand) (s0 : MachOSegment) (fo ma : Int) (cs0 : List MachOContents)
    (rest : List MachOCommand)
    (ha0 : ∀ c ∈ a0, c.AsMachOSegment = none)
    (hs0 : s0.contents_ = ⟨ContentsKind.header, fo, ma⟩ :: cs0)
    (hall : ∀ c ∈ cs0 ++ allContents rest,
      c.kind ≠ ContentsKind.header ∧ c.IsAllocated = true ∧ 0 < c.Alignment T) :
    ∀ c ∈ allContents (VisitSegments T hl ContentOffsetsVisitor.init
        (a0 ++ MachOCommand.segment s0 :: rest)).2,
      c.kind ≠ ContentsKind.header → c.IsAllocated = true := by
  obtain ⟨_, hwpow, hppow, _, hwp⟩ := Target.HasPages_spec hpages
  have hppos := IsPowerOfTwo_pos hppow
  have hwpos := IsPowerOfTwo_pos hwpow
  have hselfpos := SelfMemorySize_pos hsizes hl
  intro c hc hk
  rw [VisitSegments_first T hl a0 s0 rest _ ha0, Spec.allContents_append,
    Spec.allContents_nonsegments _ ha0, List.nil_append, allContents, List.mem_append] at hc
  have hv1 : ({ ContentOffsetsVisitor.init with
      file_offset := RoundUp ContentOffsetsVisitor.init.file_offset T.kPageSize,
      memory_address := RoundUp ContentOffsetsVisitor.init.memory_address T.kPageSize } :
      ContentOffsetsVisitor) = ContentOffsetsVisitor.init := by
    simp [ContentOffsetsVisitor.init, RoundUp_zero]
  obtain ⟨b1, b2, b3⟩ := ContentOffsetsVisitor.Accept_header T hl ContentOffsetsVisitor.init
    fo ma rfl rfl
  have hal0 : ∀ c ∈ cs0, c.kind ≠ ContentsKind.header ∧ c.IsAllocated = true ∧
      0 < c.Alignment T := fun c hc => hall c (List.mem_append_left _ hc)
  rcases hc with hc | hc
  · rw [ContentOffsetsVisitor.VisitMachOSegment_eq, hv1, hs0] at hc
    simp only [ContentOffsetsVisitor.VisitChildren, b1] at hc
    rcases List.mem_cons.1 hc with rfl | hc
    · exact absurd rfl hk
    · exact (ContentOffsetsVisitor.VisitChildren_allocated T hl cs0 _ hal0
        (by rw [b2]; exact hselfpos) (by rw [b3]; exact hselfpos) c hc).2
  · have hpos : 0 < (ContentOffsetsVisitor.VisitMachOSegment T hl ContentOffsetsVisitor.init
          s0).1.file_offset ∧
        0 < (ContentOffsetsVisitor.VisitMachOSegment T hl ContentOffsetsVisitor.init
          s0).1.memory_address := by
      rw [ContentOffsetsVisitor.VisitMachOSegment_eq, hv1, hs0]
      simp only [ContentOffsetsVisitor.VisitChildren]
      obtain ⟨n1, n2⟩ := ContentOffsetsVisitor.VisitChildren_mono T hl cs0
        (ContentOffsetsVisitor.Accept T hl ContentOffsetsVisitor.init
          ⟨ContentsKind.header, fo, ma⟩).1 (fun c hc => (hal0 c hc).2.2)
      rw [b2] at n1
      rw [b3] at n2
      constructor
      · split_ifs
        · omega
        · have := le_RoundUp (ContentOffsetsVisitor.VisitChildren T hl
            (ContentOffsetsVisitor.Accept T hl ContentOffsetsVisitor.init
              ⟨ContentsKind.header, fo, ma⟩).1 cs0).1.file_offset T.kPageSize hppos
          omega
      · have := le_RoundUp (ContentOffsetsVisitor.VisitChildren T hl
          (ContentOffsetsVisitor.Accept T hl ContentOffsetsVisitor.init
            ⟨ContentsKind.header, fo, ma⟩).1 cs0).1.memory_address T.kPageSize hppos
        omega
    exact (VisitSegments_allocated T hl hppos rest _
      (fun c hc => hall c (List.mem_append_right _ hc)) hpos.1 hpos.2 c hc).2

/-- `syncCommand` with the children that layout leaves gives a command whose offsets are
set, when the node of the command is among the children. -/
theorem syncCommand_HasOffsets (children : List MachOContents) (c : MachOCommand)
    (hseg : ∀ s, c = .segment s → (MachOCommand.segment s).HasOffsets = true)
    (hnode : c.HasNode children = true)
    (hset : ∀ x ∈ children, x.file_offset_ ≠ kLinearInitValue)
    (halloc : ∀ x ∈ children, x.kind ≠ ContentsKind.header → x.IsAllocated = true) :
    (syncCommand children c).HasOffsets = true := by
  cases c with
  | segment s => exact hseg s rfl
  | other k x y z =>
      simp only [syncCommand, MachOCommand.HasNode] at hnode ⊢
      cases hk : k.asContents? with
      | none => simp [MachOCommand.HasOffsets, hk]
      | some kk =>
          rw [hk] at hnode
          simp only [List.any_eq_true] at hnode
          obtain ⟨w, hw, hwk⟩ := hnode
          cases hf : children.find? fun c => c.kind == kk with
          | none =>
              have := List.find?_eq_none.1 hf w hw
              exact absurd hwk this
          | some c' =>
              have hmem := List.mem_of_find?_eq_some hf
              have hkind : c'.kind = kk := by
                have := List.find?_some hf
                simpa using this
              have hnh : kk ≠ ContentsKind.header := by
                cases k <;> simp [CommandKind.asContents?] at hk <;> rw [← hk] <;> simp
              have h1 := hset c' hmem
              have h2 := halloc c' hmem (by rw [hkind]; exact hnh)
              have h3 : c'.memory_address_ ≠ 0 := by
                rcases c' with ⟨kd, f, m⟩
                simp only at hkind
                subst hkind
                cases kd <;> first
                  | exact absurd rfl hnh
                  | simpa [MachOContents.IsAllocated] using h2
              simp only [hf]
              simp [MachOCommand.HasOffsets, hk, h1, h3]

end MachOHeader

namespace MachOHeader

/-- The write traversal of the header that `ComputeOffsets` leaves passes every assertion:
the stream reaches every node at its file offset and leaves it after `FileSize()` bytes. -/
theorem Write_of_ComputeOffsets (T : Target) (h2 h3 : MachOHeader)
    (hsizes : T.HasMachOSizes = true) (hpages : T.HasPages = true)
    (hios : T.targetOsMacOSIOS = false)
    (hready : h2.IsReadyForLayout T = true)
    (hco : ComputeOffsets T h2 = some h3)
    (hfit : h3.FitsIn32Bits T = true) :
    ∃ stream, h3.Write T = some stream ∧
      stream.has_hashes_ = h3.HasCommand T LC_CODE_SIGNATURE ∧ stream.hashing_ = false := by
  obtain ⟨_, hwpow, hppow, _, hwp⟩ := Target.HasPages_spec hpages
  have hppos := IsPowerOfTwo_pos hppow
  obtain ⟨b0, t0, brest, fo, ma, cs0, hcmds2, hb0, ht0, hw, hcc0, hcc, hcount, hH, htext,
    hnode⟩ := IsReadyForLayout_spec hready
  obtain ⟨k1, k2, k3, k4⟩ := ComputeOffsets_header_offsets hco
  obtain ⟨commands, hset, h3c, htxt, _, _, htab, _⟩ := ComputeOffsets_commands hco
  have hsetmem := (setHeaderOffsets_mem T _ _ _ hset).2
  have hsetcmd := (setHeaderOffsets_cmd T _ _ _ hset).2
  have hsetshape := (setHeaderOffsets_shape T _ _ _ hset).2
  -- the commands after the first loop
  have hset2 := hset
  rw [hcmds2] at hset2
  obtain ⟨a0, x, n1, hs_a0, hs_x, hcommands⟩ := setHeaderOffsets_append T b0 _ _ _ hset2
  obtain ⟨x1, rest, n2, hx1, hs_rest, rfl⟩ := setHeaderOffsets_cons T hs_x
  have hx1' := set_header_offset_segment hx1
  have ha0 := setHeaderOffsets_nonsegments T hs_a0 hb0
  have hrestC := (setHeaderOffsets_shape T _ _ _ hs_rest).2
  have hrestmem := (setHeaderOffsets_mem T _ _ _ hs_rest).2
  obtain ⟨s0, hs0c, hs0cc, rfl⟩ : ∃ s0 : MachOSegment, s0.contents_ = t0.contents_ ∧
      s0.CountsContents = t0.CountsContents ∧ x1 = MachOCommand.segment s0 :=
    ⟨{ t0 with header_offset_ := (n1 : Int) }, rfl, rfl, hx1'⟩
  rw [← hs0c] at ht0
  rw [← hs0cc] at hcc0
  subst hcommands
  generalize hhl : ({ h2 with commands_ := a0 ++ MachOCommand.segment s0 :: rest } :
    MachOHeader) = hl at *
  have htabl : ∀ tb, hl.table? tb = h2.table? tb := by
    intro tb
    rw [← hhl]
    cases tb <;> rfl
  have htab' : ∀ tb, (h3.table? tb).map (fun t => t.SelfMemorySize T) =
      (hl.table? tb).map (fun t => t.SelfMemorySize T) := by
    intro tb
    rw [htabl]
    exact htab tb
  have hwl : ∀ c : MachOContents, c.IsWritable T hl = c.IsWritable T h2 := by
    intro c
    unfold MachOContents.IsWritable
    cases c.kind <;> simp only [htabl]
  have hlcmds : hl.commands_ = a0 ++ MachOCommand.segment s0 :: rest := by
    rw [← hhl]
  -- the children after the first loop
  have hall0 : ∀ c ∈ cs0, c.kind ≠ ContentsKind.header ∧ c.IsWritable T hl = true := by
    intro c hc
    rw [hwl]
    exact hw c (List.mem_append_left _ hc)
  have hallr : ∀ s, MachOCommand.segment s ∈ rest → s.CountsContents = true ∧
      ∀ c ∈ s.contents_, c.kind ≠ ContentsKind.header ∧ c.IsWritable T hl = true := by
    intro s hs
    obtain ⟨c, hc, v, hv⟩ := hrestmem _ hs
    obtain ⟨s', rfl, rfl⟩ := (set_header_offset_shape hv).2.2.1 s rfl
    refine ⟨hcc s' hc, ?_⟩
    intro c hc'
    rw [hwl]
    exact hw c (List.mem_append_right _ ((mem_allContents _ _).2 ⟨s', hc, hc'⟩))
  -- the sizes of the header
  have hself : h3.SelfMemorySize T = hl.SelfMemorySize T := by
    have e1 : h3.SelfMemorySize T =
        T.sizeofHeaderType + (h3.commands_.map fun c => c.cmdsize T).sum :=
      foldl_cmdsize_sum T _ _
    have e2 : hl.SelfMemorySize T =
        T.sizeofHeaderType + (hl.commands_.map fun c => c.cmdsize T).sum :=
      foldl_cmdsize_sum T _ _
    rw [e1, e2, k1, hlcmds, hsetcmd]
  -- the text segment
  have hout : ∀ s, MachOCommand.segment s ∈ h3.commands_ →
      (MachOCommand.segment s).HasOffsets = true := by
    intro s hs
    rw [h3c] at hs
    exact VisitSegments_set T _ _ _ s (syncCommand_segment_mem _ hs)
  have hts : (h3.text_segment.bind fun ts => linearGet ts.file_offset_).isSome = true := by
    unfold MachOHeader.text_segment at htext ⊢
    rw [htxt]
    cases hi : h2.text_segment_ with
    | none => rw [hi] at htext; cases htext
    | some i =>
        rw [hi] at htext
        simp only [Option.some_bind, segmentAt?, List.get?_eq_getElem?] at htext ⊢
        have hmap := congrArg (fun l => l[i]?) k3
        simp only [List.getElem?_map] at hmap
        cases h2i : h2.commands_[i]? with
        | none => rw [h2i] at htext; cases htext
        | some c2 =>
            rw [h2i] at htext hmap
            cases h3i : h3.commands_[i]? with
            | none => rw [h3i] at hmap; cases hmap
            | some c3 =>
                rw [h3i] at hmap
                simp only [Option.map_some', Option.some.injEq, Option.some_bind] at hmap htext ⊢
                rw [← hmap] at htext
                cases c3 with
                | other k a b d => cases htext
                | segment ts =>
                    have := hout ts (List.getElem?_mem h3i)
                    simp only [MachOCommand.HasOffsets, Bool.and_eq_true, bne_iff_ne,
                      ne_eq] at this
                    obtain ⟨n, hn⟩ := linearGet_isSome this.1.2
                    simp [MachOCommand.AsMachOSegment, hn]
  -- the offsets of the commands
  have hkinds : (allContents (VisitSegments T hl ContentOffsetsVisitor.init
      (a0 ++ MachOCommand.segment s0 :: rest)).2).map
        (fun c => c.kind) =
      ((⟨ContentsKind.header, fo, ma⟩ : MachOContents) :: (cs0 ++ allContents brest)).map
        (fun c => c.kind) := by
    rw [VisitSegments_kinds, Spec.allContents_append,
      Spec.allContents_nonsegments _ ha0, allContents, ht0, hrestC]
    rfl
  have hchildset : ∀ x ∈ allContents (VisitSegments T hl ContentOffsetsVisitor.init
      (a0 ++ MachOCommand.segment s0 :: rest)).2,
      x.file_offset_ ≠ kLinearInitValue := by
    intro x hx
    obtain ⟨s, hs, hxs⟩ := (mem_allContents _ _).1 hx
    have := VisitSegments_set T _ _ _ s hs
    simp only [MachOCommand.HasOffsets, Bool.and_eq_true, bne_iff_ne, ne_eq,
      List.all_eq_true] at this
    exact (this.2 x hxs).1
  have hchildalloc := VisitSegments_initial_allocated T hl hsizes hpages a0
    s0 fo ma cs0 rest ha0 ht0
    (by
      intro c hc
      rw [hrestC] at hc
      obtain ⟨q1, q2⟩ := hw c hc
      obtain ⟨q3, q4, _⟩ := MachOContents.IsWritable_spec q2
      exact ⟨q1, q3, IsPowerOfTwo_pos q4⟩)
  have hoffs : ∀ c ∈ h3.commands_, c.FitsIn32Bits T h3 = true ∧ c.HasOffsets = true := by
    intro c hc
    refine ⟨by simpa [MachOHeader.FitsIn32Bits] using
      (List.all_eq_true.1 hfit) c hc, ?_⟩
    rw [h3c] at hc
    obtain ⟨c1, hc1, rfl⟩ := List.mem_map.1 hc
    apply syncCommand_HasOffsets _ c1
    · intro s hs
      subst hs
      exact VisitSegments_set T _ _ _ s hc1
    · cases c1 with
      | segment s => rfl
      | other k a b d =>
          have hin := VisitSegments_others T _ _ _ _ hc1 rfl
          obtain ⟨c2, hc2, v, hv⟩ := hsetmem _ hin
          obtain ⟨d0, rfl⟩ := (set_header_offset_shape hv).2.2.2 k a b d rfl
          have hn := hnode _ hc2
          simp only [MachOCommand.HasNode] at hn ⊢
          cases hk : k.asContents? with
          | none => rfl
          | some kk =>
              rw [hk] at hn
              simp only [List.any_eq_true] at hn ⊢
              obtain ⟨w, hw1, hw2⟩ := hn
              have hmem : kk ∈ ((⟨ContentsKind.header, fo, ma⟩ : MachOContents) ::
                  (cs0 ++ allContents brest)).map (fun c => c.kind) := by
                rw [List.mem_map]
                exact ⟨w, hw1, by simpa using hw2⟩
              rw [← hkinds, List.mem_map] at hmem
              obtain ⟨w', hw1', hw2'⟩ := hmem
              exact ⟨w', hw1', by simpa using hw2'⟩
    · exact hchildset
    · exact hchildalloc
  have hheader : ∀ stream : MachOWriteStream, stream.position_ = 0 →
      h3.WriteSelf T stream = some { stream with position_ := h3.SelfMemorySize T } :=
    fun stream hp => WriteSelf_header_spec T h3 stream hsizes hpages hios hp hoffs k4
  -- whether the stream hashes
  have hH3 : h3.HasCommand T LC_CODE_SIGNATURE =
      (cs0 ++ allContents rest).any MachOContents.IsSignature := by
    rw [hrestC, ← hH]
    have e : ∀ h : MachOHeader, h.HasCommand T LC_CODE_SIGNATURE =
        (h.commands_.map fun c => c.cmd T).any (fun x => x == LC_CODE_SIGNATURE) := by
      intro h
      unfold MachOHeader.HasCommand
      generalize h.commands_ = l
      induction l with
      | nil => rfl
      | cons c cs ih => simp only [List.any_cons, List.map_cons, ih]
    rw [e, e, k2]
  obtain ⟨s, e, q, r⟩ := WriteVisitor.Write_coupling T hl h3 hsizes hpages htab' hts hself a0
    s0 fo ma cs0 rest ha0 ht0 hcc0 hall0 hallr
    (by rw [hrestC]; exact hcount) _ hH3 hheader
  refine ⟨s, ?_, q, r⟩
  simp only [MachOHeader.Write, Option.bind_eq_bind]
  rw [h3c, WriteVisitor.VisitSegments_syncCommand, e]
  simp [r, ASSERT]

end MachOHeader

namespace WriteVisitor

/-- What the assertions of `WriteVisitor::Default` say when the visit of a child returns. -/
theorem Default_some {T : Target} {h : MachOHeader} {stream s2 : MachOWriteStream}
    {c : MachOContents} (hd : Default T h stream c = some s2) :
    (c.HasContents = false → s2 = stream) ∧
    (c.HasContents = true →
      linearGet c.file_offset_ = some (RoundUp stream.position_ (c.Alignment T)) ∧
      c.WriteSelf T h { stream with position_ := RoundUp stream.position_ (c.Alignment T) } =
        some s2 ∧
      s2.position_ = RoundUp stream.position_ (c.Alignment T) + c.SelfFileSize T h ∧
      s2.position_ = RoundUp stream.position_ (c.Alignment T) + c.FileSize T h) := by
  unfold Default at hd
  cases hcont : c.HasContents with
  | false =>
      simp only [hcont, Bool.not_false, if_true, Option.some.injEq] at hd
      exact ⟨fun _ => hd.symm, fun e => Bool.noConfusion e⟩
  | true =>
      simp only [hcont, Bool.not_true, Bool.false_eq_true, if_false, Option.bind_eq_bind,
        Option.pure_def, Option.bind_eq_some, Option.some.injEq, ASSERT_eq_some,
        MachOWriteStream.Position, beq_iff_eq] at hd
      obtain ⟨s1, ha, f, hf, _, hstart, s3, hw, _, hself, _, _, _, hfile, rfl⟩ := hd
      have hs1 := MachOWriteStream.Align_some ha
      subst hs1
      simp only at hstart hself hfile hw
      refine ⟨fun e => Bool.noConfusion e, fun _ => ⟨?_, hw, ?_, ?_⟩⟩
      · rw [hf, hstart]
      · omega
      · omega

/-- What the assertions of `WriteVisitor::Default` say when the visit of a segment
returns. -/
theorem VisitMachOSegment_some {T : Target} {h : MachOHeader} {stream s2 : MachOWriteStream}
    {segment : MachOSegment} (hd : VisitMachOSegment T h stream segment = some s2) :
    (segment.HasContents = false → s2 = stream) ∧
    (segment.HasContents = true →
      linearGet segment.file_offset_ = some (RoundUp stream.position_ (segment.Alignment T)) ∧
      segment.SelfFileSize = 0 ∧
      s2.position_ =
        RoundUp stream.position_ (segment.Alignment T) + segment.FileSize T h) := by
  unfold VisitMachOSegment at hd
  cases hcont : segment.HasContents with
  | false =>
      simp only [hcont, Bool.not_false, if_true, Option.some.injEq] at hd
      exact ⟨fun _ => hd.symm, fun e => Bool.noConfusion e⟩
  | true =>
      simp only [hcont, Bool.not_true, Bool.false_eq_true, if_false, Option.bind_eq_bind,
        Option.pure_def, Option.bind_eq_some, Option.some.injEq, ASSERT_eq_some,
        MachOWriteStream.Position, beq_iff_eq] at hd
      obtain ⟨s1, ha, f, hf, _, hstart, _, hself, _, _, s3, _, hrest⟩ := hd
      have hs1 := MachOWriteStream.Align_some ha
      subst hs1
      simp only at hstart hrest
      have hend : (s2.position_ : Int) - (RoundUp stream.position_ (segment.Alignment T) : Nat) =
          segment.FileSize T h := by
        split_ifs at hrest
        · simp only [Option.bind_eq_some, ASSERT_eq_some, beq_iff_eq, Option.some.injEq] at hrest
          obtain ⟨y, _, _, hy, rfl⟩ := hrest
          exact hy
        · simp only [Option.some_bind, Option.bind_eq_some, ASSERT_eq_some, beq_iff_eq,
            Option.some.injEq] at hrest
          obtain ⟨_, hy, rfl⟩ := hrest
          exact hy
      refine ⟨fun e => Bool.noConfusion e, fun _ => ⟨?_, hself, ?_⟩⟩
      · rw [hf, hstart]
      · omega

end WriteVisitor

/-- C31: the write traversal (`WriteVisitor`) of the header that `ComputeOffsets` leaves of
a header as `FinalizeCommands` builds it passes every assertion on a target other than iOS
when the load commands fit in 32 bits, and ends with hashing finalized when the stream is
the hashing one. Whenever the visit of a node with contents returns, the stream position
after aligning to `Alignment()` is the `file_offset()` of the node, `WriteSelf` has
written `SelfFileSize()` bytes, and the stream has advanced from the aligned position by
`FileSize()` bytes for the node, its children and its end padding; the visit of a node
without contents leaves the stream as it is. -/
theorem C31_write_traversal_positions (T : Target) (h2 h3 : MachOHeader)
    (hsizes : T.HasMachOSizes = true) (hpages : T.HasPages = true)
    (hios : T.targetOsMacOSIOS = false)
    (hready : h2.IsReadyForLayout T = true)
    (hco : MachOHeader.ComputeOffsets T h2 = some h3)
    (hfit : h3.FitsIn32Bits T = true) :
    (∃ stream, h3.Write T = some stream ∧
      stream.has_hashes_ = h3.HasCommand T LC_CODE_SIGNATURE ∧ stream.hashing_ = false) ∧
    (∀ (stream s2 : MachOWriteStream) (c : MachOContents),
      WriteVisitor.Default T h3 stream c = some s2 →
      (c.HasContents = false → s2 = stream) ∧
      (c.HasContents = true →
        linearGet c.file_offset_ = some (RoundUp stream.position_ (c.Alignment T)) ∧
        c.WriteSelf T h3
            { stream with position_ := RoundUp stream.position_ (c.Alignment T) } = some s2 ∧
        s2.position_ = RoundUp stream.position_ (c.Alignment T) + c.SelfFileSize T h3 ∧
        s2.position_ = RoundUp stream.position_ (c.Alignment T) + c.FileSize T h3)) ∧
    (∀ (stream s2 : MachOWriteStream) (segment : MachOSegment),
      WriteVisitor.VisitMachOSegment T h3 stream segment = some s2 →
      (segment.HasContents = false → s2 = stream) ∧
      (segment.HasContents = true →
        linearGet segment.file_offset_ =
          some (RoundUp stream.position_ (segment.Alignment T)) ∧
        segment.SelfFileSize = 0 ∧
        s2.position_ =
          RoundUp stream.position_ (segment.Alignment T) + segment.FileSize T h3)) :=
  ⟨MachOHeader.Write_of_ComputeOffsets T h2 h3 hsizes hpages hios hready hco hfit,
    fun _ _ _ hd => WriteVisitor.Default_some hd,
    fun _ _ _ hd => WriteVisitor.VisitMachOSegment_some hd⟩

theorem C31_write_traversal_positions_witness :
    (∃ stream, MachOHeader.sampleFinalized.Write Target.example64 = some stream ∧
      stream.has_hashes_ =
        MachOHeader.sampleFinalized.HasCommand Target.example64 LC_CODE_SIGNATURE ∧
      stream.hashing_ = false) ∧
    (∀ (stream s2 : MachOWriteStream) (c : MachOContents),
      WriteVisitor.Default Target.example64 MachOHeader.sampleFinalized stream c = some s2 →
      (c.HasContents = false → s2 = stream) ∧
      (c.HasContents = true →
        linearGet c.file_offset_ =
          some (RoundUp stream.position_ (c.Alignment Target.example64)) ∧
        c.WriteSelf Target.example64 MachOHeader.sampleFinalized
            { stream with
              position_ := RoundUp stream.position_ (c.Alignment Target.example64) } =
          some s2 ∧
        s2.position_ = RoundUp stream.position_ (c.Alignment Target.example64) +
          c.SelfFileSize Target.example64 MachOHeader.sampleFinalized ∧
        s2.position_ = RoundUp stream.position_ (c.Alignment Target.example64) +
          c.FileSize Target.example64 MachOHeader.sampleFinalized)) ∧
    (∀ (stream s2 : MachOWriteStream) (segment : MachOSegment),
      WriteVisitor.VisitMachOSegment Target.example64 MachOHeader.sampleFinalized stream
          segment = some s2 →
      (segment.HasContents = false → s2 = stream) ∧
      (segment.HasContents = true →
        linearGet segment.file_offset_ =
          some (RoundUp stream.position_ (segment.Alignment Target.example64)) ∧
        segment.SelfFileSize = 0 ∧
        s2.position_ = RoundUp stream.position_ (segment.Alignment Target.example64) +
          segment.FileSize Target.example64 MachOHeader.sampleFinalized)) :=
  C31_write_traversal_positions Target.example64 MachOHeader.sampleBeforeOffsets
    MachOHeader.sampleFinalized (by decide) (by decide) (by decide) (by decide!) (by decide!)
    (by decide!)

end MachO
